import Mathlib

/-!
# Blitzcrank: delayed coding, SquID models and quantization

A shallow embedding of the coding core of the Blitzcrank compressor
(`delayed_coding/src/utility.cpp`, `delayed_coding/include/model.h`,
`delay_blitzcrank/src/categorical_model.cpp`, `delay_blitzcrank/src/numerical_model.cpp`,
`arithmetic_coding/src/utility.cpp`) together with the properties proved about it.

Conventions of the embedding:
* `std::vector<T>` is `List T`; an element access that the C++ code performs without a
  bounds check is `l[i]?` inside `Option` where the index is data dependent.
* `int` values that the code subtracts are `Int`; `unsigned`/`uint64_t` values are `Nat`,
  with an explicit `% 2^w` where the C++ arithmetic is modular.
* The vectors `S` and `L` of `InitDelayedCodingParams` are used as stacks
  (`back`/`pop_back`/`push_back`); they are lists whose head is the vector's back.
-/

namespace db_compress

/-! ## Data model (`base.h`) -/

/-- Probability interval `[left_prob_, right_prob_)` in units of `1/65536`. -/
structure ProbInterval where
  left_prob_ : Int
  right_prob_ : Int
deriving DecidableEq, Repr

/-- Outcome of a choice: the segments it occupies and the sum of their widths. -/
structure Branch where
  segments_ : List ProbInterval
  total_weights_ : Nat
deriving DecidableEq, Repr

/-- Parameters of delayed coding for one weight vector. A `std::pair<int, int>` is
`(first, second) = (width, branch index)`. -/
structure DelayedCodingParams where
  branches_ : List Branch
  segment_left_branches_ : List (Int × Nat)
  segment_right_branches_ : List (Int × Nat)
  numerator_helper_ : List Int
  num_represent_bits_ : Nat
deriving DecidableEq, Repr

/-- The constant `kDelayedCoding` of `base.h`. -/
def kDelayedCoding : Nat := 24

/-- The constant `kNumBranch` of `base.h`. -/
def kNumBranch : Nat := 512

/-- The constant `kIntervalSize` of `base.h`: the compressor sizes `prob_intervals_` as
`(block_size << 8) + kIntervalSize`. -/
def kIntervalSize : Nat := 10000

/-- Conversion of a signed value to `uint64_t`. -/
def toU64 (x : Int) : Nat := (x % 2 ^ 64).toNat

/-- Conversion of a signed value to `unsigned` (32 bits). -/
def toU32 (x : Int) : Nat := (x % 2 ^ 32).toNat

/-- Conversion of a signed value to `uint16_t`. -/
def toU16 (x : Int) : Nat := (x % 2 ^ 16).toNat

/-- Conversion of an `unsigned` value to `int` (32 bits, two's complement). -/
def toI32 (n : Nat) : Int :=
  if n % 2 ^ 32 < 2 ^ 31 then ((n % 2 ^ 32 : Nat) : Int) else ((n % 2 ^ 32 : Nat) : Int) - 2 ^ 32

/-! ## `GetEmbeddedBytes` and `InitDelayedCodingParams` (`utility.cpp`) -/

/-- `GetEmbeddedBytes(branch, num)`: the position of the `num`-th point of the branch's
segments; `-1` converted to `uint16_t` when `num` is not below the total width. The
subtraction `num -= width` is only reached with `width <= num`, so it does not wrap. -/
def GetEmbeddedBytes : List ProbInterval → Nat → Nat
  | [], _ => 65535
  | segment :: rest, num =>
    if toU64 (segment.right_prob_ - segment.left_prob_) > num then
      toU16 (segment.left_prob_ + num)
    else
      GetEmbeddedBytes rest (num - toU64 (segment.right_prob_ - segment.left_prob_))

/-- The loop `for i < weights.size(): if (weights[i] == 0) continue; emplace_back(weights[i], i)`,
started at index `i`. -/
def validWeightsFrom : Nat → List Nat → List (Int × Nat)
  | _, [] => []
  | i, w :: ws =>
    if w = 0 then validWeightsFrom (i + 1) ws
    else ((w : Int), i) :: validWeightsFrom (i + 1) ws

/-- The loop `while ((1 << num_bits) < n) ++num_bits`, with `fuel` iterations allowed. -/
def numBitsLoop (n : Nat) : Nat → Nat → Nat
  | 0, num_bits => num_bits
  | fuel + 1, num_bits =>
    if 2 ^ num_bits < n then numBitsLoop n fuel (num_bits + 1) else num_bits

/-- Number of bits needed to represent `n` branches; `n` iterations always suffice. -/
def numRepresentBits (n : Nat) : Nat := numBitsLoop n n 0

/-- The value `1 << (16 - num_bits)`. -/
def slotWidth (num_bits : Nat) : Int := 2 ^ (16 - num_bits)

/-- The test `(first >> (16 - num_bits)) < 1` that sends a branch to `S`. -/
def isSmall (num_bits : Nat) (first : Int) : Bool :=
  decide (first >>> (16 - num_bits) < 1)

/-- Insertion of `newly_branch_segs` into `S` or `L`. -/
def reinsert (num_bits : Nat) (newly : Int × Nat) (S L : List (Int × Nat)) :
    List (Int × Nat) × List (Int × Nat) :=
  if isSmall num_bits newly.1 then (newly :: S, L) else (S, newly :: L)

/-- One iteration of the slot-filling loop: the slot `(left_branches[i], right_branches[i])`
and the new `S`, `L`. `none` is `back()` of an empty vector. -/
def arrangeStep (num_bits : Nat) (S L : List (Int × Nat)) :
    Option (((Int × Nat) × (Int × Nat)) × List (Int × Nat) × List (Int × Nat)) :=
  match S with
  | branch_seg_s :: S' =>
    match L with
    | [] => none
    | branch_seg_l :: L' =>
      let left := branch_seg_s
      let right : Int × Nat := (slotWidth num_bits - branch_seg_s.1, branch_seg_l.2)
      let newly : Int × Nat := (branch_seg_l.1 - right.1, branch_seg_l.2)
      some ((left, right), reinsert num_bits newly S' L')
  | [] =>
    match L with
    | [] => none
    | branch_seg_l :: L' =>
      let left : Int × Nat := (0, branch_seg_l.2)
      let right : Int × Nat := (slotWidth num_bits, branch_seg_l.2)
      let newly : Int × Nat := (branch_seg_l.1 - slotWidth num_bits, branch_seg_l.2)
      some ((left, right), reinsert num_bits newly [] L')

/-- The loop `for (i = r - 1; i >= 0; --i)`: the slots of indices `0 .. r-1` in index
order, and the final `S` and `L`. -/
def arrangeLoop (num_bits : Nat) :
    Nat → List (Int × Nat) → List (Int × Nat) →
      Option (List ((Int × Nat) × (Int × Nat)) × List (Int × Nat) × List (Int × Nat))
  | 0, S, L => some ([], S, L)
  | r + 1, S, L =>
    match arrangeStep num_bits S L with
    | none => none
    | some (slot, S1, L1) =>
      match arrangeLoop num_bits r S1 L1 with
      | none => none
      | some (slots, S2, L2) => some (slots ++ [slot], S2, L2)

/-- State of the numerator-helper loop: the per-branch width already placed (`stats`),
the running position `cur_weight`, and the helper entries written so far. -/
structure HelperState where
  stats : List Int
  cur_weight : Int
  numerator_helper : List Int
deriving DecidableEq, Repr

/-- The three statements executed for one side of a slot:
`numerator_helper[k] = cur_weight - stats[second]; stats[second] += first; cur_weight += first`.
The entries are written at increasing indices `k`, so the write is an append. -/
def helperPart (st : HelperState) (part : Int × Nat) : HelperState :=
  { stats := st.stats.set part.2 (st.stats.getD part.2 0 + part.1)
    cur_weight := st.cur_weight + part.1
    numerator_helper := st.numerator_helper ++ [st.cur_weight - st.stats.getD part.2 0] }

/-- Body of the numerator-helper loop for slot `i`: the left side, then the right side. -/
def helperSlot (st : HelperState) (slot : (Int × Nat) × (Int × Nat)) : HelperState :=
  helperPart (helperPart st slot.1) slot.2

/-- State of the segment-collecting loop: the branches and the running position `cur_pos`. -/
structure CollectState where
  branches : List Branch
  cur_pos : Int
deriving DecidableEq, Repr

/-- Addition of the interval `[cur_pos, cur_pos + first)` to a segment list: the last
segment is extended when it ends at `cur_pos`, otherwise a new segment is pushed. -/
def pushSegment (segments : List ProbInterval) (cur_pos first : Int) : List ProbInterval :=
  match segments.getLast? with
  | some back =>
    if back.right_prob_ = cur_pos then
      segments.dropLast ++ [{ back with right_prob_ := cur_pos + first }]
    else segments ++ [⟨cur_pos, cur_pos + first⟩]
  | none => segments ++ [⟨cur_pos, cur_pos + first⟩]

/-- The statements executed for one side of a slot in the segment-collecting loop:
nothing when `first == 0`, otherwise the interval is added to branch `second` and
`cur_pos` advances. -/
def collectPart (st : CollectState) (part : Int × Nat) : CollectState :=
  if part.1 ≠ 0 then
    { branches := st.branches.modify
        (fun b => { b with segments_ := pushSegment b.segments_ st.cur_pos part.1 }) part.2
      cur_pos := st.cur_pos + part.1 }
  else st

/-- Body of the segment-collecting loop for slot `i`. -/
def collectSlot (st : CollectState) (slot : (Int × Nat) × (Int × Nat)) : CollectState :=
  collectPart (collectPart st slot.1) slot.2

/-- `InitDelayedCodingParams(weights, params)`. With an empty weight vector the
parameters are returned untouched. `none` is the undefined behaviour of taking the back
of an empty `S` or `L`. -/
def InitDelayedCodingParams (weights : List Nat) (params : DelayedCodingParams) :
    Option DelayedCodingParams :=
  if weights = [] then some params
  else
    let valid_weights := validWeightsFrom 0 weights
    let num_bits := numRepresentBits valid_weights.length
    let exp_2_num_bits := 2 ^ num_bits
    let S := (valid_weights.filter (fun branch => isSmall num_bits branch.1)).reverse
    let L := (valid_weights.filter (fun branch => !isSmall num_bits branch.1)).reverse
    match arrangeLoop num_bits exp_2_num_bits S L with
    | none => none
    | some (slots, _, _) =>
      let helper := slots.foldl helperSlot ⟨List.replicate weights.length 0, 0, []⟩
      let collected := slots.foldl collectSlot ⟨weights.map (fun w => ⟨[], w⟩), 0⟩
      some { branches_ := collected.branches
             segment_left_branches_ := slots.map Prod.fst
             segment_right_branches_ := slots.map Prod.snd
             numerator_helper_ := helper.numerator_helper
             num_represent_bits_ := num_bits }

/-! ## Table lookup of the decoder (`CategoricalSquID::Decompress`, first pick) -/

/-- Result of one table lookup: the branch picked and the fraction passed to
`Decoder::Update`. -/
structure Pick where
  choice : Nat
  denominator : Nat
  numerator : Nat
deriving DecidableEq, Repr

/-- Lines 12-24 of `CategoricalSquID::Decompress`: from the 16-bit word `two_bytes` to
the branch, its total weight and the numerator. The comparison `low_bits < first` and the
subtraction of the helper are `unsigned` operations. -/
def tableLookup (params : DelayedCodingParams) (two_bytes : Nat) : Option Pick := do
  let high_bits := two_bytes >>> (16 - params.num_represent_bits_)
  let low_bits := two_bytes &&& ((1 <<< (16 - params.num_represent_bits_)) - 1)
  let left ← params.segment_left_branches_[high_bits]?
  let right ← params.segment_right_branches_[high_bits]?
  let flag := decide (low_bits < toU32 left.1)
  let choice := if flag then left.2 else right.2
  let branch ← params.branches_[choice]?
  let denominator := branch.total_weights_
  let index := (high_bits <<< 1) + (if flag then 0 else 1)
  let helper ← params.numerator_helper_[index]?
  let numerator := toU32 ((two_bytes : Int) - helper)
  some ⟨choice, denominator, numerator⟩

/-- The table built from a weight vector, starting from cleared parameters. -/
def buildTable (weights : List Nat) : Option DelayedCodingParams :=
  InitDelayedCodingParams weights ⟨[], [], [], [], 0⟩


/-! ## Auxiliary definitions for the table construction -/

/-- Total width held by a list of `(width, branch)` pairs. -/
def wsum (l : List (Int × Nat)) : Int := (l.map Prod.fst).sum

/-- Width held for branch `j` by a list of `(width, branch)` pairs. -/
def bsum (j : Nat) (l : List (Int × Nat)) : Int :=
  (l.map (fun p => if p.2 = j then p.1 else 0)).sum

/-- The two sides of every slot, in position order: `left[0], right[0], left[1], ...`. -/
def partsOf : List ((Int × Nat) × (Int × Nat)) → List (Int × Nat)
  | [] => []
  | slot :: rest => slot.1 :: slot.2 :: partsOf rest

/-- Invariant of the slot-filling loop with `r` slots left to fill. -/
structure ArrInv (nb r : Nat) (S L : List (Int × Nat)) : Prop where
  small : ∀ s ∈ S, 0 ≤ s.1 ∧ s.1 < slotWidth nb
  large : ∀ l ∈ L, slotWidth nb ≤ l.1
  total : wsum S + wsum L = r * slotWidth nb
  count : S.length + L.length ≤ r + 1
  tight : S.length + L.length = r + 1 →
    (∀ s ∈ S, s.1 = 0) ∧ (∀ l ∈ L, l.1 = slotWidth nb)


/-- Sum of the widths of a segment list. -/
def segWidth (segments : List ProbInterval) : Int :=
  (segments.map (fun s => s.right_prob_ - s.left_prob_)).sum

/-- The segment list of branch `j` after the segment-collecting loop has run over the
parts `ps` from position `cur`: the view of `collectPart` on a single branch. -/
def segsFor (j : Nat) : List (Int × Nat) → Int → List ProbInterval → List ProbInterval
  | [], _, segments => segments
  | part :: ps, cur, segments =>
    if part.1 ≠ 0 then
      segsFor j ps (cur + part.1) (if part.2 = j then pushSegment segments cur part.1 else segments)
    else segsFor j ps cur segments

/-- The branch whose part contains position `v`, the parts being laid out from `cur`. -/
def owner : List (Int × Nat) → Int → Int → Option Nat
  | [], _, _ => none
  | part :: ps, cur, v =>
    if cur ≤ v ∧ v < cur + part.1 then some part.2 else owner ps (cur + part.1) v

/-- Position `v` lies in one of the segments. -/
def covers (segments : List ProbInterval) (v : Int) : Prop :=
  ∃ s ∈ segments, s.left_prob_ ≤ v ∧ v < s.right_prob_

/-- Well-formed segment list below position `cur`: non-empty intervals inside `[0, cur]`,
in increasing order without overlap. -/
structure SegWF (cur : Int) (segments : List ProbInterval) : Prop where
  sorted : segments.Pairwise (fun a b => a.right_prob_ ≤ b.left_prob_)
  bounds : ∀ s ∈ segments, 0 ≤ s.left_prob_ ∧ s.left_prob_ < s.right_prob_ ∧ s.right_prob_ ≤ cur

/-- Position of the `n`-th point of branch `j` in the parts `ps` laid out from `cur`. -/
def nthPoint (j : Nat) : List (Int × Nat) → Int → Int → Int
  | [], _, _ => -1
  | part :: ps, cur, n =>
    if part.2 = j then
      if n < part.1 then cur + n else nthPoint j ps (cur + part.1) (n - part.1)
    else nthPoint j ps (cur + part.1) n

/-- What is known of a table `t` built from `weights`, in terms of its slots. -/
structure TableOK (weights : List Nat) (t : DelayedCodingParams)
    (slots : List ((Int × Nat) × (Int × Nat))) : Prop where
  nb_le : t.num_represent_bits_ ≤ 16
  len : slots.length = 2 ^ t.num_represent_bits_
  left : t.segment_left_branches_ = slots.map Prod.fst
  right : t.segment_right_branches_ = slots.map Prod.snd
  slot_ok : ∀ slot ∈ slots,
    0 ≤ slot.1.1 ∧ 0 ≤ slot.2.1 ∧ slot.1.1 + slot.2.1 = slotWidth t.num_represent_bits_
  bsum_eq : ∀ j, bsum j (partsOf slots) = ((weights.getD j 0 : Nat) : Int)
  ids : ∀ x ∈ partsOf slots, x.2 < weights.length
  helper : t.numerator_helper_ =
    ((partsOf slots).foldl helperPart ⟨List.replicate weights.length 0, 0, []⟩).numerator_helper
  branches : ∀ j, t.branches_[j]? =
    (weights[j]?).map (fun w => Branch.mk (segsFor j (partsOf slots) 0 []) w)
  branches_len : t.branches_.length = weights.length

/-! ## `DelayedCoding` (`utility.cpp`) and `Decoder` (`model.h`) -/

/-- First run of `DelayedCoding` from symbol `i` on: `sym_is_virtual[i] = has_virtual`, then
`den *= total_weights_` (a `uint64_t` product) and the shift by 16 when `den` has more than
`kDelayedCoding` bits. The argument is the list of `total_weights_`. -/
def firstRun : List Nat → Nat → Bool → List Bool
  | [], _, _ => []
  | w :: ws, den, has_virtual =>
    let den1 := (den * w) % 2 ^ 64
    if den1 >>> kDelayedCoding > 0 then has_virtual :: firstRun ws (den1 >>> 16) true
    else has_virtual :: firstRun ws den1 false

/-- Body of the second run of `DelayedCoding` for one symbol: the state is `den` and the
words pushed so far (`PushAhead` writes in front of the words already there). The
division is guarded by the `assert(total_weights_ > 0)` at the head of `DelayedCoding`. -/
def secondRunStep (st : Nat × List Nat) (sym : Branch × Bool) : Nat × List Nat :=
  let tmp := st.1
  let den := st.1 / sym.1.total_weights_
  let data := tmp - den * sym.1.total_weights_
  let byte := GetEmbeddedBytes sym.1.segments_ data
  if sym.2 then (((den <<< 16) % 2 ^ 64) ||| byte, st.2) else (den, byte :: st.2)

/-- `DelayedCoding(prob_intervals, interval_size, bit_string, sym_is_virtual)`: the words
left in `bit_string`, in the order in which `BitString::Finish` writes them. The capacity
check of `PushAhead` is a resource limit and is not modelled. -/
def DelayedCoding (prob_intervals : List Branch) : List Nat :=
  let sym_is_virtual := firstRun (prob_intervals.map (fun b => b.total_weights_)) 1 false
  ((prob_intervals.zip sym_is_virtual).reverse.foldl secondRunStep (0, [])).2

/-- The class `Decoder`. -/
structure Decoder where
  num_ : Nat
  den_ : Nat
  virtual_16bits_ : Nat
  virtual_available_ : Bool
  num_interval_ : Nat
deriving DecidableEq, Repr

/-- `Decoder::InitProbInterval`; `virtual_16bits_` keeps whatever it held. -/
def Decoder.InitProbInterval (d : Decoder) : Decoder :=
  { d with num_ := 0, den_ := 1, virtual_available_ := false, num_interval_ := 0 }

/-- `Decoder::Update(denominator, numerator)` on `uint64_t` fields. -/
def Decoder.Update (d : Decoder) (denominator numerator : Nat) : Decoder :=
  let num := (d.num_ * denominator + numerator) % 2 ^ 64
  let den := (d.den_ * denominator) % 2 ^ 64
  if den >>> kDelayedCoding > 0 then
    { d with virtual_available_ := true, virtual_16bits_ := num % 2 ^ 16,
             num_ := num >>> 16, den_ := den >>> 16 }
  else { d with num_ := num, den_ := den }

/-- `Decoder::Read16Bits(byte_reader)`. The data region is the list of its 16-bit words
from the reading position on (what `Read16BitFast` returns at a byte-aligned position
over words written by `Write16Bit`); reading past its end is `none`. -/
def Decoder.Read16Bits (d : Decoder) (words : List Nat) : Option (Nat × Decoder × List Nat) :=
  let d1 := { d with num_interval_ := (d.num_interval_ + 1) % 2 ^ 16 }
  if !d.virtual_available_ then
    match words with
    | [] => none
    | w :: ws => some (w, d1, ws)
  else some (d.virtual_16bits_, { d1 with virtual_available_ := false }, words)

/-- One pick decoded with the table lookup of `CategoricalSquID::Decompress` (lines
12-25): read a word, look it up, update the decoder. -/
def decodePick (params : DelayedCodingParams) (d : Decoder) (words : List Nat) :
    Option (Nat × Decoder × List Nat) := do
  let (two_bytes, d1, words1) ← d.Read16Bits words
  let pick ← tableLookup params two_bytes
  some (pick.choice, d1.Update pick.denominator pick.numerator, words1)

/-- A sequence of picks decoded one after the other, one table per pick. -/
def decodePicks : List DelayedCodingParams → Decoder → List Nat →
    Option (List Nat × Decoder × List Nat)
  | [], d, words => some ([], d, words)
  | params :: rest, d, words => do
    let (choice, d1, words1) ← decodePick params d words
    let (choices, d2, words2) ← decodePicks rest d1 words1
    some (choice :: choices, d2, words2)

/-- The two runs of `DelayedCoding` fused into one recursion over the symbols: `den` is
the value of the first run before the first symbol and `virt` its `sym_is_virtual`; the
result is the value of `den` of the second run after that symbol, and the words pushed. -/
def encodeFrom : List Branch → Nat → Bool → Nat × List Nat
  | [], _, _ => (0, [])
  | b :: rest, den, virt =>
    let den1 := (den * b.total_weights_) % 2 ^ 64
    let next := if den1 >>> kDelayedCoding > 0 then encodeFrom rest (den1 >>> 16) true
                else encodeFrom rest den1 false
    secondRunStep next (b, virt)

/-- The first-run `den` after a symbol of total weight `w`. -/
def nextDen (den w : Nat) : Nat :=
  if ((den * w) % 2 ^ 64) >>> kDelayedCoding > 0 then ((den * w) % 2 ^ 64) >>> 16
  else (den * w) % 2 ^ 64

/-- The first-run `has_virtual` after a symbol of total weight `w`. -/
def nextVirt (den w : Nat) : Bool :=
  decide (((den * w) % 2 ^ 64) >>> kDelayedCoding > 0)

/-- The decoder `d` reading `words` is where the encoder was before a symbol whose
first-run state is `(den, virt)` and whose second-run result is `enc`: same denominator,
same virtual flag, the accumulated numerator (with the pending virtual word) is the
encoder's `den`, and the words still to be read are the encoder's followed by `rest`. -/
structure DecInv (den : Nat) (virt : Bool) (enc : Nat × List Nat) (d : Decoder)
    (words rest : List Nat) : Prop where
  den_eq : d.den_ = den
  den_pos : 1 ≤ den
  den_lt : den < 2 ^ 24
  virt_eq : d.virtual_available_ = virt
  num_eq : if virt then d.num_ * 2 ^ 16 + d.virtual_16bits_ = enc.1 ∧ d.virtual_16bits_ < 2 ^ 16
    else d.num_ = enc.1
  num_lt : d.num_ < den
  words_eq : words = enc.2 ++ rest

/-- A branch usable as a symbol of `DelayedCoding`: its total weight lies in
`[1, 65536]` and every numerator below it is embedded in a 16-bit word. -/
structure BranchOK (b : Branch) : Prop where
  pos : 0 < b.total_weights_
  le : b.total_weights_ ≤ 65536
  embed_lt : ∀ n, n < b.total_weights_ → GetEmbeddedBytes b.segments_ n < 65536

/-- The tables of a sequence of picks `(weights, j)`: one table built from each weight
vector. -/
def pickTables : List (List Nat × Nat) → Option (List DelayedCodingParams)
  | [] => some []
  | p :: rest => do
    let t ← buildTable p.1
    let ts ← pickTables rest
    some (t :: ts)

/-- The branches handed to `DelayedCoding` for a sequence of picks `(weights, j)`: branch
`j` of the table built from `weights`. -/
def pickBranches : List (List Nat × Nat) → Option (List Branch)
  | [] => some []
  | p :: rest => do
    let t ← buildTable p.1
    let b ← t.branches_[p.2]?
    let bs ← pickBranches rest
    some (b :: bs)

/-! ## Categorical model (`categorical_model.h`, `categorical_model.cpp`), one statistic
table (no predictor) -/

/-- `GetSimpleBranch(total_weights, branch)`: branch `branch` of the family of
`65536 / total_weights` single-segment branches of width `total_weights`. `none` is the
division by zero of `SimpleProbIntervalFamily` and the failed `assert` of `GetBranch`. -/
def GetSimpleBranch (total_weights branch : Nat) : Option Branch :=
  if total_weights = 0 then none
  else if branch < 65536 / total_weights then
    some ⟨[⟨(branch * total_weights : Nat), ((branch + 1) * total_weights : Nat)⟩], total_weights⟩
  else none

/-- `std::vector::resize(n)` on a vector of numbers: truncation or padding with zeros. -/
def resizeList (l : List Nat) (n : Nat) : List Nat :=
  l.take n ++ List.replicate (n - l.length) 0

/-- `m[k] = v` on a `std::map<int, int>` kept as a list of `(key, value)` pairs. -/
def mapInsert (m : List (Nat × Nat)) (k v : Nat) : List (Nat × Nat) :=
  m.filter (fun p => p.1 ≠ k) ++ [(k, v)]

/-- The struct `ZeroBranchHandler`: the rare-branch maps. -/
structure ZeroBranchHandler where
  idx2branch_ : List Nat
  branch2idx_ : List (Nat × Nat)
  map_size_ : Nat
  weight_ : Nat
deriving DecidableEq, Repr

/-- The first loop of `ZeroBranchHandler::Init`: `if (weight == 0) map_size_++`. -/
def countZeroLoop : List Nat → Nat → Nat
  | [], map_size => map_size
  | weight :: rest, map_size =>
    if weight = 0 then countZeroLoop rest (map_size + 1) else countZeroLoop rest map_size

/-- The second loop of `ZeroBranchHandler::Init` from index `i` on:
`idx = branch2idx_.size(); idx2branch_[idx] = i; branch2idx_[i] = idx` for zero weights. -/
def zeroMapLoop : List Nat → Nat → ZeroBranchHandler → ZeroBranchHandler
  | [], _, h => h
  | weight :: rest, i, h =>
    if weight = 0 then
      let idx := h.branch2idx_.length
      zeroMapLoop rest (i + 1)
        { h with idx2branch_ := h.idx2branch_.set idx i,
                 branch2idx_ := mapInsert h.branch2idx_ i idx }
    else zeroMapLoop rest (i + 1) h

/-- `ZeroBranchHandler::Init(weights)`. The quotient `65536 / map_size_` is only taken
with `map_size_ > 0` by the callers; with `map_size_ = 0` it is `0` here. -/
def ZeroBranchHandler.Init (h : ZeroBranchHandler) (weights : List Nat) : ZeroBranchHandler :=
  let map_size := countZeroLoop weights h.map_size_
  zeroMapLoop weights 0
    { h with map_size_ := map_size, weight_ := 65536 / map_size,
             idx2branch_ := resizeList h.idx2branch_ map_size }

/-- The struct `CategoricalStats`. -/
structure CategoricalStats where
  count_ : List Nat
  weight_ : List Nat
  only_value_ : Nat
  coding_params_ : DelayedCodingParams
  rare_branch_handler_ : ZeroBranchHandler
deriving DecidableEq, Repr

/-- A value-initialised `CategoricalStats`. -/
def CategoricalStats.fresh : CategoricalStats :=
  ⟨[], [], 65535, ⟨[], [], [], [], 0⟩, ⟨[], [], 0, 0⟩⟩

/-- State of the normalisation loop of `TableCategorical::EndOfData`. -/
structure NormState where
  weight_ : List Nat
  left_weight : Nat
  zero_weight_exist : Bool
  index_max_weight : Nat
deriving DecidableEq, Repr

/-- The loop `for (j = 0; j < counts.size(); ++j)` of `TableCategorical::EndOfData`, from
index `j` on: `weight_[j] = counts[j] * 65536 / sum_count` (stored in an `unsigned`),
`left_weight -= weight_[j]` (an `unsigned` subtraction), the zero-weight flag and the
index of the largest weight. -/
def normLoop (sum_count : Nat) : List Nat → Nat → NormState → NormState
  | [], _, st => st
  | count :: rest, j, st =>
    let weight := st.weight_.set j ((count * 65536 / sum_count) % 2 ^ 32)
    let left_weight := (st.left_weight + 2 ^ 32 - weight.getD j 0) % 2 ^ 32
    let zero_weight_exist := st.zero_weight_exist || decide (weight.getD j 0 = 0)
    let index_max_weight :=
      if weight.getD st.index_max_weight 0 < weight.getD j 0 then j else st.index_max_weight
    normLoop sum_count rest (j + 1) ⟨weight, left_weight, zero_weight_exist, index_max_weight⟩

/-- The body of `TableCategorical::EndOfData` for one statistic table, up to the call of
`InitDelayedCodingParams`: the weight vector and, when a zero weight exists, the
rare-branch handler. The counts are non-negative and their sum fits an `int`. -/
def CategoricalStats.normalize (stats : CategoricalStats) (target_range : Nat) :
    CategoricalStats :=
  let counts := resizeList stats.count_ target_range
  let weight0 := resizeList stats.weight_ (counts.length + 1)
  let sum_count := counts.sum
  let st : NormState :=
    if sum_count = 0 then ⟨weight0, 65536, !counts.isEmpty, 0⟩
    else normLoop sum_count counts 0 ⟨weight0, 65536, false, 0⟩
  if st.zero_weight_exist then
    let left_weight := if st.left_weight = 0 then 1 else st.left_weight
    let weight1 :=
      if st.left_weight = 0 then
        st.weight_.set st.index_max_weight
          ((st.weight_.getD st.index_max_weight 0 + 2 ^ 32 - 1) % 2 ^ 32)
      else st.weight_
    let weight2 := weight1.set (weight1.length - 1) left_weight
    { stats with count_ := [], weight_ := weight2,
                 rare_branch_handler_ := stats.rare_branch_handler_.Init weight2 }
  else
    { stats with count_ := [],
                 weight_ := st.weight_.set st.index_max_weight
                   ((st.weight_.getD st.index_max_weight 0 + st.left_weight) % 2 ^ 32) }

/-- `TableCategorical::EndOfData` for one statistic table: normalisation, then
`InitDelayedCodingParams`. The model cost (a `double`) is not part of the embedding. -/
def CategoricalStats.EndOfData (stats : CategoricalStats) (target_range : Nat) :
    Option CategoricalStats :=
  let stats1 := stats.normalize target_range
  match InitDelayedCodingParams stats1.weight_ stats1.coding_params_ with
  | none => none
  | some params => some { stats1 with coding_params_ := params }

/-- A `TableCategorical` without predictor: its `target_range_` and its single
statistic table `dynamic_list_[0]`. -/
structure TableCategorical where
  target_range_ : Nat
  stats : CategoricalStats
deriving DecidableEq, Repr

/-- The `TableCategorical()` constructor for a simple categorical attribute. -/
def TableCategorical.fresh : TableCategorical := ⟨0, CategoricalStats.fresh⟩

/-- `TableCategorical::FeedAttrs(attr_val, count)`. -/
def TableCategorical.FeedAttrs (m : TableCategorical) (value count : Nat) : TableCategorical :=
  let target_range := if value ≥ m.target_range_ then value + 1 else m.target_range_
  let count0 :=
    if m.stats.count_.length ≤ value then resizeList m.stats.count_ (value + 1)
    else m.stats.count_
  { target_range_ := target_range,
    stats := { m.stats with count_ := count0.set value (count0.getD value 0 + count) } }

/-- `TableCategorical::EndOfData`. -/
def TableCategorical.EndOfData (m : TableCategorical) : Option TableCategorical :=
  match m.stats.EndOfData m.target_range_ with
  | none => none
  | some stats => some { m with stats := stats }

/-- `CategoricalSquID::GetProbIntervals(value)`: the branches appended to
`prob_intervals`. `branch2idx_[value]` is `std::map::operator[]`. -/
def CategoricalSquID.GetProbIntervals (stats : CategoricalStats) (value : Nat) :
    Option (List Branch) := do
  let branch ← stats.coding_params_.branches_[value]?
  if branch.total_weights_ ≠ 0 then some [branch]
  else
    let branch_idx := stats.coding_params_.branches_.length - 1
    let escape ← stats.coding_params_.branches_[branch_idx]?
    let simple ← GetSimpleBranch stats.rare_branch_handler_.weight_
      ((stats.rare_branch_handler_.branch2idx_.lookup value).getD 0)
    some [escape, simple]

/-- `CategoricalSquID::Decompress(decoder, byte_reader)`: the decoded `choice_`, the
decoder and the words left. -/
def CategoricalSquID.Decompress (stats : CategoricalStats) (d : Decoder) (words : List Nat) :
    Option (Nat × Decoder × List Nat) := do
  let (choice, d1, words1) ← decodePick stats.coding_params_ d words
  if choice = toU64 ((stats.coding_params_.branches_.length : Int) - 1) then
    let (two_bytes, d2, words2) ← d1.Read16Bits words1
    if stats.rare_branch_handler_.weight_ = 0 then none
    else
      let branch_idx := two_bytes / stats.rare_branch_handler_.weight_
      let choice2 ← stats.rare_branch_handler_.idx2branch_[branch_idx]?
      let denominator := stats.rare_branch_handler_.weight_
      let numerator := toU32 ((two_bytes : Int) - branch_idx * stats.rare_branch_handler_.weight_)
      some (choice2, d2.Update denominator numerator, words2)
  else some (choice, d1, words1)

/-- The quotient `count * 65536 / sum_count` of the normalisation loop. -/
def normWeight (sum_count count : Nat) : Nat := count * 65536 / sum_count

/-- Invariant of the normalisation loop after the counts `pre` have been processed, for
a weight vector of size `N`. -/
structure NormInv (S N : Nat) (pre : List Nat) (st : NormState) : Prop where
  weight_eq : st.weight_ = pre.map (normWeight S) ++ List.replicate (N - pre.length) 0
  left_eq : st.left_weight + (pre.map (normWeight S)).sum = 65536
  zero_iff : st.zero_weight_exist = true ↔ 0 ∈ pre.map (normWeight S)
  index_lt : st.index_max_weight = 0 ∨ st.index_max_weight < pre.length
  index_max : ∀ w ∈ pre.map (normWeight S), w ≤ st.weight_.getD st.index_max_weight 0

/-- A `TableCategorical` without predictor after `FeedAttrs(value, count)` has been called
for each `(value, count)` of `feeds`, in order. -/
def feedAll (feeds : List (Nat × Nat)) : TableCategorical :=
  feeds.foldl (fun m p => m.FeedAttrs p.1 p.2) TableCategorical.fresh

/-- Invariant of a `TableCategorical` without predictor while it is fed. -/
structure FeedInv (m : TableCategorical) : Prop where
  weight_nil : m.stats.weight_ = []
  params_fresh : m.stats.coding_params_ = ⟨[], [], [], [], 0⟩
  handler_fresh : m.stats.rare_branch_handler_ = ⟨[], [], 0, 0⟩
  range_eq : m.target_range_ = m.stats.count_.length

/-! ## Quantization (`arithmetic_coding/src/utility.cpp`)

The counts and the running totals are mathematical integers: the model is meant for inputs on
which the `int` and `int64_t` variables of the source do not overflow. -/

/-- `GetProb(count, base)`: the probability `count / 2^base` in base-16 units. -/
def GetProb (count : Int) (base : Nat) : Int :=
  if base < 16 then count * 2 ^ (16 - base) else count / 2 ^ (base - 16)

/-- The variables `prob_cnt`, `total` and `sum` of `Quantization`. -/
structure QuantState where
  prob_cnt : List Int
  total : Int
  sum : Int
deriving DecidableEq, Repr

/-- Body of the marking loop of `Quantization` at index `i`: a positive count below the
`1 / total` portion of the remaining sum gets one unit. -/
def markStep (cnt : List Int) (st : QuantState) (i : Nat) : QuantState :=
  if 0 < cnt.getD i 0 ∧ cnt.getD i 0 * st.total < st.sum ∧ st.prob_cnt.getD i 0 = 0 then
    { prob_cnt := st.prob_cnt.set i 1, total := st.total - 1, sum := st.sum - cnt.getD i 0 }
  else st

/-- The loop `while (1)` of `Quantization`. Its flag `found` is initialised to `false` and
never assigned, so `if (!found) break` leaves the loop after the first pass over the
indices. -/
def markLoop (cnt : List Int) (st : QuantState) : QuantState :=
  (List.range cnt.length).foldl (markStep cnt) st

/-- Body of the proportional loop of `Quantization` at index `i`; `none` is the division by
a zero `sum`. -/
def shareStep (cnt : List Int) (st : Option QuantState) (i : Nat) : Option QuantState :=
  st.bind fun s =>
    if 0 < cnt.getD i 0 ∧ s.prob_cnt.getD i 0 = 0 then
      if s.sum = 0 then none
      else
        let share := Int.tdiv (cnt.getD i 0 * s.total) s.sum
        some { prob_cnt := s.prob_cnt.set i share, total := s.total - share,
               sum := s.sum - cnt.getD i 0 }
    else some s

/-- Body of the last loop of `Quantization`: the running sum of `prob_cnt` and the vector
`prob`, whose entry `i` is assigned only when the running sum is not zero. -/
def boundaryStep (base : Nat) (prob_cnt : List Int) (st : Int × List Int) (i : Nat) :
    Int × List Int :=
  let sum := st.1 + prob_cnt.getD i 0
  (sum, if sum ≠ 0 then st.2.set i (GetProb sum base) else st.2)

/-- `Quantization(prob, cnt, base)`: the vector `prob` after the call. `none` is the read of
`cnt[cnt.size() - 1]` on an empty vector or a division by zero. -/
def Quantization (prob : List Int) (cnt : List Int) (base : Nat) : Option (List Int) :=
  if cnt = [] then none
  else
    let prob_cnt := List.replicate cnt.length (0 : Int)
    let sum := cnt.sum
    let total : Int := if cnt.getD (cnt.length - 1) 0 = 0 then 2 ^ base - 1 else 2 ^ base
    let st := markLoop cnt ⟨prob_cnt, total, sum⟩
    ((List.range cnt.length).foldl (shareStep cnt) (some st)).map fun st2 =>
      let prob0 := prob.take (cnt.length - 1) ++
        List.replicate (cnt.length - 1 - prob.length) (0 : Int)
      ((List.range (cnt.length - 1)).foldl (boundaryStep base st2.prob_cnt) (0, prob0)).2

/-- The weight of outcome `j` among `n` outcomes induced by the boundaries `prob`, in base-16
units: the difference `p` computed by `TableCategorical::EndOfData` of the arithmetic
coder, with `GetZeroProb()` before the first boundary and `GetOneProb()` after the last. -/
def inducedWeight (prob : List Int) (n j : Nat) : Int :=
  (if j = n - 1 then 65536 else prob.getD j 0) - (if j = 0 then 0 else prob.getD (j - 1) 0)

/-! ## Numerical model (`numerical_model.h`, `numerical_model.cpp`), one statistic table
(no predictor)

A `double` is a rational number. The rounding of the operations of `Round` and of the
quotient `total_range / bin_size_` of `InitHistogramStructure` is modelled by `fl`, and so
is the explicit conversion to single precision of `QuantizationToFloat32Bit`; the other
sums, differences and products of the model are exact. -/

/-- The constant `kNumEstSample` of `base.h`. -/
def kNumEstSample : Nat := 5000

/-- A `static_cast` from `double` to an integer type: truncation toward zero. -/
def truncToInt (x : ℚ) : Int := if 0 ≤ x then ⌊x⌋ else ⌈x⌉

/-- The binary exponent of a positive number: the `e` with `2 ^ e ≤ x < 2 ^ (e + 1)`. -/
def binExp (x : ℚ) : Int :=
  let e : Int := (Nat.log2 x.num.natAbs : Int) - (Nat.log2 x.den : Int)
  if x < 2 ^ e then e - 1 else e

/-- The integer nearest to `x`, the even one of the two when `x` lies half-way. -/
def roundHalfEven (x : ℚ) : Int :=
  if x - ⌊x⌋ < 1 / 2 then ⌊x⌋
  else if 1 / 2 < x - ⌊x⌋ then ⌊x⌋ + 1
  else if ⌊x⌋ % 2 = 0 then ⌊x⌋ else ⌊x⌋ + 1

/-- The result of an arithmetic operation on `double` whose exact result is `x`: `x` rounded
to the nearest number with a significand of 53 bits, ties to the even significand (IEEE 754
binary64 in its normal range, `2 ^ (-1022) ≤ |x| < 2 ^ 1024`). -/
def fl (x : ℚ) : ℚ :=
  if x = 0 then 0
  else if x < 0 then
    -((roundHalfEven (-x * 2 ^ (52 - binExp (-x))) : ℚ) * 2 ^ (binExp (-x) - 52))
  else (roundHalfEven (x * 2 ^ (52 - binExp x)) : ℚ) * 2 ^ (binExp x - 52)

/-- The loop of `p2ge`: `x` and `m` while `x < val`. The `int x` is compared with the
`unsigned val` as an `unsigned` and doubled in 32 bits; `none` when the loop has not ended
after `fuel` rounds. -/
def p2geLoop : Nat → Nat → Nat → Nat → Option Nat
  | 0, _, _, _ => none
  | fuel + 1, x, m, val =>
    if x < val then p2geLoop fuel ((x * 2) % 2 ^ 32) (m + 1) val else some m

/-- `p2ge(val)` for an `unsigned val`: the least `m` with `val ≤ 2 ^ m`. `x` takes the
values `1, 2, ..., 2 ^ 31` and then 0 for ever, so the loop ends within 32 rounds or never:
`none` is the loop that does not end, for `val > 2 ^ 31`. -/
def p2ge (val : Nat) : Option Nat := p2geLoop 33 1 0 val

/-- `Round(num, fig)`: `num` rounded half away from zero at `fig` decimal places, every
operation in `double`: `shift` is the `double` nearest to `10 ^ fig`, the product and the
sum are rounded, the sum is cut to an `int64_t`, converted back and divided by `shift`. -/
def Round (num : ℚ) (fig : Int) : ℚ :=
  let shift : ℚ := fl (10 ^ fig)
  let half : ℚ := if 0 ≤ num then 1 / 2 else -(1 / 2)
  fl (fl ((truncToInt (fl (fl (num * shift) + half)) : Int) : ℚ) / shift)

/-- The loop `while (val < 1)` of `ConvertSinglePrecision`. -/
def scaleUp : Nat → ℚ → Int → ℚ × Int
  | 0, val, exponent => (val, exponent)
  | fuel + 1, val, exponent =>
    if val < 1 then scaleUp fuel (val * 2) (exponent - 1) else (val, exponent)

/-- The loop `while (val >= 2)` of `ConvertSinglePrecision`. -/
def scaleDown : Nat → ℚ → Int → ℚ × Int
  | 0, val, exponent => (val, exponent)
  | fuel + 1, val, exponent =>
    if 2 ≤ val then scaleDown fuel (val / 2) (exponent + 1) else (val, exponent)

/-- `ConvertSinglePrecision(val, bytes)`: the four bytes written. The magnitude of a
`double` other than 0 lies between `2 ^ (-1074)` and `2 ^ 1024`, which bounds the two
loops. -/
def ConvertSinglePrecision.toBytes (val : ℚ) : List Nat :=
  if val = 0 then [0, 0, 0, 0]
  else
    let sign := if val < 0 then 128 else 0
    let val0 := if val < 0 then -val else val
    let up := scaleUp 1100 val0 127
    let down := scaleDown 1100 up.1 up.2
    let exponent := (down.2 % 256).toNat
    let fraction := toU32 ⌊down.1 * 2 ^ 23 + 1 / 2⌋
    [sign ||| ((exponent >>> 1) &&& 127),
     (((exponent &&& 1) <<< 7) % 256) ||| ((fraction >>> 16) &&& 127),
     (fraction >>> 8) &&& 255,
     fraction &&& 255]

/-- `ConvertSinglePrecision(bytes)`: the number read back from four bytes. -/
def ConvertSinglePrecision.ofBytes (bytes : List Nat) : ℚ :=
  let exponent : Int := ((bytes.getD 0 0 &&& 127) * 2 + ((bytes.getD 1 0 >>> 7) &&& 1) : Nat) - 127
  let val : Nat := ((bytes.getD 1 0 &&& 127) <<< 16) + (bytes.getD 2 0 <<< 8) + bytes.getD 3 0
  if exponent = -127 ∧ val = 0 then 0
  else
    let ret : ℚ := ((val + 2 ^ 23 : Nat) : ℚ) * 2 ^ (exponent - 23)
    if bytes.getD 0 0 &&& 128 > 0 then -ret else ret

/-- `QuantizationToFloat32Bit(val)`. -/
def QuantizationToFloat32Bit (val : ℚ) : ℚ :=
  ConvertSinglePrecision.ofBytes (ConvertSinglePrecision.toBytes val)

/-- The class `NumericalStats`. `values_` holds the `v_count_` values stored so far (the
source keeps them at the head of a vector of `kNumEstSample` entries). -/
structure NumericalStats where
  mid_est_ : ℚ
  branch_bins_est_ : Int
  mean_abs_dev_ : ℚ
  branch_weights_ : List Nat
  coding_params_ : DelayedCodingParams
  is_estimated_ : Bool
  v_count_ : Nat
  values_ : List ℚ
  v_freq_ : List Nat
  minimum_ : Int
  maximum_ : Int
  sum_abs_dev_ : ℚ
  step_ : Nat
  num_layer_ : Nat
  mask_last_layer_ : Nat
  weight_branch_last_layer_ : Nat
  bin_size_ : ℚ

/-- The constructor `NumericalStats()`: every histogram cell starts at 1. The fields the
constructor leaves uninitialised (`step_`, `num_layer_`, ...) are 0 here. -/
def NumericalStats.fresh : NumericalStats :=
  { mid_est_ := 0, branch_bins_est_ := 0, mean_abs_dev_ := 0, branch_weights_ := [],
    coding_params_ := ⟨[], [], [], [], 0⟩, is_estimated_ := false, v_count_ := 0,
    values_ := [], v_freq_ := List.replicate kNumBranch 1, minimum_ := 0, maximum_ := 0,
    sum_abs_dev_ := 0, step_ := 0, num_layer_ := 0, mask_last_layer_ := 0,
    weight_branch_last_layer_ := 0, bin_size_ := 0 }

/-- `NumericalStats::SetBinSize`. -/
def NumericalStats.SetBinSize (s : NumericalStats) (bin_size : ℚ) : NumericalStats :=
  { s with bin_size_ := bin_size }

/-- The first value of `branch_bins_est_` in `InitHistogramStructure`,
`static_cast<uint64_t>(total_range / bin_size_) / (kNumBranch - 2)`: `total_range` is 1.5
times the distance of the 5% and 95% quantiles of the stored values, and the quotient is a
`double`. -/
def NumericalStats.estBins (s : NumericalStats) : Nat :=
  let sorted := s.values_.mergeSort (fun a b => decide (a ≤ b))
  let max_v := sorted.getD (s.v_count_ * 95 / 100) 0
  let min_v := sorted.getD (s.v_count_ * 5 / 100) 0
  let total_range := (max_v - min_v) * (3 / 2)
  toU64 (truncToInt (fl (total_range / s.bin_size_))) / (kNumBranch - 2)

/-- `NumericalStats::InitHistogramStructure`: the centre and the branch size estimated from
the 5% and 95% quantiles of the stored values, for a bin size other than 0. The branch size
is `1 << p2ge(branch_bins_est_)`, a shift of the `int` 1: `p2ge` takes the estimate as an
`unsigned int`, and a shift by 31 gives `INT_MIN`. `none` is the call of `p2ge` that does
not return. -/
def NumericalStats.InitHistogramStructure (s : NumericalStats) : Option NumericalStats :=
  let sorted := s.values_.mergeSort (fun a b => decide (a ≤ b))
  let max_v := sorted.getD (s.v_count_ * 95 / 100) 0
  let min_v := sorted.getD (s.v_count_ * 5 / 100) 0
  let mid0 := (min_v + max_v) / 2
  let mid1 : ℚ := if s.bin_size_ = 1 then ((truncToInt mid0 : Int) : ℚ) else mid0
  let bins0 : Nat := s.estBins
  match (if bins0 = 0 then some 1
         else (p2ge (bins0 % 2 ^ 32)).map fun m => toI32 ((1 <<< m) % 2 ^ 32)) with
  | none => none
  | some bins =>
    let half_num_branch : Int := (((kNumBranch - 2) >>> 1 : Nat) : Int)
    some { s with mid_est_ := QuantizationToFloat32Bit mid1, branch_bins_est_ := bins,
                  minimum_ := bins * (-half_num_branch - 1), maximum_ := bins * half_num_branch,
                  is_estimated_ := true }

/-- `NumericalStats::PushValue(value)`. While the first `kNumEstSample` values arrive they
are only stored; afterwards each value is counted in its branch of the histogram and its
distance to the centre is accumulated. The `assert` on the branch index holds for an index
strictly between the two tails. `none` is the call of `InitHistogramStructure` that does
not return. -/
def NumericalStats.PushValue (s : NumericalStats) (value : ℚ) : Option NumericalStats :=
  if !s.is_estimated_ then
    let s1 := { s with values_ := s.values_ ++ [value], v_count_ := s.v_count_ + 1 }
    if s1.v_count_ ≥ kNumEstSample then s1.InitHistogramStructure else some s1
  else
    let idx : Int := ⌊(value - s.mid_est_) / s.bin_size_⌋
    let interval : Nat :=
      if idx ≤ s.minimum_ + s.branch_bins_est_ then 0
      else if idx ≥ s.maximum_ then kNumBranch - 1
      else toU16 (Int.tdiv idx s.branch_bins_est_ + (((kNumBranch - 2) >>> 1 : Nat) : Int) + 1)
    some { s with v_count_ := s.v_count_ + 1,
                  v_freq_ := s.v_freq_.set interval ((s.v_freq_.getD interval 0 + 1) % 2 ^ 32),
                  sum_abs_dev_ := s.sum_abs_dev_ + |value - s.mid_est_| }

/-- `PushValue` for each of `values`, in order. -/
def NumericalStats.pushValues : NumericalStats → List ℚ → Option NumericalStats
  | s, [] => some s
  | s, v :: vs =>
    match s.PushValue v with
    | none => none
    | some s1 => s1.pushValues vs

/-- The loop `while (branch_bins > 65536)` of `NumericalStats::Prepare`: the number of
16-bit layers and the bins left for the last layer. -/
def layerLoop : Nat → Nat → Int → Nat × Int
  | 0, num_layer, branch_bins => (num_layer, branch_bins)
  | fuel + 1, num_layer, branch_bins =>
    if branch_bins > 65536 then layerLoop fuel (num_layer + 1) (branch_bins / 2 ^ 16)
    else (num_layer, branch_bins)

/-- `NumericalStats::Prepare`: the quantities derived from the distribution parameters.
`none` is a `branch_bins` that is not positive (0 is a division by zero; for `-2^31`, the
negative value that `InitHistogramStructure` can produce, `65536 / branch_bins` is 0 and
the last `assert` fails) or a call of `p2ge` that does not return. An `int64_t` is shifted
right at most four times before it is below 65536. -/
def NumericalStats.Prepare (s : NumericalStats) : Option NumericalStats :=
  let layers := layerLoop 4 0 s.branch_bins_est_
  if layers.2 ≤ 0 then none
  else
    match p2ge layers.2.toNat with
    | none => none
    | some mask =>
      let half_num_branch : Int := (((kNumBranch - 2) >>> 1 : Nat) : Int)
      some { s with step_ := toU64 ⌈s.mean_abs_dev_ / s.bin_size_⌉,
                    num_layer_ := layers.1,
                    mask_last_layer_ := mask,
                    weight_branch_last_layer_ := 65536 / layers.2.toNat,
                    minimum_ := s.branch_bins_est_ * (-half_num_branch - 1),
                    maximum_ := s.branch_bins_est_ * half_num_branch }

/-- The weight `v_freq * 65536 / total` the first loop of `NumericalStats::End` gives to a
histogram cell, in `uint32_t` arithmetic, raised to 1 when the cell is not empty. -/
def branchWeight (total v_freq : Nat) : Nat :=
  let w := (v_freq * 65536) % 2 ^ 32 / total
  if v_freq > 0 ∧ w = 0 then 1 else w

/-- The second loop of `NumericalStats::End`: the running `index_max`, the first index of
a largest weight, after the weights `ws` at the indices from `i` on. -/
def indexMaxLoop (weights : List Nat) : List Nat → Nat → Nat → Nat
  | [], _, index_max => index_max
  | w :: ws, i, index_max =>
    indexMaxLoop weights ws (i + 1) (if w > weights.getD index_max 0 then i else index_max)

/-- The two loops of `NumericalStats::End` over the histogram `v_freq` of sum `total`: a
weight for each of the `kNumBranch` branches, then the difference to 65536 is added to the
first largest weight. -/
def endWeights (v_freq : List Nat) (total : Nat) : List Nat :=
  let weights0 := (List.range kNumBranch).map fun i => branchWeight total (v_freq.getD i 0)
  let posterior_total := weights0.sum % 2 ^ 32
  let index_max := indexMaxLoop weights0 weights0 0 0
  weights0.set index_max
    ((weights0.getD index_max 0 + 2 ^ 32 + 65536 - posterior_total) % 2 ^ 32)

/-- `NumericalStats::End` once the histogram structure is known: the deviation, the branch
weights, the coding table and the derived quantities. `none` is a division by zero or a
failure of `InitDelayedCodingParams`. -/
def NumericalStats.finish (s : NumericalStats) : Option NumericalStats :=
  let dev : ℚ := if s.sum_abs_dev_ < s.bin_size_ then 0 else s.sum_abs_dev_ / s.v_count_
  let total := s.v_freq_.sum % 2 ^ 32
  if total = 0 then none
  else
    let weights := endWeights s.v_freq_ total
    match InitDelayedCodingParams weights s.coding_params_ with
    | none => none
    | some params =>
      NumericalStats.Prepare
        { s with mean_abs_dev_ := QuantizationToFloat32Bit dev, branch_weights_ := weights,
                 coding_params_ := params }

/-- `NumericalStats::End`: nothing happens without data; the histogram structure is
estimated now if fewer than `kNumEstSample` values were pushed. -/
def NumericalStats.End (s : NumericalStats) : Option NumericalStats :=
  if s.v_count_ = 0 then some s
  else if !s.is_estimated_ then
    match s.InitHistogramStructure with
    | none => none
    | some s1 => s1.finish
  else s.finish

/-- The class `NumericalSquID`. -/
structure NumericalSquID where
  mean_ : ℚ
  dev_ : ℚ
  minimum_ : Int
  maximum_ : Int
  step_ : Nat
  mask_last_layer_ : Nat
  weight_branch_last_layer_ : Nat
  num_layer_ : Nat
  branch_bins_ : Int
  l_ : Int
  r_ : Int
  mid_ : Int
  l_inf_ : Bool
  r_inf_ : Bool
  target_int_ : Bool
  bin_size_ : ℚ
  decimal_places_ : Int
  coding_params_ : DelayedCodingParams

/-- The loop `while (bin_size / 10 >= 1)` of the constructor of `NumericalSquID`. -/
def placesDown : Nat → ℚ → Int → Int
  | 0, _, places => places
  | fuel + 1, bin_size, places =>
    if 1 ≤ bin_size / 10 then placesDown fuel (bin_size / 10) (places - 1) else places

/-- The loop `while (bin_size * 10 < 1)` of the constructor of `NumericalSquID`. -/
def placesUp : Nat → ℚ → Int → Int
  | 0, _, places => places
  | fuel + 1, bin_size, places =>
    if bin_size * 10 < 1 then placesUp fuel (bin_size * 10) (places + 1) else places

/-- The constructor `NumericalSquID(bin_size, target_int)`, for a positive bin size (the
second loop of the source does not end on a bin size of 0 or less; on a positive `double`
either loop runs fewer than 400 times). The fields set by `Init` are 0 here. -/
def NumericalSquID.create (bin_size : ℚ) (target_int : Bool) : NumericalSquID :=
  { mean_ := 0, dev_ := 0, minimum_ := 0, maximum_ := 0, step_ := 0, mask_last_layer_ := 0,
    weight_branch_last_layer_ := 0, num_layer_ := 0, branch_bins_ := 0, l_ := 0, r_ := 0,
    mid_ := 0, l_inf_ := true, r_inf_ := true, target_int_ := target_int,
    bin_size_ := QuantizationToFloat32Bit bin_size,
    decimal_places_ :=
      if target_int then placesDown 400 bin_size 0 else placesUp 400 bin_size 0,
    coding_params_ := ⟨[], [], [], [], 0⟩ }

/-- `NumericalSquID::Init(stats)`. -/
def NumericalSquID.Init (sq : NumericalSquID) (stats : NumericalStats) : NumericalSquID :=
  { sq with mean_ := stats.mid_est_, dev_ := stats.mean_abs_dev_,
            coding_params_ := stats.coding_params_, branch_bins_ := stats.branch_bins_est_,
            step_ := stats.step_, num_layer_ := stats.num_layer_,
            mask_last_layer_ := stats.mask_last_layer_,
            weight_branch_last_layer_ := stats.weight_branch_last_layer_,
            minimum_ := stats.minimum_, maximum_ := stats.maximum_,
            l_ := 0, r_ := 0, l_inf_ := true, r_inf_ := true }

/-- `NumericalSquID::SetLeft`. -/
def NumericalSquID.SetLeft (sq : NumericalSquID) (l : Int) : NumericalSquID :=
  { sq with l_ := l, l_inf_ := false }

/-- `NumericalSquID::SetRight`. -/
def NumericalSquID.SetRight (sq : NumericalSquID) (r : Int) : NumericalSquID :=
  { sq with r_ := r, r_inf_ := false }

/-- `NumericalSquID::Reset`. -/
def NumericalSquID.Reset (sq : NumericalSquID) : NumericalSquID :=
  { sq with l_inf_ := true, r_inf_ := true }

/-- `NumericalSquID::GetBinIndex(value)`. -/
def NumericalSquID.GetBinIndex (sq : NumericalSquID) (value : ℚ) : Int :=
  ⌊(value - sq.mean_) / sq.bin_size_⌋

/-- `NumericalSquID::HasNextBranch`: never with a deviation below `1e-8`. -/
def NumericalSquID.HasNextBranch (sq : NumericalSquID) : Bool :=
  if sq.dev_ < 1 / 100000000 then false
  else !(sq.r_ == sq.l_ && !sq.l_inf_ && !sq.r_inf_)

/-- The split point `mid_` of the search in a tail: a step of `step_` bins while one bound
is unknown, the middle of `[l_, r_]` afterwards. -/
def NumericalSquID.nextMid (sq : NumericalSquID) : Int :=
  let mid : Int := if !sq.l_inf_ && !sq.r_inf_ then Int.tdiv (sq.r_ - sq.l_ + 1) 2 else sq.step_
  if sq.l_inf_ then sq.r_ - mid else sq.l_ + mid - 1

/-- The loop `while (HasNextBranch())` of `NumericalSquID::GetExpProbIntervals`: one binary
pick of weight 32768 per step of the search for `idx`, each written to the next entry of
`prob_intervals`. The first argument is the number of entries left in `prob_intervals`;
`none` is the write behind its end. -/
def NumericalSquID.expEncodeLoop : Nat → NumericalSquID → Int →
    Option (List Branch × NumericalSquID)
  | 0, sq, _ => if sq.HasNextBranch then none else some ([], sq)
  | fuel + 1, sq, idx =>
    if sq.HasNextBranch then do
      let mid := sq.nextMid
      let branch := if idx > mid then 1 else 0
      let b ← GetSimpleBranch 32768 branch
      let sq1 := if branch = 1 then { sq with mid_ := mid }.SetLeft (mid + 1)
                 else { sq with mid_ := mid }.SetRight mid
      let (bs, sq2) ← NumericalSquID.expEncodeLoop fuel sq1 idx
      some (b :: bs, sq2)
    else some ([], sq)

/-- `NumericalSquID::GetExpProbIntervals(prob_intervals, prob_intervals_index, idx)`: the
tail branch of the table, then the search. `room` is the number of entries of
`prob_intervals` from `prob_intervals_index` on,
`prob_intervals.size() - prob_intervals_index`; every pick is written to the next entry
without a check, and `none` is a write behind the end of `prob_intervals` (or a read
outside `branches_`). -/
def NumericalSquID.GetExpProbIntervals (sq : NumericalSquID) (idx : Int) (room : Nat) :
    Option (List Branch × NumericalSquID) :=
  if room = 0 then none
  else do
    let branch := if idx ≤ sq.minimum_ + sq.branch_bins_ then 0 else kNumBranch - 1
    let b ← sq.coding_params_.branches_[branch]?
    let sq1 := if branch = 0 then sq.SetRight (sq.minimum_ + sq.branch_bins_)
               else sq.SetLeft sq.maximum_
    let (bs, sq2) ← sq1.expEncodeLoop (room - 1) idx
    some (b :: bs, sq2)

/-- The loop over the upper layers of `NumericalSquID::GetHistogramProbIntervals`, for `i`
from `num_layer_` down to 1. -/
def histLayers (mask_last_layer : Nat) (low_bits : Int) : Nat → Option (List Branch)
  | 0 => some []
  | i + 1 => do
    let mask_shift := (mask_last_layer + i * 16) % 2 ^ 32
    let layer_branch := (toU32 (low_bits / 2 ^ mask_shift)) &&& 65535
    let b ← GetSimpleBranch 1 layer_branch
    let bs ← histLayers mask_last_layer low_bits i
    some (b :: bs)

/-- `NumericalSquID::GetHistogramProbIntervals(idx)`: the branch of the table that holds
`idx`, then the position of `idx` inside the branch. `none` is a division by zero or a
read outside `branches_`. -/
def NumericalSquID.GetHistogramProbIntervals (sq : NumericalSquID) (idx : Int) :
    Option (List Branch × NumericalSquID) :=
  if sq.branch_bins_ = 0 then none
  else
    let branch0 := Int.tdiv idx sq.branch_bins_
    let low_bits0 := idx - branch0 * sq.branch_bins_
    let branch := if low_bits0 < 0 then branch0 - 1 else branch0
    let low_bits := if low_bits0 < 0 then low_bits0 + sq.branch_bins_ else low_bits0
    let k : Int := branch + (((kNumBranch - 2) >>> 1 : Nat) : Int) + 1
    if k < 0 then none
    else do
      let b ← sq.coding_params_.branches_[k.toNat]?
      let sq1 := (sq.SetLeft (branch * sq.branch_bins_)).SetRight ((branch + 1) * sq.branch_bins_)
      let layers ← histLayers sq.mask_last_layer_ low_bits sq.num_layer_
      let last ← GetSimpleBranch sq.weight_branch_last_layer_
        (toU32 (low_bits % 2 ^ sq.mask_last_layer_))
      some (b :: layers ++ [last], sq1)

/-- `NumericalSquID::GetProbIntervals(prob_intervals, prob_intervals_index, attr_value)`:
the branches appended to `prob_intervals` and the squid afterwards. `room` is the number of
entries of `prob_intervals` from `prob_intervals_index` on; the histogram path writes
`num_layer_ + 2` entries, the tail path one entry per pick of its search, none of them
checked against the size of `prob_intervals`; `none` is a write behind its end (or the
failure of the path taken). -/
def NumericalSquID.GetProbIntervals (sq : NumericalSquID) (value : ℚ) (room : Nat) :
    Option (List Branch × NumericalSquID) := do
  let idx := sq.GetBinIndex value
  let (bs, sq1) ←
    if idx > sq.minimum_ + sq.branch_bins_ ∧ idx < sq.maximum_ then
      if room < sq.num_layer_ + 2 then none else sq.GetHistogramProbIntervals idx
    else sq.GetExpProbIntervals idx room
  some (bs, sq1.Reset)

/-- `NumericalSquID::ExpDecompress`: one binary pick read per step of the search. Every pick
takes one bit out of the data, so the loop runs at most 16 times per word left, plus the
bits the decoder holds. -/
def NumericalSquID.ExpDecompress : Nat → NumericalSquID → Decoder → List Nat →
    Option (NumericalSquID × Decoder × List Nat)
  | 0, sq, d, words => if sq.HasNextBranch then none else some (sq, d, words)
  | fuel + 1, sq, d, words =>
    if sq.HasNextBranch then do
      let (two_bytes, d1, words1) ← d.Read16Bits words
      let branch := two_bytes >>> 15
      let numerator := two_bytes &&& 32767
      let mid := sq.nextMid
      let sq1 := if branch = 0 then { sq with mid_ := mid }.SetRight mid
                 else { sq with mid_ := mid }.SetLeft (mid + 1)
      NumericalSquID.ExpDecompress fuel sq1 (d1.Update 32768 numerator) words1
    else some (sq, d, words)

/-- The loop over the upper layers of `NumericalSquID::HistogramDecompress`: `branch` after
`i` more words were read. -/
def readLayers : Nat → Nat → Decoder → List Nat → Option (Nat × Decoder × List Nat)
  | 0, branch, d, words => some (branch, d, words)
  | i + 1, branch, d, words => do
    let (w, d1, words1) ← d.Read16Bits words
    readLayers i (((branch <<< 16) % 2 ^ 64) ||| w) d1 words1

/-- `NumericalSquID::HistogramDecompress`: the position inside the branch. `none` is a
division by a zero `weight_branch_last_layer_` or a read past the data. -/
def NumericalSquID.HistogramDecompress (sq : NumericalSquID) (d : Decoder) (words : List Nat) :
    Option (NumericalSquID × Decoder × List Nat) := do
  let (sq1, d1, words1) ←
    if sq.num_layer_ ≠ 0 then do
      let (branch, d1, words1) ← readLayers sq.num_layer_ 0 d words
      some ((sq.SetLeft (sq.l_ + branch * 2 ^ sq.mask_last_layer_)).SetRight
        (sq.l_ + (branch + 1) * 2 ^ sq.mask_last_layer_), d1, words1)
    else some (sq, d, words)
  let (two_bytes, d2, words2) ← d1.Read16Bits words1
  if sq1.weight_branch_last_layer_ = 0 then none
  else
    let branch := two_bytes / sq1.weight_branch_last_layer_
    let numerator := two_bytes - branch * sq1.weight_branch_last_layer_
    some ((sq1.SetLeft (sq1.l_ + branch)).SetRight (sq1.l_ + branch),
      d2.Update sq1.weight_branch_last_layer_ numerator, words2)

/-- `NumericalSquID::Decompress(decoder, byte_reader)`: the first pick is looked up in the
table as in `CategoricalSquID::Decompress`; a tail branch starts the search, any other
branch is refined by `HistogramDecompress`. -/
def NumericalSquID.Decompress (sq : NumericalSquID) (d : Decoder) (words : List Nat) :
    Option (NumericalSquID × Decoder × List Nat) := do
  let sq0 := sq.Reset
  let (branch, d1, words1) ← decodePick sq0.coding_params_ d words
  if branch ≠ 0 ∧ branch ≠ kNumBranch - 1 then
    let b : Int := (branch : Int) - ((((kNumBranch - 2) >>> 1 : Nat) : Int) + 1)
    ((sq0.SetLeft (b * sq0.branch_bins_)).SetRight ((b + 1) * sq0.branch_bins_)).HistogramDecompress
      d1 words1
  else
    let sq1 := if branch = 0 then sq0.SetRight (sq0.minimum_ + sq0.branch_bins_)
               else sq0.SetLeft sq0.maximum_
    sq1.ExpDecompress (16 * words1.length + 48) d1 words1

/-- `NumericalSquID::GetResultAttr(round)`: the value of the left edge of bin `l_`. `none`
is the call while a branch is still to be chosen, which prints a message and returns the
attribute as it was. -/
def NumericalSquID.GetResultAttr (sq : NumericalSquID) (round : Bool) : Option ℚ :=
  if !sq.HasNextBranch then
    if sq.target_int_ then
      some ((truncToInt (Round (sq.mean_ + sq.l_ * sq.bin_size_) sq.decimal_places_) : Int) : ℚ)
    else if round then some (Round (sq.mean_ + sq.l_ * sq.bin_size_) sq.decimal_places_)
    else some (sq.mean_ + sq.l_ * sq.bin_size_)
  else none

/-- A `TableNumerical` without predictor: its single statistic table `dynamic_list_[0]`
and its squid. -/
structure TableNumerical where
  target_int_ : Bool
  bin_size_ : ℚ
  stats : NumericalStats
  squid_ : NumericalSquID

/-- The constructor `TableNumerical(attr_type, predictor_list, target_var, bin_size,
target_int)` with an empty predictor list. -/
def TableNumerical.create (bin_size : ℚ) (target_int : Bool) : TableNumerical :=
  { target_int_ := target_int, bin_size_ := bin_size,
    stats := NumericalStats.fresh.SetBinSize bin_size,
    squid_ := NumericalSquID.create bin_size target_int }

/-- `TableNumericalRealCreator::CreateModel(..., err)`: the bin size is twice the allowed
error. -/
def TableNumericalRealCreator.CreateModel (err : ℚ) : TableNumerical :=
  TableNumerical.create (err * 2) false

/-- `TableNumericalIntCreator::CreateModel(..., err)`: the bin size is
`max(1, floor(2 * err))`. -/
def TableNumericalIntCreator.CreateModel (err : ℚ) : TableNumerical :=
  TableNumerical.create ((max 1 ⌊2 * err⌋ : Int) : ℚ) true

/-- `TableNumerical::FeedAttrs(attrs, count)`: the value is pushed `count` times. -/
def TableNumerical.FeedAttrs (m : TableNumerical) (value : ℚ) (count : Nat) :
    Option TableNumerical :=
  match m.stats.pushValues (List.replicate count value) with
  | none => none
  | some stats => some { m with stats := stats }

/-- `TableNumerical::EndOfData`. The model cost (a `double`) is not part of the
embedding. -/
def TableNumerical.EndOfData (m : TableNumerical) : Option TableNumerical :=
  match m.stats.End with
  | none => none
  | some stats => some { m with stats := stats }

/-- `TableNumerical::GetSquID()`: the squid initialised with the statistic table. -/
def TableNumerical.GetSquID (m : TableNumerical) : NumericalSquID :=
  m.squid_.Init m.stats

/-! ## String model (`string_tools.h`, `string_tools.cpp`, `string_squid.h`,
`string_squid.cpp`, `string_model.cpp`)

A `std::string` is the list of its bytes, each a number below 256. -/

/-- The constant `kLocalDictSize` of `base.h`. -/
def kLocalDictSize : Nat := 1

/-- The constant `kMarkovModel` of `base.h`. -/
def kMarkovModel : Nat := 1

/-- The member `delimiters_rank1_` of `StringSplitter`: `'/'`, `' '`, `'#'`. -/
def delimiters_rank1_ : List Nat := [47, 32, 35]

/-- The member `delimiters_rank2_` of `StringSplitter`, which is also `id2delimiters_`:
`'/'`, `' '`, `'#'`, `'-'`, `'_'`, `'.'`. -/
def delimiters_rank2_ : List Nat := [47, 32, 35, 45, 95, 46]

/-- The test `delimiter2id_rank1_.count(c) != 0`. -/
def isRank1 (c : Nat) : Bool := delimiters_rank1_.contains c

/-- The test `delimiter2id_.count(c) != 0`. -/
def isDelimiter (c : Nat) : Bool := delimiters_rank2_.contains c

/-- `StringSplitter::Delimiter2Id(c)`, that is `delimiter2id_[c]`: the rank of a delimiter,
and 0 for any other character. -/
def Delimiter2Id (c : Nat) : Nat := if isDelimiter c then delimiters_rank2_.indexOf c else 0

/-- The functions `isalpha`, `isdigit`, `islower` and `isupper` of the C locale on a byte. -/
def isupper (c : Nat) : Bool := decide (65 ≤ c ∧ c ≤ 90)

/-- See `isupper`. -/
def islower (c : Nat) : Bool := decide (97 ≤ c ∧ c ≤ 122)

/-- See `isupper`. -/
def isalpha (c : Nat) : Bool := isupper c || islower c

/-- See `isupper`. -/
def isdigit (c : Nat) : Bool := decide (48 ≤ c ∧ c ≤ 57)

/-- The function `tolower` of the C locale on a byte. -/
def tolower (c : Nat) : Nat := if isupper c then c + 32 else c

/-- The class `StringSplitter`: `words_size` is `words_.size()`, and `words_` and
`delimiters_` hold the entries written by the last call of `ParseString` that wrote any
(the entries behind them are never read). -/
structure StringSplitter where
  words_size : Nat
  num_words_ : Nat
  num_phrase_ : Nat
  words_ : List Nat
  delimiters_ : List Nat
deriving DecidableEq, Repr

/-- The constructor `StringSplitter()`; `empty_` is `id2delimiters_.size() = 6`. -/
def StringSplitter.fresh : StringSplitter := ⟨0, 0, 0, [], []⟩

/-- The member `empty_` of `StringSplitter`. -/
def StringSplitter.empty_ : Nat := delimiters_rank2_.length

/-- The loops `while (k + 1 < str.size() && ...count(str[k + 1])) k++` of `ParseString`: the
index of the last delimiter of the run that starts at `k`. -/
def runEnd (p : Nat → Bool) (str : List Nat) : Nat → Nat → Nat
  | 0, k => k
  | fuel + 1, k =>
    if k + 1 < str.length ∧ p (str.getD (k + 1) 0) then runEnd p str fuel (k + 1) else k

/-- The entries written by `ParseString` so far, and its variable `start`. -/
structure SplitState where
  words_ : List Nat
  delimiters_ : List Nat
  start : Nat
deriving DecidableEq, Repr

/-- Step 1 of `ParseString` from index `k` on: a split at the end of every run of rank-1
delimiters. -/
def splitRank1 (str : List Nat) : Nat → Nat → SplitState → SplitState
  | 0, _, st => st
  | fuel + 1, k, st =>
    if k < str.length then
      if !isRank1 (str.getD k 0) then splitRank1 str fuel (k + 1) st
      else
        let k1 := runEnd isRank1 str str.length k
        splitRank1 str fuel (k1 + 1)
          ⟨st.words_ ++ [k1], st.delimiters_ ++ [Delimiter2Id (str.getD k1 0)], k1 + 1⟩
    else st

/-- Step 2 of `ParseString` from index `i` on, in the part behind the last rank-1 delimiter:
a split without separator between a letter and a digit and between a lower-case and an
upper-case letter, and a split at the end of every run of delimiters. -/
def splitFine (str : List Nat) : Nat → Nat → SplitState → SplitState
  | 0, _, st => st
  | fuel + 1, i, st =>
    if i < str.length then
      if i > 0 ∧ ((isalpha (str.getD (i - 1) 0) && isdigit (str.getD i 0)) ||
          (islower (str.getD (i - 1) 0) && isupper (str.getD i 0))) then
        splitFine str fuel (i + 1)
          ⟨st.words_ ++ [i], st.delimiters_ ++ [delimiters_rank2_.length], st.start⟩
      else if isDelimiter (str.getD i 0) then
        let i1 := runEnd isDelimiter str str.length i
        splitFine str fuel (i1 + 1)
          ⟨st.words_ ++ [i1], st.delimiters_ ++ [Delimiter2Id (str.getD i1 0)], st.start⟩
      else splitFine str fuel (i + 1) st
    else st

/-- `StringSplitter::ParseString(str)`. `none` is the `BufferOverflowException` thrown when
`num_words_ >= words_.size()` at the end. -/
def StringSplitter.ParseString (s : StringSplitter) (str : List Nat) : Option StringSplitter :=
  if str.isEmpty then some { s with num_words_ := 0, num_phrase_ := 0 }
  else
    let words_size :=
      if str.length ≥ s.words_size then (str.length ||| 1) <<< 1 else s.words_size
    let st1 := splitRank1 str str.length 0 ⟨[], [], 0⟩
    let st2 := splitFine str str.length st1.start st1
    let words := st2.words_ ++ [str.length]
    if words.length ≥ words_size then none
    else some ⟨words_size, words.length, st1.words_.length, words, st2.delimiters_⟩

/-! ## Single value of a categorical model (`categorical_model.h`) -/

/-- `TableCategorical::GetSimpleSquidValue()`: `dynamic_list_[0].only_value_`. -/
def TableCategorical.GetSimpleSquidValue (m : TableCategorical) : Nat := m.stats.only_value_

/-! ## Histogram of a numerical statistic while values are pushed -/

/-- The quotient `v_freq * 65536 / total` of the first loop of `NumericalStats::End` before
it is raised to 1, in `uint32_t` arithmetic. -/
def rawWeight (total v_freq : Nat) : Nat := (v_freq * 65536) % 2 ^ 32 / total

/-- A `NumericalStats` of bin size `bin_size` after `PushValue` has been called for each of
`values`, in order. -/
def NumericalStats.pushAll (bin_size : ℚ) (values : List ℚ) : Option NumericalStats :=
  (NumericalStats.fresh.SetBinSize bin_size).pushValues values

/-- Invariant of a `NumericalStats` after `n` calls of `PushValue`: the histogram has
`kNumBranch` cells, none of them empty, and at most one count was added for each value
pushed after the first `kNumEstSample`. -/
structure HistInv (s : NumericalStats) (n : Nat) : Prop where
  freq_len : s.v_freq_.length = kNumBranch
  freq_pos : ∀ x ∈ s.v_freq_, 1 ≤ x
  freq_sum : s.v_freq_.sum ≤ kNumBranch + (n - kNumEstSample)
  count_eq : s.v_count_ = n
  bins_pos : s.is_estimated_ = true → 1 ≤ s.branch_bins_est_
  est_count : s.is_estimated_ = true → kNumEstSample ≤ n

/-! ## Byte streams (`data_io.h`, `data_io.cpp`) -/

/-- The class `SequenceByteWriter`: the bytes handed to the file so far, the 64 KB buffer
(the list holds the buffer up to the last byte touched since it was zeroed, the bytes behind
are 0) and the two bit counters. -/
structure SequenceByteWriter where
  file_ : List Nat
  buffer_ : List Nat
  bits_counter_ : Nat
  num_bits_ : Nat
deriving DecidableEq, Repr

/-- The constructor `SequenceByteWriter(file_name)` on a file that can be opened. -/
def SequenceByteWriter.fresh : SequenceByteWriter := ⟨[], [], 0, 0⟩

/-- The statement `buffer_[i] += v` on the `char` buffer. -/
def bufferAdd (buffer : List Nat) (i v : Nat) : List Nat :=
  let b := if buffer.length ≤ i then resizeList buffer (i + 1) else buffer
  b.set i ((b.getD i 0 + v) % 256)

/-- `SequenceByteWriter::WriteLess(byte, len)` for `len <= 8`: the bits go to the buffer,
and a buffer holding 65536 full bytes is handed to the file. -/
def SequenceByteWriter.WriteLess (w : SequenceByteWriter) (byte len : Nat) :
    SequenceByteWriter :=
  let byte_index := w.bits_counter_ >>> 3
  let bits_index := w.bits_counter_ &&& 7
  let buffer1 :=
    if len ≤ 8 - bits_index then
      bufferAdd w.buffer_ byte_index (byte <<< (8 - len - bits_index))
    else
      bufferAdd (bufferAdd w.buffer_ byte_index (byte >>> (len + bits_index - 8)))
        (byte_index + 1) (byte <<< (8 - (len + bits_index - 8)))
  let bits_counter1 := w.bits_counter_ + len
  if bits_counter1 ≥ 65536 * 8 then
    let num_full_block := bits_counter1 >>> 3
    { file_ := w.file_ ++ resizeList buffer1 num_full_block,
      buffer_ := [buffer1.getD num_full_block 0],
      bits_counter_ := bits_counter1 &&& 7,
      num_bits_ := (w.num_bits_ + len) % 2 ^ 64 }
  else
    { w with buffer_ := buffer1, bits_counter_ := bits_counter1,
             num_bits_ := (w.num_bits_ + len) % 2 ^ 64 }

/-- `SequenceByteWriter::WriteByte(byte)`; the argument is converted to `unsigned char`. -/
def SequenceByteWriter.WriteByte (w : SequenceByteWriter) (byte : Nat) : SequenceByteWriter :=
  w.WriteLess (byte % 256) 8

/-- `SequenceByteWriter::Write16Bit(val)` on an `unsigned int`. -/
def SequenceByteWriter.Write16Bit (w : SequenceByteWriter) (val : Nat) : SequenceByteWriter :=
  let val1 := (val % 2 ^ 32) &&& 65535
  (w.WriteByte (val1 >>> 8)).WriteByte (val1 &&& 255)

/-- `SequenceByteWriter::Write32Bit(data)` on a `uint32_t`. -/
def SequenceByteWriter.Write32Bit (w : SequenceByteWriter) (data : Nat) : SequenceByteWriter :=
  (w.Write16Bit ((data % 2 ^ 32) >>> 16)).Write16Bit ((data % 2 ^ 32) &&& 65535)

/-- The destructor of `SequenceByteWriter`: the content of the file once the bytes left in
the buffer are written. -/
def SequenceByteWriter.close (w : SequenceByteWriter) : List Nat :=
  w.file_ ++ resizeList w.buffer_
    ((w.bits_counter_ >>> 3) + (if (w.bits_counter_ &&& 7) > 0 then 1 else 0))

/-- The in-memory class `ByteReader`: the bytes of the file and the position in bits. -/
structure ByteReader where
  stream_ : List Nat
  position_ : Nat
deriving DecidableEq, Repr

/-- `ByteReader::ReadByte`; `none` is a read outside `stream_`. -/
def ByteReader.ReadByte (r : ByteReader) : Option (Nat × ByteReader) :=
  let byte_idx := (r.position_ >>> 3) % 2 ^ 32
  let bit_idx := r.position_ &&& 7
  let r1 := { r with position_ := (r.position_ + 8) % 2 ^ 64 }
  if bit_idx = 0 then do
    let a ← r.stream_[byte_idx]?
    some (a, r1)
  else do
    let a ← r.stream_[byte_idx]?
    let b ← r.stream_[(byte_idx + 1) % 2 ^ 32]?
    some (((a <<< bit_idx) ||| (b >>> (8 - bit_idx))) % 256, r1)

/-- `ByteReader::Read16Bit`: the result is a `uint16_t`; `none` is a read outside
`stream_`. -/
def ByteReader.Read16Bit (r : ByteReader) : Option (Nat × ByteReader) :=
  let byte_idx := (r.position_ >>> 3) % 2 ^ 32
  let bit_idx := r.position_ &&& 7
  let r1 := { r with position_ := (r.position_ + 16) % 2 ^ 64 }
  do
    let a ← r.stream_[byte_idx]?
    let b ← r.stream_[(byte_idx + 1) % 2 ^ 32]?
    let ret := ((a <<< (bit_idx + 8)) ||| (b <<< bit_idx)) % 2 ^ 16
    if bit_idx ≠ 0 then do
      let c ← r.stream_[(byte_idx + 2) % 2 ^ 32]?
      some (ret ||| ((c >>> (8 - bit_idx)) % 2 ^ 16), r1)
    else some (ret, r1)

/-- `ByteReader::Read32Bit()`: `(Read16Bit() << 16) + Read16Bit()` in `unsigned`
arithmetic, the left operand read first, converted to `int`. -/
def ByteReader.Read32Bit (r : ByteReader) : Option (Int × ByteReader) := do
  let (high, r1) ← r.Read16Bit
  let (low, r2) ← r1.Read16Bit
  some (toI32 (((high <<< 16) % 2 ^ 32 + low) % 2 ^ 32), r2)

/-- The values of `std::ios_base::seekdir`. -/
inductive seekdir where
  | beg
  | cur
  | fromEnd
deriving DecidableEq, Repr

/-- `ByteReader::Seekg(num_bytes, num_bits, way)` on the `uint64_t` position. -/
def ByteReader.Seekg (r : ByteReader) (num_bytes : Int) (num_bits : Nat) (way : seekdir) :
    ByteReader :=
  match way with
  | seekdir.beg => { r with position_ := toU64 (num_bytes * 8 + num_bits) }
  | seekdir.fromEnd =>
    { r with position_ := toU64 (((r.stream_.length <<< 3 : Nat) : Int) + num_bytes * 8 + num_bits) }
  | seekdir.cur => { r with position_ := toU64 ((r.position_ : Int) + num_bytes * 8 + num_bits) }

/-! ## The block index (`index.h`) -/

/-- The class `IndexCreator`; `file_writer_` writes the index file. -/
structure IndexCreator where
  file_writer_ : SequenceByteWriter
  num_block_ : Nat
  last_block_size_ : Nat
  block_size_ : Int
deriving DecidableEq, Repr

/-- The constructor `IndexCreator()`. -/
def IndexCreator.fresh : IndexCreator := ⟨SequenceByteWriter.fresh, 0, 0, -1⟩

/-- `IndexCreator::WriteBlockInfo(length, num_tuple)` on `uint32_t` arguments. -/
def IndexCreator.WriteBlockInfo (c : IndexCreator) (length num_tuple : Nat) : IndexCreator :=
  let delta := (num_tuple + 2 ^ 32 - c.last_block_size_) % 2 ^ 32
  { file_writer_ := (c.file_writer_.Write16Bit length).Write16Bit delta,
    num_block_ := (c.num_block_ + 1) % 2 ^ 32,
    last_block_size_ := num_tuple,
    block_size_ := if c.block_size_ = -1 then toI32 delta else c.block_size_ }

/-- `IndexCreator::End`: the number of blocks is written and the writer is destroyed; the
result is the content of the index file. -/
def IndexCreator.End (c : IndexCreator) : List Nat :=
  (c.file_writer_.Write32Bit c.num_block_).close

/-- The class `IndexReader`. -/
structure IndexReader where
  file_reader_ : ByteReader
  num_block_ : Int
  block_bits_ : List Nat
  block_tuples_ : List Nat
  block_idx_ : Nat
  r_ : Nat
  mid_ : Nat
deriving DecidableEq, Repr

/-- The constructor `IndexReader()` on an index file of content `stream`. The search
fields, which the constructor leaves uninitialised, are 0 here. -/
def IndexReader.fresh (stream : List Nat) : IndexReader := ⟨⟨stream, 0⟩, 0, [], [], 0, 0, 0⟩

/-- The loop `for (i = 0; i < num_block_; ++i)` of `IndexReader::Init`, for the `n`
entries from index `i` on: the prefix sums are taken in `uint32_t`. -/
def IndexReader.initLoop : Nat → Nat → IndexReader → Option IndexReader
  | 0, _, r => some r
  | n + 1, i, r => do
    let (bits, fr1) ← r.file_reader_.Read16Bit
    let block_bits := r.block_bits_.set (i + 1) ((r.block_bits_.getD i 0 + bits) % 2 ^ 32)
    let (tuples, fr2) ← fr1.Read16Bit
    let block_tuples :=
      r.block_tuples_.set (i + 1) ((r.block_tuples_.getD i 0 + tuples) % 2 ^ 32)
    IndexReader.initLoop n (i + 1)
      { r with file_reader_ := fr2, block_bits_ := block_bits, block_tuples_ := block_tuples }

/-- `IndexReader::Init`. `none` is a read outside the file or outside a vector (the block
size printed at the end is `block_tuples_[1] - block_tuples_[0]`), a negative size given to
`resize`, or an overflow of the `int` expressions `num_block_ + 1` and
`-4 * num_block_ - 4`. -/
def IndexReader.Init (r : IndexReader) : Option IndexReader := do
  let (num_block, fr1) ← (r.file_reader_.Seekg (-4) 0 seekdir.fromEnd).Read32Bit
  if num_block < 0 ∨ 2 ^ 31 < 4 * num_block + 4 then none
  else
    let n := num_block.toNat
    let r1 : IndexReader :=
      { r with num_block_ := num_block,
               block_bits_ := resizeList r.block_bits_ (n + 1),
               block_tuples_ := resizeList r.block_tuples_ (n + 1),
               file_reader_ := fr1.Seekg (-4 * num_block - 4) 0 seekdir.fromEnd }
    let r2 ← IndexReader.initLoop n 0 r1
    let _ ← r2.block_tuples_[1]?
    some r2

/-- The loop `while (block_idx_ != r_)` of `IndexReader::LocateBlock`, on `uint32_t`
fields; `none` is a read outside `block_tuples_` or a search that does not end within
`fuel` steps. -/
def IndexReader.locateLoop (tuple_idx : Nat) : Nat → IndexReader → Option IndexReader
  | 0, r => if r.block_idx_ ≠ r.r_ then none else some r
  | fuel + 1, r =>
    if r.block_idx_ ≠ r.r_ then do
      let mid := (r.block_idx_ + (r.r_ + 2 ^ 32 - r.block_idx_) % 2 ^ 32 / 2) % 2 ^ 32
      let a ← r.block_tuples_[mid]?
      if a ≤ tuple_idx then do
        let b ← r.block_tuples_[(mid + 1) % 2 ^ 32]?
        if b > tuple_idx then
          IndexReader.locateLoop tuple_idx fuel { r with mid_ := mid, block_idx_ := mid, r_ := mid }
        else
          IndexReader.locateLoop tuple_idx fuel
            { r with mid_ := mid, block_idx_ := (mid + 1) % 2 ^ 32 }
      else IndexReader.locateLoop tuple_idx fuel { r with mid_ := mid, r_ := mid }
    else some r

/-- `IndexReader::LocateBlock(n_byte, tuple_idx)`: the value returned, the value stored in
`n_byte`, and the reader. While `block_idx_ <= r_` every step but the last narrows the
search range, so `num_block_ + 1` steps suffice. -/
def IndexReader.LocateBlock (r : IndexReader) (tuple_idx : Nat) :
    Option (Nat × Nat × IndexReader) := do
  let r0 := { r with block_idx_ := 0, r_ := toU32 r.num_block_ }
  let r1 ← IndexReader.locateLoop tuple_idx (r0.r_ + 1) r0
  let bits ← r1.block_bits_[r1.block_idx_]?
  let tuples ← r1.block_tuples_[r1.block_idx_]?
  some ((tuple_idx + 2 ^ 64 - tuples) % 2 ^ 64 % 2 ^ 32, (bits <<< 1) % 2 ^ 32, r1)

/-! ## Description of a categorical model (`categorical_model.cpp`) -/

/-- The class `TableCategorical` with its predictors: the predictor list, `target_range_`
and the statistic tables of `dynamic_list_`, one for each combination of predictor
values. -/
structure TableCategoricalModel where
  predictor_list_ : List Nat
  target_range_ : Nat
  dynamic_list_ : List CategoricalStats
deriving DecidableEq, Repr

/-- The loop of `TableCategorical::EndOfData` over the tables of `dynamic_list_`. -/
def endOfDataTables (target_range : Nat) : List CategoricalStats → Option (List CategoricalStats)
  | [] => some []
  | stats :: rest => do
    let stats1 ← stats.EndOfData target_range
    let rest1 ← endOfDataTables target_range rest
    some (stats1 :: rest1)

/-- `TableCategorical::EndOfData` on a model with predictors. -/
def TableCategoricalModel.EndOfData (m : TableCategoricalModel) : Option TableCategoricalModel :=
  match endOfDataTables m.target_range_ m.dynamic_list_ with
  | none => none
  | some tables => some { m with dynamic_list_ := tables }

/-- `TableCategorical::GetSimpleSquidValue()`: `dynamic_list_[0].only_value_`. -/
def TableCategoricalModel.GetSimpleSquidValue (m : TableCategoricalModel) : Option Nat :=
  m.dynamic_list_[0]?.map fun stats => stats.only_value_

/-- The inner loop of `TableCategorical::WriteModel`: the weights of one table, 65535
standing for 65536. -/
def writeWeights (weights : List Nat) (w : SequenceByteWriter) : SequenceByteWriter :=
  weights.foldl (fun w x => if x = 65536 then w.Write16Bit 65535 else w.Write16Bit x) w

/-- `TableCategorical::WriteModel(byte_writer)`. -/
def TableCategoricalModel.WriteModel (m : TableCategoricalModel) (w : SequenceByteWriter) :
    SequenceByteWriter :=
  let w1 := w.WriteByte m.predictor_list_.length
  let w2 := m.predictor_list_.foldl (fun w pred => w.Write16Bit pred) w1
  let w3 := w2.Write16Bit m.target_range_
  m.dynamic_list_.foldl (fun w stats => writeWeights stats.weight_ w) w3

/-- The loop of `TableCategorical::ReadModel` that reads the predictor list. -/
def readPredictors : Nat → ByteReader → Option (List Nat × ByteReader)
  | 0, r => some ([], r)
  | n + 1, r => do
    let (pred, r1) ← r.Read16Bit
    let (rest, r2) ← readPredictors n r1
    some (pred :: rest, r2)

/-- The loop `for (j = 0; j < stats.weight_.size(); ++j)` of `TableCategorical::ReadModel`,
for the `n` weights from index `j` on: the weights read, `sum_weights` (an `unsigned`) and
`only_value` (a `size_t`). -/
def readWeights : Nat → Nat → ByteReader → List Nat → Nat → Nat →
    Option (List Nat × Nat × Nat × ByteReader)
  | 0, _, r, weight, sum_weights, only_value => some (weight, sum_weights, only_value, r)
  | n + 1, j, r, weight, sum_weights, only_value => do
    let (x, r1) ← r.Read16Bit
    readWeights n (j + 1) r1 (weight.set j x) ((sum_weights + x) % 2 ^ 32)
      (if x = 65535 then j else only_value)

/-- The body of the loop over the tables in `TableCategorical::ReadModel`: the weights are
read, a sum other than 65536 restores the weight 65536 of the single value, then the
rare-branch handler and the coding table are built. `none` is a read outside the file, a
write outside `weight_`, or a failure of `InitDelayedCodingParams`. -/
def readTable (target_range : Nat) (stats : CategoricalStats) (r : ByteReader) :
    Option (CategoricalStats × ByteReader) := do
  let weight0 := resizeList stats.weight_ (target_range + 1)
  let (weight1, sum_weights, only_value, r1) ←
    readWeights weight0.length 0 r weight0 0 (2 ^ 64 - 1)
  let stats1 ←
    if sum_weights ≠ 65536 then
      if only_value < weight1.length then
        some { stats with weight_ := weight1.set only_value 65536,
                          only_value_ := only_value % 2 ^ 32 }
      else none
    else some { stats with weight_ := weight1 }
  let last := stats1.weight_.getD (stats1.weight_.length - 1) 0
  let stats2 :=
    if last ≠ 0 ∧ last ≠ 65536 then
      { stats1 with rare_branch_handler_ := stats1.rare_branch_handler_.Init stats1.weight_ }
    else stats1
  let params ← InitDelayedCodingParams stats2.weight_ stats2.coding_params_
  some ({ stats2 with coding_params_ := params }, r1)

/-- The loop over the tables of `dynamic_list_` in `TableCategorical::ReadModel`. -/
def readTables (target_range : Nat) : List CategoricalStats → ByteReader →
    Option (List CategoricalStats × ByteReader)
  | [], r => some ([], r)
  | stats :: rest, r => do
    let (stats1, r1) ← readTable target_range stats r
    let (rest1, r2) ← readTables target_range rest r1
    some (stats1 :: rest1, r2)

/-- `TableCategorical::ReadModel(byte_reader, schema, index)`. The constructor gives
`dynamic_list_` one value-initialised table for each combination of predictor values;
their number `table_size predictor_list` is the product of the capacities the registered
attribute interpreters give to the predictors (1 without predictor). -/
def TableCategoricalModel.ReadModel (table_size : List Nat → Nat) (r : ByteReader) :
    Option (TableCategoricalModel × ByteReader) := do
  let (predictor_size, r1) ← r.ReadByte
  let (predictor_list, r2) ← readPredictors predictor_size r1
  let (target_range, r3) ← r2.Read16Bit
  let (tables, r4) ←
    readTables target_range (List.replicate (table_size predictor_list) CategoricalStats.fresh) r3
  some (⟨predictor_list, target_range, tables⟩, r4)

/-- A `SequenceByteWriter` at a byte boundary: only whole bytes were written, the buffer is
not full, and the buffer is 0 from the writing position on. -/
structure WriterAligned (w : SequenceByteWriter) : Prop where
  aligned : w.bits_counter_ % 8 = 0
  not_full : w.bits_counter_ < 65536 * 8
  zero_tail : ∀ i, w.bits_counter_ / 8 ≤ i → w.buffer_.getD i 0 = 0

/-- The two bytes `Write16Bit` writes for each 16-bit word, the high byte first. -/
def wordsBytes : List Nat → List Nat
  | [] => []
  | w :: ws => w / 256 :: w % 256 :: wordsBytes ws

/-! ## Content of the index file -/

/-- An `IndexCreator` after `WriteBlockInfo(length, num_tuple)` has been called for each
`(length, num_tuple)` of `blocks`, in order. -/
def IndexCreator.writeAll (blocks : List (Nat × Nat)) : IndexCreator :=
  blocks.foldl (fun c b => c.WriteBlockInfo b.1 b.2) IndexCreator.fresh

/-- The pairs of 16-bit entries `WriteBlockInfo` writes for `blocks` when the previous
tuple count is `last`: the low 16 bits of the length and of the increase of the tuple
count. -/
def indexEntries : Nat → List (Nat × Nat) → List (Nat × Nat)
  | _, [] => []
  | last, (length, num_tuple) :: rest =>
    (length % 65536, (num_tuple + 2 ^ 32 - last) % 2 ^ 32 % 65536) :: indexEntries num_tuple rest

/-- The four bytes of each pair of 16-bit entries, high bytes first. -/
def pairBytes : List (Nat × Nat) → List Nat
  | [] => []
  | (a, b) :: rest => a / 256 :: a % 256 :: b / 256 :: b % 256 :: pairBytes rest

/-- The prefix sums of `l` in `uint32_t` arithmetic, from `acc` on. -/
def prefixSums32 : Nat → List Nat → List Nat
  | acc, [] => [acc]
  | acc, x :: xs => acc :: prefixSums32 ((acc + x) % 2 ^ 32) xs

/-- The four bytes `Write32Bit` writes for a value below `2^32`. -/
def bytes32 (n : Nat) : List Nat := [n / 2 ^ 24, n / 2 ^ 16 % 256, n / 2 ^ 8 % 256, n % 256]

/-- Invariant of a vector of prefix sums of 16-bit entries, filled up to index `i`: the
entry at `k` is at most `65535 * k`, and the entries do not decrease. -/
structure PrefixInv (l : List Nat) (i : Nat) : Prop where
  bound : ∀ k, k ≤ i → l.getD k 0 ≤ 65535 * k
  mono : ∀ k, k < i → l.getD k 0 ≤ l.getD (k + 1) 0

/-! ## Bytes of a categorical model description -/

/-- The constant `kMaxTableSize` of `TableCategoricalCreator`: `CreateModel` builds no
model with more statistic tables. -/
def kMaxTableSize : Nat := 1000

/-- The 16-bit word `WriteModel` writes for a weight: 65535 stands for 65536. -/
def encodeWeight (x : Nat) : Nat := if x = 65536 then 65535 else x

/-- The bytes `WriteModel` writes for the weights of a list of tables. -/
def tableBytes : List CategoricalStats → List Nat
  | [] => []
  | stats :: rest => wordsBytes (stats.weight_.map encodeWeight) ++ tableBytes rest

/-- The variable `only_value` of `ReadModel` after the words `ws` were read as the weights
from index `j` on: the index of the last word equal to 65535, if there is one. -/
def onlyValueOf : Nat → Nat → List Nat → Nat
  | _, only_value, [] => only_value
  | j, only_value, x :: xs => onlyValueOf (j + 1) (if x = 65535 then j else only_value) xs

/-! ## Existence and type flags of a JSON node (`json_model.cpp`) -/

/-- `JSONModel::GetProbIntervalsExist(is_existed, ...)` (and, with the type squid,
`GetProbIntervalsNodeType`): the probability intervals appended for the flag. Nothing is
appended when the squid reports a single value. -/
def JSONModel.GetProbIntervalsExist (exist_squid_ : TableCategoricalModel) (is_existed : Nat) :
    Option (List Branch) := do
  let only_value ← exist_squid_.GetSimpleSquidValue
  if only_value ≠ 65535 then some []
  else
    let stats ← exist_squid_.dynamic_list_[0]?
    CategoricalSquID.GetProbIntervals stats is_existed

/-- `JSONModel::DecompressNodeExist(decoder, byte_reader)` (and, with the type squid,
`DecompressNodeType`): the flag, the decoder and the words left. Nothing is read when the
squid reports a single value. -/
def JSONModel.DecompressNodeExist (exist_squid_ : TableCategoricalModel) (d : Decoder)
    (words : List Nat) : Option (Nat × Decoder × List Nat) := do
  let only_value ← exist_squid_.GetSimpleSquidValue
  if only_value ≠ 65535 then some (only_value, d, words)
  else
    let stats ← exist_squid_.dynamic_list_[0]?
    CategoricalSquID.Decompress stats d words

/-! ## Description length and creation of table models -/

/-- `TableCategorical::GetModelDescriptionLength()`: the expression is evaluated in `size_t`
and converted to `int`. -/
def TableCategoricalModel.GetModelDescriptionLength (m : TableCategoricalModel) : Int :=
  let table_size := m.dynamic_list_.length
  toI32 (((table_size * ((m.target_range_ + 2 ^ 64 - 1) % 2 ^ 64) * 16
    + m.predictor_list_.length * 16 + 32) % 2 ^ 64) % 2 ^ 32)

/-- The class `AttrInterpreter` as the model creators use it: `EnumInterpretable()` and
`EnumCap()`. -/
structure AttrInterpreter where
  EnumInterpretable : Bool
  EnumCap : Int
deriving DecidableEq, Repr

/-- The interpreter that `GetAttrInterpreter` registers for an attribute without one: the
base class, not enum-interpretable, of capacity 0. -/
def AttrInterpreter.base : AttrInterpreter := ⟨false, 0⟩

/-- The loop shared by `TableCategoricalCreator::CreateModel`,
`TableNumericalRealCreator::CreateModel` and `TableNumericalIntCreator::CreateModel`: the
product of the capacities in `size_t`, each predictor converted to `int` first; `none` is
the `return nullptr` inside the loop. -/
def creatorTableSize (interpreter : Int → AttrInterpreter) : List Nat → Nat → Option Nat
  | [], table_size => some table_size
  | attr :: rest, table_size =>
    let i := interpreter (toI32 (attr % 2 ^ 32))
    if i.EnumInterpretable = false then none
    else creatorTableSize interpreter rest ((table_size * toU64 i.EnumCap) % 2 ^ 64)

/-- `TableCategoricalCreator::CreateModel(attr_type, predictor, index, err)`: `none` is
`nullptr`, otherwise the predictor list and the target index of the new model. -/
def TableCategoricalCreator.CreateModel (interpreter : Int → AttrInterpreter)
    (predictor : List Nat) (index : Nat) : Option (List Nat × Nat) :=
  match creatorTableSize interpreter predictor 1 with
  | none => none
  | some table_size => if table_size > kMaxTableSize then none else some (predictor, index)

/-- A model as `RelationModelLearner` sees it: its predictor list, its target and the cost
that `GetModelCost()` reports once `EndOfData()` has been called on it. -/
structure LearnedModel where
  predictor_list_ : List Nat
  target_var_ : Nat
  model_cost_ : Int
deriving DecidableEq, Repr

/-- The class `RelationModelLearner`. The two `std::set<size_t>` are lists without
repetition, the map `stored_model_cost_` is an association list whose keys are a predictor
set (sorted, without repetition) and a target. -/
structure RelationModelLearner where
  schema_ : List Int
  learner_stage_ : Int
  skip_model_learning_ : Bool
  ordered_attr_list_ : List Nat
  inactive_attr_ : List Nat
  active_model_list_ : List LearnedModel
  selected_model_ : List (Option LearnedModel)
  model_predictor_list_ : List (List Nat)
  stored_model_cost_ : List ((List Nat × Nat) × Int)

/-- The `std::set<size_t>` built from a vector: its elements in increasing order. -/
def predictorSet (predictors : List Nat) : List Nat :=
  (predictors.insertionSort (fun a b => a ≤ b)).dedup

/-- `std::set::insert`. -/
def setInsert (s : List Nat) (a : Nat) : List Nat := if a ∈ s then s else s ++ [a]

/-- `RelationModelLearner::GetModelCost(predictors, target)`: -1 when the cost is not
known. -/
def RelationModelLearner.GetModelCost (l : RelationModelLearner) (predictors : List Nat)
    (target : Nat) : Int :=
  match l.stored_model_cost_.lookup (predictorSet predictors, target) with
  | none => -1
  | some c => c

/-- `RelationModelLearner::StoreModelCost(model)`. -/
def RelationModelLearner.StoreModelCost (l : RelationModelLearner) (model : LearnedModel) :
    RelationModelLearner :=
  let previous_cost := l.GetModelCost model.predictor_list_ model.target_var_
  if previous_cost = -1 ∨ previous_cost > model.model_cost_ then
    { l with stored_model_cost_ :=
        ((predictorSet model.predictor_list_, model.target_var_), max model.model_cost_ 0)
          :: l.stored_model_cost_.filter
              (fun e => e.1 ≠ (predictorSet model.predictor_list_, model.target_var_)) }
  else l

/-- The static function `CreateModel` of `model_learner.cpp`: `creator predictors target`
tells whether the creator registered for the type of the target returns a model; a new
model is appended to `vec`. -/
def learnerCreateModel (creator : List Nat → Nat → Bool) (predictors : List Nat) (target_var : Nat)
    (vec : List LearnedModel) : List LearnedModel :=
  if creator predictors target_var then vec ++ [⟨predictors, target_var, 0⟩] else vec

/-- The local variables of the `while (true)` loop of `InitActiveModelList` that the
`for` loop over `ordered_attr_list_` changes, with `active_model_list_` and
`model_predictor_list_[i]`. -/
structure ExpandState where
  active : List LearnedModel
  predictor_list : List Nat
  model_predictor : List Nat
  previous_cost : Int
  model_expanded : Bool

/-- One round of the loop `for (size_t attr : ordered_attr_list_)` of
`InitActiveModelList`. -/
def expandStep (creator : List Nat → Nat → Bool) (l : RelationModelLearner) (i : Nat)
    (predictor_set : List Nat) (st : ExpandState) (attr : Nat) : ExpandState :=
  if attr ∈ predictor_set then st
  else
    let predictor_list := st.predictor_list.set predictor_set.length attr
    if l.GetModelCost predictor_list i = -1 then
      { st with predictor_list := predictor_list,
                active := learnerCreateModel creator predictor_list i st.active }
    else if l.GetModelCost predictor_list i < st.previous_cost then
      { st with predictor_list := predictor_list,
                model_predictor := predictor_list,
                previous_cost := l.GetModelCost predictor_list i,
                model_expanded := true }
    else { st with predictor_list := predictor_list }

/-- The loop `while (true)` of `InitActiveModelList` for the target `i`, bounded by
`fuel` rounds (`none` when they do not suffice): the active models and
`model_predictor_list_[i]` at the `break`. -/
def expandLoop (creator : List Nat → Nat → Bool) (l : RelationModelLearner) (i : Nat) :
    Nat → List LearnedModel → List Nat → Option (List LearnedModel × List Nat)
  | 0, _, _ => none
  | fuel + 1, active, model_predictor =>
    let predictor_list := model_predictor
    let predictor_set := predictorSet predictor_list
    let previous_cost := l.GetModelCost predictor_list i
    let st := l.ordered_attr_list_.foldl (expandStep creator l i predictor_set)
      ⟨active, predictor_list ++ [0], model_predictor, previous_cost, false⟩
    if st.model_expanded then expandLoop creator l i fuel st.active st.model_predictor
    else some (st.active, st.model_predictor)

/-- The first stage of `InitActiveModelList`, over the attributes `i` still to visit: the
active models and `model_predictor_list_`. `none` is an index outside
`model_predictor_list_`. -/
def initStage0 (creator : List Nat → Nat → Bool) (l : RelationModelLearner) :
    List Nat → List LearnedModel → List (List Nat) → Option (List LearnedModel × List (List Nat))
  | [], active, mpl => some (active, mpl)
  | i :: rest, active, mpl =>
    if i ∈ l.inactive_attr_ then initStage0 creator l rest active mpl
    else if l.GetModelCost [] i = -1 then
      initStage0 creator l rest (learnerCreateModel creator [] i active) mpl
    else if i < mpl.length then
      match expandLoop creator l i (l.ordered_attr_list_.length + 1) active [] with
      | none => none
      | some (active1, predictors) => initStage0 creator l rest active1 (mpl.set i predictors)
    else none

/-- The second stage of `InitActiveModelList`, over the attributes `i` still to visit.
`none` is an index outside `model_predictor_list_`. -/
def initStage1 (creator : List Nat → Nat → Bool) (l : RelationModelLearner) :
    List Nat → List LearnedModel → Option (List LearnedModel)
  | [], active => some active
  | i :: rest, active =>
    match l.model_predictor_list_[i]? with
    | none => none
    | some predictors =>
      if predictors.all (fun attr => decide (attr ∈ l.inactive_attr_)) then
        initStage1 creator l rest (learnerCreateModel creator predictors i active)
      else initStage1 creator l rest active

/-- `RelationModelLearner::InitActiveModelList()`. -/
def RelationModelLearner.InitActiveModelList (creator : List Nat → Nat → Bool)
    (l : RelationModelLearner) : Option RelationModelLearner :=
  if l.learner_stage_ = 0 then
    match initStage0 creator l (List.range l.schema_.length) [] l.model_predictor_list_ with
    | none => none
    | some (active, mpl) =>
      some { l with active_model_list_ := active, model_predictor_list_ := mpl }
  else
    match initStage1 creator l (List.range l.schema_.length) [] with
    | none => none
    | some active => some { l with active_model_list_ := active }

/-- The size of `schema.attr_type_` in the body of the constructor: the parameter `schema`
has been moved into `schema_` by the member initializer `schema_(std::move(schema))`, and a
vector that has been moved from is empty. -/
def movedFromSchemaSize : Nat := 0

/-- `model_predictor_list_.resize(n)` on a vector whose elements are all empty, as the
later `model_predictor_list_[i]` see it. `operator[]` does not check its index: it reads
the storage of the vector, which a `resize` to a smaller size keeps. The elements from `n`
on are destroyed, and the destructor of an empty `std::vector<size_t>` frees nothing and
leaves its three null pointers in place, so a read of such an element still finds an empty
vector. The list holds the elements that `operator[]` reaches: those below the new size and
the destroyed ones behind them (new empty vectors when the vector grows). -/
def resizeEmptyLists (v : List (List Nat)) (n : Nat) : List (List Nat) :=
  v.take n ++ List.replicate (max v.length n - min n v.length) []

/-- The constructor `RelationModelLearner(schema, config)`; with `skip_model_learning_` the
body resizes `model_predictor_list_` to `schema.attr_type_.size()`, the size of the
parameter, not of the member `schema_`; the member initializer has filled it with one empty
list per attribute. -/
def RelationModelLearner.create (creator : List Nat → Nat → Bool) (schema : List Int)
    (skip_model_learning : Bool) : Option RelationModelLearner :=
  let l0 : RelationModelLearner :=
    { schema_ := schema, learner_stage_ := 0, skip_model_learning_ := skip_model_learning,
      ordered_attr_list_ := [], inactive_attr_ := [], active_model_list_ := [],
      selected_model_ := List.replicate schema.length none,
      model_predictor_list_ := List.replicate schema.length [],
      stored_model_cost_ := [] }
  let l1 : RelationModelLearner :=
    if skip_model_learning then
      { l0 with ordered_attr_list_ := List.range schema.length,
                model_predictor_list_ :=
                  resizeEmptyLists l0.model_predictor_list_ movedFromSchemaSize,
                learner_stage_ := 1,
                inactive_attr_ := [] }
    else l0
  l1.InitActiveModelList creator

/-- The search for `next_attr` in the first stage of `EndOfData`, over the attributes `i`
still to visit; `next_attr` is an `int`. `none` is an index outside
`model_predictor_list_`. -/
def nextAttrLoop (l : RelationModelLearner) : List Nat → Int → Option Int
  | [], next_attr => some next_attr
  | i :: rest, next_attr =>
    if i ∈ l.inactive_attr_ then nextAttrLoop l rest next_attr
    else if next_attr = -1 then nextAttrLoop l rest (toI32 (i % 2 ^ 32))
    else
      match l.model_predictor_list_[i]?, l.model_predictor_list_[toU64 next_attr]? with
      | some pi, some pn =>
        if l.GetModelCost pi i < l.GetModelCost pn (toU64 next_attr) then
          nextAttrLoop l rest (toI32 (i % 2 ^ 32))
        else nextAttrLoop l rest next_attr
      | _, _ => none

/-- The loop over the active models in the second stage of `EndOfData`; `none` is an
index outside `selected_model_`. -/
def selectLoop : List LearnedModel → List Nat → List (Option LearnedModel) →
    Option (List Nat × List (Option LearnedModel))
  | [], inactive, selected => some (inactive, selected)
  | model :: rest, inactive, selected =>
    match selected[model.target_var_]? with
    | none => none
    | some none =>
      selectLoop rest (setInsert inactive model.target_var_)
        (selected.set model.target_var_ (some model))
    | some (some old) =>
      if old.model_cost_ > model.model_cost_ then
        selectLoop rest (setInsert inactive model.target_var_)
          (selected.set model.target_var_ (some model))
      else selectLoop rest (setInsert inactive model.target_var_) selected

/-- The calls `active_model->EndOfData()` of `RelationModelLearner::EndOfData()`:
`cost predictors target` is the cost that the active model with these predictors and this
target reports afterwards, which depends on the tuples fed during the pass. -/
def RelationModelLearner.feedCosts (cost : List Nat → Nat → Int) (l : RelationModelLearner) :
    RelationModelLearner :=
  { l with active_model_list_ := l.active_model_list_.map fun m =>
      { m with model_cost_ := cost m.predictor_list_ m.target_var_ } }

/-- The `case 0` of `RelationModelLearner::EndOfData()` once the active models have their
cost. -/
def RelationModelLearner.endStage0 (l : RelationModelLearner) : Option RelationModelLearner :=
  let l2 := l.active_model_list_.foldl RelationModelLearner.StoreModelCost l
  if l.active_model_list_.isEmpty then
    match nextAttrLoop l2 (List.range l2.schema_.length) (-1) with
    | none => none
    | some next_attr =>
      let l3 :=
        if next_attr ≠ -1 then
          { l2 with ordered_attr_list_ := l2.ordered_attr_list_ ++ [toU64 next_attr],
                    inactive_attr_ := setInsert l2.inactive_attr_ (toU64 next_attr) }
        else l2
      if l3.ordered_attr_list_.length = l3.schema_.length then
        some { l3 with learner_stage_ := 1, inactive_attr_ := [] }
      else some l3
  else some l2

/-- The `case 1` of `RelationModelLearner::EndOfData()` once the active models have their
cost. -/
def RelationModelLearner.endStage1 (l : RelationModelLearner) : Option RelationModelLearner :=
  match selectLoop l.active_model_list_ l.inactive_attr_ l.selected_model_ with
  | none => none
  | some (inactive, selected) =>
    let l2 := { l with inactive_attr_ := inactive, selected_model_ := selected }
    if inactive.length = l.schema_.length then some { l2 with learner_stage_ := 2 }
    else some l2

/-- `RelationModelLearner::EndOfData()`. -/
def RelationModelLearner.EndOfData (creator : List Nat → Nat → Bool)
    (cost : List Nat → Nat → Int) (l : RelationModelLearner) : Option RelationModelLearner :=
  match (if l.learner_stage_ = 0 then (l.feedCosts cost).endStage0
         else if l.learner_stage_ = 1 then (l.feedCosts cost).endStage1
         else some l) with
  | none => none
  | some l1 => if l1.learner_stage_ ≠ 2 then l1.InitActiveModelList creator else some l1

/-- A learner after its construction and one call of `EndOfData` for each cost function
of `costs`; the head of the list belongs to the last call. -/
def RelationModelLearner.run (creator : List Nat → Nat → Bool) (schema : List Int)
    (skip_model_learning : Bool) : List (List Nat → Nat → Int) → Option RelationModelLearner
  | [] => RelationModelLearner.create creator schema skip_model_learning
  | cost :: costs => do
    let l ← RelationModelLearner.run creator schema skip_model_learning costs
    l.EndOfData creator cost

/-- What the `for` loop over the ordered attributes keeps true, for a predictor list `mp`
without repetition: the local list is `mp` with one more slot, and the selected list is
`mp` or `mp` followed by one ordered attribute outside `mp`. -/
structure ExpandInv (i : Nat) (mp : List Nat) (attrs : List Nat) (act0 : List LearnedModel)
    (st : ExpandState) : Prop where
  plist : ∃ x, st.predictor_list = mp ++ [x]
  kept : st.model_expanded = false → st.model_predictor = mp
  grown : st.model_expanded = true →
    ∃ a, a ∈ attrs ∧ a ∉ mp ∧ st.model_predictor = mp ++ [a]
  act : ∀ m ∈ st.active, m ∈ act0 ∨ m.target_var_ = i


/-- What holds of a learner built without `skip_model_learning_`, for a schema of `n`
attributes, after any number of calls of `EndOfData`. -/
structure LearnerInv (n : Nat) (l : RelationModelLearner) : Prop where
  schema : l.schema_.length = n
  mpl : l.model_predictor_list_.length = n
  sel : l.selected_model_.length = n
  nodup : l.ordered_attr_list_.Nodup
  ord_lt : ∀ a ∈ l.ordered_attr_list_, a < n
  act : ∀ m ∈ l.active_model_list_, m.target_var_ < n
  stage : l.learner_stage_ = 0 ∨ l.learner_stage_ = 1 ∨ l.learner_stage_ = 2
  inact : l.learner_stage_ = 0 → ∀ a, a ∈ l.inactive_attr_ ↔ a ∈ l.ordered_attr_list_
  short : l.learner_stage_ = 0 → l.ordered_attr_list_.length < n ∨ n = 0
  full : l.learner_stage_ ≠ 0 → l.ordered_attr_list_.length = n
  prec : ∀ a, ∀ p ∈ l.model_predictor_list_.getD a [],
    p ∈ l.ordered_attr_list_ ∧
      ∀ pre post, l.ordered_attr_list_ = pre ++ a :: post → p ∈ pre

/-- Whether the learner knows the cost of the predictor set and target `k`:
`GetModelCost` does not answer -1 for them. -/
def RelationModelLearner.costKnown (l : RelationModelLearner) (k : List Nat × Nat) : Bool :=
  match l.stored_model_cost_.lookup k with
  | none => false
  | some c => decide (c ≠ -1)

/-- The progress measure of the first stage for a schema of `n` attributes: the number of
pairs of a set of attributes and a target whose cost is not known, plus the number of
attributes not yet ordered. -/
def RelationModelLearner.stage0Measure (l : RelationModelLearner) (n : Nat) : Nat :=
  (((List.range n).sublists.product (List.range n)).countP fun k => !l.costKnown k)
    + (n - l.ordered_attr_list_.length)

/-- A model whose cost the learner does not know and whose predictors are ordered
attributes. -/
def FreshModel (l : RelationModelLearner) (m : LearnedModel) : Prop :=
  l.GetModelCost m.predictor_list_ m.target_var_ = -1 ∧
    ∀ p ∈ m.predictor_list_, p ∈ l.ordered_attr_list_

/-- What holds of the active models of the first stage: their cost is not known and their
predictors are ordered attributes. -/
def ActiveFresh (l : RelationModelLearner) : Prop :=
  ∀ m ∈ l.active_model_list_, FreshModel l m

/-! ## The global dictionary of the string model

Strings are lists of character codes. A `std::unordered_map<std::string, int>` is an
association list with distinct keys; its iteration order, which the source leaves to the
library, is the order of the list, a new key going to the end. The `int` counts are
integers: the training counts stay far below `2^31`. -/

/-- The class `GlobalDictionary` without its coding model `squid_`. -/
structure GlobalDictionary where
  line_ : Int
  id_to_term_ : List (List Nat)
  term_to_id_ : List (List Nat × Int)
  word_counts_ : List (List Nat × Int)
  phrase_counts_ : List (List Nat × Int)
  phrases_delimiter_idx_ : List (List Nat × Int)
deriving DecidableEq, Repr

/-- The statement `m[key] += delta` on a map. -/
def mapAdd (m : List (List Nat × Int)) (key : List Nat) (delta : Int) : List (List Nat × Int) :=
  if m.lookup key = none then m ++ [(key, delta)]
  else m.map fun e => if e.1 = key then (e.1, e.2 + delta) else e

/-- The statement `m[key] = value` on a map. -/
def mapSet (m : List (List Nat × Int)) (key : List Nat) (value : Int) : List (List Nat × Int) :=
  if m.lookup key = none then m ++ [(key, value)]
  else m.map fun e => if e.1 = key then (e.1, value) else e

/-- The constructor `GlobalDictionary(BlockSize)`. -/
def GlobalDictionary.fresh : GlobalDictionary := ⟨0, [], [], [], [], []⟩

/-- `GlobalDictionary::PushWord(word, count)`. -/
def GlobalDictionary.PushWord (d : GlobalDictionary) (word : List Nat) (count : Int) :
    GlobalDictionary :=
  { d with word_counts_ := mapAdd d.word_counts_ word count }

/-- `GlobalDictionary::PushPhrase(phrase, delimiter_idx, count)`. -/
def GlobalDictionary.PushPhrase (d : GlobalDictionary) (phrase : List Nat) (delimiter_idx : Int)
    (count : Int) : GlobalDictionary :=
  { d with phrase_counts_ := mapAdd d.phrase_counts_ phrase count,
           phrases_delimiter_idx_ :=
             if d.phrases_delimiter_idx_.lookup phrase = none then
               d.phrases_delimiter_idx_ ++ [(phrase, delimiter_idx)]
             else d.phrases_delimiter_idx_ }

/-- `GlobalDictionary::IsFrequentWord(word_count)`. -/
def IsFrequentWord (word_count : List Nat × Int) : Bool :=
  decide ((word_count.2 > 3 ∧ word_count.1.length > 3) ∨ word_count.2 > 10)

/-- `GlobalDictionary::IsFrequentPhrase(phrase_count)`. -/
def IsFrequentPhrase (phrase_count : List Nat × Int) : Bool :=
  decide (phrase_count.2 > 10 ∧ phrase_count.1.length ≥ 3)

/-- The first word of a phrase in `CountPhrases`: `phrase.substr(0, delimiter_idx)`, the
`int` index converted to `size_t`. -/
def phraseFormer (phrase : List Nat) (delimiter_idx : Int) : List Nat :=
  phrase.take (toU64 delimiter_idx)

/-- The second word of a phrase in `CountPhrases`:
`phrase.substr(delimiter_idx + 1, phrase.size())`; `none` is the exception
`std::out_of_range` of a start behind the end of the phrase. -/
def phraseLatter (phrase : List Nat) (delimiter_idx : Int) : Option (List Nat) :=
  if toU64 (delimiter_idx + 1) > phrase.length then none
  else some (phrase.drop (toU64 (delimiter_idx + 1)))

/-- What `CountPhrases` changes: `word_counts_`, `phrases_delimiter_idx_` (its
`operator[]` adds a missing phrase with index 0) and the counters passed by reference. -/
structure CountState where
  word_counts : List (List Nat × Int)
  delimiter_idx : List (List Nat × Int)
  num_total_freq : Int
  num_dict_freq : Int
  num_dict_phrase : Int
deriving DecidableEq, Repr

/-- The loop of `GlobalDictionary::CountPhrases` over the phrases still to visit. -/
def countPhrasesLoop : List (List Nat × Int) → CountState → Option CountState
  | [], st => some st
  | phrase_count :: rest, st =>
    if IsFrequentPhrase phrase_count then
      let phrase := phrase_count.1
      let delimiter_idx := (st.delimiter_idx.lookup phrase).getD 0
      let former := phraseFormer phrase delimiter_idx
      match phraseLatter phrase delimiter_idx with
      | none => none
      | some latter =>
        countPhrasesLoop rest
          { word_counts := mapAdd (mapAdd st.word_counts former (-phrase_count.2)) latter
              (-phrase_count.2),
            delimiter_idx := mapAdd st.delimiter_idx phrase 0,
            num_total_freq := st.num_total_freq - phrase_count.2,
            num_dict_freq := st.num_dict_freq - phrase_count.2,
            num_dict_phrase := st.num_dict_phrase + 1 }
    else countPhrasesLoop rest st

/-- `std::vector<std::string>::resize(n)`. -/
def resizeTerms (l : List (List Nat)) (n : Nat) : List (List Nat) :=
  l.take n ++ List.replicate (n - l.length) []

/-- The loops `2-1. Feed Phrase` (with `IsFrequentPhrase`) and `2-2. Feed Word` (with
`IsFrequentWord` and `skip_known`, the test `term_to_id_.count(...) == 0`) of
`GlobalDictionary::EndOfData`, over the entries still to visit: `id_to_term_`,
`term_to_id_` and `idx`. `none` is an index outside `id_to_term_`. -/
def feedLoop (frequent : List Nat × Int → Bool) (skip_known : Bool) :
    List (List Nat × Int) → List (List Nat) → List (List Nat × Int) → Int →
    Option (List (List Nat) × List (List Nat × Int) × Int)
  | [], ids, terms, idx => some (ids, terms, idx)
  | term_count :: rest, ids, terms, idx =>
    if frequent term_count then
      if skip_known = true ∧ terms.lookup term_count.1 ≠ none then
        feedLoop frequent skip_known rest ids terms idx
      else if toU64 idx < ids.length then
        feedLoop frequent skip_known rest (ids.set (toU64 idx) term_count.1)
          (mapSet terms term_count.1 idx) (idx + 1)
      else none
    else feedLoop frequent skip_known rest ids terms idx

/-- `GlobalDictionary::EndOfData(encoding_methods, splitter)`. The calls on `squid_` and on
`encoding_methods`, which receive the identifiers and the counts, do not touch the fields
kept here. `none` is an exception or an index outside `id_to_term_`. -/
def GlobalDictionary.EndOfData (d : GlobalDictionary) : Option GlobalDictionary :=
  let num_dict_word : Int := (d.word_counts_.filter IsFrequentWord).length
  let num_total_freq : Int := (d.word_counts_.map Prod.snd).sum
  let num_dict_freq : Int := ((d.word_counts_.filter IsFrequentWord).map Prod.snd).sum
  match countPhrasesLoop d.phrase_counts_
      ⟨d.word_counts_, d.phrases_delimiter_idx_, num_total_freq, num_dict_freq, 0⟩ with
  | none => none
  | some st =>
    let ids := resizeTerms d.id_to_term_ (toU64 (num_dict_word + st.num_dict_phrase))
    match feedLoop IsFrequentPhrase false d.phrase_counts_ ids d.term_to_id_ 0 with
    | none => none
    | some (ids1, terms1, idx1) =>
      match feedLoop IsFrequentWord true st.word_counts ids1 terms1 idx1 with
      | none => none
      | some (ids2, terms2, idx2) =>
        some { d with line_ := idx1,
                      id_to_term_ := resizeTerms ids2 (toU64 idx2),
                      term_to_id_ := terms2,
                      word_counts_ := [],
                      phrases_delimiter_idx_ := st.delimiter_idx }

/-- The two words of a phrase as `CountPhrases` cuts them at the delimiter index kept in
`phrases_delimiter_idx_`. -/
def GlobalDictionary.phraseWords (d : GlobalDictionary) (phrase : List Nat) :
    List Nat × List Nat :=
  let delimiter_idx := (d.phrases_delimiter_idx_.lookup phrase).getD 0
  (phraseFormer phrase delimiter_idx, (phraseLatter phrase delimiter_idx).getD [])

/-- What the frequent phrases of `phrases` take from the count of `word`: the count of a
phrase once for each of its two words equal to `word`. -/
def phraseShare (words : List Nat → List Nat × List Nat) (word : List Nat)
    (phrases : List (List Nat × Int)) : Int :=
  ((phrases.filter IsFrequentPhrase).map fun pc =>
    (if (words pc.1).1 = word then pc.2 else 0) + (if (words pc.1).2 = word then pc.2 else 0)).sum

/-- The keys `keys` with the identifiers `start`, `start + 1`, ... -/
def indexedTerms : Nat → List (List Nat) → List (List Nat × Int)
  | _, [] => []
  | start, key :: rest => (key, (start : Int)) :: indexedTerms (start + 1) rest

/-! ## Reading and writing at bit granularity -/

/-- `ByteReader::ReadBit`; `none` is a read outside `stream_`. -/
def ByteReader.ReadBit (r : ByteReader) : Option (Bool × ByteReader) :=
  let byte_idx := (r.position_ >>> 3) % 2 ^ 32
  let bit_idx := r.position_ &&& 7
  match r.stream_[byte_idx]? with
  | none => none
  | some a =>
    some (decide ((a >>> (7 - bit_idx)) &&& 1 ≠ 0),
      { r with position_ := (r.position_ + 1) % 2 ^ 64 })

/-- `ByteReader::SetPos(pos)` on the `uint64_t` position. -/
def ByteReader.SetPos (r : ByteReader) (pos : Nat) : ByteReader :=
  { r with position_ := pos % 2 ^ 64 }

/-- `ByteReader::Tellg()`. -/
def ByteReader.Tellg (r : ByteReader) : Nat := r.position_

/-- A call on a `SequenceByteWriter`: `WriteLess(x, len)`, `WriteByte(x)` or
`Write16Bit(x)`. -/
inductive WriteOp where
  | less (x len : Nat)
  | byte (x : Nat)
  | word (x : Nat)
deriving DecidableEq, Repr

/-- The call `op` made on the writer `w`. -/
def WriteOp.perform (w : SequenceByteWriter) : WriteOp → SequenceByteWriter
  | WriteOp.less x len => w.WriteLess x len
  | WriteOp.byte x => w.WriteByte x
  | WriteOp.word x => w.Write16Bit x

/-- The calls `ops` made in order on the writer `w`. -/
def writeOps (ops : List WriteOp) (w : SequenceByteWriter) : SequenceByteWriter :=
  ops.foldl WriteOp.perform w

/-- `len` calls of `ReadBit`, the bits gathered most significant first behind those of
`acc`. -/
def readBits : Nat → ByteReader → Nat → Option (Nat × ByteReader)
  | 0, r, acc => some (acc, r)
  | len + 1, r, acc =>
    match r.ReadBit with
    | none => none
    | some (bit, r1) => readBits len r1 (2 * acc + (if bit then 1 else 0))

/-- The reads that match the call `op`: `len` times `ReadBit`, `ReadByte` or
`Read16Bit`. -/
def WriteOp.read (r : ByteReader) : WriteOp → Option (Nat × ByteReader)
  | WriteOp.less _ len => readBits len r 0
  | WriteOp.byte _ => r.ReadByte
  | WriteOp.word _ => r.Read16Bit

/-- The reads that match the calls `ops`, in order: the values read and the reader. -/
def readOps : List WriteOp → ByteReader → Option (List Nat × ByteReader)
  | [], r => some ([], r)
  | op :: rest, r =>
    match op.read r with
    | none => none
    | some (v, r1) =>
      match readOps rest r1 with
      | none => none
      | some (vs, r2) => some (v :: vs, r2)

/-- The value handed to the call `op`. -/
def WriteOp.value : WriteOp → Nat
  | WriteOp.less x _ => x
  | WriteOp.byte x => x
  | WriteOp.word x => x

/-- The number of bits the call `op` writes. -/
def WriteOp.bits : WriteOp → Nat
  | WriteOp.less _ len => len
  | WriteOp.byte _ => 8
  | WriteOp.word _ => 16

/-- The number of bits the calls `ops` write. -/
def opsBits (ops : List WriteOp) : Nat := (ops.map WriteOp.bits).sum

/-- The arguments of the call `op` fit: at most 8 bits of a value below `2 ^ len`, a byte,
a 16-bit value. -/
def WriteOp.fits : WriteOp → Prop
  | WriteOp.less x len => len ≤ 8 ∧ x < 2 ^ len
  | WriteOp.byte x => x < 256
  | WriteOp.word x => x < 65536

/-- The number whose digits in base 256 are the bytes of `stream`, first byte first. -/
def streamVal (stream : List Nat) : Nat := stream.foldl (fun acc a => acc * 256 + a) 0

/-- The bytes a writer holds: those handed to the file, the complete bytes of the buffer
and the byte being filled. -/
def SequenceByteWriter.content (w : SequenceByteWriter) : List Nat :=
  w.file_ ++ resizeList w.buffer_ (w.bits_counter_ / 8 + 1)

/-- A writer that holds the `n` bits of the number `V`, most significant first: the state
reached from the constructor by calls whose arguments fit. -/
structure WriterHolds (w : SequenceByteWriter) (V n : Nat) : Prop where
  not_full : w.bits_counter_ < 65536 * 8
  zero_tail : ∀ i, w.bits_counter_ / 8 < i → w.buffer_.getD i 0 = 0
  small : ∀ a ∈ w.content, a < 256
  total : 8 * w.file_.length + w.bits_counter_ = n
  value : streamVal w.content = V * 2 ^ (8 - w.bits_counter_ % 8)

/-- The number written once the calls `ops` have followed the number `V`: each call puts
its bits behind those written before. -/
def opsVal (V : Nat) (ops : List WriteOp) : Nat :=
  ops.foldl (fun V op => V * 2 ^ op.bits + op.value) V

/-- The number that the `len` bits of `stream` from bit `p` on spell, most significant
first. -/
def bitField (stream : List Nat) (p len : Nat) : Nat :=
  (streamVal stream / 2 ^ (8 * stream.length - p - len)) % 2 ^ len

/-! ## `DynamicList` (`utility.h`) -/

/-- The class `DynamicList<T>`: the storage, the capacities and their number (an `int`). -/
structure DynamicList (α : Type) where
  dynamic_list_ : List α
  index_cap_ : List Nat
  index_cap_size_ : Int

/-- The loop `size *= static_cast<int>(cap)` of the constructor of `DynamicList`: `none` is
an overflow of the `int` product. -/
def DynamicList.sizeLoop : List Nat → Int → Option Int
  | [], size => some size
  | cap :: rest, size =>
    let size1 := size * toI32 cap
    if -(2 ^ 31) ≤ size1 ∧ size1 < 2 ^ 31 then DynamicList.sizeLoop rest size1 else none

/-- The constructor `DynamicList(index_cap)`: `size` default elements `init`. `none` is an
overflow of `size` or a negative `size` handed to `resize`. -/
def DynamicList.create {α : Type} (init : α) (index_cap : List Nat) : Option (DynamicList α) :=
  match DynamicList.sizeLoop index_cap 1 with
  | none => none
  | some size =>
    if size < 0 then none
    else some ⟨List.replicate size.toNat init, index_cap, toI32 index_cap.length⟩

/-- The loop of `DynamicList::operator[](index)`: `pos = pos * index_cap_[i] + index[i]` in
`size_t`, for `k` more values of `i`; `none` is a read outside a vector. -/
def DynamicList.posLoop (index_cap index : List Nat) : Nat → Nat → Nat → Option Nat
  | 0, _, pos => some pos
  | k + 1, i, pos =>
    match index_cap[i]?, index[i]? with
    | some c, some x => DynamicList.posLoop index_cap index k (i + 1) ((pos * c + x) % 2 ^ 64)
    | _, _ => none

/-- The physical position `DynamicList::operator[](index)` selects; the loop runs while
`i < index_cap_size_`, compared in `size_t`. -/
def DynamicList.pos {α : Type} (l : DynamicList α) (index : List Nat) : Option Nat :=
  DynamicList.posLoop l.index_cap_ index (toU64 l.index_cap_size_) 0 0

/-- `DynamicList::operator[](index)`: the element at the selected position; `none` is a
read outside the storage. -/
def DynamicList.get {α : Type} (l : DynamicList α) (index : List Nat) : Option α :=
  match l.pos index with
  | none => none
  | some p => l.dynamic_list_[p]?

/-- The row-major position of `index` in an array of capacities `caps`: the sum of
`index[i]` times the product of the capacities behind `i`. -/
def rowMajor : List Nat → List Nat → Nat
  | _ :: cs, x :: xs => x * cs.prod + rowMajor cs xs
  | _, _ => 0

/-- An index vector in range: as long as `caps` and `index[i] < caps[i]` throughout. -/
def inRange : List Nat → List Nat → Prop
  | [], [] => True
  | c :: cs, x :: xs => x < c ∧ inRange cs xs
  | _, _ => False

/-! ## The surplus re-inserted by the slot-filling loop of `InitDelayedCodingParams` -/

/-- The pair `newly_branch_segs` of one iteration of the slot-filling loop: what is left of
the branch taken from `L` once the slot is filled. `none` is `back()` of an empty
vector. -/
def arrangeNewly (num_bits : Nat) (S L : List (Int × Nat)) : Option (Int × Nat) :=
  match S with
  | branch_seg_s :: _ =>
    match L with
    | [] => none
    | branch_seg_l :: _ =>
      some (branch_seg_l.1 - (slotWidth num_bits - branch_seg_s.1), branch_seg_l.2)
  | [] =>
    match L with
    | [] => none
    | branch_seg_l :: _ => some (branch_seg_l.1 - slotWidth num_bits, branch_seg_l.2)

/-- The pairs `newly_branch_segs` of the `r` iterations of the slot-filling loop, in the
order of the iterations (up to the first `back()` of an empty vector). -/
def surplusLoop (num_bits : Nat) : Nat → List (Int × Nat) → List (Int × Nat) → List (Int × Nat)
  | 0, _, _ => []
  | r + 1, S, L =>
    match arrangeNewly num_bits S L, arrangeStep num_bits S L with
    | some newly, some (_, S1, L1) => newly :: surplusLoop num_bits r S1 L1
    | _, _ => []

/-! ## Search in a tail (`NumericalSquID::GetExpProbIntervals`, `ExpDecompress`) -/

/-- The state of the search for bin `idx` in a tail: the deviation and the step let the
search run, at least one bound is known, and every known bound is on its side of `idx`. -/
structure SearchInv (sq : NumericalSquID) (idx : Int) : Prop where
  dev : (1 : ℚ) / 100000000 ≤ sq.dev_
  step : 1 ≤ sq.step_
  known : sq.l_inf_ = false ∨ sq.r_inf_ = false
  left : sq.l_inf_ = false → sq.l_ ≤ idx
  right : sq.r_inf_ = false → idx ≤ sq.r_

/-- A bound on the number of picks the search for `idx` still takes: the width of
`[l_, r_]` once both bounds are known, the distance of `idx` from the known bound plus
`step_ + 1` before. -/
def NumericalSquID.searchBound (sq : NumericalSquID) (idx : Int) : Nat :=
  if !sq.l_inf_ && !sq.r_inf_ then (sq.r_ - sq.l_).toNat
  else if sq.l_inf_ then (sq.r_ - idx).toNat + sq.step_ + 1
  else (idx - sq.l_).toNat + sq.step_ + 1

/-! ## Terms of a parsed string (`StringSquID::GetProbIntervals`, step 3) -/

/-- `sentence.substr(start, end - start)` with `int start, end`: the count is converted to
`size_t`, so a negative difference takes the rest of the string. `start` is never behind
the end of the string here. -/
def substr (sentence : List Nat) (start e : Nat) : List Nat :=
  if e < start then sentence.drop start else (sentence.drop start).take (e - start)

/-- The loop "3. Start Compress Each Term" of `StringSquID::GetProbIntervals` when no two
words are merged into a phrase: every term `sentence.substr(start, end - start)` with the
delimiter id coded behind it (none behind the last term), and
`start = end + (delimiter != empty_)` for the next term. -/
def termLoop (sentence : List Nat) : Nat → List Nat → List Nat → List (List Nat × Option Nat)
  | start, [e], _ => [(substr sentence start e, none)]
  | start, e :: w :: words, d :: delimiters =>
    (substr sentence start e, some d) ::
      termLoop sentence (e + if d ≠ StringSplitter.empty_ then 1 else 0) (w :: words) delimiters
  | _, _, _ => []

/-- The string made of the terms and, behind each term, the character
`id2delimiters_[delimiter_id]` of its delimiter unless the id is `empty_` (the string
`StringSquID::Decompress` puts together). -/
def joinTerms : List (List Nat × Option Nat) → List Nat
  | [] => []
  | (term, none) :: rest => term ++ joinTerms rest
  | (term, some d) :: rest =>
    term ++ (if d ≠ StringSplitter.empty_ then [delimiters_rank2_.getD d 0] else [])
      ++ joinTerms rest

/-- The entries `(words, delimiters)` cut `str` from `start` up to `cur`: every offset is
at or behind the start of its term and inside the string, a delimiter id other than
`empty_` is the id of the character at the offset, and the next term starts behind that
character (at the offset itself for `empty_`). -/
def Cuts (str : List Nat) : Nat → List Nat → List Nat → Nat → Prop
  | start, [], [], cur => cur = start
  | start, e :: words, d :: delimiters, cur =>
    start ≤ e ∧ e < str.length ∧
      (d ≠ StringSplitter.empty_ → delimiters_rank2_.getD d 0 = str.getD e 0) ∧
      Cuts str (e + if d ≠ StringSplitter.empty_ then 1 else 0) words delimiters cur
  | _, _, _, _ => False

/-- The state of a loop of `ParseString` that is about to look at index `k`: the offsets
written so far are strictly increasing and below `k`, there are at most `k` of them, and
they cut the string up to a position `cur ≤ k`. -/
structure SplitInv (str : List Nat) (st : SplitState) (cur k : Nat) : Prop where
  sorted : st.words_.Pairwise (fun a b => a < b)
  below : ∀ w ∈ st.words_, w < k
  count : st.words_.length ≤ k
  cuts : Cuts str 0 st.words_ st.delimiters_ cur
  cur_le : cur ≤ k
  k_le : k ≤ str.length

/-! ## JSON model tree (`json_base.h`, `json_model.h`, `json_model.cpp`) -/

/-- The enumeration `NodeType`. -/
inductive NodeType where
  | kNullType
  | kFalseType
  | kTrueType
  | kObjectType
  | kArrayType
  | kStringType
  | kNumberType
  | kDoubleType
  | kTimeSeriesType
deriving DecidableEq, Repr

/-- The class `JSONModel`, for nodes that carry no string, number or time-series model
(`string_model_`, `number_model_` and `ts_model_` are `nullptr`): the set `types_` as a
list, the member nodes, their order, the node of the array elements if there is one, and
the categorical models of existence, type and array size (`array_size_squid_` is read only
when `array_member_` is set). -/
inductive JSONModel where
  | mk (node_id_ : Nat) (types_ : List NodeType) (object_members_ : List JSONModel)
      (members_order_ : List Nat) (array_member_ : Option JSONModel)
      (exist_squid_ type_squid_ array_size_squid_ : TableCategoricalModel)

/-- The member `types_` of a node. -/
def JSONModel.types_ : JSONModel → List NodeType
  | .mk _ types _ _ _ _ _ _ => types

/-- The member `object_members_` of a node. -/
def JSONModel.object_members_ : JSONModel → List JSONModel
  | .mk _ _ members _ _ _ _ _ => members

/-- The member `members_order_` of a node. -/
def JSONModel.members_order_ : JSONModel → List Nat
  | .mk _ _ _ order _ _ _ _ => order

/-- The test of the first loop of `SetObjectOrdering`: the member has a number, string or
double type. -/
def isLeafMember (member : JSONModel) : Bool :=
  member.types_.contains NodeType.kNumberType || member.types_.contains NodeType.kStringType ||
    member.types_.contains NodeType.kDoubleType

/-- The test of the second loop of `SetObjectOrdering`: the member has an object or array
type. -/
def isNonLeafMember (member : JSONModel) : Bool :=
  member.types_.contains NodeType.kObjectType || member.types_.contains NodeType.kArrayType

/-- A loop `for (i = 0; i < object_members_.size(); ++i)` of `SetObjectOrdering` from
member `i` on: a member that passes the test and is not in `members_order_` yet is pushed
back. -/
def orderLoop (test : JSONModel → Bool) : List JSONModel → Nat → List Nat → List Nat
  | [], _, members_order => members_order
  | member :: rest, i, members_order =>
    orderLoop test rest (i + 1)
      (if test member then
        (if members_order.contains i then members_order else members_order ++ [i])
       else members_order)

/-- `JSONModel::SetObjectOrdering(members_order)`: nothing changes when an index is not
valid; otherwise the order is the argument followed by the missing members with a number,
string or double type, then the missing members with an object or array type. -/
def JSONModel.SetObjectOrdering : JSONModel → List Nat → JSONModel
  | .mk node_id types members order array_member exist_squid type_squid array_size_squid,
    members_order =>
    if members_order.any (fun idx => decide (idx ≥ members.length)) then
      .mk node_id types members order array_member exist_squid type_squid array_size_squid
    else
      .mk node_id types members
        (orderLoop isNonLeafMember members 0 (orderLoop isLeafMember members 0 members_order))
        array_member exist_squid type_squid array_size_squid

/-- `ByteReader::Read16BitFast`: the two bytes at `position_ >> 3`, whatever the bit
offset; `none` is a read outside `stream_`. -/
def ByteReader.Read16BitFast (r : ByteReader) : Option (Nat × ByteReader) :=
  let byte_idx := (r.position_ >>> 3) % 2 ^ 32
  do
    let a ← r.stream_[byte_idx]?
    let b ← r.stream_[(byte_idx + 1) % 2 ^ 32]?
    some (((a <<< 8) ||| b) % 2 ^ 16, { r with position_ := (r.position_ + 16) % 2 ^ 64 })

mutual
/-- `JSONModel::WriteModel(byte_writer)` for a node without string, number or time-series
model: the node id, the member order, the models of existence and type, the flag of the
array member (with the model of the array size), three 0 flags for the absent leaf models,
then the array member and the object members. -/
def JSONModel.WriteModel : JSONModel → SequenceByteWriter → SequenceByteWriter
  | .mk node_id _ members order array_member exist_squid type_squid array_size_squid, w =>
    let w1 := (w.Write16Bit node_id).Write16Bit order.length
    let w2 := order.foldl (fun w idx => w.Write16Bit idx) w1
    let w3 := type_squid.WriteModel (exist_squid.WriteModel w2)
    let w4 := if array_member.isSome then array_size_squid.WriteModel (w3.WriteLess 1 1)
              else w3.WriteLess 0 1
    let w5 := ((w4.WriteLess 0 1).WriteLess 0 1).WriteLess 0 1
    JSONModel.writeMembers members (JSONModel.writeArray array_member w5)
/-- The statement `if (array_member_) array_member_->WriteModel(byte_writer)`. -/
def JSONModel.writeArray : Option JSONModel → SequenceByteWriter → SequenceByteWriter
  | none, w => w
  | some member, w => JSONModel.WriteModel member w
/-- The loop `for (auto &member_node : object_members_) member_node->WriteModel(...)`. -/
def JSONModel.writeMembers : List JSONModel → SequenceByteWriter → SequenceByteWriter
  | [], w => w
  | member :: rest, w => JSONModel.writeMembers rest (JSONModel.WriteModel member w)
end

mutual
/-- The number of nodes of a JSON model tree. -/
def JSONModel.numNodes : JSONModel → Nat
  | .mk _ _ members _ array_member _ _ _ =>
    1 + JSONModel.numNodesArray array_member + JSONModel.numNodesMembers members
/-- The number of nodes under the array member. -/
def JSONModel.numNodesArray : Option JSONModel → Nat
  | none => 0
  | some member => JSONModel.numNodes member
/-- The number of nodes under the object members. -/
def JSONModel.numNodesMembers : List JSONModel → Nat
  | [] => 0
  | member :: rest => JSONModel.numNodes member + JSONModel.numNodesMembers rest
end

/-! # Theorems -/

/-! ## Sums over `(width, branch)` lists -/

@[simp] theorem wsum_nil : wsum [] = 0 := rfl
@[simp] theorem wsum_cons (a : Int × Nat) (l : List (Int × Nat)) :
    wsum (a :: l) = a.1 + wsum l := by simp [wsum]
@[simp] theorem wsum_append (l₁ l₂ : List (Int × Nat)) :
    wsum (l₁ ++ l₂) = wsum l₁ + wsum l₂ := by simp [wsum]
@[simp] theorem bsum_nil (j : Nat) : bsum j [] = 0 := rfl
@[simp] theorem bsum_cons (j : Nat) (a : Int × Nat) (l : List (Int × Nat)) :
    bsum j (a :: l) = (if a.2 = j then a.1 else 0) + bsum j l := by simp [bsum]
@[simp] theorem bsum_append (j : Nat) (l₁ l₂ : List (Int × Nat)) :
    bsum j (l₁ ++ l₂) = bsum j l₁ + bsum j l₂ := by simp [bsum]

theorem wsum_reverse (l : List (Int × Nat)) : wsum l.reverse = wsum l := by
  induction l with
  | nil => rfl
  | cons a l ih => simp [ih]; omega

theorem bsum_reverse (j : Nat) (l : List (Int × Nat)) : bsum j l.reverse = bsum j l := by
  induction l with
  | nil => rfl
  | cons a l ih => simp [ih]; omega

@[simp] theorem partsOf_append (l₁ l₂ : List ((Int × Nat) × (Int × Nat))) :
    partsOf (l₁ ++ l₂) = partsOf l₁ ++ partsOf l₂ := by
  induction l₁ with
  | nil => rfl
  | cons a l ih => simp [partsOf, ih]

theorem slotWidth_pos (nb : Nat) : 0 < slotWidth nb := by
  unfold slotWidth; positivity

theorem isSmall_iff (nb : Nat) (w : Int) : isSmall nb w = true ↔ w < slotWidth nb := by
  unfold isSmall slotWidth
  rw [decide_eq_true_iff, Int.shiftRight_eq_div_pow]
  have h : (0 : Int) < ((2 ^ (16 - nb) : Nat) : Int) := by positivity
  rw [Int.ediv_lt_iff_lt_mul h]
  push_cast
  omega

theorem wsum_lt_of_small (B : Int) (S : List (Int × Nat)) (h : ∀ s ∈ S, s.1 < B) (hne : S ≠ []) :
    wsum S < S.length * B := by
  induction S with
  | nil => exact absurd rfl hne
  | cons a S ih =>
    have ha := h a (List.mem_cons_self _ _)
    by_cases hS : S = []
    · subst hS; simp; omega
    · have := ih (fun s hs => h s (List.mem_cons_of_mem _ hs)) hS
      simp only [wsum_cons, List.length_cons]; push_cast; nlinarith

theorem wsum_ge_of_large (B : Int) (L : List (Int × Nat)) (h : ∀ l ∈ L, B ≤ l.1) :
    L.length * B ≤ wsum L := by
  induction L with
  | nil => simp
  | cons a L ih =>
    have ha := h a (List.mem_cons_self _ _)
    have := ih (fun s hs => h s (List.mem_cons_of_mem _ hs))
    simp only [wsum_cons, List.length_cons]; push_cast; nlinarith

theorem wsum_zero_of_zero (S : List (Int × Nat)) (h : ∀ s ∈ S, s.1 = 0) : wsum S = 0 := by
  induction S with
  | nil => rfl
  | cons a S ih =>
    have ha := h a (List.mem_cons_self _ _)
    have := ih (fun s hs => h s (List.mem_cons_of_mem _ hs))
    simp [ha, this]

theorem bsum_zero_of_zero (j : Nat) (S : List (Int × Nat)) (h : ∀ s ∈ S, s.1 = 0) :
    bsum j S = 0 := by
  induction S with
  | nil => rfl
  | cons a S ih =>
    have ha := h a (List.mem_cons_self _ _)
    have := ih (fun s hs => h s (List.mem_cons_of_mem _ hs))
    simp [ha, this]

theorem eq_of_large_of_wsum (B : Int) (L : List (Int × Nat)) (h : ∀ l ∈ L, B ≤ l.1)
    (hs : wsum L = L.length * B) : ∀ l ∈ L, l.1 = B := by
  induction L with
  | nil => simp
  | cons a L ih =>
    have ha := h a (List.mem_cons_self _ _)
    have hL := wsum_ge_of_large B L (fun s hs => h s (List.mem_cons_of_mem _ hs))
    simp only [wsum_cons, List.length_cons] at hs; push_cast at hs
    intro l hl
    rcases List.mem_cons.1 hl with rfl | hl
    · nlinarith
    · exact ih (fun s hs => h s (List.mem_cons_of_mem _ hs)) (by nlinarith) l hl

theorem zero_of_nonneg_of_wsum (S : List (Int × Nat)) (h : ∀ s ∈ S, 0 ≤ s.1)
    (hs : wsum S = 0) : ∀ s ∈ S, s.1 = 0 := by
  induction S with
  | nil => simp
  | cons a S ih =>
    have ha := h a (List.mem_cons_self _ _)
    have hS : 0 ≤ wsum S := by
      have := wsum_ge_of_large 0 S (fun s hs => h s (List.mem_cons_of_mem _ hs))
      simpa using this
    simp only [wsum_cons] at hs
    intro s hs'
    rcases List.mem_cons.1 hs' with rfl | hs'
    · omega
    · exact ih (fun s hs => h s (List.mem_cons_of_mem _ hs)) (by omega) s hs'

/-! ## The slot-filling loop never fails and conserves every branch's width -/

theorem reinsert_small (nb : Nat) (newly : Int × Nat) (S' L' : List (Int × Nat))
    (h : newly.1 < slotWidth nb) : reinsert nb newly S' L' = (newly :: S', L') := by
  unfold reinsert
  rw [if_pos ((isSmall_iff nb newly.1).2 h)]

theorem reinsert_large (nb : Nat) (newly : Int × Nat) (S' L' : List (Int × Nat))
    (h : slotWidth nb ≤ newly.1) : reinsert nb newly S' L' = (S', newly :: L') := by
  unfold reinsert
  rw [if_neg]
  intro hsm
  have := (isSmall_iff nb newly.1).1 hsm
  omega

theorem ArrInv_reinsert (nb r : Nat) (newly : Int × Nat) (S' L' : List (Int × Nat))
    (hs : ∀ s ∈ S', 0 ≤ s.1 ∧ s.1 < slotWidth nb) (hl : ∀ l ∈ L', slotWidth nb ≤ l.1)
    (hn : 0 ≤ newly.1)
    (ht : newly.1 + wsum S' + wsum L' = r * slotWidth nb)
    (hc : S'.length + L'.length + 1 ≤ r + 1)
    (htight : S'.length + L'.length + 1 = r + 1 →
      newly.1 = 0 ∧ (∀ s ∈ S', s.1 = 0) ∧ (∀ l ∈ L', l.1 = slotWidth nb)) :
    ArrInv nb r (reinsert nb newly S' L').1 (reinsert nb newly S' L').2 := by
  by_cases hlt : newly.1 < slotWidth nb
  · rw [reinsert_small nb newly S' L' hlt]
    refine ⟨?_, hl, ?_, ?_, ?_⟩
    · intro s hs'
      rcases List.mem_cons.1 hs' with rfl | hs'
      · exact ⟨hn, hlt⟩
      · exact hs s hs'
    · simp only [wsum_cons]; omega
    · simp only [List.length_cons]; omega
    · intro hlen
      simp only [List.length_cons] at hlen
      obtain ⟨h0, hS0, hL0⟩ := htight (by omega)
      refine ⟨?_, hL0⟩
      intro s hs'
      rcases List.mem_cons.1 hs' with rfl | hs'
      · exact h0
      · exact hS0 s hs'
  · have hge : slotWidth nb ≤ newly.1 := by omega
    rw [reinsert_large nb newly S' L' hge]
    refine ⟨hs, ?_, ?_, ?_, ?_⟩
    · intro l hl'
      rcases List.mem_cons.1 hl' with rfl | hl'
      · exact hge
      · exact hl l hl'
    · simp only [wsum_cons]; omega
    · simp only [List.length_cons]; omega
    · intro hlen
      simp only [List.length_cons] at hlen
      obtain ⟨h0, _, _⟩ := htight (by omega)
      have := slotWidth_pos nb
      omega

theorem reinsert_bsum (nb j : Nat) (newly : Int × Nat) (S' L' : List (Int × Nat)) :
    bsum j (reinsert nb newly S' L').1 + bsum j (reinsert nb newly S' L').2
      = (if newly.2 = j then newly.1 else 0) + bsum j S' + bsum j L' := by
  by_cases hlt : newly.1 < slotWidth nb
  · rw [reinsert_small nb newly S' L' hlt]; simp only [bsum_cons]
  · rw [reinsert_large nb newly S' L' (by omega)]; simp only [bsum_cons]; omega

theorem reinsert_mem (nb : Nat) (newly : Int × Nat) (S' L' : List (Int × Nat)) (x : Int × Nat)
    (hx : x ∈ (reinsert nb newly S' L').1 ++ (reinsert nb newly S' L').2) :
    x = newly ∨ x ∈ S' ++ L' := by
  by_cases hlt : newly.1 < slotWidth nb
  · rw [reinsert_small nb newly S' L' hlt] at hx
    simpa using hx
  · rw [reinsert_large nb newly S' L' (by omega)] at hx
    simp only [List.mem_append, List.mem_cons] at hx ⊢
    tauto

theorem arrangeStep_nil (nb : Nat) (l : Int × Nat) (L' : List (Int × Nat)) :
    arrangeStep nb [] (l :: L') =
      some (((0, l.2), (slotWidth nb, l.2)),
        (reinsert nb (l.1 - slotWidth nb, l.2) [] L').1,
        (reinsert nb (l.1 - slotWidth nb, l.2) [] L').2) := rfl

theorem arrangeStep_cons (nb : Nat) (s l : Int × Nat) (S' L' : List (Int × Nat)) :
    arrangeStep nb (s :: S') (l :: L') =
      some ((s, (slotWidth nb - s.1, l.2)),
        (reinsert nb (l.1 - (slotWidth nb - s.1), l.2) S' L').1,
        (reinsert nb (l.1 - (slotWidth nb - s.1), l.2) S' L').2) := rfl

theorem arrangeStep_spec (nb r : Nat) (S L : List (Int × Nat)) (h : ArrInv nb (r + 1) S L) :
    ∃ slot S1 L1, arrangeStep nb S L = some (slot, S1, L1) ∧ ArrInv nb r S1 L1 ∧
      (0 ≤ slot.1.1 ∧ 0 ≤ slot.2.1 ∧ slot.1.1 + slot.2.1 = slotWidth nb) ∧
      (∀ j, bsum j S1 + bsum j L1 + bsum j [slot.1, slot.2] = bsum j S + bsum j L) ∧
      (∀ x, x ∈ slot.1 :: slot.2 :: (S1 ++ L1) → ∃ y ∈ S ++ L, y.2 = x.2) := by
  have hB := slotWidth_pos nb
  obtain ⟨hsmall, hlarge, htotal, hcount, htight⟩ := h
  push_cast at htotal
  cases L with
  | nil =>
    exfalso
    simp only [wsum_nil, add_zero] at htotal
    by_cases hS : S = []
    · subst hS; simp only [wsum_nil] at htotal; nlinarith
    · have h1 := wsum_lt_of_small (slotWidth nb) S (fun s hs => (hsmall s hs).2) hS
      simp only [List.length_nil, add_zero] at hcount htight
      rcases Nat.lt_or_ge S.length (r + 1 + 1) with hlt | hge
      · have : (S.length : Int) ≤ r + 1 := by omega
        nlinarith
      · have hz := wsum_zero_of_zero S (htight (by omega)).1
        nlinarith
  | cons l L' =>
    have hl := hlarge l (List.mem_cons_self _ _)
    have hL' : ∀ x ∈ L', slotWidth nb ≤ x.1 := fun x hx => hlarge x (List.mem_cons_of_mem _ hx)
    have hge := wsum_ge_of_large (slotWidth nb) L' hL'
    cases S with
    | nil =>
      simp only [wsum_nil, wsum_cons, zero_add] at htotal
      have hlen : (L'.length : Int) ≤ r := by nlinarith
      refine ⟨_, _, _, arrangeStep_nil nb l L', ?_, ?_, ?_, ?_⟩
      · apply ArrInv_reinsert
        · simp
        · exact hL'
        · simp only; omega
        · simp only [wsum_nil]; linarith
        · simp only [List.length_nil]; omega
        · intro hlen'
          simp only [List.length_nil, zero_add] at hlen'
          have hlr : (L'.length : Int) = r := by omega
          have hall := eq_of_large_of_wsum (slotWidth nb) (l :: L') hlarge (by
            simp only [wsum_cons, List.length_cons]; push_cast; rw [hlr]; linarith)
          refine ⟨?_, by simp, fun x hx => hall x (List.mem_cons_of_mem _ hx)⟩
          have := hall l (List.mem_cons_self _ _)
          simp only; omega
      · simp only; omega
      · intro j
        have := reinsert_bsum nb j (l.1 - slotWidth nb, l.2) [] L'
        simp only [bsum_nil, bsum_cons, zero_add, add_zero] at this ⊢
        rw [this]
        split_ifs <;> omega
      · intro x hx
        rcases List.mem_cons.1 hx with rfl | hx
        · exact ⟨l, by simp, rfl⟩
        rcases List.mem_cons.1 hx with rfl | hx
        · exact ⟨l, by simp, rfl⟩
        rcases reinsert_mem nb _ _ _ x hx with rfl | hx
        · exact ⟨l, by simp, rfl⟩
        · exact ⟨x, by simpa using Or.inr hx, rfl⟩
    | cons s S' =>
      have hs := hsmall s (List.mem_cons_self _ _)
      have hS' : ∀ x ∈ S', 0 ≤ x.1 ∧ x.1 < slotWidth nb :=
        fun x hx => hsmall x (List.mem_cons_of_mem _ hx)
      simp only [wsum_cons] at htotal
      refine ⟨_, _, _, arrangeStep_cons nb s l S' L', ?_, ?_, ?_, ?_⟩
      · apply ArrInv_reinsert
        · exact hS'
        · exact hL'
        · simp only; omega
        · simp only; linarith
        · simp only [List.length_cons] at hcount; omega
        · intro hlen'
          simp only [List.length_cons] at htight
          obtain ⟨hS0, hL0⟩ := htight (by omega)
          have h1 := hS0 s (List.mem_cons_self _ _)
          have h2 := hL0 l (List.mem_cons_self _ _)
          refine ⟨by simp only; omega, fun x hx => hS0 x (List.mem_cons_of_mem _ hx),
            fun x hx => hL0 x (List.mem_cons_of_mem _ hx)⟩
      · simp only; omega
      · intro j
        have := reinsert_bsum nb j (l.1 - (slotWidth nb - s.1), l.2) S' L'
        simp only [bsum_nil, bsum_cons, zero_add, add_zero] at this ⊢
        rw [this]
        split_ifs <;> omega
      · intro x hx
        rcases List.mem_cons.1 hx with rfl | hx
        · exact ⟨x, by simp, rfl⟩
        rcases List.mem_cons.1 hx with rfl | hx
        · exact ⟨l, by simp, rfl⟩
        rcases reinsert_mem nb _ _ _ x hx with rfl | hx
        · exact ⟨l, by simp, rfl⟩
        · refine ⟨x, ?_, rfl⟩
          simp only [List.mem_append, List.mem_cons] at hx ⊢
          tauto

/-- Outcome of the whole slot-filling loop started from a state satisfying the invariant. -/
theorem arrangeLoop_spec (nb : Nat) : ∀ (r : Nat) (S L : List (Int × Nat)), ArrInv nb r S L →
    ∃ slots S2 L2, arrangeLoop nb r S L = some (slots, S2, L2) ∧ slots.length = r ∧
      (∀ slot ∈ slots, 0 ≤ slot.1.1 ∧ 0 ≤ slot.2.1 ∧ slot.1.1 + slot.2.1 = slotWidth nb) ∧
      (∀ j, bsum j (partsOf slots) = bsum j S + bsum j L) ∧
      (∀ x ∈ partsOf slots, ∃ y ∈ S ++ L, y.2 = x.2) ∧
      (∀ x ∈ S2 ++ L2, x.1 = 0) := by
  intro r
  induction r with
  | zero =>
    intro S L h
    have hB := slotWidth_pos nb
    refine ⟨[], S, L, rfl, rfl, by simp, ?_, by simp [partsOf], ?_⟩
    · have hL : L = [] := by
        cases L with
        | nil => rfl
        | cons l L' =>
          exfalso
          have h1 := wsum_ge_of_large 0 S (fun s hs => (h.small s hs).1)
          have h2 := wsum_ge_of_large (slotWidth nb) (l :: L') h.large
          have h3 := h.total
          simp only [List.length_cons] at h2
          push_cast at h2 h3
          have : (0:Int) ≤ (L'.length : Int) := by positivity
          nlinarith
      subst hL
      have h3 := h.total
      simp only [wsum_nil, add_zero] at h3
      push_cast at h3
      have hz := zero_of_nonneg_of_wsum S (fun s hs => (h.small s hs).1) (by simpa using h3)
      intro j
      simp [partsOf, bsum_zero_of_zero j S hz]
    · have hL : L = [] := by
        cases L with
        | nil => rfl
        | cons l L' =>
          exfalso
          have h1 := wsum_ge_of_large 0 S (fun s hs => (h.small s hs).1)
          have h2 := wsum_ge_of_large (slotWidth nb) (l :: L') h.large
          have h3 := h.total
          simp only [List.length_cons] at h2
          push_cast at h2 h3
          have : (0:Int) ≤ (L'.length : Int) := by positivity
          nlinarith
      subst hL
      have h3 := h.total
      simp only [wsum_nil, add_zero] at h3
      push_cast at h3
      have hz := zero_of_nonneg_of_wsum S (fun s hs => (h.small s hs).1) (by simpa using h3)
      simpa using hz
  | succ r ih =>
    intro S L h
    obtain ⟨slot, S1, L1, hstep, hinv, hslot, hcons, hids⟩ := arrangeStep_spec nb r S L h
    obtain ⟨slots, S2, L2, hloop, hlen, hall, hb, hid, hfin⟩ := ih S1 L1 hinv
    refine ⟨slots ++ [slot], S2, L2, ?_, ?_, ?_, ?_, ?_, hfin⟩
    · simp only [arrangeLoop, hstep, hloop]
    · simp [hlen]
    · intro x hx
      rcases List.mem_append.1 hx with hx | hx
      · exact hall x hx
      · rw [List.mem_singleton.1 hx]; exact hslot
    · intro j
      have := hcons j
      simp only [partsOf_append, bsum_append, hb j, partsOf]
      omega
    · intro x hx
      simp only [partsOf_append, List.mem_append, partsOf, List.mem_cons, List.mem_nil_iff,
        or_false] at hx
      rcases hx with hx | hx | hx
      · obtain ⟨y, hy, hyx⟩ := hid x hx
        obtain ⟨z, hz, hzy⟩ := hids y (by simp only [List.mem_cons]; exact Or.inr (Or.inr hy))
        exact ⟨z, hz, hzy.trans hyx⟩
      · exact hids x (by simp [hx])
      · exact hids x (by simp [hx])

/-! ## The initial state of the loop -/

theorem numBitsLoop_ge (n : Nat) : ∀ (fuel nb : Nat), n ≤ 2 ^ (nb + fuel) →
    n ≤ 2 ^ numBitsLoop n fuel nb := by
  intro fuel
  induction fuel with
  | zero => intro nb h; simpa [numBitsLoop] using h
  | succ f ih =>
    intro nb h
    unfold numBitsLoop
    split_ifs with hlt
    · exact ih (nb + 1) (by rw [show nb + 1 + f = nb + (f + 1) by omega]; exact h)
    · omega

theorem numBitsLoop_le (n m : Nat) (hm : n ≤ 2 ^ m) : ∀ (fuel nb : Nat), nb ≤ m →
    numBitsLoop n fuel nb ≤ m := by
  intro fuel
  induction fuel with
  | zero => intro nb h; simpa [numBitsLoop] using h
  | succ f ih =>
    intro nb h
    unfold numBitsLoop
    split_ifs with hlt
    · apply ih
      by_contra hcon
      have : m ≤ nb := by omega
      have := Nat.pow_le_pow_right (show 0 < 2 by norm_num) this
      omega
    · exact h

theorem numRepresentBits_ge (n : Nat) : n ≤ 2 ^ numRepresentBits n := by
  apply numBitsLoop_ge
  simpa using (Nat.lt_two_pow n).le

theorem numRepresentBits_le (n m : Nat) (hm : n ≤ 2 ^ m) : numRepresentBits n ≤ m :=
  numBitsLoop_le n m hm n 0 (Nat.zero_le _)

theorem validWeightsFrom_mem : ∀ (ws : List Nat) (i : Nat) (x : Int × Nat),
    x ∈ validWeightsFrom i ws → 0 < x.1 ∧ i ≤ x.2 ∧ x.2 < i + ws.length := by
  intro ws
  induction ws with
  | nil => intro i x hx; simp [validWeightsFrom] at hx
  | cons w ws ih =>
    intro i x hx
    unfold validWeightsFrom at hx
    split_ifs at hx with hw
    · have := ih (i + 1) x hx
      simp only [List.length_cons]; omega
    · rcases List.mem_cons.1 hx with rfl | hx
      · simp only [List.length_cons]; omega
      · have := ih (i + 1) x hx
        simp only [List.length_cons]; omega

theorem validWeightsFrom_wsum : ∀ (ws : List Nat) (i : Nat),
    wsum (validWeightsFrom i ws) = (ws.sum : Nat) := by
  intro ws
  induction ws with
  | nil => intro i; simp [validWeightsFrom]
  | cons w ws ih =>
    intro i
    unfold validWeightsFrom
    split_ifs with hw
    · simp [ih, hw]
    · simp [ih]

theorem validWeightsFrom_bsum : ∀ (ws : List Nat) (i j : Nat),
    bsum j (validWeightsFrom i ws) = if i ≤ j then ((ws.getD (j - i) 0 : Nat) : Int) else 0 := by
  intro ws
  induction ws with
  | nil => intro i j; simp [validWeightsFrom]
  | cons w ws ih =>
    intro i j
    unfold validWeightsFrom
    by_cases hij : i ≤ j
    · rcases Nat.eq_or_lt_of_le hij with heq | hlt
      · subst heq
        split_ifs with hw
        · rw [ih]; simp [hw]
        · rw [bsum_cons, ih]; simp
      · have h1 : j - i = (j - (i + 1)) + 1 := by omega
        split_ifs with hw
        · rw [ih, h1]; simp [show i + 1 ≤ j by omega]
        · rw [bsum_cons, ih, h1]
          simp [show i + 1 ≤ j by omega, show i ≠ j by omega]
    · split_ifs with hw
      · rw [ih]; simp [show ¬ i + 1 ≤ j by omega]
      · rw [bsum_cons, ih]
        simp [show ¬ i + 1 ≤ j by omega, show i ≠ j by omega]

theorem wsum_filter (p : Int × Nat → Bool) (l : List (Int × Nat)) :
    wsum (l.filter p) + wsum (l.filter (fun x => !p x)) = wsum l := by
  induction l with
  | nil => rfl
  | cons a l ih =>
    by_cases h : p a = true
    · simp [List.filter_cons, h]; omega
    · simp [List.filter_cons, h]; omega

theorem bsum_filter (j : Nat) (p : Int × Nat → Bool) (l : List (Int × Nat)) :
    bsum j (l.filter p) + bsum j (l.filter (fun x => !p x)) = bsum j l := by
  induction l with
  | nil => rfl
  | cons a l ih =>
    by_cases h : p a = true
    · simp [List.filter_cons, h]; omega
    · simp [List.filter_cons, h]; omega

theorem length_filter_add (p : Int × Nat → Bool) (l : List (Int × Nat)) :
    (l.filter p).length + (l.filter (fun x => !p x)).length = l.length := by
  induction l with
  | nil => rfl
  | cons a l ih =>
    by_cases h : p a = true
    · simp [List.filter_cons, h]; omega
    · simp [List.filter_cons, h]; omega

theorem length_le_wsum (l : List (Int × Nat)) (h : ∀ x ∈ l, 0 < x.1) :
    (l.length : Int) ≤ wsum l := by
  have := wsum_ge_of_large 1 l (fun x hx => h x hx)
  simpa using this

/-- The state in which `InitDelayedCodingParams` enters the slot-filling loop satisfies
the loop invariant, when the weights sum to 65536. -/
theorem ArrInv_init (weights : List Nat) (hsum : weights.sum = 65536) :
    let valid := validWeightsFrom 0 weights
    let nb := numRepresentBits valid.length
    nb ≤ 16 ∧ ArrInv nb (2 ^ nb)
      (valid.filter (fun branch => isSmall nb branch.1)).reverse
      (valid.filter (fun branch => !isSmall nb branch.1)).reverse := by
  intro valid nb
  have hpos : ∀ x ∈ valid, 0 < x.1 := fun x hx => (validWeightsFrom_mem weights 0 x hx).1
  have hws : wsum valid = 65536 := by
    have := validWeightsFrom_wsum weights 0
    rw [hsum] at this; simpa using this
  have hlen : valid.length ≤ 65536 := by
    have := length_le_wsum valid hpos
    omega
  have hnb : nb ≤ 16 := numRepresentBits_le valid.length 16 (by simpa using hlen)
  have hk : valid.length ≤ 2 ^ nb := numRepresentBits_ge valid.length
  have hB : ((2 ^ nb : Nat) : Int) * slotWidth nb = 65536 := by
    unfold slotWidth
    push_cast
    rw [← pow_add, show nb + (16 - nb) = 16 by omega]
    norm_num
  refine ⟨hnb, ?_, ?_, ?_, ?_, ?_⟩
  · intro s hs
    rw [List.mem_reverse, List.mem_filter] at hs
    exact ⟨(hpos s hs.1).le, (isSmall_iff nb s.1).1 hs.2⟩
  · intro l hl
    rw [List.mem_reverse, List.mem_filter] at hl
    by_contra hcon
    have := (isSmall_iff nb l.1).2 (by omega)
    simp [this] at hl
  · rw [wsum_reverse, wsum_reverse, wsum_filter, hws, hB]
  · rw [List.length_reverse, List.length_reverse, length_filter_add]; omega
  · intro h
    rw [List.length_reverse, List.length_reverse, length_filter_add] at h
    omega

/-! ## The loops over slots as loops over parts -/

theorem foldl_helperSlot (slots : List ((Int × Nat) × (Int × Nat))) : ∀ (st : HelperState),
    slots.foldl helperSlot st = (partsOf slots).foldl helperPart st := by
  induction slots with
  | nil => intro st; rfl
  | cons a l ih => intro st; simp only [List.foldl_cons, partsOf, ih, helperSlot]

theorem foldl_collectSlot (slots : List ((Int × Nat) × (Int × Nat))) : ∀ (st : CollectState),
    slots.foldl collectSlot st = (partsOf slots).foldl collectPart st := by
  induction slots with
  | nil => intro st; rfl
  | cons a l ih => intro st; simp only [List.foldl_cons, partsOf, ih, collectSlot]

theorem foldl_collectPart_cur (ps : List (Int × Nat)) : ∀ (st : CollectState),
    (ps.foldl collectPart st).cur_pos = st.cur_pos + wsum ps := by
  induction ps with
  | nil => intro st; simp
  | cons a l ih =>
    intro st
    rw [List.foldl_cons, ih, wsum_cons]
    unfold collectPart
    split_ifs with h
    · simp only; omega
    · simp only [ne_eq, not_not] at h; omega

theorem foldl_collectPart_length (ps : List (Int × Nat)) : ∀ (st : CollectState),
    (ps.foldl collectPart st).branches.length = st.branches.length := by
  induction ps with
  | nil => intro st; rfl
  | cons a l ih =>
    intro st
    rw [List.foldl_cons, ih]
    unfold collectPart
    split_ifs with h
    · simp
    · rfl

theorem foldl_collectPart_get (j : Nat) (ps : List (Int × Nat)) : ∀ (st : CollectState),
    (ps.foldl collectPart st).branches[j]? =
      (st.branches[j]?).map
        (fun b => { b with segments_ := segsFor j ps st.cur_pos b.segments_ }) := by
  induction ps with
  | nil =>
    intro st
    simp only [List.foldl_nil, segsFor]
    cases st.branches[j]? <;> rfl
  | cons a l ih =>
    intro st
    rw [List.foldl_cons, ih]
    unfold collectPart
    split_ifs with h
    · simp only [List.getElem?_modify, segsFor, h, if_true]
      cases hb : st.branches[j]? with
      | none => simp
      | some b =>
        by_cases haj : a.2 = j
        · simp [haj, h]
        · simp [haj, h]
    · simp only [segsFor, h, if_false]

theorem segWidth_append (l₁ l₂ : List ProbInterval) :
    segWidth (l₁ ++ l₂) = segWidth l₁ + segWidth l₂ := by simp [segWidth]

theorem segWidth_pushSegment (segments : List ProbInterval) (cur w : Int) :
    segWidth (pushSegment segments cur w) = segWidth segments + w := by
  unfold pushSegment
  cases hl : segments.getLast? with
  | none => simp [segWidth_append, segWidth]
  | some back =>
    simp only
    split_ifs with h
    · have := List.dropLast_append_getLast? back hl
      conv_rhs => rw [← this]
      simp only [segWidth_append]
      simp [segWidth]; omega
    · simp [segWidth_append, segWidth]

theorem segWidth_segsFor (j : Nat) (ps : List (Int × Nat)) : ∀ (cur : Int)
    (segments : List ProbInterval),
    segWidth (segsFor j ps cur segments) = segWidth segments + bsum j ps := by
  induction ps with
  | nil => intro cur segments; simp [segsFor]
  | cons a l ih =>
    intro cur segments
    unfold segsFor
    split_ifs with h haj
    · rw [ih, segWidth_pushSegment, bsum_cons, if_pos haj]; omega
    · rw [ih, bsum_cons, if_neg haj]; omega
    · simp only [ne_eq, not_not] at h
      rw [ih, bsum_cons, h]; simp

/-! ## Segments of one branch: well-formedness and coverage -/

theorem pushSegment_cases (segments : List ProbInterval) (cur w : Int) :
    pushSegment segments cur w = segments ++ [⟨cur, cur + w⟩] ∧
        (∀ back ∈ segments.getLast?, back.right_prob_ ≠ cur) ∨
      ∃ init back, segments = init ++ [back] ∧ back.right_prob_ = cur ∧
        pushSegment segments cur w = init ++ [⟨back.left_prob_, cur + w⟩] := by
  unfold pushSegment
  cases hl : segments.getLast? with
  | none => left; simp
  | some back =>
    simp only
    split_ifs with h
    · right
      exact ⟨segments.dropLast, back, (List.dropLast_append_getLast? back hl).symm, h, rfl⟩
    · left
      refine ⟨rfl, ?_⟩
      intro b hb
      simp only [Option.mem_def, Option.some.injEq] at hb
      subst hb; exact h

theorem SegWF.mono {cur cur' : Int} {segments : List ProbInterval} (h : SegWF cur segments)
    (hle : cur ≤ cur') : SegWF cur' segments :=
  ⟨h.sorted, fun s hs => ⟨(h.bounds s hs).1, (h.bounds s hs).2.1, by
    have := (h.bounds s hs).2.2; omega⟩⟩

theorem SegWF_nil (cur : Int) : SegWF cur [] :=
  ⟨List.Pairwise.nil, by simp⟩

theorem SegWF_pushSegment (segments : List ProbInterval) (cur w : Int) (hcur : 0 ≤ cur)
    (hw : 0 < w) (h : SegWF cur segments) : SegWF (cur + w) (pushSegment segments cur w) := by
  rcases pushSegment_cases segments cur w with ⟨heq, _⟩ | ⟨init, back, hseg, hback, heq⟩
  · rw [heq]
    refine ⟨?_, ?_⟩
    · rw [List.pairwise_append]
      refine ⟨h.sorted, List.pairwise_singleton _ _, ?_⟩
      intro a ha b hb
      rw [List.mem_singleton.1 hb]
      exact (h.bounds a ha).2.2
    · intro s hs
      rcases List.mem_append.1 hs with hs | hs
      · have := h.bounds s hs; omega
      · rw [List.mem_singleton.1 hs]; simp only; omega
  · rw [heq]
    subst hseg
    have hs := h.sorted
    rw [List.pairwise_append] at hs
    have hb := h.bounds back (by simp)
    refine ⟨?_, ?_⟩
    · rw [List.pairwise_append]
      refine ⟨hs.1, List.pairwise_singleton _ _, ?_⟩
      intro a ha b hb'
      rw [List.mem_singleton.1 hb']
      exact hs.2.2 a ha back (by simp)
    · intro s hs'
      rcases List.mem_append.1 hs' with hs' | hs'
      · have := h.bounds s (List.mem_append_left _ hs'); omega
      · rw [List.mem_singleton.1 hs']; simp only; omega

theorem covers_pushSegment (segments : List ProbInterval) (cur w v : Int)
    (h : SegWF cur segments) (hw : 0 < w) :
    covers (pushSegment segments cur w) v ↔ covers segments v ∨ (cur ≤ v ∧ v < cur + w) := by
  rcases pushSegment_cases segments cur w with ⟨heq, _⟩ | ⟨init, back, hseg, hback, heq⟩
  · rw [heq]
    unfold covers
    constructor
    · rintro ⟨s, hs, hv⟩
      rcases List.mem_append.1 hs with hs | hs
      · exact Or.inl ⟨s, hs, hv⟩
      · rw [List.mem_singleton.1 hs] at hv; exact Or.inr hv
    · rintro (⟨s, hs, hv⟩ | hv)
      · exact ⟨s, List.mem_append_left _ hs, hv⟩
      · exact ⟨⟨cur, cur + w⟩, by simp, hv⟩
  · rw [heq]
    subst hseg
    have hb := h.bounds back (by simp)
    unfold covers
    constructor
    · rintro ⟨s, hs, hv⟩
      rcases List.mem_append.1 hs with hs | hs
      · exact Or.inl ⟨s, List.mem_append_left _ hs, hv⟩
      · rw [List.mem_singleton.1 hs] at hv
        simp only at hv
        by_cases hc : v < cur
        · exact Or.inl ⟨back, by simp, hv.1, by omega⟩
        · exact Or.inr ⟨by omega, hv.2⟩
    · rintro (⟨s, hs, hv⟩ | hv)
      · rcases List.mem_append.1 hs with hs | hs
        · exact ⟨s, List.mem_append_left _ hs, hv⟩
        · rw [List.mem_singleton.1 hs] at hv
          exact ⟨⟨back.left_prob_, cur + w⟩, by simp, hv.1, by simp only; omega⟩
      · exact ⟨⟨back.left_prob_, cur + w⟩, by simp, by simp only; omega, hv.2⟩

theorem owner_none_of_lt (ps : List (Int × Nat)) : ∀ (cur v : Int),
    (∀ p ∈ ps, 0 ≤ p.1) → v < cur → owner ps cur v = none := by
  induction ps with
  | nil => intro cur v _ _; rfl
  | cons a l ih =>
    intro cur v hnn hv
    unfold owner
    have ha := hnn a (List.mem_cons_self _ _)
    rw [if_neg (by omega)]
    exact ih _ _ (fun p hp => hnn p (List.mem_cons_of_mem _ hp)) (by omega)

theorem owner_some_of_mem (ps : List (Int × Nat)) : ∀ (cur v : Int),
    (∀ p ∈ ps, 0 ≤ p.1) → cur ≤ v → v < cur + wsum ps →
    ∃ p ∈ ps, owner ps cur v = some p.2 := by
  induction ps with
  | nil => intro cur v _ h1 h2; simp at h2; omega
  | cons a l ih =>
    intro cur v hnn h1 h2
    unfold owner
    by_cases hin : cur ≤ v ∧ v < cur + a.1
    · exact ⟨a, List.mem_cons_self _ _, by rw [if_pos hin]⟩
    · rw [if_neg hin]
      simp only [wsum_cons] at h2
      obtain ⟨p, hp, hown⟩ := ih (cur + a.1) v (fun p hp => hnn p (List.mem_cons_of_mem _ hp))
        (by omega) (by omega)
      exact ⟨p, List.mem_cons_of_mem _ hp, hown⟩

theorem segsFor_wf_covers (j : Nat) (ps : List (Int × Nat)) : ∀ (cur : Int)
    (segments : List ProbInterval), (∀ p ∈ ps, 0 ≤ p.1) → 0 ≤ cur → SegWF cur segments →
    SegWF (cur + wsum ps) (segsFor j ps cur segments) ∧
      ∀ v, covers (segsFor j ps cur segments) v ↔ covers segments v ∨ owner ps cur v = some j := by
  induction ps with
  | nil =>
    intro cur segments _ _ h
    simp [segsFor, owner, h]
  | cons a l ih =>
    intro cur segments hnn hcur h
    have ha := hnn a (List.mem_cons_self _ _)
    have hl : ∀ p ∈ l, 0 ≤ p.1 := fun p hp => hnn p (List.mem_cons_of_mem _ hp)
    unfold segsFor owner
    by_cases h0 : a.1 = 0
    · have := ih cur segments hl hcur h
      simp only [h0, ne_eq, not_true_eq_false, if_false, wsum_cons, zero_add, add_zero]
      refine ⟨this.1, fun v => ?_⟩
      rw [this.2 v, if_neg (by omega)]
    · have hpos : 0 < a.1 := by omega
      simp only [ne_eq, h0, not_false_eq_true, if_true, wsum_cons]
      by_cases haj : a.2 = j
      · simp only [haj, if_true]
        have := ih (cur + a.1) _ hl (by omega) (SegWF_pushSegment segments cur a.1 hcur hpos h)
        refine ⟨by rw [← add_assoc]; exact this.1, ?_⟩
        intro v
        rw [this.2 v, covers_pushSegment segments cur a.1 v h hpos]
        by_cases hin : cur ≤ v ∧ v < cur + a.1
        · simp [hin]
        · simp only [hin, or_false, if_false]
      · simp only [haj, if_false]
        have := ih (cur + a.1) _ hl (by omega) (h.mono (show cur ≤ cur + a.1 by omega))
        refine ⟨by rw [← add_assoc]; exact this.1, ?_⟩
        intro v
        rw [this.2 v]
        by_cases hin : cur ≤ v ∧ v < cur + a.1
        · rw [if_pos hin, owner_none_of_lt l _ _ hl hin.2]
          simp [haj]
        · rw [if_neg hin]

/-! ## The table built from a weight vector of sum 65536 -/

/-- `InitDelayedCodingParams` returns a table for every weight vector of sum 65536, and
the table is described by its slots. -/
theorem buildTable_ok (weights : List Nat) (hsum : weights.sum = 65536) :
    ∃ t slots, buildTable weights = some t ∧ TableOK weights t slots := by
  obtain ⟨hnb, hinv⟩ := ArrInv_init weights hsum
  obtain ⟨slots, S2, L2, hloop, hlen, hall, hb, hid, _⟩ := arrangeLoop_spec _ _ _ _ hinv
  have hne : weights ≠ [] := by
    intro h; subst h; simp at hsum
  refine ⟨{ branches_ := (slots.foldl collectSlot ⟨weights.map (fun w => ⟨[], w⟩), 0⟩).branches
            segment_left_branches_ := slots.map Prod.fst
            segment_right_branches_ := slots.map Prod.snd
            numerator_helper_ :=
              (slots.foldl helperSlot ⟨List.replicate weights.length 0, 0, []⟩).numerator_helper
            num_represent_bits_ := numRepresentBits (validWeightsFrom 0 weights).length },
    slots, ?_, ?_⟩
  · unfold buildTable InitDelayedCodingParams
    rw [if_neg hne]
    simp only [hloop]
  · refine ⟨hnb, hlen, rfl, rfl, hall, ?_, ?_, ?_, ?_, ?_⟩
    · intro j
      rw [hb j, bsum_reverse, bsum_reverse, bsum_filter, validWeightsFrom_bsum]
      simp
    · intro x hx
      obtain ⟨y, hy, hyx⟩ := hid x hx
      have hy' : y ∈ validWeightsFrom 0 weights := by
        rcases List.mem_append.1 hy with hy | hy
        · exact (List.mem_filter.1 (List.mem_reverse.1 hy)).1
        · exact (List.mem_filter.1 (List.mem_reverse.1 hy)).1
      have := validWeightsFrom_mem weights 0 y hy'
      omega
    · simp only [foldl_helperSlot]
    · intro j
      simp only [foldl_collectSlot, foldl_collectPart_get, List.getElem?_map]
      cases weights[j]? <;> rfl
    · simp only [foldl_collectSlot, foldl_collectPart_length, List.length_map]

theorem TableOK.parts_nonneg {weights : List Nat} {t : DelayedCodingParams}
    {slots : List ((Int × Nat) × (Int × Nat))} (h : TableOK weights t slots) :
    ∀ p ∈ partsOf slots, 0 ≤ p.1 := by
  have key : ∀ (l : List ((Int × Nat) × (Int × Nat))),
      (∀ slot ∈ l, 0 ≤ slot.1.1 ∧ 0 ≤ slot.2.1 ∧
        slot.1.1 + slot.2.1 = slotWidth t.num_represent_bits_) →
      ∀ p ∈ partsOf l, 0 ≤ p.1 := by
    intro l
    induction l with
    | nil => intro _ p hp; simp [partsOf] at hp
    | cons a l ih =>
      intro hl p hp
      simp only [partsOf, List.mem_cons] at hp
      have ha := hl a (List.mem_cons_self _ _)
      rcases hp with rfl | rfl | hp
      · exact ha.1
      · exact ha.2.1
      · exact ih (fun s hs => hl s (List.mem_cons_of_mem _ hs)) p hp
  exact key slots h.slot_ok

theorem wsum_partsOf (B : Int) (l : List ((Int × Nat) × (Int × Nat)))
    (hl : ∀ slot ∈ l, slot.1.1 + slot.2.1 = B) : wsum (partsOf l) = l.length * B := by
  induction l with
  | nil => simp [partsOf]
  | cons a l ih =>
    have ha := hl a (List.mem_cons_self _ _)
    have := ih (fun s hs => hl s (List.mem_cons_of_mem _ hs))
    simp only [partsOf, wsum_cons, List.length_cons, this]
    push_cast
    linarith

theorem TableOK.wsum_parts {weights : List Nat} {t : DelayedCodingParams}
    {slots : List ((Int × Nat) × (Int × Nat))} (h : TableOK weights t slots) :
    wsum (partsOf slots) = 65536 := by
  rw [wsum_partsOf (slotWidth t.num_represent_bits_) slots (fun s hs => (h.slot_ok s hs).2.2),
    h.len]
  unfold slotWidth
  push_cast
  rw [← pow_add, show t.num_represent_bits_ + (16 - t.num_represent_bits_) = 16 by
    have := h.nb_le; omega]
  norm_num

theorem Init_eq_buildTable (weights : List Nat) (params : DelayedCodingParams)
    (h : weights ≠ []) : InitDelayedCodingParams weights params = buildTable weights := by
  unfold buildTable InitDelayedCodingParams
  rw [if_neg h, if_neg h]

theorem ne_nil_of_sum (weights : List Nat) (hsum : weights.sum = 65536) : weights ≠ [] := by
  intro h; subst h; simp at hsum

theorem segWidth_pos_of_wf (cur : Int) (segments : List ProbInterval) (h : SegWF cur segments)
    (hne : segments ≠ []) : 0 < segWidth segments := by
  have key : ∀ (l : List ProbInterval), (∀ s ∈ l, s.left_prob_ < s.right_prob_) → l ≠ [] →
      0 < segWidth l := by
    intro l
    induction l with
    | nil => intro _ h; exact absurd rfl h
    | cons a l ih =>
      intro hl _
      have ha := hl a (List.mem_cons_self _ _)
      by_cases hl0 : l = []
      · subst hl0; simp [segWidth]; omega
      · have := ih (fun s hs => hl s (List.mem_cons_of_mem _ hs)) hl0
        simp only [segWidth, List.map_cons, List.sum_cons] at this ⊢
        omega
  exact key segments (fun s hs => (h.bounds s hs).2.1) hne

theorem SegWF.index_unique {cur : Int} {segments : List ProbInterval} (h : SegWF cur segments)
    {k k' : Nat} {s s' : ProbInterval} (hk : segments[k]? = some s)
    (hk' : segments[k']? = some s') (v : Int)
    (hv : s.left_prob_ ≤ v ∧ v < s.right_prob_) (hv' : s'.left_prob_ ≤ v ∧ v < s'.right_prob_) :
    k = k' := by
  obtain ⟨hlt, rfl⟩ := List.getElem?_eq_some.1 hk
  obtain ⟨hlt', rfl⟩ := List.getElem?_eq_some.1 hk'
  have hp := List.pairwise_iff_getElem.1 h.sorted
  rcases Nat.lt_trichotomy k k' with hlt'' | heq | hgt
  · have := hp k k' hlt hlt' hlt''; omega
  · exact heq
  · have := hp k' k hlt' hlt hgt; omega

/-- C9. For a weight vector of sum 65536, every branch `i` of the table built by
`InitDelayedCodingParams` has `total_weights_ = weights[i]`, its segment widths sum to
`weights[i]`, and it has no segment exactly when `weights[i] = 0`. -/
theorem InitDelayedCodingParams_branch_weights (weights : List Nat)
    (hsum : weights.sum = 65536) (params : DelayedCodingParams) :
    ∃ t, InitDelayedCodingParams weights params = some t ∧
      t.branches_.length = weights.length ∧
      ∀ (i w : Nat), weights[i]? = some w → ∃ b : Branch, t.branches_[i]? = some b ∧
        b.total_weights_ = w ∧ segWidth b.segments_ = (w : Int) ∧
        (b.segments_ = [] ↔ w = 0) := by
  obtain ⟨t, slots, ht, hok⟩ := buildTable_ok weights hsum
  rw [Init_eq_buildTable weights params (ne_nil_of_sum weights hsum)]
  refine ⟨t, ht, hok.branches_len, ?_⟩
  intro i w hw
  have hb := hok.branches i
  rw [hw] at hb
  refine ⟨_, hb, rfl, ?_, ?_⟩
  · have := hok.bsum_eq i
    rw [List.getD_eq_getElem?_getD, hw] at this
    simp only [segWidth_segsFor, this]
    simp [segWidth]
  · have hwf := (segsFor_wf_covers i (partsOf slots) 0 [] hok.parts_nonneg (le_refl _)
      (SegWF_nil 0)).1
    have hwd : segWidth (segsFor i (partsOf slots) 0 []) = (w : Int) := by
      have := hok.bsum_eq i
      rw [List.getD_eq_getElem?_getD, hw] at this
      simp only [segWidth_segsFor, this]
      simp [segWidth]
    simp only
    constructor
    · intro h
      rw [h] at hwd
      simp [segWidth] at hwd
      omega
    · intro h
      by_contra hne
      have := segWidth_pos_of_wf _ _ hwf hne
      omega

theorem InitDelayedCodingParams_branch_weights_witness :
    ∃ t, InitDelayedCodingParams [3, 0, 65533] ⟨[], [], [], [], 0⟩ = some t ∧
      t.branches_.length = [3, 0, 65533].length ∧
      ∀ (i w : Nat), [3, 0, 65533][i]? = some w → ∃ b : Branch, t.branches_[i]? = some b ∧
        b.total_weights_ = w ∧ segWidth b.segments_ = (w : Int) ∧
        (b.segments_ = [] ↔ w = 0) :=
  InitDelayedCodingParams_branch_weights [3, 0, 65533] (by decide) ⟨[], [], [], [], 0⟩

/-- C8. For a weight vector of sum 65536, every value of `[0, 65536)` lies in exactly one
segment of exactly one branch of the table built by `InitDelayedCodingParams`, and every
segment is a non-empty interval inside `[0, 65536]`: the segments are pairwise disjoint
and their union is `[0, 65536)`. -/
theorem InitDelayedCodingParams_segments_partition (weights : List Nat)
    (hsum : weights.sum = 65536) (params : DelayedCodingParams) :
    ∃ t, InitDelayedCodingParams weights params = some t ∧
      (∀ v : Int, 0 ≤ v → v < 65536 →
        ∃! jk : Nat × Nat, ∃ (b : Branch) (s : ProbInterval), t.branches_[jk.1]? = some b ∧
          b.segments_[jk.2]? = some s ∧ s.left_prob_ ≤ v ∧ v < s.right_prob_) ∧
      (∀ b ∈ t.branches_, ∀ s ∈ b.segments_,
        0 ≤ s.left_prob_ ∧ s.left_prob_ < s.right_prob_ ∧ s.right_prob_ ≤ 65536) := by
  obtain ⟨t, slots, ht, hok⟩ := buildTable_ok weights hsum
  rw [Init_eq_buildTable weights params (ne_nil_of_sum weights hsum)]
  have hwf : ∀ j, SegWF 65536 (segsFor j (partsOf slots) 0 []) ∧
      ∀ v, covers (segsFor j (partsOf slots) 0 []) v ↔ owner (partsOf slots) 0 v = some j := by
    intro j
    have := segsFor_wf_covers j (partsOf slots) 0 [] hok.parts_nonneg (le_refl _) (SegWF_nil 0)
    rw [hok.wsum_parts] at this
    refine ⟨by simpa using this.1, fun v => ?_⟩
    rw [this.2 v]
    simp [covers]
  refine ⟨t, ht, ?_, ?_⟩
  · intro v hv0 hv1
    obtain ⟨p, hp, hown⟩ := owner_some_of_mem (partsOf slots) 0 v hok.parts_nonneg hv0
      (by rw [hok.wsum_parts]; simpa using hv1)
    have hpl := hok.ids p hp
    obtain ⟨s, hs, hsv⟩ := ((hwf p.2).2 v).2 hown
    obtain ⟨k, hk⟩ := List.getElem?_of_mem hs
    have hb := hok.branches p.2
    rw [List.getElem?_eq_getElem hpl] at hb
    refine ⟨(p.2, k), ⟨_, s, hb, hk, hsv⟩, ?_⟩
    rintro ⟨j', k'⟩ ⟨b', s', hb', hk', hsv'⟩
    simp only at hb' hk'
    have hb2 := hok.branches j'
    rw [hb'] at hb2
    cases hw' : weights[j']? with
    | none => rw [hw'] at hb2; simp at hb2
    | some w' =>
      rw [hw'] at hb2
      simp only [Option.map_some', Option.some.injEq] at hb2
      subst hb2
      simp only at hk'
      have hmem : s' ∈ segsFor j' (partsOf slots) 0 [] := by
        exact List.mem_iff_getElem?.2 ⟨k', hk'⟩
      have hown' := ((hwf j').2 v).1 ⟨s', hmem, hsv'⟩
      rw [hown] at hown'
      simp only [Option.some.injEq] at hown'
      subst hown'
      have := (hwf p.2).1.index_unique hk' hk v hsv' hsv
      rw [this]
  · intro b hb s hs
    obtain ⟨j, hj⟩ := List.getElem?_of_mem hb
    have hb2 := hok.branches j
    rw [hj] at hb2
    cases hw' : weights[j]? with
    | none => rw [hw'] at hb2; simp at hb2
    | some w' =>
      rw [hw'] at hb2
      simp only [Option.map_some', Option.some.injEq] at hb2
      subst hb2
      exact (hwf j).1.bounds s hs

theorem InitDelayedCodingParams_segments_partition_witness :
    ∃ t, InitDelayedCodingParams [30000, 0, 20000, 15536] ⟨[], [], [], [], 0⟩ = some t ∧
      (∀ v : Int, 0 ≤ v → v < 65536 →
        ∃! jk : Nat × Nat, ∃ (b : Branch) (s : ProbInterval), t.branches_[jk.1]? = some b ∧
          b.segments_[jk.2]? = some s ∧ s.left_prob_ ≤ v ∧ v < s.right_prob_) ∧
      (∀ b ∈ t.branches_, ∀ s ∈ b.segments_,
        0 ≤ s.left_prob_ ∧ s.left_prob_ < s.right_prob_ ∧ s.right_prob_ ≤ 65536) :=
  InitDelayedCodingParams_segments_partition [30000, 0, 20000, 15536] (by decide)
    ⟨[], [], [], [], 0⟩

/-! ## `GetEmbeddedBytes` on the collected segments -/

theorem toU64_of_bounds (x : Int) (h0 : 0 ≤ x) (h1 : x < 2 ^ 64) : toU64 x = x.toNat := by
  unfold toU64
  rw [Int.emod_eq_of_lt h0 h1]

theorem toU16_of_bounds (x : Int) (h0 : 0 ≤ x) (h1 : x < 65536) : toU16 x = x.toNat := by
  unfold toU16
  rw [Int.emod_eq_of_lt h0 (by simpa using h1)]

theorem toU32_of_bounds (x : Int) (h0 : 0 ≤ x) (h1 : x < 2 ^ 32) : toU32 x = x.toNat := by
  unfold toU32
  rw [Int.emod_eq_of_lt h0 h1]

theorem segWidth_nonneg (cur : Int) (segments : List ProbInterval) (h : SegWF cur segments) :
    0 ≤ segWidth segments := by
  by_cases hne : segments = []
  · subst hne; simp [segWidth]
  · exact (segWidth_pos_of_wf cur segments h hne).le

theorem SegWF.of_append_left {cur : Int} {l₁ l₂ : List ProbInterval}
    (h : SegWF cur (l₁ ++ l₂)) : SegWF cur l₁ :=
  ⟨(List.pairwise_append.1 h.sorted).1, fun s hs => h.bounds s (List.mem_append_left _ hs)⟩

theorem GetEmbeddedBytes_cons (a : ProbInterval) (l : List ProbInterval) (n : Nat) :
    GetEmbeddedBytes (a :: l) n =
      if toU64 (a.right_prob_ - a.left_prob_) > n then toU16 (a.left_prob_ + n)
      else GetEmbeddedBytes l (n - toU64 (a.right_prob_ - a.left_prob_)) := rfl

theorem GetEmbeddedBytes_append (cur : Int) (hcur : cur ≤ 65536) (l₁ l₂ : List ProbInterval)
    (h : SegWF cur l₁) (n : Nat) :
    GetEmbeddedBytes (l₁ ++ l₂) n =
      if (n : Int) < segWidth l₁ then GetEmbeddedBytes l₁ n
      else GetEmbeddedBytes l₂ (n - (segWidth l₁).toNat) := by
  induction l₁ generalizing n with
  | nil =>
    have : ¬ ((n : Int) < 0) := by omega
    simp [segWidth, this]
  | cons a l ih =>
    have ha := h.bounds a (List.mem_cons_self _ _)
    have hl : SegWF cur l := ⟨(List.pairwise_cons.1 h.sorted).2,
      fun s hs => h.bounds s (List.mem_cons_of_mem _ hs)⟩
    have hwl := segWidth_nonneg cur l hl
    have hu : toU64 (a.right_prob_ - a.left_prob_) = (a.right_prob_ - a.left_prob_).toNat :=
      toU64_of_bounds _ (by omega) (by omega)
    have hsw : segWidth (a :: l) = (a.right_prob_ - a.left_prob_) + segWidth l := by
      simp [segWidth]
    rw [List.cons_append, GetEmbeddedBytes_cons, GetEmbeddedBytes_cons, hu, hsw]
    by_cases hlt : (a.right_prob_ - a.left_prob_).toNat > n
    · rw [if_pos hlt, if_pos (by omega), if_pos hlt]
    · rw [if_neg hlt, ih hl]
      by_cases hlt2 : (n : Int) < a.right_prob_ - a.left_prob_ + segWidth l
      · rw [if_pos hlt2, if_pos (by omega), if_neg hlt]
      · rw [if_neg hlt2, if_neg (by omega)]
        congr 1
        omega

theorem GetEmbeddedBytes_single (a b : Int) (h0 : 0 ≤ a) (hab : a < b) (hb : b ≤ 65536)
    (n : Nat) (hn : (n : Int) < b - a) :
    GetEmbeddedBytes [⟨a, b⟩] n = (a + n).toNat := by
  have hu : toU64 (b - a) = (b - a).toNat := toU64_of_bounds _ (by omega) (by omega)
  simp only [GetEmbeddedBytes, hu]
  rw [if_pos (by omega), toU16_of_bounds _ (by omega) (by omega)]

theorem GetEmbeddedBytes_pushSegment (segments : List ProbInterval) (cur w : Int)
    (hcur : 0 ≤ cur) (hw : 0 < w) (hle : cur + w ≤ 65536) (h : SegWF cur segments) (n : Nat)
    (hn : (n : Int) < segWidth segments + w) :
    GetEmbeddedBytes (pushSegment segments cur w) n =
      if (n : Int) < segWidth segments then GetEmbeddedBytes segments n
      else (cur + (n - segWidth segments)).toNat := by
  have hwn := segWidth_nonneg cur segments h
  rcases pushSegment_cases segments cur w with ⟨heq, _⟩ | ⟨init, back, hseg, hback, heq⟩
  · rw [heq, GetEmbeddedBytes_append cur (by omega) _ _ h]
    split_ifs with hlt
    · rfl
    · rw [GetEmbeddedBytes_single cur (cur + w) hcur (by omega) hle _ (by omega)]
      congr 1
      omega
  · rw [heq]
    subst hseg
    have hinit : SegWF cur init := h.of_append_left
    have hwi := segWidth_nonneg cur init hinit
    have hb := h.bounds back (by simp)
    have hsw : segWidth (init ++ [back]) = segWidth init + (back.right_prob_ - back.left_prob_) := by
      simp [segWidth]
    rw [hsw] at hn hwn ⊢
    rw [GetEmbeddedBytes_append cur (by omega) _ _ hinit,
      GetEmbeddedBytes_append cur (by omega) _ _ hinit]
    by_cases hlt : (n : Int) < segWidth init
    · rw [if_pos hlt, if_pos hlt, if_pos (by omega)]
    · rw [if_neg hlt, if_neg hlt]
      rw [GetEmbeddedBytes_single back.left_prob_ (cur + w) (by omega) (by omega) hle _ (by omega)]
      by_cases hlt2 : (n : Int) < segWidth init + (back.right_prob_ - back.left_prob_)
      · rw [if_pos hlt2]
        have : back = ⟨back.left_prob_, back.right_prob_⟩ := rfl
        rw [this, GetEmbeddedBytes_single back.left_prob_ back.right_prob_ (by omega) (by omega)
          (by omega) _ (by omega)]
      · rw [if_neg hlt2]
        congr 1
        omega

theorem GetEmbeddedBytes_segsFor_stable (j : Nat) (ps : List (Int × Nat)) : ∀ (cur : Int)
    (segments : List ProbInterval), (∀ p ∈ ps, 0 ≤ p.1) → 0 ≤ cur → cur + wsum ps ≤ 65536 →
    SegWF cur segments → ∀ n : Nat, (n : Int) < segWidth segments →
    GetEmbeddedBytes (segsFor j ps cur segments) n = GetEmbeddedBytes segments n := by
  induction ps with
  | nil => intro cur segments _ _ _ _ n _; rfl
  | cons a l ih =>
    intro cur segments hnn hcur hle h n hn
    have ha := hnn a (List.mem_cons_self _ _)
    have hl : ∀ p ∈ l, 0 ≤ p.1 := fun p hp => hnn p (List.mem_cons_of_mem _ hp)
    have hwl : 0 ≤ wsum l := by
      have := wsum_ge_of_large 0 l hl; simpa using this
    simp only [wsum_cons] at hle
    unfold segsFor
    by_cases h0 : a.1 = 0
    · simp only [h0, ne_eq, not_true_eq_false, if_false]
      exact ih cur segments hl hcur (by omega) h n hn
    · have hpos : 0 < a.1 := by omega
      simp only [ne_eq, h0, not_false_eq_true, if_true]
      by_cases haj : a.2 = j
      · simp only [haj, if_true]
        rw [ih (cur + a.1) _ hl (by omega) (by omega)
          (SegWF_pushSegment segments cur a.1 hcur hpos h) n
          (by rw [segWidth_pushSegment]; omega),
          GetEmbeddedBytes_pushSegment segments cur a.1 hcur hpos (by omega) h n (by omega),
          if_pos hn]
      · simp only [haj, if_false]
        exact ih (cur + a.1) _ hl (by omega) (by omega) (h.mono (by omega)) n hn

theorem GetEmbeddedBytes_segsFor (j : Nat) (ps : List (Int × Nat)) : ∀ (cur : Int)
    (segments : List ProbInterval), (∀ p ∈ ps, 0 ≤ p.1) → 0 ≤ cur → cur + wsum ps ≤ 65536 →
    SegWF cur segments → ∀ n : Nat, segWidth segments ≤ n →
    (n : Int) < segWidth segments + bsum j ps →
    GetEmbeddedBytes (segsFor j ps cur segments) n =
      (nthPoint j ps cur (n - segWidth segments)).toNat := by
  induction ps with
  | nil => intro cur segments _ _ _ _ n h1 h2; simp at h2; omega
  | cons a l ih =>
    intro cur segments hnn hcur hle h n h1 h2
    have ha := hnn a (List.mem_cons_self _ _)
    have hl : ∀ p ∈ l, 0 ≤ p.1 := fun p hp => hnn p (List.mem_cons_of_mem _ hp)
    have hwl : 0 ≤ wsum l := by
      have := wsum_ge_of_large 0 l hl; simpa using this
    simp only [wsum_cons] at hle
    simp only [bsum_cons] at h2
    unfold segsFor nthPoint
    by_cases h0 : a.1 = 0
    · simp only [h0, ne_eq, not_true_eq_false, if_false, add_zero, sub_zero]
      rw [h0] at h2
      have := ih cur segments hl hcur (by omega) h n h1 (by simpa using h2)
      rw [this]
      split_ifs with h3 h4
      · omega
      · rfl
      · rfl
    · have hpos : 0 < a.1 := by omega
      simp only [ne_eq, h0, not_false_eq_true, if_true]
      by_cases haj : a.2 = j
      · simp only [haj, if_true] at h2 ⊢
        have hwf1 := SegWF_pushSegment segments cur a.1 hcur hpos h
        by_cases hlt : (n : Int) - segWidth segments < a.1
        · rw [if_pos hlt, GetEmbeddedBytes_segsFor_stable j l (cur + a.1) _ hl (by omega)
            (by omega) hwf1 n (by rw [segWidth_pushSegment]; omega),
            GetEmbeddedBytes_pushSegment segments cur a.1 hcur hpos (by omega) h n (by omega),
            if_neg (by omega)]
        · rw [if_neg hlt, ih (cur + a.1) _ hl (by omega) (by omega) hwf1 n
            (by rw [segWidth_pushSegment]; omega) (by rw [segWidth_pushSegment]; omega),
            segWidth_pushSegment]
          congr 2
          omega
      · simp only [haj, if_false] at h2 ⊢
        exact ih (cur + a.1) _ hl (by omega) (by omega) (h.mono (by omega)) n h1 (by omega)

/-! ## Where the `n`-th point of a branch lies, and the numerator helper there -/

theorem nthPoint_spec (j : Nat) (ps : List (Int × Nat)) : ∀ (cur n : Int),
    (∀ p ∈ ps, 0 ≤ p.1) → 0 ≤ n → n < bsum j ps →
    ∃ pre p post, ps = pre ++ p :: post ∧ p.2 = j ∧
      cur + wsum pre ≤ nthPoint j ps cur n ∧ nthPoint j ps cur n < cur + wsum pre + p.1 ∧
      n = bsum j pre + (nthPoint j ps cur n - (cur + wsum pre)) := by
  induction ps with
  | nil => intro cur n _ h0 h1; simp at h1; omega
  | cons a l ih =>
    intro cur n hnn h0 h1
    have ha := hnn a (List.mem_cons_self _ _)
    have hl : ∀ p ∈ l, 0 ≤ p.1 := fun p hp => hnn p (List.mem_cons_of_mem _ hp)
    simp only [bsum_cons] at h1
    unfold nthPoint
    by_cases haj : a.2 = j
    · simp only [haj, if_true] at h1 ⊢
      by_cases hlt : n < a.1
      · rw [if_pos hlt]
        exact ⟨[], a, l, rfl, haj, by simp; omega, by simp; omega, by simp⟩
      · rw [if_neg hlt]
        obtain ⟨pre, p, post, hps, hpj, hlo, hhi, hn⟩ := ih (cur + a.1) (n - a.1) hl (by omega)
          (by omega)
        refine ⟨a :: pre, p, post, by rw [hps]; rfl, hpj, ?_, ?_, ?_⟩
        · simp only [wsum_cons]; omega
        · simp only [wsum_cons]; omega
        · simp only [wsum_cons, bsum_cons, haj, if_true]; omega
    · simp only [haj, if_false] at h1 ⊢
      obtain ⟨pre, p, post, hps, hpj, hlo, hhi, hn⟩ := ih (cur + a.1) n hl h0 (by omega)
      refine ⟨a :: pre, p, post, by rw [hps]; rfl, hpj, ?_, ?_, ?_⟩
      · simp only [wsum_cons]; omega
      · simp only [wsum_cons]; omega
      · simp only [wsum_cons, bsum_cons, haj, if_false]; omega

theorem foldl_helperPart_state (l : List (Int × Nat)) : ∀ (st : HelperState),
    (l.foldl helperPart st).stats.length = st.stats.length ∧
    (l.foldl helperPart st).cur_weight = st.cur_weight + wsum l ∧
    (l.foldl helperPart st).numerator_helper.length = st.numerator_helper.length + l.length ∧
    (∀ j, j < st.stats.length →
      (l.foldl helperPart st).stats.getD j 0 = st.stats.getD j 0 + bsum j l) ∧
    (∀ k, k < st.numerator_helper.length →
      (l.foldl helperPart st).numerator_helper[k]? = st.numerator_helper[k]?) := by
  induction l with
  | nil => intro st; simp
  | cons a l ih =>
    intro st
    obtain ⟨h1, h2, h3, h4, h5⟩ := ih (helperPart st a)
    rw [List.foldl_cons]
    refine ⟨?_, ?_, ?_, ?_, ?_⟩
    · rw [h1]; simp [helperPart]
    · rw [h2]; simp only [helperPart, wsum_cons]; omega
    · rw [h3]; simp only [helperPart, List.length_append, List.length_cons, List.length_nil]
      omega
    · intro j hj
      rw [h4 j (by simpa [helperPart] using hj)]
      simp only [helperPart, bsum_cons, List.getD_eq_getElem?_getD, List.getElem?_set]
      by_cases haj : a.2 = j
      · subst haj
        simp [hj]
        omega
      · simp [haj]
    · intro k hk
      rw [h5 k (by simp only [helperPart, List.length_append]; omega)]
      simp only [helperPart]
      rw [List.getElem?_append_left hk]

theorem foldl_helperPart_entry (N : Nat) (pre post : List (Int × Nat)) (p : Int × Nat)
    (hp : p.2 < N) :
    ((pre ++ p :: post).foldl helperPart ⟨List.replicate N 0, 0, []⟩).numerator_helper[pre.length]?
      = some (wsum pre - bsum p.2 pre) := by
  rw [List.foldl_append, List.foldl_cons]
  obtain ⟨h1, h2, h3, h4, _⟩ := foldl_helperPart_state pre ⟨List.replicate N 0, 0, []⟩
  simp only [List.length_replicate, List.length_nil, zero_add] at h1 h2 h3 h4
  obtain ⟨_, _, _, _, g5⟩ := foldl_helperPart_state post
    (helperPart (pre.foldl helperPart ⟨List.replicate N 0, 0, []⟩) p)
  rw [g5 pre.length (by simp [helperPart, h3])]
  simp only [helperPart]
  rw [List.getElem?_append_right (by omega), h3]
  simp only [Nat.sub_self, List.getElem?_cons_zero, Option.some.injEq]
  rw [h2, h4 p.2 hp]
  simp [List.getD_eq_getElem?_getD, List.getElem?_replicate, hp]

/-- Position of a part of the slot list: which slot, which side, and where it starts. -/
theorem partsOf_split (B : Int) (slots : List ((Int × Nat) × (Int × Nat))) :
    ∀ (pre post : List (Int × Nat)) (p : Int × Nat),
    (∀ slot ∈ slots, slot.1.1 + slot.2.1 = B) → partsOf slots = pre ++ p :: post →
    ∃ i slot, slots[i]? = some slot ∧
      ((pre.length = 2 * i ∧ p = slot.1 ∧ wsum pre = i * B) ∨
       (pre.length = 2 * i + 1 ∧ p = slot.2 ∧ wsum pre = i * B + slot.1.1)) := by
  induction slots with
  | nil => intro pre post p _ h; simp [partsOf] at h
  | cons s rest ih =>
    intro pre post p hB h
    have hs := hB s (List.mem_cons_self _ _)
    simp only [partsOf] at h
    match pre, h with
    | [], h =>
      simp only [List.nil_append, List.cons.injEq] at h
      exact ⟨0, s, by simp, Or.inl ⟨rfl, h.1.symm, by simp⟩⟩
    | [a], h =>
      simp only [List.cons_append, List.nil_append, List.cons.injEq] at h
      refine ⟨0, s, by simp, Or.inr ⟨rfl, h.2.1.symm, ?_⟩⟩
      simp [h.1]
    | a :: b :: pre', h =>
      simp only [List.cons_append, List.cons.injEq] at h
      obtain ⟨i, slot, hi, hcase⟩ := ih pre' post p
        (fun x hx => hB x (List.mem_cons_of_mem _ hx)) h.2.2
      refine ⟨i + 1, slot, by simpa using hi, ?_⟩
      rcases hcase with ⟨h1, h2, h3⟩ | ⟨h1, h2, h3⟩
      · left
        refine ⟨by simp only [List.length_cons]; omega, h2, ?_⟩
        simp only [wsum_cons, h3, ← h.1, ← h.2.1]; push_cast; linarith
      · right
        refine ⟨by simp only [List.length_cons]; omega, h2, ?_⟩
        simp only [wsum_cons, h3, ← h.1, ← h.2.1]; push_cast; linarith

/-! ## Table inversion -/

theorem tableLookup_of (t : DelayedCodingParams) (v i : Nat) (left right : Int × Nat)
    (b : Branch) (helper : Int)
    (hhigh : v >>> (16 - t.num_represent_bits_) = i)
    (hl : t.segment_left_branches_[i]? = some left)
    (hr : t.segment_right_branches_[i]? = some right)
    (hb : t.branches_[if v &&& ((1 <<< (16 - t.num_represent_bits_)) - 1) < toU32 left.1
      then left.2 else right.2]? = some b)
    (hh : t.numerator_helper_[(i <<< 1) +
      (if v &&& ((1 <<< (16 - t.num_represent_bits_)) - 1) < toU32 left.1 then 0 else 1)]?
        = some helper) :
    tableLookup t v = some
      ⟨if v &&& ((1 <<< (16 - t.num_represent_bits_)) - 1) < toU32 left.1
        then left.2 else right.2, b.total_weights_, toU32 ((v : Int) - helper)⟩ := by
  unfold tableLookup
  simp only [hhigh, hl, hr, Option.bind_eq_bind, Option.some_bind, decide_eq_true_eq]
  rw [hb]
  simp only [Option.some_bind]
  rw [hh]
  simp

theorem wsum_nonneg (l : List (Int × Nat)) (h : ∀ p ∈ l, 0 ≤ p.1) : 0 ≤ wsum l := by
  have := wsum_ge_of_large 0 l h; simpa using this

theorem bsum_le_wsum (j : Nat) (l : List (Int × Nat)) (h : ∀ p ∈ l, 0 ≤ p.1) :
    bsum j l ≤ wsum l := by
  induction l with
  | nil => simp
  | cons a l ih =>
    have ha := h a (List.mem_cons_self _ _)
    have := ih (fun p hp => h p (List.mem_cons_of_mem _ hp))
    simp only [bsum_cons, wsum_cons]
    split_ifs <;> omega

/-- Table inversion in terms of the slots of a table. -/
theorem TableOK.inversion {weights : List Nat} {t : DelayedCodingParams}
    {slots : List ((Int × Nat) × (Int × Nat))} (hok : TableOK weights t slots)
    (j w n : Nat) (hw : weights[j]? = some w) (hn : n < w) :
    GetEmbeddedBytes (segsFor j (partsOf slots) 0 []) n < 65536 ∧
    tableLookup t (GetEmbeddedBytes (segsFor j (partsOf slots) 0 []) n) = some ⟨j, w, n⟩ := by
  have hnn := hok.parts_nonneg
  have hws := hok.wsum_parts
  have hbs : bsum j (partsOf slots) = (w : Int) := by
    have := hok.bsum_eq j
    rwa [List.getD_eq_getElem?_getD, hw] at this
  have hv := GetEmbeddedBytes_segsFor j (partsOf slots) 0 [] hnn (le_refl _) (by omega)
    (SegWF_nil 0) n (by simp [segWidth]) (by simp only [segWidth, List.map_nil, List.sum_nil]; omega)
  simp only [segWidth, List.map_nil, List.sum_nil, sub_zero] at hv
  obtain ⟨pre, p, post, hps, hpj, hlo, hhi, hnv⟩ := nthPoint_spec j (partsOf slots) 0 n hnn
    (by omega) (by omega)
  set x := nthPoint j (partsOf slots) 0 (n : Int) with hx
  have hpre : 0 ≤ wsum pre := wsum_nonneg pre (fun q hq => hnn q (by rw [hps]; simp [hq]))
  have hpost : 0 ≤ wsum post := wsum_nonneg post (fun q hq => hnn q (by rw [hps]; simp [hq]))
  have htot : wsum pre + p.1 + wsum post = 65536 := by
    rw [hps] at hws; simp only [wsum_append, wsum_cons] at hws; omega
  have hx0 : 0 ≤ x := by omega
  have hx1 : x < 65536 := by omega
  have hw16 : (w : Int) ≤ 65536 := by
    rw [← hbs, ← hws]; exact bsum_le_wsum j _ hnn
  have hjl : j < weights.length := (List.getElem?_eq_some.1 hw).1
  have hhelper : t.numerator_helper_[pre.length]? = some (wsum pre - bsum j pre) := by
    rw [hok.helper, hps, ← hpj]
    exact foldl_helperPart_entry weights.length pre post p (by rw [hpj]; exact hjl)
  have hbr : t.branches_[j]? = some ⟨segsFor j (partsOf slots) 0 [], w⟩ := by
    rw [hok.branches j, hw]; rfl
  obtain ⟨i, slot, hi, hcase⟩ := partsOf_split (slotWidth t.num_represent_bits_) slots pre post p
    (fun s hs => (hok.slot_ok s hs).2.2) hps
  have hslot := hok.slot_ok slot (List.mem_iff_getElem?.2 ⟨i, hi⟩)
  have hBn : slotWidth t.num_represent_bits_ = ((2 ^ (16 - t.num_represent_bits_) : Nat) : Int) := by
    unfold slotWidth; push_cast; rfl
  have hBpos : 0 < 2 ^ (16 - t.num_represent_bits_) := by positivity
  have hB16 : 2 ^ (16 - t.num_represent_bits_) ≤ 2 ^ 16 :=
    Nat.pow_le_pow_right (by norm_num) (by omega)
  rw [hv]
  refine ⟨by omega, ?_⟩
  have hvx : ((x.toNat : Nat) : Int) = x := Int.toNat_of_nonneg hx0
  have hleft : t.segment_left_branches_[i]? = some slot.1 := by
    rw [hok.left, List.getElem?_map, hi]; rfl
  have hright : t.segment_right_branches_[i]? = some slot.2 := by
    rw [hok.right, List.getElem?_map, hi]; rfl
  have hrange : i * 2 ^ (16 - t.num_represent_bits_) ≤ x.toNat ∧
      x.toNat < (i + 1) * 2 ^ (16 - t.num_represent_bits_) := by
    rw [hBn] at hcase hslot
    rcases hcase with ⟨_, h2, h3⟩ | ⟨_, h2, h3⟩
    · subst h2
      constructor
      · zify; rw [hvx]; push_cast at h3 ⊢; linarith
      · zify; rw [hvx]; push_cast at h3 hslot ⊢; linarith
    · subst h2
      constructor
      · zify; rw [hvx]; push_cast at h3 hslot ⊢; linarith
      · zify; rw [hvx]; push_cast at h3 hslot ⊢; linarith
  have hhigh : x.toNat >>> (16 - t.num_represent_bits_) = i := by
    rw [Nat.shiftRight_eq_div_pow]
    apply Nat.div_eq_of_lt_le
    · exact hrange.1
    · exact hrange.2
  have hlow : x.toNat &&& ((1 <<< (16 - t.num_represent_bits_)) - 1) =
      x.toNat - i * 2 ^ (16 - t.num_represent_bits_) := by
    rw [Nat.one_shiftLeft, Nat.and_pow_two_sub_one_eq_mod]
    have := Nat.div_add_mod x.toNat (2 ^ (16 - t.num_represent_bits_))
    rw [Nat.shiftRight_eq_div_pow] at hhigh
    rw [hhigh] at this
    rw [Nat.mul_comm] at this
    omega
  have hl32 : toU32 slot.1.1 = slot.1.1.toNat := by
    apply toU32_of_bounds _ hslot.1
    have : slot.1.1 ≤ ((2 ^ 16 : Nat) : Int) := by
      rw [hBn] at hslot
      have := hslot.2.1
      have h16 : ((2 ^ (16 - t.num_represent_bits_) : Nat) : Int) ≤ ((2 ^ 16 : Nat) : Int) := by
        exact_mod_cast hB16
      omega
    norm_num at this ⊢
    omega
  rw [hBn] at hcase hslot
  rcases hcase with ⟨h1, h2, h3⟩ | ⟨h1, h2, h3⟩
  · subst h2
    have hflag : x.toNat &&& ((1 <<< (16 - t.num_represent_bits_)) - 1) < toU32 slot.1.1 := by
      rw [hlow, hl32]
      zify
      rw [Int.toNat_of_nonneg hslot.1, Nat.cast_sub hrange.1, hvx]
      push_cast at h3 ⊢
      linarith
    have := tableLookup_of t x.toNat i slot.1 slot.2 ⟨segsFor j (partsOf slots) 0 [], w⟩
      (wsum pre - bsum j pre) hhigh hleft hright
      (by rw [if_pos hflag, hpj]; exact hbr)
      (by rw [if_pos hflag, Nat.shiftLeft_eq, show i * 2 ^ 1 + 0 = pre.length by omega]
          exact hhelper)
    rw [this, if_pos hflag, hpj]
    simp only [Option.some.injEq, Pick.mk.injEq, true_and]
    rw [hvx, show x - (wsum pre - bsum j pre) = (n : Int) by omega,
      toU32_of_bounds _ (by omega) (by omega)]
    simp
  · subst h2
    have hflag : ¬ x.toNat &&& ((1 <<< (16 - t.num_represent_bits_)) - 1) < toU32 slot.1.1 := by
      rw [hlow, hl32]
      zify
      rw [Int.toNat_of_nonneg hslot.1, Nat.cast_sub hrange.1, hvx]
      push_cast at h3 ⊢
      linarith
    have := tableLookup_of t x.toNat i slot.1 slot.2 ⟨segsFor j (partsOf slots) 0 [], w⟩
      (wsum pre - bsum j pre) hhigh hleft hright
      (by rw [if_neg hflag, hpj]; exact hbr)
      (by rw [if_neg hflag, Nat.shiftLeft_eq, show i * 2 ^ 1 + 1 = pre.length by omega]
          exact hhelper)
    rw [this, if_neg hflag, hpj]
    simp only [Option.some.injEq, Pick.mk.injEq, true_and]
    rw [hvx, show x - (wsum pre - bsum j pre) = (n : Int) by omega,
      toU32_of_bounds _ (by omega) (by omega)]
    simp

/-- C7. Table inversion: in the table built by `InitDelayedCodingParams` from a weight
vector of sum 65536, the decoder lookup applied to `GetEmbeddedBytes(branch j, n)`, for a
branch `j` of weight `w > 0` and a numerator `n < w`, returns branch `j`, its weight and the
numerator `n`; the embedded value is a 16-bit word. -/
theorem tableLookup_GetEmbeddedBytes (weights : List Nat) (hsum : weights.sum = 65536)
    (params : DelayedCodingParams) :
    ∃ t, InitDelayedCodingParams weights params = some t ∧
      ∀ (j w n : Nat) (b : Branch), weights[j]? = some w → n < w →
        t.branches_[j]? = some b →
        GetEmbeddedBytes b.segments_ n < 65536 ∧
        tableLookup t (GetEmbeddedBytes b.segments_ n) = some ⟨j, w, n⟩ := by
  obtain ⟨t, slots, ht, hok⟩ := buildTable_ok weights hsum
  rw [Init_eq_buildTable weights params (ne_nil_of_sum weights hsum)]
  refine ⟨t, ht, ?_⟩
  intro j w n b hw hn hb
  have hbr := hok.branches j
  rw [hb, hw] at hbr
  simp only [Option.map_some', Option.some.injEq] at hbr
  subst hbr
  exact hok.inversion j w n hw hn

theorem tableLookup_GetEmbeddedBytes_witness :
    ∃ t, InitDelayedCodingParams [30000, 0, 20000, 15536] ⟨[], [], [], [], 0⟩ = some t ∧
      ∀ (j w n : Nat) (b : Branch), [30000, 0, 20000, 15536][j]? = some w → n < w →
        t.branches_[j]? = some b →
        GetEmbeddedBytes b.segments_ n < 65536 ∧
        tableLookup t (GetEmbeddedBytes b.segments_ n) = some ⟨j, w, n⟩ :=
  tableLookup_GetEmbeddedBytes [30000, 0, 20000, 15536] (by decide) ⟨[], [], [], [], 0⟩

/-! ## `DelayedCoding` against `Decoder` -/

theorem foldl_secondRun_eq_encodeFrom (bs : List Branch) : ∀ (den : Nat) (virt : Bool),
    (bs.zip (firstRun (bs.map (fun b => b.total_weights_)) den virt)).reverse.foldl
      secondRunStep (0, []) = encodeFrom bs den virt := by
  induction bs with
  | nil => intro den virt; rfl
  | cons b rest ih =>
    intro den virt
    simp only [List.map_cons, firstRun, encodeFrom]
    split_ifs with h
    · simp only [List.zip_cons_cons, List.reverse_cons, List.foldl_append, List.foldl_cons,
        List.foldl_nil, ih]
    · simp only [List.zip_cons_cons, List.reverse_cons, List.foldl_append, List.foldl_cons,
        List.foldl_nil, ih]

theorem DelayedCoding_eq_encodeFrom (bs : List Branch) :
    DelayedCoding bs = (encodeFrom bs 1 false).2 := by
  unfold DelayedCoding
  simp only [foldl_secondRun_eq_encodeFrom]

theorem encodeFrom_cons (b : Branch) (rest : List Branch) (den : Nat) (virt : Bool) :
    encodeFrom (b :: rest) den virt =
      secondRunStep (encodeFrom rest (nextDen den b.total_weights_)
        (nextVirt den b.total_weights_)) (b, virt) := by
  simp only [encodeFrom, nextDen, nextVirt]
  by_cases h : (den * b.total_weights_ % 2 ^ 64) >>> kDelayedCoding > 0
  · rw [if_pos h, if_pos h, decide_eq_true h]
  · rw [if_neg h, if_neg h, decide_eq_false h]

theorem nextDen_bounds (den w : Nat) (h1 : 1 ≤ den) (h2 : den < 2 ^ 24) (hw1 : 1 ≤ w)
    (hw2 : w ≤ 65536) :
    den * w < 2 ^ 40 ∧ 1 ≤ nextDen den w ∧ nextDen den w < 2 ^ 24 ∧
    (if nextVirt den w then nextDen den w * 2 ^ 16 ≤ den * w else nextDen den w = den * w) := by
  have hprod : den * w < 2 ^ 40 := by
    have : den * w ≤ den * 65536 := Nat.mul_le_mul_left _ hw2
    omega
  have hpos : 1 ≤ den * w := Nat.mul_pos h1 hw1
  have hmod : den * w % 2 ^ 64 = den * w := Nat.mod_eq_of_lt (by omega)
  unfold nextDen nextVirt kDelayedCoding
  rw [hmod]
  simp only [Nat.shiftRight_eq_div_pow]
  refine ⟨hprod, ?_⟩
  by_cases h : den * w / 2 ^ 24 > 0
  · simp only [h, if_true, decide_True]
    have h24 : 2 ^ 24 ≤ den * w := by
      by_contra hc
      have := Nat.div_eq_of_lt (show den * w < 2 ^ 24 by omega)
      omega
    refine ⟨?_, ?_, ?_⟩
    · have := Nat.div_add_mod (den * w) (2 ^ 16)
      have := Nat.mod_lt (den * w) (show 0 < 2 ^ 16 by norm_num)
      omega
    · have := Nat.div_add_mod (den * w) (2 ^ 16)
      omega
    · have := Nat.div_add_mod (den * w) (2 ^ 16)
      omega
  · simp only [h, if_false, decide_False]
    have h24 : den * w < 2 ^ 24 := by
      by_contra hc
      have := Nat.div_add_mod (den * w) (2 ^ 24)
      have := Nat.mod_lt (den * w) (show 0 < 2 ^ 24 by norm_num)
      omega
    refine ⟨hpos, h24, ?_⟩
    simp

theorem secondRunStep_eq (next : Nat × List Nat) (b : Branch) (virt : Bool) (den : Nat)
    (hb : BranchOK b) (hden : den < 2 ^ 24) (hnext : next.1 < den * b.total_weights_) :
    next.1 / b.total_weights_ < den ∧ next.1 % b.total_weights_ < b.total_weights_ ∧
    GetEmbeddedBytes b.segments_ (next.1 % b.total_weights_) < 65536 ∧
    secondRunStep next (b, virt) =
      if virt then
        (next.1 / b.total_weights_ * 2 ^ 16 +
          GetEmbeddedBytes b.segments_ (next.1 % b.total_weights_), next.2)
      else (next.1 / b.total_weights_,
        GetEmbeddedBytes b.segments_ (next.1 % b.total_weights_) :: next.2) := by
  have hq : next.1 / b.total_weights_ < den :=
    Nat.div_lt_of_lt_mul (by rw [Nat.mul_comm]; exact hnext)
  have hmod : next.1 % b.total_weights_ < b.total_weights_ := Nat.mod_lt _ hb.pos
  have hbyte := hb.embed_lt _ hmod
  have hdata : next.1 - next.1 / b.total_weights_ * b.total_weights_ =
      next.1 % b.total_weights_ := by
    have := Nat.div_add_mod next.1 b.total_weights_
    rw [Nat.mul_comm] at this
    omega
  refine ⟨hq, hmod, hbyte, ?_⟩
  unfold secondRunStep
  simp only [hdata]
  cases virt with
  | false => simp
  | true =>
    simp only [if_true]
    congr 1
    rw [Nat.shiftLeft_eq, Nat.mod_eq_of_lt (by omega), Nat.mul_comm,
      Nat.mul_add_lt_is_or (by simpa using hbyte)]

/-- The second-run value of `den` stays below the first-run value: the accumulated
numerator is a valid numerator for the accumulated denominator. -/
theorem encodeFrom_lt (bs : List Branch) : ∀ (den : Nat) (virt : Bool),
    (∀ b ∈ bs, BranchOK b) → 1 ≤ den → den < 2 ^ 24 →
    (if virt then (encodeFrom bs den virt).1 < den * 2 ^ 16
      else (encodeFrom bs den virt).1 < den) := by
  induction bs with
  | nil =>
    intro den virt _ h1 _
    simp only [encodeFrom]
    split_ifs <;> omega
  | cons b rest ih =>
    intro den virt hbs h1 h2
    have hb := hbs b (List.mem_cons_self _ _)
    obtain ⟨hprod, hn1, hn2, hnv⟩ := nextDen_bounds den b.total_weights_ h1 h2 hb.pos hb.le
    have hih := ih (nextDen den b.total_weights_) (nextVirt den b.total_weights_)
      (fun x hx => hbs x (List.mem_cons_of_mem _ hx)) hn1 hn2
    have hnext : (encodeFrom rest (nextDen den b.total_weights_)
        (nextVirt den b.total_weights_)).1 < den * b.total_weights_ := by
      cases hv : nextVirt den b.total_weights_ with
      | false => rw [hv] at hih hnv; simp only [Bool.false_eq_true, if_false] at hih hnv; omega
      | true => rw [hv] at hih hnv; simp only [if_true] at hih hnv; omega
    obtain ⟨hq, _, hbyte, heq⟩ := secondRunStep_eq _ b virt den hb h2 hnext
    rw [encodeFrom_cons, heq]
    cases virt with
    | false => simp only [Bool.false_eq_true, if_false]; exact hq
    | true => simp only [if_true]; omega

theorem Update_spec (d : Decoder) (den w data a : Nat) (hden : d.den_ = den)
    (h1 : 1 ≤ den) (h2 : den < 2 ^ 24) (hw1 : 1 ≤ w) (hw2 : w ≤ 65536)
    (ha : d.num_ * w + data = a) (halt : a < den * w) :
    (d.Update w data).den_ = nextDen den w ∧
    (d.Update w data).virtual_available_ = (nextVirt den w || d.virtual_available_) ∧
    (d.Update w data).num_interval_ = d.num_interval_ ∧
    (if nextVirt den w then
      (d.Update w data).num_ * 2 ^ 16 + (d.Update w data).virtual_16bits_ = a ∧
        (d.Update w data).virtual_16bits_ < 2 ^ 16
     else (d.Update w data).num_ = a) := by
  obtain ⟨hprod, _, _, _⟩ := nextDen_bounds den w h1 h2 hw1 hw2
  have hmodn : (d.num_ * w + data) % 2 ^ 64 = a := by
    rw [ha]; exact Nat.mod_eq_of_lt (by omega)
  unfold Decoder.Update nextDen nextVirt
  rw [hmodn, hden]
  by_cases h : (den * w % 2 ^ 64) >>> kDelayedCoding > 0
  · simp only [h, if_true, decide_True, Bool.true_or, true_and]
    rw [Nat.shiftRight_eq_div_pow]
    have := Nat.div_add_mod a (2 ^ 16)
    have := Nat.mod_lt a (show 0 < 2 ^ 16 by norm_num)
    omega
  · simp only [h, if_false, decide_False, Bool.false_or, true_and]
    simp

/-- One symbol decoded: from the invariant before a symbol, `Read16Bits` returns the
word the encoder embedded for it, and `Update` with the symbol's total weight and the
encoder's numerator restores the invariant before the next symbol. -/
theorem DecInv_step (b : Branch) (rest : List Branch) (den : Nat) (virt : Bool) (d : Decoder)
    (words rest' : List Nat) (hbs : ∀ x ∈ b :: rest, BranchOK x)
    (h : DecInv den virt (encodeFrom (b :: rest) den virt) d words rest') :
    ∃ d1 words1,
      d.Read16Bits words = some (GetEmbeddedBytes b.segments_
        ((encodeFrom rest (nextDen den b.total_weights_) (nextVirt den b.total_weights_)).1
          % b.total_weights_), d1, words1) ∧
      (encodeFrom rest (nextDen den b.total_weights_) (nextVirt den b.total_weights_)).1
          % b.total_weights_ < b.total_weights_ ∧
      DecInv (nextDen den b.total_weights_) (nextVirt den b.total_weights_)
        (encodeFrom rest (nextDen den b.total_weights_) (nextVirt den b.total_weights_))
        (d1.Update b.total_weights_
          ((encodeFrom rest (nextDen den b.total_weights_) (nextVirt den b.total_weights_)).1
            % b.total_weights_)) words1 rest' := by
  have hb := hbs b (List.mem_cons_self _ _)
  obtain ⟨hden, h1, h2, hvirt, hnum, hnumlt, hwords⟩ := h
  obtain ⟨hprod, hn1, hn2, hnv⟩ := nextDen_bounds den b.total_weights_ h1 h2 hb.pos hb.le
  have hlt := encodeFrom_lt rest (nextDen den b.total_weights_) (nextVirt den b.total_weights_)
    (fun x hx => hbs x (List.mem_cons_of_mem _ hx)) hn1 hn2
  set next := encodeFrom rest (nextDen den b.total_weights_) (nextVirt den b.total_weights_)
    with hnextdef
  have hnext : next.1 < den * b.total_weights_ := by
    cases hv : nextVirt den b.total_weights_ with
    | false => rw [hv] at hlt hnv; simp only [Bool.false_eq_true, if_false] at hlt hnv; omega
    | true => rw [hv] at hlt hnv; simp only [if_true] at hlt hnv; omega
  obtain ⟨hq, hmod, hbyte, heq⟩ := secondRunStep_eq next b virt den hb h2 hnext
  rw [encodeFrom_cons, ← hnextdef, heq] at hnum hwords
  have hdm : next.1 / b.total_weights_ * b.total_weights_ + next.1 % b.total_weights_ = next.1 := by
    have := Nat.div_add_mod next.1 b.total_weights_
    rw [Nat.mul_comm] at this
    exact this
  -- the decoder after the read
  have key : ∀ d1 : Decoder, d1.num_ = next.1 / b.total_weights_ → d1.den_ = den →
      d1.virtual_available_ = false → ∀ words1, words1 = next.2 ++ rest' →
      DecInv (nextDen den b.total_weights_) (nextVirt den b.total_weights_) next
        (d1.Update b.total_weights_ (next.1 % b.total_weights_)) words1 rest' := by
    intro d1 hd1n hd1d hd1v words1 hw1
    obtain ⟨u1, u2, _, u4⟩ := Update_spec d1 den b.total_weights_ (next.1 % b.total_weights_)
      next.1 hd1d h1 h2 hb.pos hb.le (by rw [hd1n]; exact hdm) hnext
    refine ⟨u1, hn1, hn2, by rw [u2, hd1v]; simp, u4, ?_, hw1⟩
    cases hv : nextVirt den b.total_weights_ with
    | false =>
      rw [hv] at u4 hlt
      simp only [Bool.false_eq_true, if_false] at u4 hlt
      omega
    | true =>
      rw [hv] at u4 hlt
      simp only [if_true] at u4 hlt
      omega
  cases virt with
  | true =>
    simp only [if_true] at hnum hwords
    have hnq : d.num_ = next.1 / b.total_weights_ ∧
        d.virtual_16bits_ = GetEmbeddedBytes b.segments_ (next.1 % b.total_weights_) := by
      omega
    refine ⟨{ d with num_interval_ := (d.num_interval_ + 1) % 2 ^ 16,
                     virtual_available_ := false }, words, ?_, hmod, ?_⟩
    · unfold Decoder.Read16Bits
      simp [hvirt, hnq.2]
    · exact key { d with num_interval_ := (d.num_interval_ + 1) % 2 ^ 16,
                         virtual_available_ := false } hnq.1 hden rfl words hwords
  | false =>
    simp only [Bool.false_eq_true, if_false] at hnum hwords
    refine ⟨{ d with num_interval_ := (d.num_interval_ + 1) % 2 ^ 16 }, next.2 ++ rest',
      ?_, hmod, ?_⟩
    · unfold Decoder.Read16Bits
      simp [hvirt, hwords]
    · exact key { d with num_interval_ := (d.num_interval_ + 1) % 2 ^ 16 } hnum hden hvirt _ rfl

/-- The invariant holds between a freshly initialised decoder and the whole output of
`DelayedCoding`. -/
theorem DecInv_init (bs : List Branch) (hbs : ∀ b ∈ bs, BranchOK b) (d0 : Decoder)
    (rest : List Nat) :
    DecInv 1 false (encodeFrom bs 1 false) d0.InitProbInterval (DelayedCoding bs ++ rest) rest := by
  have h := encodeFrom_lt bs 1 false hbs (le_refl _) (by norm_num)
  simp only [Bool.false_eq_true, if_false] at h
  refine ⟨rfl, le_refl _, by norm_num, rfl, ?_, by simp [Decoder.InitProbInterval], ?_⟩
  · simp only [Bool.false_eq_true, if_false, Decoder.InitProbInterval]; omega
  · rw [DelayedCoding_eq_encodeFrom]

theorem pick_ok (weights : List Nat) (j w : Nat) (hsum : weights.sum = 65536)
    (hw : weights[j]? = some w) (hpos : 0 < w) :
    ∃ t b, buildTable weights = some t ∧ t.branches_[j]? = some b ∧ BranchOK b ∧
      b.total_weights_ = w ∧
      ∀ n, n < w → tableLookup t (GetEmbeddedBytes b.segments_ n) = some ⟨j, w, n⟩ := by
  obtain ⟨t, slots, ht, hok⟩ := buildTable_ok weights hsum
  have hbr : t.branches_[j]? = some ⟨segsFor j (partsOf slots) 0 [], w⟩ := by
    rw [hok.branches j, hw]; rfl
  have hw16 : (w : Int) ≤ 65536 := by
    have := hok.bsum_eq j
    rw [List.getD_eq_getElem?_getD, hw] at this
    simp only [Option.getD_some] at this
    rw [← this, ← hok.wsum_parts]
    exact bsum_le_wsum j _ hok.parts_nonneg
  refine ⟨t, _, ht, hbr, ⟨hpos, by simp only; omega, ?_⟩, rfl, ?_⟩
  · intro n hn
    exact (hok.inversion j w n hw hn).1
  · intro n hn
    exact (hok.inversion j w n hw hn).2

theorem pickBranches_ok (picks : List (List Nat × Nat))
    (hp : ∀ p ∈ picks, p.1.sum = 65536 ∧ ∃ w, p.1[p.2]? = some w ∧ 0 < w) :
    ∃ tables branches, pickTables picks = some tables ∧ pickBranches picks = some branches ∧
      ∀ b ∈ branches, BranchOK b := by
  induction picks with
  | nil => exact ⟨[], [], rfl, rfl, by simp⟩
  | cons p ps ih =>
    obtain ⟨hsum, w, hw, hpos⟩ := hp p (List.mem_cons_self _ _)
    obtain ⟨t, b, ht, hb, hbok, _, _⟩ := pick_ok p.1 p.2 w hsum hw hpos
    obtain ⟨ts, bs, hts, hbs, hall⟩ := ih (fun q hq => hp q (List.mem_cons_of_mem _ hq))
    refine ⟨t :: ts, b :: bs, ?_, ?_, ?_⟩
    · simp [pickTables, ht, hts]
    · simp [pickBranches, ht, hb, hbs]
    · intro x hx
      rcases List.mem_cons.1 hx with rfl | hx
      · exact hbok
      · exact hall x hx

theorem decodePicks_of_inv (picks : List (List Nat × Nat)) :
    (∀ p ∈ picks, p.1.sum = 65536 ∧ ∃ w, p.1[p.2]? = some w ∧ 0 < w) →
    ∀ (tables : List DelayedCodingParams) (branches : List Branch),
    pickTables picks = some tables → pickBranches picks = some branches →
    ∀ (den : Nat) (virt : Bool) (d : Decoder) (words rest : List Nat),
    DecInv den virt (encodeFrom branches den virt) d words rest →
    ∃ d', decodePicks tables d words = some (picks.map Prod.snd, d', rest) := by
  induction picks with
  | nil =>
    intro _ tables branches ht hb den virt d words rest hinv
    simp only [pickTables, Option.some.injEq] at ht
    simp only [pickBranches, Option.some.injEq] at hb
    subst ht hb
    have := hinv.words_eq
    simp only [encodeFrom, List.nil_append] at this
    exact ⟨d, by simp [decodePicks, this]⟩
  | cons p ps ih =>
    intro hp tables branches ht hb den virt d words rest hinv
    obtain ⟨hsum, w, hw, hpos⟩ := hp p (List.mem_cons_self _ _)
    obtain ⟨t, b, hbt, hbb, hbok, hbw, hlook⟩ := pick_ok p.1 p.2 w hsum hw hpos
    have hps : ∀ q ∈ ps, q.1.sum = 65536 ∧ ∃ w, q.1[q.2]? = some w ∧ 0 < w :=
      fun q hq => hp q (List.mem_cons_of_mem _ hq)
    obtain ⟨ts, bs, hts, hbs, hall⟩ := pickBranches_ok ps hps
    have ht' : tables = t :: ts := by
      simp [pickTables, hbt, hts] at ht; exact ht.symm
    have hb' : branches = b :: bs := by
      simp [pickBranches, hbt, hbb, hbs] at hb; exact hb.symm
    subst ht' hb'
    have hbsok : ∀ x ∈ b :: bs, BranchOK x := by
      intro x hx
      rcases List.mem_cons.1 hx with rfl | hx
      · exact hbok
      · exact hall x hx
    obtain ⟨d1, words1, hread, hdata, hinv'⟩ := DecInv_step b bs den virt d words rest hbsok hinv
    obtain ⟨d', hd'⟩ := ih hps ts bs hts hbs _ _ _ _ _ hinv'
    rw [hbw] at hdata
    refine ⟨d', ?_⟩
    simp only [decodePicks, decodePick, hread, Option.bind_eq_bind, Option.some_bind,
      hlook _ hdata, hbw] at hd' ⊢
    rw [hd']
    simp

/-- C1. Delayed-coder round trip: for every sequence of picks `(weights_i, j_i)`, each
weight vector summing to 65536 and each `j_i` a branch of positive weight, a decoder
started by `InitProbInterval` that applies the table lookup of
`CategoricalSquID::Decompress` to the words emitted by `DelayedCoding` (followed by any
further words `rest`) recovers `j_1, ..., j_n` in order and leaves exactly `rest` unread. -/
theorem DelayedCoding_decodePicks (picks : List (List Nat × Nat))
    (hp : ∀ p ∈ picks, p.1.sum = 65536 ∧ ∃ w, p.1[p.2]? = some w ∧ 0 < w)
    (d0 : Decoder) (rest : List Nat) :
    ∃ tables branches d, pickTables picks = some tables ∧
      pickBranches picks = some branches ∧
      decodePicks tables d0.InitProbInterval (DelayedCoding branches ++ rest)
        = some (picks.map Prod.snd, d, rest) := by
  obtain ⟨tables, branches, ht, hb, hall⟩ := pickBranches_ok picks hp
  obtain ⟨d, hd⟩ := decodePicks_of_inv picks hp tables branches ht hb 1 false _ _ rest
    (DecInv_init branches hall d0 rest)
  exact ⟨tables, branches, d, ht, hb, hd⟩

theorem DelayedCoding_decodePicks_witness :
    ∃ tables branches d,
      pickTables [([30000, 0, 20000, 15536], 2), ([3, 0, 65533], 0), ([65536], 0)]
        = some tables ∧
      pickBranches [([30000, 0, 20000, 15536], 2), ([3, 0, 65533], 0), ([65536], 0)]
        = some branches ∧
      decodePicks tables (Decoder.InitProbInterval ⟨0, 1, 0, false, 0⟩)
          (DelayedCoding branches ++ [7])
        = some ([([30000, 0, 20000, 15536], 2), ([3, 0, 65533], 0), ([65536], 0)].map Prod.snd,
            d, [7]) :=
  DelayedCoding_decodePicks [([30000, 0, 20000, 15536], 2), ([3, 0, 65533], 0), ([65536], 0)]
    (by decide) ⟨0, 1, 0, false, 0⟩ [7]

/-! ## Normalisation of a categorical histogram (`TableCategorical::EndOfData`) -/

theorem normWeight_sum_le (S : Nat) (l : List Nat) :
    (l.map (normWeight S)).sum * S ≤ l.sum * 65536 := by
  induction l with
  | nil => simp
  | cons c l ih =>
    simp only [List.map_cons, List.sum_cons, Nat.add_mul]
    have : normWeight S c * S ≤ c * 65536 := Nat.div_mul_le_self _ _
    omega

theorem normWeight_sum_le' (S : Nat) (hS : 0 < S) (l : List Nat) (hl : l.sum ≤ S) :
    (l.map (normWeight S)).sum ≤ 65536 := by
  have h1 := normWeight_sum_le S l
  have h2 : l.sum * 65536 ≤ S * 65536 := Nat.mul_le_mul_right _ hl
  have h3 : (l.map (normWeight S)).sum * S ≤ 65536 * S := by rw [Nat.mul_comm 65536]; omega
  exact Nat.le_of_mul_le_mul_right h3 hS

theorem set_append_replicate (pre : List Nat) (k x : Nat) :
    (pre ++ List.replicate (k + 1) 0).set pre.length x = (pre ++ [x]) ++ List.replicate k 0 := by
  rw [List.set_append, if_neg (by omega), Nat.sub_self, List.replicate_succ, List.set_cons_zero,
    List.append_assoc]
  rfl

theorem getD_append_self (pre : List Nat) (x : Nat) (post : List Nat) :
    ((pre ++ [x]) ++ post).getD pre.length 0 = x := by
  rw [List.append_assoc, List.getD_append_right _ _ _ _ (le_refl _)]
  simp

theorem getD_append_lt (pre post post' : List Nat) (k : Nat) (hk : k < pre.length) :
    (pre ++ post).getD k 0 = (pre ++ post').getD k 0 := by
  rw [List.getD_append _ _ _ _ hk, List.getD_append _ _ _ _ hk]

theorem normLoop_inv (S N : Nat) (hS : 0 < S) : ∀ (rest pre : List Nat) (st : NormState),
    NormInv S N pre st → (pre ++ rest).sum ≤ S → (pre ++ rest).length < N →
    NormInv S N (pre ++ rest) (normLoop S rest pre.length st) := by
  intro rest
  induction rest with
  | nil => intro pre st h _ _; simpa [normLoop] using h
  | cons c cs ih =>
    intro pre st h hsum hlen
    have hpre : pre ++ c :: cs = (pre ++ [c]) ++ cs := by simp
    rw [hpre] at hsum hlen ⊢
    have hlen' : pre.length + 1 ≤ (pre ++ [c] ++ cs).length := by simp
    have hsum1 : (pre ++ [c]).sum ≤ S := by
      have : (pre ++ [c] ++ cs).sum = (pre ++ [c]).sum + cs.sum := by
        rw [List.sum_append]
      omega
    have hf := normWeight_sum_le' S hS (pre ++ [c]) hsum1
    simp only [List.map_append, List.map_cons, List.map_nil, List.sum_append, List.sum_cons,
      List.sum_nil, add_zero] at hf
    have hw32 : normWeight S c % 2 ^ 32 = normWeight S c := Nat.mod_eq_of_lt (by omega)
    obtain ⟨hweq, hleft, hzero, hidx, hmax⟩ := h
    have hNk : N - pre.length = (N - (pre.length + 1)) + 1 := by omega
    have hset : st.weight_.set pre.length (normWeight S c) =
        ((pre.map (normWeight S)) ++ [normWeight S c]) ++
          List.replicate (N - (pre.length + 1)) 0 := by
      rw [hweq, hNk]
      have := set_append_replicate (pre.map (normWeight S)) (N - (pre.length + 1))
        (normWeight S c)
      rw [List.length_map] at this
      exact this
    have hget : (st.weight_.set pre.length (normWeight S c)).getD pre.length 0 = normWeight S c := by
      rw [hset]
      have := getD_append_self (pre.map (normWeight S)) (normWeight S c)
        (List.replicate (N - (pre.length + 1)) 0)
      rw [List.length_map] at this
      exact this
    have hgetlt : ∀ k, k < pre.length →
        (st.weight_.set pre.length (normWeight S c)).getD k 0 = st.weight_.getD k 0 := by
      intro k hk
      rw [hset, hweq, List.append_assoc]
      exact getD_append_lt _ _ _ k (by simpa using hk)
    have hstep : normLoop S (c :: cs) pre.length st =
        normLoop S cs (pre ++ [c]).length
          ⟨st.weight_.set pre.length (normWeight S c),
            st.left_weight - normWeight S c,
            st.zero_weight_exist || decide (normWeight S c = 0),
            if (st.weight_.set pre.length (normWeight S c)).getD st.index_max_weight 0
                < normWeight S c then pre.length else st.index_max_weight⟩ := by
      simp only [normLoop, normWeight] at hw32 hget ⊢
      rw [hw32, hget]
      have : (st.left_weight + 2 ^ 32 - c * 65536 / S) % 2 ^ 32
          = st.left_weight - c * 65536 / S := by
        simp only [normWeight] at hf hleft
        have h1 : st.left_weight + 2 ^ 32 - c * 65536 / S
            = (st.left_weight - c * 65536 / S) + 2 ^ 32 := by omega
        rw [h1, Nat.add_mod_right]
        exact Nat.mod_eq_of_lt (by omega)
      rw [this]
      simp
    rw [hstep]
    apply ih (pre ++ [c]) _ _ hsum hlen
    refine ⟨?_, ?_, ?_, ?_, ?_⟩
    · simp only [hset, List.map_append, List.map_cons, List.map_nil, List.length_append,
        List.length_cons, List.length_nil]
    · simp only [List.map_append, List.map_cons, List.map_nil, List.sum_append, List.sum_cons,
        List.sum_nil, add_zero]
      omega
    · simp only [Bool.or_eq_true, decide_eq_true_eq, List.map_append, List.map_cons,
        List.map_nil, List.mem_append, List.mem_singleton, hzero]
      constructor
      · rintro (h | h)
        · exact Or.inl h
        · exact Or.inr h.symm
      · rintro (h | h)
        · exact Or.inl h
        · exact Or.inr h.symm
    · simp only [List.length_append, List.length_cons, List.length_nil]
      split_ifs
      · right; omega
      · rcases hidx with h | h
        · left; exact h
        · right; omega
    · intro w hw
      simp only [List.map_append, List.map_cons, List.map_nil, List.mem_append,
        List.mem_singleton] at hw
      by_cases hcmp : (st.weight_.set pre.length (normWeight S c)).getD st.index_max_weight 0
          < normWeight S c
      · simp only [hcmp, if_true, hget]
        rcases hw with hw | hw
        · have h1 := hmax w hw
          by_cases hi : st.index_max_weight < pre.length
          · rw [hgetlt _ hi] at hcmp; omega
          · have h0 : st.index_max_weight = 0 := by
              rcases hidx with h | h
              · exact h
              · omega
            have hp0 : pre.length = 0 := by omega
            have : pre = [] := List.length_eq_zero.1 hp0
            subst this
            simp at hw
        · omega
      · simp only [hcmp, if_false]
        rcases hw with hw | hw
        · have h1 := hmax w hw
          by_cases hi : st.index_max_weight < pre.length
          · rw [hgetlt _ hi]; exact h1
          · have h0 : st.index_max_weight = 0 := by
              rcases hidx with h | h
              · exact h
              · omega
            have hp0 : pre.length = 0 := by omega
            have : pre = [] := List.length_eq_zero.1 hp0
            subst this
            simp at hw
        · omega

theorem sum_set_add (l : List Nat) : ∀ (i x : Nat), i < l.length →
    (l.set i x).sum + l.getD i 0 = l.sum + x := by
  induction l with
  | nil => intro i x h; simp at h
  | cons a l ih =>
    intro i x h
    cases i with
    | zero => simp; omega
    | succ i =>
      have := ih i x (by simpa using h)
      simp only [List.set_cons_succ, List.sum_cons, List.getD_cons_succ]
      omega

theorem getD_set_self (l : List Nat) (i x : Nat) (h : i < l.length) :
    (l.set i x).getD i 0 = x := by
  rw [List.getD_eq_getElem?_getD, List.getElem?_set_self h]; rfl

theorem getD_set_ne (l : List Nat) (i j x : Nat) (h : i ≠ j) :
    (l.set i x).getD j 0 = l.getD j 0 := by
  rw [List.getD_eq_getElem?_getD, List.getElem?_set_ne h, List.getD_eq_getElem?_getD]

theorem resizeList_self (l : List Nat) : resizeList l l.length = l := by
  simp [resizeList]

theorem resizeList_nil (n : Nat) : resizeList [] n = List.replicate n 0 := by
  simp [resizeList]

theorem getD_le_of_mem_max (l : List Nat) (m : Nat) (h : ∀ w ∈ l, w ≤ m) (k : Nat) :
    l.getD k 0 ≤ m := by
  rw [List.getD_eq_getElem?_getD]
  cases hk : l[k]? with
  | none => simp
  | some w => exact h w (List.mem_iff_getElem?.2 ⟨k, hk⟩)

/-- The state in which the normalisation loop ends on the histogram `counts` of positive
total, started on a zeroed weight vector of size `counts.length + 1`. -/
theorem normLoop_final (counts : List Nat) (hS : 0 < counts.sum) :
    NormInv counts.sum (counts.length + 1) counts
      (normLoop counts.sum counts 0 ⟨List.replicate (counts.length + 1) 0, 65536, false, 0⟩) := by
  have h0 : NormInv counts.sum (counts.length + 1) []
      ⟨List.replicate (counts.length + 1) 0, 65536, false, 0⟩ := by
    refine ⟨by simp, by simp, by simp, Or.inl rfl, by simp⟩
  have := normLoop_inv counts.sum (counts.length + 1) hS counts [] _ h0 (by simp) (by simp)
  simpa using this

/-- What `normalize` computes on a fresh statistic table holding the histogram `counts`
of positive total, in terms of the final state `st` of the normalisation loop. -/
theorem normalize_eq (stats : CategoricalStats) (hw : stats.weight_ = [])
    (hS : 0 < stats.count_.sum) :
    ∃ st, NormInv stats.count_.sum (stats.count_.length + 1) stats.count_ st ∧
      stats.normalize stats.count_.length =
        if st.zero_weight_exist then
          { stats with
            count_ := [],
            weight_ := (if st.left_weight = 0 then
                st.weight_.set st.index_max_weight
                  ((st.weight_.getD st.index_max_weight 0 + 2 ^ 32 - 1) % 2 ^ 32)
              else st.weight_).set
                ((if st.left_weight = 0 then
                  st.weight_.set st.index_max_weight
                    ((st.weight_.getD st.index_max_weight 0 + 2 ^ 32 - 1) % 2 ^ 32)
                else st.weight_).length - 1)
                (if st.left_weight = 0 then 1 else st.left_weight),
            rare_branch_handler_ := stats.rare_branch_handler_.Init
              ((if st.left_weight = 0 then
                st.weight_.set st.index_max_weight
                  ((st.weight_.getD st.index_max_weight 0 + 2 ^ 32 - 1) % 2 ^ 32)
              else st.weight_).set
                ((if st.left_weight = 0 then
                  st.weight_.set st.index_max_weight
                    ((st.weight_.getD st.index_max_weight 0 + 2 ^ 32 - 1) % 2 ^ 32)
                else st.weight_).length - 1)
                (if st.left_weight = 0 then 1 else st.left_weight)) }
        else
          { stats with
            count_ := [],
            weight_ := st.weight_.set st.index_max_weight
              ((st.weight_.getD st.index_max_weight 0 + st.left_weight) % 2 ^ 32) } := by
  refine ⟨_, normLoop_final stats.count_ hS, ?_⟩
  unfold CategoricalStats.normalize
  simp only [resizeList_self, hw, resizeList_nil, if_neg (show ¬ stats.count_.sum = 0 by omega)]

theorem getD_mem (l : List Nat) (k : Nat) (h : k < l.length) : l.getD k 0 ∈ l := by
  rw [List.getD_eq_getElem?_getD, List.getElem?_eq_getElem h]
  exact List.getElem_mem h

theorem le_sum_of_mem (l : List Nat) (w : Nat) (h : w ∈ l) : w ≤ l.sum := by
  induction l with
  | nil => simp at h
  | cons a l ih =>
    rcases List.mem_cons.1 h with rfl | h
    · simp
    · have := ih h; simp only [List.sum_cons]; omega

theorem exists_pos_of_sum_pos (l : List Nat) (h : 0 < l.sum) : ∃ w ∈ l, 0 < w := by
  induction l with
  | nil => simp at h
  | cons a l ih =>
    by_cases ha : 0 < a
    · exact ⟨a, List.mem_cons_self _ _, ha⟩
    · simp only [List.sum_cons] at h
      obtain ⟨w, hw, hpos⟩ := ih (by omega)
      exact ⟨w, List.mem_cons_of_mem _ hw, hpos⟩

/-- The weight vector left by `normalize` on a fresh statistic table: it has one entry
per outcome and one for the escape, it sums to 65536, and when some outcome has weight 0
the rare-branch handler was initialised from it and the escape weight is positive. -/
theorem normalize_props (stats : CategoricalStats) (hw : stats.weight_ = [])
    (hS : 0 < stats.count_.sum) :
    (stats.normalize stats.count_.length).weight_.length = stats.count_.length + 1 ∧
    (stats.normalize stats.count_.length).weight_.sum = 65536 ∧
    (stats.normalize stats.count_.length).coding_params_ = stats.coding_params_ ∧
    ((∃ v, v < stats.count_.length ∧
        (stats.normalize stats.count_.length).weight_.getD v 0 = 0) →
      (stats.normalize stats.count_.length).rare_branch_handler_ =
        stats.rare_branch_handler_.Init (stats.normalize stats.count_.length).weight_ ∧
      1 ≤ (stats.normalize stats.count_.length).weight_.getD stats.count_.length 0) := by
  obtain ⟨st, ⟨hweq, hleft, hzero, hidx, hmax⟩, heq⟩ := normalize_eq stats hw hS
  rw [heq]
  set M := stats.count_.map (normWeight stats.count_.sum) with hM
  have hMlen : M.length = stats.count_.length := by simp [hM]
  have hn : 0 < stats.count_.length := by
    cases hc : stats.count_ with
    | nil => rw [hc] at hS; simp at hS
    | cons a l => simp
  have hrep : List.replicate (stats.count_.length + 1 - stats.count_.length) 0 = [0] := by
    rw [show stats.count_.length + 1 - stats.count_.length = 1 by omega]; rfl
  rw [hrep] at hweq
  have hW0len : st.weight_.length = stats.count_.length + 1 := by simp [hweq, hMlen]
  have hW0sum : st.weight_.sum = M.sum := by simp [hweq]
  have hi : st.index_max_weight < stats.count_.length := by omega
  have hW0get : ∀ k, k < stats.count_.length → st.weight_.getD k 0 = M.getD k 0 := by
    intro k hk
    rw [hweq, List.getD_append _ _ _ _ (by omega)]
  have hW0n : st.weight_.getD stats.count_.length 0 = 0 := by
    rw [hweq, List.getD_append_right _ _ _ _ (by omega)]
    simp [hMlen]
  have hmaxle : st.weight_.getD st.index_max_weight 0 ≤ M.sum := by
    rw [hW0get _ hi]
    exact le_sum_of_mem _ _ (getD_mem M _ (by omega))
  by_cases hz : st.zero_weight_exist = true
  · rw [if_pos hz]
    by_cases hl : st.left_weight = 0
    · simp only [hl, if_true]
      have hMs : M.sum = 65536 := by omega
      obtain ⟨w, hwM, hwpos⟩ := exists_pos_of_sum_pos M (by omega)
      have hge1 : 1 ≤ st.weight_.getD st.index_max_weight 0 := by
        have := hmax w hwM; omega
      have hmod : (st.weight_.getD st.index_max_weight 0 + 2 ^ 32 - 1) % 2 ^ 32
          = st.weight_.getD st.index_max_weight 0 - 1 := by
        have h1 : st.weight_.getD st.index_max_weight 0 + 2 ^ 32 - 1
            = (st.weight_.getD st.index_max_weight 0 - 1) + 2 ^ 32 := by omega
        rw [h1, Nat.add_mod_right]
        exact Nat.mod_eq_of_lt (by omega)
      rw [hmod]
      set W1 := st.weight_.set st.index_max_weight (st.weight_.getD st.index_max_weight 0 - 1)
        with hW1
      have hW1len : W1.length = stats.count_.length + 1 := by simp [hW1, hW0len]
      have hW1sum : W1.sum + 1 = 65536 := by
        have := sum_set_add st.weight_ st.index_max_weight
          (st.weight_.getD st.index_max_weight 0 - 1) (by omega)
        rw [← hW1] at this
        omega
      have hW1n : W1.getD stats.count_.length 0 = 0 := by
        rw [hW1, getD_set_ne _ _ _ _ (by omega)]; exact hW0n
      rw [hW1len, show stats.count_.length + 1 - 1 = stats.count_.length by omega]
      refine ⟨by simp [hW1len], ?_, by first | rfl | trivial, ?_⟩
      · have := sum_set_add W1 stats.count_.length 1 (by omega)
        simp only at this ⊢
        omega
      · intro _
        refine ⟨by first | rfl | trivial, ?_⟩
        rw [getD_set_self _ _ _ (by omega)]
    · simp only [hl, if_false]
      rw [hW0len, show stats.count_.length + 1 - 1 = stats.count_.length by omega]
      refine ⟨by simp [hW0len], ?_, by first | rfl | trivial, ?_⟩
      · have := sum_set_add st.weight_ stats.count_.length st.left_weight (by omega)
        simp only at this ⊢
        omega
      · intro _
        refine ⟨by first | rfl | trivial, ?_⟩
        rw [getD_set_self _ _ _ (by omega)]
        omega
  · rw [if_neg hz]
    have hmod : (st.weight_.getD st.index_max_weight 0 + st.left_weight) % 2 ^ 32
        = st.weight_.getD st.index_max_weight 0 + st.left_weight :=
      Nat.mod_eq_of_lt (by omega)
    rw [hmod]
    refine ⟨by simp [hW0len], ?_, rfl, ?_⟩
    · have := sum_set_add st.weight_ st.index_max_weight
        (st.weight_.getD st.index_max_weight 0 + st.left_weight) (by omega)
      simp only at this ⊢
      omega
    · rintro ⟨v, hv, hv0⟩
      exfalso
      simp only at hv0
      have hnz : ¬ (0 ∈ M) := fun h => hz (hzero.2 h)
      by_cases hvi : st.index_max_weight = v
      · subst hvi
        rw [getD_set_self _ _ _ (by omega)] at hv0
        have : st.weight_.getD st.index_max_weight 0 = 0 := by omega
        rw [hW0get _ hi] at this
        exact hnz (this ▸ getD_mem M _ (by omega))
      · rw [getD_set_ne _ _ _ _ hvi, hW0get _ hv] at hv0
        exact hnz (hv0 ▸ getD_mem M _ (by omega))

/-! ## The rare-branch maps (`ZeroBranchHandler::Init`) -/

theorem countZeroLoop_cons (w : Nat) (ws : List Nat) (m : Nat) :
    countZeroLoop (w :: ws) m =
      if w = 0 then countZeroLoop ws (m + 1) else countZeroLoop ws m := rfl

theorem countZeroLoop_add (l : List Nat) : ∀ m, countZeroLoop l m = m + countZeroLoop l 0 := by
  induction l with
  | nil => intro m; simp [countZeroLoop]
  | cons w l ih =>
    intro m
    unfold countZeroLoop
    split_ifs
    · rw [ih (m + 1), ih (0 + 1)]; omega
    · rw [ih m]

theorem countZeroLoop_le_length (l : List Nat) : countZeroLoop l 0 ≤ l.length := by
  induction l with
  | nil => simp [countZeroLoop]
  | cons w l ih =>
    unfold countZeroLoop
    split_ifs
    · rw [countZeroLoop_add]; simp only [List.length_cons]; omega
    · simp only [List.length_cons]; omega

theorem countZeroLoop_lt_length (l : List Nat) (h : 0 < l.sum) :
    countZeroLoop l 0 < l.length := by
  induction l with
  | nil => simp at h
  | cons w l ih =>
    unfold countZeroLoop
    split_ifs with hw
    · subst hw
      simp only [List.sum_cons, zero_add] at h
      rw [countZeroLoop_add]; simp only [List.length_cons]
      have := ih h; omega
    · have := countZeroLoop_le_length l
      simp only [List.length_cons]; omega

theorem lookup_filter_ne (m : List (Nat × Nat)) (v i : Nat) (h : v ≠ i) :
    List.lookup v (m.filter (fun p => p.1 ≠ i)) = List.lookup v m := by
  induction m with
  | nil => rfl
  | cons p m ih =>
    obtain ⟨a, b⟩ := p
    by_cases ha : a = i
    · subst ha
      have hva : (v == a) = false := by simpa using h
      rw [List.filter_cons_of_neg (by simp), List.lookup_cons, hva]
      exact ih
    · rw [List.filter_cons_of_pos (by simpa using ha), List.lookup_cons, List.lookup_cons, ih]

theorem filter_ne_of_keys_lt (m : List (Nat × Nat)) (i : Nat) (h : ∀ p ∈ m, p.1 < i) :
    m.filter (fun p => p.1 ≠ i) = m := by
  rw [List.filter_eq_self]
  intro p hp
  have := h p hp
  simp; omega

theorem lookup_none_of_keys_lt (m : List (Nat × Nat)) (i : Nat) (h : ∀ p ∈ m, p.1 < i) :
    List.lookup i m = none := by
  induction m with
  | nil => rfl
  | cons p m ih =>
    obtain ⟨a, b⟩ := p
    have ha := h (a, b) (List.mem_cons_self _ _)
    have hia : (i == a) = false := by simp; omega
    simp only [List.lookup_cons, hia]
    exact ih (fun q hq => h q (List.mem_cons_of_mem _ hq))

theorem lookup_some_key_lt (m : List (Nat × Nat)) (i v k : Nat) (h : ∀ p ∈ m, p.1 < i)
    (hl : List.lookup v m = some k) : v < i := by
  induction m with
  | nil => simp at hl
  | cons p m ih =>
    obtain ⟨a, b⟩ := p
    have ha := h (a, b) (List.mem_cons_self _ _)
    by_cases hva : v = a
    · subst hva; exact ha
    · have : (v == a) = false := by simpa using hva
      simp only [List.lookup_cons, this] at hl
      exact ih (fun q hq => h q (List.mem_cons_of_mem _ hq)) hl

theorem mapInsert_keys (m : List (Nat × Nat)) (i idx : Nat) (h : ∀ p ∈ m, p.1 < i) :
    (∀ p ∈ mapInsert m i idx, p.1 < i + 1) ∧ (mapInsert m i idx).length = m.length + 1 ∧
    List.lookup i (mapInsert m i idx) = some idx ∧
    ∀ v k, List.lookup v m = some k → List.lookup v (mapInsert m i idx) = some k := by
  unfold mapInsert
  rw [filter_ne_of_keys_lt m i h]
  refine ⟨?_, by simp, ?_, ?_⟩
  · intro p hp
    rcases List.mem_append.1 hp with hp | hp
    · have := h p hp; omega
    · rw [List.mem_singleton.1 hp]; simp
  · rw [List.lookup_append, lookup_none_of_keys_lt m i h]
    simp [List.lookup_cons]
  · intro v k hv
    rw [List.lookup_append, hv]; rfl

theorem zeroMapLoop_fields (rest : List Nat) : ∀ (i : Nat) (h : ZeroBranchHandler),
    (zeroMapLoop rest i h).idx2branch_.length = h.idx2branch_.length ∧
    (zeroMapLoop rest i h).weight_ = h.weight_ ∧
    (zeroMapLoop rest i h).map_size_ = h.map_size_ := by
  induction rest with
  | nil => intro i h; simp [zeroMapLoop]
  | cons w ws ih =>
    intro i h
    unfold zeroMapLoop
    split_ifs
    · obtain ⟨h1, h2, h3⟩ := ih (i + 1)
        { h with idx2branch_ := h.idx2branch_.set h.branch2idx_.length i,
                 branch2idx_ := mapInsert h.branch2idx_ i h.branch2idx_.length }
      exact ⟨by rw [h1]; simp, h2, h3⟩
    · exact ih (i + 1) h

theorem zeroMapLoop_preserves (rest : List Nat) : ∀ (i : Nat) (h : ZeroBranchHandler) (v k : Nat),
    (∀ p ∈ h.branch2idx_, p.1 < i) → List.lookup v h.branch2idx_ = some k →
    h.idx2branch_[k]? = some v → k < h.branch2idx_.length →
    List.lookup v (zeroMapLoop rest i h).branch2idx_ = some k ∧
    (zeroMapLoop rest i h).idx2branch_[k]? = some v := by
  induction rest with
  | nil => intro i h v k _ h1 h2 _; exact ⟨h1, h2⟩
  | cons w ws ih =>
    intro i h v k hkeys hl hi hk
    unfold zeroMapLoop
    split_ifs
    · obtain ⟨m1, m2, _, m4⟩ := mapInsert_keys h.branch2idx_ i h.branch2idx_.length hkeys
      apply ih (i + 1) _ v k m1 (m4 v k hl)
      · simp only
        rw [List.getElem?_set_ne (by omega)]
        exact hi
      · simp only; omega
    · exact ih (i + 1) h v k (fun p hp => by have := hkeys p hp; omega) hl hi hk

theorem zeroMapLoop_main (rest : List Nat) : ∀ (i : Nat) (h : ZeroBranchHandler) (v : Nat),
    (∀ p ∈ h.branch2idx_, p.1 < i) →
    h.branch2idx_.length + countZeroLoop rest 0 ≤ h.idx2branch_.length →
    i ≤ v → rest[v - i]? = some 0 →
    ∃ k, List.lookup v (zeroMapLoop rest i h).branch2idx_ = some k ∧
      (zeroMapLoop rest i h).idx2branch_[k]? = some v := by
  induction rest with
  | nil => intro i h v _ _ _ hv; simp at hv
  | cons w ws ih =>
    intro i h v hkeys hlen hiv hv
    have hcz : countZeroLoop (w :: ws) 0 =
        (if w = 0 then 1 else 0) + countZeroLoop ws 0 := by
      rw [countZeroLoop_cons]
      split_ifs
      · rw [countZeroLoop_add]
      · simp
    rw [hcz] at hlen
    rcases Nat.eq_or_lt_of_le hiv with heq | hlt
    · subst heq
      simp only [Nat.sub_self, List.getElem?_cons_zero, Option.some.injEq] at hv
      subst hv
      simp only [if_true] at hlen
      obtain ⟨m1, m2, m3, _⟩ := mapInsert_keys h.branch2idx_ i h.branch2idx_.length hkeys
      refine ⟨h.branch2idx_.length, ?_⟩
      unfold zeroMapLoop
      rw [if_pos rfl]
      apply zeroMapLoop_preserves ws (i + 1) _ i h.branch2idx_.length m1 m3
      · simp only
        rw [List.getElem?_set_self (by omega)]
      · simp only; omega
    · have hv' : ws[v - (i + 1)]? = some 0 := by
        rw [show v - i = (v - (i + 1)) + 1 by omega] at hv
        simpa using hv
      unfold zeroMapLoop
      split_ifs with hw
      · obtain ⟨m1, m2, _, _⟩ := mapInsert_keys h.branch2idx_ i h.branch2idx_.length hkeys
        simp only [hw, if_true] at hlen
        apply ih (i + 1) _ v m1 _ (by omega) hv'
        simp only [List.length_set]
        omega
      · simp only [hw, if_false] at hlen
        exact ih (i + 1) h v (fun p hp => by have := hkeys p hp; omega) (by omega) (by omega) hv'

/-- `ZeroBranchHandler::Init` on a fresh handler: every outcome `v` of weight 0 gets an
index `k` below the number of zero weights, found again by `idx2branch_`. -/
theorem ZeroBranchHandler_Init_spec (weights : List Nat) (v : Nat)
    (hv : weights[v]? = some 0) :
    ((⟨[], [], 0, 0⟩ : ZeroBranchHandler).Init weights).weight_
        = 65536 / countZeroLoop weights 0 ∧
    ∃ k, List.lookup v ((⟨[], [], 0, 0⟩ : ZeroBranchHandler).Init weights).branch2idx_ = some k ∧
      ((⟨[], [], 0, 0⟩ : ZeroBranchHandler).Init weights).idx2branch_[k]? = some v ∧
      k < countZeroLoop weights 0 := by
  unfold ZeroBranchHandler.Init
  simp only [resizeList_nil]
  obtain ⟨f1, f2, _⟩ := zeroMapLoop_fields weights 0
    { idx2branch_ := List.replicate (countZeroLoop weights 0) 0, branch2idx_ := [],
      map_size_ := countZeroLoop weights 0, weight_ := 65536 / countZeroLoop weights 0 }
  refine ⟨f2, ?_⟩
  obtain ⟨k, hk1, hk2⟩ := zeroMapLoop_main weights 0
    { idx2branch_ := List.replicate (countZeroLoop weights 0) 0, branch2idx_ := [],
      map_size_ := countZeroLoop weights 0, weight_ := 65536 / countZeroLoop weights 0 }
    v (by simp) (by simp) (Nat.zero_le _) (by simpa using hv)
  refine ⟨k, hk1, hk2, ?_⟩
  have := (List.getElem?_eq_some.1 hk2).1
  rw [f1] at this
  simpa using this

/-! ## Feeding a categorical model -/

theorem resizeList_sum (l : List Nat) (n : Nat) (h : l.length ≤ n) :
    (resizeList l n).sum = l.sum ∧ (resizeList l n).length = n := by
  unfold resizeList
  rw [List.take_of_length_le h]
  simp
  omega

theorem FeedAttrs_inv (m : TableCategorical) (value count : Nat) (h : FeedInv m) :
    FeedInv (m.FeedAttrs value count) ∧
    (m.FeedAttrs value count).stats.count_.sum = m.stats.count_.sum + count := by
  obtain ⟨h1, h2, h3, h4⟩ := h
  unfold TableCategorical.FeedAttrs
  by_cases hle : m.stats.count_.length ≤ value
  · obtain ⟨r1, r2⟩ := resizeList_sum m.stats.count_ (value + 1) (by omega)
    simp only [hle, if_true]
    refine ⟨⟨h1, h2, h3, ?_⟩, ?_⟩
    · simp only [List.length_set, r2]
      rw [if_pos (by omega)]
    · have := sum_set_add (resizeList m.stats.count_ (value + 1)) value
        ((resizeList m.stats.count_ (value + 1)).getD value 0 + count) (by omega)
      simp only at this ⊢
      omega
  · simp only [hle, if_false]
    refine ⟨⟨h1, h2, h3, ?_⟩, ?_⟩
    · simp only [List.length_set]
      rw [if_neg (by omega)]
      exact h4
    · have := sum_set_add m.stats.count_ value (m.stats.count_.getD value 0 + count) (by omega)
      simp only at this ⊢
      omega

theorem foldl_FeedAttrs_inv (feeds : List (Nat × Nat)) : ∀ (m : TableCategorical), FeedInv m →
    FeedInv (feeds.foldl (fun m p => m.FeedAttrs p.1 p.2) m) ∧
    (feeds.foldl (fun m p => m.FeedAttrs p.1 p.2) m).stats.count_.sum
      = m.stats.count_.sum + (feeds.map Prod.snd).sum := by
  induction feeds with
  | nil => intro m h; exact ⟨h, by simp⟩
  | cons p ps ih =>
    intro m h
    obtain ⟨f1, f2⟩ := FeedAttrs_inv m p.1 p.2 h
    obtain ⟨g1, g2⟩ := ih _ f1
    refine ⟨g1, ?_⟩
    simp only [List.foldl_cons, List.map_cons, List.sum_cons, g2, f2]
    omega

theorem feedAll_inv (feeds : List (Nat × Nat)) :
    FeedInv (feedAll feeds) ∧ (feedAll feeds).stats.count_.sum = (feeds.map Prod.snd).sum := by
  have := foldl_FeedAttrs_inv feeds TableCategorical.fresh ⟨rfl, rfl, rfl, rfl⟩
  refine ⟨this.1, ?_⟩
  rw [feedAll, this.2]
  simp [TableCategorical.fresh, CategoricalStats.fresh]

/-! ## Categorical round trip -/

theorem TableOK.branchOK {weights : List Nat} {t : DelayedCodingParams}
    {slots : List ((Int × Nat) × (Int × Nat))} (hok : TableOK weights t slots)
    (j w : Nat) (hw : weights[j]? = some w) (hpos : 0 < w) :
    ∃ b, t.branches_[j]? = some b ∧ BranchOK b ∧ b.total_weights_ = w ∧
      ∀ n, n < w → tableLookup t (GetEmbeddedBytes b.segments_ n) = some ⟨j, w, n⟩ := by
  have hbr : t.branches_[j]? = some ⟨segsFor j (partsOf slots) 0 [], w⟩ := by
    rw [hok.branches j, hw]; rfl
  have hw16 : (w : Int) ≤ 65536 := by
    have := hok.bsum_eq j
    rw [List.getD_eq_getElem?_getD, hw] at this
    simp only [Option.getD_some] at this
    rw [← this, ← hok.wsum_parts]
    exact bsum_le_wsum j _ hok.parts_nonneg
  refine ⟨_, hbr, ⟨hpos, by simp only; omega, ?_⟩, rfl, ?_⟩
  · intro n hn
    exact (hok.inversion j w n hw hn).1
  · intro n hn
    exact (hok.inversion j w n hw hn).2

theorem DecInv_nil_words (den : Nat) (virt : Bool) (d : Decoder) (words rest : List Nat)
    (h : DecInv den virt (encodeFrom [] den virt) d words rest) : words = rest := by
  have := h.words_eq
  simpa [encodeFrom] using this

/-- A value of positive weight is coded by its own branch and decoded from it. -/
theorem Decompress_direct (stats : CategoricalStats) (weights : List Nat)
    (slots : List ((Int × Nat) × (Int × Nat)))
    (hok : TableOK weights stats.coding_params_ slots) (v w : Nat)
    (hlen : v + 1 < weights.length) (hw : weights[v]? = some w) (hpos : 0 < w)
    (hcap : weights.length < 2 ^ 64) (d0 : Decoder) (rest : List Nat) :
    ∃ bs d, CategoricalSquID.GetProbIntervals stats v = some bs ∧
      CategoricalSquID.Decompress stats d0.InitProbInterval (DelayedCoding bs ++ rest)
        = some (v, d, rest) := by
  obtain ⟨b, hb, hbok, hbw, hlook⟩ := hok.branchOK v w hw hpos
  have hbs : ∀ x ∈ [b], BranchOK x := by
    intro x hx; rw [List.mem_singleton.1 hx]; exact hbok
  obtain ⟨d1, words1, hread, hdata, hinv⟩ := DecInv_step b [] 1 false _ _ rest hbs
    (DecInv_init [b] hbs d0 rest)
  have hwords := DecInv_nil_words _ _ _ _ _ hinv
  rw [hbw] at hdata hread hinv
  have hgp : CategoricalSquID.GetProbIntervals stats v = some [b] := by
    unfold CategoricalSquID.GetProbIntervals
    simp only [hb, Option.bind_eq_bind, Option.some_bind]
    rw [if_pos (by omega)]
  have hne : ¬ v = toU64 ((stats.coding_params_.branches_.length : Int) - 1) := by
    rw [hok.branches_len, toU64_of_bounds _ (by omega) (by
      have : ((weights.length : Nat) : Int) < 2 ^ 64 := by exact_mod_cast hcap
      omega)]
    omega
  refine ⟨[b], d1.Update w ((encodeFrom [] (nextDen 1 w) (nextVirt 1 w)).1 % w), hgp, ?_⟩
  unfold CategoricalSquID.Decompress decodePick
  simp only [hread, Option.bind_eq_bind, Option.some_bind, hlook _ hdata]
  rw [if_neg hne, hwords]

theorem GetSimpleBranch_ok (m k : Nat) (hm1 : 1 ≤ m) (hm2 : m ≤ 65536) (hk : k < m) :
    ∃ b, GetSimpleBranch (65536 / m) k = some b ∧ BranchOK b ∧
      b.total_weights_ = 65536 / m ∧ 0 < 65536 / m ∧
      ∀ n, n < 65536 / m → GetEmbeddedBytes b.segments_ n = k * (65536 / m) + n := by
  have hwt : 0 < 65536 / m := Nat.div_pos hm2 hm1
  have hmul : m * (65536 / m) ≤ 65536 := Nat.mul_div_le 65536 m
  have hk1 : (k + 1) * (65536 / m) ≤ 65536 := by
    have : (k + 1) * (65536 / m) ≤ m * (65536 / m) := Nat.mul_le_mul_right _ (by omega)
    omega
  have hkm : k < 65536 / (65536 / m) := by
    rw [Nat.lt_iff_add_one_le, Nat.le_div_iff_mul_le hwt]; exact hk1
  have hemb : ∀ n, n < 65536 / m →
      GetEmbeddedBytes [⟨((k * (65536 / m) : Nat) : Int), (((k + 1) * (65536 / m) : Nat) : Int)⟩] n
        = k * (65536 / m) + n := by
    intro n hn
    have hk1' : (((k + 1) * (65536 / m) : Nat) : Int) =
        ((k * (65536 / m) : Nat) : Int) + ((65536 / m : Nat) : Int) := by
      push_cast; ring
    rw [GetEmbeddedBytes_single _ _ (by positivity) (by rw [hk1']; omega)
      (by exact_mod_cast hk1) n (by rw [hk1']; omega)]
    omega
  refine ⟨⟨[⟨((k * (65536 / m) : Nat) : Int), (((k + 1) * (65536 / m) : Nat) : Int)⟩],
    65536 / m⟩, ?_, ⟨hwt, Nat.div_le_self _ _, ?_⟩, rfl, hwt, hemb⟩
  · unfold GetSimpleBranch
    rw [if_neg (by omega), if_pos hkm]
  · intro n hn
    simp only at hn ⊢
    rw [hemb n hn]
    rw [Nat.add_mul, Nat.one_mul] at hk1
    omega

/-- A value of weight 0 is coded by the escape branch followed by its rare branch, and
decoded from them. -/
theorem Decompress_escape (stats : CategoricalStats) (weights : List Nat)
    (slots : List ((Int × Nat) × (Int × Nat)))
    (hok : TableOK weights stats.coding_params_ slots) (v n e : Nat)
    (hlen : weights.length = n + 1) (hv : v < n) (hw : weights[v]? = some 0)
    (he : weights[n]? = some e) (hpos : 0 < e)
    (hh : stats.rare_branch_handler_ = (⟨[], [], 0, 0⟩ : ZeroBranchHandler).Init weights)
    (hm : countZeroLoop weights 0 ≤ 65536) (hcap : n ≤ 65536) (d0 : Decoder)
    (rest : List Nat) :
    ∃ bs d, CategoricalSquID.GetProbIntervals stats v = some bs ∧
      CategoricalSquID.Decompress stats d0.InitProbInterval (DelayedCoding bs ++ rest)
        = some (v, d, rest) := by
  obtain ⟨hwt, k, hk1, hk2, hk3⟩ := ZeroBranchHandler_Init_spec weights v hw
  rw [← hh] at hwt hk1 hk2
  obtain ⟨sb, hsb, hsbok, hsbw, hwtpos, hsbemb⟩ :=
    GetSimpleBranch_ok (countZeroLoop weights 0) k (by omega) hm hk3
  rw [← hwt] at hsb hsbw hwtpos hsbemb
  obtain ⟨b, hb, hbok, hbw, hlook⟩ := hok.branchOK n e he hpos
  have hbv : stats.coding_params_.branches_[v]? = some ⟨segsFor v (partsOf slots) 0 [], 0⟩ := by
    rw [hok.branches v, hw]; rfl
  have hgp : CategoricalSquID.GetProbIntervals stats v = some [b, sb] := by
    unfold CategoricalSquID.GetProbIntervals
    simp only [hbv, Option.bind_eq_bind, Option.some_bind, ne_eq, not_true_eq_false, if_false,
      hok.branches_len, hlen, Nat.add_sub_cancel, hb, hk1, Option.getD_some, hsb]
  have hbs : ∀ x ∈ [b, sb], BranchOK x := by
    intro x hx
    simp only [List.mem_cons, List.mem_singleton, List.mem_nil_iff, or_false] at hx
    rcases hx with rfl | rfl
    · exact hbok
    · exact hsbok
  have hbs2 : ∀ x ∈ [sb], BranchOK x := by
    intro x hx; rw [List.mem_singleton.1 hx]; exact hsbok
  obtain ⟨d1, words1, hread1, hdata1, hinv1⟩ := DecInv_step b [sb] 1 false _ _ rest hbs
    (DecInv_init [b, sb] hbs d0 rest)
  rw [hbw] at hread1 hdata1 hinv1
  generalize (encodeFrom [sb] (nextDen 1 e) (nextVirt 1 e)).1 % e = data1 at hread1 hdata1 hinv1
  obtain ⟨d2, words2, hread2, hdata2, hinv2⟩ := DecInv_step sb [] _ _ _ _ rest hbs2 hinv1
  have hwords := DecInv_nil_words _ _ _ _ _ hinv2
  rw [hsbw] at hread2 hdata2
  generalize (encodeFrom [] (nextDen (nextDen 1 e) stats.rare_branch_handler_.weight_)
      (nextVirt (nextDen 1 e) stats.rare_branch_handler_.weight_)).1
        % stats.rare_branch_handler_.weight_ = data2 at hread2 hdata2
  have hn64 : toU64 ((stats.coding_params_.branches_.length : Int) - 1) = n := by
    rw [hok.branches_len, hlen, toU64_of_bounds _ (by push_cast; omega) (by push_cast; omega)]
    push_cast; omega
  have hbyte2 : GetEmbeddedBytes sb.segments_ data2
      = k * stats.rare_branch_handler_.weight_ + data2 := hsbemb data2 hdata2
  have hdiv : (k * stats.rare_branch_handler_.weight_ + data2)
      / stats.rare_branch_handler_.weight_ = k := by
    rw [Nat.mul_comm, Nat.mul_add_div hwtpos, Nat.div_eq_of_lt hdata2]
    rfl
  have hnum : toU32 (((k * stats.rare_branch_handler_.weight_ + data2 : Nat) : Int)
      - ((k : Nat) : Int) * ((stats.rare_branch_handler_.weight_ : Nat) : Int)) = data2 := by
    have hle := hsbok.le
    rw [hsbw] at hle
    rw [toU32_of_bounds _ (by push_cast; omega) (by push_cast; omega)]
    push_cast; omega
  refine ⟨[b, sb], d2.Update stats.rare_branch_handler_.weight_ data2, hgp, ?_⟩
  unfold CategoricalSquID.Decompress decodePick
  simp only [hread1, Option.bind_eq_bind, Option.some_bind, hlook _ hdata1]
  rw [if_pos hn64.symm]
  simp only [hread2, Option.some_bind]
  rw [if_neg (by omega), hbyte2, hdiv]
  simp only [hk2, Option.some_bind]
  rw [hnum, hwords]

theorem getElem?_of_getD (l : List Nat) (k : Nat) (h : k < l.length) :
    l[k]? = some (l.getD k 0) := by
  rw [List.getD_eq_getElem?_getD, List.getElem?_eq_getElem h]; rfl

/-- C2 (amended). Categorical round trip: for every predictor-free `TableCategorical`
fed a non-empty multiset of values (of total count below `2^31`) whose `target_range_` is
at most 65536, `EndOfData` succeeds, and for every value `v < target_range_`, also one of
weight 0 that is coded through the escape branch, `CategoricalSquID::Decompress` applied
to the words that `DelayedCoding` produces from `GetProbIntervals(v)` returns `v` and
leaves exactly the words that follow. -/
theorem CategoricalSquID_round_trip (feeds : List (Nat × Nat))
    (hpos : 0 < (feeds.map Prod.snd).sum) (_hint : (feeds.map Prod.snd).sum < 2 ^ 31)
    (hrange : (feedAll feeds).target_range_ ≤ 65536) (v : Nat)
    (hv : v < (feedAll feeds).target_range_) (d0 : Decoder) (rest : List Nat) :
    ∃ m bs d, (feedAll feeds).EndOfData = some m ∧
      m.target_range_ = (feedAll feeds).target_range_ ∧
      CategoricalSquID.GetProbIntervals m.stats v = some bs ∧
      CategoricalSquID.Decompress m.stats d0.InitProbInterval (DelayedCoding bs ++ rest)
        = some (v, d, rest) := by
  obtain ⟨⟨hw, hpar, hhand, hrng⟩, hsum⟩ := feedAll_inv feeds
  rw [hrng] at hrange hv
  have hS : 0 < (feedAll feeds).stats.count_.sum := by rw [hsum]; exact hpos
  obtain ⟨p1, p2, p3, p4⟩ := normalize_props (feedAll feeds).stats hw hS
  set s1 := (feedAll feeds).stats.normalize (feedAll feeds).stats.count_.length with hs1
  obtain ⟨t, slots, ht, hok⟩ := buildTable_ok s1.weight_ p2
  have hinit : InitDelayedCodingParams s1.weight_ s1.coding_params_ = some t := by
    rw [Init_eq_buildTable _ _ (ne_nil_of_sum _ p2)]; exact ht
  have hend : (feedAll feeds).EndOfData
      = some { feedAll feeds with stats := { s1 with coding_params_ := t } } := by
    have h1 : (feedAll feeds).stats.EndOfData (feedAll feeds).target_range_
        = some { s1 with coding_params_ := t } := by
      rw [hrng]
      unfold CategoricalStats.EndOfData
      simp only [← hs1, hinit]
    unfold TableCategorical.EndOfData
    rw [h1]
  have hvW : s1.weight_[v]? = some (s1.weight_.getD v 0) :=
    getElem?_of_getD _ _ (by omega)
  have hok' : TableOK s1.weight_
      ({ s1 with coding_params_ := t } : CategoricalStats).coding_params_ slots := hok
  by_cases hz : s1.weight_.getD v 0 = 0
  · obtain ⟨q1, q2⟩ := p4 ⟨v, hv, hz⟩
    rw [hz] at hvW
    have hnW : s1.weight_[(feedAll feeds).stats.count_.length]?
        = some (s1.weight_.getD (feedAll feeds).stats.count_.length 0) :=
      getElem?_of_getD _ _ (by omega)
    have hcz := countZeroLoop_lt_length s1.weight_ (by omega)
    obtain ⟨bs, d, h1, h2⟩ := Decompress_escape { s1 with coding_params_ := t } s1.weight_ slots
      hok' v (feedAll feeds).stats.count_.length _ p1 hv hvW hnW (by omega)
      (by simp only; rw [q1, hhand]) (by omega) hrange d0 rest
    exact ⟨_, bs, d, hend, rfl, h1, h2⟩
  · obtain ⟨bs, d, h1, h2⟩ := Decompress_direct { s1 with coding_params_ := t } s1.weight_ slots
      hok' v _ (by omega) hvW (by omega) (by omega) d0 rest
    exact ⟨_, bs, d, hend, rfl, h1, h2⟩

theorem CategoricalSquID_round_trip_witness :
    ∃ m bs d, (feedAll [(0, 1), (2, 1)]).EndOfData = some m ∧
      m.target_range_ = (feedAll [(0, 1), (2, 1)]).target_range_ ∧
      CategoricalSquID.GetProbIntervals m.stats 1 = some bs ∧
      CategoricalSquID.Decompress m.stats (Decoder.InitProbInterval ⟨0, 1, 0, false, 0⟩)
          (DelayedCoding bs ++ [7])
        = some (1, d, [7]) :=
  CategoricalSquID_round_trip [(0, 1), (2, 1)] (by decide) (by decide) (by decide) 1
    (by decide) ⟨0, 1, 0, false, 0⟩ [7]

/-! ## Beyond 65536 outcomes of weight 0 the rare branch cannot be coded -/

theorem getD_replicate_zero (n k : Nat) : (List.replicate n 0).getD k 0 = 0 := by
  rw [List.getD_eq_getElem?_getD, List.getElem?_replicate]
  split_ifs <;> rfl

theorem getD_replicate_append_pair (n a b k : Nat) :
    (List.replicate n 0 ++ [a, b]).getD k 0 =
      if k = n then a else if k = n + 1 then b else 0 := by
  by_cases hk : k < n
  · rw [List.getD_append _ _ _ _ (by simpa using hk), getD_replicate_zero]
    rw [if_neg (by omega), if_neg (by omega)]
  · rw [List.getD_append_right _ _ _ _ (by simpa using Nat.le_of_not_lt hk)]
    simp only [List.length_replicate]
    by_cases h1 : k = n
    · subst h1; simp
    · by_cases h2 : k = n + 1
      · subst h2; simp
      · rw [if_neg h1, if_neg h2]
        rw [List.getD_eq_default]
        simp only [List.length_cons, List.length_nil]
        omega

theorem countZeroLoop_replicate (n : Nat) (l : List Nat) :
    countZeroLoop (List.replicate n 0 ++ l) 0 = n + countZeroLoop l 0 := by
  induction n with
  | zero => simp
  | succ n ih =>
    rw [List.replicate_succ, List.cons_append, countZeroLoop_cons, if_pos rfl,
      countZeroLoop_add, ih]
    omega

theorem feedAll_single (n : Nat) :
    (feedAll [(n, 1)]).stats.count_ = List.replicate n 0 ++ [1] ∧
    (feedAll [(n, 1)]).target_range_ = n + 1 := by
  have h1 : feedAll [(n, 1)] = TableCategorical.fresh.FeedAttrs n 1 := rfl
  rw [h1]
  unfold TableCategorical.FeedAttrs
  simp only [TableCategorical.fresh, CategoricalStats.fresh, List.length_nil, Nat.zero_le,
    if_true, ge_iff_le, resizeList_nil, getD_replicate_zero, zero_add, and_true]
  rw [List.replicate_succ']
  simp

/-- With `n >= 65537` outcomes of weight 0, `ZeroBranchHandler::Init` sets the rare-branch
weight to `65536 / n = 0`, and `GetProbIntervals` of such an outcome asks
`GetSimpleBranch` for a family of weight 0. -/
theorem GetProbIntervals_none_of_large (n : Nat) (hn : 65537 ≤ n) :
    ∃ m, (feedAll [(n, 1)]).EndOfData = some m ∧ m.target_range_ = n + 1 ∧
      m.stats.rare_branch_handler_.weight_ = 0 ∧
      CategoricalSquID.GetProbIntervals m.stats 0 = none := by
  obtain ⟨⟨hw, hpar, hhand, hrng⟩, hsum⟩ := feedAll_inv [(n, 1)]
  obtain ⟨hC, hT⟩ := feedAll_single n
  have hClen : (feedAll [(n, 1)]).stats.count_.length = n + 1 := by simp [hC]
  have hS : (feedAll [(n, 1)]).stats.count_.sum = 1 := by rw [hsum]; rfl
  obtain ⟨p1, p2, p3, p4⟩ := normalize_props (feedAll [(n, 1)]).stats hw (by omega)
  obtain ⟨st, ⟨hweq, hleft, hzero, hidx, hmax⟩, heq⟩ :=
    normalize_eq (feedAll [(n, 1)]).stats hw (by omega)
  rw [hClen] at p1 p2 p3 p4 heq hweq
  rw [hS, hC] at hweq hleft hzero hmax
  have hmap : (List.replicate n 0 ++ [1]).map (normWeight 1) = List.replicate n 0 ++ [65536] := by
    simp [normWeight]
  rw [hmap] at hweq hleft hzero hmax
  have hW0 : st.weight_ = List.replicate n 0 ++ [65536, 0] := by
    rw [hweq, show n + 1 + 1 - (n + 1) = 1 by omega]
    simp
  have hl0 : st.left_weight = 0 := by
    simp at hleft; omega
  have hz : st.zero_weight_exist = true := by
    rw [hzero]
    simp only [List.mem_append, List.mem_replicate]
    left
    simp
    omega
  have himax : st.index_max_weight = n := by
    have := hmax 65536 (by simp)
    rw [hW0, getD_replicate_append_pair] at this
    by_contra hne
    rw [if_neg hne] at this
    split_ifs at this <;> omega
  -- the weight of outcome 0 after normalisation
  set s1 := (feedAll [(n, 1)]).stats.normalize (n + 1) with hs1
  have hs1W : s1.weight_.getD 0 0 = 0 := by
    rw [heq, if_pos hz]
    simp only [hl0, if_true, himax]
    have hlen0 : st.weight_.length = n + 2 := by
      rw [hW0, List.length_append, List.length_replicate]; rfl
    rw [getD_set_ne _ _ _ _ (by rw [List.length_set, hlen0]; omega),
      getD_set_ne _ _ _ _ (by omega), hW0, getD_replicate_append_pair]
    rw [if_neg (by omega), if_neg (by omega)]
  have hzeros : n ≤ countZeroLoop s1.weight_ 0 := by
    rw [heq, if_pos hz]
    simp only [hl0, if_true, himax, hW0]
    have h1 : (List.replicate n 0 ++ [65536, 0]).set n
        (((List.replicate n 0 ++ [65536, 0]).getD n 0 + 2 ^ 32 - 1) % 2 ^ 32)
        = List.replicate n 0 ++ [65535, 0] := by
      rw [getD_replicate_append_pair, if_pos rfl, List.set_append, if_neg (by simp)]
      simp
    rw [h1]
    have h2 : (List.replicate n 0 ++ [65535, 0]).set
        ((List.replicate n 0 ++ [65535, 0]).length - 1) 1
        = List.replicate n 0 ++ [65535, 1] := by
      rw [List.set_append, if_neg (by simp)]
      simp
    rw [h2, countZeroLoop_replicate]
    omega
  obtain ⟨q1, _⟩ := p4 ⟨0, by omega, hs1W⟩
  obtain ⟨t, slots, ht, hok⟩ := buildTable_ok s1.weight_ p2
  have hinit : InitDelayedCodingParams s1.weight_ s1.coding_params_ = some t := by
    rw [Init_eq_buildTable _ _ (ne_nil_of_sum _ p2)]; exact ht
  have hend : (feedAll [(n, 1)]).EndOfData
      = some { feedAll [(n, 1)] with stats := { s1 with coding_params_ := t } } := by
    have h1 : (feedAll [(n, 1)]).stats.EndOfData (feedAll [(n, 1)]).target_range_
        = some { s1 with coding_params_ := t } := by
      rw [hT]
      unfold CategoricalStats.EndOfData
      simp only [← hs1, hinit]
    unfold TableCategorical.EndOfData
    rw [h1]
  have hv0 : s1.weight_[0]? = some 0 := by
    rw [getElem?_of_getD _ _ (by omega), hs1W]
  obtain ⟨hwt, _⟩ := ZeroBranchHandler_Init_spec s1.weight_ 0 hv0
  have hwt0 : s1.rare_branch_handler_.weight_ = 0 := by
    rw [q1, hhand, hwt]
    exact Nat.div_eq_of_lt (by omega)
  refine ⟨_, hend, hT, hwt0, ?_⟩
  have hb0 : t.branches_[0]? = some ⟨segsFor 0 (partsOf slots) 0 [], 0⟩ := by
    rw [hok.branches 0, hv0]; rfl
  have hlast : ∃ b, t.branches_[t.branches_.length - 1]? = some b := by
    have : t.branches_.length - 1 < t.branches_.length := by
      rw [hok.branches_len, p1]; omega
    exact ⟨_, List.getElem?_eq_getElem this⟩
  obtain ⟨b, hb⟩ := hlast
  unfold CategoricalSquID.GetProbIntervals
  simp only [hb0, Option.bind_eq_bind, Option.some_bind, ne_eq, not_true_eq_false, if_false,
    hb, hwt0, GetSimpleBranch, if_true, Option.none_bind]

/-- C2 fails beyond 65536 outcomes: the model fed the single value 65537 is finalised by
`EndOfData` with `target_range_ = 65538`, but the value `0 < target_range_` has weight 0
and its rare branch has weight `65536 / 65537 = 0`, so `GetProbIntervals(0)` produces no
probability interval (a division by zero in `SimpleProbIntervalFamily`). -/
theorem CategoricalSquID_round_trip_counterexample :
    ∃ m, (feedAll [(65537, 1)]).EndOfData = some m ∧ m.target_range_ = 65537 + 1 ∧
      m.stats.rare_branch_handler_.weight_ = 0 ∧
      CategoricalSquID.GetProbIntervals m.stats 0 = none :=
  GetProbIntervals_none_of_large 65537 (le_refl _)

/-! ## Quantization -/

/-- C10 (evaluation of the code): on the counts `[2, 509, 1]` with base 8 the single marking
pass marks only the last count, the proportional share of the first count is
`2 * 255 / 511 = 0`, and `Quantization` returns the boundaries `[0, 255 * 256]`: the first
outcome has a positive count and the induced weight 0, although the weights sum to
`2 ^ 16` base-16 units. -/
theorem Quantization_positive_count_zero_weight :
    Quantization [] [2, 509, 1] 8 = some [0, 255 * 2 ^ 8] ∧
      (0 : Int) < [2, 509, 1].getD 0 0 ∧
      inducedWeight [0, 255 * 2 ^ 8] 3 0 = 0 ∧
      inducedWeight [0, 255 * 2 ^ 8] 3 0 + inducedWeight [0, 255 * 2 ^ 8] 3 1 +
        inducedWeight [0, 255 * 2 ^ 8] 3 2 = 2 ^ 16 := by
  refine ⟨by decide, by decide, by decide, by decide⟩

/-! ## Numerical model: a statistic learned from fewer than `kNumEstSample` values -/

theorem truncToInt_zero : truncToInt 0 = 0 := by
  simp [truncToInt]

theorem QuantizationToFloat32Bit_zero : QuantizationToFloat32Bit 0 = 0 := by
  simp [QuantizationToFloat32Bit, ConvertSinglePrecision.toBytes, ConvertSinglePrecision.ofBytes]

theorem scaleUp_of_ge (fuel : Nat) (val : ℚ) (e : Int) (h : 1 ≤ val) :
    scaleUp fuel val e = (val, e) := by
  cases fuel with
  | zero => rfl
  | succ n => simp [scaleUp, not_lt.2 h]

theorem scaleDown_of_lt (fuel : Nat) (val : ℚ) (e : Int) (h : val < 2) :
    scaleDown fuel val e = (val, e) := by
  cases fuel with
  | zero => rfl
  | succ n => simp [scaleDown, not_le.2 h]

theorem toBytes_one : ConvertSinglePrecision.toBytes 1 = [63, 128, 0, 0] := by
  unfold ConvertSinglePrecision.toBytes
  rw [if_neg (by norm_num), if_neg (by norm_num), if_neg (by norm_num)]
  dsimp only
  rw [scaleUp_of_ge _ _ _ (le_refl _), scaleDown_of_lt _ _ _ (by norm_num)]
  have h : ⌊(1 : ℚ) * 2 ^ 23 + 1 / 2⌋ = 2 ^ 23 := by
    rw [Int.floor_eq_iff]; norm_num
  simp only [h]
  decide

theorem QuantizationToFloat32Bit_one : QuantizationToFloat32Bit 1 = 1 := by
  unfold QuantizationToFloat32Bit
  rw [toBytes_one]
  unfold ConvertSinglePrecision.ofBytes
  simp only [List.getD_cons_zero, List.getD_cons_succ]
  rw [show ((63 &&& 127) * 2 + (128 >>> 7 &&& 1) : Nat) = 127 from by decide,
    show ((128 &&& 127) <<< 16 + 0 <<< 8 + 0 : Nat) = 0 from by decide,
    show (63 &&& 128 : Nat) = 0 from by decide]
  norm_num

theorem toBytes_half : ConvertSinglePrecision.toBytes (1 / 2) = [63, 0, 0, 0] := by
  unfold ConvertSinglePrecision.toBytes
  rw [if_neg (by norm_num), if_neg (by norm_num), if_neg (by norm_num)]
  dsimp only
  rw [show (1100 : Nat) = 1099 + 1 from rfl]
  have hup : scaleUp (1099 + 1) (1 / 2) 127 = (1, 126) := by
    rw [scaleUp, if_pos (by norm_num)]
    rw [scaleUp_of_ge _ _ _ (by norm_num)]
    norm_num
  rw [hup, scaleDown_of_lt _ _ _ (by norm_num)]
  have h : ⌊(1 : ℚ) * 2 ^ 23 + 1 / 2⌋ = 2 ^ 23 := by
    rw [Int.floor_eq_iff]; norm_num
  simp only [h]
  decide

theorem QuantizationToFloat32Bit_half : QuantizationToFloat32Bit (1 / 2) = 1 / 2 := by
  unfold QuantizationToFloat32Bit
  rw [toBytes_half]
  unfold ConvertSinglePrecision.ofBytes
  simp only [List.getD_cons_zero, List.getD_cons_succ]
  rw [show ((63 &&& 127) * 2 + (0 >>> 7 &&& 1) : Nat) = 126 from by decide,
    show ((0 &&& 127) <<< 16 + 0 <<< 8 + 0 : Nat) = 0 from by decide,
    show (63 &&& 128 : Nat) = 0 from by decide]
  norm_num

theorem indexMaxLoop_const (weights : List Nat) : ∀ (ws : List Nat) (i index_max : Nat),
    (∀ w ∈ ws, w ≤ weights.getD index_max 0) →
    indexMaxLoop weights ws i index_max = index_max := by
  intro ws
  induction ws with
  | nil => intro i index_max _; rfl
  | cons w ws ih =>
    intro i index_max h
    have hw := h w (List.mem_cons_self _ _)
    unfold indexMaxLoop
    rw [if_neg (by omega)]
    exact ih _ _ (fun x hx => h x (List.mem_cons_of_mem _ hx))

theorem endWeights_fresh : endWeights (List.replicate kNumBranch 1) 512 = List.replicate 512 128 := by
  have h : ∀ i ∈ List.range kNumBranch,
      branchWeight 512 ((List.replicate kNumBranch 1).getD i 0) = 128 := by
    intro i hi
    rw [List.mem_range] at hi
    rw [List.getD_eq_getElem?_getD, List.getElem?_replicate, if_pos hi]
    decide
  have h0 : ((List.range kNumBranch).map fun i =>
      branchWeight 512 ((List.replicate kNumBranch 1).getD i 0)) = List.replicate 512 128 := by
    rw [List.map_congr_left h, List.map_const', List.length_range]
    rfl
  have hsum : (List.replicate 512 128).sum = 65536 := by
    rw [List.sum_replicate]; rfl
  unfold endWeights
  simp only [h0]
  rw [indexMaxLoop_const _ _ _ _ (by
    intro w hw; rw [List.eq_of_mem_replicate hw]; decide), hsum]
  rfl

/-! ## Rounding to `double` -/

theorem binExp_le (x : ℚ) (hx : 0 < x) : (2 : ℚ) ^ binExp x ≤ x := by
  unfold binExp
  dsimp only
  split
  · -- x < 2 ^ e0
    have hnum : 0 < x.num := Rat.num_pos.2 hx
    have h1 : 2 ^ Nat.log2 x.num.natAbs ≤ x.num.natAbs :=
      Nat.log2_self_le (by omega)
    have h2 : x.den < 2 ^ (Nat.log2 x.den + 1) := Nat.lt_log2_self
    have hxe : x = (x.num.natAbs : ℚ) / (x.den : ℚ) := by
      have : ((x.num.natAbs : Int) : ℚ) = (x.num : ℚ) := by
        rw [Int.natAbs_of_nonneg hnum.le]
      rw [← Int.cast_natCast, this]
      exact (Rat.num_div_den x).symm
    have hden : (0 : ℚ) < x.den := by exact_mod_cast x.den_pos
    refine le_of_le_of_eq ?_ hxe.symm
    rw [le_div_iff₀ hden]
    have h1q : ((2 : ℚ) ^ Nat.log2 x.num.natAbs) ≤ (x.num.natAbs : ℚ) := by exact_mod_cast h1
    have h2q : (x.den : ℚ) ≤ 2 ^ (Nat.log2 x.den + 1) := by exact_mod_cast h2.le
    have hz : (2 : ℚ) ^ ((Nat.log2 x.num.natAbs : Int) - (Nat.log2 x.den : Int) - 1)
        * 2 ^ (Nat.log2 x.den + 1) = 2 ^ Nat.log2 x.num.natAbs := by
      rw [← zpow_natCast (2 : ℚ) (Nat.log2 x.den + 1), ← zpow_add₀ (by norm_num)]
      rw [← zpow_natCast]
      congr 1
      push_cast
      ring
    calc (2 : ℚ) ^ ((Nat.log2 x.num.natAbs : Int) - (Nat.log2 x.den : Int) - 1) * (x.den : ℚ)
        ≤ (2 : ℚ) ^ ((Nat.log2 x.num.natAbs : Int) - (Nat.log2 x.den : Int) - 1)
          * 2 ^ (Nat.log2 x.den + 1) :=
          mul_le_mul_of_nonneg_left h2q (zpow_nonneg (by norm_num) _)
      _ = 2 ^ Nat.log2 x.num.natAbs := hz
      _ ≤ _ := h1q
  · rename_i h
    exact not_lt.1 h

theorem binExp_lt (x : ℚ) (hx : 0 < x) : x < (2 : ℚ) ^ (binExp x + 1) := by
  unfold binExp
  dsimp only
  split
  · rename_i h
    rwa [sub_add_cancel]
  · have hnum : 0 < x.num := Rat.num_pos.2 hx
    have h1 : x.num.natAbs < 2 ^ (Nat.log2 x.num.natAbs + 1) := Nat.lt_log2_self
    have h2 : 2 ^ Nat.log2 x.den ≤ x.den := Nat.log2_self_le x.den_nz
    have hxe : x = (x.num.natAbs : ℚ) / (x.den : ℚ) := by
      have : ((x.num.natAbs : Int) : ℚ) = (x.num : ℚ) := by
        rw [Int.natAbs_of_nonneg hnum.le]
      rw [← Int.cast_natCast, this]
      exact (Rat.num_div_den x).symm
    have hden : (0 : ℚ) < x.den := by exact_mod_cast x.den_pos
    refine lt_of_eq_of_lt hxe ?_
    rw [div_lt_iff₀ hden]
    have h1q : (x.num.natAbs : ℚ) < 2 ^ (Nat.log2 x.num.natAbs + 1) := by exact_mod_cast h1
    have h2q : ((2 : ℚ) ^ Nat.log2 x.den) ≤ (x.den : ℚ) := by exact_mod_cast h2
    have hz : (2 : ℚ) ^ ((Nat.log2 x.num.natAbs : Int) - (Nat.log2 x.den : Int) + 1)
        * 2 ^ (Nat.log2 x.den) = 2 ^ (Nat.log2 x.num.natAbs + 1) := by
      rw [← zpow_natCast (2 : ℚ) (Nat.log2 x.den), ← zpow_add₀ (by norm_num)]
      rw [← zpow_natCast]
      congr 1
      push_cast
      ring
    calc (x.num.natAbs : ℚ) < 2 ^ (Nat.log2 x.num.natAbs + 1) := h1q
      _ = (2 : ℚ) ^ ((Nat.log2 x.num.natAbs : Int) - (Nat.log2 x.den : Int) + 1)
          * 2 ^ (Nat.log2 x.den) := hz.symm
      _ ≤ _ := mul_le_mul_of_nonneg_left h2q (zpow_nonneg (by norm_num) _)

theorem binExp_eq (x : ℚ) (e : Int) (h1 : (2 : ℚ) ^ e ≤ x) (h2 : x < (2 : ℚ) ^ (e + 1)) :
    binExp x = e := by
  have hx : 0 < x := lt_of_lt_of_le (zpow_pos (by norm_num) e) h1
  have a := binExp_le x hx
  have b := binExp_lt x hx
  have c1 : (2 : ℚ) ^ e < 2 ^ (binExp x + 1) := lt_of_le_of_lt h1 b
  have c2 : (2 : ℚ) ^ binExp x < 2 ^ (e + 1) := lt_of_le_of_lt a h2
  have d1 := (zpow_lt_zpow_iff_right₀ (by norm_num : (1 : ℚ) < 2)).1 c1
  have d2 := (zpow_lt_zpow_iff_right₀ (by norm_num : (1 : ℚ) < 2)).1 c2
  omega

theorem roundHalfEven_intCast (n : Int) : roundHalfEven (n : ℚ) = n := by
  unfold roundHalfEven
  rw [Int.floor_intCast, sub_self, if_pos (by norm_num)]

/-- A number with a significand of fewer than 53 bits is a `double`: rounding leaves it. -/
theorem fl_dyadic_pos (m : Nat) (k : Int) (hm : m < 2 ^ 53) :
    fl ((m : ℚ) * 2 ^ k) = (m : ℚ) * 2 ^ k := by
  by_cases h0 : m = 0
  · rw [h0]; simp [fl]
  have hmpos : (0 : ℚ) < (m : ℚ) := by exact_mod_cast Nat.pos_of_ne_zero h0
  have hpos : (0 : ℚ) < (m : ℚ) * 2 ^ k := mul_pos hmpos (zpow_pos (by norm_num) k)
  unfold fl
  rw [if_neg hpos.ne', if_neg (not_lt.2 hpos.le)]
  generalize he : binExp ((m : ℚ) * 2 ^ k) = e
  have hle := binExp_le _ hpos
  rw [he] at hle
  -- 2 ^ e ≤ m * 2 ^ k < 2 ^ (53 + k)
  have hlt : (2 : ℚ) ^ e < 2 ^ (53 + k) := by
    have : (m : ℚ) < 2 ^ (53 : Int) := by
      have h53 : ((m : Nat) : ℚ) < (2 : ℚ) ^ (53 : Nat) := by exact_mod_cast hm
      rwa [← zpow_natCast] at h53
    calc (2 : ℚ) ^ e ≤ (m : ℚ) * 2 ^ k := hle
      _ < 2 ^ (53 : Int) * 2 ^ k := mul_lt_mul_of_pos_right this (zpow_pos (by norm_num) k)
      _ = 2 ^ (53 + k) := by rw [← zpow_add₀ (by norm_num)]
  have hek := (zpow_lt_zpow_iff_right₀ (by norm_num : (1 : ℚ) < 2)).1 hlt
  obtain ⟨j, hj⟩ : ∃ j : Nat, (j : Int) = k + 52 - e := ⟨(k + 52 - e).toNat, by omega⟩
  have hscaled : (m : ℚ) * 2 ^ k * 2 ^ (52 - e) = ((m * 2 ^ j : Nat) : Int) := by
    rw [mul_assoc, ← zpow_add₀ (by norm_num), show k + (52 - e) = (j : Int) from by omega,
      zpow_natCast]
    push_cast
    ring
  rw [hscaled, roundHalfEven_intCast]
  push_cast
  rw [mul_assoc, ← zpow_natCast (2 : ℚ) j, ← zpow_add₀ (by norm_num)]
  congr 2
  omega

theorem fl_neg (x : ℚ) : fl (-x) = -fl x := by
  unfold fl
  by_cases h0 : x = 0
  · rw [h0]; simp
  rcases lt_or_gt_of_ne h0 with h | h
  · have h1 : ¬ (-x = 0) := by simpa using h0
    have h2 : ¬ (-x < 0) := by simp; exact h.le
    rw [if_neg h1, if_neg h2, if_neg h0, if_pos h, neg_neg]
  · have h1 : ¬ (-x = 0) := by simpa using h0
    have h2 : -x < 0 := by simpa using h
    have h3 : ¬ (x < 0) := not_lt.2 h.le
    rw [if_neg h1, if_pos h2, if_neg h0, if_neg h3, neg_neg]

theorem fl_dyadic (m : Int) (k : Int) (hm : |m| < 2 ^ 53) :
    fl ((m : ℚ) * 2 ^ k) = (m : ℚ) * 2 ^ k := by
  rcases le_or_lt 0 m with h | h
  · have : ((m.toNat : Nat) : ℚ) = (m : ℚ) := by
      rw [← Int.cast_natCast, Int.toNat_of_nonneg h]
    rw [← this]
    apply fl_dyadic_pos
    rw [abs_of_nonneg h] at hm
    omega
  · have : ((((-m).toNat : Nat) : ℚ)) = -(m : ℚ) := by
      rw [← Int.cast_natCast, Int.toNat_of_nonneg (by omega)]
      push_cast
      ring
    have h1 : fl (-((m : ℚ) * 2 ^ k)) = -((m : ℚ) * 2 ^ k) := by
      rw [← neg_mul, ← this]
      apply fl_dyadic_pos
      rw [abs_of_neg h] at hm
      omega
    rw [fl_neg] at h1
    exact neg_injective h1

theorem fl_intCast (n : Int) (hn : |n| < 2 ^ 53) : fl (n : ℚ) = n := by
  have := fl_dyadic n 0 hn
  simpa using this

theorem truncToInt_intCast (n : Int) : truncToInt (n : ℚ) = n := by
  unfold truncToInt
  split
  · exact Int.floor_intCast n
  · exact Int.ceil_intCast n

theorem fl_zero : fl 0 = 0 := by
  unfold fl
  rw [if_pos rfl]

/-! ## `p2ge` -/

theorem p2geLoop_spec (val : Nat) (hval : val ≤ 2 ^ 31) :
    ∀ (fuel m : Nat), m ≤ 31 → 33 ≤ m + fuel → (∀ j, j < m → 2 ^ j < val) →
      ∃ r, p2geLoop fuel (2 ^ m) m val = some r ∧ r ≤ 31 ∧ val ≤ 2 ^ r ∧
        ∀ j, j < r → 2 ^ j < val := by
  intro fuel
  induction fuel with
  | zero => intro m h1 h2 _; omega
  | succ fuel ih =>
    intro m h1 h2 h3
    unfold p2geLoop
    by_cases hlt : 2 ^ m < val
    · rw [if_pos hlt]
      have hm : m < 31 := by
        have : 2 ^ m < 2 ^ 31 := lt_of_lt_of_le hlt hval
        exact (Nat.pow_lt_pow_iff_right (by decide)).1 this
      have hx : (2 ^ m * 2) % 2 ^ 32 = 2 ^ (m + 1) := by
        rw [← pow_succ]
        exact Nat.mod_eq_of_lt (Nat.pow_lt_pow_right (by decide) (by omega))
      rw [hx]
      apply ih (m + 1) (by omega) (by omega)
      intro j hj
      rcases Nat.lt_succ_iff_lt_or_eq.1 hj with h | h
      · exact h3 j h
      · rw [h]; exact hlt
    · rw [if_neg hlt]
      exact ⟨m, rfl, h1, not_lt.1 hlt, h3⟩

theorem p2ge_spec (val : Nat) (hval : val ≤ 2 ^ 31) :
    ∃ r, p2ge val = some r ∧ r ≤ 31 ∧ val ≤ 2 ^ r ∧ ∀ j, j < r → 2 ^ j < val := by
  have := p2geLoop_spec val hval 33 0 (by decide) (by decide) (fun j hj => absurd hj (by omega))
  exact this

theorem p2ge_eq (val m : Nat) (hm : m ≤ 31) (h1 : val ≤ 2 ^ m)
    (h2 : m = 0 ∨ 2 ^ (m - 1) < val) : p2ge val = some m := by
  have hval : val ≤ 2 ^ 31 := le_trans h1 (Nat.pow_le_pow_right (by decide) hm)
  obtain ⟨r, e1, _, e3, e4⟩ := p2ge_spec val hval
  rw [e1]
  congr 1
  rcases Nat.lt_trichotomy r m with h | h | h
  · exfalso
    rcases h2 with h2 | h2
    · omega
    · have : 2 ^ r ≤ 2 ^ (m - 1) := Nat.pow_le_pow_right (by decide) (by omega)
      omega
  · exact h
  · exfalso
    have := e4 m h
    omega

theorem estBins_one_value (s : NumericalStats) (v : ℚ) (hv : s.values_ = [v])
    (hc : s.v_count_ = 1) : s.estBins = 0 := by
  unfold NumericalStats.estBins
  rw [hv, hc]
  simp [fl_zero, truncToInt_zero, toU64]

theorem InitHistogramStructure_single (bin : ℚ) :
    NumericalStats.InitHistogramStructure
      { mid_est_ := 0, branch_bins_est_ := 0, mean_abs_dev_ := 0, branch_weights_ := [],
        coding_params_ := ⟨[], [], [], [], 0⟩, is_estimated_ := false, v_count_ := 1,
        values_ := [0], v_freq_ := List.replicate kNumBranch 1, minimum_ := 0, maximum_ := 0,
        sum_abs_dev_ := 0, step_ := 0, num_layer_ := 0, mask_last_layer_ := 0,
        weight_branch_last_layer_ := 0, bin_size_ := bin } = some
      { mid_est_ := 0, branch_bins_est_ := 1, mean_abs_dev_ := 0, branch_weights_ := [],
        coding_params_ := ⟨[], [], [], [], 0⟩, is_estimated_ := true, v_count_ := 1,
        values_ := [0], v_freq_ := List.replicate kNumBranch 1, minimum_ := -256,
        maximum_ := 255, sum_abs_dev_ := 0, step_ := 0, num_layer_ := 0, mask_last_layer_ := 0,
        weight_branch_last_layer_ := 0, bin_size_ := bin } := by
  unfold NumericalStats.InitHistogramStructure
  have hk : (((kNumBranch - 2) >>> 1 : Nat) : Int) = 255 := by decide
  rw [estBins_one_value _ 0 rfl rfl]
  simp only [hk]
  simp [truncToInt_zero, QuantizationToFloat32Bit_zero]

theorem NumericalStats_finish_eq (s : NumericalStats) (total : Nat) (weights : List Nat)
    (t : DelayedCodingParams) (h1 : s.v_freq_.sum % 2 ^ 32 = total) (h0 : total ≠ 0)
    (hw : endWeights s.v_freq_ total = weights)
    (hi : InitDelayedCodingParams weights s.coding_params_ = some t) :
    s.finish = NumericalStats.Prepare
      { s with mean_abs_dev_ := QuantizationToFloat32Bit
                 (if s.sum_abs_dev_ < s.bin_size_ then 0 else s.sum_abs_dev_ / s.v_count_),
               branch_weights_ := weights, coding_params_ := t } := by
  unfold NumericalStats.finish
  rw [h1]
  dsimp only
  rw [if_neg h0, hw, hi]

theorem NumericalStats_Prepare_eq (s : NumericalStats) (hb : s.branch_bins_est_ = 1)
    (hd : s.mean_abs_dev_ = 0) :
    s.Prepare = some { s with mean_abs_dev_ := 0, branch_bins_est_ := 1, step_ := 0,
                              num_layer_ := 0, mask_last_layer_ := 0,
                              weight_branch_last_layer_ := 65536, minimum_ := -256,
                              maximum_ := 255 } := by
  have hk : (((kNumBranch - 2) >>> 1 : Nat) : Int) = 255 := by decide
  have hl : layerLoop 4 0 1 = (0, 1) := by decide
  have hstep : toU64 ⌈(0 : ℚ) / s.bin_size_⌉ = 0 := by simp [toU64]
  have hp : p2ge (1 : Int).toNat = some 0 := by decide
  unfold NumericalStats.Prepare
  rw [hb, hd, hl]
  dsimp only
  rw [if_neg (by decide), hk, hstep, hp]
  cases s
  simp only at hb hd
  subst hb hd
  rfl

/-- The statistic table learned from the single value 0: the deviation is 0 and each of the
512 branches has weight 128. -/
theorem NumericalStats_End_single (bin : ℚ) (hbin : 0 < bin) :
    ∃ t slots, TableOK (List.replicate 512 128) t slots ∧
      ((NumericalStats.fresh.SetBinSize bin).PushValue 0).bind NumericalStats.End = some
        { mid_est_ := 0, branch_bins_est_ := 1, mean_abs_dev_ := 0,
          branch_weights_ := List.replicate 512 128, coding_params_ := t,
          is_estimated_ := true, v_count_ := 1, values_ := [0],
          v_freq_ := List.replicate kNumBranch 1, minimum_ := -256, maximum_ := 255,
          sum_abs_dev_ := 0, step_ := 0, num_layer_ := 0, mask_last_layer_ := 0,
          weight_branch_last_layer_ := 65536, bin_size_ := bin } := by
  have hsum : (List.replicate 512 128).sum = 65536 := by
    rw [List.sum_replicate]; rfl
  obtain ⟨t, slots, ht, hok⟩ := buildTable_ok _ hsum
  refine ⟨t, slots, hok, ?_⟩
  have hpush : (NumericalStats.fresh.SetBinSize bin).PushValue 0 = some
      { mid_est_ := 0, branch_bins_est_ := 0, mean_abs_dev_ := 0, branch_weights_ := [],
        coding_params_ := ⟨[], [], [], [], 0⟩, is_estimated_ := false, v_count_ := 1,
        values_ := [0], v_freq_ := List.replicate kNumBranch 1, minimum_ := 0, maximum_ := 0,
        sum_abs_dev_ := 0, step_ := 0, num_layer_ := 0, mask_last_layer_ := 0,
        weight_branch_last_layer_ := 0, bin_size_ := bin } := by
    simp [NumericalStats.PushValue, NumericalStats.fresh, NumericalStats.SetBinSize,
      kNumEstSample]
  have hfreq : (List.replicate kNumBranch 1).sum % 2 ^ 32 = 512 := by
    rw [List.sum_replicate]; rfl
  rw [hpush, Option.some_bind]
  unfold NumericalStats.End
  rw [if_neg (by simp), if_pos (by rfl), InitHistogramStructure_single]
  dsimp only
  have hinit : InitDelayedCodingParams (List.replicate 512 128) ⟨[], [], [], [], 0⟩ = some t := by
    rw [Init_eq_buildTable _ _ (ne_nil_of_sum _ hsum)]; exact ht
  have h512 : (512 : Nat) ≠ 0 := by decide
  generalize hs1 : NumericalStats.mk 0 1 0 [] ⟨[], [], [], [], 0⟩ true 1 [0]
    (List.replicate kNumBranch 1) (-256) 255 0 0 0 0 0 bin = s1
  have hv : s1.v_freq_ = List.replicate kNumBranch 1 := by rw [← hs1]
  have hc : s1.coding_params_ = ⟨[], [], [], [], 0⟩ := by rw [← hs1]
  have hsa : s1.sum_abs_dev_ = 0 := by rw [← hs1]
  have hbs : s1.bin_size_ = bin := by rw [← hs1]
  rw [NumericalStats_finish_eq s1 512 (List.replicate 512 128) t (by rw [hv]; exact hfreq) h512
    (by rw [hv]; exact endWeights_fresh) (by rw [hc]; exact hinit)]
  rw [NumericalStats_Prepare_eq _ (by rw [← hs1]) (by
    show QuantizationToFloat32Bit (if s1.sum_abs_dev_ < s1.bin_size_ then 0 else _) = 0
    rw [hsa, hbs, if_pos hbin]; exact QuantizationToFloat32Bit_zero)]
  rw [← hs1]

/-! ## Numerical squid with deviation 0: no search in the tails -/

theorem HasNextBranch_of_dev_zero (sq : NumericalSquID) (h : sq.dev_ = 0) :
    sq.HasNextBranch = false := by
  unfold NumericalSquID.HasNextBranch
  rw [h, if_pos (by norm_num)]

theorem expEncodeLoop_of_not_next (fuel : Nat) (sq : NumericalSquID) (idx : Int)
    (h : sq.HasNextBranch = false) : sq.expEncodeLoop fuel idx = some ([], sq) := by
  cases fuel with
  | zero => simp [NumericalSquID.expEncodeLoop, h]
  | succ n => simp [NumericalSquID.expEncodeLoop, h]

theorem ExpDecompress_of_not_next (fuel : Nat) (sq : NumericalSquID) (d : Decoder)
    (words : List Nat) (h : sq.HasNextBranch = false) :
    sq.ExpDecompress fuel d words = some (sq, d, words) := by
  cases fuel with
  | zero => simp [NumericalSquID.ExpDecompress, h]
  | succ n => simp [NumericalSquID.ExpDecompress, h]

/-- With a deviation of 0 a value whose bin lies at or beyond `maximum_` is coded by the
last branch of the table alone, and decoded as the bin `maximum_`. -/
theorem NumericalSquID_right_tail (sq : NumericalSquID) (weights : List Nat)
    (slots : List ((Int × Nat) × (Int × Nat)))
    (hok : TableOK weights sq.coding_params_ slots) (w : Nat)
    (hw : weights[kNumBranch - 1]? = some w) (hpos : 0 < w) (hdev : sq.dev_ = 0) (value : ℚ)
    (h1 : sq.maximum_ ≤ sq.GetBinIndex value)
    (h2 : sq.minimum_ + sq.branch_bins_ < sq.GetBinIndex value) (d0 : Decoder)
    (rest : List Nat) (room : Nat) :
    ∃ bs sq1 d, sq.GetProbIntervals value (room + 1) = some (bs, sq1) ∧
      sq.Decompress d0.InitProbInterval (DelayedCoding bs ++ rest)
        = some ((sq.Reset).SetLeft sq.maximum_, d, rest) := by
  obtain ⟨b, hb, hbok, hbw, hlook⟩ := hok.branchOK (kNumBranch - 1) w hw hpos
  have hbs : ∀ x ∈ [b], BranchOK x := by
    intro x hx; rw [List.mem_singleton.1 hx]; exact hbok
  obtain ⟨d1, words1, hread, hdata, hinv⟩ := DecInv_step b [] 1 false _ _ rest hbs
    (DecInv_init [b] hbs d0 rest)
  have hwords := DecInv_nil_words _ _ _ _ _ hinv
  rw [hbw] at hdata hread hinv
  have hnext : ∀ s : NumericalSquID, s.dev_ = 0 → s.HasNextBranch = false :=
    HasNextBranch_of_dev_zero
  have hgp : sq.GetProbIntervals value (room + 1)
      = some ([b], (sq.SetLeft sq.maximum_).Reset) := by
    unfold NumericalSquID.GetProbIntervals
    simp only [Option.bind_eq_bind]
    rw [if_neg (by omega)]
    unfold NumericalSquID.GetExpProbIntervals
    rw [if_neg (Nat.succ_ne_zero room)]
    simp only [Option.bind_eq_bind]
    rw [if_neg (by omega), hb]
    simp only [Option.some_bind]
    rw [if_neg (by decide), expEncodeLoop_of_not_next _ (sq.SetLeft sq.maximum_) _
      (hnext (sq.SetLeft sq.maximum_) hdev)]
    rfl
  refine ⟨[b], _, d1.Update w ((encodeFrom [] (nextDen 1 w) (nextVirt 1 w)).1 % w), hgp, ?_⟩
  unfold NumericalSquID.Decompress decodePick
  simp only [Option.bind_eq_bind]
  rw [show (sq.Reset).coding_params_ = sq.coding_params_ from rfl, hread]
  simp only [Option.some_bind, hlook _ hdata]
  rw [if_neg (by decide), if_neg (by decide),
    ExpDecompress_of_not_next _ ((sq.Reset).SetLeft (sq.Reset).maximum_) _ _
      (hnext ((sq.Reset).SetLeft (sq.Reset).maximum_) hdev), hwords]
  rfl

/-- With one bin per branch a value whose bin `idx` lies inside the histogram is coded by
branch `idx + 256` of the table and one pick of weight 65536, and decoded as the bin
`idx`. -/
theorem NumericalSquID_histogram (sq : NumericalSquID) (weights : List Nat)
    (slots : List ((Int × Nat) × (Int × Nat)))
    (hok : TableOK weights sq.coding_params_ slots) (w : Nat) (value : ℚ)
    (hw : weights[(sq.GetBinIndex value + 256).toNat]? = some w) (hpos : 0 < w)
    (hbins : sq.branch_bins_ = 1) (hlayer : sq.num_layer_ = 0) (hmask : sq.mask_last_layer_ = 0)
    (hlast : sq.weight_branch_last_layer_ = 65536)
    (h1 : sq.GetBinIndex value < sq.maximum_) (hmax : sq.maximum_ ≤ 255)
    (h2 : sq.minimum_ + sq.branch_bins_ < sq.GetBinIndex value) (hmin : -256 ≤ sq.minimum_)
    (d0 : Decoder) (rest : List Nat) (room : Nat) :
    ∃ bs sq1 d, sq.GetProbIntervals value (room + 2) = some (bs, sq1) ∧
      sq.Decompress d0.InitProbInterval (DelayedCoding bs ++ rest)
        = some (((sq.Reset).SetLeft (sq.GetBinIndex value)).SetRight (sq.GetBinIndex value),
            d, rest) := by
  generalize hidx : sq.GetBinIndex value = idx at *
  obtain ⟨b, hb, hbok, hbw, hlook⟩ := hok.branchOK _ w hw hpos
  obtain ⟨l, hl, hlok, hlw, _, hemb⟩ := GetSimpleBranch_ok 1 0 (le_refl _) (by norm_num)
    (by norm_num)
  rw [Nat.div_one] at hl hlw hemb
  have hbs : ∀ x ∈ [b, l], BranchOK x := by
    intro x hx
    rcases List.mem_cons.1 hx with h | h
    · rw [h]; exact hbok
    · rw [List.mem_singleton.1 h]; exact hlok
  have hbs2 : ∀ x ∈ [l], BranchOK x := fun x hx => hbs x (List.mem_cons_of_mem _ hx)
  obtain ⟨d1, words1, hread, hdata, hinv⟩ := DecInv_step b [l] 1 false _ _ rest hbs
    (DecInv_init [b, l] hbs d0 rest)
  obtain ⟨d2, words2, hread2, hdata2, hinv2⟩ := DecInv_step l [] _ _ _ _ rest hbs2 hinv
  have hwords := DecInv_nil_words _ _ _ _ _ hinv2
  rw [hbw] at hdata hread hinv hread2 hdata2 hinv2
  rw [hlw] at hdata2 hread2 hinv2
  rw [hemb _ hdata2] at hread2
  have hk : (((kNumBranch - 2) >>> 1 : Nat) : Int) = 255 := by decide
  have hgp : sq.GetProbIntervals value (room + 2) = some ([b, l],
      ((sq.SetLeft (idx * 1)).SetRight ((idx + 1) * 1)).Reset) := by
    unfold NumericalSquID.GetProbIntervals
    simp only [Option.bind_eq_bind]
    rw [hidx, if_pos ⟨by omega, h1⟩, hlayer, if_neg (by omega)]
    unfold NumericalSquID.GetHistogramProbIntervals
    rw [hbins, if_neg (by norm_num), hk, hlayer, hmask, hlast]
    have ht : Int.tdiv idx 1 = idx := Int.tdiv_one idx
    simp only [ht, mul_one, sub_self, lt_self_iff_false, if_false]
    rw [if_neg (by omega), show idx + 255 + 1 = idx + 256 by ring, hb]
    simp only [Option.bind_eq_bind, Option.some_bind, histLayers]
    rw [show toU32 (0 % 2 ^ 0) = 0 from by decide, hl]
    rfl
  generalize (encodeFrom [] (nextDen (nextDen 1 w) 65536)
      (nextVirt (nextDen 1 w) 65536)).1 % 65536 = data2 at hread2 hdata2 hinv2
  have hne : (idx + 256).toNat ≠ 0 ∧ (idx + 256).toNat ≠ kNumBranch - 1 := by
    have : kNumBranch - 1 = 511 := by decide
    omega
  have hdiv : (0 * 65536 + data2) / 65536 = 0 := by
    rw [Nat.div_eq_of_lt]; omega
  have hcast : (((idx + 256).toNat : Nat) : Int) - (255 + 1) = idx := by omega
  refine ⟨[b, l], _, d2.Update 65536 data2, hgp, ?_⟩
  unfold NumericalSquID.Decompress decodePick
  simp only [Option.bind_eq_bind]
  rw [show (sq.Reset).coding_params_ = sq.coding_params_ from rfl, hread]
  simp only [Option.some_bind, hlook _ hdata]
  rw [if_pos hne, hk]
  unfold NumericalSquID.HistogramDecompress
  simp only [NumericalSquID.SetLeft, NumericalSquID.SetRight, NumericalSquID.Reset, hlayer,
    hlast, hbins, hcast, ne_eq, not_true_eq_false, if_false, Option.bind_eq_bind,
    Option.some_bind, hread2]
  rw [if_neg (by norm_num), hwords, hdiv]
  simp

/-! ## A numerical model learned from the single value 0 -/

theorem TableNumerical_EndOfData_eq (m : TableNumerical) (stats : NumericalStats)
    (h : m.stats.End = some stats) : m.EndOfData = some { m with stats := stats } := by
  unfold TableNumerical.EndOfData
  rw [h]

theorem TableNumerical_single (bin : ℚ) (hbin : 0 < bin) (target_int : Bool) :
    ∃ t slots, TableOK (List.replicate 512 128) t slots ∧
      ((TableNumerical.create bin target_int).FeedAttrs 0 1).bind TableNumerical.EndOfData
        = some
        { target_int_ := target_int, bin_size_ := bin,
          stats :=
            { mid_est_ := 0, branch_bins_est_ := 1, mean_abs_dev_ := 0,
              branch_weights_ := List.replicate 512 128, coding_params_ := t,
              is_estimated_ := true, v_count_ := 1, values_ := [0],
              v_freq_ := List.replicate kNumBranch 1, minimum_ := -256, maximum_ := 255,
              sum_abs_dev_ := 0, step_ := 0, num_layer_ := 0, mask_last_layer_ := 0,
              weight_branch_last_layer_ := 65536, bin_size_ := bin },
          squid_ := NumericalSquID.create bin target_int } := by
  obtain ⟨t, slots, hok, hend⟩ := NumericalStats_End_single bin hbin
  refine ⟨t, slots, hok, ?_⟩
  cases hp : (NumericalStats.fresh.SetBinSize bin).PushValue 0 with
  | none => rw [hp, Option.none_bind] at hend; cases hend
  | some s1 =>
    rw [hp, Option.some_bind] at hend
    have h1 : (TableNumerical.create bin target_int).FeedAttrs 0 1
        = some { TableNumerical.create bin target_int with stats := s1 } := by
      unfold TableNumerical.FeedAttrs
      rw [show List.replicate 1 (0 : ℚ) = [0] from rfl]
      unfold NumericalStats.pushValues NumericalStats.pushValues
      rw [show (TableNumerical.create bin target_int).stats
        = NumericalStats.fresh.SetBinSize bin from rfl, hp]
    rw [h1, Option.some_bind, TableNumerical_EndOfData_eq _ _ hend]
    rfl

theorem placesDown_one : placesDown 400 1 0 = 0 := by
  rw [show (400 : Nat) = 399 + 1 from rfl, placesDown, if_neg (by norm_num)]

theorem placesUp_half : placesUp 400 (1 / 2) 0 = 0 := by
  rw [show (400 : Nat) = 399 + 1 from rfl, placesUp, if_neg (by norm_num)]

theorem replicate_getElem?_of_lt (n a k : Nat) (h : k < n) :
    (List.replicate n a)[k]? = some a := by
  rw [List.getElem?_replicate, if_pos h]

theorem fl_one : fl 1 = 1 := by
  have := fl_intCast 1 (by decide)
  simpa using this

theorem fl_add_half (n : Int) (hn : |2 * n + 1| < 2 ^ 53) :
    fl ((n : ℚ) + 1 / 2) = (n : ℚ) + 1 / 2 := by
  have h := fl_dyadic (2 * n + 1) (-1) hn
  have e : ((2 * n + 1 : Int) : ℚ) * 2 ^ (-1 : Int) = (n : ℚ) + 1 / 2 := by
    push_cast
    rw [zpow_neg, zpow_one]
    ring
  rwa [e] at h

theorem fl_sub_half (n : Int) (hn : |2 * n - 1| < 2 ^ 53) :
    fl ((n : ℚ) + -(1 / 2)) = (n : ℚ) + -(1 / 2) := by
  have h := fl_dyadic (2 * n - 1) (-1) hn
  have e : ((2 * n - 1 : Int) : ℚ) * 2 ^ (-1 : Int) = (n : ℚ) + -(1 / 2) := by
    push_cast
    rw [zpow_neg, zpow_one]
    ring
  rwa [e] at h

theorem Round_zero_places (n : Int) (h : 0 ≤ n) (h52 : n < 2 ^ 52) : Round (n : ℚ) 0 = n := by
  have hf : ⌊(n : ℚ) + 1 / 2⌋ = n := by
    rw [Int.floor_eq_iff]
    constructor <;> norm_num
  have hn : (0 : ℚ) ≤ n := by exact_mod_cast h
  have hn2 : (0 : ℚ) ≤ (n : ℚ) + 1 / 2 := by linarith
  have habs : |n| < 2 ^ 53 := by rw [abs_of_nonneg h]; omega
  unfold Round truncToInt
  simp only [zpow_zero, fl_one, mul_one, div_one]
  rw [if_pos hn, fl_intCast n habs, fl_add_half n (by rw [abs_of_nonneg (by omega)]; omega),
    if_pos hn2, hf, fl_intCast n habs, fl_intCast n habs]

/-- C4 (evaluation of the code): an integer model with bin size 1 learned from the single
value 0 has deviation 0, so no search is made in the tails: the value 1000 is coded by the
last branch of the table alone, and `Decompress` followed by `GetResultAttr` returns 255,
the first bin of the right tail. -/
theorem NumericalSquID_tail_value_not_recovered (d0 : Decoder) (rest : List Nat)
    (room : Nat) :
    ∃ m bs sq1 sq2 d,
      ((TableNumericalIntCreator.CreateModel 0).FeedAttrs 0 1).bind TableNumerical.EndOfData
        = some m ∧
      m.stats.bin_size_ = 1 ∧ m.target_int_ = true ∧
      m.GetSquID.GetProbIntervals 1000 (room + 1) = some (bs, sq1) ∧
      m.GetSquID.Decompress d0.InitProbInterval (DelayedCoding bs ++ rest)
        = some (sq2, d, rest) ∧
      sq2.GetResultAttr true = some 255 := by
  obtain ⟨t, slots, hok, hend⟩ := TableNumerical_single 1 (by norm_num) true
  have hcreate : TableNumericalIntCreator.CreateModel 0 = TableNumerical.create 1 true := by
    unfold TableNumericalIntCreator.CreateModel
    norm_num
  rw [← hcreate] at hend
  generalize hm : TableNumerical.mk true 1 (NumericalStats.mk 0 1 0 (List.replicate 512 128) t
    true 1 [0] (List.replicate kNumBranch 1) (-256) 255 0 0 0 0 65536 1)
    (NumericalSquID.create 1 true) = m at hend
  have hmean : m.GetSquID.mean_ = 0 := by rw [← hm]; rfl
  have hdev : m.GetSquID.dev_ = 0 := by rw [← hm]; rfl
  have hmax : m.GetSquID.maximum_ = 255 := by rw [← hm]; rfl
  have hmin : m.GetSquID.minimum_ = -256 := by rw [← hm]; rfl
  have hbb : m.GetSquID.branch_bins_ = 1 := by rw [← hm]; rfl
  have hcp : m.GetSquID.coding_params_ = t := by rw [← hm]; rfl
  have hti : m.GetSquID.target_int_ = true := by rw [← hm]; rfl
  have hbin : m.GetSquID.bin_size_ = 1 := by rw [← hm]; exact QuantizationToFloat32Bit_one
  have hpl : m.GetSquID.decimal_places_ = 0 := by rw [← hm]; exact placesDown_one
  have hidx : m.GetSquID.GetBinIndex 1000 = 1000 := by
    unfold NumericalSquID.GetBinIndex
    rw [hmean, hbin, Int.floor_eq_iff]
    norm_num
  obtain ⟨bs, sq1, d, hgp, hdec⟩ := NumericalSquID_right_tail m.GetSquID
    (List.replicate 512 128) slots (by rw [hcp]; exact hok) 128
    (replicate_getElem?_of_lt _ _ _ (by decide)) (by norm_num) hdev 1000
    (by rw [hidx, hmax]; decide) (by rw [hidx, hmin, hbb]; decide) d0 rest room
  refine ⟨m, bs, sq1, _, d, hend, by rw [← hm], by rw [← hm], hgp, hdec, ?_⟩
  unfold NumericalSquID.GetResultAttr
  rw [HasNextBranch_of_dev_zero _
    (show ((m.GetSquID.Reset).SetLeft m.GetSquID.maximum_).dev_ = 0 from hdev)]
  simp only [NumericalSquID.SetLeft, NumericalSquID.Reset, Bool.not_false, if_true, hti, hmean,
    hbin, hpl, hmax]
  have hr : Round ((0 : ℚ) + ((255 : Int) : ℚ) * 1) 0 = ((255 : Int) : ℚ) := by
    rw [zero_add, mul_one]; exact Round_zero_places 255 (by decide) (by decide)
  rw [hr]
  have ht : truncToInt (((255 : Int) : ℚ)) = 255 := by
    unfold truncToInt
    rw [if_pos (by norm_num), Int.floor_intCast]
  rw [ht]
  norm_num

/-- C5 (evaluation of the code): a real model created with allowed error `1 / 4` (bin size
`1 / 2`) and learned from the single value 0 codes the value `2 / 5` in bin 0 of the
histogram, and `Decompress` followed by `GetResultAttr` returns the left edge 0 of that
bin, rounded or not: the distance `2 / 5` to the value exceeds the allowed error. -/
theorem NumericalSquID_real_error_exceeds_allowed (d0 : Decoder) (rest : List Nat)
    (room : Nat) :
    ∃ m bs sq1 sq2 d,
      ((TableNumericalRealCreator.CreateModel (1 / 4)).FeedAttrs 0 1).bind
        TableNumerical.EndOfData = some m ∧
      m.stats.bin_size_ = 2 * (1 / 4) ∧ m.target_int_ = false ∧
      m.GetSquID.GetProbIntervals (2 / 5) (room + 2) = some (bs, sq1) ∧
      m.GetSquID.Decompress d0.InitProbInterval (DelayedCoding bs ++ rest)
        = some (sq2, d, rest) ∧
      sq2.GetResultAttr true = some 0 ∧ sq2.GetResultAttr false = some 0 ∧
      (1 / 4 : ℚ) < |2 / 5 - 0| := by
  obtain ⟨t, slots, hok, hend⟩ := TableNumerical_single (1 / 2) (by norm_num) false
  have hcreate : TableNumericalRealCreator.CreateModel (1 / 4) =
      TableNumerical.create (1 / 2) false := by
    unfold TableNumericalRealCreator.CreateModel
    norm_num
  rw [← hcreate] at hend
  generalize hm : TableNumerical.mk false (1 / 2) (NumericalStats.mk 0 1 0
    (List.replicate 512 128) t true 1 [0] (List.replicate kNumBranch 1) (-256) 255 0 0 0 0
    65536 (1 / 2)) (NumericalSquID.create (1 / 2) false) = m at hend
  have hmean : m.GetSquID.mean_ = 0 := by rw [← hm]; rfl
  have hdev : m.GetSquID.dev_ = 0 := by rw [← hm]; rfl
  have hmax : m.GetSquID.maximum_ = 255 := by rw [← hm]; rfl
  have hmin : m.GetSquID.minimum_ = -256 := by rw [← hm]; rfl
  have hbb : m.GetSquID.branch_bins_ = 1 := by rw [← hm]; rfl
  have hnl : m.GetSquID.num_layer_ = 0 := by rw [← hm]; rfl
  have hml : m.GetSquID.mask_last_layer_ = 0 := by rw [← hm]; rfl
  have hwl : m.GetSquID.weight_branch_last_layer_ = 65536 := by rw [← hm]; rfl
  have hcp : m.GetSquID.coding_params_ = t := by rw [← hm]; rfl
  have hti : m.GetSquID.target_int_ = false := by rw [← hm]; rfl
  have hbin : m.GetSquID.bin_size_ = 1 / 2 := by rw [← hm]; exact QuantizationToFloat32Bit_half
  have hpl : m.GetSquID.decimal_places_ = 0 := by rw [← hm]; exact placesUp_half
  have hidx : m.GetSquID.GetBinIndex (2 / 5) = 0 := by
    unfold NumericalSquID.GetBinIndex
    rw [hmean, hbin, Int.floor_eq_iff]
    norm_num
  obtain ⟨bs, sq1, d, hgp, hdec⟩ := NumericalSquID_histogram m.GetSquID
    (List.replicate 512 128) slots (by rw [hcp]; exact hok) 128 (2 / 5)
    (by rw [hidx]; exact replicate_getElem?_of_lt _ _ _ (by decide)) (by norm_num)
    hbb hnl hml hwl (by rw [hidx, hmax]; decide) (by rw [hmax])
    (by rw [hidx, hmin, hbb]; decide) (by rw [hmin]) d0 rest room
  rw [hidx] at hdec
  have hr : Round ((0 : ℚ) + ((0 : Int) : ℚ) * (1 / 2)) 0 = 0 := by
    rw [Int.cast_zero, zero_mul, zero_add]
    exact_mod_cast Round_zero_places 0 (le_refl _) (by decide)
  have habs : (1 / 4 : ℚ) < |2 / 5 - 0| := by
    rw [sub_zero, abs_of_pos (by norm_num)]; norm_num
  refine ⟨m, bs, sq1, _, d, hend, by rw [← hm]; norm_num, by rw [← hm], hgp, hdec, ?_, ?_,
    habs⟩
  · unfold NumericalSquID.GetResultAttr
    rw [HasNextBranch_of_dev_zero _
      (show (((m.GetSquID.Reset).SetLeft 0).SetRight 0).dev_ = 0 from hdev)]
    simp only [NumericalSquID.SetLeft, NumericalSquID.SetRight, NumericalSquID.Reset,
      Bool.not_false, if_true, hti, hmean, hbin, hpl, Bool.false_eq_true, if_false, hr]
  · unfold NumericalSquID.GetResultAttr
    rw [HasNextBranch_of_dev_zero _
      (show (((m.GetSquID.Reset).SetLeft 0).SetRight 0).dev_ = 0 from hdev)]
    simp only [NumericalSquID.SetLeft, NumericalSquID.SetRight, NumericalSquID.Reset,
      Bool.not_false, if_true, hti, hmean, hbin, Bool.false_eq_true, if_false]
    norm_num

/-! ## `StringSplitter::ParseString` on a string that is one delimiter -/

/-- C6 (evaluation of the code): the splitter of a string model that has parsed the string
`"a"` has buffers of size 2; on the one-byte string `"-"` (as on that string parsed first)
`ParseString` records the split at the delimiter and the end of the string, finds
`num_words_ = 2 >= words_.size() = 2` and throws its `BufferOverflowException`, so
`StringSquID::GetProbIntervals` produces no code for this string. -/
theorem StringSplitter_ParseString_single_delimiter :
    StringSplitter.fresh.ParseString [97] = some ⟨2, 1, 0, [1], []⟩ ∧
      (⟨2, 1, 0, [1], []⟩ : StringSplitter).ParseString [45] = none ∧
      StringSplitter.fresh.ParseString [45] = none ∧
      StringSplitter.fresh.ParseString [97, 45, 98] = some ⟨6, 2, 0, [1, 3], [3]⟩ := by
  refine ⟨by decide, by decide, by decide, by decide⟩

/-! ## Weights of a finalized categorical statistic -/

theorem normalize_resize (stats : CategoricalStats) (target_range : Nat)
    (hlen : stats.count_.length ≤ target_range) :
    stats.normalize target_range
      = ({ stats with count_ := resizeList stats.count_ target_range } :
          CategoricalStats).normalize
        (resizeList stats.count_ target_range).length := by
  obtain ⟨_, r2⟩ := resizeList_sum stats.count_ target_range hlen
  have hidem : resizeList (resizeList stats.count_ target_range) target_range
      = resizeList stats.count_ target_range := by
    have := resizeList_self (resizeList stats.count_ target_range)
    rw [r2] at this
    exact this
  unfold CategoricalStats.normalize
  simp only [r2, hidem]

/-- C11: for a `TableCategorical` statistic (the table of one predictor combination,
not yet finalized) with a positive total count fitting an `int` and
`target_range <= 65536`, `EndOfData` succeeds and leaves a weight vector of
`target_range + 1` entries (the outcomes and the escape entry) whose sum is exactly 65536;
whenever some outcome below `target_range` has weight 0 the escape entry is at least 1. -/
theorem TableCategorical_EndOfData_weights (stats : CategoricalStats) (target_range : Nat)
    (hw : stats.weight_ = []) (hlen : stats.count_.length ≤ target_range)
    (hpos : 0 < stats.count_.sum) (_hint : stats.count_.sum < 2 ^ 31)
    (_hrange : target_range ≤ 65536) :
    ∃ s, stats.EndOfData target_range = some s ∧
      s.weight_.length = target_range + 1 ∧
      s.weight_.sum = 65536 ∧
      ((∃ v, v < target_range ∧ s.weight_.getD v 0 = 0) →
        1 ≤ s.weight_.getD target_range 0) := by
  obtain ⟨r1, r2⟩ := resizeList_sum stats.count_ target_range hlen
  have hnorm := normalize_resize stats target_range hlen
  obtain ⟨p1, p2, _, p4⟩ := normalize_props
    ({ stats with count_ := resizeList stats.count_ target_range } : CategoricalStats) hw
    (by show 0 < (resizeList stats.count_ target_range).sum; rw [r1]; exact hpos)
  rw [← hnorm] at p1 p2 p4
  simp only [r2] at p1 p4
  obtain ⟨t, slots, ht, _⟩ := buildTable_ok (stats.normalize target_range).weight_ p2
  have hinit : InitDelayedCodingParams (stats.normalize target_range).weight_
      (stats.normalize target_range).coding_params_ = some t := by
    rw [Init_eq_buildTable _ _ (ne_nil_of_sum _ p2)]; exact ht
  refine ⟨{ stats.normalize target_range with coding_params_ := t }, ?_, p1, p2, ?_⟩
  · unfold CategoricalStats.EndOfData
    simp only [hinit]
  · intro h
    exact (p4 h).2

theorem TableCategorical_EndOfData_weights_witness :
    ∃ s, (feedAll [(0, 1), (2, 1)]).stats.EndOfData 3 = some s ∧
      s.weight_.length = 3 + 1 ∧
      s.weight_.sum = 65536 ∧
      ((∃ v, v < 3 ∧ s.weight_.getD v 0 = 0) → 1 ≤ s.weight_.getD 3 0) :=
  TableCategorical_EndOfData_weights (feedAll [(0, 1), (2, 1)]).stats 3 (by decide)
    (by decide) (by decide) (by decide) (by decide)

/-! ## The virtual word of `Decoder::Update` -/

/-- C16 (amended): `Decoder::Update(W, a)` on an accumulator `(num, den)` whose products
fit 64 bits sets `num` to `num * W + a` and `den` to `den * W`; if the new `den` has more
than `kDelayedCoding = 24` bits the virtual word made available is the LOW 16 bits of the
new `num`, and `num` and `den` are both shifted right by 16; otherwise no virtual word is
produced and the virtual fields keep their values. -/
theorem Decoder_Update_low_word (d : Decoder) (W a : Nat)
    (hnum : d.num_ * W + a < 2 ^ 64) (hden : d.den_ * W < 2 ^ 64) :
    d.Update W a =
      if 2 ^ kDelayedCoding ≤ d.den_ * W then
        { d with virtual_available_ := true,
                 virtual_16bits_ := (d.num_ * W + a) % 2 ^ 16,
                 num_ := (d.num_ * W + a) / 2 ^ 16,
                 den_ := d.den_ * W / 2 ^ 16 }
      else { d with num_ := d.num_ * W + a, den_ := d.den_ * W } := by
  unfold Decoder.Update
  simp only [Nat.mod_eq_of_lt hnum, Nat.mod_eq_of_lt hden, Nat.shiftRight_eq_div_pow]
  by_cases h : 2 ^ kDelayedCoding ≤ d.den_ * W
  · have h1 : d.den_ * W / 2 ^ kDelayedCoding > 0 := Nat.div_pos h (by decide)
    rw [if_pos h1, if_pos h]
  · have h1 : ¬ d.den_ * W / 2 ^ kDelayedCoding > 0 := by
      rw [Nat.div_eq_of_lt (by omega)]; decide
    rw [if_neg h1, if_neg h]

theorem Decoder_Update_low_word_witness :
    Decoder.Update ⟨1, 256, 0, false, 0⟩ 65536 5 =
      if 2 ^ kDelayedCoding ≤ (⟨1, 256, 0, false, 0⟩ : Decoder).den_ * 65536 then
        { (⟨1, 256, 0, false, 0⟩ : Decoder) with
            virtual_available_ := true,
            virtual_16bits_ := ((⟨1, 256, 0, false, 0⟩ : Decoder).num_ * 65536 + 5) % 2 ^ 16,
            num_ := ((⟨1, 256, 0, false, 0⟩ : Decoder).num_ * 65536 + 5) / 2 ^ 16,
            den_ := (⟨1, 256, 0, false, 0⟩ : Decoder).den_ * 65536 / 2 ^ 16 }
      else { (⟨1, 256, 0, false, 0⟩ : Decoder) with
               num_ := (⟨1, 256, 0, false, 0⟩ : Decoder).num_ * 65536 + 5,
               den_ := (⟨1, 256, 0, false, 0⟩ : Decoder).den_ * 65536 } :=
  Decoder_Update_low_word ⟨1, 256, 0, false, 0⟩ 65536 5 (by decide) (by decide)

/-- C16 (counterexample): on the accumulator `(num, den) = (1, 256)`, `Update(65536, 5)`
gives the new `num = 65541` and a new `den` of 25 bits; the virtual word made available is
`5`, the low 16 bits of the new `num`, while the top 16 bits of the new `num` are `0` (of
its 64-bit representation) or `32770` (of its 17 significant bits). -/
theorem Decoder_Update_top_bits_counterexample :
    (Decoder.Update ⟨1, 256, 0, false, 0⟩ 65536 5).virtual_available_ = true ∧
    (Decoder.Update ⟨1, 256, 0, false, 0⟩ 65536 5).virtual_16bits_ = 5 ∧
    (Decoder.Update ⟨1, 256, 0, false, 0⟩ 65536 5).num_ = 1 ∧
    (Decoder.Update ⟨1, 256, 0, false, 0⟩ 65536 5).den_ = 256 ∧
    (1 * 65536 + 5) % 2 ^ 16 = 5 ∧
    (1 * 65536 + 5) >>> (64 - 16) = 0 ∧
    (1 * 65536 + 5) >>> (17 - 16) = 32770 := by
  decide

/-! ## Words emitted by `DelayedCoding` -/

/-- C17 (amended): for every interval count `n >= 1` `DelayedCoding` leaves
`bit_string.num_ >= 1`: at least one 16-bit word is emitted for a block with a pending
probability interval (the first symbol is never virtual). -/
theorem DelayedCoding_emits_word (prob_intervals : List Branch) (h : prob_intervals ≠ []) :
    1 ≤ (DelayedCoding prob_intervals).length := by
  rw [DelayedCoding_eq_encodeFrom]
  cases prob_intervals with
  | nil => exact absurd rfl h
  | cons b rest =>
    rw [encodeFrom_cons]
    unfold secondRunStep
    rw [if_neg (by simp)]
    exact Nat.succ_le_succ (Nat.zero_le _)

theorem DelayedCoding_emits_word_witness :
    1 ≤ (DelayedCoding [⟨[⟨0, 65536⟩], 65536⟩]).length :=
  DelayedCoding_emits_word [⟨[⟨0, 65536⟩], 65536⟩] (by simp)

/-- C17 (counterexample): with no pending probability interval (`n = 0`) `DelayedCoding`
leaves `bit_string.num_ = 0`, so no word is emitted for the block. -/
theorem DelayedCoding_empty_block_counterexample :
    (DelayedCoding []).length = 0 := by
  decide

/-! ## The single-value case of a categorical statistic -/

/-- C13 (code evaluated on the failing inputs): a statistic fed only the outcome `0`
gets the weights `[65536, 0]` and a statistic fed only the outcome `1` gets the weights
`[0, 65535, 1]` (one unit goes to the escape entry); in both cases `EndOfData` leaves
`only_value_` untouched, so `GetSimpleSquidValue()` is still `65535`. -/
theorem TableCategorical_EndOfData_single_value :
    ((feedAll [(0, 3)]).EndOfData.map
        (fun m => (m.stats.weight_, m.GetSimpleSquidValue))) = some ([65536, 0], 65535) ∧
    ((feedAll [(1, 3)]).EndOfData.map
        (fun m => (m.stats.weight_, m.GetSimpleSquidValue))) = some ([0, 65535, 1], 65535) := by
  decide

/-! ## Branch weights of a finalized numerical statistic -/

theorem branchWeight_eq (total x : Nat) :
    branchWeight total x = if x > 0 ∧ rawWeight total x = 0 then 1 else rawWeight total x :=
  rfl

theorem branchWeight_pos (total x : Nat) (hx : 1 ≤ x) : 1 ≤ branchWeight total x := by
  rw [branchWeight_eq]
  by_cases h : rawWeight total x = 0
  · rw [if_pos ⟨hx, h⟩]
  · rw [if_neg (fun hh => h hh.2)]; omega

theorem branchWeight_sum_split (total : Nat) (l : List Nat) (h : ∀ x ∈ l, 1 ≤ x) :
    (l.map (branchWeight total)).sum
      = (l.map (rawWeight total)).sum + l.countP (fun x => decide (rawWeight total x = 0)) := by
  induction l with
  | nil => rfl
  | cons a l ih =>
    have ha := h a (List.mem_cons_self _ _)
    have ih' := ih (fun x hx => h x (List.mem_cons_of_mem _ hx))
    rw [List.map_cons, List.map_cons, List.sum_cons, List.sum_cons, List.countP_cons, ih',
      branchWeight_eq]
    by_cases h0 : rawWeight total a = 0
    · rw [if_pos ⟨ha, h0⟩, if_pos (decide_eq_true h0), h0]; omega
    · rw [if_neg (fun hh => h0 hh.2), if_neg (by simpa using h0)]; omega

theorem rawWeight_sum_le (total : Nat) (l : List Nat) (h : ∀ x ∈ l, 1 ≤ x) :
    total * (l.map (rawWeight total)).sum
        + 65536 * l.countP (fun x => decide (rawWeight total x = 0))
      ≤ 65536 * l.sum := by
  induction l with
  | nil => simp
  | cons a l ih =>
    have ha := h a (List.mem_cons_self _ _)
    have ih' := ih (fun x hx => h x (List.mem_cons_of_mem _ hx))
    rw [List.map_cons, List.sum_cons, List.sum_cons, List.countP_cons]
    have h1 : total * rawWeight total a ≤ a * 65536 := by
      unfold rawWeight
      calc total * (a * 65536 % 2 ^ 32 / total) ≤ a * 65536 % 2 ^ 32 := Nat.mul_div_le _ _
        _ ≤ a * 65536 := Nat.mod_le _ _
    by_cases h0 : rawWeight total a = 0
    · rw [if_pos (decide_eq_true h0), h0]
      rw [Nat.mul_add, Nat.mul_add, Nat.mul_add]
      omega
    · rw [if_neg (by simpa using h0)]
      rw [Nat.mul_add, Nat.mul_add]
      omega

theorem rawWeight_sum_le_max (total M : Nat) (l : List Nat)
    (h : ∀ x ∈ l, branchWeight total x ≤ M) :
    (l.map (rawWeight total)).sum
        + M * l.countP (fun x => decide (rawWeight total x = 0))
      ≤ M * l.length := by
  induction l with
  | nil => simp
  | cons a l ih =>
    have ha := h a (List.mem_cons_self _ _)
    have ih' := ih (fun x hx => h x (List.mem_cons_of_mem _ hx))
    rw [List.map_cons, List.sum_cons, List.countP_cons, List.length_cons]
    rw [branchWeight_eq] at ha
    by_cases h0 : rawWeight total a = 0
    · rw [if_pos (decide_eq_true h0), h0, Nat.mul_add, Nat.mul_add]
      omega
    · rw [if_neg (fun hh => h0 hh.2)] at ha
      rw [if_neg (by simpa using h0), Nat.add_zero, Nat.mul_add]
      omega

/-- The excess of the provisional total over 65536 is smaller than the largest weight. -/
theorem posterior_total_le (S M r T : Nat) (h1 : S + M * r ≤ M * 512)
    (h2 : T * S + 65536 * r ≤ 65536 * T) (hT : 0 < T) (hM : 1 ≤ M) :
    S + r ≤ M + 65535 := by
  by_contra hcon
  have hcon' : M + 65536 ≤ S + r := by omega
  have hS : S ≤ 65536 := by
    by_contra hh
    have : 65536 * T < T * S := by
      calc 65536 * T < 65537 * T := by omega
        _ = T * 65537 := Nat.mul_comm _ _
        _ ≤ T * S := Nat.mul_le_mul_left _ (by omega)
    omega
  rcases Nat.eq_zero_or_pos r with hr | hr
  · subst hr; omega
  · have hS' : S < 65536 := by
      by_contra hh
      have hSe : S = 65536 := by omega
      rw [hSe, Nat.mul_comm T 65536] at h2
      omega
    have hMr : M + 1 ≤ r := by omega
    have hr512 : r ≤ 512 := by
      by_contra hh
      have : M * 512 < M * r := (Nat.mul_lt_mul_left (by omega)).2 (by omega)
      omega
    zify at h1 hcon' hS' hMr hr512 hM
    nlinarith [sq_nonneg ((2 : Int) * r - 513), mul_nonneg (sub_nonneg.2 hMr) (sub_nonneg.2 hr512)]

theorem indexMaxLoop_spec (weights : List Nat) : ∀ (ws : List Nat) (i index_max : Nat),
    weights.drop i = ws → index_max < weights.length →
    (∀ j, j < i → weights.getD j 0 ≤ weights.getD index_max 0) →
    indexMaxLoop weights ws i index_max < weights.length ∧
    ∀ j, j < weights.length →
      weights.getD j 0 ≤ weights.getD (indexMaxLoop weights ws i index_max) 0 := by
  intro ws
  induction ws with
  | nil =>
    intro i index_max hdrop him hle
    have hi : weights.length ≤ i := List.drop_eq_nil_iff.1 hdrop
    exact ⟨him, fun j hj => hle j (by omega)⟩
  | cons w ws ih =>
    intro i index_max hdrop him hle
    have hi : i < weights.length := by
      by_contra hh
      rw [List.drop_eq_nil_of_le (by omega)] at hdrop
      exact List.noConfusion hdrop
    have hw : weights.getD i 0 = w := by
      rw [List.getD_eq_getElem?_getD, ← List.head?_drop, hdrop]; rfl
    have hdrop' : weights.drop (i + 1) = ws := by
      rw [← List.drop_drop 1 i, hdrop]; rfl
    unfold indexMaxLoop
    by_cases hgt : w > weights.getD index_max 0
    · rw [if_pos hgt]
      apply ih (i + 1) i hdrop' hi
      intro j hj
      rcases Nat.lt_succ_iff_lt_or_eq.1 hj with h | h
      · have := hle j h; omega
      · rw [h]
    · rw [if_neg hgt]
      apply ih (i + 1) index_max hdrop' him
      intro j hj
      rcases Nat.lt_succ_iff_lt_or_eq.1 hj with h | h
      · exact hle j h
      · rw [h, hw]; omega

theorem map_range_getD (f : Nat → Nat) (l : List Nat) :
    (List.range l.length).map (fun i => f (l.getD i 0)) = l.map f := by
  apply List.ext_getElem
  · simp
  · intro n h1 h2
    simp only [List.length_map, List.length_range] at h1
    simp [List.getD_eq_getElem?_getD, List.getElem?_eq_getElem h1]

theorem sum_set_eq (l : List Nat) : ∀ (i x : Nat), i < l.length →
    (l.set i x).sum + l.getD i 0 = l.sum + x := by
  induction l with
  | nil => intro i x h; simp at h
  | cons a l ih =>
    intro i x h
    cases i with
    | zero => simp; omega
    | succ i =>
      have := ih i x (by simpa using h)
      simp only [List.set_cons_succ, List.sum_cons, List.getD_cons_succ]
      omega

/-- The weights computed by the two loops of `NumericalStats::End` from a histogram of
`kNumBranch` non-empty cells whose total fits 32 bits. -/
theorem endWeights_props (v : List Nat) (hlen : v.length = kNumBranch)
    (hpos : ∀ x ∈ v, 1 ≤ x) (hT : v.sum < 2 ^ 32) :
    (endWeights v v.sum).length = kNumBranch ∧ (endWeights v v.sum).sum = 65536 ∧
    ∀ w ∈ endWeights v v.sum, 1 ≤ w := by
  have hw0 : ((List.range kNumBranch).map fun i => branchWeight v.sum (v.getD i 0))
      = v.map (branchWeight v.sum) := by
    rw [← hlen]; exact map_range_getD _ _
  generalize hW : v.map (branchWeight v.sum) = W at hw0
  have hWlen : W.length = kNumBranch := by rw [← hW, List.length_map, hlen]
  have hWpos : ∀ w ∈ W, 1 ≤ w := by
    intro w hw
    rw [← hW] at hw
    obtain ⟨x, hx, rfl⟩ := List.mem_map.1 hw
    exact branchWeight_pos _ _ (hpos x hx)
  have hk : 0 < kNumBranch := by decide
  obtain ⟨him, hmax⟩ := indexMaxLoop_spec W W 0 0 rfl (by omega) (fun j hj => by omega)
  unfold endWeights
  simp only [hw0]
  generalize indexMaxLoop W W 0 0 = im at him hmax ⊢
  have hMmem : W.getD im 0 ∈ W := getD_mem W im him
  have hM1 := hWpos _ hMmem
  have hsplit := branchWeight_sum_split v.sum v hpos
  have hB := rawWeight_sum_le v.sum v hpos
  have hC := rawWeight_sum_le_max v.sum (W.getD im 0) v (by
    intro x hx
    have hmem : branchWeight v.sum x ∈ W := by
      rw [← hW]; exact List.mem_map_of_mem _ hx
    obtain ⟨j, hj, hjx⟩ := List.getElem_of_mem hmem
    have := hmax j hj
    rw [List.getD_eq_getElem?_getD, List.getElem?_eq_getElem hj, Option.getD_some, hjx] at this
    exact this)
  rw [hW] at hsplit
  rw [hlen] at hC
  have hTpos : 0 < v.sum := by
    have := le_sum_of_mem v _ (getD_mem v 0 (by omega))
    have := hpos _ (getD_mem v 0 (by omega))
    omega
  have hk512 : kNumBranch = 512 := rfl
  rw [hk512] at hC
  have hP := posterior_total_le _ _ _ _ hC hB hTpos hM1
  rw [← hsplit] at hP
  have hMle : W.getD im 0 ≤ W.sum := le_sum_of_mem W _ hMmem
  have hnew : (W.getD im 0 + 2 ^ 32 + 65536 - W.sum % 2 ^ 32) % 2 ^ 32
      = W.getD im 0 + 65536 - W.sum := by
    have hPlt : W.sum < 2 ^ 32 := by
      have : (2 : Nat) ^ 32 = 4294967296 := by norm_num
      have hS : (v.map (rawWeight v.sum)).sum ≤ 65536 := by
        by_contra hh
        have : 65536 * v.sum < v.sum * (v.map (rawWeight v.sum)).sum := by
          calc 65536 * v.sum < 65537 * v.sum := by omega
            _ = v.sum * 65537 := Nat.mul_comm _ _
            _ ≤ v.sum * (v.map (rawWeight v.sum)).sum := Nat.mul_le_mul_left _ (by omega)
        omega
      have hc := List.countP_le_length (fun x => decide (rawWeight v.sum x = 0)) (l := v)
      rw [hlen, hk512] at hc
      omega
    rw [Nat.mod_eq_of_lt hPlt]
    have : (2 : Nat) ^ 32 = 4294967296 := by norm_num
    omega
  rw [hnew]
  refine ⟨by rw [List.length_set]; exact hWlen, ?_, ?_⟩
  · have := sum_set_eq W im (W.getD im 0 + 65536 - W.sum) him
    omega
  · intro w hw
    rcases List.mem_or_eq_of_mem_set hw with h | h
    · exact hWpos w h
    · omega

theorem HistInv_PushValue (s : NumericalStats) (n : Nat) (value : ℚ) (h : HistInv s n)
    (hest : s.is_estimated_ = true)
    (hn : kNumBranch + (n + 1 - kNumEstSample) < 2 ^ 32) :
    ∃ s1, s.PushValue value = some s1 ∧ HistInv s1 (n + 1) ∧ s1.is_estimated_ = true ∧
      s1.branch_bins_est_ = s.branch_bins_est_ := by
  obtain ⟨h1, h2, h3, h4, h5, h6⟩ := h
  unfold NumericalStats.PushValue
  have hnot : ¬ ((!s.is_estimated_) = true) := by rw [hest]; decide
  rw [if_neg hnot]
  dsimp only
  have hn5 := h6 hest
  generalize (if ⌊(value - s.mid_est_) / s.bin_size_⌋ ≤ s.minimum_ + s.branch_bins_est_ then 0
    else if ⌊(value - s.mid_est_) / s.bin_size_⌋ ≥ s.maximum_ then kNumBranch - 1
    else toU16 (Int.tdiv ⌊(value - s.mid_est_) / s.bin_size_⌋ s.branch_bins_est_
      + (((kNumBranch - 2) >>> 1 : Nat) : Int) + 1)) = interval
  refine ⟨_, rfl, ?_, hest, rfl⟩
  by_cases hi : interval < s.v_freq_.length
  · have hle : s.v_freq_.getD interval 0 ≤ s.v_freq_.sum :=
      le_sum_of_mem _ _ (getD_mem _ _ hi)
    have hmod : (s.v_freq_.getD interval 0 + 1) % 2 ^ 32 = s.v_freq_.getD interval 0 + 1 :=
      Nat.mod_eq_of_lt (by omega)
    refine ⟨?_, ?_, ?_, ?_, h5, fun _ => by omega⟩
    · show (s.v_freq_.set interval _).length = kNumBranch
      rw [List.length_set]; exact h1
    · intro x hx
      have hx' : x ∈ s.v_freq_.set interval ((s.v_freq_.getD interval 0 + 1) % 2 ^ 32) := hx
      rcases List.mem_or_eq_of_mem_set hx' with hh | hh
      · exact h2 x hh
      · rw [hh, hmod]; omega
    · show (s.v_freq_.set interval ((s.v_freq_.getD interval 0 + 1) % 2 ^ 32)).sum
        ≤ kNumBranch + (n + 1 - kNumEstSample)
      rw [hmod]
      have := sum_set_eq s.v_freq_ interval (s.v_freq_.getD interval 0 + 1) hi
      omega
    · show s.v_count_ + 1 = n + 1
      rw [h4]
  · refine ⟨?_, ?_, ?_, ?_, h5, fun _ => by omega⟩
    · show (s.v_freq_.set interval _).length = kNumBranch
      rw [List.length_set]; exact h1
    · intro x hx
      have hx' : x ∈ s.v_freq_.set interval ((s.v_freq_.getD interval 0 + 1) % 2 ^ 32) := hx
      rw [List.set_eq_of_length_le (by omega)] at hx'
      exact h2 x hx'
    · show (s.v_freq_.set interval ((s.v_freq_.getD interval 0 + 1) % 2 ^ 32)).sum
        ≤ kNumBranch + (n + 1 - kNumEstSample)
      rw [List.set_eq_of_length_le (by omega)]
      omega
    · show s.v_count_ + 1 = n + 1
      rw [h4]

theorem PushValue_buffered (s : NumericalStats) (v : ℚ) (hs : s.is_estimated_ = false)
    (hc : s.v_count_ + 1 < kNumEstSample) :
    s.PushValue v = some { s with values_ := s.values_ ++ [v], v_count_ := s.v_count_ + 1 } := by
  unfold NumericalStats.PushValue
  rw [hs]
  simp only [Bool.not_false, if_true]
  rw [if_neg]
  show ¬ (s.v_count_ + 1 ≥ kNumEstSample)
  omega

theorem PushValue_last_buffered (s : NumericalStats) (v : ℚ) (hs : s.is_estimated_ = false)
    (hc : s.v_count_ + 1 = kNumEstSample) :
    s.PushValue v = NumericalStats.InitHistogramStructure
      { s with values_ := s.values_ ++ [v], v_count_ := s.v_count_ + 1 } := by
  unfold NumericalStats.PushValue
  rw [hs]
  simp only [Bool.not_false, if_true]
  rw [if_pos]
  show s.v_count_ + 1 ≥ kNumEstSample
  omega

theorem pushValues_buffer : ∀ (vs : List ℚ) (s : NumericalStats),
    s.is_estimated_ = false → s.v_count_ + vs.length < kNumEstSample →
    s.pushValues vs
      = some { s with values_ := s.values_ ++ vs, v_count_ := s.v_count_ + vs.length } := by
  intro vs
  induction vs with
  | nil =>
    intro s _ _
    rw [NumericalStats.pushValues, List.append_nil, List.length_nil, Nat.add_zero]
  | cons v vs ih =>
    intro s hs hlt
    rw [List.length_cons] at hlt
    have hpush := PushValue_buffered s v hs (by omega)
    have h1 := ih { s with values_ := s.values_ ++ [v], v_count_ := s.v_count_ + 1 } hs
      (by show s.v_count_ + 1 + vs.length < kNumEstSample; omega)
    rw [NumericalStats.pushValues, hpush]
    dsimp only
    rw [h1]
    show some (NumericalStats.mk _ _ _ _ _ _ (s.v_count_ + 1 + vs.length)
      (s.values_ ++ [v] ++ vs) _ _ _ _ _ _ _ _ _)
      = some (NumericalStats.mk _ _ _ _ _ _ _ _ _ _ _ _ _ _ _ _ _)
    rw [List.append_assoc, List.singleton_append, List.length_cons, Nat.add_assoc,
      Nat.add_comm 1 vs.length]

theorem pushValues_append : ∀ (a b : List ℚ) (s : NumericalStats),
    s.pushValues (a ++ b) = (s.pushValues a).bind fun s1 => s1.pushValues b := by
  intro a
  induction a with
  | nil => intro b s; rfl
  | cons v vs ih =>
    intro b s
    rw [List.cons_append, NumericalStats.pushValues, NumericalStats.pushValues]
    cases s.PushValue v with
    | none => rfl
    | some s1 => exact ih b s1

theorem layerLoop_pos : ∀ (fuel num_layer : Nat) (branch_bins : Int), 1 ≤ branch_bins →
    1 ≤ (layerLoop fuel num_layer branch_bins).2 := by
  intro fuel
  induction fuel with
  | zero => intro num_layer branch_bins h; exact h
  | succ fuel ih =>
    intro num_layer branch_bins h
    unfold layerLoop
    by_cases hb : branch_bins > 65536
    · rw [if_pos hb]
      apply ih
      omega
    · rw [if_neg hb]; exact h

theorem layerLoop_le : ∀ (fuel num_layer : Nat) (branch_bins : Int),
    branch_bins < 65536 * 2 ^ (16 * fuel) →
    (layerLoop fuel num_layer branch_bins).2 ≤ 65536 := by
  intro fuel
  induction fuel with
  | zero =>
    intro num_layer branch_bins h
    rw [Nat.mul_zero, pow_zero, mul_one] at h
    exact h.le
  | succ fuel ih =>
    intro num_layer branch_bins h
    unfold layerLoop
    by_cases hb : branch_bins > 65536
    · rw [if_pos hb]
      apply ih
      have h2 : (65536 : Int) * 2 ^ (16 * (fuel + 1)) = 65536 * 2 ^ (16 * fuel) * 2 ^ 16 := by
        rw [Nat.mul_succ, pow_add, mul_assoc]
      rw [h2] at h
      exact Int.ediv_lt_of_lt_mul (by norm_num) h
    · rw [if_neg hb]; omega

theorem p2ge_layers (branch_bins : Int) (h2 : branch_bins < 2 ^ 63) :
    ∃ mask, p2ge (layerLoop 4 0 branch_bins).2.toNat = some mask := by
  have hle := layerLoop_le 4 0 branch_bins (by
    have : (65536 : Int) * 2 ^ (16 * 4) = 2 ^ 80 := by norm_num
    rw [this]
    exact lt_trans h2 (by norm_num))
  obtain ⟨r, e, _⟩ := p2ge_spec (layerLoop 4 0 branch_bins).2.toNat (by omega)
  exact ⟨r, e⟩

theorem getD_resizeList (l : List Nat) (n j : Nat) :
    (resizeList l n).getD j 0 = if j < n then l.getD j 0 else 0 := by
  unfold resizeList
  rw [List.getD_eq_getElem?_getD, List.getD_eq_getElem?_getD, List.getElem?_append]
  by_cases hj : j < n
  · rw [if_pos hj]
    by_cases hl : j < l.length
    · rw [if_pos (by rw [List.length_take]; omega), List.getElem?_take_of_lt hj]
    · rw [if_neg (by rw [List.length_take]; omega), List.getElem?_replicate,
        List.getElem?_eq_none (by omega)]
      split_ifs <;> rfl
  · rw [if_neg hj, if_neg (by rw [List.length_take]; omega), List.getElem?_replicate,
      if_neg (by rw [List.length_take]; omega)]
    rfl

theorem resizeList_length (l : List Nat) (n : Nat) : (resizeList l n).length = n := by
  unfold resizeList
  rw [List.length_append, List.length_take, List.length_replicate]
  omega

theorem getElem_resizeList (l : List Nat) (n i : Nat) (h : i < (resizeList l n).length) :
    (resizeList l n)[i] = l.getD i 0 := by
  have h1 : i < n := by rw [resizeList_length] at h; exact h
  have e := getD_resizeList l n i
  rw [if_pos h1, List.getD_eq_getElem _ _ h] at e
  exact e

theorem resizeList_congr (l₁ l₂ : List Nat) (n : Nat)
    (h : ∀ i, i < n → l₁.getD i 0 = l₂.getD i 0) : resizeList l₁ n = resizeList l₂ n := by
  apply List.ext_getElem
  · rw [resizeList_length, resizeList_length]
  · intro i h1 h2
    rw [getElem_resizeList, getElem_resizeList]
    exact h i (by rw [resizeList_length] at h1; exact h1)

theorem resizeList_succ (l : List Nat) (n : Nat) :
    resizeList l (n + 1) = resizeList l n ++ [l.getD n 0] := by
  apply List.ext_getElem
  · rw [List.length_append, resizeList_length, resizeList_length]; rfl
  · intro i h1 h2
    rw [getElem_resizeList]
    by_cases hi : i < n
    · rw [List.getElem_append_left (by rw [resizeList_length]; exact hi), getElem_resizeList]
    · have hin : i = n := by rw [resizeList_length] at h1; omega
      subst hin
      rw [List.getElem_append_right (by rw [resizeList_length])]
      simp [resizeList_length]

theorem getD_bufferAdd (buffer : List Nat) (i v j : Nat) :
    (bufferAdd buffer i v).getD j 0
      = if j = i then (buffer.getD i 0 + v) % 256 else buffer.getD j 0 := by
  unfold bufferAdd
  dsimp only
  have hb : ∀ k, (if buffer.length ≤ i then resizeList buffer (i + 1) else buffer).getD k 0
      = buffer.getD k 0 := by
    intro k
    by_cases hl : buffer.length ≤ i
    · rw [if_pos hl, getD_resizeList]
      by_cases hk : k < i + 1
      · rw [if_pos hk]
      · rw [if_neg hk, List.getD_eq_getElem?_getD, List.getElem?_eq_none (by omega)]; rfl
    · rw [if_neg hl]
  have hlen : i < (if buffer.length ≤ i then resizeList buffer (i + 1) else buffer).length := by
    by_cases hl : buffer.length ≤ i
    · rw [if_pos hl, resizeList_length]; omega
    · rw [if_neg hl]; omega
  by_cases hj : j = i
  · rw [if_pos hj, hj, getD_set_self _ _ _ hlen, hb]
  · rw [if_neg hj, getD_set_ne _ _ _ _ (fun h => hj h.symm), hb]

theorem and_seven (x : Nat) : x &&& 7 = x % 8 :=
  Nat.and_pow_two_sub_one_eq_mod x 3

theorem close_of_aligned (w : SequenceByteWriter) (h : w.bits_counter_ % 8 = 0) :
    w.close = w.file_ ++ resizeList w.buffer_ (w.bits_counter_ / 8) := by
  unfold SequenceByteWriter.close
  rw [and_seven, h, Nat.shiftRight_eq_div_pow _ 3, if_neg (by decide), Nat.add_zero]

theorem WriteByte_aligned (w : SequenceByteWriter) (b : Nat) (hb : b < 256)
    (h : WriterAligned w) :
    WriterAligned (w.WriteByte b) ∧ (w.WriteByte b).close = w.close ++ [b] := by
  obtain ⟨h1, h2, h3⟩ := h
  have hbits : w.bits_counter_ &&& 7 = 0 := by rw [and_seven]; exact h1
  have hidx : w.bits_counter_ >>> 3 = w.bits_counter_ / 8 := Nat.shiftRight_eq_div_pow _ 3
  have hbits1 : (w.bits_counter_ + 8) &&& 7 = 0 := by rw [and_seven]; omega
  have hidx1 : (w.bits_counter_ + 8) >>> 3 = w.bits_counter_ / 8 + 1 := by
    rw [Nat.shiftRight_eq_div_pow _ 3]; omega
  have hclose : w.close = w.file_ ++ resizeList w.buffer_ (w.bits_counter_ / 8) := by
    unfold SequenceByteWriter.close
    rw [hbits, hidx, if_neg (by decide), Nat.add_zero]
  have hget : ∀ j, (bufferAdd w.buffer_ (w.bits_counter_ / 8) b).getD j 0
      = if j = w.bits_counter_ / 8 then b else w.buffer_.getD j 0 := by
    intro j
    rw [getD_bufferAdd, h3 _ (Nat.le_refl _), Nat.zero_add, Nat.mod_eq_of_lt hb]
  have hres : resizeList (bufferAdd w.buffer_ (w.bits_counter_ / 8) b) (w.bits_counter_ / 8 + 1)
      = resizeList w.buffer_ (w.bits_counter_ / 8) ++ [b] := by
    rw [resizeList_succ, hget, if_pos rfl]
    congr 1
    apply resizeList_congr
    intro i hi
    rw [hget, if_neg (by omega)]
  unfold SequenceByteWriter.WriteByte SequenceByteWriter.WriteLess
  rw [Nat.mod_eq_of_lt hb, hbits, hidx]
  dsimp only
  rw [if_pos (show 8 ≤ 8 - 0 from by decide), show 8 - 8 - 0 = 0 from rfl, Nat.shiftLeft_zero, hidx1]
  by_cases hfull : w.bits_counter_ + 8 ≥ 65536 * 8
  · rw [if_pos hfull]
    refine ⟨⟨?_, ?_, ?_⟩, ?_⟩
    · show ((w.bits_counter_ + 8) &&& 7) % 8 = 0
      rw [hbits1]
    · show ((w.bits_counter_ + 8) &&& 7) < 65536 * 8
      rw [hbits1]; decide
    · intro i _
      show [(bufferAdd w.buffer_ (w.bits_counter_ / 8) b).getD (w.bits_counter_ / 8 + 1) 0].getD
        i 0 = 0
      rw [hget, if_neg (by omega), h3 _ (by omega)]
      cases i <;> rfl
    · rw [close_of_aligned _ (show ((w.bits_counter_ + 8) &&& 7) % 8 = 0 by rw [hbits1]),
        hclose]
      dsimp only
      rw [hbits1, hres]
      simp [resizeList]
  · rw [if_neg hfull]
    refine ⟨⟨?_, ?_, ?_⟩, ?_⟩
    · show (w.bits_counter_ + 8) % 8 = 0
      omega
    · show w.bits_counter_ + 8 < 65536 * 8
      omega
    · intro i hi
      have hi' : (w.bits_counter_ + 8) / 8 ≤ i := hi
      show (bufferAdd w.buffer_ (w.bits_counter_ / 8) b).getD i 0 = 0
      rw [hget, if_neg (by omega), h3 _ (by omega)]
    · rw [close_of_aligned _ (show (w.bits_counter_ + 8) % 8 = 0 by omega), hclose]
      dsimp only
      rw [show (w.bits_counter_ + 8) / 8 = w.bits_counter_ / 8 + 1 by omega, hres,
        List.append_assoc]

theorem Write16Bit_aligned (w : SequenceByteWriter) (v : Nat) (h : WriterAligned w) :
    WriterAligned (w.Write16Bit v) ∧
    (w.Write16Bit v).close = w.close ++ [v % 65536 / 256, v % 256] := by
  have hv : (v % 2 ^ 32) &&& 65535 = v % 65536 := by
    rw [show (65535 : Nat) = 2 ^ 16 - 1 from rfl, Nat.and_pow_two_sub_one_eq_mod]
    omega
  have hhi : (v % 65536) >>> 8 = v % 65536 / 256 := Nat.shiftRight_eq_div_pow _ 8
  have hlo : (v % 65536) &&& 255 = v % 256 := by
    rw [show (255 : Nat) = 2 ^ 8 - 1 from rfl, Nat.and_pow_two_sub_one_eq_mod]
    omega
  unfold SequenceByteWriter.Write16Bit
  dsimp only
  rw [hv, hhi, hlo]
  obtain ⟨a1, a2⟩ := WriteByte_aligned w (v % 65536 / 256) (by omega) h
  obtain ⟨b1, b2⟩ := WriteByte_aligned _ (v % 256) (by omega) a1
  refine ⟨b1, ?_⟩
  rw [b2, a2, List.append_assoc]
  rfl

theorem foldl_Write16Bit_aligned (g : Nat → Nat) (ws : List Nat) : ∀ (w : SequenceByteWriter),
    WriterAligned w →
    WriterAligned (ws.foldl (fun w x => w.Write16Bit (g x)) w) ∧
    (ws.foldl (fun w x => w.Write16Bit (g x)) w).close
      = w.close ++ wordsBytes (ws.map fun x => g x % 65536) := by
  induction ws with
  | nil => intro w h; exact ⟨h, by simp [wordsBytes]⟩
  | cons x xs ih =>
    intro w h
    obtain ⟨a1, a2⟩ := Write16Bit_aligned w (g x) h
    obtain ⟨b1, b2⟩ := ih _ a1
    refine ⟨b1, ?_⟩
    rw [List.foldl_cons, b2, a2, List.map_cons, wordsBytes, List.append_assoc]
    have : g x % 65536 % 256 = g x % 256 := by omega
    rw [this]
    rfl

theorem Write32Bit_aligned (w : SequenceByteWriter) (v : Nat) (hv : v < 2 ^ 32)
    (h : WriterAligned w) :
    WriterAligned (w.Write32Bit v) ∧
    (w.Write32Bit v).close
      = w.close ++ [v / 2 ^ 24, v / 2 ^ 16 % 256, v / 2 ^ 8 % 256, v % 256] := by
  have h32 : (2 : Nat) ^ 32 = 4294967296 := by norm_num
  have hhi : (v % 2 ^ 32) >>> 16 = v / 65536 := by
    rw [Nat.mod_eq_of_lt hv, Nat.shiftRight_eq_div_pow _ 16]
  have hlo : (v % 2 ^ 32) &&& 65535 = v % 65536 := by
    rw [show (65535 : Nat) = 2 ^ 16 - 1 from rfl, Nat.and_pow_two_sub_one_eq_mod,
      Nat.mod_eq_of_lt hv]
  unfold SequenceByteWriter.Write32Bit
  rw [hhi, hlo]
  obtain ⟨a1, a2⟩ := Write16Bit_aligned w (v / 65536) h
  obtain ⟨b1, b2⟩ := Write16Bit_aligned _ (v % 65536) a1
  refine ⟨b1, ?_⟩
  rw [b2, a2, List.append_assoc]
  have e1 : v / 65536 % 65536 / 256 = v / 2 ^ 24 := by
    rw [show (2 : Nat) ^ 24 = 16777216 from by norm_num]; omega
  have e2 : v / 65536 % 256 = v / 2 ^ 16 % 256 := by
    rw [show (2 : Nat) ^ 16 = 65536 from by norm_num]
  have e3 : v % 65536 % 65536 / 256 = v / 2 ^ 8 % 256 := by
    rw [show (2 : Nat) ^ 8 = 256 from by norm_num]; omega
  have e4 : v % 65536 % 256 = v % 256 := by omega
  rw [e1, e2, e3, e4]
  rfl

theorem WriterAligned_fresh : WriterAligned SequenceByteWriter.fresh :=
  ⟨rfl, by decide, fun i _ => by cases i <;> rfl⟩

theorem wordsBytes_append (l₁ l₂ : List Nat) :
    wordsBytes (l₁ ++ l₂) = wordsBytes l₁ ++ wordsBytes l₂ := by
  induction l₁ with
  | nil => rfl
  | cons a l ih => simp [wordsBytes, ih]

theorem wordsBytes_length (l : List Nat) : (wordsBytes l).length = 2 * l.length := by
  induction l with
  | nil => rfl
  | cons a l ih => simp [wordsBytes, ih]; omega

/-! ## Whole bytes read by `ByteReader` -/

theorem Read16Bit_aligned (r : ByteReader) (pre post : List Nat) (hi lo : Nat)
    (hs : r.stream_ = pre ++ hi :: lo :: post) (hp : r.position_ = 8 * pre.length)
    (hlen : pre.length + 1 < 2 ^ 32) (hhi : hi < 256) (hlo : lo < 256) :
    r.Read16Bit = some (hi * 256 + lo, { r with position_ := 8 * (pre.length + 2) }) := by
  have h32 : (2 : Nat) ^ 32 = 4294967296 := by norm_num
  have h64 : (2 : Nat) ^ 64 = 18446744073709551616 := by norm_num
  have hbit : r.position_ &&& 7 = 0 := by rw [and_seven, hp]; omega
  have hidx : (r.position_ >>> 3) % 2 ^ 32 = pre.length := by
    rw [Nat.shiftRight_eq_div_pow _ 3, hp, show (2 : Nat) ^ 3 = 8 from rfl,
      Nat.mul_div_cancel_left _ (by decide), Nat.mod_eq_of_lt (by omega)]
  have ha : r.stream_[pre.length]? = some hi := by
    rw [hs, List.getElem?_append_right (Nat.le_refl _), Nat.sub_self]; rfl
  have hb : r.stream_[(pre.length + 1) % 2 ^ 32]? = some lo := by
    rw [Nat.mod_eq_of_lt hlen, hs, List.getElem?_append_right (by omega),
      show pre.length + 1 - pre.length = 1 by omega]
    simp
  have hval : ((hi <<< (0 + 8)) ||| (lo <<< 0)) % 2 ^ 16 = hi * 256 + lo := by
    have hor := Nat.mul_add_lt_is_or (show lo < 2 ^ 8 from hlo) hi
    rw [Nat.zero_add, Nat.shiftLeft_zero, Nat.shiftLeft_eq, Nat.mul_comm hi (2 ^ 8), ← hor,
      show (2 : Nat) ^ 8 = 256 from rfl, show (2 : Nat) ^ 16 = 65536 from rfl]
    omega
  have hpos : (r.position_ + 16) % 2 ^ 64 = 8 * (pre.length + 2) := by
    rw [hp, Nat.mod_eq_of_lt (by omega)]; omega
  unfold ByteReader.Read16Bit
  rw [hbit, hidx]
  dsimp only
  rw [ha, hb, hpos]
  simp only [Option.bind_eq_bind, Option.some_bind, hval]
  rfl

/-! ## The index file: what `IndexCreator` writes and what `IndexReader::Init` reads -/

theorem pairBytes_length (es : List (Nat × Nat)) : (pairBytes es).length = 4 * es.length := by
  induction es with
  | nil => rfl
  | cons e es ih =>
    obtain ⟨a, b⟩ := e
    simp only [pairBytes, List.length_cons, ih]
    omega

theorem WriteBlockInfo_file_writer (c : IndexCreator) (len t : Nat) :
    (c.WriteBlockInfo len t).file_writer_
      = (c.file_writer_.Write16Bit len).Write16Bit
          ((t + 2 ^ 32 - c.last_block_size_) % 2 ^ 32) := rfl

theorem WriteBlockInfo_last (c : IndexCreator) (len t : Nat) :
    (c.WriteBlockInfo len t).last_block_size_ = t := rfl

theorem WriteBlockInfo_num_block (c : IndexCreator) (len t : Nat) :
    (c.WriteBlockInfo len t).num_block_ = (c.num_block_ + 1) % 2 ^ 32 := rfl

theorem WriteBlockInfo_foldl (blocks : List (Nat × Nat)) : ∀ (c : IndexCreator),
    WriterAligned c.file_writer_ → c.num_block_ < 2 ^ 32 →
    WriterAligned (blocks.foldl (fun c b => c.WriteBlockInfo b.1 b.2) c).file_writer_ ∧
    (blocks.foldl (fun c b => c.WriteBlockInfo b.1 b.2) c).file_writer_.close
      = c.file_writer_.close ++ pairBytes (indexEntries c.last_block_size_ blocks) ∧
    (blocks.foldl (fun c b => c.WriteBlockInfo b.1 b.2) c).num_block_
      = (c.num_block_ + blocks.length) % 2 ^ 32 := by
  induction blocks with
  | nil =>
    intro c h hc
    exact ⟨h, by simp [indexEntries, pairBytes], (Nat.mod_eq_of_lt hc).symm⟩
  | cons b bs ih =>
    intro c h hc
    obtain ⟨len, t⟩ := b
    obtain ⟨a1, a2⟩ := Write16Bit_aligned c.file_writer_ len h
    obtain ⟨b1, b2⟩ := Write16Bit_aligned (c.file_writer_.Write16Bit len)
      ((t + 2 ^ 32 - c.last_block_size_) % 2 ^ 32) a1
    obtain ⟨c1, c2, c3⟩ := ih (c.WriteBlockInfo len t)
      (by rw [WriteBlockInfo_file_writer]; exact b1)
      (by rw [WriteBlockInfo_num_block]; exact Nat.mod_lt _ (by norm_num))
    rw [WriteBlockInfo_file_writer, WriteBlockInfo_last] at c2
    rw [WriteBlockInfo_num_block] at c3
    refine ⟨c1, ?_, ?_⟩
    · rw [List.foldl_cons, c2]
      rw [b2, a2, indexEntries, pairBytes, List.append_assoc, List.append_assoc]
      have e1 : len % 65536 % 256 = len % 256 := by omega
      have e2 : (t + 2 ^ 32 - c.last_block_size_) % 2 ^ 32 % 65536 % 256
          = (t + 2 ^ 32 - c.last_block_size_) % 2 ^ 32 % 256 := by omega
      rw [e1, e2]
      rfl
    · rw [List.foldl_cons, c3, List.length_cons]
      omega

theorem IndexCreator_End_writeAll (blocks : List (Nat × Nat)) (hN : blocks.length < 2 ^ 32) :
    (IndexCreator.writeAll blocks).End
      = pairBytes (indexEntries 0 blocks) ++ bytes32 blocks.length := by
  obtain ⟨c1, c2, c3⟩ := WriteBlockInfo_foldl blocks IndexCreator.fresh WriterAligned_fresh
    (by decide)
  have hnum : (IndexCreator.writeAll blocks).num_block_ = blocks.length := by
    have h0 : IndexCreator.fresh.num_block_ = 0 := rfl
    rw [h0, Nat.zero_add, Nat.mod_eq_of_lt hN] at c3
    exact c3
  have hclose : (IndexCreator.writeAll blocks).file_writer_.close
      = pairBytes (indexEntries 0 blocks) := by
    have h0 : IndexCreator.fresh.file_writer_.close = [] := by decide
    have h1 : IndexCreator.fresh.last_block_size_ = 0 := rfl
    rw [h0, h1, List.nil_append] at c2
    exact c2
  unfold IndexCreator.End
  obtain ⟨d1, d2⟩ := Write32Bit_aligned (IndexCreator.writeAll blocks).file_writer_
    (IndexCreator.writeAll blocks).num_block_ (by rw [hnum]; exact hN) c1
  rw [d2, hnum, hclose]
  rfl

theorem prefixSums32_length (l : List Nat) : ∀ acc, (prefixSums32 acc l).length = l.length + 1 := by
  induction l with
  | nil => intro acc; rfl
  | cons x xs ih => intro acc; simp only [prefixSums32, List.length_cons, ih]

theorem initLoop_spec (post : List Nat) : ∀ (es : List (Nat × Nat)) (pre Qb Qt : List Nat)
    (lb lt : Nat) (r : IndexReader),
    r.file_reader_.stream_ = pre ++ (pairBytes es ++ post) →
    r.file_reader_.position_ = 8 * pre.length →
    pre.length + 4 * es.length < 2 ^ 32 →
    (∀ e ∈ es, e.1 < 65536 ∧ e.2 < 65536) →
    r.block_bits_ = (Qb ++ [lb]) ++ List.replicate es.length 0 →
    r.block_tuples_ = (Qt ++ [lt]) ++ List.replicate es.length 0 →
    Qt.length = Qb.length →
    ∃ r1, IndexReader.initLoop es.length Qb.length r = some r1 ∧
      r1.block_bits_ = Qb ++ prefixSums32 lb (es.map Prod.fst) ∧
      r1.block_tuples_ = Qt ++ prefixSums32 lt (es.map Prod.snd) ∧
      r1.num_block_ = r.num_block_ := by
  intro es
  induction es with
  | nil =>
    intro pre Qb Qt lb lt r _ _ _ _ hb ht _
    refine ⟨r, rfl, ?_, ?_, rfl⟩
    · rw [hb]; simp [prefixSums32]
    · rw [ht]; simp [prefixSums32]
  | cons e es ih =>
    intro pre Qb Qt lb lt r hs hp hlen hes hb ht hQ
    obtain ⟨a, b⟩ := e
    obtain ⟨ha, hb16⟩ := hes (a, b) (List.mem_cons_self _ _)
    simp only at ha hb16
    rw [List.length_cons] at hlen hb ht
    have h32 : (2 : Nat) ^ 32 = 4294967296 := by norm_num
    have hs1 : r.file_reader_.stream_
        = pre ++ a / 256 :: a % 256 :: (b / 256 :: b % 256 :: (pairBytes es ++ post)) := by
      rw [hs]; rfl
    have hr1 := Read16Bit_aligned r.file_reader_ pre _ (a / 256) (a % 256) hs1 hp (by omega)
      (by omega) (by omega)
    have hs2 : ({ r.file_reader_ with position_ := 8 * (pre.length + 2) } : ByteReader).stream_
        = (pre ++ [a / 256, a % 256]) ++ b / 256 :: b % 256 :: (pairBytes es ++ post) := by
      show r.file_reader_.stream_ = _
      rw [hs1, List.append_assoc]; rfl
    have hr2 := Read16Bit_aligned { r.file_reader_ with position_ := 8 * (pre.length + 2) }
      (pre ++ [a / 256, a % 256]) _ (b / 256) (b % 256) hs2
      (by simp) (by simp; omega) (by omega) (by omega)
    have hva : a / 256 * 256 + a % 256 = a := by omega
    have hvb : b / 256 * 256 + b % 256 = b := by omega
    rw [hva] at hr1
    rw [hvb] at hr2
    have hgb : r.block_bits_.getD Qb.length 0 = lb := by rw [hb]; exact getD_append_self _ _ _
    have hgt : r.block_tuples_.getD Qb.length 0 = lt := by
      rw [ht, ← hQ]; exact getD_append_self _ _ _
    have hsb : r.block_bits_.set (Qb.length + 1) ((lb + a) % 2 ^ 32)
        = ((Qb ++ [lb]) ++ [(lb + a) % 2 ^ 32]) ++ List.replicate es.length 0 := by
      rw [hb]
      have := set_append_replicate (Qb ++ [lb]) es.length ((lb + a) % 2 ^ 32)
      rw [List.length_append, List.length_singleton] at this
      exact this
    have hst : r.block_tuples_.set (Qb.length + 1) ((lt + b) % 2 ^ 32)
        = ((Qt ++ [lt]) ++ [(lt + b) % 2 ^ 32]) ++ List.replicate es.length 0 := by
      rw [ht]
      have := set_append_replicate (Qt ++ [lt]) es.length ((lt + b) % 2 ^ 32)
      rw [List.length_append, List.length_singleton, hQ] at this
      exact this
    obtain ⟨r1, g1, g2, g3, g4⟩ := ih (pre ++ [a / 256, a % 256, b / 256, b % 256])
      (Qb ++ [lb]) (Qt ++ [lt]) ((lb + a) % 2 ^ 32) ((lt + b) % 2 ^ 32)
      { r with file_reader_ := { r.file_reader_ with
                 position_ := 8 * ((pre ++ [a / 256, a % 256]).length + 2) },
               block_bits_ := r.block_bits_.set (Qb.length + 1) ((lb + a) % 2 ^ 32),
               block_tuples_ := r.block_tuples_.set (Qb.length + 1) ((lt + b) % 2 ^ 32) }
      (by show r.file_reader_.stream_ = _
          rw [hs1, List.append_assoc]; rfl)
      (by simp)
      (by simp; omega)
      (fun e he => hes e (List.mem_cons_of_mem _ he))
      hsb hst (by simp [hQ])
    refine ⟨r1, ?_, ?_, ?_, g4⟩
    · rw [List.length_cons]
      unfold IndexReader.initLoop
      rw [hr1]
      simp only [Option.bind_eq_bind, Option.some_bind]
      rw [hr2]
      simp only [Option.bind_eq_bind, Option.some_bind]
      rw [hgb, hgt]
      rw [List.length_append, List.length_singleton] at g1
      exact g1
    · rw [g2, List.map_cons, prefixSums32, List.append_assoc]; rfl
    · rw [g3, List.map_cons, prefixSums32, List.append_assoc]; rfl

theorem toI32_of_lt (n : Nat) (h : n < 2 ^ 31) : toI32 n = n := by
  have h31 : (2 : Nat) ^ 31 = 2147483648 := by norm_num
  have h32 : (2 : Nat) ^ 32 = 4294967296 := by norm_num
  unfold toI32
  rw [Nat.mod_eq_of_lt (by omega), if_pos h]

theorem Read32Bit_aligned (r : ByteReader) (pre post : List Nat) (n : Nat)
    (hs : r.stream_ = pre ++ (bytes32 n ++ post)) (hp : r.position_ = 8 * pre.length)
    (hlen : pre.length + 3 < 2 ^ 32) (hn : n < 2 ^ 31) :
    r.Read32Bit = some ((n : Int), { r with position_ := 8 * (pre.length + 4) }) := by
  have h31 : (2 : Nat) ^ 31 = 2147483648 := by norm_num
  have h32 : (2 : Nat) ^ 32 = 4294967296 := by norm_num
  have h24 : (2 : Nat) ^ 24 = 16777216 := by norm_num
  have h16 : (2 : Nat) ^ 16 = 65536 := by norm_num
  have h8 : (2 : Nat) ^ 8 = 256 := by norm_num
  have hs1 : r.stream_ = pre ++ n / 2 ^ 24 :: n / 2 ^ 16 % 256 ::
      (n / 2 ^ 8 % 256 :: n % 256 :: post) := by rw [hs]; rfl
  have hr1 := Read16Bit_aligned r pre _ (n / 2 ^ 24) (n / 2 ^ 16 % 256) hs1 hp (by omega)
    (by omega) (by omega)
  have hs2 : ({ r with position_ := 8 * (pre.length + 2) } : ByteReader).stream_
      = (pre ++ [n / 2 ^ 24, n / 2 ^ 16 % 256]) ++ n / 2 ^ 8 % 256 :: n % 256 :: post := by
    show r.stream_ = _
    rw [hs1, List.append_assoc]; rfl
  have hr2 := Read16Bit_aligned { r with position_ := 8 * (pre.length + 2) }
    (pre ++ [n / 2 ^ 24, n / 2 ^ 16 % 256]) _ (n / 2 ^ 8 % 256) (n % 256) hs2
    (by simp) (by simp; omega) (by omega) (by omega)
  have hv : toI32 ((((n / 2 ^ 24 * 256 + n / 2 ^ 16 % 256) <<< 16) % 2 ^ 32
      + (n / 2 ^ 8 % 256 * 256 + n % 256)) % 2 ^ 32) = n := by
    rw [Nat.shiftLeft_eq]
    have : ((n / 2 ^ 24 * 256 + n / 2 ^ 16 % 256) * 2 ^ 16 % 2 ^ 32
        + (n / 2 ^ 8 % 256 * 256 + n % 256)) % 2 ^ 32 = n := by
      rw [h32, h24, h16, h8]; omega
    rw [this]
    exact toI32_of_lt n hn
  unfold ByteReader.Read32Bit
  rw [hr1]
  simp only [Option.bind_eq_bind, Option.some_bind]
  rw [hr2]
  simp only [Option.bind_eq_bind, Option.some_bind, hv]
  simp

theorem bytes32_length (n : Nat) : (bytes32 n).length = 4 := rfl

theorem IndexReader_Init_spec (es : List (Nat × Nat))
    (hes : ∀ e ∈ es, e.1 < 65536 ∧ e.2 < 65536) (h1 : 1 ≤ es.length)
    (hN : 4 * es.length + 4 ≤ 2 ^ 31) :
    ∃ r, (IndexReader.fresh (pairBytes es ++ bytes32 es.length)).Init = some r ∧
      r.num_block_ = es.length ∧
      r.block_bits_ = prefixSums32 0 (es.map Prod.fst) ∧
      r.block_tuples_ = prefixSums32 0 (es.map Prod.snd) := by
  have h31 : (2 : Nat) ^ 31 = 2147483648 := by norm_num
  have h32 : (2 : Nat) ^ 32 = 4294967296 := by norm_num
  have h64 : (2 : Int) ^ 64 = 18446744073709551616 := by norm_num
  have hSlen : (pairBytes es ++ bytes32 es.length).length = 4 * es.length + 4 := by
    rw [List.length_append, pairBytes_length, bytes32_length]
  have hshift : (pairBytes es ++ bytes32 es.length).length <<< 3 = 32 * es.length + 32 := by
    rw [Nat.shiftLeft_eq, hSlen]; omega
  -- the position after `Seekg(-4, 0, end)`
  have hseek1 : ((IndexReader.fresh (pairBytes es ++ bytes32 es.length)).file_reader_.Seekg (-4) 0
      seekdir.fromEnd) = ⟨pairBytes es ++ bytes32 es.length, 8 * (pairBytes es).length⟩ := by
    show ({ stream_ := pairBytes es ++ bytes32 es.length,
            position_ := toU64 ((((pairBytes es ++ bytes32 es.length).length <<< 3 : Nat) : Int)
              + (-4) * 8 + ((0 : Nat) : Int)) } : ByteReader) = _
    rw [hshift, toU64_of_bounds _ (by push_cast; omega) (by rw [h64]; push_cast; omega),
      pairBytes_length]
    congr 1
    push_cast
    omega
  have hread := Read32Bit_aligned ⟨pairBytes es ++ bytes32 es.length, 8 * (pairBytes es).length⟩
    (pairBytes es) [] es.length (by simp) rfl (by rw [pairBytes_length]; omega) (by omega)
  -- the position after `Seekg(-4 * num_block_ - 4, 0, end)`
  have hseek2 : (({ (⟨pairBytes es ++ bytes32 es.length, 8 * (pairBytes es).length⟩ : ByteReader)
      with position_ := 8 * ((pairBytes es).length + 4) } : ByteReader).Seekg
        (-4 * (es.length : Int) - 4) 0 seekdir.fromEnd)
      = ⟨pairBytes es ++ bytes32 es.length, 0⟩ := by
    show ({ stream_ := pairBytes es ++ bytes32 es.length,
            position_ := toU64 ((((pairBytes es ++ bytes32 es.length).length <<< 3 : Nat) : Int)
              + (-4 * (es.length : Int) - 4) * 8 + ((0 : Nat) : Int)) } : ByteReader) = _
    rw [hshift, toU64_of_bounds _ (by push_cast; omega) (by rw [h64]; push_cast; omega)]
    congr 1
    push_cast
    omega
  obtain ⟨r1, g1, g2, g3, g4⟩ := initLoop_spec (bytes32 es.length) es [] [] [] 0 0
    { IndexReader.fresh (pairBytes es ++ bytes32 es.length) with
        num_block_ := (es.length : Int),
        block_bits_ := resizeList [] (es.length + 1),
        block_tuples_ := resizeList [] (es.length + 1),
        file_reader_ := ⟨pairBytes es ++ bytes32 es.length, 0⟩ }
    rfl rfl (by simp; omega) hes
    (by show resizeList [] (es.length + 1) = _
        rw [resizeList_nil, List.replicate_succ]; rfl)
    (by show resizeList [] (es.length + 1) = _
        rw [resizeList_nil, List.replicate_succ]; rfl)
    rfl
  refine ⟨r1, ?_, g4, by rw [g2]; rfl, by rw [g3]; rfl⟩
  unfold IndexReader.Init
  rw [hseek1, hread]
  simp only [Option.bind_eq_bind, Option.some_bind]
  rw [if_neg (by omega), hseek2, Int.toNat_ofNat]
  have hfresh : (IndexReader.fresh (pairBytes es ++ bytes32 es.length)).block_bits_ = [] := rfl
  have hfresh2 : (IndexReader.fresh (pairBytes es ++ bytes32 es.length)).block_tuples_ = [] := rfl
  rw [hfresh, hfresh2]
  rw [show List.length ([] : List Nat) = 0 from rfl] at g1
  rw [g1]
  simp only [Option.some_bind]
  have hlen2 : 1 < r1.block_tuples_.length := by
    rw [g3, List.nil_append, prefixSums32_length, List.length_map]; omega
  rw [List.getElem?_eq_getElem hlen2]
  rfl

theorem indexEntries_lt (blocks : List (Nat × Nat)) : ∀ (last : Nat),
    ∀ e ∈ indexEntries last blocks, e.1 < 65536 ∧ e.2 < 65536 := by
  induction blocks with
  | nil => intro last e he; simp [indexEntries] at he
  | cons b bs ih =>
    intro last e he
    obtain ⟨len, t⟩ := b
    rw [indexEntries, List.mem_cons] at he
    rcases he with h | h
    · rw [h]
      exact ⟨Nat.mod_lt _ (by decide), Nat.mod_lt _ (by decide)⟩
    · exact ih t e h

theorem indexEntries_length (blocks : List (Nat × Nat)) : ∀ (last : Nat),
    (indexEntries last blocks).length = blocks.length := by
  induction blocks with
  | nil => intro last; rfl
  | cons b bs ih =>
    intro last
    obtain ⟨len, t⟩ := b
    rw [indexEntries, List.length_cons, List.length_cons, ih]

theorem indexEntries_fst (blocks : List (Nat × Nat)) : ∀ (last : Nat),
    (indexEntries last blocks).map Prod.fst = blocks.map fun b => b.1 % 65536 := by
  induction blocks with
  | nil => intro last; rfl
  | cons b bs ih =>
    intro last
    obtain ⟨len, t⟩ := b
    rw [indexEntries, List.map_cons, List.map_cons, ih]

/-- What `IndexReader::Init` rebuilds from the index file `IndexCreator` wrote for `blocks`:
the prefix sums, in `uint32_t`, of the 16-bit entries. -/
theorem IndexReader_Init_writeAll (blocks : List (Nat × Nat)) (h1 : 1 ≤ blocks.length)
    (hN : 4 * blocks.length + 4 ≤ 2 ^ 31) :
    ∃ r, (IndexReader.fresh (IndexCreator.writeAll blocks).End).Init = some r ∧
      r.num_block_ = blocks.length ∧
      r.block_bits_ = prefixSums32 0 (blocks.map fun b => b.1 % 65536) ∧
      r.block_tuples_ = prefixSums32 0 ((indexEntries 0 blocks).map Prod.snd) := by
  have h31 : (2 : Nat) ^ 31 = 2147483648 := by norm_num
  have h32 : (2 : Nat) ^ 32 = 4294967296 := by norm_num
  rw [IndexCreator_End_writeAll blocks (by omega)]
  obtain ⟨r, g1, g2, g3, g4⟩ := IndexReader_Init_spec (indexEntries 0 blocks)
    (indexEntries_lt blocks 0) (by rw [indexEntries_length]; exact h1)
    (by rw [indexEntries_length]; exact hN)
  rw [indexEntries_length] at g1 g2
  rw [indexEntries_fst] at g3
  exact ⟨r, g1, g2, g3, g4⟩

theorem prefixSums32_getD (l : List Nat) : ∀ (acc i : Nat), acc < 2 ^ 32 → i ≤ l.length →
    (prefixSums32 acc l).getD i 0 = (acc + (l.take i).sum) % 2 ^ 32 := by
  induction l with
  | nil =>
    intro acc i hacc hi
    have : i = 0 := by simpa using hi
    subst this
    have hm : acc % 4294967296 = acc := Nat.mod_eq_of_lt (by norm_num at hacc; exact hacc)
    simp [prefixSums32, hm]
  | cons x xs ih =>
    intro acc i hacc hi
    cases i with
    | zero =>
      have hm : acc % 4294967296 = acc := Nat.mod_eq_of_lt (by norm_num at hacc; exact hacc)
      simp [prefixSums32, hm]
    | succ i =>
      rw [prefixSums32, List.getD_cons_succ, ih _ i (Nat.mod_lt _ (by norm_num))
        (by simpa using hi), List.take_succ_cons, List.sum_cons]
      rw [Nat.mod_add_mod, Nat.add_assoc]

theorem prefixSums32_tuples (blocks : List (Nat × Nat)) : ∀ (last : Nat), last < 2 ^ 32 →
    (∀ b ∈ blocks, b.2 < 2 ^ 32) →
    List.Chain (fun a b => a ≤ b ∧ b - a ≤ 65535) last (blocks.map Prod.snd) →
    prefixSums32 last ((indexEntries last blocks).map Prod.snd) = last :: blocks.map Prod.snd := by
  have h32 : (2 : Nat) ^ 32 = 4294967296 := by norm_num
  induction blocks with
  | nil => intro last _ _ _; rfl
  | cons b bs ih =>
    intro last hlast hb hchain
    obtain ⟨len, t⟩ := b
    rw [List.map_cons, List.chain_cons] at hchain
    obtain ⟨⟨c1, c2⟩, c3⟩ := hchain
    simp only at c1 c2 c3
    have ht : t < 2 ^ 32 := hb (len, t) (List.mem_cons_self _ _)
    have hd : (t + 2 ^ 32 - last) % 2 ^ 32 % 65536 = t - last := by omega
    rw [indexEntries, List.map_cons, prefixSums32, hd,
      show (last + (t - last)) % 2 ^ 32 = t by omega,
      ih t ht (fun b hb' => hb b (List.mem_cons_of_mem _ hb')) c3]
    rfl

theorem sum_replicate_nat (n a : Nat) : (List.replicate n a).sum = n * a := by
  rw [List.sum_replicate, smul_eq_mul]

theorem sum_take_le (l : List Nat) (i : Nat) : (l.take i).sum ≤ l.sum := by
  have h := List.take_append_drop i l
  have h2 : l.sum = (l.take i).sum + (l.drop i).sum := by
    rw [← List.sum_append, h]
  omega

/-- C19 (amended): if `IndexCreator::WriteBlockInfo` is called for blocks `1..N` with word
counts `len_i` and cumulative tuple counts `t_1 <= ... <= t_N` (32-bit values), where every
`len_i` and every `t_i - t_(i-1)` is at most 65535, and if moreover `1 <= N < 2^29` and
`len_1 + ... + len_N < 2^32`, then after `End` and `IndexReader::Init` on the written bytes
the reader has `num_block_ = N`, `block_tuples_[i] = t_i` and
`block_bits_[i] = len_1 + ... + len_i` for every `i` in `1..N`, with both arrays 0 at
index 0. -/
theorem IndexReader_Init_round_trip (blocks : List (Nat × Nat)) (h1 : 1 ≤ blocks.length)
    (hN : blocks.length < 2 ^ 29) (hlen : ∀ b ∈ blocks, b.1 ≤ 65535)
    (ht : ∀ b ∈ blocks, b.2 < 2 ^ 32)
    (hchain : List.Chain (fun a b => a ≤ b ∧ b - a ≤ 65535) 0 (blocks.map Prod.snd))
    (hsum : (blocks.map Prod.fst).sum < 2 ^ 32) :
    ∃ r, (IndexReader.fresh (IndexCreator.writeAll blocks).End).Init = some r ∧
      r.num_block_ = blocks.length ∧
      r.block_tuples_ = 0 :: blocks.map Prod.snd ∧
      r.block_bits_.length = blocks.length + 1 ∧
      ∀ i, i ≤ blocks.length → r.block_bits_.getD i 0 = ((blocks.take i).map Prod.fst).sum := by
  have h29 : (2 : Nat) ^ 29 = 536870912 := by norm_num
  have h31 : (2 : Nat) ^ 31 = 2147483648 := by norm_num
  obtain ⟨r, g1, g2, g3, g4⟩ := IndexReader_Init_writeAll blocks h1 (by omega)
  have hmap : (blocks.map fun b => b.1 % 65536) = blocks.map Prod.fst := by
    apply List.map_congr_left
    intro b hb
    have := hlen b hb
    exact Nat.mod_eq_of_lt (by omega)
  rw [hmap] at g3
  rw [prefixSums32_tuples blocks 0 (by norm_num) ht hchain] at g4
  refine ⟨r, g1, g2, g4, ?_, ?_⟩
  · rw [g3, prefixSums32_length, List.length_map]
  · intro i hi
    rw [g3, prefixSums32_getD _ 0 i (by norm_num) (by rw [List.length_map]; exact hi),
      Nat.zero_add, ← List.map_take]
    have := sum_take_le (blocks.map Prod.fst) i
    rw [← List.map_take] at this
    exact Nat.mod_eq_of_lt (by omega)

theorem IndexReader_Init_round_trip_witness :
    ∃ r, (IndexReader.fresh (IndexCreator.writeAll [(3, 2), (5, 4)]).End).Init = some r ∧
      r.num_block_ = ([(3, 2), (5, 4)] : List (Nat × Nat)).length ∧
      r.block_tuples_ = 0 :: ([(3, 2), (5, 4)] : List (Nat × Nat)).map Prod.snd ∧
      r.block_bits_.length = ([(3, 2), (5, 4)] : List (Nat × Nat)).length + 1 ∧
      ∀ i, i ≤ ([(3, 2), (5, 4)] : List (Nat × Nat)).length →
        r.block_bits_.getD i 0
          = ((([(3, 2), (5, 4)] : List (Nat × Nat)).take i).map Prod.fst).sum :=
  IndexReader_Init_round_trip [(3, 2), (5, 4)] (by decide) (by decide) (by decide) (by decide)
    (by simp) (by decide)

theorem map_fst_long_blocks (n : Nat) :
    ((List.range' 0 n).map fun i => ((65535 : Nat), i + 1)).map Prod.fst
      = List.replicate n 65535 := by
  rw [List.map_map]
  have : (Prod.fst ∘ fun i => ((65535 : Nat), i + 1)) = fun _ => 65535 := rfl
  rw [this, List.map_const', List.length_range']

theorem map_snd_long_blocks (n : Nat) :
    ((List.range' 0 n).map fun i => ((65535 : Nat), i + 1)).map Prod.snd
      = List.range' 1 n := by
  rw [List.map_map]
  have : (Prod.snd ∘ fun i => ((65535 : Nat), i + 1)) = fun i => i + 1 := rfl
  rw [this]
  have h := List.range'_eq_map_range 1 n
  have h0 := List.range'_eq_map_range 0 n
  rw [h, h0, List.map_map]
  apply List.map_congr_left
  intro i _
  simp
  omega

/-- C19 (counterexample): 65538 blocks of 65535 words and one tuple each satisfy the
bounds of the claim; after `End` and `Init` the reader has `num_block_ = 65538` but
`block_bits_[65538]` is `65534`, not the sum `65538 * 65535 = 4295032830` of the word
counts: the prefix sums are taken in 32 bits. -/
theorem IndexReader_Init_round_trip_counterexample :
    (∀ b ∈ (List.range' 0 65538).map (fun i => ((65535 : Nat), i + 1)), b.1 ≤ 65535) ∧
    List.Chain (fun a b => a ≤ b ∧ b - a ≤ 65535) 0
      (((List.range' 0 65538).map fun i => ((65535 : Nat), i + 1)).map Prod.snd) ∧
    ((((List.range' 0 65538).map fun i => ((65535 : Nat), i + 1)).take 65538).map
      Prod.fst).sum = 4295032830 ∧
    ∃ r, (IndexReader.fresh (IndexCreator.writeAll
        ((List.range' 0 65538).map fun i => ((65535 : Nat), i + 1))).End).Init = some r ∧
      r.num_block_ = 65538 ∧ r.block_bits_.getD 65538 0 = 65534 := by
  have hlen : ((List.range' 0 65538).map fun i => ((65535 : Nat), i + 1)).length = 65538 := by
    rw [List.length_map, List.length_range']
  refine ⟨?_, ?_, ?_, ?_⟩
  · intro b hb
    obtain ⟨i, _, rfl⟩ := List.mem_map.1 hb
    exact Nat.le_refl _
  · rw [map_snd_long_blocks]
    have hc := List.chain_succ_range' 0 65538 1
    rw [Nat.zero_add] at hc
    exact hc.imp (fun a b h => by omega)
  · rw [List.take_of_length_le (by rw [hlen]), map_fst_long_blocks, sum_replicate_nat]
  · obtain ⟨r, g1, g2, g3, _⟩ := IndexReader_Init_writeAll
      ((List.range' 0 65538).map fun i => ((65535 : Nat), i + 1))
      (by rw [hlen]; norm_num) (by rw [hlen]; norm_num)
    rw [hlen] at g2
    refine ⟨r, g1, by rw [g2]; rfl, ?_⟩
    have hmap : (((List.range' 0 65538).map fun i => ((65535 : Nat), i + 1)).map
        fun b => b.1 % 65536) = List.replicate 65538 65535 := by
      rw [List.map_map]
      have : ((fun b : Nat × Nat => b.1 % 65536) ∘ fun i => ((65535 : Nat), i + 1))
          = fun _ => 65535 := rfl
      rw [this, List.map_const', List.length_range']
    rw [g3, hmap, prefixSums32_getD _ 0 65538 (by norm_num)
      (by rw [List.length_replicate]), List.take_replicate, sum_replicate_nat, Nat.min_self]
    norm_num

/-! ## Monotone prefix sums of an index with few blocks -/

theorem Read16Bit_lt (r r1 : ByteReader) (a : Nat) (h : r.Read16Bit = some (a, r1)) :
    a < 65536 := by
  unfold ByteReader.Read16Bit at h
  dsimp only at h
  rcases h1 : r.stream_[(r.position_ >>> 3) % 2 ^ 32]? with _ | x
  · rw [h1] at h; simp at h
  · rcases h2 : r.stream_[((r.position_ >>> 3) % 2 ^ 32 + 1) % 2 ^ 32]? with _ | y
    · rw [h1, h2] at h; simp at h
    · rw [h1, h2] at h
      simp only [Option.bind_eq_bind, Option.some_bind] at h
      by_cases hb : r.position_ &&& 7 ≠ 0
      · rw [if_pos hb] at h
        rcases h3 : r.stream_[((r.position_ >>> 3) % 2 ^ 32 + 2) % 2 ^ 32]? with _ | z
        · rw [h3] at h; simp at h
        · rw [h3] at h
          simp only [Option.some_bind, Option.some.injEq, Prod.mk.injEq] at h
          rw [← h.1]
          exact Nat.or_lt_two_pow (Nat.mod_lt _ (by norm_num)) (Nat.mod_lt _ (by norm_num))
      · rw [if_neg hb] at h
        simp only [Option.some.injEq, Prod.mk.injEq] at h
        rw [← h.1]
        exact Nat.mod_lt _ (by norm_num)

theorem PrefixInv_step (l : List Nat) (i a : Nat) (hi : i + 1 < l.length) (ha : a < 65536)
    (hi2 : i + 1 ≤ 65537) (h : PrefixInv l i) :
    PrefixInv (l.set (i + 1) ((l.getD i 0 + a) % 2 ^ 32)) (i + 1) := by
  have h32 : (2 : Nat) ^ 32 = 4294967296 := by norm_num
  have hb := h.bound i (Nat.le_refl _)
  have hmod : (l.getD i 0 + a) % 2 ^ 32 = l.getD i 0 + a :=
    Nat.mod_eq_of_lt (by rw [h32]; nlinarith)
  rw [hmod]
  have hself : (l.set (i + 1) (l.getD i 0 + a)).getD (i + 1) 0 = l.getD i 0 + a :=
    getD_set_self _ _ _ hi
  have hne : ∀ k, k ≠ i + 1 → (l.set (i + 1) (l.getD i 0 + a)).getD k 0 = l.getD k 0 :=
    fun k hk => getD_set_ne _ _ _ _ (fun hh => hk hh.symm)
  refine ⟨?_, ?_⟩
  · intro k hk
    by_cases hk1 : k = i + 1
    · rw [hk1, hself]; omega
    · rw [hne k hk1]; exact h.bound k (by omega)
  · intro k hk
    by_cases hk1 : k = i
    · rw [hk1, hself, hne i (by omega)]; omega
    · rw [hne k (by omega), hne (k + 1) (by omega)]
      exact h.mono k (by omega)

theorem initLoop_num_block : ∀ (n i : Nat) (r r1 : IndexReader),
    IndexReader.initLoop n i r = some r1 → r1.num_block_ = r.num_block_ := by
  intro n
  induction n with
  | zero =>
    intro i r r1 h
    unfold IndexReader.initLoop at h
    simp only [Option.some.injEq] at h
    rw [← h]
  | succ n ih =>
    intro i r r1 h
    unfold IndexReader.initLoop at h
    rcases h1 : r.file_reader_.Read16Bit with _ | ⟨a, fr1⟩
    · rw [h1] at h; simp at h
    · rw [h1] at h
      simp only [Option.bind_eq_bind, Option.some_bind] at h
      rcases h2 : fr1.Read16Bit with _ | ⟨b, fr2⟩
      · rw [h2] at h; simp at h
      · rw [h2] at h
        simp only [Option.some_bind] at h
        have := ih (i + 1) _ r1 h
        rw [this]

theorem initLoop_mono : ∀ (n i : Nat) (r r1 : IndexReader),
    IndexReader.initLoop n i r = some r1 → i + n ≤ 65537 →
    i + n < r.block_bits_.length → i + n < r.block_tuples_.length →
    PrefixInv r.block_bits_ i → PrefixInv r.block_tuples_ i →
    r1.num_block_ = r.num_block_ ∧
    PrefixInv r1.block_bits_ (i + n) ∧ PrefixInv r1.block_tuples_ (i + n) := by
  intro n
  induction n with
  | zero =>
    intro i r r1 h _ _ _ hb ht
    unfold IndexReader.initLoop at h
    simp only [Option.some.injEq] at h
    rw [← h]
    exact ⟨rfl, hb, ht⟩
  | succ n ih =>
    intro i r r1 h hn hlb hlt hb ht
    unfold IndexReader.initLoop at h
    rcases h1 : r.file_reader_.Read16Bit with _ | ⟨a, fr1⟩
    · rw [h1] at h; simp at h
    · rw [h1] at h
      simp only [Option.bind_eq_bind, Option.some_bind] at h
      rcases h2 : fr1.Read16Bit with _ | ⟨b, fr2⟩
      · rw [h2] at h; simp at h
      · rw [h2] at h
        simp only [Option.some_bind] at h
        have ha := Read16Bit_lt _ _ _ h1
        have hb16 := Read16Bit_lt _ _ _ h2
        obtain ⟨g1, g2, g3⟩ := ih (i + 1) _ r1 h (by omega)
          (by show i + 1 + n < (r.block_bits_.set _ _).length
              rw [List.length_set]; omega)
          (by show i + 1 + n < (r.block_tuples_.set _ _).length
              rw [List.length_set]; omega)
          (PrefixInv_step r.block_bits_ i a (by omega) ha (by omega) hb)
          (PrefixInv_step r.block_tuples_ i b (by omega) hb16 (by omega) ht)
        rw [show i + (n + 1) = i + 1 + n by omega]
        exact ⟨g1, g2, g3⟩

/-- C20 (amended): after `IndexReader::Init` on an index region of at most 65537 blocks,
`block_bits_` and `block_tuples_` are non-decreasing: for every `i < N`,
`block_bits_[i] <= block_bits_[i+1]` and `block_tuples_[i] <= block_tuples_[i+1]`. -/
theorem IndexReader_Init_monotone (stream : List Nat) (r : IndexReader)
    (h : (IndexReader.fresh stream).Init = some r) (hN : r.num_block_ ≤ 65537) (i : Nat)
    (hi : (i : Int) < r.num_block_) :
    r.block_bits_.getD i 0 ≤ r.block_bits_.getD (i + 1) 0 ∧
    r.block_tuples_.getD i 0 ≤ r.block_tuples_.getD (i + 1) 0 := by
  unfold IndexReader.Init at h
  rcases h1 : ((IndexReader.fresh stream).file_reader_.Seekg (-4) 0 seekdir.fromEnd).Read32Bit
    with _ | ⟨num_block, fr1⟩
  · rw [h1] at h; simp at h
  · rw [h1] at h
    simp only [Option.bind_eq_bind, Option.some_bind] at h
    by_cases hc : num_block < 0 ∨ 2 ^ 31 < 4 * num_block + 4
    · rw [if_pos hc] at h; simp at h
    · rw [if_neg hc] at h
      have hfb : (IndexReader.fresh stream).block_bits_ = [] := rfl
      have hft : (IndexReader.fresh stream).block_tuples_ = [] := rfl
      rw [hfb, hft] at h
      generalize hr1 : ({ IndexReader.fresh stream with
          num_block_ := num_block,
          block_bits_ := resizeList [] (num_block.toNat + 1),
          block_tuples_ := resizeList [] (num_block.toNat + 1),
          file_reader_ := fr1.Seekg (-4 * num_block - 4) 0 seekdir.fromEnd } : IndexReader)
        = r1 at h
      have e1 : r1.num_block_ = num_block := by rw [← hr1]
      have e2 : r1.block_bits_ = List.replicate (num_block.toNat + 1) 0 := by
        rw [← hr1]; exact resizeList_nil _
      have e3 : r1.block_tuples_ = List.replicate (num_block.toNat + 1) 0 := by
        rw [← hr1]; exact resizeList_nil _
      rcases h2 : IndexReader.initLoop num_block.toNat 0 r1 with _ | r2
      · rw [h2] at h; simp at h
      · rw [h2] at h
        simp only [Option.some_bind] at h
        rcases h3 : r2.block_tuples_[1]? with _ | x
        · rw [h3] at h; simp at h
        · rw [h3] at h
          simp only [Option.some_bind, Option.some.injEq] at h
          rw [← h] at hN hi ⊢
          have hzero : PrefixInv (List.replicate (num_block.toNat + 1) 0) 0 :=
            ⟨fun k hk => by
              rw [List.getD_eq_getElem?_getD, List.getElem?_replicate]
              split_ifs <;> simp,
             fun k hk => absurd hk (Nat.not_lt_zero _)⟩
          have hmain : r2.num_block_ = r1.num_block_ ∧
              PrefixInv r2.block_bits_ (0 + num_block.toNat) ∧
              PrefixInv r2.block_tuples_ (0 + num_block.toNat) := by
            apply initLoop_mono num_block.toNat 0 r1 r2 h2
            · have hnb := initLoop_num_block _ _ _ _ h2
              rw [hnb, e1] at hN
              omega
            · rw [e2, List.length_replicate]; omega
            · rw [e3, List.length_replicate]; omega
            · rw [e2]; exact hzero
            · rw [e3]; exact hzero
          obtain ⟨g1, g2, g3⟩ := hmain
          rw [g1, e1] at hi
          rw [Nat.zero_add] at g2 g3
          exact ⟨g2.mono i (by omega), g3.mono i (by omega)⟩

theorem IndexReader_Init_monotone_witness :
    (IndexReader.fresh [0, 3, 0, 2, 0, 0, 0, 1]).Init
        = some ⟨⟨[0, 3, 0, 2, 0, 0, 0, 1], 32⟩, 1, [0, 3], [0, 2], 0, 0, 0⟩ ∧
      ((⟨⟨[0, 3, 0, 2, 0, 0, 0, 1], 32⟩, 1, [0, 3], [0, 2], 0, 0, 0⟩ :
          IndexReader).block_bits_.getD 0 0
        ≤ (⟨⟨[0, 3, 0, 2, 0, 0, 0, 1], 32⟩, 1, [0, 3], [0, 2], 0, 0, 0⟩ :
          IndexReader).block_bits_.getD (0 + 1) 0 ∧
       (⟨⟨[0, 3, 0, 2, 0, 0, 0, 1], 32⟩, 1, [0, 3], [0, 2], 0, 0, 0⟩ :
          IndexReader).block_tuples_.getD 0 0
        ≤ (⟨⟨[0, 3, 0, 2, 0, 0, 0, 1], 32⟩, 1, [0, 3], [0, 2], 0, 0, 0⟩ :
          IndexReader).block_tuples_.getD (0 + 1) 0) :=
  ⟨by decide,
   IndexReader_Init_monotone [0, 3, 0, 2, 0, 0, 0, 1]
     ⟨⟨[0, 3, 0, 2, 0, 0, 0, 1], 32⟩, 1, [0, 3], [0, 2], 0, 0, 0⟩ (by decide) (by decide) 0
     (by decide)⟩

/-- C20 (counterexample): on the index region of 65538 blocks whose entries are 65535
words and 1 tuple each, `IndexReader::Init` leaves `block_bits_[65537] = 4294967295` and
`block_bits_[65538] = 65534`: the 32-bit prefix sum wraps and `block_bits_` decreases. -/
theorem IndexReader_Init_monotone_counterexample :
    ∃ r, (IndexReader.fresh
        (pairBytes (List.replicate 65538 (65535, 1)) ++ bytes32 65538)).Init = some r ∧
      r.num_block_ = 65538 ∧
      r.block_bits_.getD 65537 0 = 4294967295 ∧ r.block_bits_.getD 65538 0 = 65534 ∧
      ¬ r.block_bits_.getD 65537 0 ≤ r.block_bits_.getD (65537 + 1) 0 := by
  have hlen : (List.replicate 65538 ((65535 : Nat), (1 : Nat))).length = 65538 :=
    List.length_replicate _ _
  obtain ⟨r, g1, g2, g3, _⟩ := IndexReader_Init_spec (List.replicate 65538 (65535, 1))
    (by intro e he
        rw [List.eq_of_mem_replicate he]
        exact ⟨by norm_num, by norm_num⟩)
    (by rw [hlen]; norm_num) (by rw [hlen]; norm_num)
  rw [hlen] at g1 g2
  have hmap : (List.replicate 65538 ((65535 : Nat), (1 : Nat))).map Prod.fst
      = List.replicate 65538 65535 := List.map_replicate
  have e1 : r.block_bits_.getD 65537 0 = 4294967295 := by
    rw [g3, hmap, prefixSums32_getD _ 0 65537 (by norm_num)
      (by rw [List.length_replicate]; norm_num), List.take_replicate, sum_replicate_nat,
      show min 65537 65538 = 65537 from by omega]
    norm_num
  have e2 : r.block_bits_.getD 65538 0 = 65534 := by
    rw [g3, hmap, prefixSums32_getD _ 0 65538 (by norm_num)
      (by rw [List.length_replicate]), List.take_replicate, sum_replicate_nat, Nat.min_self]
    norm_num
  refine ⟨r, g1, by rw [g2]; rfl, e1, e2, ?_⟩
  rw [e1, show 65537 + 1 = 65538 from rfl, e2]
  norm_num

/-! ## The binary search of `IndexReader::LocateBlock` -/

theorem locateLoop_spec (T N : Nat) (hN : N < 2 ^ 32) : ∀ (fuel : Nat) (r : IndexReader),
    r.block_tuples_.length = N + 1 → r.block_idx_ < r.r_ → r.r_ ≤ N →
    r.r_ - r.block_idx_ ≤ fuel →
    r.block_tuples_.getD r.block_idx_ 0 ≤ T → T < r.block_tuples_.getD r.r_ 0 →
    ∃ r1, IndexReader.locateLoop T fuel r = some r1 ∧
      r1.block_idx_ < N ∧
      r1.block_tuples_.getD r1.block_idx_ 0 ≤ T ∧
      T < r1.block_tuples_.getD (r1.block_idx_ + 1) 0 ∧
      r1.block_tuples_ = r.block_tuples_ ∧ r1.block_bits_ = r.block_bits_ := by
  have h32 : (2 : Nat) ^ 32 = 4294967296 := by norm_num
  intro fuel
  induction fuel with
  | zero => intro r _ h1 _ h3 _ _; omega
  | succ fuel ih =>
    intro r hlen hlt hle hfuel hlo hhi
    have hmid : (r.block_idx_ + (r.r_ + 2 ^ 32 - r.block_idx_) % 2 ^ 32 / 2) % 2 ^ 32
        = r.block_idx_ + (r.r_ - r.block_idx_) / 2 := by
      rw [show (r.r_ + 2 ^ 32 - r.block_idx_) % 2 ^ 32 = r.r_ - r.block_idx_ by omega]
      exact Nat.mod_eq_of_lt (by omega)
    generalize hm : r.block_idx_ + (r.r_ - r.block_idx_) / 2 = mid at hmid
    have hm1 : r.block_idx_ ≤ mid := by omega
    have hm2 : mid < r.r_ := by omega
    have hga : r.block_tuples_[mid]? = some (r.block_tuples_.getD mid 0) :=
      getElem?_of_getD _ _ (by omega)
    have hgb : r.block_tuples_[(mid + 1) % 2 ^ 32]? = some (r.block_tuples_.getD (mid + 1) 0) := by
      rw [Nat.mod_eq_of_lt (by omega)]
      exact getElem?_of_getD _ _ (by omega)
    unfold IndexReader.locateLoop
    rw [if_pos (by omega), hmid]
    simp only [Option.bind_eq_bind, hga, Option.some_bind]
    by_cases ha : r.block_tuples_.getD mid 0 ≤ T
    · rw [if_pos ha]
      simp only [hgb, Option.some_bind]
      by_cases hb : r.block_tuples_.getD (mid + 1) 0 > T
      · rw [if_pos hb]
        refine ⟨{ r with mid_ := mid, block_idx_ := mid, r_ := mid }, ?_, ?_, ha, hb, rfl, rfl⟩
        · cases fuel with
          | zero =>
            unfold IndexReader.locateLoop
            rw [if_neg (by simp)]
          | succ fuel =>
            unfold IndexReader.locateLoop
            rw [if_neg (by simp)]
        · show mid < N
          omega
      · rw [if_neg hb, Nat.mod_eq_of_lt (by omega)]
        have hne : mid + 1 ≠ r.r_ := by
          intro hh
          rw [hh] at hb
          omega
        obtain ⟨r1, g1, g2, g3, g4, g5, g6⟩ := ih { r with mid_ := mid, block_idx_ := mid + 1 }
          hlen (show mid + 1 < r.r_ by omega) hle (show r.r_ - (mid + 1) ≤ fuel by omega)
          (show r.block_tuples_.getD (mid + 1) 0 ≤ T by omega) hhi
        exact ⟨r1, g1, g2, g3, g4, g5, g6⟩
    · rw [if_neg ha]
      have hne : r.block_idx_ ≠ mid := by
        intro hh
        rw [← hh] at ha
        omega
      obtain ⟨r1, g1, g2, g3, g4, g5, g6⟩ := ih { r with mid_ := mid, r_ := mid }
        hlen (show r.block_idx_ < mid by omega) (show mid ≤ N by omega)
        (show mid - r.block_idx_ ≤ fuel by omega) hlo
        (show T < r.block_tuples_.getD mid 0 by omega)
      exact ⟨r1, g1, g2, g3, g4, g5, g6⟩

theorem LocateBlock_core (r : IndexReader) (N T : Nat) (hN1 : 1 ≤ N)
    (hN : N < 2 ^ 31) (hnum : r.num_block_ = N)
    (hlt : r.block_tuples_.length = N + 1) (hlb : r.block_bits_.length = N + 1)
    (htup : ∀ x ∈ r.block_tuples_, x < 2 ^ 32)
    (_hmono : ∀ i, i < N → r.block_tuples_.getD i 0 ≤ r.block_tuples_.getD (i + 1) 0)
    (h0 : r.block_tuples_.getD 0 0 = 0) (hT : T < r.block_tuples_.getD N 0) :
    ∃ b r1, b < N ∧ r.block_tuples_.getD b 0 ≤ T ∧ T < r.block_tuples_.getD (b + 1) 0 ∧
      r1.block_idx_ = b ∧
      r.LocateBlock T
        = some (T - r.block_tuples_.getD b 0, (2 * r.block_bits_.getD b 0) % 2 ^ 32, r1) ∧
      (r.block_bits_.getD b 0 < 2 ^ 31 →
        (2 * r.block_bits_.getD b 0) % 2 ^ 32 = 2 * r.block_bits_.getD b 0) := by
  have h31 : (2 : Nat) ^ 31 = 2147483648 := by norm_num
  have h32 : (2 : Nat) ^ 32 = 4294967296 := by norm_num
  have h64 : (2 : Nat) ^ 64 = 18446744073709551616 := by norm_num
  have hu : toU32 r.num_block_ = N := by
    rw [hnum, toU32_of_bounds _ (by omega) (by push_cast; omega)]
    exact Int.toNat_ofNat N
  obtain ⟨r1, g1, g2, g3, g4, g5, g6⟩ := locateLoop_spec T N (by omega) (N + 1)
    { r with block_idx_ := 0, r_ := N } hlt (show 0 < N by omega) (Nat.le_refl _)
    (show N - 0 ≤ N + 1 by omega) (by show r.block_tuples_.getD 0 0 ≤ T; omega) hT
  have g5' : r1.block_tuples_ = r.block_tuples_ := g5
  have g6' : r1.block_bits_ = r.block_bits_ := g6
  rw [g5'] at g3 g4
  have hTlt : T < 2 ^ 32 := by
    have := htup _ (getD_mem r.block_tuples_ N (by omega))
    omega
  refine ⟨r1.block_idx_, r1, g2, g3, g4, rfl, ?_, ?_⟩
  · unfold IndexReader.LocateBlock
    rw [hu]
    simp only [Option.bind_eq_bind, g1, Option.some_bind]
    rw [g5', g6', getElem?_of_getD r.block_bits_ _ (by omega),
      getElem?_of_getD r.block_tuples_ _ (by omega)]
    simp only [Option.some_bind]
    rw [Nat.shiftLeft_eq, show (2 : Nat) ^ 1 = 2 from rfl,
      Nat.mul_comm (r.block_bits_.getD r1.block_idx_ 0) 2]
    have : (T + 2 ^ 64 - r.block_tuples_.getD r1.block_idx_ 0) % 2 ^ 64 % 2 ^ 32
        = T - r.block_tuples_.getD r1.block_idx_ 0 := by omega
    rw [this]
  · intro hb
    exact Nat.mod_eq_of_lt (by omega)

/-- C18 (amended): for every index with `N >= 1` blocks whose `tuples_prefix` is
non-decreasing with `tuples_prefix[0] = 0`, and every `T < tuples_prefix[N]`,
`IndexReader::LocateBlock` terminates, selects a block `b` with
`tuples_prefix[b] <= T < tuples_prefix[b+1]`, returns `T - tuples_prefix[b]` and sets
`n_byte` to `2 * bits_prefix[b]` reduced modulo `2^32`, which is `2 * bits_prefix[b]` when
`bits_prefix[b] < 2^31`. -/
theorem IndexReader_LocateBlock_spec (r : IndexReader) (N T : Nat) (hN1 : 1 ≤ N)
    (hN : N < 2 ^ 31) (hnum : r.num_block_ = N)
    (hlt : r.block_tuples_.length = N + 1) (hlb : r.block_bits_.length = N + 1)
    (htup : ∀ x ∈ r.block_tuples_, x < 2 ^ 32)
    (_hmono : ∀ i, i < N → r.block_tuples_.getD i 0 ≤ r.block_tuples_.getD (i + 1) 0)
    (h0 : r.block_tuples_.getD 0 0 = 0) (hT : T < r.block_tuples_.getD N 0) :
    ∃ b r1, b < N ∧ r.block_tuples_.getD b 0 ≤ T ∧ T < r.block_tuples_.getD (b + 1) 0 ∧
      r1.block_idx_ = b ∧
      r.LocateBlock T
        = some (T - r.block_tuples_.getD b 0, (2 * r.block_bits_.getD b 0) % 2 ^ 32, r1) ∧
      (r.block_bits_.getD b 0 < 2 ^ 31 →
        (2 * r.block_bits_.getD b 0) % 2 ^ 32 = 2 * r.block_bits_.getD b 0) :=
  LocateBlock_core r N T hN1 hN hnum hlt hlb htup _hmono h0 hT

theorem IndexReader_LocateBlock_spec_witness :
    ∃ b r1, b < 2 ∧
      (⟨⟨[], 0⟩, 2, [0, 3, 8], [0, 2, 4], 0, 0, 0⟩ : IndexReader).block_tuples_.getD b 0 ≤ 3 ∧
      3 < (⟨⟨[], 0⟩, 2, [0, 3, 8], [0, 2, 4], 0, 0, 0⟩ : IndexReader).block_tuples_.getD
        (b + 1) 0 ∧
      r1.block_idx_ = b ∧
      (⟨⟨[], 0⟩, 2, [0, 3, 8], [0, 2, 4], 0, 0, 0⟩ : IndexReader).LocateBlock 3
        = some (3 - (⟨⟨[], 0⟩, 2, [0, 3, 8], [0, 2, 4], 0, 0, 0⟩ :
                      IndexReader).block_tuples_.getD b 0,
                (2 * (⟨⟨[], 0⟩, 2, [0, 3, 8], [0, 2, 4], 0, 0, 0⟩ :
                      IndexReader).block_bits_.getD b 0) % 2 ^ 32, r1) ∧
      ((⟨⟨[], 0⟩, 2, [0, 3, 8], [0, 2, 4], 0, 0, 0⟩ : IndexReader).block_bits_.getD b 0
          < 2 ^ 31 →
        (2 * (⟨⟨[], 0⟩, 2, [0, 3, 8], [0, 2, 4], 0, 0, 0⟩ :
              IndexReader).block_bits_.getD b 0) % 2 ^ 32
          = 2 * (⟨⟨[], 0⟩, 2, [0, 3, 8], [0, 2, 4], 0, 0, 0⟩ :
              IndexReader).block_bits_.getD b 0) :=
  IndexReader_LocateBlock_spec ⟨⟨[], 0⟩, 2, [0, 3, 8], [0, 2, 4], 0, 0, 0⟩ 2 3 (by decide)
    (by decide) (by decide) (by decide) (by decide) (by decide) (by decide) (by decide)
    (by decide)

theorem getD_range (n i : Nat) (h : i < n) : (List.range n).getD i 0 = i := by
  rw [List.getD_eq_getElem?_getD, List.getElem?_range h]
  rfl

theorem getD_map_range (f : Nat → Nat) (n i : Nat) (h : i < n) :
    ((List.range n).map f).getD i 0 = f i := by
  rw [List.getD_eq_getElem?_getD, List.getElem?_map, List.getElem?_range h]
  rfl

/-- C18 (counterexample): in the index of 32770 blocks of 65535 words and one tuple each
(`tuples_prefix[i] = i`, `bits_prefix[i] = 65535 * i`), `LocateBlock(32769)` selects block
`b = 32769` and returns 0, but sets `n_byte` to `65534` while
`2 * bits_prefix[b] = 4295032830`: the shift is taken in 32 bits. -/
theorem IndexReader_LocateBlock_counterexample :
    (∀ i, i < 32770 → (List.range 32771).getD i 0 ≤ (List.range 32771).getD (i + 1) 0) ∧
    (List.range 32771).getD 0 0 = 0 ∧ 32769 < (List.range 32771).getD 32770 0 ∧
    (List.range 32771).getD 32769 0 ≤ 32769 ∧ 32769 < (List.range 32771).getD (32769 + 1) 0 ∧
    2 * ((List.range 32771).map fun i => i * 65535).getD 32769 0 = 4295032830 ∧
    ∃ r1, r1.block_idx_ = 32769 ∧
      (⟨⟨[], 0⟩, 32770, (List.range 32771).map (fun i => i * 65535), List.range 32771, 0, 0, 0⟩ :
          IndexReader).LocateBlock 32769 = some (0, 65534, r1) := by
  have hmono : ∀ i, i < 32770 →
      (List.range 32771).getD i 0 ≤ (List.range 32771).getD (i + 1) 0 := by
    intro i hi
    rw [getD_range _ _ (by omega), getD_range _ _ (by omega)]
    omega
  have h0 : (List.range 32771).getD 0 0 = 0 := getD_range _ _ (by norm_num)
  have hT : 32769 < (List.range 32771).getD 32770 0 := by
    rw [getD_range _ _ (by norm_num)]; norm_num
  have hbits : ((List.range 32771).map fun i => i * 65535).getD 32769 0 = 32769 * 65535 :=
    getD_map_range _ _ _ (by norm_num)
  refine ⟨hmono, h0, hT, ?_, ?_, ?_, ?_⟩
  · rw [getD_range _ _ (by norm_num)]
  · rw [getD_range _ _ (by norm_num)]; norm_num
  · rw [hbits]
  · generalize hr : (⟨⟨[], 0⟩, 32770, (List.range 32771).map (fun i => i * 65535),
      List.range 32771, 0, 0, 0⟩ : IndexReader) = r
    have et : r.block_tuples_ = List.range 32771 := by rw [← hr]
    have eb : r.block_bits_ = (List.range 32771).map (fun i => i * 65535) := by rw [← hr]
    have en : r.num_block_ = ((32770 : Nat) : Int) := by rw [← hr]; rfl
    obtain ⟨b, r1, g1, g2, g3, g4, g5, _⟩ := LocateBlock_core r
      32770 32769 (by norm_num) (by norm_num) en
      (by rw [et, List.length_range])
      (by rw [eb, List.length_map, List.length_range])
      (by intro x hx
          rw [et, List.mem_range] at hx
          have h32 : (2 : Nat) ^ 32 = 4294967296 := by norm_num
          omega)
      (by rw [et]; exact hmono) (by rw [et]; exact h0) (by rw [et]; exact hT)
    rw [et] at g2 g3 g5
    rw [eb] at g5
    rw [getD_range _ _ (by omega)] at g2
    rw [getD_range _ _ (by omega)] at g3
    have hb : b = 32769 := by omega
    subst hb
    refine ⟨r1, g4, ?_⟩
    rw [g5, getD_range _ _ (by norm_num), hbits]
    norm_num

/-! ## A reloaded categorical model and the single-value test -/

/-- C15 (code evaluated on the failing input): for the categorical model of a flag that
was always 0, the model finalized by `EndOfData` reports `GetSimpleSquidValue() = 65535`
and the compressor appends one probability interval for each flag, whose coding emits a
word; the model reloaded by `ReadModel` from the bytes of `WriteModel` reports the single
value 0, and the decompressor returns 0 without consuming anything from the decoder or the
word stream. -/
theorem TableCategorical_reloaded_single_value (d : Decoder) (words : List Nat) :
    ∃ m m1 r1,
      (⟨[], 1, [(feedAll [(0, 3)]).stats]⟩ : TableCategoricalModel).EndOfData = some m ∧
      (m.WriteModel SequenceByteWriter.fresh).close = [0, 0, 1, 255, 255, 0, 0] ∧
      TableCategoricalModel.ReadModel (fun _ => 1) ⟨[0, 0, 1, 255, 255, 0, 0], 0⟩
        = some (m1, r1) ∧
      m.GetSimpleSquidValue = some 65535 ∧ m1.GetSimpleSquidValue = some 0 ∧
      ((JSONModel.GetProbIntervalsExist m 0).map fun bs => (bs.length, (DelayedCoding bs).length))
        = some (1, 1) ∧
      JSONModel.GetProbIntervalsExist m1 0 = some [] ∧
      JSONModel.DecompressNodeExist m1 d words = some (0, d, words) := by
  have h1 : ((⟨[], 1, [(feedAll [(0, 3)]).stats]⟩ : TableCategoricalModel).EndOfData.map
      fun m => ((m.WriteModel SequenceByteWriter.fresh).close, m.GetSimpleSquidValue,
        (JSONModel.GetProbIntervalsExist m 0).map
          fun bs => (bs.length, (DelayedCoding bs).length)))
      = some ([0, 0, 1, 255, 255, 0, 0], some 65535, some (1, 1)) := by decide
  have h2 : ((TableCategoricalModel.ReadModel (fun _ => 1) ⟨[0, 0, 1, 255, 255, 0, 0], 0⟩).map
      fun p => (p.1.GetSimpleSquidValue, JSONModel.GetProbIntervalsExist p.1 0))
      = some (some 0, some []) := by decide
  rcases hm : (⟨[], 1, [(feedAll [(0, 3)]).stats]⟩ : TableCategoricalModel).EndOfData
    with _ | m
  · rw [hm] at h1; simp at h1
  · rcases hr : TableCategoricalModel.ReadModel (fun _ => 1) ⟨[0, 0, 1, 255, 255, 0, 0], 0⟩
      with _ | ⟨m1, r1⟩
    · rw [hr] at h2; simp at h2
    · rw [hm] at h1
      rw [hr] at h2
      simp only [Option.map_some', Option.some.injEq, Prod.mk.injEq] at h1 h2
      obtain ⟨a1, a2, a3⟩ := h1
      obtain ⟨b1, b2⟩ := h2
      refine ⟨m, m1, r1, rfl, a1, rfl, a2, b1, a3, b2, ?_⟩
      unfold JSONModel.DecompressNodeExist
      rw [b1]
      rfl

/-! ## Round trip of the description of a categorical model -/

theorem set_append_cons (Q : List Nat) (a x : Nat) (L : List Nat) :
    (Q ++ a :: L).set Q.length x = (Q ++ [x]) ++ L := by
  rw [List.set_append, if_neg (by omega), Nat.sub_self, List.set_cons_zero, List.append_assoc]
  rfl

theorem ReadByte_aligned (r : ByteReader) (pre post : List Nat) (b : Nat)
    (hs : r.stream_ = pre ++ b :: post) (hp : r.position_ = 8 * pre.length)
    (hlen : pre.length < 2 ^ 32) :
    r.ReadByte = some (b, { r with position_ := 8 * (pre.length + 1) }) := by
  have h32 : (2 : Nat) ^ 32 = 4294967296 := by norm_num
  have h64 : (2 : Nat) ^ 64 = 18446744073709551616 := by norm_num
  have hbit : r.position_ &&& 7 = 0 := by rw [and_seven, hp]; omega
  have hidx : (r.position_ >>> 3) % 2 ^ 32 = pre.length := by
    rw [Nat.shiftRight_eq_div_pow _ 3, hp, show (2 : Nat) ^ 3 = 8 from rfl,
      Nat.mul_div_cancel_left _ (by decide), Nat.mod_eq_of_lt hlen]
  have ha : r.stream_[pre.length]? = some b := by
    rw [hs, List.getElem?_append_right (Nat.le_refl _), Nat.sub_self]; simp
  have hpos : (r.position_ + 8) % 2 ^ 64 = 8 * (pre.length + 1) := by
    rw [hp, Nat.mod_eq_of_lt (by omega)]; omega
  unfold ByteReader.ReadByte
  rw [hbit, hidx]
  dsimp only
  rw [if_pos rfl, ha, hpos]
  rfl

theorem readPredictors_spec (post : List Nat) : ∀ (ps pre : List Nat) (r : ByteReader),
    r.stream_ = pre ++ (wordsBytes ps ++ post) → r.position_ = 8 * pre.length →
    pre.length + 2 * ps.length < 2 ^ 32 → (∀ p ∈ ps, p < 65536) →
    readPredictors ps.length r
      = some (ps, { r with position_ := 8 * (pre.length + 2 * ps.length) }) := by
  intro ps
  induction ps with
  | nil =>
    intro pre r _ hp _ _
    unfold readPredictors
    rw [List.length_nil, Nat.mul_zero, Nat.add_zero, ← hp]
  | cons p ps ih =>
    intro pre r hs hp hlen hps
    have hp16 := hps p (List.mem_cons_self _ _)
    rw [List.length_cons] at hlen
    have hs1 : r.stream_ = pre ++ p / 256 :: p % 256 :: (wordsBytes ps ++ post) := by
      rw [hs]; rfl
    have hr1 := Read16Bit_aligned r pre _ (p / 256) (p % 256) hs1 hp (by omega) (by omega)
      (by omega)
    rw [show p / 256 * 256 + p % 256 = p by omega] at hr1
    have hr2 := ih (pre ++ [p / 256, p % 256]) { r with position_ := 8 * (pre.length + 2) }
      (by show r.stream_ = _
          rw [hs1, List.append_assoc]; rfl)
      (by simp) (by simp; omega) (fun q hq => hps q (List.mem_cons_of_mem _ hq))
    rw [List.length_cons]
    unfold readPredictors
    rw [hr1]
    simp only [Option.bind_eq_bind, Option.some_bind]
    rw [hr2]
    simp only [Option.some_bind, List.length_append, List.length_cons, List.length_nil]
    congr 3
    omega

theorem readWeights_spec (post : List Nat) : ∀ (ws pre Q L : List Nat) (r : ByteReader)
    (sum_weights only_value : Nat),
    r.stream_ = pre ++ (wordsBytes ws ++ post) → r.position_ = 8 * pre.length →
    pre.length + 2 * ws.length < 2 ^ 32 → (∀ x ∈ ws, x < 65536) → L.length = ws.length →
    readWeights ws.length Q.length r (Q ++ L) sum_weights only_value
      = some (Q ++ ws, ws.foldl (fun s x => (s + x) % 2 ^ 32) sum_weights,
          onlyValueOf Q.length only_value ws,
          { r with position_ := 8 * (pre.length + 2 * ws.length) }) := by
  intro ws
  induction ws with
  | nil =>
    intro pre Q L r sum_weights only_value _ hp _ _ hL
    have hLn : L = [] := List.length_eq_zero.1 hL
    unfold readWeights
    rw [hLn, List.length_nil, Nat.mul_zero, Nat.add_zero, ← hp]
    rfl
  | cons x xs ih =>
    intro pre Q L r sum_weights only_value hs hp hlen hws hL
    have hx := hws x (List.mem_cons_self _ _)
    rw [List.length_cons] at hlen hL
    obtain ⟨a, L1, rfl⟩ : ∃ a L1, L = a :: L1 := by
      cases L with
      | nil => simp at hL
      | cons a L1 => exact ⟨a, L1, rfl⟩
    have hs1 : r.stream_ = pre ++ x / 256 :: x % 256 :: (wordsBytes xs ++ post) := by
      rw [hs]; rfl
    have hr1 := Read16Bit_aligned r pre _ (x / 256) (x % 256) hs1 hp (by omega) (by omega)
      (by omega)
    rw [show x / 256 * 256 + x % 256 = x by omega] at hr1
    have hr2 := ih (pre ++ [x / 256, x % 256]) (Q ++ [x]) L1
      { r with position_ := 8 * (pre.length + 2) } ((sum_weights + x) % 2 ^ 32)
      (if x = 65535 then Q.length else only_value)
      (by show r.stream_ = _
          rw [hs1, List.append_assoc]; rfl)
      (by simp) (by simp; omega) (fun q hq => hws q (List.mem_cons_of_mem _ hq))
      (by simpa using hL)
    rw [List.length_cons]
    unfold readWeights
    rw [hr1]
    simp only [Option.bind_eq_bind, Option.some_bind]
    rw [set_append_cons]
    rw [List.length_append, List.length_singleton] at hr2
    rw [hr2]
    simp only [List.length_append, List.length_cons, List.length_nil, List.foldl_cons,
      onlyValueOf, List.append_assoc, List.singleton_append]
    have hpos : 8 * (pre.length + (0 + 1 + 1) + 2 * xs.length)
        = 8 * (pre.length + 2 * (xs.length + 1)) := by omega
    rw [hpos]

theorem foldl_add_mod (ws : List Nat) : ∀ (s0 : Nat), s0 < 2 ^ 32 →
    ws.foldl (fun s x => (s + x) % 2 ^ 32) s0 = (s0 + ws.sum) % 2 ^ 32 := by
  induction ws with
  | nil =>
    intro s0 h
    rw [List.foldl_nil, List.sum_nil, Nat.add_zero, Nat.mod_eq_of_lt h]
  | cons x xs ih =>
    intro s0 _
    rw [List.foldl_cons, ih _ (Nat.mod_lt _ (by norm_num)), List.sum_cons, Nat.mod_add_mod,
      Nat.add_assoc]

theorem map_encodeWeight_of_not_mem (W : List Nat) (h : 65536 ∉ W) :
    W.map encodeWeight = W := by
  induction W with
  | nil => rfl
  | cons x xs ih =>
    have hx : x ≠ 65536 := fun hh => h (hh ▸ List.mem_cons_self _ _)
    rw [List.map_cons, ih (fun hh => h (List.mem_cons_of_mem _ hh))]
    unfold encodeWeight
    rw [if_neg hx]

theorem eq_replicate_zero_of_sum (l : List Nat) (h : l.sum = 0) :
    l = List.replicate l.length 0 := by
  induction l with
  | nil => rfl
  | cons x xs ih =>
    rw [List.sum_cons] at h
    have hx : x = 0 := by omega
    have hxs : xs.sum = 0 := by omega
    rw [List.length_cons, List.replicate_succ, hx, ← ih hxs]

theorem weights_single (W : List Nat) (hsum : W.sum = 65536) (hmem : 65536 ∈ W) :
    ∃ k m, W = List.replicate k 0 ++ 65536 :: List.replicate m 0 := by
  obtain ⟨s, t, rfl⟩ := List.append_of_mem hmem
  rw [List.sum_append, List.sum_cons] at hsum
  refine ⟨s.length, t.length, ?_⟩
  rw [← eq_replicate_zero_of_sum s (by omega), ← eq_replicate_zero_of_sum t (by omega)]

theorem map_encodeWeight_replicate_zero (k : Nat) :
    (List.replicate k 0).map encodeWeight = List.replicate k 0 := by
  rw [List.map_replicate]
  rfl

theorem onlyValueOf_replicate_zero (m : Nat) : ∀ (j only_value : Nat),
    onlyValueOf j only_value (List.replicate m 0) = only_value := by
  induction m with
  | zero => intro j only_value; rfl
  | succ m ih =>
    intro j only_value
    rw [List.replicate_succ, onlyValueOf, if_neg (by decide), ih]

theorem onlyValueOf_single (k m : Nat) : ∀ (j only_value : Nat),
    onlyValueOf j only_value (List.replicate k 0 ++ 65535 :: List.replicate m 0) = j + k := by
  induction k with
  | zero =>
    intro j only_value
    rw [List.replicate_zero, List.nil_append, onlyValueOf, if_pos rfl,
      onlyValueOf_replicate_zero]
    rfl
  | succ k ih =>
    intro j only_value
    rw [List.replicate_succ, List.cons_append, onlyValueOf, if_neg (by decide), ih]
    omega

/-- The weights `ReadModel` restores from the words written for a weight vector of sum
65536: the vector itself. -/
theorem restore_weights (W : List Nat) (hsum : W.sum = 65536) :
    (if (0 + (W.map encodeWeight).sum) % 2 ^ 32 ≠ 65536 then
        if onlyValueOf 0 (2 ^ 64 - 1) (W.map encodeWeight) < (W.map encodeWeight).length then
          some ((W.map encodeWeight).set (onlyValueOf 0 (2 ^ 64 - 1) (W.map encodeWeight)) 65536)
        else none
      else some (W.map encodeWeight)) = some W := by
  have h32 : (2 : Nat) ^ 32 = 4294967296 := by norm_num
  by_cases hmem : 65536 ∈ W
  · obtain ⟨k, m, rfl⟩ := weights_single W hsum hmem
    have henc : (List.replicate k 0 ++ 65536 :: List.replicate m 0).map encodeWeight
        = List.replicate k 0 ++ 65535 :: List.replicate m 0 := by
      rw [List.map_append, List.map_cons, map_encodeWeight_replicate_zero,
        map_encodeWeight_replicate_zero]
      rfl
    have hs : (List.replicate k 0 ++ 65535 :: List.replicate m 0).sum = 65535 := by
      rw [List.sum_append, List.sum_cons, sum_replicate_nat, sum_replicate_nat]
      omega
    rw [henc, hs, onlyValueOf_single, Nat.zero_add, Nat.zero_add, if_pos (by norm_num),
      if_pos (by simp)]
    have := set_append_cons (List.replicate k 0) 65535 65536 (List.replicate m 0)
    rw [List.length_replicate] at this
    rw [this, List.append_assoc]
    rfl
  · rw [map_encodeWeight_of_not_mem W hmem, hsum, Nat.zero_add, if_neg (by norm_num)]

theorem encodeWeight_lt (x : Nat) (h : x ≤ 65536) : encodeWeight x < 65536 := by
  unfold encodeWeight
  by_cases hx : x = 65536
  · rw [if_pos hx]; decide
  · rw [if_neg hx]; omega

theorem readTable_spec (tr : Nat) (W pre post : List Nat) (stats : CategoricalStats)
    (r : ByteReader) (hw : stats.weight_ = []) (hlen : W.length = tr + 1)
    (hsum : W.sum = 65536)
    (hs : r.stream_ = pre ++ (wordsBytes (W.map encodeWeight) ++ post))
    (hp : r.position_ = 8 * pre.length) (hb : pre.length + 2 * (tr + 1) < 2 ^ 32) :
    ∃ s, readTable tr stats r
        = some (s, { r with position_ := 8 * (pre.length + 2 * (tr + 1)) }) ∧
      s.weight_ = W := by
  have hElen : (W.map encodeWeight).length = tr + 1 := by rw [List.length_map, hlen]
  have hElt : ∀ x ∈ W.map encodeWeight, x < 65536 := by
    intro x hx
    obtain ⟨y, hy, rfl⟩ := List.mem_map.1 hx
    exact encodeWeight_lt y (by rw [← hsum]; exact le_sum_of_mem W y hy)
  have hread := readWeights_spec post (W.map encodeWeight) pre [] (List.replicate (tr + 1) 0) r
    0 (2 ^ 64 - 1) hs hp (by rw [hElen]; exact hb) hElt
    (by rw [List.length_replicate, hElen])
  rw [hElen, List.nil_append, List.nil_append, List.length_nil,
    foldl_add_mod _ 0 (by norm_num)] at hread
  obtain ⟨t, slots, ht, _⟩ := buildTable_ok W hsum
  have hinit : ∀ params, InitDelayedCodingParams W params = some t := by
    intro params
    rw [Init_eq_buildTable _ _ (ne_nil_of_sum _ hsum)]; exact ht
  have hrestore := restore_weights W hsum
  unfold readTable
  rw [hw, resizeList_nil]
  dsimp only
  rw [List.length_replicate, hread]
  simp only [Option.bind_eq_bind, Option.some_bind]
  by_cases hS : (0 + (W.map encodeWeight).sum) % 2 ^ 32 ≠ 65536
  · rw [if_pos hS] at hrestore ⊢
    by_cases hO : onlyValueOf 0 (2 ^ 64 - 1) (W.map encodeWeight) < (W.map encodeWeight).length
    · rw [if_pos hO] at hrestore ⊢
      simp only [Option.some.injEq] at hrestore
      simp only [Option.some_bind, hrestore]
      by_cases hl : W.getD (W.length - 1) 0 ≠ 0 ∧ W.getD (W.length - 1) 0 ≠ 65536
      · rw [if_pos hl]
        simp only [hinit, Option.some_bind]
        exact ⟨_, rfl, rfl⟩
      · rw [if_neg hl]
        simp only [hinit, Option.some_bind]
        exact ⟨_, rfl, rfl⟩
    · rw [if_neg hO] at hrestore
      exact absurd hrestore (by simp)
  · rw [if_neg hS] at hrestore ⊢
    simp only [Option.some.injEq] at hrestore
    simp only [Option.some_bind, hrestore]
    by_cases hl : W.getD (W.length - 1) 0 ≠ 0 ∧ W.getD (W.length - 1) 0 ≠ 65536
    · rw [if_pos hl]
      simp only [hinit, Option.some_bind]
      exact ⟨_, rfl, rfl⟩
    · rw [if_neg hl]
      simp only [hinit, Option.some_bind]
      exact ⟨_, rfl, rfl⟩

theorem tableBytes_length (tr : Nat) : ∀ (tables : List CategoricalStats),
    (∀ s ∈ tables, s.weight_.length = tr + 1) →
    (tableBytes tables).length = tables.length * (2 * (tr + 1)) := by
  intro tables
  induction tables with
  | nil => intro _; simp [tableBytes]
  | cons s rest ih =>
    intro h
    rw [tableBytes, List.length_append, wordsBytes_length, List.length_map,
      h s (List.mem_cons_self _ _), ih (fun x hx => h x (List.mem_cons_of_mem _ hx)),
      List.length_cons]
    ring

theorem readTables_spec (tr : Nat) (post : List Nat) : ∀ (tables : List CategoricalStats)
    (pre : List Nat) (r : ByteReader),
    (∀ s ∈ tables, s.weight_.length = tr + 1 ∧ s.weight_.sum = 65536) →
    r.stream_ = pre ++ (tableBytes tables ++ post) → r.position_ = 8 * pre.length →
    pre.length + tables.length * (2 * (tr + 1)) < 2 ^ 32 →
    ∃ out, readTables tr (List.replicate tables.length CategoricalStats.fresh) r
        = some (out, { r with
            position_ := 8 * (pre.length + tables.length * (2 * (tr + 1))) }) ∧
      out.map (fun s => s.weight_) = tables.map (fun s => s.weight_) := by
  intro tables
  induction tables with
  | nil =>
    intro pre r _ _ hp _
    refine ⟨[], ?_, rfl⟩
    rw [List.length_nil, List.replicate_zero, Nat.zero_mul, Nat.add_zero, ← hp]
    rfl
  | cons s rest ih =>
    intro pre r hW hs hp hb
    obtain ⟨h1, h2⟩ := hW s (List.mem_cons_self _ _)
    rw [List.length_cons] at hb
    have hb1 : pre.length + 2 * (tr + 1) + rest.length * (2 * (tr + 1)) < 2 ^ 32 := by
      have : (rest.length + 1) * (2 * (tr + 1))
          = 2 * (tr + 1) + rest.length * (2 * (tr + 1)) := by ring
      omega
    have hs1 : r.stream_
        = pre ++ (wordsBytes (s.weight_.map encodeWeight) ++ (tableBytes rest ++ post)) := by
      rw [hs, tableBytes, List.append_assoc]
    obtain ⟨s1, g1, g2⟩ := readTable_spec tr s.weight_ pre (tableBytes rest ++ post)
      CategoricalStats.fresh r rfl h1 h2 hs1 hp (by omega)
    have hlenE : (wordsBytes (s.weight_.map encodeWeight)).length = 2 * (tr + 1) := by
      rw [wordsBytes_length, List.length_map, h1]
    obtain ⟨out, g3, g4⟩ := ih (pre ++ wordsBytes (s.weight_.map encodeWeight))
      { r with position_ := 8 * (pre.length + 2 * (tr + 1)) }
      (fun x hx => hW x (List.mem_cons_of_mem _ hx))
      (by show r.stream_ = _
          rw [hs1, List.append_assoc])
      (by show 8 * (pre.length + 2 * (tr + 1)) = _
          rw [List.length_append, hlenE])
      (by rw [List.length_append, hlenE]; exact hb1)
    refine ⟨s1 :: out, ?_, ?_⟩
    · rw [List.length_cons, List.replicate_succ]
      unfold readTables
      rw [g1]
      simp only [Option.bind_eq_bind, Option.some_bind]
      rw [g3]
      simp only [Option.some_bind, List.length_append, hlenE]
      have : pre.length + 2 * (tr + 1) + rest.length * (2 * (tr + 1))
          = pre.length + (rest.length + 1) * (2 * (tr + 1)) := by ring
      rw [this]
    · rw [List.map_cons, List.map_cons, g2, g4]

theorem writeWeights_aligned (W : List Nat) (w : SequenceByteWriter) (h : WriterAligned w)
    (hW : ∀ x ∈ W, x ≤ 65536) :
    WriterAligned (writeWeights W w) ∧
    (writeWeights W w).close = w.close ++ wordsBytes (W.map encodeWeight) := by
  have he : writeWeights W w = W.foldl (fun w x => w.Write16Bit (encodeWeight x)) w := by
    unfold writeWeights
    congr 1
    funext w x
    unfold encodeWeight
    split_ifs <;> rfl
  obtain ⟨a1, a2⟩ := foldl_Write16Bit_aligned encodeWeight W w h
  rw [he]
  refine ⟨a1, ?_⟩
  rw [a2]
  congr 2
  apply List.map_congr_left
  intro x hx
  exact Nat.mod_eq_of_lt (encodeWeight_lt x (hW x hx))

theorem writeTables_aligned : ∀ (tables : List CategoricalStats) (w : SequenceByteWriter),
    WriterAligned w → (∀ s ∈ tables, ∀ x ∈ s.weight_, x ≤ 65536) →
    WriterAligned (tables.foldl (fun w stats => writeWeights stats.weight_ w) w) ∧
    (tables.foldl (fun w stats => writeWeights stats.weight_ w) w).close
      = w.close ++ tableBytes tables := by
  intro tables
  induction tables with
  | nil => intro w h _; exact ⟨h, by simp [tableBytes]⟩
  | cons s rest ih =>
    intro w h hW
    obtain ⟨a1, a2⟩ := writeWeights_aligned s.weight_ w h (hW s (List.mem_cons_self _ _))
    obtain ⟨b1, b2⟩ := ih _ a1 (fun x hx => hW x (List.mem_cons_of_mem _ hx))
    refine ⟨b1, ?_⟩
    rw [List.foldl_cons, b2, a2, tableBytes, List.append_assoc]

theorem WriteByte_mod (w : SequenceByteWriter) (b : Nat) : w.WriteByte b = w.WriteByte (b % 256) := by
  unfold SequenceByteWriter.WriteByte
  rw [Nat.mod_mod]

theorem WriteModel_close (m : TableCategoricalModel)
    (hp2 : ∀ p ∈ m.predictor_list_, p < 65536) (htr : m.target_range_ < 65536)
    (hW : ∀ s ∈ m.dynamic_list_, ∀ x ∈ s.weight_, x ≤ 65536) :
    (m.WriteModel SequenceByteWriter.fresh).close
      = m.predictor_list_.length % 256 ::
          (wordsBytes m.predictor_list_ ++
            (m.target_range_ / 256 :: m.target_range_ % 256 :: tableBytes m.dynamic_list_)) := by
  obtain ⟨a1, a2⟩ := WriteByte_aligned SequenceByteWriter.fresh (m.predictor_list_.length % 256)
    (Nat.mod_lt _ (by decide)) WriterAligned_fresh
  rw [← WriteByte_mod] at a1 a2
  obtain ⟨b1, b2⟩ := foldl_Write16Bit_aligned (fun x => x) m.predictor_list_ _ a1
  obtain ⟨c1, c2⟩ := Write16Bit_aligned _ m.target_range_ b1
  obtain ⟨d1, d2⟩ := writeTables_aligned m.dynamic_list_ _ c1 hW
  have hmap : (m.predictor_list_.map fun x => x % 65536) = m.predictor_list_ := by
    conv_rhs => rw [← List.map_id m.predictor_list_]
    apply List.map_congr_left
    intro x hx
    exact Nat.mod_eq_of_lt (hp2 x hx)
  have hfresh : SequenceByteWriter.fresh.close = [] := by decide
  unfold TableCategoricalModel.WriteModel
  rw [d2, c2, b2, a2, hfresh, hmap, Nat.mod_eq_of_lt htr]
  simp

theorem normalize_zero (stats : CategoricalStats) (tr : Nat) (hw : stats.weight_ = [])
    (h0 : (resizeList stats.count_ tr).sum = 0) :
    (stats.normalize tr).weight_.length = tr + 1 ∧ (stats.normalize tr).weight_.sum = 65536 := by
  have hlen : (resizeList stats.count_ tr).length = tr := resizeList_length _ _
  have hset : ∀ i v, i < tr + 1 →
      ((List.replicate (tr + 1) 0).set i v).length = tr + 1 ∧
      ((List.replicate (tr + 1) 0).set i v).sum = v := by
    intro i v hi
    refine ⟨by rw [List.length_set, List.length_replicate], ?_⟩
    have h1 := sum_set_eq (List.replicate (tr + 1) 0) i v (by rw [List.length_replicate]; exact hi)
    have h2 : (List.replicate (tr + 1) 0).getD i 0 = 0 := by
      rw [List.getD_eq_getElem?_getD, List.getElem?_replicate, if_pos hi]
      rfl
    have h3 : (List.replicate (tr + 1) 0).sum = 0 := by
      rw [sum_replicate_nat, Nat.mul_zero]
    omega
  have hg : (List.replicate (tr + 1) 0).getD 0 0 = 0 := by
    rw [List.getD_eq_getElem?_getD, List.getElem?_replicate]
    split_ifs <;> rfl
  unfold CategoricalStats.normalize
  simp only [hw, resizeList_nil, hlen, h0, if_true]
  by_cases he : (resizeList stats.count_ tr).isEmpty = true
  · simp only [he, Bool.not_true, Bool.false_eq_true, if_false, hg, Nat.zero_add]
    exact hset 0 _ (by omega)
  · have hyes : (!(resizeList stats.count_ tr).isEmpty) = true := by
      cases hb : (resizeList stats.count_ tr).isEmpty with
      | true => exact absurd hb he
      | false => rfl
    simp only [hyes, if_true, List.length_replicate]
    rw [if_neg (by decide), if_neg (by decide)]
    exact hset _ _ (by rw [List.length_replicate]; omega)

theorem EndOfData_weights_any (stats : CategoricalStats) (tr : Nat) (hw : stats.weight_ = [])
    (hlen : stats.count_.length ≤ tr) :
    ∃ s, stats.EndOfData tr = some s ∧ s.weight_.length = tr + 1 ∧ s.weight_.sum = 65536 := by
  have hprops : (stats.normalize tr).weight_.length = tr + 1 ∧
      (stats.normalize tr).weight_.sum = 65536 := by
    by_cases h0 : (resizeList stats.count_ tr).sum = 0
    · exact normalize_zero stats tr hw h0
    · obtain ⟨r1, r2⟩ := resizeList_sum stats.count_ tr hlen
      have hnorm := normalize_resize stats tr hlen
      obtain ⟨p1, p2, _, _⟩ := normalize_props
        ({ stats with count_ := resizeList stats.count_ tr } : CategoricalStats) hw
        (Nat.pos_of_ne_zero h0)
      rw [← hnorm] at p1 p2
      simp only [r2] at p1
      exact ⟨p1, p2⟩
  obtain ⟨p1, p2⟩ := hprops
  obtain ⟨t, slots, ht, _⟩ := buildTable_ok (stats.normalize tr).weight_ p2
  have hinit : InitDelayedCodingParams (stats.normalize tr).weight_
      (stats.normalize tr).coding_params_ = some t := by
    rw [Init_eq_buildTable _ _ (ne_nil_of_sum _ p2)]; exact ht
  refine ⟨{ stats.normalize tr with coding_params_ := t }, ?_, p1, p2⟩
  unfold CategoricalStats.EndOfData
  simp only [hinit]

theorem endOfDataTables_spec (tr : Nat) : ∀ (raws : List CategoricalStats),
    (∀ s ∈ raws, s.weight_ = [] ∧ s.count_.length ≤ tr) →
    ∃ tables, endOfDataTables tr raws = some tables ∧ tables.length = raws.length ∧
      ∀ s ∈ tables, s.weight_.length = tr + 1 ∧ s.weight_.sum = 65536 := by
  intro raws
  induction raws with
  | nil => intro _; exact ⟨[], rfl, rfl, fun s hs => by simp at hs⟩
  | cons s rest ih =>
    intro h
    obtain ⟨h1, h2⟩ := h s (List.mem_cons_self _ _)
    obtain ⟨s1, a1, a2, a3⟩ := EndOfData_weights_any s tr h1 h2
    obtain ⟨tables, b1, b2, b3⟩ := ih (fun x hx => h x (List.mem_cons_of_mem _ hx))
    refine ⟨s1 :: tables, ?_, by rw [List.length_cons, List.length_cons, b2], ?_⟩
    · unfold endOfDataTables
      rw [a1, b1]
      rfl
    · intro x hx
      rcases List.mem_cons.1 hx with hh | hh
      · rw [hh]; exact ⟨a2, a3⟩
      · exact b3 x hh

/-- C14 (amended): for every `TableCategorical` with fewer than 256 predictors of index
below 65536, at most `kMaxTableSize` statistic tables and `target_range < 65536`,
finalized by `EndOfData`, `TableCategorical::ReadModel` applied to the bytes written by
`WriteModel` (whatever follows them in the file) reconstructs the same predictor list and
`target_range` and, for every predictor combination, exactly the same weight vector. -/
theorem TableCategorical_ReadModel_WriteModel (m0 : TableCategoricalModel)
    (table_size : List Nat → Nat) (rest : List Nat)
    (hp : m0.predictor_list_.length < 256) (hp2 : ∀ p ∈ m0.predictor_list_, p < 65536)
    (htr : m0.target_range_ < 65536)
    (hraw : ∀ s ∈ m0.dynamic_list_, s.weight_ = [] ∧ s.count_.length ≤ m0.target_range_)
    (hsize : table_size m0.predictor_list_ = m0.dynamic_list_.length)
    (hmax : m0.dynamic_list_.length ≤ kMaxTableSize) :
    ∃ m m1 r1, m0.EndOfData = some m ∧
      TableCategoricalModel.ReadModel table_size
        ⟨(m.WriteModel SequenceByteWriter.fresh).close ++ rest, 0⟩ = some (m1, r1) ∧
      m1.predictor_list_ = m.predictor_list_ ∧ m1.target_range_ = m.target_range_ ∧
      m1.dynamic_list_.map (fun s => s.weight_) = m.dynamic_list_.map (fun s => s.weight_) ∧
      r1.position_ = 8 * (m.WriteModel SequenceByteWriter.fresh).close.length := by
  have h32 : (2 : Nat) ^ 32 = 4294967296 := by norm_num
  have hk : kMaxTableSize = 1000 := rfl
  obtain ⟨tables, e1, e2, e3⟩ := endOfDataTables_spec m0.target_range_ m0.dynamic_list_ hraw
  have hend : m0.EndOfData = some { m0 with dynamic_list_ := tables } := by
    unfold TableCategoricalModel.EndOfData
    rw [e1]
  have hW : ∀ s ∈ tables, ∀ x ∈ s.weight_, x ≤ 65536 := by
    intro s hs x hx
    rw [← (e3 s hs).2]
    exact le_sum_of_mem _ _ hx
  have hclose := WriteModel_close { m0 with dynamic_list_ := tables } hp2 htr hW
  rw [show ({ m0 with dynamic_list_ := tables } : TableCategoricalModel).predictor_list_.length
    % 256 = m0.predictor_list_.length from Nat.mod_eq_of_lt hp] at hclose
  generalize hm : ({ m0 with dynamic_list_ := tables } : TableCategoricalModel) = m
    at hend hclose
  have m_p : m.predictor_list_ = m0.predictor_list_ := by rw [← hm]
  have m_t : m.target_range_ = m0.target_range_ := by rw [← hm]
  have m_d : m.dynamic_list_ = tables := by rw [← hm]
  rw [m_p, m_t, m_d] at hclose
  have hTB := tableBytes_length m0.target_range_ tables (fun s hs => (e3 s hs).1)
  have hPB := wordsBytes_length m0.predictor_list_
  -- the four reads
  generalize hS : (m.WriteModel SequenceByteWriter.fresh).close ++ rest = S
  have hSeq : S = m0.predictor_list_.length ::
      (wordsBytes m0.predictor_list_ ++
        (m0.target_range_ / 256 :: m0.target_range_ % 256 :: (tableBytes tables ++ rest))) := by
    rw [← hS, hclose]; simp
  have hr1 : ByteReader.ReadByte ⟨S, 0⟩ = some (m0.predictor_list_.length, ⟨S, 8⟩) :=
    ReadByte_aligned ⟨S, 0⟩ [] _ m0.predictor_list_.length hSeq rfl (by norm_num)
  have hr2 : readPredictors m0.predictor_list_.length ⟨S, 8⟩
      = some (m0.predictor_list_, ⟨S, 8 * (1 + 2 * m0.predictor_list_.length)⟩) :=
    readPredictors_spec
      (m0.target_range_ / 256 :: m0.target_range_ % 256 :: (tableBytes tables ++ rest))
      m0.predictor_list_ [m0.predictor_list_.length] ⟨S, 8⟩
      (by rw [hSeq]; rfl) rfl (by rw [List.length_singleton]; omega) hp2
  have hr3 : ByteReader.Read16Bit ⟨S, 8 * (1 + 2 * m0.predictor_list_.length)⟩
      = some (m0.target_range_, ⟨S, 8 * (1 + 2 * m0.predictor_list_.length + 2)⟩) := by
    have := Read16Bit_aligned ⟨S, 8 * (1 + 2 * m0.predictor_list_.length)⟩
      (m0.predictor_list_.length :: wordsBytes m0.predictor_list_) (tableBytes tables ++ rest)
      (m0.target_range_ / 256) (m0.target_range_ % 256)
      (by rw [hSeq]; simp)
      (by show 8 * (1 + 2 * m0.predictor_list_.length) = _
          rw [List.length_cons, hPB]; omega)
      (by rw [List.length_cons, hPB]; omega) (by omega) (by omega)
    rw [show m0.target_range_ / 256 * 256 + m0.target_range_ % 256 = m0.target_range_ by omega,
      List.length_cons, hPB,
      show 2 * m0.predictor_list_.length + 1 + 2 = 1 + 2 * m0.predictor_list_.length + 2
        by omega] at this
    exact this
  have hbound : 1 + 2 * m0.predictor_list_.length + 2
      + tables.length * (2 * (m0.target_range_ + 1)) < 2 ^ 32 := by
    rw [e2]
    have : m0.dynamic_list_.length * (2 * (m0.target_range_ + 1)) ≤ 1000 * 131072 :=
      Nat.mul_le_mul (by omega) (by omega)
    omega
  have hpre : (m0.predictor_list_.length :: (wordsBytes m0.predictor_list_
      ++ [m0.target_range_ / 256, m0.target_range_ % 256])).length
      = 1 + 2 * m0.predictor_list_.length + 2 := by
    rw [List.length_cons, List.length_append, hPB]
    simp only [List.length_cons, List.length_nil]
    omega
  obtain ⟨out, hr4, hout⟩ := readTables_spec m0.target_range_ rest tables
    (m0.predictor_list_.length :: (wordsBytes m0.predictor_list_
      ++ [m0.target_range_ / 256, m0.target_range_ % 256]))
    ⟨S, 8 * (1 + 2 * m0.predictor_list_.length + 2)⟩ e3
    (by rw [hSeq]; simp)
    (by rw [hpre])
    (by rw [hpre]; exact hbound)
  rw [hpre] at hr4
  refine ⟨m, ⟨m0.predictor_list_, m0.target_range_, out⟩,
    ⟨(m.WriteModel SequenceByteWriter.fresh).close ++ rest,
      8 * (1 + 2 * m0.predictor_list_.length + 2
        + tables.length * (2 * (m0.target_range_ + 1)))⟩,
    hend, ?_, m_p.symm, m_t.symm, by rw [m_d]; exact hout, ?_⟩
  · unfold TableCategoricalModel.ReadModel
    rw [hS, hr1]
    simp only [Option.bind_eq_bind, Option.some_bind]
    rw [hr2]
    simp only [Option.some_bind]
    rw [hr3]
    simp only [Option.some_bind]
    rw [hsize, ← e2, hr4]
    rfl
  · show 8 * _ = _
    rw [hclose]
    simp only [List.length_cons, List.length_append, List.length_nil]
    rw [hTB, hPB]
    omega

theorem TableCategorical_ReadModel_WriteModel_witness :
    ∃ m m1 r1,
      (⟨[4], 2, [(feedAll [(0, 1)]).stats, CategoricalStats.fresh]⟩ :
        TableCategoricalModel).EndOfData = some m ∧
      TableCategoricalModel.ReadModel (fun _ => 2)
        ⟨(m.WriteModel SequenceByteWriter.fresh).close ++ [7], 0⟩ = some (m1, r1) ∧
      m1.predictor_list_ = m.predictor_list_ ∧ m1.target_range_ = m.target_range_ ∧
      m1.dynamic_list_.map (fun s => s.weight_) = m.dynamic_list_.map (fun s => s.weight_) ∧
      r1.position_ = 8 * (m.WriteModel SequenceByteWriter.fresh).close.length :=
  TableCategorical_ReadModel_WriteModel
    ⟨[4], 2, [(feedAll [(0, 1)]).stats, CategoricalStats.fresh]⟩ (fun _ => 2) [7]
    (by decide) (by decide) (by decide) (by decide) (by decide) (by decide)


theorem EndOfData_of_tables (m : TableCategoricalModel) (tables : List CategoricalStats)
    (h : endOfDataTables m.target_range_ m.dynamic_list_ = some tables) :
    m.EndOfData = some { m with dynamic_list_ := tables } := by
  unfold TableCategoricalModel.EndOfData
  rw [h]

theorem ReadModel_count_wraps (L : List Nat) (hL : (L.length + 2) % 256 = 0)
    (hLb : ∀ p ∈ L, p < 65536) :
    ∃ m, (⟨0 :: 1 :: L, 1, [(feedAll [(0, 1)]).stats]⟩ :
        TableCategoricalModel).EndOfData = some m ∧
      m.predictor_list_ = 0 :: 1 :: L ∧ m.target_range_ = 1 ∧
      (m.WriteModel SequenceByteWriter.fresh).close.take 5 = [0, 0, 0, 0, 1] ∧
      ByteReader.ReadByte ⟨(m.WriteModel SequenceByteWriter.fresh).close, 0⟩
        = some (0, ⟨(m.WriteModel SequenceByteWriter.fresh).close, 8⟩) ∧
      TableCategoricalModel.ReadModel (fun _ => 1)
        ⟨(m.WriteModel SequenceByteWriter.fresh).close, 0⟩ = none := by
  obtain ⟨tables, e1, _, e3⟩ := endOfDataTables_spec 1 [(feedAll [(0, 1)]).stats]
    (by decide)
  have hW : ∀ s ∈ tables, ∀ x ∈ s.weight_, x ≤ 65536 := by
    intro s hs x hx
    rw [← (e3 s hs).2]
    exact le_sum_of_mem _ _ hx
  have hclose := WriteModel_close ⟨0 :: 1 :: L, 1, tables⟩
    (by intro p hp
        have hp' : p ∈ 0 :: 1 :: L := hp
        rcases List.mem_cons.1 hp' with h | h
        · omega
        · rcases List.mem_cons.1 h with h | h
          · omega
          · exact hLb p h)
    (show (1 : Nat) < 65536 from by norm_num) hW
  have hbytes : wordsBytes (0 :: 1 :: L) = 0 :: 0 :: 0 :: 1 :: wordsBytes L := rfl
  have hlen : (0 :: 1 :: L).length % 256 = 0 := by
    rw [List.length_cons, List.length_cons]
    exact hL
  generalize hS : ((⟨0 :: 1 :: L, 1, tables⟩ : TableCategoricalModel).WriteModel
    SequenceByteWriter.fresh).close = S at hclose
  have hp1 : (⟨0 :: 1 :: L, 1, tables⟩ : TableCategoricalModel).predictor_list_
      = 0 :: 1 :: L := rfl
  have hp3 : (⟨0 :: 1 :: L, 1, tables⟩ : TableCategoricalModel).target_range_ = 1 := rfl
  have hp4 : (⟨0 :: 1 :: L, 1, tables⟩ : TableCategoricalModel).dynamic_list_
      = tables := rfl
  rw [hp1, hp3, hp4, hlen, hbytes] at hclose
  generalize hpost : wordsBytes L ++ 1 / 256 :: 1 % 256 :: tableBytes tables
    = post at hclose
  have hSeq : S = 0 :: 0 :: 0 :: 0 :: 1 :: post := by
    rw [hclose, ← hpost]; rfl
  have hr1 : ByteReader.ReadByte ⟨S, 0⟩ = some (0, ⟨S, 8⟩) :=
    ReadByte_aligned ⟨S, 0⟩ [] _ 0 hSeq rfl (by norm_num)
  have hr3 : ByteReader.Read16Bit ⟨S, 8⟩ = some (0, ⟨S, 24⟩) :=
    Read16Bit_aligned ⟨S, 8⟩ [0] (0 :: 1 :: post) 0 0 hSeq rfl (by norm_num) (by norm_num)
      (by norm_num)
  have hr4 : readWeights 1 0 ⟨S, 24⟩ [0] 0 (2 ^ 64 - 1)
      = some ([1], 1, 2 ^ 64 - 1, ⟨S, 40⟩) :=
    readWeights_spec post [1] [0, 0, 0] [] [0] ⟨S, 24⟩ 0 (2 ^ 64 - 1) hSeq rfl (by norm_num)
      (by decide) rfl
  have hend : (⟨0 :: 1 :: L, 1, [(feedAll [(0, 1)]).stats]⟩ :
      TableCategoricalModel).EndOfData = some ⟨0 :: 1 :: L, 1, tables⟩ :=
    EndOfData_of_tables ⟨0 :: 1 :: L, 1, [(feedAll [(0, 1)]).stats]⟩ tables e1
  refine ⟨⟨0 :: 1 :: L, 1, tables⟩, hend, rfl, rfl, ?_, ?_, ?_⟩
  · rw [hS, hSeq]; rfl
  · rw [hS]; exact hr1
  · rw [hS]
    unfold TableCategoricalModel.ReadModel
    rw [hr1]
    simp only [Option.bind_eq_bind, Option.some_bind]
    unfold readPredictors
    simp only [Option.some_bind]
    rw [hr3]
    simp only [Option.some_bind]
    rw [show List.replicate 1 CategoricalStats.fresh = [CategoricalStats.fresh] from rfl]
    unfold readTables readTable
    have hw0 : resizeList CategoricalStats.fresh.weight_ (0 + 1) = [0] := by decide
    rw [hw0]
    dsimp only
    rw [show ([0] : List Nat).length = 1 from rfl, hr4]
    simp only [Option.bind_eq_bind, Option.some_bind]
    rw [if_pos (by norm_num), if_neg (by norm_num)]
    rfl

/-- C14 (counterexample): a `TableCategorical` with the 256 predictors `0, ..., 255`, one
statistic table and `target_range = 1` is finalized by `EndOfData`; `WriteModel` writes the
predictor count in one byte, so the description starts with the byte 0, and `ReadModel`
reads no predictor, takes the bytes of the first predictor for `target_range` and fails on
the weights. -/
theorem TableCategorical_ReadModel_WriteModel_counterexample :
    ∃ m, (⟨0 :: 1 :: List.range' 2 254, 1, [(feedAll [(0, 1)]).stats]⟩ :
        TableCategoricalModel).EndOfData = some m ∧
      m.predictor_list_.length = 256 ∧ m.target_range_ = 1 ∧
      (m.WriteModel SequenceByteWriter.fresh).close.take 5 = [0, 0, 0, 0, 1] ∧
      ByteReader.ReadByte ⟨(m.WriteModel SequenceByteWriter.fresh).close, 0⟩
        = some (0, ⟨(m.WriteModel SequenceByteWriter.fresh).close, 8⟩) ∧
      TableCategoricalModel.ReadModel (fun _ => 1)
        ⟨(m.WriteModel SequenceByteWriter.fresh).close, 0⟩ = none := by
  obtain ⟨m, h1, h2, h3, h4, h5, h6⟩ := ReadModel_count_wraps (List.range' 2 254)
    (by rw [List.length_range'])
    (by intro p hp
        rw [List.mem_range'_1] at hp
        omega)
  refine ⟨m, h1, ?_, h3, h4, h5, h6⟩
  rw [h2, List.length_cons, List.length_cons, List.length_range']

/-! ## Writing a byte partly -/

/-- C22 (code evaluated on the failing input): after `WriteLess(7, 3)` the stream holds the
bits 111 (byte 224); `WriteLess(255, 1)` should append the lowest bit of 255, giving 1111
(byte 240, as `WriteLess(1, 1)` does), but the unmasked byte is shifted into the bits
already written and the stream holds 1101 (byte 208). -/
theorem WriteLess_unmasked_byte :
    (SequenceByteWriter.fresh.WriteLess 7 3).close = [224] ∧
    ((SequenceByteWriter.fresh.WriteLess 7 3).WriteLess 1 1).close = [240] ∧
    ((SequenceByteWriter.fresh.WriteLess 7 3).WriteLess 255 1).close = [208] ∧
    ((SequenceByteWriter.fresh.WriteLess 7 3).WriteLess 255 1).bits_counter_ = 4 := by
  decide

/-! ## Description length of a categorical model -/

/-- C28 (code evaluated on the failing input): for the predictor-free model of an attribute
that always had the value 0 (one table, `target_range = 1`), `WriteModel` writes 7 bytes,
56 bits, while `GetModelDescriptionLength()` is 32; with the values 0 and 1
(`target_range = 2`) 72 bits are written and the length is 48. -/
theorem TableCategorical_description_length_mismatch :
    ((⟨[], 1, [(feedAll [(0, 3)]).stats]⟩ : TableCategoricalModel).EndOfData.map fun m =>
      ((m.WriteModel SequenceByteWriter.fresh).num_bits_,
       8 * (m.WriteModel SequenceByteWriter.fresh).close.length,
       m.GetModelDescriptionLength)) = some (56, 56, 32) ∧
    ((⟨[], 2, [(feedAll [(0, 3), (1, 1)]).stats]⟩ : TableCategoricalModel).EndOfData.map fun m =>
      ((m.WriteModel SequenceByteWriter.fresh).num_bits_,
       8 * (m.WriteModel SequenceByteWriter.fresh).close.length,
       m.GetModelDescriptionLength)) = some (72, 72, 48) := by
  decide

/-! ## Creation of a table model -/

/-- C29 (code evaluated on the failing input): `x = 2 - 2^-25` lies between the single
precision values `2 - 2^-23` and `2`, nearest to `2`; its fraction rounds to `2^24`, whose
low 23 bits are 0, and the exponent is not incremented: the four bytes are those of `1`,
and the value read back is `1`, half of `x`. -/
theorem ConvertSinglePrecision_fraction_carry :
    ConvertSinglePrecision.toBytes (2 - 1 / 2 ^ 25) = [63, 128, 0, 0] ∧
    QuantizationToFloat32Bit (2 - 1 / 2 ^ 25) = 1 ∧
    ConvertSinglePrecision.ofBytes [64, 0, 0, 0] = 2 := by
  have hb : ConvertSinglePrecision.toBytes (2 - 1 / 2 ^ 25) = [63, 128, 0, 0] := by
    unfold ConvertSinglePrecision.toBytes
    rw [if_neg (by norm_num), if_neg (by norm_num), if_neg (by norm_num)]
    dsimp only
    rw [scaleUp_of_ge _ _ _ (by norm_num), scaleDown_of_lt _ _ _ (by norm_num)]
    have h : ⌊((2 : ℚ) - 1 / 2 ^ 25) * 2 ^ 23 + 1 / 2⌋ = 2 ^ 24 := by
      rw [Int.floor_eq_iff]; norm_num
    simp only [h]
    decide
  refine ⟨hb, ?_, ?_⟩
  · unfold QuantizationToFloat32Bit
    rw [hb]
    unfold ConvertSinglePrecision.ofBytes
    simp only [List.getD_cons_zero, List.getD_cons_succ]
    rw [show ((63 &&& 127) * 2 + (128 >>> 7 &&& 1) : Nat) = 127 from by decide,
      show ((128 &&& 127) <<< 16 + 0 <<< 8 + 0 : Nat) = 0 from by decide,
      show (63 &&& 128 : Nat) = 0 from by decide]
    norm_num
  · unfold ConvertSinglePrecision.ofBytes
    simp only [List.getD_cons_zero, List.getD_cons_succ]
    rw [show ((64 &&& 127) * 2 + (0 >>> 7 &&& 1) : Nat) = 128 from by decide,
      show ((0 &&& 127) <<< 16 + 0 <<< 8 + 0 : Nat) = 0 from by decide,
      show (64 &&& 128 : Nat) = 0 from by decide]
    norm_num

/-! ## Single precision: packing what was unpacked -/

theorem scaleUp_pow (m : ℚ) (h1 : 1 ≤ m) (h2 : m < 2) :
    ∀ (k fuel : Nat) (e : Int), k ≤ fuel → scaleUp fuel (m / 2 ^ k) e = (m, e - k) := by
  intro k
  induction k with
  | zero =>
    intro fuel e _
    rw [pow_zero, div_one, scaleUp_of_ge _ _ _ h1]
    simp
  | succ k ih =>
    intro fuel e hk
    obtain ⟨f, rfl⟩ : ∃ f, fuel = f + 1 := ⟨fuel - 1, by omega⟩
    have hlt : m / 2 ^ (k + 1) < 1 := by
      rw [div_lt_one (by positivity)]
      have : (2 : ℚ) ^ 1 ≤ 2 ^ (k + 1) := pow_le_pow_right₀ (by norm_num) (by omega)
      linarith
    rw [scaleUp, if_pos hlt]
    have : m / 2 ^ (k + 1) * 2 = m / 2 ^ k := by
      rw [pow_succ]; field_simp; ring
    rw [this, ih f (e - 1) (by omega)]
    congr 1
    push_cast
    ring

theorem scaleDown_pow (m : ℚ) (h1 : 1 ≤ m) (h2 : m < 2) :
    ∀ (k fuel : Nat) (e : Int), k ≤ fuel → scaleDown fuel (m * 2 ^ k) e = (m, e + k) := by
  intro k
  induction k with
  | zero =>
    intro fuel e _
    rw [pow_zero, mul_one, scaleDown_of_lt _ _ _ h2]
    simp
  | succ k ih =>
    intro fuel e hk
    obtain ⟨f, rfl⟩ : ∃ f, fuel = f + 1 := ⟨fuel - 1, by omega⟩
    have hge : 2 ≤ m * 2 ^ (k + 1) := by
      have : (2 : ℚ) ^ 1 ≤ 2 ^ (k + 1) := pow_le_pow_right₀ (by norm_num) (by omega)
      nlinarith
    rw [scaleDown, if_pos hge]
    have : m * 2 ^ (k + 1) / 2 = m * 2 ^ k := by
      rw [pow_succ]; field_simp; ring
    rw [this, ih f (e + 1) (by omega)]
    congr 1
    push_cast
    ring

theorem unpacked_value (E V : Nat) :
    ((V + 2 ^ 23 : Nat) : ℚ) * 2 ^ ((E : Int) - 127 - 23)
      = if 127 ≤ E then (((V + 2 ^ 23 : Nat) : ℚ) / 2 ^ 23) * 2 ^ (E - 127)
        else (((V + 2 ^ 23 : Nat) : ℚ) / 2 ^ 23) / 2 ^ (127 - E) := by
  have h2 : (2 : ℚ) ≠ 0 := by norm_num
  split
  · rename_i h
    have : ((E : Int) - 127 - 23) = ((E - 127 : Nat) : Int) - (23 : Nat) := by
      push_cast [Nat.cast_sub h]; ring
    rw [this, zpow_sub₀ h2, zpow_natCast, zpow_natCast]
    field_simp
  · rename_i h
    have : ((E : Int) - 127 - 23) = -(((127 - E : Nat) : Int) + (23 : Nat)) := by
      push_cast [Nat.cast_sub (show E ≤ 127 by omega)]; ring
    rw [this, zpow_neg, ← Nat.cast_add, zpow_natCast, pow_add]
    field_simp
    left
    ring

theorem packed_scaling (E V : Nat) (hE : E < 256) (hV : V < 2 ^ 23) :
    scaleDown 1100
      (scaleUp 1100 (((V + 2 ^ 23 : Nat) : ℚ) * 2 ^ ((E : Int) - 127 - 23)) 127).1
      (scaleUp 1100 (((V + 2 ^ 23 : Nat) : ℚ) * 2 ^ ((E : Int) - 127 - 23)) 127).2
      = (((V + 2 ^ 23 : Nat) : ℚ) / 2 ^ 23, (E : Int)) := by
  have hm1 : (1 : ℚ) ≤ ((V + 2 ^ 23 : Nat) : ℚ) / 2 ^ 23 := by
    rw [le_div_iff₀ (by positivity)]
    push_cast
    have : (0 : ℚ) ≤ (V : ℚ) := Nat.cast_nonneg V
    linarith
  have hm2 : ((V + 2 ^ 23 : Nat) : ℚ) / 2 ^ 23 < 2 := by
    rw [div_lt_iff₀ (by positivity)]
    have : (V : ℚ) < 2 ^ 23 := by exact_mod_cast hV
    push_cast
    linarith
  rw [unpacked_value]
  split
  · rename_i h
    have hge : (1 : ℚ) ≤ ((V + 2 ^ 23 : Nat) : ℚ) / 2 ^ 23 * 2 ^ (E - 127) := by
      have : (1 : ℚ) ≤ 2 ^ (E - 127) := one_le_pow₀ (by norm_num)
      nlinarith
    rw [scaleUp_of_ge _ _ _ hge, scaleDown_pow _ hm1 hm2 (E - 127) 1100 127 (by omega)]
    have he : (127 : Int) + ((E - 127 : Nat) : Int) = E := by omega
    rw [he]
  · rename_i h
    rw [scaleUp_pow _ hm1 hm2 (127 - E) 1100 127 (by omega), scaleDown_of_lt _ _ _ hm2]
    have he : (127 : Int) - ((127 - E : Nat) : Int) = E := by omega
    rw [he]

theorem toBytes_unpacked (E V : Nat) (hE : E < 256) (hV : V < 2 ^ 23) (neg : Bool) :
    ConvertSinglePrecision.toBytes
      (if neg = true then -(((V + 2 ^ 23 : Nat) : ℚ) * 2 ^ ((E : Int) - 127 - 23))
        else ((V + 2 ^ 23 : Nat) : ℚ) * 2 ^ ((E : Int) - 127 - 23))
      = [(if neg = true then 128 else 0) ||| ((E >>> 1) &&& 127),
         (((E &&& 1) <<< 7) % 256) ||| (((V + 2 ^ 23) >>> 16) &&& 127),
         ((V + 2 ^ 23) >>> 8) &&& 255,
         (V + 2 ^ 23) &&& 255] := by
  have hR : (0 : ℚ) < ((V + 2 ^ 23 : Nat) : ℚ) * 2 ^ ((E : Int) - 127 - 23) := by
    apply mul_pos
    · exact_mod_cast Nat.succ_le_of_lt (by positivity : 0 < V + 2 ^ 23)
    · positivity
  have hexp : ((E : Int) % 256).toNat = E := by omega
  have hfl : ⌊((V + 2 ^ 23 : Nat) : ℚ) / 2 ^ 23 * 2 ^ 23 + 1 / 2⌋ = ((V + 2 ^ 23 : Nat) : Int) := by
    rw [Int.floor_eq_iff, div_mul_cancel₀ _ (by positivity)]
    constructor
    · push_cast; linarith
    · push_cast; linarith
  have hfr : toU32 ((V + 2 ^ 23 : Nat) : Int) = V + 2 ^ 23 := by
    unfold toU32
    omega
  generalize hRR : ((V + 2 ^ 23 : Nat) : ℚ) * 2 ^ ((E : Int) - 127 - 23) = R at hR
  have hsc := packed_scaling E V hE hV
  rw [hRR] at hsc
  cases neg with
  | false =>
    simp only [Bool.false_eq_true, if_false]
    unfold ConvertSinglePrecision.toBytes
    rw [if_neg (ne_of_gt hR), if_neg (not_lt.2 (le_of_lt hR)), if_neg (not_lt.2 (le_of_lt hR))]
    dsimp only
    rw [hsc]
    dsimp only
    rw [hexp, hfl, hfr]
  | true =>
    simp only [if_true]
    unfold ConvertSinglePrecision.toBytes
    have hneg : -R < 0 := by linarith
    rw [if_neg (ne_of_lt hneg), if_pos hneg, if_pos hneg, neg_neg]
    dsimp only
    rw [hsc]
    dsimp only
    rw [hexp, hfl, hfr]

set_option maxRecDepth 8000 in
theorem byte_sign_field : ∀ b, b < 256 →
    (if b &&& 128 > 0 then 128 else 0) ||| (b &&& 127) = b := by
  decide

theorem byte_exponent_field : ∀ a, a < 128 → ∀ c, c < 2 →
    ((a * 2 + c) >>> 1) &&& 127 = a ∧ ((a * 2 + c) &&& 1) <<< 7 % 256 = c * 128 := by
  decide

set_option maxRecDepth 8000 in
theorem byte_fraction_field : ∀ b, b < 256 →
    (((b >>> 7) &&& 1) * 128) ||| (b &&& 127) = b ∧ ((b &&& 127) + 128) &&& 127 = b &&& 127 ∧
      b &&& 127 < 128 ∧ (b >>> 7) &&& 1 < 2 := by
  decide

/-- Packing what `ConvertSinglePrecision(bytes)` unpacks from four bytes whose exponent and
fraction fields are not both 0 gives the four bytes back. -/
theorem toBytes_ofBytes (b0 b1 b2 b3 : Nat) (h0 : b0 < 256) (h1 : b1 < 256) (h2 : b2 < 256)
    (h3 : b3 < 256)
    (hnz : ¬ ((b0 &&& 127) * 2 + ((b1 >>> 7) &&& 1) = 0 ∧
      ((b1 &&& 127) <<< 16) + (b2 <<< 8) + b3 = 0)) :
    ConvertSinglePrecision.toBytes (ConvertSinglePrecision.ofBytes [b0, b1, b2, b3])
      = [b0, b1, b2, b3] := by
  obtain ⟨f1, f2, f3, f4⟩ := byte_fraction_field b1 h1
  have f0 := byte_sign_field b0 h0
  have ha : b0 &&& 127 < 128 := (byte_fraction_field b0 h0).2.2.1
  obtain ⟨e1, e2⟩ := byte_exponent_field (b0 &&& 127) ha ((b1 >>> 7) &&& 1) f4
  generalize hE : (b0 &&& 127) * 2 + ((b1 >>> 7) &&& 1) = E at e1 e2 hnz
  have hV : ((b1 &&& 127) <<< 16) + (b2 <<< 8) + b3
      = (b1 &&& 127) * 65536 + b2 * 256 + b3 := by
    rw [Nat.shiftLeft_eq, Nat.shiftLeft_eq]
  have hElt : E < 256 := by omega
  have hVlt : (b1 &&& 127) * 65536 + b2 * 256 + b3 < 2 ^ 23 := by
    have : (2 : Nat) ^ 23 = 8388608 := by norm_num
    omega
  have hof : ConvertSinglePrecision.ofBytes [b0, b1, b2, b3]
      = if decide (b0 &&& 128 > 0) = true then
          -((((b1 &&& 127) * 65536 + b2 * 256 + b3 + 2 ^ 23 : Nat) : ℚ)
            * 2 ^ ((E : Int) - 127 - 23))
        else (((b1 &&& 127) * 65536 + b2 * 256 + b3 + 2 ^ 23 : Nat) : ℚ)
            * 2 ^ ((E : Int) - 127 - 23) := by
    unfold ConvertSinglePrecision.ofBytes
    simp only [List.getD_cons_zero, List.getD_cons_succ]
    rw [hE, hV]
    have hc : ¬ (((E : Nat) : Int) - 127 = -127 ∧ (b1 &&& 127) * 65536 + b2 * 256 + b3 = 0) := by
      rw [hV] at hnz
      intro h
      exact hnz ⟨by omega, h.2⟩
    rw [if_neg hc]
    simp only [decide_eq_true_eq]
  rw [hof, toBytes_unpacked E _ hElt hVlt]
  have hs16 : ((b1 &&& 127) * 65536 + b2 * 256 + b3 + 2 ^ 23) >>> 16 = (b1 &&& 127) + 128 := by
    rw [Nat.shiftRight_eq_div_pow]
    have : (2 : Nat) ^ 23 = 8388608 := by norm_num
    have : (2 : Nat) ^ 16 = 65536 := by norm_num
    omega
  have hs8 : (((b1 &&& 127) * 65536 + b2 * 256 + b3 + 2 ^ 23) >>> 8) &&& 255 = b2 := by
    rw [Nat.shiftRight_eq_div_pow, show (255 : Nat) = 2 ^ 8 - 1 from rfl,
      Nat.and_pow_two_sub_one_eq_mod]
    have : (2 : Nat) ^ 23 = 8388608 := by norm_num
    have : (2 : Nat) ^ 8 = 256 := by norm_num
    omega
  have hs0 : ((b1 &&& 127) * 65536 + b2 * 256 + b3 + 2 ^ 23) &&& 255 = b3 := by
    rw [show (255 : Nat) = 2 ^ 8 - 1 from rfl, Nat.and_pow_two_sub_one_eq_mod]
    have : (2 : Nat) ^ 23 = 8388608 := by norm_num
    have : (2 : Nat) ^ 8 = 256 := by norm_num
    omega
  rw [hs16, hs8, hs0, e1, e2, f2, f1]
  simp only [decide_eq_true_eq]
  rw [f0]

theorem toBytes_shape (x : ℚ) :
    ∃ c0 c1 c2 c3, c0 < 256 ∧ c1 < 256 ∧ c2 < 256 ∧ c3 < 256 ∧
      ConvertSinglePrecision.toBytes x = [c0, c1, c2, c3] := by
  unfold ConvertSinglePrecision.toBytes
  split
  · exact ⟨0, 0, 0, 0, by decide, by decide, by decide, by decide, rfl⟩
  · dsimp only
    refine ⟨_, _, _, _, ?_, ?_, ?_, ?_, rfl⟩
    · apply Nat.or_lt_two_pow (n := 8)
      · split <;> decide
      · exact lt_of_le_of_lt Nat.and_le_right (by decide)
    · apply Nat.or_lt_two_pow (n := 8)
      · exact Nat.mod_lt _ (by decide)
      · exact lt_of_le_of_lt Nat.and_le_right (by decide)
    · exact lt_of_le_of_lt Nat.and_le_right (by decide)
    · exact lt_of_le_of_lt Nat.and_le_right (by decide)

theorem ofBytes_zero_fields (b0 b1 b2 b3 : Nat)
    (hz : (b0 &&& 127) * 2 + ((b1 >>> 7) &&& 1) = 0 ∧
      ((b1 &&& 127) <<< 16) + (b2 <<< 8) + b3 = 0) :
    ConvertSinglePrecision.ofBytes [b0, b1, b2, b3] = 0 := by
  unfold ConvertSinglePrecision.ofBytes
  simp only [List.getD_cons_zero, List.getD_cons_succ]
  rw [hz.1, hz.2]
  simp

theorem QuantizationToFloat32Bit_zero_again : QuantizationToFloat32Bit 0 = 0 := by
  unfold QuantizationToFloat32Bit ConvertSinglePrecision.toBytes
  rw [if_pos rfl]
  exact ofBytes_zero_fields 0 0 0 0 (by decide)

theorem Quantization_twice (x : ℚ) :
    QuantizationToFloat32Bit (QuantizationToFloat32Bit x) = QuantizationToFloat32Bit x := by
  obtain ⟨c0, c1, c2, c3, h0, h1, h2, h3, hc⟩ := toBytes_shape x
  by_cases hz : (c0 &&& 127) * 2 + ((c1 >>> 7) &&& 1) = 0 ∧
      ((c1 &&& 127) <<< 16) + (c2 <<< 8) + c3 = 0
  · have hq : QuantizationToFloat32Bit x = 0 := by
      unfold QuantizationToFloat32Bit
      rw [hc]
      exact ofBytes_zero_fields c0 c1 c2 c3 hz
    rw [hq, QuantizationToFloat32Bit_zero_again]
  · have hq : QuantizationToFloat32Bit x = ConvertSinglePrecision.ofBytes [c0, c1, c2, c3] := by
      unfold QuantizationToFloat32Bit
      rw [hc]
    rw [hq]
    unfold QuantizationToFloat32Bit
    rw [toBytes_ofBytes c0 c1 c2 c3 h0 h1 h2 h3 hz]

/-- C30: `QuantizationToFloat32Bit` is idempotent: quantizing `x` a second time returns the
quantized value, for every `x`; packing the value unpacked from four bytes whose exponent
and fraction fields are not both 0 returns the four bytes; so the four bytes that
`WriteStats` writes for a quantized parameter are read back by `ReadStats` as that
parameter. -/
theorem QuantizationToFloat32Bit_idempotent (x : ℚ) (b0 b1 b2 b3 : Nat) (h0 : b0 < 256)
    (h1 : b1 < 256) (h2 : b2 < 256) (h3 : b3 < 256)
    (hnz : ¬ ((b0 &&& 127) * 2 + ((b1 >>> 7) &&& 1) = 0 ∧
      ((b1 &&& 127) <<< 16) + (b2 <<< 8) + b3 = 0)) :
    QuantizationToFloat32Bit (QuantizationToFloat32Bit x) = QuantizationToFloat32Bit x ∧
    ConvertSinglePrecision.toBytes (ConvertSinglePrecision.ofBytes [b0, b1, b2, b3])
      = [b0, b1, b2, b3] ∧
    ConvertSinglePrecision.ofBytes
        (ConvertSinglePrecision.toBytes (QuantizationToFloat32Bit x))
      = QuantizationToFloat32Bit x :=
  ⟨Quantization_twice x, toBytes_ofBytes b0 b1 b2 b3 h0 h1 h2 h3 hnz, Quantization_twice x⟩

theorem QuantizationToFloat32Bit_idempotent_witness :
    QuantizationToFloat32Bit (QuantizationToFloat32Bit (1 / 3))
      = QuantizationToFloat32Bit (1 / 3) ∧
    ConvertSinglePrecision.toBytes (ConvertSinglePrecision.ofBytes [190, 170, 170, 171])
      = [190, 170, 170, 171] ∧
    ConvertSinglePrecision.ofBytes
        (ConvertSinglePrecision.toBytes (QuantizationToFloat32Bit (1 / 3)))
      = QuantizationToFloat32Bit (1 / 3) :=
  QuantizationToFloat32Bit_idempotent (1 / 3) 190 170 170 171 (by decide) (by decide)
    (by decide) (by decide) (by decide)

/-- When every predictor is enum-interpretable with a capacity between 0
and `2^31` and the product of the capacities stays below `2^64`, the loop of the creators
computes that product. -/
theorem creatorTableSize_exact (interpreter : Int → AttrInterpreter) :
    ∀ (predictor : List Nat) (table_size : Nat),
      (∀ p ∈ predictor, (interpreter (toI32 (p % 2 ^ 32))).EnumInterpretable = true ∧
        0 ≤ (interpreter (toI32 (p % 2 ^ 32))).EnumCap ∧
        (interpreter (toI32 (p % 2 ^ 32))).EnumCap < 2 ^ 31) →
      table_size * (predictor.map fun p =>
        (interpreter (toI32 (p % 2 ^ 32))).EnumCap.toNat).prod < 2 ^ 64 →
      creatorTableSize interpreter predictor table_size
        = some (table_size * (predictor.map fun p =>
            (interpreter (toI32 (p % 2 ^ 32))).EnumCap.toNat).prod) := by
  intro predictor
  induction predictor with
  | nil =>
    intro t _ _
    simp [creatorTableSize]
  | cons p rest ih =>
    intro t hall hlt
    obtain ⟨he, h0, h1⟩ := hall p (List.mem_cons_self _ _)
    rw [List.map_cons, List.prod_cons, ← Nat.mul_assoc] at hlt
    have hu : toU64 (interpreter (toI32 (p % 2 ^ 32))).EnumCap
        = (interpreter (toI32 (p % 2 ^ 32))).EnumCap.toNat := by
      unfold toU64
      rw [Int.emod_eq_of_lt h0 (by omega)]
    unfold creatorTableSize
    dsimp only
    rw [if_neg (by rw [he]; decide), hu]
    have hle : (t * (interpreter (toI32 (p % 2 ^ 32))).EnumCap.toNat) % 2 ^ 64
          * (rest.map fun p => (interpreter (toI32 (p % 2 ^ 32))).EnumCap.toNat).prod < 2 ^ 64 :=
      lt_of_le_of_lt (Nat.mul_le_mul_right _ (Nat.mod_le _ _)) hlt
    rw [ih _ (fun q hq => hall q (List.mem_cons_of_mem _ hq)) hle, List.map_cons, List.prod_cons]
    by_cases hr : (rest.map fun p => (interpreter (toI32 (p % 2 ^ 32))).EnumCap.toNat).prod = 0
    · rw [hr, Nat.mul_zero, Nat.mul_zero, Nat.mul_zero]
    · have hpos : 0 < (rest.map fun p => (interpreter (toI32 (p % 2 ^ 32))).EnumCap.toNat).prod :=
        Nat.pos_of_ne_zero hr
      have hb : t * (interpreter (toI32 (p % 2 ^ 32))).EnumCap.toNat < 2 ^ 64 :=
        lt_of_le_of_lt (Nat.le_mul_of_pos_right _ hpos) hlt
      rw [Nat.mod_eq_of_lt hb, Nat.mul_assoc]

/-- As long as the product of the capacities does not wrap,
`TableCategoricalCreator::CreateModel` returns no model exactly when the product exceeds
`kMaxTableSize`, and otherwise a model with the given predictor list and target index. -/
theorem CreateModel_without_wrap (interpreter : Int → AttrInterpreter) (predictor : List Nat)
    (index : Nat)
    (hall : ∀ p ∈ predictor, (interpreter (toI32 (p % 2 ^ 32))).EnumInterpretable = true ∧
        0 ≤ (interpreter (toI32 (p % 2 ^ 32))).EnumCap ∧
        (interpreter (toI32 (p % 2 ^ 32))).EnumCap < 2 ^ 31)
    (hlt : (predictor.map fun p =>
        (interpreter (toI32 (p % 2 ^ 32))).EnumCap.toNat).prod < 2 ^ 64) :
    TableCategoricalCreator.CreateModel interpreter predictor index
      = if (predictor.map fun p =>
          (interpreter (toI32 (p % 2 ^ 32))).EnumCap.toNat).prod > 1000 then none
        else some (predictor, index) := by
  unfold TableCategoricalCreator.CreateModel
  rw [creatorTableSize_exact interpreter predictor 1 hall (by rw [Nat.one_mul]; exact hlt),
    Nat.one_mul]
  rfl

theorem mem_predictorSet (l : List Nat) (a : Nat) : a ∈ predictorSet l ↔ a ∈ l := by
  unfold predictorSet
  rw [List.mem_dedup]
  exact (List.perm_insertionSort _ l).mem_iff

theorem length_predictorSet (l : List Nat) (h : l.Nodup) : (predictorSet l).length = l.length := by
  unfold predictorSet
  rw [List.dedup_eq_self.2 ((List.perm_insertionSort _ l).nodup_iff.2 h),
    List.length_insertionSort]

theorem perm_range_of_nodup (l : List Nat) (n : Nat) (hnd : l.Nodup) (hlt : ∀ a ∈ l, a < n)
    (hlen : l.length = n) : l.Perm (List.range n) := by
  apply List.perm_of_nodup_nodup_toFinset_eq hnd (List.nodup_range n)
  apply Finset.eq_of_subset_of_card_le
  · intro a ha
    rw [List.mem_toFinset] at ha
    rw [List.mem_toFinset, List.mem_range]
    exact hlt a ha
  · rw [List.toFinset_card_of_nodup (List.nodup_range n), List.length_range,
      List.toFinset_card_of_nodup hnd, hlen]

theorem learnerCreateModel_mem (creator : List Nat → Nat → Bool) (predictors : List Nat)
    (target : Nat) (vec : List LearnedModel) (m : LearnedModel)
    (hm : m ∈ learnerCreateModel creator predictors target vec) :
    m ∈ vec ∨ (m.target_var_ = target ∧ m.predictor_list_ = predictors) := by
  unfold learnerCreateModel at hm
  split at hm
  · rcases List.mem_append.1 hm with h | h
    · exact Or.inl h
    · right
      rw [List.mem_singleton] at h
      rw [h]
      exact ⟨rfl, rfl⟩
  · exact Or.inl hm

theorem expandStep_inv (creator : List Nat → Nat → Bool) (l : RelationModelLearner) (i : Nat)
    (mp attrs : List Nat) (act0 : List LearnedModel) (hmp : mp.Nodup) (st : ExpandState)
    (attr : Nat) (hattr : attr ∈ attrs) (h : ExpandInv i mp attrs act0 st) :
    ExpandInv i mp attrs act0 (expandStep creator l i (predictorSet mp) st attr) := by
  unfold expandStep
  by_cases hin : attr ∈ predictorSet mp
  · rw [if_pos hin]; exact h
  · rw [if_neg hin]
    obtain ⟨x, hx⟩ := h.plist
    have hset : st.predictor_list.set (predictorSet mp).length attr = mp ++ [attr] := by
      rw [hx, length_predictorSet mp hmp, List.set_append, if_neg (by omega), Nat.sub_self]
      rfl
    have hnm : attr ∉ mp := fun hc => hin ((mem_predictorSet mp attr).2 hc)
    dsimp only
    rw [hset]
    split
    · refine ⟨⟨attr, rfl⟩, h.kept, h.grown, ?_⟩
      intro m hm
      rcases learnerCreateModel_mem _ _ _ _ _ hm with h1 | h1
      · exact h.act m h1
      · exact Or.inr h1.1
    · split
      · exact ⟨⟨attr, rfl⟩, fun hc => by simp at hc, fun _ => ⟨attr, hattr, hnm, rfl⟩, h.act⟩
      · exact ⟨⟨attr, rfl⟩, h.kept, h.grown, h.act⟩

theorem expandFold_inv (creator : List Nat → Nat → Bool) (l : RelationModelLearner) (i : Nat)
    (mp attrs : List Nat) (act0 : List LearnedModel) (hmp : mp.Nodup) :
    ∀ (todo : List Nat) (st : ExpandState), (∀ a ∈ todo, a ∈ attrs) →
      ExpandInv i mp attrs act0 st →
      ExpandInv i mp attrs act0 (todo.foldl (expandStep creator l i (predictorSet mp)) st) := by
  intro todo
  induction todo with
  | nil => intro st _ h; exact h
  | cons a rest ih =>
    intro st hsub h
    rw [List.foldl_cons]
    exact ih _ (fun b hb => hsub b (List.mem_cons_of_mem _ hb))
      (expandStep_inv creator l i mp attrs act0 hmp st a (hsub a (List.mem_cons_self _ _)) h)

theorem expandLoop_spec (creator : List Nat → Nat → Bool) (l : RelationModelLearner) (i : Nat) :
    ∀ (fuel : Nat) (act : List LearnedModel) (mp : List Nat), mp.Nodup →
      (∀ a ∈ mp, a ∈ l.ordered_attr_list_) →
      l.ordered_attr_list_.length + 1 ≤ fuel + mp.length →
      ∃ act1 mp1, expandLoop creator l i fuel act mp = some (act1, mp1) ∧ mp1.Nodup ∧
        (∀ a ∈ mp1, a ∈ l.ordered_attr_list_) ∧
        (∀ m ∈ act1, m ∈ act ∨ m.target_var_ = i) := by
  intro fuel
  induction fuel with
  | zero =>
    intro act mp hnd hsub hlen
    have := (List.subperm_of_subset hnd hsub).length_le
    omega
  | succ fuel ih =>
    intro act mp hnd hsub hlen
    have inv := expandFold_inv creator l i mp l.ordered_attr_list_ act hnd l.ordered_attr_list_
      ⟨act, mp ++ [0], mp, l.GetModelCost mp i, false⟩ (fun a ha => ha)
      ⟨⟨0, rfl⟩, fun _ => rfl, fun hc => by simp at hc, fun m hm => Or.inl hm⟩
    unfold expandLoop
    dsimp only
    generalize l.ordered_attr_list_.foldl (expandStep creator l i (predictorSet mp))
      ⟨act, mp ++ [0], mp, l.GetModelCost mp i, false⟩ = st at inv
    by_cases he : st.model_expanded = true
    · rw [if_pos he]
      obtain ⟨a, ha, hna, hmp⟩ := inv.grown he
      have hnd1 : (mp ++ [a]).Nodup := by
        rw [List.nodup_append]
        refine ⟨hnd, List.nodup_singleton a, ?_⟩
        intro x hx hx1
        rw [List.mem_singleton] at hx1
        rw [hx1] at hx
        exact hna hx
      have hsub1 : ∀ x ∈ mp ++ [a], x ∈ l.ordered_attr_list_ := by
        intro x hx
        rcases List.mem_append.1 hx with h | h
        · exact hsub x h
        · rw [List.mem_singleton] at h; rw [h]; exact ha
      obtain ⟨act1, mp1, h1, h2, h3, h4⟩ := ih st.active (mp ++ [a]) hnd1 hsub1
        (by rw [List.length_append, List.length_singleton]; omega)
      rw [hmp]
      refine ⟨act1, mp1, h1, h2, h3, ?_⟩
      intro m hm
      rcases h4 m hm with h | h
      · exact inv.act m h
      · exact Or.inr h
    · rw [if_neg he]
      have hf : st.model_expanded = false := by
        cases hh : st.model_expanded with
        | false => rfl
        | true => exact absurd hh he
      refine ⟨st.active, st.model_predictor, rfl, ?_, ?_, inv.act⟩
      · rw [inv.kept hf]; exact hnd
      · rw [inv.kept hf]; exact hsub

theorem initStage0_spec (creator : List Nat → Nat → Bool) (l : RelationModelLearner) (n : Nat) :
    ∀ (todo : List Nat) (act : List LearnedModel) (mpl : List (List Nat)),
      (∀ i ∈ todo, i < n) → mpl.length = n → (∀ m ∈ act, m.target_var_ < n) →
      ∃ act1 mpl1, initStage0 creator l todo act mpl = some (act1, mpl1) ∧ mpl1.length = n ∧
        (∀ m ∈ act1, m.target_var_ < n) ∧
        ∀ a, mpl1.getD a [] = mpl.getD a [] ∨
          (a ∉ l.inactive_attr_ ∧ ∀ p ∈ mpl1.getD a [], p ∈ l.ordered_attr_list_) := by
  intro todo
  induction todo with
  | nil =>
    intro act mpl _ hlen hact
    exact ⟨act, mpl, rfl, hlen, hact, fun a => Or.inl rfl⟩
  | cons i rest ih =>
    intro act mpl htodo hlen hact
    have hi : i < n := htodo i (List.mem_cons_self _ _)
    have hrest : ∀ j ∈ rest, j < n := fun j hj => htodo j (List.mem_cons_of_mem _ hj)
    unfold initStage0
    by_cases h1 : i ∈ l.inactive_attr_
    · rw [if_pos h1]
      exact ih act mpl hrest hlen hact
    · rw [if_neg h1]
      by_cases h2 : l.GetModelCost [] i = -1
      · rw [if_pos h2]
        apply ih _ mpl hrest hlen
        intro m hm
        rcases learnerCreateModel_mem _ _ _ _ _ hm with h | h
        · exact hact m h
        · rw [h.1]; exact hi
      · rw [if_neg h2, if_pos (by omega)]
        obtain ⟨act1, mp1, e1, _, e3, e4⟩ := expandLoop_spec creator l i
          (l.ordered_attr_list_.length + 1) act [] List.nodup_nil (fun a ha => by simp at ha)
          (by omega)
        rw [e1]
        dsimp only
        obtain ⟨act2, mpl2, f1, f2, f3, f4⟩ := ih act1 (mpl.set i mp1) hrest
          (by rw [List.length_set]; exact hlen)
          (by intro m hm
              rcases e4 m hm with h | h
              · exact hact m h
              · rw [h]; exact hi)
        refine ⟨act2, mpl2, f1, f2, f3, ?_⟩
        intro a
        rcases f4 a with h | h
        · by_cases hai : a = i
          · right
            rw [h, hai]
            refine ⟨h1, ?_⟩
            intro p hp
            rw [List.getD_eq_getElem?_getD, List.getElem?_set_self (by omega)] at hp
            exact e3 p hp
          · left
            rw [h, List.getD_eq_getElem?_getD, List.getD_eq_getElem?_getD,
              List.getElem?_set_ne (fun hc => hai hc.symm)]
        · exact Or.inr h

theorem initStage1_spec (creator : List Nat → Nat → Bool) (l : RelationModelLearner) (n : Nat)
    (hmpl : l.model_predictor_list_.length = n) :
    ∀ (todo : List Nat) (act : List LearnedModel),
      (∀ i ∈ todo, i < n) → (∀ m ∈ act, m.target_var_ < n) →
      ∃ act1, initStage1 creator l todo act = some act1 ∧ ∀ m ∈ act1, m.target_var_ < n := by
  intro todo
  induction todo with
  | nil =>
    intro act _ hact
    exact ⟨act, rfl, hact⟩
  | cons i rest ih =>
    intro act htodo hact
    have hi : i < n := htodo i (List.mem_cons_self _ _)
    have hrest : ∀ j ∈ rest, j < n := fun j hj => htodo j (List.mem_cons_of_mem _ hj)
    unfold initStage1
    rw [List.getElem?_eq_getElem (by omega)]
    dsimp only
    split
    · apply ih _ hrest
      intro m hm
      rcases learnerCreateModel_mem _ _ _ _ _ hm with h | h
      · exact hact m h
      · rw [h.1]; exact hi
    · exact ih _ hrest hact

theorem InitActiveModelList_spec (creator : List Nat → Nat → Bool) (l : RelationModelLearner)
    (n : Nat) (h : LearnerInv n l) :
    ∃ l1, l.InitActiveModelList creator = some l1 ∧ LearnerInv n l1 ∧
      l1.ordered_attr_list_ = l.ordered_attr_list_ ∧ l1.learner_stage_ = l.learner_stage_ ∧
      l1.stored_model_cost_ = l.stored_model_cost_ ∧ l1.inactive_attr_ = l.inactive_attr_ ∧
      (l.learner_stage_ ≠ 0 → l1.model_predictor_list_ = l.model_predictor_list_) := by
  have hrange : ∀ i ∈ List.range l.schema_.length, i < n := by
    intro i hi
    rw [List.mem_range, h.schema] at hi
    exact hi
  unfold RelationModelLearner.InitActiveModelList
  by_cases hs : l.learner_stage_ = 0
  · rw [if_pos hs]
    obtain ⟨act1, mpl1, e1, e2, e3, e4⟩ := initStage0_spec creator l n
      (List.range l.schema_.length) [] l.model_predictor_list_ hrange h.mpl
      (fun m hm => by simp at hm)
    rw [e1]
    refine ⟨_, rfl, ?_, rfl, rfl, rfl, rfl, fun hc => absurd hs hc⟩
    refine ⟨h.schema, e2, h.sel, h.nodup, h.ord_lt, e3, h.stage, h.inact, h.short, h.full, ?_⟩
    intro a p hp
    rcases e4 a with h1 | h1
    · have hp1 : p ∈ l.model_predictor_list_.getD a [] := by
        rw [← h1]; exact hp
      exact h.prec a p hp1
    · refine ⟨h1.2 p hp, ?_⟩
      intro pre post hdec
      exfalso
      apply h1.1
      rw [h.inact hs a]
      show a ∈ l.ordered_attr_list_
      rw [hdec]
      simp
  · rw [if_neg hs]
    obtain ⟨act1, e1, e2⟩ := initStage1_spec creator l n h.mpl
      (List.range l.schema_.length) [] hrange (fun m hm => by simp at hm)
    rw [e1]
    refine ⟨_, rfl, ?_, rfl, rfl, rfl, rfl, fun _ => rfl⟩
    exact ⟨h.schema, h.mpl, h.sel, h.nodup, h.ord_lt, e2, h.stage, h.inact, h.short, h.full,
      h.prec⟩

theorem LearnerInv_create (creator : List Nat → Nat → Bool) (schema : List Int) :
    ∃ l, RelationModelLearner.create creator schema false = some l ∧
      LearnerInv schema.length l ∧ l.learner_stage_ = 0 ∧ l.ordered_attr_list_ = [] := by
  unfold RelationModelLearner.create
  simp only [Bool.false_eq_true, if_false]
  have h0 : LearnerInv schema.length
      { schema_ := schema, learner_stage_ := 0, skip_model_learning_ := false,
        ordered_attr_list_ := [], inactive_attr_ := [], active_model_list_ := [],
        selected_model_ := List.replicate schema.length none,
        model_predictor_list_ := List.replicate schema.length [],
        stored_model_cost_ := [] } := by
    refine ⟨rfl, List.length_replicate _ _, List.length_replicate _ _, List.nodup_nil,
      fun a ha => by simp at ha, fun m hm => by simp at hm, Or.inl rfl,
      fun _ a => Iff.rfl, ?_, fun hc => absurd rfl hc, ?_⟩
    · intro _
      show ([] : List Nat).length < schema.length ∨ schema.length = 0
      rw [List.length_nil]
      omega
    · intro a p hp
      exfalso
      have hp1 : p ∈ (List.replicate schema.length ([] : List Nat)).getD a [] := hp
      rw [List.getD_eq_getElem?_getD] at hp1
      by_cases ha : a < schema.length
      · rw [List.getElem?_replicate, if_pos ha] at hp1
        simp at hp1
      · rw [List.getElem?_eq_none (by rw [List.length_replicate]; omega)] at hp1
        simp at hp1
  obtain ⟨l1, e1, e2, e3, e4, _⟩ := InitActiveModelList_spec creator _ _ h0
  exact ⟨l1, e1, e2, e4, e3⟩

theorem getElem?_eq_some_getD {α : Type} (l : List α) (k : Nat) (d : α) (h : k < l.length) :
    l[k]? = some (l.getD k d) := by
  rw [List.getD_eq_getElem?_getD, List.getElem?_eq_getElem h]; rfl

theorem toU64_natCast (k : Nat) (h : k < 2 ^ 31) : toU64 (k : Int) = k := by
  rw [toU64_of_bounds _ (by omega) (by omega)]
  exact Int.toNat_ofNat k

theorem nextAttrLoop_spec (l : RelationModelLearner) (n : Nat) (hn : n < 2 ^ 31)
    (hmpl : l.model_predictor_list_.length = n) :
    ∀ (todo : List Nat) (next : Int), (∀ i ∈ todo, i < n) →
      (next = -1 ∨ ∃ k : Nat, next = k ∧ k < n ∧ k ∉ l.inactive_attr_) →
      ∃ next1, nextAttrLoop l todo next = some next1 ∧
        ((next1 = -1 ∧ next = -1 ∧ ∀ i ∈ todo, i ∈ l.inactive_attr_) ∨
         ∃ k : Nat, next1 = k ∧ k < n ∧ k ∉ l.inactive_attr_ ∧
           (∀ i ∈ todo, i ∉ l.inactive_attr_ →
             l.GetModelCost (l.model_predictor_list_.getD k []) k
               ≤ l.GetModelCost (l.model_predictor_list_.getD i []) i) ∧
           (∀ k0 : Nat, next = k0 →
             l.GetModelCost (l.model_predictor_list_.getD k []) k
               ≤ l.GetModelCost (l.model_predictor_list_.getD k0 []) k0)) := by
  intro todo
  induction todo with
  | nil =>
    intro next _ hnext
    refine ⟨next, rfl, ?_⟩
    rcases hnext with h | ⟨k, hk, hkn, hki⟩
    · exact Or.inl ⟨h, h, fun i hi => by simp at hi⟩
    · refine Or.inr ⟨k, hk, hkn, hki, fun i hi => by simp at hi, ?_⟩
      intro k0 hk0
      have : k0 = k := by omega
      rw [this]
  | cons i rest ih =>
    intro next htodo hnext
    have hi : i < n := htodo i (List.mem_cons_self _ _)
    have hrest : ∀ j ∈ rest, j < n := fun j hj => htodo j (List.mem_cons_of_mem _ hj)
    have hconv : toI32 (i % 2 ^ 32) = (i : Int) := by
      rw [Nat.mod_eq_of_lt (by omega), toI32_of_lt i (by omega)]
    unfold nextAttrLoop
    by_cases h1 : i ∈ l.inactive_attr_
    · rw [if_pos h1]
      obtain ⟨next1, e1, e2⟩ := ih next hrest hnext
      refine ⟨next1, e1, ?_⟩
      rcases e2 with ⟨a, b, c⟩ | ⟨k, a, b, c, d, e⟩
      · left
        refine ⟨a, b, ?_⟩
        intro j hj
        rcases List.mem_cons.1 hj with h | h
        · rw [h]; exact h1
        · exact c j h
      · right
        refine ⟨k, a, b, c, ?_, e⟩
        intro j hj hji
        rcases List.mem_cons.1 hj with h | h
        · rw [h] at hji; exact absurd h1 hji
        · exact d j h hji
    · rw [if_neg h1]
      rcases hnext with h | ⟨k0, hk0, hk0n, hk0i⟩
      · rw [if_pos h, hconv]
        obtain ⟨next1, e1, e2⟩ := ih (i : Int) hrest (Or.inr ⟨i, rfl, hi, h1⟩)
        refine ⟨next1, e1, ?_⟩
        rcases e2 with ⟨_, b, _⟩ | ⟨k, a, b, c, d, e⟩
        · omega
        · right
          refine ⟨k, a, b, c, ?_, ?_⟩
          · intro j hj hji
            rcases List.mem_cons.1 hj with h2 | h2
            · rw [h2]; exact e i rfl
            · exact d j h2 hji
          · intro k1 hk1
            omega
      · rw [if_neg (by omega), hk0, toU64_natCast k0 (by omega),
          getElem?_eq_some_getD _ i [] (by omega), getElem?_eq_some_getD _ k0 [] (by omega)]
        dsimp only
        by_cases hc : l.GetModelCost (l.model_predictor_list_.getD i []) i
            < l.GetModelCost (l.model_predictor_list_.getD k0 []) k0
        · rw [if_pos hc, hconv]
          obtain ⟨next1, e1, e2⟩ := ih (i : Int) hrest (Or.inr ⟨i, rfl, hi, h1⟩)
          refine ⟨next1, e1, ?_⟩
          rcases e2 with ⟨_, b, _⟩ | ⟨k, a, b, c, d, e⟩
          · omega
          · right
            refine ⟨k, a, b, c, ?_, ?_⟩
            · intro j hj hji
              rcases List.mem_cons.1 hj with h2 | h2
              · rw [h2]; exact e i rfl
              · exact d j h2 hji
            · intro k1 hk1
              have : k1 = k0 := by omega
              rw [this]
              exact le_of_lt (lt_of_le_of_lt (e i rfl) hc)
        · rw [if_neg hc]
          obtain ⟨next1, e1, e2⟩ := ih (k0 : Int) hrest (Or.inr ⟨k0, rfl, hk0n, hk0i⟩)
          refine ⟨next1, e1, ?_⟩
          rcases e2 with ⟨_, b, _⟩ | ⟨k, a, b, c, d, e⟩
          · omega
          · right
            refine ⟨k, a, b, c, ?_, ?_⟩
            · intro j hj hji
              rcases List.mem_cons.1 hj with h2 | h2
              · rw [h2]; exact le_trans (e k0 rfl) (not_lt.1 hc)
              · exact d j h2 hji
            · intro k1 hk1
              have : k1 = k0 := by omega
              rw [this]
              exact e k0 rfl

theorem foldl_StoreModelCost (ms : List LearnedModel) :
    ∀ l : RelationModelLearner, ∃ stored,
      ms.foldl RelationModelLearner.StoreModelCost l
        = { l with stored_model_cost_ := stored } := by
  induction ms with
  | nil => intro l; exact ⟨l.stored_model_cost_, rfl⟩
  | cons m rest ih =>
    intro l
    rw [List.foldl_cons]
    unfold RelationModelLearner.StoreModelCost
    dsimp only
    split
    · exact ih _
    · exact ih l

theorem selectLoop_spec (n : Nat) :
    ∀ (ms : List LearnedModel) (inactive : List Nat) (selected : List (Option LearnedModel)),
      (∀ m ∈ ms, m.target_var_ < n) → selected.length = n →
      ∃ inactive1 selected1, selectLoop ms inactive selected = some (inactive1, selected1) ∧
        selected1.length = n := by
  intro ms
  induction ms with
  | nil =>
    intro inactive selected _ hs
    exact ⟨inactive, selected, rfl, hs⟩
  | cons m rest ih =>
    intro inactive selected hms hs
    have hm : m.target_var_ < n := hms m (List.mem_cons_self _ _)
    have hrest : ∀ x ∈ rest, x.target_var_ < n := fun x hx => hms x (List.mem_cons_of_mem _ hx)
    unfold selectLoop
    rw [List.getElem?_eq_getElem (by omega)]
    dsimp only
    split
    · rename_i heq
      simp at heq
    · exact ih _ _ hrest (by rw [List.length_set]; exact hs)
    · split
      · exact ih _ _ hrest (by rw [List.length_set]; exact hs)
      · exact ih _ _ hrest hs

theorem feedCosts_inv (cost : List Nat → Nat → Int) (l : RelationModelLearner) (n : Nat)
    (h : LearnerInv n l) : LearnerInv n (l.feedCosts cost) := by
  refine ⟨h.schema, h.mpl, h.sel, h.nodup, h.ord_lt, ?_, h.stage, h.inact, h.short, h.full,
    h.prec⟩
  intro m hm
  have hm1 : m ∈ l.active_model_list_.map fun m =>
      ({ m with model_cost_ := cost m.predictor_list_ m.target_var_ } : LearnedModel) := hm
  rw [List.mem_map] at hm1
  obtain ⟨m0, hm0, rfl⟩ := hm1
  exact h.act m0 hm0

theorem endStage0_busy (l : RelationModelLearner) (n : Nat) (h : LearnerInv n l)
    (ha : l.active_model_list_ ≠ []) :
    ∃ l1, l.endStage0 = some l1 ∧ LearnerInv n l1 ∧
      l1.ordered_attr_list_ = l.ordered_attr_list_ ∧ l1.learner_stage_ = l.learner_stage_ := by
  unfold RelationModelLearner.endStage0
  dsimp only
  rw [if_neg (by rw [List.isEmpty_iff]; exact ha)]
  obtain ⟨stored, hst⟩ := foldl_StoreModelCost l.active_model_list_ l
  rw [hst]
  exact ⟨_, rfl, ⟨h.schema, h.mpl, h.sel, h.nodup, h.ord_lt, h.act, h.stage, h.inact, h.short,
    h.full, h.prec⟩, rfl, rfl⟩

theorem exists_not_mem_of_short (ordered : List Nat) (n : Nat) (h : ordered.length < n) :
    ∃ i, i < n ∧ i ∉ ordered := by
  by_contra hc
  push_neg at hc
  have hsub : ∀ i ∈ List.range n, i ∈ ordered := fun i hi => hc i (List.mem_range.1 hi)
  have := (List.subperm_of_subset (List.nodup_range n) hsub).length_le
  rw [List.length_range] at this
  omega

theorem mem_setInsert (s : List Nat) (k a : Nat) : a ∈ setInsert s k ↔ a ∈ s ∨ a = k := by
  unfold setInsert
  split
  · rename_i h
    constructor
    · exact Or.inl
    · rintro (h1 | h1)
      · exact h1
      · rw [h1]; exact h
  · rw [List.mem_append, List.mem_singleton]

theorem prec_append (ordered : List Nat) (k a p : Nat) (hp : p ∈ ordered)
    (hprec : ∀ pre post, ordered = pre ++ a :: post → p ∈ pre) :
    ∀ pre post, ordered ++ [k] = pre ++ a :: post → p ∈ pre := by
  intro pre post hdec
  rcases List.eq_nil_or_concat post with h | ⟨post0, b, h⟩
  · rw [h] at hdec
    have := List.append_inj' hdec rfl
    rw [← this.1]
    exact hp
  · rw [h, List.concat_eq_append, ← List.cons_append, ← List.append_assoc] at hdec
    have := List.append_inj' hdec rfl
    exact hprec pre post0 this.1

theorem endStage0_idle (l : RelationModelLearner) (n : Nat) (hn : n < 2 ^ 31)
    (h : LearnerInv n l) (hs : l.learner_stage_ = 0) (ha : l.active_model_list_ = []) :
    ∃ l1, l.endStage0 = some l1 ∧ LearnerInv n l1 ∧
      l1.model_predictor_list_ = l.model_predictor_list_ ∧
      (l1.learner_stage_ = 0 ∨ l1.learner_stage_ = 1) ∧
      ((n = 0 ∧ l1.ordered_attr_list_ = l.ordered_attr_list_ ∧ l1.learner_stage_ = 1) ∨
        ∃ a, a < n ∧ a ∉ l.ordered_attr_list_ ∧
          l1.ordered_attr_list_ = l.ordered_attr_list_ ++ [a] ∧
          (∀ j, j < n → j ∉ l.ordered_attr_list_ →
            l.GetModelCost (l.model_predictor_list_.getD a []) a
              ≤ l.GetModelCost (l.model_predictor_list_.getD j []) j)) := by
  unfold RelationModelLearner.endStage0
  dsimp only
  rw [ha]
  simp only [List.isEmpty_nil, if_true, List.foldl_nil]
  obtain ⟨next1, e1, e2⟩ := nextAttrLoop_spec l n hn h.mpl (List.range l.schema_.length) (-1)
    (by intro i hi
        rw [List.mem_range, h.schema] at hi
        exact hi)
    (Or.inl rfl)
  rw [e1]
  dsimp only
  rcases e2 with ⟨a1, _, a3⟩ | ⟨k, b1, b2, b3, b4, _⟩
  · have hall : ∀ i ∈ List.range n, i ∈ l.ordered_attr_list_ := by
      intro i hi
      rw [← h.inact hs i]
      apply a3 i
      rw [h.schema]
      exact hi
    have hle := (List.subperm_of_subset (List.nodup_range n) hall).length_le
    rw [List.length_range] at hle
    have hn0 : n = 0 := by
      rcases h.short hs with h1 | h1
      · omega
      · exact h1
    have hlen : l.ordered_attr_list_.length = l.schema_.length := by
      rw [h.schema, hn0]
      cases hl : l.ordered_attr_list_ with
      | nil => rfl
      | cons x xs =>
        have := h.ord_lt x (by rw [hl]; exact List.mem_cons_self _ _)
        omega
    rw [a1, if_neg (show ¬ ((-1 : Int) ≠ -1) from by decide), if_pos hlen]
    refine ⟨_, rfl, ?_, rfl, Or.inr rfl, Or.inl ⟨hn0, rfl, rfl⟩⟩
    exact ⟨h.schema, h.mpl, h.sel, h.nodup, h.ord_lt, h.act, Or.inr (Or.inl rfl),
      fun hc => by simp at hc, fun hc => by simp at hc, fun _ => by rw [← h.schema]; exact hlen, h.prec⟩
  · have hk : toU64 next1 = k := by rw [b1]; exact toU64_natCast k (by omega)
    have hko : k ∉ l.ordered_attr_list_ := fun hc => b3 ((h.inact hs k).2 hc)
    have hnd : (l.ordered_attr_list_ ++ [k]).Nodup := by
      rw [List.nodup_append]
      refine ⟨h.nodup, List.nodup_singleton k, ?_⟩
      intro x hx hx1
      rw [List.mem_singleton] at hx1
      rw [hx1] at hx
      exact hko hx
    have hlt : ∀ a ∈ l.ordered_attr_list_ ++ [k], a < n := by
      intro a ha1
      rcases List.mem_append.1 ha1 with h1 | h1
      · exact h.ord_lt a h1
      · rw [List.mem_singleton] at h1; rw [h1]; exact b2
    have hprec : ∀ a, ∀ p ∈ l.model_predictor_list_.getD a [],
        p ∈ l.ordered_attr_list_ ++ [k] ∧
          ∀ pre post, l.ordered_attr_list_ ++ [k] = pre ++ a :: post → p ∈ pre := by
      intro a p hp
      obtain ⟨h1, h2⟩ := h.prec a p hp
      exact ⟨List.mem_append_left _ h1, prec_append _ k a p h1 h2⟩
    have hmin : ∀ j, j < n → j ∉ l.ordered_attr_list_ →
        l.GetModelCost (l.model_predictor_list_.getD k []) k
          ≤ l.GetModelCost (l.model_predictor_list_.getD j []) j := by
      intro j hj hjo
      apply b4 j
      · rw [List.mem_range, h.schema]; exact hj
      · intro hc
        exact hjo ((h.inact hs j).1 hc)
    have hne : next1 ≠ -1 := by omega
    rw [if_pos hne, hk]
    dsimp only
    by_cases hfull : (l.ordered_attr_list_ ++ [k]).length = l.schema_.length
    · rw [if_pos hfull]
      refine ⟨_, rfl, ?_, rfl, Or.inr rfl, Or.inr ⟨k, b2, hko, rfl, hmin⟩⟩
      exact ⟨h.schema, h.mpl, h.sel, hnd, hlt, h.act, Or.inr (Or.inl rfl),
        fun hc => by simp at hc, fun hc => by simp at hc,
        fun _ => by rw [← h.schema]; exact hfull, hprec⟩
    · rw [if_neg hfull]
      refine ⟨_, rfl, ?_, rfl, Or.inl hs, Or.inr ⟨k, b2, hko, rfl, hmin⟩⟩
      refine ⟨h.schema, h.mpl, h.sel, hnd, hlt, h.act, h.stage, ?_, ?_,
        fun hc => absurd hs hc, hprec⟩
      · intro _ a
        show a ∈ setInsert l.inactive_attr_ k ↔ a ∈ l.ordered_attr_list_ ++ [k]
        rw [mem_setInsert, List.mem_append, List.mem_singleton, h.inact hs a]
      · intro _
        left
        show (l.ordered_attr_list_ ++ [k]).length < n
        have h1 := (List.subperm_of_subset hnd (fun a ha1 => List.mem_range.2 (hlt a ha1))).length_le
        rw [List.length_range] at h1
        rw [h.schema] at hfull
        omega

theorem endStage1_spec (l : RelationModelLearner) (n : Nat) (h : LearnerInv n l)
    (hs : l.learner_stage_ = 1) :
    ∃ l1, l.endStage1 = some l1 ∧ LearnerInv n l1 ∧
      l1.ordered_attr_list_ = l.ordered_attr_list_ ∧
      l1.model_predictor_list_ = l.model_predictor_list_ ∧ l1.learner_stage_ ≠ 0 := by
  unfold RelationModelLearner.endStage1
  obtain ⟨inactive1, selected1, e1, e2⟩ := selectLoop_spec n l.active_model_list_
    l.inactive_attr_ l.selected_model_ h.act h.sel
  rw [e1]
  dsimp only
  have hne : l.learner_stage_ ≠ 0 := by rw [hs]; decide
  split
  · refine ⟨_, rfl, ?_, rfl, rfl, show (2 : Int) ≠ 0 from by decide⟩
    exact ⟨h.schema, h.mpl, e2, h.nodup, h.ord_lt, h.act, Or.inr (Or.inr rfl),
      fun hc => by simp at hc, fun hc => by simp at hc, fun _ => h.full hne, h.prec⟩
  · refine ⟨_, rfl, ?_, rfl, rfl, hne⟩
    exact ⟨h.schema, h.mpl, e2, h.nodup, h.ord_lt, h.act, h.stage,
      fun hc => absurd hc hne, fun hc => absurd hc hne, h.full, h.prec⟩

theorem EndOfData_spec (creator : List Nat → Nat → Bool) (cost : List Nat → Nat → Int)
    (l : RelationModelLearner) (n : Nat) (hn : n < 2 ^ 31) (h : LearnerInv n l) :
    ∃ l1, l.EndOfData creator cost = some l1 ∧ LearnerInv n l1 ∧
      (l.learner_stage_ ≠ 0 → l1.ordered_attr_list_ = l.ordered_attr_list_ ∧
        l1.model_predictor_list_ = l.model_predictor_list_ ∧ l1.learner_stage_ ≠ 0) ∧
      (l.learner_stage_ = 0 → l.active_model_list_ ≠ [] →
        l1.ordered_attr_list_ = l.ordered_attr_list_ ∧ l1.learner_stage_ = 0) ∧
      (l.learner_stage_ = 0 → l.active_model_list_ = [] →
        (n = 0 ∧ l1.ordered_attr_list_ = l.ordered_attr_list_ ∧ l1.learner_stage_ = 1) ∨
        ∃ a, a < n ∧ a ∉ l.ordered_attr_list_ ∧
          l1.ordered_attr_list_ = l.ordered_attr_list_ ++ [a] ∧
          (∀ j, j < n → j ∉ l.ordered_attr_list_ →
            l.GetModelCost (l.model_predictor_list_.getD a []) a
              ≤ l.GetModelCost (l.model_predictor_list_.getD j []) j)) := by
  have hf := feedCosts_inv cost l n h
  unfold RelationModelLearner.EndOfData
  by_cases hs0 : l.learner_stage_ = 0
  · rw [if_pos hs0]
    by_cases ha : l.active_model_list_ = []
    · have ha1 : (l.feedCosts cost).active_model_list_ = [] := by
        show l.active_model_list_.map _ = []
        rw [ha]; rfl
      obtain ⟨l1, e1, e2, e3, e4, e5⟩ := endStage0_idle (l.feedCosts cost) n hn hf hs0 ha1
      rw [e1]
      dsimp only
      have hne2 : l1.learner_stage_ ≠ 2 := by
        rcases e4 with h1 | h1 <;> rw [h1] <;> decide
      rw [if_pos hne2]
      obtain ⟨l2, f1, f2, f3, f4, f5, f6, f7⟩ := InitActiveModelList_spec creator l1 n e2
      refine ⟨l2, f1, f2, fun hc => absurd hs0 hc, fun _ hc => absurd ha hc, ?_⟩
      intro _ _
      rw [f3, f4]
      exact e5
    · have ha1 : (l.feedCosts cost).active_model_list_ ≠ [] := by
        show l.active_model_list_.map _ ≠ []
        intro hc
        exact ha (List.map_eq_nil_iff.1 hc)
      obtain ⟨l1, e1, e2, e3, e4⟩ := endStage0_busy (l.feedCosts cost) n hf ha1
      rw [e1]
      dsimp only
      have hst : l1.learner_stage_ = 0 := by rw [e4]; exact hs0
      rw [if_pos (by rw [hst]; decide)]
      obtain ⟨l2, f1, f2, f3, f4, f5, f6, f7⟩ := InitActiveModelList_spec creator l1 n e2
      refine ⟨l2, f1, f2, fun hc => absurd hs0 hc, ?_, fun _ hc => absurd hc ha⟩
      intro _ _
      rw [f3, f4]
      exact ⟨e3, hst⟩
  · rw [if_neg hs0]
    by_cases hs1 : l.learner_stage_ = 1
    · rw [if_pos hs1]
      obtain ⟨l1, e1, e2, e3, e4, e5⟩ := endStage1_spec (l.feedCosts cost) n hf hs1
      rw [e1]
      dsimp only
      by_cases h2 : l1.learner_stage_ = 2
      · rw [if_neg (not_not.2 h2)]
        exact ⟨l1, rfl, e2, fun _ => ⟨e3, e4, e5⟩, fun hc => absurd hc hs0,
          fun hc => absurd hc hs0⟩
      · rw [if_pos h2]
        obtain ⟨l2, f1, f2, f3, f4, f5, f6, f7⟩ := InitActiveModelList_spec creator l1 n e2
        refine ⟨l2, f1, f2, fun _ => ⟨?_, ?_, ?_⟩, fun hc => absurd hc hs0,
          fun hc => absurd hc hs0⟩
        · rw [f3]; exact e3
        · rw [f7 e5]; exact e4
        · rw [f4]; exact e5
    · rw [if_neg hs1]
      dsimp only
      have hs2 : l.learner_stage_ = 2 := by
        rcases h.stage with h1 | h1 | h1
        · exact absurd h1 hs0
        · exact absurd h1 hs1
        · exact h1
      rw [if_neg (not_not.2 hs2)]
      exact ⟨l, rfl, h, fun hc => ⟨rfl, rfl, hc⟩, fun hc => absurd hc hs0,
        fun hc => absurd hc hs0⟩

theorem run_spec (creator : List Nat → Nat → Bool) (schema : List Int)
    (hn : schema.length < 2 ^ 31) :
    ∀ costs : List (List Nat → Nat → Int),
      ∃ l, RelationModelLearner.run creator schema false costs = some l ∧
        LearnerInv schema.length l := by
  intro costs
  induction costs with
  | nil =>
    obtain ⟨l, e1, e2, _⟩ := LearnerInv_create creator schema
    exact ⟨l, e1, e2⟩
  | cons cost rest ih =>
    obtain ⟨l, e1, e2⟩ := ih
    obtain ⟨l1, f1, f2, _⟩ := EndOfData_spec creator cost l schema.length hn e2
    refine ⟨l1, ?_, f2⟩
    unfold RelationModelLearner.run
    rw [e1]
    exact f1

/-- C24 (amended): for a schema of `n >= 1` attributes and a learner built without
`skip_model_learning_`, after any number of calls of `EndOfData`: `ordered_attr_list_` has
no repetition; the learner has left stage 0 exactly when `ordered_attr_list_` is a
permutation of the `n` attributes; and in stage 0 a further call of `EndOfData` returns,
leaves `ordered_attr_list_` unchanged when the list of active models is not empty, and
otherwise appends exactly one attribute not yet ordered whose memoized cost
`GetModelCost(model_predictor_list_[a], a)` is minimal among the attributes not yet
ordered. -/
theorem RelationModelLearner_stage0_ordering (creator : List Nat → Nat → Bool)
    (schema : List Int) (hn0 : 0 < schema.length) (hn : schema.length < 2 ^ 31)
    (costs : List (List Nat → Nat → Int)) (cost : List Nat → Nat → Int) :
    ∃ l, RelationModelLearner.run creator schema false costs = some l ∧
      l.ordered_attr_list_.Nodup ∧
      (l.learner_stage_ ≠ 0 ↔ l.ordered_attr_list_.Perm (List.range schema.length)) ∧
      (l.learner_stage_ = 0 →
        ∃ l1, l.EndOfData creator cost = some l1 ∧
          (l.active_model_list_ ≠ [] → l1.ordered_attr_list_ = l.ordered_attr_list_) ∧
          (l.active_model_list_ = [] →
            ∃ a, a < schema.length ∧ a ∉ l.ordered_attr_list_ ∧
              l1.ordered_attr_list_ = l.ordered_attr_list_ ++ [a] ∧
              ∀ j, j < schema.length → j ∉ l.ordered_attr_list_ →
                l.GetModelCost (l.model_predictor_list_.getD a []) a
                  ≤ l.GetModelCost (l.model_predictor_list_.getD j []) j)) := by
  obtain ⟨l, e1, e2⟩ := run_spec creator schema hn costs
  refine ⟨l, e1, e2.nodup, ?_, ?_⟩
  · constructor
    · intro hs
      exact perm_range_of_nodup _ _ e2.nodup e2.ord_lt (e2.full hs)
    · intro hp hs
      have hlen := hp.length_eq
      rw [List.length_range] at hlen
      rcases e2.short hs with h | h <;> omega
  · intro hs
    obtain ⟨l1, f1, _, _, f4, f5⟩ := EndOfData_spec creator cost l schema.length hn e2
    refine ⟨l1, f1, fun ha => (f4 hs ha).1, ?_⟩
    intro ha
    rcases f5 hs ha with ⟨h, _⟩ | h
    · omega
    · exact h

theorem RelationModelLearner_stage0_ordering_witness :
    ∃ l, RelationModelLearner.run (fun _ _ => true) [0, 0] false [fun _ _ => 7] = some l ∧
      l.ordered_attr_list_.Nodup ∧
      (l.learner_stage_ ≠ 0 ↔
        l.ordered_attr_list_.Perm (List.range ([0, 0] : List Int).length)) ∧
      (l.learner_stage_ = 0 →
        ∃ l1, l.EndOfData (fun _ _ => true) (fun _ _ => 7) = some l1 ∧
          (l.active_model_list_ ≠ [] → l1.ordered_attr_list_ = l.ordered_attr_list_) ∧
          (l.active_model_list_ = [] →
            ∃ a, a < ([0, 0] : List Int).length ∧ a ∉ l.ordered_attr_list_ ∧
              l1.ordered_attr_list_ = l.ordered_attr_list_ ++ [a] ∧
              ∀ j, j < ([0, 0] : List Int).length → j ∉ l.ordered_attr_list_ →
                l.GetModelCost (l.model_predictor_list_.getD a []) a
                  ≤ l.GetModelCost (l.model_predictor_list_.getD j []) j)) :=
  RelationModelLearner_stage0_ordering (fun _ _ => true) [0, 0] (by decide) (by decide)
    [fun _ _ => 7] (fun _ _ => 7)

/-- C24 (counterexample): for the schema without attributes the learner starts in stage 0
with the empty `ordered_attr_list_`, already a permutation of the 0 attributes, and with
no active model; the next `EndOfData` appends nothing and moves to stage 1. -/
theorem RelationModelLearner_stage0_ordering_counterexample :
    ∃ l l1, RelationModelLearner.run (fun _ _ => true) [] false [] = some l ∧
      l.learner_stage_ = 0 ∧ l.active_model_list_ = [] ∧
      l.ordered_attr_list_.Perm (List.range ([] : List Int).length) ∧
      l.EndOfData (fun _ _ => true) (fun _ _ => 0) = some l1 ∧
      l1.ordered_attr_list_ = l.ordered_attr_list_ ∧ l1.learner_stage_ = 1 :=
  ⟨_, _, rfl, rfl, rfl, List.Perm.refl _, rfl, rfl, rfl⟩

/-! ## The first stage of the model learner ends -/

theorem costKnown_iff (l : RelationModelLearner) (pl : List Nat) (t : Nat) :
    l.costKnown (predictorSet pl, t) = true ↔ l.GetModelCost pl t ≠ -1 := by
  unfold RelationModelLearner.costKnown RelationModelLearner.GetModelCost
  cases l.stored_model_cost_.lookup (predictorSet pl, t) with
  | none => simp
  | some c => simp

theorem lookup_filter_ne_key (stored : List ((List Nat × Nat) × Int)) (k k1 : List Nat × Nat)
    (h : k1 ≠ k) :
    (stored.filter fun e => decide (e.1 ≠ k)).lookup k1 = stored.lookup k1 := by
  induction stored with
  | nil => rfl
  | cons e rest ih =>
    obtain ⟨ek, ev⟩ := e
    by_cases hek : ek = k
    · have hf : decide ((ek, ev).1 ≠ k) = false := by simp [hek]
      have hfc : List.filter (fun e : (List Nat × Nat) × Int => decide (e.1 ≠ k))
          ((ek, ev) :: rest)
          = List.filter (fun e : (List Nat × Nat) × Int => decide (e.1 ≠ k)) rest :=
        List.filter_cons_of_neg (by rw [hf]; decide)
      rw [hfc, ih, List.lookup_cons]
      have : (k1 == ek) = false := by
        rw [hek]
        exact beq_false_of_ne h
      rw [this]
    · have hf : decide ((ek, ev).1 ≠ k) = true := by simp [hek]
      have hfc : List.filter (fun e : (List Nat × Nat) × Int => decide (e.1 ≠ k))
          ((ek, ev) :: rest)
          = (ek, ev) :: List.filter (fun e : (List Nat × Nat) × Int => decide (e.1 ≠ k)) rest :=
        List.filter_cons_of_pos hf
      rw [hfc, List.lookup_cons, List.lookup_cons, ih]

theorem StoreModelCost_known_self (l : RelationModelLearner) (m : LearnedModel) :
    (l.StoreModelCost m).costKnown (predictorSet m.predictor_list_, m.target_var_) = true := by
  unfold RelationModelLearner.StoreModelCost
  dsimp only
  split
  · unfold RelationModelLearner.costKnown
    dsimp only
    rw [List.lookup_cons, beq_self_eq_true]
    dsimp only
    have : max m.model_cost_ 0 ≠ -1 := by omega
    exact decide_eq_true this
  · rename_i h
    rw [costKnown_iff]
    intro hc
    exact h (Or.inl hc)

theorem StoreModelCost_known_mono (l : RelationModelLearner) (m : LearnedModel)
    (k : List Nat × Nat) (hk : l.costKnown k = true) :
    (l.StoreModelCost m).costKnown k = true := by
  unfold RelationModelLearner.StoreModelCost
  dsimp only
  split
  · by_cases hkk : k = (predictorSet m.predictor_list_, m.target_var_)
    · unfold RelationModelLearner.costKnown
      dsimp only
      rw [hkk, List.lookup_cons, beq_self_eq_true]
      dsimp only
      have : max m.model_cost_ 0 ≠ -1 := by omega
      exact decide_eq_true this
    · unfold RelationModelLearner.costKnown at hk ⊢
      dsimp only
      rw [List.lookup_cons, beq_false_of_ne hkk]
      dsimp only
      rw [lookup_filter_ne_key _ _ _ hkk]
      exact hk
  · exact hk

theorem foldl_known_mono (ms : List LearnedModel) : ∀ (l : RelationModelLearner)
    (k : List Nat × Nat), l.costKnown k = true →
    (ms.foldl RelationModelLearner.StoreModelCost l).costKnown k = true := by
  induction ms with
  | nil => intro l k h; exact h
  | cons m rest ih =>
    intro l k h
    rw [List.foldl_cons]
    exact ih _ k (StoreModelCost_known_mono l m k h)

theorem foldl_known_mem (ms : List LearnedModel) : ∀ (l : RelationModelLearner),
    ∀ m ∈ ms, (ms.foldl RelationModelLearner.StoreModelCost l).costKnown
      (predictorSet m.predictor_list_, m.target_var_) = true := by
  induction ms with
  | nil => intro l m hm; simp at hm
  | cons m0 rest ih =>
    intro l m hm
    rw [List.foldl_cons]
    rcases List.mem_cons.1 hm with h | h
    · rw [h]
      exact foldl_known_mono rest _ _ (StoreModelCost_known_self l m0)
    · exact ih _ m h

theorem countP_lt_of_imp {α : Type} (p q : α → Bool) (himp : ∀ x, q x = true → p x = true) :
    ∀ (xs : List α) (x0 : α), x0 ∈ xs → p x0 = true → q x0 = false →
      xs.countP q < xs.countP p := by
  intro xs
  induction xs with
  | nil => intro x0 h; simp at h
  | cons x rest ih =>
    intro x0 hx0 hp hq
    have hmono : rest.countP q ≤ rest.countP p :=
      List.countP_mono_left (fun y _ hy => himp y hy)
    rcases List.mem_cons.1 hx0 with h | h
    · rw [← h, List.countP_cons_of_pos _ _ hp, List.countP_cons_of_neg _ _ (by rw [hq]; decide)]
      omega
    · have := ih x0 h hp hq
      by_cases hqx : q x = true
      · rw [List.countP_cons_of_pos _ _ hqx, List.countP_cons_of_pos _ _ (himp x hqx)]
        omega
      · rw [List.countP_cons_of_neg _ _ hqx]
        by_cases hpx : p x = true
        · rw [List.countP_cons_of_pos _ _ hpx]; omega
        · rw [List.countP_cons_of_neg _ _ hpx]; exact this

theorem predictorSet_sublist_range (pl : List Nat) (n : Nat) (h : ∀ p ∈ pl, p < n) :
    (predictorSet pl).Sublist (List.range n) := by
  apply List.sublist_of_subperm_of_sorted (r := fun a b : Nat => a ≤ b)
  · apply List.subperm_of_subset
    · unfold predictorSet
      exact List.nodup_dedup _
    · intro x hx
      rw [mem_predictorSet] at hx
      exact List.mem_range.2 (h x hx)
  · unfold predictorSet
    exact (List.sorted_insertionSort (fun a b : Nat => a ≤ b) pl).sublist (List.dedup_sublist _)
  · exact List.sorted_le_range n

theorem key_mem_universe (pl : List Nat) (t n : Nat) (h : ∀ p ∈ pl, p < n) (ht : t < n) :
    (predictorSet pl, t) ∈ (List.range n).sublists.product (List.range n) := by
  rw [List.pair_mem_product]
  exact ⟨List.mem_sublists.2 (predictorSet_sublist_range pl n h), List.mem_range.2 ht⟩

theorem expandStep_fresh (creator : List Nat → Nat → Bool) (l : RelationModelLearner) (i : Nat)
    (mp : List Nat) (hmp : mp.Nodup) (hsub : ∀ a ∈ mp, a ∈ l.ordered_attr_list_)
    (st : ExpandState) (attr : Nat) (hattr : attr ∈ l.ordered_attr_list_)
    (hpl : ∃ x, st.predictor_list = mp ++ [x]) (h : ∀ m ∈ st.active, FreshModel l m) :
    ∀ m ∈ (expandStep creator l i (predictorSet mp) st attr).active, FreshModel l m := by
  unfold expandStep
  by_cases hin : attr ∈ predictorSet mp
  · rw [if_pos hin]; exact h
  · rw [if_neg hin]
    obtain ⟨x, hx⟩ := hpl
    have hset : st.predictor_list.set (predictorSet mp).length attr = mp ++ [attr] := by
      rw [hx, length_predictorSet mp hmp, List.set_append, if_neg (by omega), Nat.sub_self]
      rfl
    dsimp only
    rw [hset]
    split
    · rename_i hc
      intro m hm
      rcases learnerCreateModel_mem _ _ _ _ _ hm with h1 | h1
      · exact h m h1
      · refine ⟨?_, ?_⟩
        · rw [h1.1, h1.2]; exact hc
        · rw [h1.2]
          intro p hp
          rcases List.mem_append.1 hp with h2 | h2
          · exact hsub p h2
          · rw [List.mem_singleton] at h2; rw [h2]; exact hattr
    · split
      · exact h
      · exact h

theorem expandFold_fresh (creator : List Nat → Nat → Bool) (l : RelationModelLearner) (i : Nat)
    (mp : List Nat) (act0 : List LearnedModel) (hmp : mp.Nodup)
    (hsub : ∀ a ∈ mp, a ∈ l.ordered_attr_list_) :
    ∀ (todo : List Nat) (st : ExpandState), (∀ a ∈ todo, a ∈ l.ordered_attr_list_) →
      ExpandInv i mp l.ordered_attr_list_ act0 st → (∀ m ∈ st.active, FreshModel l m) →
      ∀ m ∈ (todo.foldl (expandStep creator l i (predictorSet mp)) st).active,
        FreshModel l m := by
  intro todo
  induction todo with
  | nil => intro st _ _ h; exact h
  | cons a rest ih =>
    intro st htodo hinv h
    rw [List.foldl_cons]
    have ha : a ∈ l.ordered_attr_list_ := htodo a (List.mem_cons_self _ _)
    exact ih _ (fun b hb => htodo b (List.mem_cons_of_mem _ hb))
      (expandStep_inv creator l i mp l.ordered_attr_list_ act0 hmp st a ha hinv)
      (expandStep_fresh creator l i mp hmp hsub st a ha hinv.plist h)

theorem expandLoop_fresh (creator : List Nat → Nat → Bool) (l : RelationModelLearner) (i : Nat) :
    ∀ (fuel : Nat) (act : List LearnedModel) (mp : List Nat), mp.Nodup →
      (∀ a ∈ mp, a ∈ l.ordered_attr_list_) → (∀ m ∈ act, FreshModel l m) →
      ∀ act1 mp1, expandLoop creator l i fuel act mp = some (act1, mp1) →
        ∀ m ∈ act1, FreshModel l m := by
  intro fuel
  induction fuel with
  | zero =>
    intro act mp _ _ _ act1 mp1 hrun
    unfold expandLoop at hrun
    cases hrun
  | succ fuel ih =>
    intro act mp hnd hsub hfr act1 mp1 hrun
    have hinv0 : ExpandInv i mp l.ordered_attr_list_ act
        ⟨act, mp ++ [0], mp, l.GetModelCost mp i, false⟩ :=
      ⟨⟨0, rfl⟩, fun _ => rfl, fun hc => by simp at hc, fun m hm => Or.inl hm⟩
    have inv := expandFold_inv creator l i mp l.ordered_attr_list_ act hnd l.ordered_attr_list_
      ⟨act, mp ++ [0], mp, l.GetModelCost mp i, false⟩ (fun a ha => ha) hinv0
    have fr := expandFold_fresh creator l i mp act hnd hsub l.ordered_attr_list_
      ⟨act, mp ++ [0], mp, l.GetModelCost mp i, false⟩ (fun a ha => ha) hinv0 hfr
    unfold expandLoop at hrun
    dsimp only at hrun
    generalize l.ordered_attr_list_.foldl (expandStep creator l i (predictorSet mp))
      ⟨act, mp ++ [0], mp, l.GetModelCost mp i, false⟩ = st at inv fr hrun
    by_cases he : st.model_expanded = true
    · rw [if_pos he] at hrun
      obtain ⟨a, ha, hna, hmp⟩ := inv.grown he
      have hnd1 : (mp ++ [a]).Nodup := by
        rw [List.nodup_append]
        refine ⟨hnd, List.nodup_singleton a, ?_⟩
        intro x hx hx1
        rw [List.mem_singleton] at hx1
        rw [hx1] at hx
        exact hna hx
      have hsub1 : ∀ x ∈ mp ++ [a], x ∈ l.ordered_attr_list_ := by
        intro x hx
        rcases List.mem_append.1 hx with h | h
        · exact hsub x h
        · rw [List.mem_singleton] at h; rw [h]; exact ha
      rw [hmp] at hrun
      exact ih st.active (mp ++ [a]) hnd1 hsub1 fr act1 mp1 hrun
    · rw [if_neg he] at hrun
      have e := Option.some.inj hrun
      have e1 : st.active = act1 := congrArg Prod.fst e
      rw [← e1]
      exact fr

theorem initStage0_fresh (creator : List Nat → Nat → Bool) (l : RelationModelLearner) :
    ∀ (todo : List Nat) (act : List LearnedModel) (mpl : List (List Nat)),
      (∀ m ∈ act, FreshModel l m) →
      ∀ act1 mpl1, initStage0 creator l todo act mpl = some (act1, mpl1) →
        ∀ m ∈ act1, FreshModel l m := by
  intro todo
  induction todo with
  | nil =>
    intro act mpl hfr act1 mpl1 hrun
    unfold initStage0 at hrun
    have e1 : act = act1 := congrArg Prod.fst (Option.some.inj hrun)
    rw [← e1]
    exact hfr
  | cons i rest ih =>
    intro act mpl hfr act1 mpl1 hrun
    unfold initStage0 at hrun
    by_cases h1 : i ∈ l.inactive_attr_
    · rw [if_pos h1] at hrun
      exact ih act mpl hfr act1 mpl1 hrun
    · rw [if_neg h1] at hrun
      by_cases h2 : l.GetModelCost [] i = -1
      · rw [if_pos h2] at hrun
        refine ih _ mpl ?_ act1 mpl1 hrun
        intro m hm
        rcases learnerCreateModel_mem _ _ _ _ _ hm with h | h
        · exact hfr m h
        · refine ⟨?_, ?_⟩
          · rw [h.1, h.2]; exact h2
          · rw [h.2]; intro p hp; simp at hp
      · rw [if_neg h2] at hrun
        by_cases h3 : i < mpl.length
        · rw [if_pos h3] at hrun
          obtain ⟨act2, mp2, e1, _, _, _⟩ := expandLoop_spec creator l i
            (l.ordered_attr_list_.length + 1) act [] List.nodup_nil
            (fun a ha => by simp at ha) (by omega)
          have hfr2 := expandLoop_fresh creator l i (l.ordered_attr_list_.length + 1) act []
            List.nodup_nil (fun a ha => by simp at ha) hfr act2 mp2 e1
          rw [e1] at hrun
          dsimp only at hrun
          exact ih act2 _ hfr2 act1 mpl1 hrun
        · rw [if_neg h3] at hrun
          cases hrun

theorem InitActiveModelList_fresh (creator : List Nat → Nat → Bool) (l : RelationModelLearner)
    (hs : l.learner_stage_ = 0) :
    ∀ l1, l.InitActiveModelList creator = some l1 → ActiveFresh l1 := by
  intro l1 h
  unfold RelationModelLearner.InitActiveModelList at h
  rw [if_pos hs] at h
  cases he : initStage0 creator l (List.range l.schema_.length) [] l.model_predictor_list_ with
  | none => rw [he] at h; cases h
  | some r =>
    obtain ⟨act, mpl⟩ := r
    rw [he] at h
    dsimp only at h
    have hfr := initStage0_fresh creator l (List.range l.schema_.length) []
      l.model_predictor_list_ (fun m hm => by simp at hm) act mpl he
    rw [← Option.some.inj h]
    intro m hm
    exact hfr m hm

theorem costKnown_congr (l l1 : RelationModelLearner)
    (h : l1.stored_model_cost_ = l.stored_model_cost_) (k : List Nat × Nat) :
    l1.costKnown k = l.costKnown k := by
  unfold RelationModelLearner.costKnown
  rw [h]

theorem endStage0_busy_eq (l : RelationModelLearner) (ha : l.active_model_list_ ≠ []) :
    l.endStage0 = some (l.active_model_list_.foldl RelationModelLearner.StoreModelCost l) := by
  unfold RelationModelLearner.endStage0
  dsimp only
  rw [if_neg (by rw [List.isEmpty_iff]; exact ha)]

theorem endStage0_idle_stored (l : RelationModelLearner) (ha : l.active_model_list_ = []) :
    ∀ l1, l.endStage0 = some l1 → l1.stored_model_cost_ = l.stored_model_cost_ := by
  intro l1 h
  unfold RelationModelLearner.endStage0 at h
  dsimp only at h
  rw [ha] at h
  simp only [List.isEmpty_nil, if_true, List.foldl_nil] at h
  cases hnext : nextAttrLoop l (List.range l.schema_.length) (-1) with
  | none => rw [hnext] at h; cases h
  | some next =>
    rw [hnext] at h
    dsimp only at h
    by_cases hne : next ≠ -1
    · rw [if_pos hne] at h
      dsimp only at h
      split at h
      · rw [← Option.some.inj h]
      · rw [← Option.some.inj h]
    · rw [if_neg hne] at h
      split at h
      · rw [← Option.some.inj h]
      · rw [← Option.some.inj h]

theorem stage0Measure_le (l : RelationModelLearner) (n : Nat) :
    l.stage0Measure n ≤ n * 2 ^ n + n := by
  unfold RelationModelLearner.stage0Measure
  have h1 := List.countP_le_length (fun k => !l.costKnown k)
    (l := (List.range n).sublists.product (List.range n))
  have hlen : ((List.range n).sublists.product (List.range n)).length
      = (List.range n).sublists.length * (List.range n).length :=
    List.length_product _ _
  rw [hlen, List.length_sublists, List.length_range] at h1
  have h2 : n - l.ordered_attr_list_.length ≤ n := Nat.sub_le _ _
  have h3 : 2 ^ n * n = n * 2 ^ n := Nat.mul_comm _ _
  omega

theorem EndOfData_progress (creator : List Nat → Nat → Bool) (cost : List Nat → Nat → Int)
    (l : RelationModelLearner) (n : Nat) (hn : n < 2 ^ 31) (h : LearnerInv n l)
    (hs0 : l.learner_stage_ = 0) (hfresh : ActiveFresh l) :
    ∀ l2, l.EndOfData creator cost = some l2 → l2.learner_stage_ = 0 →
      ActiveFresh l2 ∧ l2.stage0Measure n < l.stage0Measure n := by
  intro l2 hrun hs2
  have hf := feedCosts_inv cost l n h
  unfold RelationModelLearner.EndOfData at hrun
  rw [if_pos hs0] at hrun
  by_cases ha : l.active_model_list_ = []
  · have ha1 : (l.feedCosts cost).active_model_list_ = [] := by
      show l.active_model_list_.map _ = []
      rw [ha]; rfl
    obtain ⟨l1, e1, e2, e3, e4, e5⟩ := endStage0_idle (l.feedCosts cost) n hn hf hs0 ha1
    have hst := endStage0_idle_stored (l.feedCosts cost) ha1 l1 e1
    rw [e1] at hrun
    dsimp only at hrun
    have hne2 : l1.learner_stage_ ≠ 2 := by
      rcases e4 with h1 | h1 <;> rw [h1] <;> decide
    rw [if_pos hne2] at hrun
    obtain ⟨l2a, f1, f2, f3, f4, f5, f6, f7⟩ := InitActiveModelList_spec creator l1 n e2
    have hl2 : l2a = l2 := Option.some.inj (f1.symm.trans hrun)
    rw [hl2] at f1 f2 f3 f4 f5
    have hs1 : l1.learner_stage_ = 0 := by rw [← f4]; exact hs2
    refine ⟨InitActiveModelList_fresh creator l1 hs1 l2 f1, ?_⟩
    rcases e5 with ⟨_, _, h1⟩ | ⟨a, a1, a2, a3, _⟩
    · rw [hs1] at h1
      exact absurd h1 (by decide)
    · have hord : l2.ordered_attr_list_ = l.ordered_attr_list_ ++ [a] := by
        rw [f3]; exact a3
      have hknown : (fun k => !l2.costKnown k) = fun k => !l.costKnown k := by
        funext k
        rw [costKnown_congr l1 l2 f5 k, costKnown_congr (l.feedCosts cost) l1 hst k]
        rfl
      have hshort : l.ordered_attr_list_.length < n := by
        rcases h.short hs0 with h1 | h1 <;> omega
      unfold RelationModelLearner.stage0Measure
      rw [hknown, hord, List.length_append, List.length_singleton]
      omega
  · have ha1 : (l.feedCosts cost).active_model_list_ ≠ [] := by
      show l.active_model_list_.map _ ≠ []
      intro hc
      exact ha (List.map_eq_nil_iff.1 hc)
    obtain ⟨l1, e1, e2, e3, e4⟩ := endStage0_busy (l.feedCosts cost) n hf ha1
    have hl1 : l1 = (l.feedCosts cost).active_model_list_.foldl
        RelationModelLearner.StoreModelCost (l.feedCosts cost) :=
      Option.some.inj (e1.symm.trans (endStage0_busy_eq (l.feedCosts cost) ha1))
    rw [e1] at hrun
    dsimp only at hrun
    have hs1 : l1.learner_stage_ = 0 := by rw [e4]; exact hs0
    rw [if_pos (by rw [hs1]; decide)] at hrun
    obtain ⟨l2a, f1, f2, f3, f4, f5, f6, f7⟩ := InitActiveModelList_spec creator l1 n e2
    have hl2 : l2a = l2 := Option.some.inj (f1.symm.trans hrun)
    rw [hl2] at f1 f2 f3 f4 f5
    refine ⟨InitActiveModelList_fresh creator l1 hs1 l2 f1, ?_⟩
    have hord : l2.ordered_attr_list_ = l.ordered_attr_list_ := by
      rw [f3]; exact e3
    obtain ⟨m0, hm0⟩ := List.exists_mem_of_ne_nil _ ha
    have hm0f : ({ m0 with model_cost_ := cost m0.predictor_list_ m0.target_var_ } : LearnedModel)
        ∈ (l.feedCosts cost).active_model_list_ := by
      show _ ∈ l.active_model_list_.map _
      exact List.mem_map.2 ⟨m0, hm0, rfl⟩
    have hk1 : l1.costKnown (predictorSet m0.predictor_list_, m0.target_var_) = true := by
      rw [hl1]
      exact foldl_known_mem _ (l.feedCosts cost)
        { m0 with model_cost_ := cost m0.predictor_list_ m0.target_var_ } hm0f
    have hmono : ∀ k, l.costKnown k = true → l1.costKnown k = true := by
      intro k hk
      rw [hl1]
      exact foldl_known_mono _ (l.feedCosts cost) k hk
    have hk0 : l.costKnown (predictorSet m0.predictor_list_, m0.target_var_) = false := by
      cases hc : l.costKnown (predictorSet m0.predictor_list_, m0.target_var_) with
      | false => rfl
      | true => exact absurd (hfresh m0 hm0).1 ((costKnown_iff l _ _).1 hc)
    have hmem := key_mem_universe m0.predictor_list_ m0.target_var_ n
      (fun p hp => h.ord_lt p ((hfresh m0 hm0).2 p hp)) (h.act m0 hm0)
    have hcount := countP_lt_of_imp (fun k => !l.costKnown k) (fun k => !l2.costKnown k)
      (by
        intro k hk
        cases hc : l.costKnown k with
        | false =>
          show (!l.costKnown k) = true
          rw [hc]
          rfl
        | true =>
          have hk2 : (!l2.costKnown k) = true := hk
          have := hmono k hc
          rw [← costKnown_congr l1 l2 f5 k] at this
          rw [this] at hk2
          exact absurd hk2 (by decide))
      _ _ hmem (by show (!l.costKnown _) = true; rw [hk0]; rfl)
      (by show (!l2.costKnown _) = false; rw [costKnown_congr l1 l2 f5, hk1]; rfl)
    unfold RelationModelLearner.stage0Measure
    rw [hord]
    omega

theorem LearnerInv_initial (schema : List Int) :
    LearnerInv schema.length
      { schema_ := schema, learner_stage_ := 0, skip_model_learning_ := false,
        ordered_attr_list_ := [], inactive_attr_ := [], active_model_list_ := [],
        selected_model_ := List.replicate schema.length none,
        model_predictor_list_ := List.replicate schema.length [],
        stored_model_cost_ := [] } := by
  refine ⟨rfl, List.length_replicate _ _, List.length_replicate _ _, List.nodup_nil,
    fun a ha => by simp at ha, fun m hm => by simp at hm, Or.inl rfl,
    fun _ a => Iff.rfl, ?_, fun hc => absurd rfl hc, ?_⟩
  · intro _
    show ([] : List Nat).length < schema.length ∨ schema.length = 0
    rw [List.length_nil]
    omega
  · intro a p hp
    exfalso
    have hp1 : p ∈ (List.replicate schema.length ([] : List Nat)).getD a [] := hp
    rw [List.getD_eq_getElem?_getD] at hp1
    by_cases ha : a < schema.length
    · rw [List.getElem?_replicate, if_pos ha] at hp1
      simp at hp1
    · rw [List.getElem?_eq_none (by rw [List.length_replicate]; omega)] at hp1
      simp at hp1

theorem create_fresh (creator : List Nat → Nat → Bool) (schema : List Int) :
    ∀ l, RelationModelLearner.create creator schema false = some l → ActiveFresh l := by
  intro l h
  unfold RelationModelLearner.create at h
  simp only [Bool.false_eq_true, if_false] at h
  exact InitActiveModelList_fresh creator _ rfl l h

theorem run_progress (creator : List Nat → Nat → Bool) (schema : List Int)
    (hn : schema.length < 2 ^ 31) :
    ∀ costs : List (List Nat → Nat → Int),
      ∃ l, RelationModelLearner.run creator schema false costs = some l ∧
        LearnerInv schema.length l ∧
        (l.learner_stage_ = 0 → ActiveFresh l ∧
          l.stage0Measure schema.length + costs.length
            ≤ schema.length * 2 ^ schema.length + schema.length) := by
  intro costs
  induction costs with
  | nil =>
    obtain ⟨l, e1, e2, _⟩ := LearnerInv_create creator schema
    refine ⟨l, e1, e2, fun _ => ⟨create_fresh creator schema l e1, ?_⟩⟩
    rw [List.length_nil, Nat.add_zero]
    exact stage0Measure_le l schema.length
  | cons cost rest ih =>
    obtain ⟨l, e1, e2, e3⟩ := ih
    obtain ⟨l1, f1, f2, f3, _⟩ := EndOfData_spec creator cost l schema.length hn e2
    have hrun : RelationModelLearner.run creator schema false (cost :: rest) = some l1 := by
      unfold RelationModelLearner.run
      rw [e1]
      exact f1
    refine ⟨l1, hrun, f2, ?_⟩
    intro hs1
    have hs0 : l.learner_stage_ = 0 := by
      by_contra hc
      exact (f3 hc).2.2 hs1
    obtain ⟨g1, g2⟩ := e3 hs0
    obtain ⟨k1, k2⟩ := EndOfData_progress creator cost l schema.length hn e2 hs0 g1 l1 f1 hs1
    refine ⟨k1, ?_⟩
    rw [List.length_cons]
    omega

theorem run_leaves_stage0 (creator : List Nat → Nat → Bool) (schema : List Int)
    (hn : schema.length < 2 ^ 31) (costs : List (List Nat → Nat → Int))
    (hlen : schema.length * 2 ^ schema.length + schema.length < costs.length) :
    ∀ l, RelationModelLearner.run creator schema false costs = some l →
      l.learner_stage_ ≠ 0 := by
  intro l hl hs
  obtain ⟨l1, e1, _, e3⟩ := run_progress creator schema hn costs
  have hl1 : l1 = l := Option.some.inj (e1.symm.trans hl)
  rw [hl1] at e3
  have := (e3 hs).2
  omega

/-- C25: for a learner built without `skip_model_learning_`, after any number of calls of
`EndOfData`, once stage 0 is over `ordered_attr_list_` is a permutation of the attributes
and every predictor in `model_predictor_list_[a]` stands strictly before `a` in
`ordered_attr_list_`; and stage 0 does end: for a schema of `n` attributes the learner has
left it after more than `n * 2^n + n` calls of `EndOfData`. -/
theorem RelationModelLearner_predictors_precede (creator : List Nat → Nat → Bool)
    (schema : List Int) (hn : schema.length < 2 ^ 31)
    (costs : List (List Nat → Nat → Int)) :
    ∃ l, RelationModelLearner.run creator schema false costs = some l ∧
      (l.learner_stage_ ≠ 0 →
        l.ordered_attr_list_.Perm (List.range schema.length) ∧
        ∀ a, a < schema.length → ∀ p ∈ l.model_predictor_list_.getD a [],
          ∃ pre post, l.ordered_attr_list_ = pre ++ a :: post ∧ p ∈ pre) ∧
      (schema.length * 2 ^ schema.length + schema.length < costs.length →
        l.learner_stage_ ≠ 0) := by
  obtain ⟨l, e1, e2⟩ := run_spec creator schema hn costs
  refine ⟨l, e1, ?_, fun hlen => run_leaves_stage0 creator schema hn costs hlen l e1⟩
  intro hs
  have hperm := perm_range_of_nodup _ _ e2.nodup e2.ord_lt (e2.full hs)
  refine ⟨hperm, ?_⟩
  intro a ha p hp
  have hmem : a ∈ l.ordered_attr_list_ := hperm.mem_iff.2 (List.mem_range.2 ha)
  obtain ⟨pre, post, hdec⟩ := List.append_of_mem hmem
  exact ⟨pre, post, hdec, (e2.prec a p hp).2 pre post hdec⟩

theorem RelationModelLearner_predictors_precede_witness :
    (∃ l, RelationModelLearner.run (fun _ _ => true) [0, 0] false
        (List.replicate 11 (fun p _ => if p = [] then 10 else 3)) = some l ∧
      (l.learner_stage_ ≠ 0 →
        l.ordered_attr_list_.Perm (List.range ([0, 0] : List Int).length) ∧
        ∀ a, a < ([0, 0] : List Int).length → ∀ p ∈ l.model_predictor_list_.getD a [],
          ∃ pre post, l.ordered_attr_list_ = pre ++ a :: post ∧ p ∈ pre) ∧
      (([0, 0] : List Int).length * 2 ^ ([0, 0] : List Int).length
          + ([0, 0] : List Int).length
          < (List.replicate 11
              (fun (p : List Nat) (_ : Nat) => if p = [] then (10 : Int) else 3)).length →
        l.learner_stage_ ≠ 0)) ∧
    ([0, 0] : List Int).length * 2 ^ ([0, 0] : List Int).length + ([0, 0] : List Int).length
      < (List.replicate 11
          (fun (p : List Nat) (_ : Nat) => if p = [] then (10 : Int) else 3)).length ∧
    ∃ l, RelationModelLearner.run (fun _ _ => true) [0, 0] false
        (List.replicate 11 (fun p _ => if p = [] then 10 else 3)) = some l ∧
      l.learner_stage_ = 2 ∧ l.ordered_attr_list_ = [0, 1] ∧
      l.model_predictor_list_ = [[], [0]] ∧
      l.model_predictor_list_.getD 1 [] = [0] :=
  ⟨RelationModelLearner_predictors_precede (fun _ _ => true) [0, 0] (by decide)
    (List.replicate 11 (fun p _ => if p = [] then 10 else 3)),
   by decide, _, rfl, rfl, rfl, rfl, rfl⟩

/-! ## The model learner without model learning -/

theorem initStage1_empty_lists (creator : List Nat → Nat → Bool) (l : RelationModelLearner) :
    ∀ (todo : List Nat) (act : List LearnedModel),
      (∀ i ∈ todo, l.model_predictor_list_[i]? = some [] ∧ creator [] i = true) →
      initStage1 creator l todo act
        = some (act ++ todo.map fun i => (⟨[], i, 0⟩ : LearnedModel)) := by
  intro todo
  induction todo with
  | nil => intro act _; simp [initStage1]
  | cons i rest ih =>
    intro act h
    obtain ⟨h1, h2⟩ := h i (List.mem_cons_self _ _)
    unfold initStage1
    rw [h1]
    dsimp only
    rw [if_pos (by rfl), ih _ (fun j hj => h j (List.mem_cons_of_mem _ hj))]
    unfold learnerCreateModel
    rw [if_pos h2, List.map_cons, List.append_assoc]
    rfl

theorem selectLoop_fresh :
    ∀ (ms : List LearnedModel) (inactive : List Nat) (selected : List (Option LearnedModel)),
      (ms.map fun m => m.target_var_).Nodup →
      (∀ m ∈ ms, m.target_var_ ∉ inactive ∧ selected[m.target_var_]? = some none) →
      ∃ selected1, selectLoop ms inactive selected
          = some (inactive ++ ms.map fun m => m.target_var_, selected1) ∧
        selected1.length = selected.length ∧
        (∀ m ∈ ms, selected1[m.target_var_]? = some (some m)) ∧
        (∀ j, (∀ m ∈ ms, m.target_var_ ≠ j) → selected1[j]? = selected[j]?) := by
  intro ms
  induction ms with
  | nil =>
    intro inactive selected _ _
    exact ⟨selected, by simp [selectLoop], rfl, fun m hm => by simp at hm, fun _ _ => rfl⟩
  | cons m rest ih =>
    intro inactive selected hnd h
    obtain ⟨h1, h2⟩ := h m (List.mem_cons_self _ _)
    rw [List.map_cons, List.nodup_cons] at hnd
    have hne : ∀ x ∈ rest, x.target_var_ ≠ m.target_var_ := by
      intro x hx hc
      apply hnd.1
      rw [← hc]
      exact List.mem_map_of_mem _ hx
    have hlt : m.target_var_ < selected.length := by
      by_contra hc
      rw [List.getElem?_eq_none (by omega)] at h2
      exact absurd h2 (by simp)
    obtain ⟨sel1, e1, e2, e3, e4⟩ := ih (setInsert inactive m.target_var_)
      (selected.set m.target_var_ (some m)) hnd.2 (by
        intro x hx
        obtain ⟨f1, f2⟩ := h x (List.mem_cons_of_mem _ hx)
        refine ⟨?_, ?_⟩
        · unfold setInsert
          rw [if_neg h1]
          intro hc
          rcases List.mem_append.1 hc with hc | hc
          · exact f1 hc
          · exact hne x hx (List.mem_singleton.1 hc)
        · rw [List.getElem?_set_ne (fun hc => hne x hx hc.symm)]
          exact f2)
    refine ⟨sel1, ?_, by rw [e2, List.length_set], ?_, ?_⟩
    · rw [selectLoop, h2]
      dsimp only
      rw [e1]
      unfold setInsert
      rw [if_neg h1, List.map_cons, List.append_assoc]
      rfl
    · intro x hx
      rcases List.mem_cons.1 hx with hx | hx
      · rw [hx, e4 _ hne, List.getElem?_set_self hlt]
      · exact e3 x hx
    · intro j hj
      rw [e4 j (fun x hx => hj x (List.mem_cons_of_mem _ hx)),
        List.getElem?_set_ne (hj m (List.mem_cons_self _ _))]

theorem resizeEmptyLists_replicate (n k : Nat) (hk : k ≤ n) :
    resizeEmptyLists (List.replicate n []) k = List.replicate n [] := by
  unfold resizeEmptyLists
  rw [List.take_replicate, List.length_replicate, Nat.min_eq_left hk, Nat.max_eq_left hk,
    ← List.replicate_add]
  congr 1
  omega

theorem map_target_range (n : Nat) (f : Nat → Int) :
    ((List.range n).map fun i => (⟨[], i, f i⟩ : LearnedModel)).map
      (fun m => m.target_var_) = List.range n := by
  rw [List.map_map]
  exact List.map_id _

/-- C23: with `skip_model_learning_` set, for a schema of `n` attributes (fewer than `2^31`)
whose creators return a model for the empty predictor list, the constructor returns a
learner in stage 1 with the attribute order `0, 1, ..., n-1` and one active model per
attribute, each with an empty predictor list; after the pass that gives these models their
cost, a single `EndOfData` returns a learner in stage 2, with the same order, no further
active pass, and for every attribute the selected model with empty predictor list. -/
theorem RelationModelLearner_skip_learning (creator : List Nat → Nat → Bool)
    (schema : List Int) (cost : List Nat → Nat → Int) (_hn : schema.length < 2 ^ 31)
    (hcreate : ∀ i, i < schema.length → creator [] i = true) :
    ∃ l l1, RelationModelLearner.create creator schema true = some l ∧
      l.learner_stage_ = 1 ∧ l.ordered_attr_list_ = List.range schema.length ∧
      l.active_model_list_ = (List.range schema.length).map
        (fun i => (⟨[], i, 0⟩ : LearnedModel)) ∧
      (∀ i, i < schema.length → l.model_predictor_list_[i]? = some []) ∧
      l.EndOfData creator cost = some l1 ∧
      RelationModelLearner.run creator schema true [cost] = some l1 ∧
      l1.learner_stage_ = 2 ∧ l1.ordered_attr_list_ = List.range schema.length ∧
      (∀ i, i < schema.length →
        l1.selected_model_[i]? = some (some ⟨[], i, cost [] i⟩) ∧
        l1.model_predictor_list_[i]? = some []) := by
  have hmpl : ∀ i, i < schema.length →
      (List.replicate schema.length ([] : List Nat))[i]? = some [] := by
    intro i hi
    rw [List.getElem?_replicate, if_pos hi]
  have hc : RelationModelLearner.create creator schema true = some
      { schema_ := schema, learner_stage_ := 1, skip_model_learning_ := true,
        ordered_attr_list_ := List.range schema.length, inactive_attr_ := [],
        active_model_list_ := (List.range schema.length).map
          (fun i => (⟨[], i, 0⟩ : LearnedModel)),
        selected_model_ := List.replicate schema.length none,
        model_predictor_list_ := List.replicate schema.length [],
        stored_model_cost_ := [] } := by
    unfold RelationModelLearner.create RelationModelLearner.InitActiveModelList
    simp only [if_true]
    rw [if_neg (show ¬ ((1 : Int) = 0) from by decide),
      resizeEmptyLists_replicate schema.length movedFromSchemaSize (Nat.zero_le _),
      initStage1_empty_lists creator _ _ []
        (fun i hi => ⟨hmpl i (List.mem_range.1 hi), hcreate i (List.mem_range.1 hi)⟩)]
    rfl
  obtain ⟨sel1, e1, e2, e3, e4⟩ := selectLoop_fresh
    ((List.range schema.length).map fun i => (⟨[], i, cost [] i⟩ : LearnedModel)) []
    (List.replicate schema.length none)
    (by rw [map_target_range]; exact List.nodup_range _)
    (by
      intro m hm
      rw [List.mem_map] at hm
      obtain ⟨i, hi, rfl⟩ := hm
      refine ⟨by simp, ?_⟩
      show (List.replicate schema.length (none : Option LearnedModel))[i]? = some none
      rw [List.getElem?_replicate, if_pos (List.mem_range.1 hi)])
  rw [map_target_range, List.nil_append] at e1
  have hend : RelationModelLearner.EndOfData creator cost
      { schema_ := schema, learner_stage_ := 1, skip_model_learning_ := true,
        ordered_attr_list_ := List.range schema.length, inactive_attr_ := [],
        active_model_list_ := (List.range schema.length).map
          (fun i => (⟨[], i, 0⟩ : LearnedModel)),
        selected_model_ := List.replicate schema.length none,
        model_predictor_list_ := List.replicate schema.length [],
        stored_model_cost_ := [] } = some
      { schema_ := schema, learner_stage_ := 2, skip_model_learning_ := true,
        ordered_attr_list_ := List.range schema.length,
        inactive_attr_ := List.range schema.length,
        active_model_list_ := (List.range schema.length).map
          (fun i => (⟨[], i, cost [] i⟩ : LearnedModel)),
        selected_model_ := sel1,
        model_predictor_list_ := List.replicate schema.length [],
        stored_model_cost_ := [] } := by
    unfold RelationModelLearner.EndOfData
    dsimp only
    rw [if_neg (show ¬ ((1 : Int) = 0) from by decide), if_pos rfl]
    unfold RelationModelLearner.endStage1 RelationModelLearner.feedCosts
    dsimp only
    rw [List.map_map]
    have hmap : ((fun m : LearnedModel =>
          ({ m with model_cost_ := cost m.predictor_list_ m.target_var_ } : LearnedModel)) ∘
        fun i => (⟨[], i, 0⟩ : LearnedModel)) = fun i => (⟨[], i, cost [] i⟩ : LearnedModel) :=
      rfl
    rw [hmap, e1]
    dsimp only
    rw [if_pos (List.length_range _)]
    dsimp only
    rw [if_neg (show ¬ ((2 : Int) ≠ 2) from by decide)]
  refine ⟨_, _, hc, rfl, rfl, rfl, hmpl, hend, ?_, rfl, rfl, ?_⟩
  · unfold RelationModelLearner.run RelationModelLearner.run
    rw [hc]
    exact hend
  · intro i hi
    refine ⟨?_, hmpl i hi⟩
    exact e3 ⟨[], i, cost [] i⟩ (List.mem_map.2 ⟨i, List.mem_range.2 hi, rfl⟩)

theorem RelationModelLearner_skip_learning_witness :
    ∃ l l1,
      RelationModelLearner.create
        (fun p i => (TableCategoricalCreator.CreateModel (fun _ => ⟨true, 4⟩) p i).isSome)
        [0, 0, 0] true = some l ∧
      l.learner_stage_ = 1 ∧ l.ordered_attr_list_ = [0, 1, 2] ∧
      l.active_model_list_ = [⟨[], 0, 0⟩, ⟨[], 1, 0⟩, ⟨[], 2, 0⟩] ∧
      l.EndOfData
        (fun p i => (TableCategoricalCreator.CreateModel (fun _ => ⟨true, 4⟩) p i).isSome)
        (fun _ i => 10 + i) = some l1 ∧
      l1.learner_stage_ = 2 ∧ l1.ordered_attr_list_ = [0, 1, 2] ∧
      l1.selected_model_[0]? = some (some ⟨[], 0, 10⟩) ∧
      l1.selected_model_[1]? = some (some ⟨[], 1, 11⟩) ∧
      l1.selected_model_[2]? = some (some ⟨[], 2, 12⟩) := by
  obtain ⟨l, l1, h1, h2, h3, h4, _, h6, _, h8, h9, h10⟩ :=
    RelationModelLearner_skip_learning
      (fun p i => (TableCategoricalCreator.CreateModel (fun _ => ⟨true, 4⟩) p i).isSome)
      [0, 0, 0] (fun _ i => 10 + i) (by decide) (by intro i _; rfl)
  exact ⟨l, l1, h1, h2, h3, h4, h6, h8, h9, (h10 0 (by decide)).1, (h10 1 (by decide)).1,
    (h10 2 (by decide)).1⟩

/-! ## The global dictionary -/

theorem lookup_ne_none_of_mem (m : List (List Nat × Int)) (k : List Nat)
    (h : k ∈ m.map Prod.fst) : m.lookup k ≠ none := by
  induction m with
  | nil => simp at h
  | cons e rest ih =>
    obtain ⟨a, b⟩ := e
    rw [List.lookup_cons]
    by_cases hk : k = a
    · rw [hk]; simp
    · have : (k == a) = false := by simpa using hk
      rw [this]
      apply ih
      rw [List.map_cons, List.mem_cons] at h
      rcases h with h | h
      · exact absurd h hk
      · exact h

theorem lookup_eq_none_of_not_mem (m : List (List Nat × Int)) (k : List Nat)
    (h : k ∉ m.map Prod.fst) : m.lookup k = none := by
  induction m with
  | nil => rfl
  | cons e rest ih =>
    obtain ⟨a, b⟩ := e
    rw [List.map_cons, List.mem_cons, not_or] at h
    rw [List.lookup_cons]
    have : (k == a) = false := by simpa using h.1
    rw [this]
    exact ih h.2

theorem mapAdd_of_mem (m : List (List Nat × Int)) (k : List Nat) (delta : Int)
    (h : k ∈ m.map Prod.fst) :
    mapAdd m k delta = m.map fun e => (e.1, e.2 + (if e.1 = k then delta else 0)) := by
  unfold mapAdd
  rw [if_neg (lookup_ne_none_of_mem m k h)]
  apply List.map_congr_left
  intro e _
  split
  · rfl
  · rw [Int.add_zero]

theorem mapSet_of_not_mem (m : List (List Nat × Int)) (k : List Nat) (v : Int)
    (h : k ∉ m.map Prod.fst) : mapSet m k v = m ++ [(k, v)] := by
  unfold mapSet
  rw [if_pos (lookup_eq_none_of_not_mem m k h)]

theorem mapAdd_zero (m : List (List Nat × Int)) (k : List Nat) (h : k ∈ m.map Prod.fst) :
    mapAdd m k 0 = m := by
  rw [mapAdd_of_mem m k 0 h]
  conv_rhs => rw [← List.map_id m]
  apply List.map_congr_left
  intro e _
  simp

theorem mem_keys_of_lookup (m : List (List Nat × Int)) (k : List Nat) (v : Int)
    (h : m.lookup k = some v) : k ∈ m.map Prod.fst := by
  by_contra hc
  rw [lookup_eq_none_of_not_mem m k hc] at h
  simp at h

theorem countPhrasesLoop_spec (D : List (List Nat × Int)) (K : List (List Nat)) :
    ∀ (ps : List (List Nat × Int)) (W : List (List Nat × Int)) (a b c : Int),
      W.map Prod.fst = K →
      (∀ pc ∈ ps, IsFrequentPhrase pc = true →
        ∃ i : Nat, D.lookup pc.1 = some (i : Int) ∧ i < pc.1.length ∧ pc.1.length < 2 ^ 31 ∧
          pc.1.take i ∈ K ∧ pc.1.drop (i + 1) ∈ K) →
      ∃ a1 b1, countPhrasesLoop ps ⟨W, D, a, b, c⟩
        = some ⟨W.map fun e => (e.1, e.2 - phraseShare
            (fun p => (phraseFormer p ((D.lookup p).getD 0),
              (phraseLatter p ((D.lookup p).getD 0)).getD [])) e.1 ps),
          D, a1, b1, c + ((ps.filter IsFrequentPhrase).length : Int)⟩ := by
  intro ps
  induction ps with
  | nil =>
    intro W a b c _ _
    refine ⟨a, b, ?_⟩
    unfold countPhrasesLoop
    congr 2
    · conv_lhs => rw [← List.map_id W]
      apply List.map_congr_left
      intro e _
      simp [phraseShare]
    · simp
  | cons pc rest ih =>
    intro W a b c hK hall
    have hrest : ∀ q ∈ rest, IsFrequentPhrase q = true →
        ∃ i : Nat, D.lookup q.1 = some (i : Int) ∧ i < q.1.length ∧ q.1.length < 2 ^ 31 ∧
          q.1.take i ∈ K ∧ q.1.drop (i + 1) ∈ K :=
      fun q hq => hall q (List.mem_cons_of_mem _ hq)
    unfold countPhrasesLoop
    by_cases hf : IsFrequentPhrase pc = true
    · rw [if_pos hf]
      obtain ⟨i, h1, h2, h3, h4, h5⟩ := hall pc (List.mem_cons_self _ _) hf
      have hidx : (D.lookup pc.1).getD 0 = (i : Int) := by rw [h1]; rfl
      have hformer : phraseFormer pc.1 (i : Int) = pc.1.take i := by
        unfold phraseFormer
        rw [toU64_natCast i (by omega)]
      have hlatter : phraseLatter pc.1 (i : Int) = some (pc.1.drop (i + 1)) := by
        unfold phraseLatter
        have : toU64 ((i : Int) + 1) = i + 1 := by
          have := toU64_natCast (i + 1) (by omega)
          push_cast at this
          exact this
        rw [this, if_neg (by omega)]
      dsimp only
      rw [hidx, hformer, hlatter]
      dsimp only
      rw [mapAdd_zero D pc.1 (mem_keys_of_lookup D pc.1 _ h1),
        mapAdd_of_mem W _ _ (by rw [hK]; exact h4)]
      have hK1 : (W.map fun e => (e.1, e.2 + (if e.1 = pc.1.take i then -pc.2 else 0))).map
          Prod.fst = K := by
        rw [List.map_map, ← hK]
        rfl
      rw [mapAdd_of_mem _ _ _ (by rw [hK1]; exact h5)]
      have hK2 : ((W.map fun e => (e.1, e.2 + (if e.1 = pc.1.take i then -pc.2 else 0))).map
          fun e => (e.1, e.2 + (if e.1 = pc.1.drop (i + 1) then -pc.2 else 0))).map
          Prod.fst = K := by
        rw [List.map_map, ← hK1]
        rfl
      obtain ⟨a1, b1, e1⟩ := ih _ (a - pc.2) (b - pc.2) (c + 1) hK2 hrest
      refine ⟨a1, b1, ?_⟩
      rw [e1, List.map_map, List.map_map]
      congr 2
      · apply List.map_congr_left
        intro e _
        simp only [Function.comp]
        congr 1
        unfold phraseShare
        rw [List.filter_cons_of_pos hf, List.map_cons, List.sum_cons]
        dsimp only
        rw [hidx, hformer, hlatter]
        simp only [Option.getD_some]
        have e1 : (if e.1 = pc.1.take i then -pc.2 else 0)
            = -(if pc.1.take i = e.1 then pc.2 else 0) := by
          by_cases hh : e.1 = pc.1.take i
          · rw [if_pos hh, if_pos hh.symm]
          · rw [if_neg hh, if_neg (fun hc => hh hc.symm)]; rfl
        have e2 : (if e.1 = pc.1.drop (i + 1) then -pc.2 else 0)
            = -(if pc.1.drop (i + 1) = e.1 then pc.2 else 0) := by
          by_cases hh : e.1 = pc.1.drop (i + 1)
          · rw [if_pos hh, if_pos hh.symm]
          · rw [if_neg hh, if_neg (fun hc => hh hc.symm)]; rfl
        rw [e1, e2]
        ring
      · rw [List.filter_cons_of_pos hf, List.length_cons]
        push_cast
        ring
    · rw [if_neg hf]
      obtain ⟨a1, b1, e1⟩ := ih W a b c hK hrest
      refine ⟨a1, b1, ?_⟩
      rw [e1]
      congr 2
      · apply List.map_congr_left
        intro e _
        unfold phraseShare
        rw [List.filter_cons_of_neg hf]
      · rw [List.filter_cons_of_neg hf]

theorem feedLoop_spec (frequent : List Nat × Int → Bool) (skip_known : Bool) :
    ∀ (xs : List (List Nat × Int)) (pre : List (List Nat)) (k : Nat)
      (T : List (List Nat × Int)),
      ((xs.filter frequent).map Prod.fst).Nodup →
      (∀ s ∈ (xs.filter frequent).map Prod.fst, s ∉ T.map Prod.fst) →
      ((xs.filter frequent).map Prod.fst).length ≤ k → pre.length + k < 2 ^ 31 →
      feedLoop frequent skip_known xs (pre ++ List.replicate k []) T (pre.length : Int)
        = some (pre ++ (xs.filter frequent).map Prod.fst
              ++ List.replicate (k - ((xs.filter frequent).map Prod.fst).length) [],
            T ++ indexedTerms pre.length ((xs.filter frequent).map Prod.fst),
            ((pre.length + ((xs.filter frequent).map Prod.fst).length : Nat) : Int)) := by
  intro xs
  induction xs with
  | nil =>
    intro pre k T _ _ _ _
    unfold feedLoop
    simp [indexedTerms]
  | cons x rest ih =>
    intro pre k T hnd hT hk hlen
    unfold feedLoop
    by_cases hf : frequent x = true
    · rw [if_pos hf]
      rw [List.filter_cons_of_pos hf, List.map_cons] at hnd hT hk ⊢
      rw [List.length_cons] at hk ⊢
      have hx : x.1 ∉ T.map Prod.fst := hT x.1 (List.mem_cons_self _ _)
      have hlook : T.lookup x.1 = none := lookup_eq_none_of_not_mem T x.1 hx
      rw [if_neg (by rw [hlook]; simp)]
      obtain ⟨k1, rfl⟩ : ∃ k1, k = k1 + 1 := ⟨k - 1, by omega⟩
      have hidx : toU64 (pre.length : Int) = pre.length := toU64_natCast _ (by omega)
      rw [hidx, if_pos (by rw [List.length_append, List.length_replicate]; omega),
        mapSet_of_not_mem T x.1 _ hx]
      have hset : (pre ++ List.replicate (k1 + 1) ([] : List Nat)).set pre.length x.1
          = (pre ++ [x.1]) ++ List.replicate k1 [] := by
        rw [List.replicate_succ, List.set_append, if_neg (by omega), Nat.sub_self,
          List.set_cons_zero, List.append_assoc]
        rfl
      have hcast : ((pre.length : Int) + 1) = ((pre ++ [x.1]).length : Int) := by
        rw [List.length_append, List.length_singleton]
        push_cast
        rfl
      rw [hset, hcast]
      rw [List.nodup_cons] at hnd
      rw [ih (pre ++ [x.1]) k1 (T ++ [(x.1, (pre.length : Int))]) hnd.2
        (by intro s hs hc
            rw [List.map_append, List.mem_append] at hc
            rcases hc with hc | hc
            · exact hT s (List.mem_cons_of_mem _ hs) hc
            · simp only [List.map_cons, List.map_nil, List.mem_singleton] at hc
              rw [hc] at hs
              exact hnd.1 hs)
        (by omega)
        (by rw [List.length_append, List.length_singleton]; omega)]
      have h1 : k1 - ((rest.filter frequent).map Prod.fst).length
          = k1 + 1 - (((rest.filter frequent).map Prod.fst).length + 1) := by omega
      have h2 : (pre ++ [x.1]).length = pre.length + 1 := by
        rw [List.length_append, List.length_singleton]
      have h3 : pre.length + 1 + ((rest.filter frequent).map Prod.fst).length
          = pre.length + (((rest.filter frequent).map Prod.fst).length + 1) := by omega
      rw [h2, h3, ← h1, List.append_assoc pre [x.1], List.singleton_append,
        List.append_assoc T]
      rfl
    · rw [if_neg hf]
      rw [List.filter_cons_of_neg hf] at hnd hT hk ⊢
      exact ih pre k T hnd hT hk hlen

theorem indexedTerms_keys : ∀ (l : List (List Nat)) (start : Nat),
    (indexedTerms start l).map Prod.fst = l := by
  intro l
  induction l with
  | nil => intro _; rfl
  | cons a rest ih =>
    intro start
    unfold indexedTerms
    rw [List.map_cons, ih]

theorem indexedTerms_append : ∀ (l1 l2 : List (List Nat)) (start : Nat),
    indexedTerms start (l1 ++ l2) = indexedTerms start l1 ++ indexedTerms (start + l1.length) l2 := by
  intro l1
  induction l1 with
  | nil => intro l2 start; rfl
  | cons a rest ih =>
    intro l2 start
    show (a, (start : Int)) :: indexedTerms (start + 1) (rest ++ l2)
      = ((a, (start : Int)) :: indexedTerms (start + 1) rest)
        ++ indexedTerms (start + (rest.length + 1)) l2
    rw [ih, show start + 1 + rest.length = start + (rest.length + 1) from by omega]
    rfl

theorem filter_map_length_le {α : Type} (p q : α → Bool) (g : α → α)
    (h : ∀ e, q (g e) = true → p e = true) :
    ∀ l : List α, ((l.map g).filter q).length ≤ (l.filter p).length := by
  intro l
  induction l with
  | nil => simp
  | cons a rest ih =>
    rw [List.map_cons]
    by_cases hq : q (g a) = true
    · rw [List.filter_cons_of_pos hq, List.filter_cons_of_pos (h a hq), List.length_cons,
        List.length_cons]
      omega
    · rw [List.filter_cons_of_neg hq]
      by_cases hp : p a = true
      · rw [List.filter_cons_of_pos hp, List.length_cons]
        omega
      · rw [List.filter_cons_of_neg hp]
        exact ih

theorem phraseShare_nonneg (words : List Nat → List Nat × List Nat) (word : List Nat)
    (phrases : List (List Nat × Int)) : 0 ≤ phraseShare words word phrases := by
  unfold phraseShare
  apply List.sum_nonneg
  intro x hx
  rw [List.mem_map] at hx
  obtain ⟨pc, hpc, rfl⟩ := hx
  have hf := (List.mem_filter.1 hpc).2
  unfold IsFrequentPhrase at hf
  rw [decide_eq_true_eq] at hf
  have h10 := hf.1
  split <;> split <;> omega

theorem IsFrequentWord_mono (w : List Nat) (c1 c2 : Int) (h : c1 ≤ c2)
    (hf : IsFrequentWord (w, c1) = true) : IsFrequentWord (w, c2) = true := by
  unfold IsFrequentWord at hf ⊢
  rw [decide_eq_true_eq] at hf ⊢
  rcases hf with ⟨h1, h2⟩ | h1
  · exact Or.inl ⟨by show c2 > 3; have : c1 > 3 := h1; omega, h2⟩
  · exact Or.inr (by show c2 > 10; have : c1 > 10 := h1; omega)

theorem GlobalDictionary_EndOfData_spec (d : GlobalDictionary) (hterm : d.term_to_id_ = [])
    (hids : d.id_to_term_ = [])
    (hwk : (d.word_counts_.map Prod.fst).Nodup) (hpk : (d.phrase_counts_.map Prod.fst).Nodup)
    (hdisj : ∀ p ∈ d.phrase_counts_.map Prod.fst, p ∉ d.word_counts_.map Prod.fst)
    (hparts : ∀ pc ∈ d.phrase_counts_, IsFrequentPhrase pc = true →
      ∃ i : Nat, d.phrases_delimiter_idx_.lookup pc.1 = some (i : Int) ∧ i < pc.1.length ∧
        pc.1.length < 2 ^ 31 ∧ pc.1.take i ∈ d.word_counts_.map Prod.fst ∧
        pc.1.drop (i + 1) ∈ d.word_counts_.map Prod.fst)
    (hsize : d.word_counts_.length + d.phrase_counts_.length < 2 ^ 31) :
    ∃ d1, d.EndOfData = some d1 ∧
      d1.id_to_term_ = (d.phrase_counts_.filter IsFrequentPhrase).map Prod.fst
        ++ ((d.word_counts_.map fun e =>
              (e.1, e.2 - phraseShare d.phraseWords e.1 d.phrase_counts_)).filter
            IsFrequentWord).map Prod.fst ∧
      d1.line_ = (((d.phrase_counts_.filter IsFrequentPhrase).map Prod.fst).length : Int) ∧
      d1.term_to_id_ = indexedTerms 0 ((d.phrase_counts_.filter IsFrequentPhrase).map Prod.fst
        ++ ((d.word_counts_.map fun e =>
              (e.1, e.2 - phraseShare d.phraseWords e.1 d.phrase_counts_)).filter
            IsFrequentWord).map Prod.fst) := by
  obtain ⟨a1, b1, hcount⟩ := countPhrasesLoop_spec d.phrases_delimiter_idx_
    (d.word_counts_.map Prod.fst) d.phrase_counts_ d.word_counts_
    ((d.word_counts_.map Prod.snd).sum)
    (((d.word_counts_.filter IsFrequentWord).map Prod.snd).sum) 0 rfl hparts
  have hwords : (fun p => (phraseFormer p ((d.phrases_delimiter_idx_.lookup p).getD 0),
      (phraseLatter p ((d.phrases_delimiter_idx_.lookup p).getD 0)).getD []))
      = d.phraseWords := rfl
  rw [hwords] at hcount
  generalize hW1 : (d.word_counts_.map fun e =>
    (e.1, e.2 - phraseShare d.phraseWords e.1 d.phrase_counts_)) = W1 at hcount ⊢
  have hW1keys : W1.map Prod.fst = d.word_counts_.map Prod.fst := by
    rw [← hW1, List.map_map]
    rfl
  generalize hP : (d.phrase_counts_.filter IsFrequentPhrase).map Prod.fst = P
  generalize hS : (W1.filter IsFrequentWord).map Prod.fst = S
  have hPlen : (d.phrase_counts_.filter IsFrequentPhrase).length = P.length := by
    rw [← hP, List.length_map]
  have hPsub : P.Sublist (d.phrase_counts_.map Prod.fst) := by
    rw [← hP]
    exact (List.filter_sublist _).map _
  have hSsub : S.Sublist (d.word_counts_.map Prod.fst) := by
    rw [← hS, ← hW1keys]
    exact (List.filter_sublist _).map _
  have hnw : S.length ≤ (d.word_counts_.filter IsFrequentWord).length := by
    rw [← hS, List.length_map, ← hW1]
    apply filter_map_length_le
    intro e he
    obtain ⟨w, c⟩ := e
    exact IsFrequentWord_mono w _ c
      (by have := phraseShare_nonneg d.phraseWords w d.phrase_counts_
          show c - phraseShare d.phraseWords w d.phrase_counts_ ≤ c
          omega) he
  have hb1 : (d.word_counts_.filter IsFrequentWord).length ≤ d.word_counts_.length :=
    List.length_filter_le _ _
  have hb2 : P.length ≤ d.phrase_counts_.length := by
    rw [← hPlen]; exact List.length_filter_le _ _
  generalize hN : (d.word_counts_.filter IsFrequentWord).length = N at hnw hb1
  have hsz : toU64 ((N : Int) + (0 + (P.length : Int))) = N + P.length := by
    have := toU64_natCast (N + P.length) (by omega)
    push_cast at this
    rw [Int.zero_add]
    exact this
  have hfeed1 := feedLoop_spec IsFrequentPhrase false d.phrase_counts_ [] (N + P.length) []
    (by rw [hP]; exact hPsub.nodup hpk) (by intro s _ hc; simp at hc)
    (by rw [hP]; omega) (by rw [List.length_nil]; omega)
  rw [hP] at hfeed1
  have hfeed2 := feedLoop_spec IsFrequentWord true W1 P N (indexedTerms 0 P)
    (by rw [hS]; exact hSsub.nodup hwk)
    (by rw [hS, indexedTerms_keys]
        intro s hs hc
        exact hdisj s (hPsub.subset hc) (hSsub.subset hs))
    (by rw [hS]; exact hnw) (by omega)
  rw [hS] at hfeed2
  unfold GlobalDictionary.EndOfData
  dsimp only
  rw [hN, hcount]
  dsimp only
  rw [hPlen, hsz, hids, hterm]
  have hres : resizeTerms [] (N + P.length) = [] ++ List.replicate (N + P.length) [] := by
    unfold resizeTerms
    simp
  rw [hres]
  have hz : (0 : Int) = (([] : List (List Nat)).length : Int) := rfl
  rw [hz, hfeed1]
  dsimp only
  rw [show N + P.length - P.length = N from by omega, List.nil_append, List.nil_append,
    List.length_nil, Nat.zero_add, hfeed2]
  dsimp only
  refine ⟨_, rfl, ?_, rfl, ?_⟩
  · show resizeTerms (P ++ S ++ List.replicate (N - S.length) [])
        (toU64 ((P.length + S.length : Nat) : Int)) = P ++ S
    rw [toU64_natCast _ (by omega)]
    unfold resizeTerms
    rw [← List.length_append, List.take_left', List.length_append (P ++ S),
      show (P ++ S).length - ((P ++ S).length + (List.replicate (N - S.length)
        ([] : List Nat)).length) = 0 from by omega]
    · simp
    · rfl
  · show indexedTerms 0 P ++ indexedTerms P.length S = indexedTerms 0 (P ++ S)
    rw [indexedTerms_append, Nat.zero_add]

theorem mem_of_getElem?_some {α : Type} (l : List α) (i : Nat) (t : α) (h : l[i]? = some t) :
    t ∈ l := by
  rw [List.getElem?_eq_some] at h
  obtain ⟨hi, rfl⟩ := h
  exact List.getElem_mem hi

theorem indexedTerms_lookup : ∀ (L : List (List Nat)) (start i : Nat) (t : List Nat),
    L.Nodup → L[i]? = some t →
    (indexedTerms start L).lookup t = some ((start + i : Nat) : Int) := by
  intro L
  induction L with
  | nil => intro start i t _ h; simp at h
  | cons a rest ih =>
    intro start i t hnd h
    rw [List.nodup_cons] at hnd
    unfold indexedTerms
    rw [List.lookup_cons]
    cases i with
    | zero =>
      simp only [List.getElem?_cons_zero, Option.some.injEq] at h
      rw [h]
      simp
    | succ j =>
      rw [List.getElem?_cons_succ] at h
      have hmem : t ∈ rest := mem_of_getElem?_some _ _ _ h
      have hne : (t == a) = false := by
        simp only [beq_eq_false_iff_ne, ne_eq]
        intro hc
        rw [hc] at hmem
        exact hnd.1 hmem
      rw [hne, ih (start + 1) j t hnd.2 h,
        show start + 1 + j = start + (j + 1) from by omega]

/-- C27: for a dictionary that has only been fed by `PushWord` and `PushPhrase`
(`term_to_id_` and `id_to_term_` empty, the keys of each map distinct), where no phrase is
also a word and a frequent phrase is cut by its delimiter index into two known words,
`GlobalDictionary::EndOfData` returns, and afterwards: a phrase is in the dictionary
exactly when its count is above 10 and its length at least 3; a word is in the dictionary
exactly when its count, less the counts of the frequent phrases for each of their two
words equal to it, is above 3 with a length above 3, or above 10; every term has its index
in `id_to_term_` as identifier, the identifiers below `line_` are phrases and those from
`line_` on are words. -/
theorem GlobalDictionary_EndOfData_contents (d : GlobalDictionary)
    (hterm : d.term_to_id_ = []) (hids : d.id_to_term_ = [])
    (hwk : (d.word_counts_.map Prod.fst).Nodup) (hpk : (d.phrase_counts_.map Prod.fst).Nodup)
    (hdisj : ∀ p ∈ d.phrase_counts_.map Prod.fst, p ∉ d.word_counts_.map Prod.fst)
    (hparts : ∀ pc ∈ d.phrase_counts_, IsFrequentPhrase pc = true →
      ∃ i : Nat, d.phrases_delimiter_idx_.lookup pc.1 = some (i : Int) ∧ i < pc.1.length ∧
        pc.1.length < 2 ^ 31 ∧ pc.1.take i ∈ d.word_counts_.map Prod.fst ∧
        pc.1.drop (i + 1) ∈ d.word_counts_.map Prod.fst)
    (hsize : d.word_counts_.length + d.phrase_counts_.length < 2 ^ 31) :
    ∃ d1, d.EndOfData = some d1 ∧
      (∀ pc ∈ d.phrase_counts_, pc.1 ∈ d1.id_to_term_ ↔ (pc.2 > 10 ∧ pc.1.length ≥ 3)) ∧
      (∀ wc ∈ d.word_counts_, wc.1 ∈ d1.id_to_term_ ↔
        ((wc.2 - phraseShare d.phraseWords wc.1 d.phrase_counts_ > 3 ∧ wc.1.length > 3) ∨
          wc.2 - phraseShare d.phraseWords wc.1 d.phrase_counts_ > 10)) ∧
      (∀ (i : Nat) (t : List Nat), d1.id_to_term_[i]? = some t →
        d1.term_to_id_.lookup t = some (i : Int) ∧
        ((i : Int) < d1.line_ → t ∈ d.phrase_counts_.map Prod.fst) ∧
        (d1.line_ ≤ (i : Int) → t ∈ d.word_counts_.map Prod.fst)) := by
  obtain ⟨d1, e1, e2, e3, e4⟩ := GlobalDictionary_EndOfData_spec d hterm hids hwk hpk hdisj
    hparts hsize
  generalize hW1 : (d.word_counts_.map fun e =>
    (e.1, e.2 - phraseShare d.phraseWords e.1 d.phrase_counts_)) = W1 at e2 e4
  have hW1keys : W1.map Prod.fst = d.word_counts_.map Prod.fst := by
    rw [← hW1, List.map_map]
    rfl
  have hPsub : ((d.phrase_counts_.filter IsFrequentPhrase).map Prod.fst).Sublist
      (d.phrase_counts_.map Prod.fst) := (List.filter_sublist _).map _
  have hSsub : ((W1.filter IsFrequentWord).map Prod.fst).Sublist
      (d.word_counts_.map Prod.fst) := by
    rw [← hW1keys]
    exact (List.filter_sublist _).map _
  generalize hP : (d.phrase_counts_.filter IsFrequentPhrase).map Prod.fst = P at e2 e3 e4 hPsub
  generalize hS : (W1.filter IsFrequentWord).map Prod.fst = S at e2 e4 hSsub
  have hPS : ∀ s ∈ S, s ∉ P := fun s hs hc => hdisj s (hPsub.subset hc) (hSsub.subset hs)
  refine ⟨d1, e1, ?_, ?_, ?_⟩
  · intro pc hpc
    rw [e2, List.mem_append]
    have hfreq : IsFrequentPhrase pc = true ↔ (pc.2 > 10 ∧ pc.1.length ≥ 3) := by
      unfold IsFrequentPhrase
      rw [decide_eq_true_eq]
    rw [← hfreq]
    constructor
    · rintro (h | h)
      · rw [← hP, List.mem_map] at h
        obtain ⟨pc1, h1, h2⟩ := h
        rw [List.mem_filter] at h1
        have := List.inj_on_of_nodup_map hpk h1.1 hpc h2
        rw [← this]
        exact h1.2
      · exact absurd (hSsub.subset h) (hdisj pc.1 (List.mem_map_of_mem _ hpc))
    · intro h
      left
      rw [← hP]
      exact List.mem_map_of_mem _ (List.mem_filter.2 ⟨hpc, h⟩)
  · intro wc hwc
    rw [e2, List.mem_append]
    have hfreq : IsFrequentWord (wc.1, wc.2 - phraseShare d.phraseWords wc.1 d.phrase_counts_)
        = true ↔
        ((wc.2 - phraseShare d.phraseWords wc.1 d.phrase_counts_ > 3 ∧ wc.1.length > 3) ∨
          wc.2 - phraseShare d.phraseWords wc.1 d.phrase_counts_ > 10) := by
      unfold IsFrequentWord
      rw [decide_eq_true_eq]
    rw [← hfreq]
    constructor
    · rintro (h | h)
      · exact absurd (List.mem_map_of_mem _ hwc) (hdisj wc.1 (hPsub.subset h))
      · rw [← hS, List.mem_map] at h
        obtain ⟨e, h1, h2⟩ := h
        rw [List.mem_filter, ← hW1, List.mem_map] at h1
        obtain ⟨⟨wc1, h3, h4⟩, h5⟩ := h1
        rw [← h4] at h2 h5
        have hk : wc1.1 = wc.1 := h2
        have := List.inj_on_of_nodup_map hwk h3 hwc hk
        rw [this] at h5
        exact h5
    · intro h
      right
      rw [← hS]
      have hm : (wc.1, wc.2 - phraseShare d.phraseWords wc.1 d.phrase_counts_) ∈ W1 := by
        rw [← hW1, List.mem_map]
        exact ⟨wc, hwc, rfl⟩
      exact List.mem_map.2 ⟨_, List.mem_filter.2 ⟨hm, h⟩, rfl⟩
  · intro i t hi
    rw [e2] at hi
    have hnd : (P ++ S).Nodup := by
      rw [List.nodup_append]
      exact ⟨hPsub.nodup hpk, hSsub.nodup hwk, fun x hx hx1 => hPS x hx1 hx⟩
    refine ⟨?_, ?_, ?_⟩
    · rw [e4, indexedTerms_lookup (P ++ S) 0 i t hnd hi, Nat.zero_add]
    · intro hlt
      rw [e3] at hlt
      have hlt1 : i < P.length := by omega
      rw [List.getElem?_append_left hlt1] at hi
      exact hPsub.subset (mem_of_getElem?_some _ _ _ hi)
    · intro hge
      rw [e3] at hge
      have hge1 : P.length ≤ i := by omega
      rw [List.getElem?_append_right hge1] at hi
      exact hSsub.subset (mem_of_getElem?_some _ _ _ hi)

theorem GlobalDictionary_EndOfData_contents_witness :
    ∃ d1, (⟨0, [], [], [([97, 98], 20), ([99, 100], 15), ([120, 121, 122, 119], 4), ([101], 9)],
        [([97, 98, 32, 99, 100], 12)], [([97, 98, 32, 99, 100], 2)]⟩ :
        GlobalDictionary).EndOfData = some d1 ∧
      (∀ pc ∈ (⟨0, [], [], [([97, 98], 20), ([99, 100], 15), ([120, 121, 122, 119], 4),
          ([101], 9)], [([97, 98, 32, 99, 100], 12)], [([97, 98, 32, 99, 100], 2)]⟩ :
          GlobalDictionary).phrase_counts_,
        pc.1 ∈ d1.id_to_term_ ↔ (pc.2 > 10 ∧ pc.1.length ≥ 3)) ∧
      (∀ wc ∈ (⟨0, [], [], [([97, 98], 20), ([99, 100], 15), ([120, 121, 122, 119], 4),
          ([101], 9)], [([97, 98, 32, 99, 100], 12)], [([97, 98, 32, 99, 100], 2)]⟩ :
          GlobalDictionary).word_counts_,
        wc.1 ∈ d1.id_to_term_ ↔
        ((wc.2 - phraseShare (⟨0, [], [], [([97, 98], 20), ([99, 100], 15),
            ([120, 121, 122, 119], 4), ([101], 9)], [([97, 98, 32, 99, 100], 12)],
            [([97, 98, 32, 99, 100], 2)]⟩ : GlobalDictionary).phraseWords wc.1
            (⟨0, [], [], [([97, 98], 20), ([99, 100], 15), ([120, 121, 122, 119], 4),
            ([101], 9)], [([97, 98, 32, 99, 100], 12)], [([97, 98, 32, 99, 100], 2)]⟩ :
            GlobalDictionary).phrase_counts_ > 3 ∧ wc.1.length > 3) ∨
          wc.2 - phraseShare (⟨0, [], [], [([97, 98], 20), ([99, 100], 15),
            ([120, 121, 122, 119], 4), ([101], 9)], [([97, 98, 32, 99, 100], 12)],
            [([97, 98, 32, 99, 100], 2)]⟩ : GlobalDictionary).phraseWords wc.1
            (⟨0, [], [], [([97, 98], 20), ([99, 100], 15), ([120, 121, 122, 119], 4),
            ([101], 9)], [([97, 98, 32, 99, 100], 12)], [([97, 98, 32, 99, 100], 2)]⟩ :
            GlobalDictionary).phrase_counts_ > 10)) ∧
      (∀ (i : Nat) (t : List Nat), d1.id_to_term_[i]? = some t →
        d1.term_to_id_.lookup t = some (i : Int) ∧
        ((i : Int) < d1.line_ → t ∈ (⟨0, [], [], [([97, 98], 20), ([99, 100], 15),
            ([120, 121, 122, 119], 4), ([101], 9)], [([97, 98, 32, 99, 100], 12)],
            [([97, 98, 32, 99, 100], 2)]⟩ : GlobalDictionary).phrase_counts_.map Prod.fst) ∧
        (d1.line_ ≤ (i : Int) → t ∈ (⟨0, [], [], [([97, 98], 20), ([99, 100], 15),
            ([120, 121, 122, 119], 4), ([101], 9)], [([97, 98, 32, 99, 100], 12)],
            [([97, 98, 32, 99, 100], 2)]⟩ : GlobalDictionary).word_counts_.map Prod.fst)) :=
  GlobalDictionary_EndOfData_contents
    ⟨0, [], [], [([97, 98], 20), ([99, 100], 15), ([120, 121, 122, 119], 4), ([101], 9)],
      [([97, 98, 32, 99, 100], 12)], [([97, 98, 32, 99, 100], 2)]⟩
    rfl rfl (by decide) (by decide) (by decide)
    (by intro pc hpc _
        have hpc1 : pc = ([97, 98, 32, 99, 100], 12) := by simpa using hpc
        rw [hpc1]
        exact ⟨2, by decide, by decide, by decide, by decide, by decide⟩)
    (by decide)

/-! ## Bits written by `SequenceByteWriter` and read by `ByteReader` -/

theorem WriteLess_buffer (w : SequenceByteWriter) (x len : Nat) :
    ∃ buffer1 : List Nat,
      (∀ j, buffer1.getD j 0 =
        if len ≤ 8 - w.bits_counter_ % 8 then
          (if j = w.bits_counter_ / 8 then
            (w.buffer_.getD j 0 + x * 2 ^ (8 - len - w.bits_counter_ % 8)) % 256
           else w.buffer_.getD j 0)
        else
          (if j = w.bits_counter_ / 8 + 1 then
            (w.buffer_.getD j 0 + x * 2 ^ (8 - (len + w.bits_counter_ % 8 - 8))) % 256
           else if j = w.bits_counter_ / 8 then
            (w.buffer_.getD j 0 + x / 2 ^ (len + w.bits_counter_ % 8 - 8)) % 256
           else w.buffer_.getD j 0)) ∧
      w.WriteLess x len =
        if w.bits_counter_ + len ≥ 65536 * 8 then
          { file_ := w.file_ ++ resizeList buffer1 ((w.bits_counter_ + len) / 8),
            buffer_ := [buffer1.getD ((w.bits_counter_ + len) / 8) 0],
            bits_counter_ := (w.bits_counter_ + len) % 8,
            num_bits_ := (w.num_bits_ + len) % 2 ^ 64 }
        else
          { w with buffer_ := buffer1, bits_counter_ := w.bits_counter_ + len,
                   num_bits_ := (w.num_bits_ + len) % 2 ^ 64 } := by
  have hidx : w.bits_counter_ >>> 3 = w.bits_counter_ / 8 := Nat.shiftRight_eq_div_pow _ 3
  have hidx1 : (w.bits_counter_ + len) >>> 3 = (w.bits_counter_ + len) / 8 :=
    Nat.shiftRight_eq_div_pow _ 3
  refine ⟨if len ≤ 8 - w.bits_counter_ % 8 then
      bufferAdd w.buffer_ (w.bits_counter_ / 8) (x <<< (8 - len - w.bits_counter_ % 8))
    else
      bufferAdd (bufferAdd w.buffer_ (w.bits_counter_ / 8)
          (x >>> (len + w.bits_counter_ % 8 - 8)))
        (w.bits_counter_ / 8 + 1) (x <<< (8 - (len + w.bits_counter_ % 8 - 8))), ?_, ?_⟩
  · intro j
    split
    · rw [getD_bufferAdd, Nat.shiftLeft_eq]
      split
      · rename_i hj; rw [hj]
      · rfl
    · rw [getD_bufferAdd, Nat.shiftLeft_eq, Nat.shiftRight_eq_div_pow]
      split
      · rename_i hj
        rw [getD_bufferAdd, if_neg (by omega), hj]
      · rw [getD_bufferAdd]
        split
        · rename_i hj; rw [hj]
        · rfl
  · unfold SequenceByteWriter.WriteLess
    simp only [and_seven, hidx, hidx1]

theorem WriteLess_content (w : SequenceByteWriter) (x len : Nat) (hlen : len ≤ 8)
    (h3 : ∀ i, w.bits_counter_ / 8 < i → w.buffer_.getD i 0 = 0) :
    (w.WriteLess x len).bits_counter_ < 65536 * 8 ∧
    8 * (w.WriteLess x len).file_.length + (w.WriteLess x len).bits_counter_
      = 8 * w.file_.length + w.bits_counter_ + len ∧
    (w.WriteLess x len).bits_counter_ % 8 = (w.bits_counter_ % 8 + len) % 8 ∧
    (∀ i, (w.WriteLess x len).bits_counter_ / 8 < i → (w.WriteLess x len).buffer_.getD i 0 = 0) ∧
    (w.WriteLess x len).content = w.file_ ++ resizeList w.buffer_ (w.bits_counter_ / 8) ++
      (if w.bits_counter_ % 8 + len < 8 then
        [(w.buffer_.getD (w.bits_counter_ / 8) 0 + x * 2 ^ (8 - len - w.bits_counter_ % 8)) % 256]
      else if w.bits_counter_ % 8 + len = 8 then
        [(w.buffer_.getD (w.bits_counter_ / 8) 0 + x) % 256, 0]
      else
        [(w.buffer_.getD (w.bits_counter_ / 8) 0 + x / 2 ^ (len + w.bits_counter_ % 8 - 8)) % 256,
         (x * 2 ^ (16 - len - w.bits_counter_ % 8)) % 256]) := by
  obtain ⟨buffer1, hget, heq⟩ := WriteLess_buffer w x len
  have hb : w.bits_counter_ % 8 < 8 := Nat.mod_lt _ (by decide)
  -- the bytes of the new buffer
  have htail : ∀ i, (w.bits_counter_ + len) / 8 < i → buffer1.getD i 0 = 0 := by
    intro i hi
    rw [hget]
    split
    · rw [if_neg (by omega)]
      exact h3 i (by omega)
    · rw [if_neg (by omega), if_neg (by omega)]
      exact h3 i (by omega)
  have hnew : resizeList buffer1 ((w.bits_counter_ + len) / 8 + 1)
      = resizeList w.buffer_ (w.bits_counter_ / 8) ++
      (if w.bits_counter_ % 8 + len < 8 then
        [(w.buffer_.getD (w.bits_counter_ / 8) 0 + x * 2 ^ (8 - len - w.bits_counter_ % 8)) % 256]
      else if w.bits_counter_ % 8 + len = 8 then
        [(w.buffer_.getD (w.bits_counter_ / 8) 0 + x) % 256, 0]
      else
        [(w.buffer_.getD (w.bits_counter_ / 8) 0 + x / 2 ^ (len + w.bits_counter_ % 8 - 8)) % 256,
         (x * 2 ^ (16 - len - w.bits_counter_ % 8)) % 256]) := by
    have hpre : resizeList buffer1 (w.bits_counter_ / 8) = resizeList w.buffer_ (w.bits_counter_ / 8) := by
      apply resizeList_congr
      intro i hi
      rw [hget]
      split
      · rw [if_neg (by omega)]
      · rw [if_neg (by omega), if_neg (by omega)]
    by_cases hc1 : w.bits_counter_ % 8 + len < 8
    · rw [if_pos hc1, show (w.bits_counter_ + len) / 8 = w.bits_counter_ / 8 from by omega,
        resizeList_succ, hpre, hget, if_pos (by omega), if_pos rfl]
    · rw [if_neg hc1, show (w.bits_counter_ + len) / 8 + 1 = w.bits_counter_ / 8 + 1 + 1 from by omega,
        resizeList_succ, resizeList_succ, hpre, List.append_assoc]
      by_cases hc2 : w.bits_counter_ % 8 + len = 8
      · have hk : buffer1.getD (w.bits_counter_ / 8) 0
            = (w.buffer_.getD (w.bits_counter_ / 8) 0 + x) % 256 := by
          rw [hget, if_pos (by omega), if_pos rfl,
            show 8 - len - w.bits_counter_ % 8 = 0 from by omega, pow_zero, Nat.mul_one]
        have hk1 : buffer1.getD (w.bits_counter_ / 8 + 1) 0 = 0 := by
          rw [hget, if_pos (by omega), if_neg (by omega)]
          exact h3 _ (by omega)
        rw [if_pos hc2, hk, hk1]
        rfl
      · have hk : buffer1.getD (w.bits_counter_ / 8) 0
            = (w.buffer_.getD (w.bits_counter_ / 8) 0
                + x / 2 ^ (len + w.bits_counter_ % 8 - 8)) % 256 := by
          rw [hget, if_neg (by omega), if_neg (by omega), if_pos rfl]
        have hk1 : buffer1.getD (w.bits_counter_ / 8 + 1) 0
            = (x * 2 ^ (16 - len - w.bits_counter_ % 8)) % 256 := by
          rw [hget, if_neg (by omega), if_pos rfl, h3 _ (by omega), Nat.zero_add,
            show 8 - (len + w.bits_counter_ % 8 - 8) = 16 - len - w.bits_counter_ % 8
              from by omega]
        rw [if_neg hc2, hk, hk1]
        rfl
  rw [List.append_assoc, ← hnew, heq]
  by_cases hfull : w.bits_counter_ + len ≥ 65536 * 8
  · rw [if_pos hfull]
    have hmod : (w.bits_counter_ + len) % 8 < 8 := Nat.mod_lt _ (by decide)
    refine ⟨?_, ?_, ?_, ?_, ?_⟩
    · show (w.bits_counter_ + len) % 8 < 65536 * 8
      omega
    · show 8 * (w.file_ ++ resizeList buffer1 ((w.bits_counter_ + len) / 8)).length
        + (w.bits_counter_ + len) % 8 = 8 * w.file_.length + w.bits_counter_ + len
      rw [List.length_append, resizeList_length]
      omega
    · show (w.bits_counter_ + len) % 8 % 8 = (w.bits_counter_ % 8 + len) % 8
      omega
    · intro i hi
      show [buffer1.getD ((w.bits_counter_ + len) / 8) 0].getD i 0 = 0
      have hi1 : (w.bits_counter_ + len) % 8 / 8 < i := hi
      have : 0 < i := by omega
      obtain ⟨i1, rfl⟩ : ∃ i1, i = i1 + 1 := ⟨i - 1, by omega⟩
      rfl
    · show (w.file_ ++ resizeList buffer1 ((w.bits_counter_ + len) / 8))
        ++ resizeList [buffer1.getD ((w.bits_counter_ + len) / 8) 0]
          ((w.bits_counter_ + len) % 8 / 8 + 1) = _
      rw [show (w.bits_counter_ + len) % 8 / 8 = 0 from by omega, List.append_assoc,
        resizeList_succ buffer1]
      rfl
  · rw [if_neg hfull]
    refine ⟨?_, ?_, ?_, ?_, rfl⟩
    · show w.bits_counter_ + len < 65536 * 8
      omega
    · show 8 * w.file_.length + (w.bits_counter_ + len) = _
      omega
    · show (w.bits_counter_ + len) % 8 = _
      omega
    · intro i hi
      exact htail i hi

theorem hold_step (sD last V x b len : Nat) (hb : b < 8) (hlen : len ≤ 8) (hl : last < 256)
    (hx : x < 2 ^ len) (hval : sD * 256 + last = V * 2 ^ (8 - b)) :
    (if b + len < 8 then sD * 256 + (last + x * 2 ^ (8 - len - b)) % 256
     else if b + len = 8 then (sD * 256 + (last + x) % 256) * 256 + 0
     else (sD * 256 + (last + x / 2 ^ (len + b - 8)) % 256) * 256
        + (x * 2 ^ (16 - len - b)) % 256)
      = (V * 2 ^ len + x) * 2 ^ (8 - (b + len) % 8) := by
  interval_cases b <;> interval_cases len <;> simp at hx hval ⊢ <;> omega

theorem streamVal_concat (l : List Nat) (a : Nat) : streamVal (l ++ [a]) = streamVal l * 256 + a := by
  unfold streamVal
  rw [List.foldl_append]
  rfl

theorem content_split (w : SequenceByteWriter) :
    w.content = (w.file_ ++ resizeList w.buffer_ (w.bits_counter_ / 8))
      ++ [w.buffer_.getD (w.bits_counter_ / 8) 0] := by
  unfold SequenceByteWriter.content
  rw [resizeList_succ, List.append_assoc]

theorem WriterHolds_WriteLess (w : SequenceByteWriter) (V n x len : Nat)
    (h : WriterHolds w V n) (hlen : len ≤ 8) (hx : x < 2 ^ len) :
    WriterHolds (w.WriteLess x len) (V * 2 ^ len + x) (n + len) := by
  obtain ⟨c1, c2, c3, c4, c5⟩ := WriteLess_content w x len hlen h.zero_tail
  have hb : w.bits_counter_ % 8 < 8 := Nat.mod_lt _ (by decide)
  have hsmall := h.small
  have hval := h.value
  rw [content_split] at hsmall hval
  rw [streamVal_concat] at hval
  have hlast : w.buffer_.getD (w.bits_counter_ / 8) 0 < 256 :=
    hsmall _ (List.mem_append_right _ (List.mem_singleton_self _))
  have hD : ∀ a ∈ w.file_ ++ resizeList w.buffer_ (w.bits_counter_ / 8), a < 256 :=
    fun a ha => hsmall a (List.mem_append_left _ ha)
  have hstep := hold_step _ _ V x _ len hb hlen hlast hx hval
  refine ⟨c1, c4, ?_, ?_, ?_⟩
  · intro a ha
    rw [c5] at ha
    rcases List.mem_append.1 ha with h1 | h1
    · exact hD a h1
    · split at h1
      · rw [List.mem_singleton] at h1
        rw [h1]; exact Nat.mod_lt _ (by decide)
      · split at h1
        · simp only [List.mem_cons, List.mem_singleton, List.not_mem_nil, or_false] at h1
          rcases h1 with h1 | h1
          · rw [h1]; exact Nat.mod_lt _ (by decide)
          · rw [h1]; decide
        · simp only [List.mem_cons, List.mem_singleton, List.not_mem_nil, or_false] at h1
          rcases h1 with h1 | h1
          · rw [h1]; exact Nat.mod_lt _ (by decide)
          · rw [h1]; exact Nat.mod_lt _ (by decide)
  · rw [c2, ← h.total]
  · rw [c5, c3, ← hstep]
    split
    · rw [streamVal_concat]
    · split
      · rw [show ∀ (l : List Nat) (a c : Nat), l ++ [a, c] = (l ++ [a]) ++ [c] from
          fun l a c => by simp, streamVal_concat, streamVal_concat]
      · rw [show ∀ (l : List Nat) (a c : Nat), l ++ [a, c] = (l ++ [a]) ++ [c] from
          fun l a c => by simp, streamVal_concat, streamVal_concat]

theorem WriterHolds_fresh : WriterHolds SequenceByteWriter.fresh 0 0 := by
  refine ⟨by decide, ?_, ?_, rfl, by decide⟩
  · intro i _
    show ([] : List Nat).getD i 0 = 0
    rfl
  · intro a ha
    have : a ∈ [0] := ha
    rw [List.mem_singleton] at this
    rw [this]; decide

theorem WriterHolds_WriteByte (w : SequenceByteWriter) (V n x : Nat) (h : WriterHolds w V n)
    (hx : x < 256) : WriterHolds (w.WriteByte x) (V * 2 ^ 8 + x) (n + 8) := by
  unfold SequenceByteWriter.WriteByte
  rw [Nat.mod_eq_of_lt hx]
  exact WriterHolds_WriteLess w V n x 8 h (Nat.le_refl _) hx

theorem WriterHolds_Write16Bit (w : SequenceByteWriter) (V n x : Nat) (h : WriterHolds w V n)
    (hx : x < 65536) : WriterHolds (w.Write16Bit x) (V * 2 ^ 16 + x) (n + 16) := by
  unfold SequenceByteWriter.Write16Bit
  dsimp only
  have h1 : (x % 2 ^ 32) &&& 65535 = x := by
    rw [Nat.mod_eq_of_lt (by omega), show (65535 : Nat) = 2 ^ 16 - 1 from rfl,
      Nat.and_pow_two_sub_one_eq_mod, Nat.mod_eq_of_lt hx]
  rw [h1, Nat.shiftRight_eq_div_pow, show (255 : Nat) = 2 ^ 8 - 1 from rfl,
    Nat.and_pow_two_sub_one_eq_mod]
  have h2 := WriterHolds_WriteByte w V n (x / 2 ^ 8) h (by omega)
  have h3 := WriterHolds_WriteByte _ _ _ (x % 2 ^ 8) h2 (by omega)
  have e1 : (V * 2 ^ 8 + x / 2 ^ 8) * 2 ^ 8 + x % 2 ^ 8 = V * 2 ^ 16 + x := by omega
  have e2 : n + 8 + 8 = n + 16 := by omega
  rw [e1, e2] at h3
  exact h3

theorem WriterHolds_perform (w : SequenceByteWriter) (V n : Nat) (op : WriteOp)
    (h : WriterHolds w V n) (hop : op.fits) :
    WriterHolds (op.perform w) (V * 2 ^ op.bits + op.value) (n + op.bits) := by
  cases op with
  | less x len => exact WriterHolds_WriteLess w V n x len h hop.1 hop.2
  | byte x => exact WriterHolds_WriteByte w V n x h hop
  | word x => exact WriterHolds_Write16Bit w V n x h hop

theorem WriterHolds_writeOps : ∀ (ops : List WriteOp) (w : SequenceByteWriter) (V n : Nat),
    WriterHolds w V n → (∀ op ∈ ops, op.fits) →
    WriterHolds (writeOps ops w) (opsVal V ops) (n + opsBits ops) := by
  intro ops
  induction ops with
  | nil =>
    intro w V n h _
    exact h
  | cons op rest ih =>
    intro w V n h hops
    have h1 := WriterHolds_perform w V n op h (hops op (List.mem_cons_self _ _))
    have h2 := ih _ _ _ h1 (fun o ho => hops o (List.mem_cons_of_mem _ ho))
    have e : n + op.bits + opsBits rest = n + opsBits (op :: rest) := by
      unfold opsBits
      rw [List.map_cons, List.sum_cons]
      omega
    rw [e] at h2
    exact h2

theorem close_of_holds (w : SequenceByteWriter) (V n : Nat) (h : WriterHolds w V n) :
    (∀ a ∈ w.close, a < 256) ∧ n ≤ 8 * w.close.length ∧ 8 * w.close.length < n + 8 ∧
      streamVal w.close = V * 2 ^ (8 * w.close.length - n) := by
  have hsmall := h.small
  have hval := h.value
  have htot := h.total
  rw [content_split] at hsmall
  rw [content_split, streamVal_concat] at hval
  have hlast : w.buffer_.getD (w.bits_counter_ / 8) 0 < 256 :=
    hsmall _ (List.mem_append_right _ (List.mem_singleton_self _))
  have hD : ∀ a ∈ w.file_ ++ resizeList w.buffer_ (w.bits_counter_ / 8), a < 256 :=
    fun a ha => hsmall a (List.mem_append_left _ ha)
  by_cases hb : w.bits_counter_ % 8 = 0
  · have hclose := close_of_aligned w hb
    rw [hb] at hval
    have hlen : 8 * (w.file_ ++ resizeList w.buffer_ (w.bits_counter_ / 8)).length = n := by
      rw [List.length_append, resizeList_length]
      omega
    rw [hclose, hlen, Nat.sub_self, pow_zero, Nat.mul_one]
    refine ⟨hD, Nat.le_refl _, by omega, ?_⟩
    have : (2 : Nat) ^ (8 - 0) = 256 := by norm_num
    rw [this] at hval
    omega
  · have hclose : w.close = w.content := by
      unfold SequenceByteWriter.close SequenceByteWriter.content
      rw [and_seven, if_pos (by omega), Nat.shiftRight_eq_div_pow _ 3]
    have hlen : 8 * w.content.length = n + (8 - w.bits_counter_ % 8) := by
      unfold SequenceByteWriter.content
      rw [List.length_append, resizeList_length]
      omega
    rw [hclose, hlen]
    refine ⟨h.small, by omega, by omega, ?_⟩
    rw [show n + (8 - w.bits_counter_ % 8) - n = 8 - w.bits_counter_ % 8 from by omega]
    exact h.value

theorem streamVal_getElem? : ∀ (S : List Nat), (∀ a ∈ S, a < 256) → ∀ j, j < S.length →
    S[j]? = some (streamVal S / 256 ^ (S.length - 1 - j) % 256) := by
  intro S
  induction S using List.reverseRecOn with
  | nil =>
    intro _ j hj
    exact absurd hj (Nat.not_lt_zero _)
  | append_singleton S a ih =>
    intro hS j hj
    rw [List.length_append, List.length_singleton] at hj
    have ha : a < 256 := hS a (List.mem_append_right _ (List.mem_singleton_self _))
    rw [streamVal_concat, List.length_append, List.length_singleton]
    by_cases hjl : j < S.length
    · rw [List.getElem?_append_left hjl, ih (fun b hb => hS b (List.mem_append_left _ hb)) j hjl]
      have e : S.length + 1 - 1 - j = (S.length - 1 - j) + 1 := by omega
      rw [e, pow_succ, Nat.mul_comm (256 ^ _) 256, ← Nat.div_div_eq_div_mul]
      have : (streamVal S * 256 + a) / 256 = streamVal S := by omega
      rw [this]
    · have hjeq : j = S.length := by omega
      subst hjeq
      rw [List.getElem?_append_right (Nat.le_refl _), Nat.sub_self]
      have e : S.length + 1 - 1 - S.length = 0 := by omega
      rw [e, pow_zero, Nat.div_one]
      have : (streamVal S * 256 + a) % 256 = a := by omega
      rw [this]
      rfl

theorem pow_split (m c : Nat) : 2 ^ (8 * m + c) = 256 ^ m * 2 ^ c := by
  rw [pow_add, pow_mul]
  norm_num

/-- The byte of `stream` at index `q`, by the bits behind it. -/
theorem byte_of_streamVal (S : List Nat) (hS : ∀ a ∈ S, a < 256) (q : Nat) (hq : q < S.length) :
    S[q]? = some (streamVal S / 2 ^ (8 * S.length - 8 * q - 8) % 256) := by
  rw [streamVal_getElem? S hS q hq]
  have e : 8 * S.length - 8 * q - 8 = 8 * (S.length - 1 - q) + 0 := by omega
  rw [e, pow_split, pow_zero, Nat.mul_one]

theorem div_pow_add (X a b : Nat) : X / 2 ^ (a + b) = X / 2 ^ a / 2 ^ b := by
  rw [pow_add, Nat.div_div_eq_div_mul]

theorem bit_arith (X b : Nat) (hb : b < 8) :
    (X % 256) / 2 ^ (7 - b) % 2 = X / 2 ^ (7 - b) % 2 := by
  interval_cases b <;> norm_num <;> omega

theorem bitField_eq (S : List Nat) (p len q c : Nat)
    (h : 8 * S.length - p - len = 8 * S.length - 8 * q - 8 + c) :
    bitField S p len = streamVal S / 2 ^ (8 * S.length - 8 * q - 8) / 2 ^ c % 2 ^ len := by
  unfold bitField
  rw [h, div_pow_add]

/-- `ReadBit` returns the bit at the position and moves one bit on. -/
theorem ReadBit_spec (S : List Nat) (hS : ∀ a ∈ S, a < 256) (p : Nat)
    (h1 : p + 1 ≤ 8 * S.length) (h2 : p + 1 ≤ 2 ^ 35) :
    ByteReader.ReadBit ⟨S, p⟩ = some (decide (bitField S p 1 ≠ 0), ⟨S, p + 1⟩) := by
  have hq : p / 8 < S.length := by omega
  have hq32 : p / 8 % 2 ^ 32 = p / 8 := Nat.mod_eq_of_lt (by omega)
  have hb : p % 8 < 8 := Nat.mod_lt _ (by decide)
  have hp1 : (p + 1) % 2 ^ 64 = p + 1 := Nat.mod_eq_of_lt (by omega)
  unfold ByteReader.ReadBit
  dsimp only
  rw [Nat.shiftRight_eq_div_pow p 3, show (2 : Nat) ^ 3 = 8 from rfl, hq32,
    byte_of_streamVal S hS (p / 8) hq, and_seven, hp1]
  dsimp only
  rw [bitField_eq S p 1 (p / 8) (7 - p % 8) (by omega), Nat.shiftRight_eq_div_pow,
    Nat.and_one_is_mod, bit_arith _ _ hb, pow_one]

theorem bitField_succ (S : List Nat) (p len : Nat) (h : p + len + 1 ≤ 8 * S.length) :
    bitField S p (len + 1) = bitField S p 1 * 2 ^ len + bitField S (p + 1) len := by
  unfold bitField
  have e1 : 8 * S.length - p - 1 = (8 * S.length - p - (len + 1)) + len := by omega
  have e2 : 8 * S.length - (p + 1) - len = 8 * S.length - p - (len + 1) := by omega
  rw [e1, e2, div_pow_add, Nat.mod_pow_succ, pow_one, Nat.mul_comm (2 ^ len), Nat.add_comm]

theorem bitField_zero (S : List Nat) (p : Nat) : bitField S p 0 = 0 := by
  unfold bitField
  rw [pow_zero, Nat.mod_one]

theorem bitField_lt (S : List Nat) (p len : Nat) : bitField S p len < 2 ^ len :=
  Nat.mod_lt _ (Nat.two_pow_pos len)

/-- `len` calls of `ReadBit` return the `len` bits at the position, most significant
first, and move `len` bits on. -/
theorem readBits_spec (S : List Nat) (hS : ∀ a ∈ S, a < 256) : ∀ (len p acc : Nat),
    p + len ≤ 8 * S.length → p + len ≤ 2 ^ 35 →
    readBits len ⟨S, p⟩ acc = some (acc * 2 ^ len + bitField S p len, ⟨S, p + len⟩) := by
  intro len
  induction len with
  | zero =>
    intro p acc _ _
    rw [bitField_zero]
    simp [readBits]
  | succ len ih =>
    intro p acc h1 h2
    have hbit := bitField_lt S p 1
    rw [pow_one] at hbit
    rw [readBits, ReadBit_spec S hS p (by omega) (by omega)]
    dsimp only
    rw [ih (p + 1) _ (by omega) (by omega), bitField_succ S p len (by omega)]
    have hb : (if decide (bitField S p 1 ≠ 0) = true then 1 else 0) = bitField S p 1 := by
      by_cases h0 : bitField S p 1 = 0
      · simp [h0]
      · have : bitField S p 1 = 1 := by omega
        simp [this]
    rw [hb]
    have e : p + 1 + len = p + (len + 1) := by omega
    rw [e]
    congr 2
    rw [pow_succ]
    ring

theorem or_add (i a t : Nat) (ht : t < 2 ^ i) : 2 ^ i * a ||| t = 2 ^ i * a + t :=
  (Nat.mul_add_lt_is_or ht a).symm

theorem low_bits_lt (c b : Nat) (hc : c < 256) (hb : b ≤ 8) : c / 2 ^ (8 - b) < 2 ^ b := by
  apply Nat.div_lt_of_lt_mul
  rw [← pow_add, show 8 - b + b = 8 from by omega]
  exact hc

theorem byte_arith (X b : Nat) (hb : 0 < b) (hb8 : b < 8) :
    (((X / 2 ^ 8 % 256) <<< b) ||| ((X % 256) >>> (8 - b))) % 256 = X / 2 ^ (8 - b) % 2 ^ 8 := by
  have hlt := low_bits_lt (X % 256) b (Nat.mod_lt _ (by decide)) (by omega)
  rw [Nat.shiftLeft_eq, Nat.shiftRight_eq_div_pow, Nat.mul_comm, or_add _ _ _ hlt]
  interval_cases b <;> norm_num <;> omega

theorem word_arith_zero (X : Nat) :
    (((X / 2 ^ 8 % 256) <<< (0 + 8)) ||| ((X % 256) <<< 0)) % 2 ^ 16 = X % 2 ^ 16 := by
  have hlt : X % 256 < 2 ^ 8 := Nat.mod_lt _ (by decide)
  rw [Nat.shiftLeft_eq, Nat.shiftLeft_eq, pow_zero, Nat.mul_one, Nat.zero_add, Nat.mul_comm,
    or_add _ _ _ hlt]
  norm_num
  omega

theorem word_arith (X b : Nat) (hb : 0 < b) (hb8 : b < 8) :
    ((((X / 2 ^ 16 % 256) <<< (b + 8)) ||| ((X / 2 ^ 8 % 256) <<< b)) % 2 ^ 16) |||
      (((X % 256) >>> (8 - b)) % 2 ^ 16) = X / 2 ^ (8 - b) % 2 ^ 16 := by
  have hlt := low_bits_lt (X % 256) b (Nat.mod_lt _ (by decide)) (by omega)
  have hm : X / 2 ^ 8 % 256 * 2 ^ b < 2 ^ (b + 8) := by
    rw [pow_add, Nat.mul_comm (2 ^ b)]
    exact Nat.mul_lt_mul_of_pos_right (Nat.mod_lt _ (by decide)) (Nat.two_pow_pos b)
  have e1 : ((X / 2 ^ 16 % 256) <<< (b + 8)) ||| ((X / 2 ^ 8 % 256) <<< b)
      = 2 ^ b * (256 * (X / 2 ^ 16 % 256) + X / 2 ^ 8 % 256) := by
    rw [Nat.shiftLeft_eq, Nat.shiftLeft_eq, Nat.mul_comm _ (2 ^ (b + 8)), or_add _ _ _ hm, pow_add]
    ring
  have e2 : ∀ Y, (2 ^ b * Y) % 2 ^ 16 = 2 ^ b * (Y % 2 ^ (16 - b)) := by
    intro Y
    rw [show (2 : Nat) ^ 16 = 2 ^ b * 2 ^ (16 - b) from by
      rw [← pow_add, show b + (16 - b) = 16 from by omega], Nat.mul_mod_mul_left]
  have e3 : ((X % 256) >>> (8 - b)) % 2 ^ 16 = (X % 256) / 2 ^ (8 - b) := by
    rw [Nat.shiftRight_eq_div_pow]
    apply Nat.mod_eq_of_lt
    exact Nat.lt_of_lt_of_le hlt (Nat.pow_le_pow_right (by decide) (by omega))
  rw [e1, e2, e3, or_add _ _ _ hlt]
  interval_cases b <;> norm_num <;> omega

/-- `ReadByte` returns the 8 bits at the position, whatever the bit offset, and moves 8
bits on. -/
theorem ReadByte_spec (S : List Nat) (hS : ∀ a ∈ S, a < 256) (p : Nat)
    (h1 : p + 8 ≤ 8 * S.length) (h2 : p + 8 ≤ 2 ^ 35) :
    ByteReader.ReadByte ⟨S, p⟩ = some (bitField S p 8, ⟨S, p + 8⟩) := by
  have hq : p / 8 < S.length := by omega
  have hq32 : p / 8 % 2 ^ 32 = p / 8 := Nat.mod_eq_of_lt (by omega)
  have hb8 : p % 8 < 8 := Nat.mod_lt _ (by decide)
  have hp8 : (p + 8) % 2 ^ 64 = p + 8 := Nat.mod_eq_of_lt (by omega)
  unfold ByteReader.ReadByte
  dsimp only
  rw [Nat.shiftRight_eq_div_pow p 3, show (2 : Nat) ^ 3 = 8 from rfl, hq32, and_seven, hp8]
  by_cases hb : p % 8 = 0
  · rw [if_pos hb, byte_of_streamVal S hS (p / 8) hq,
      bitField_eq S p 8 (p / 8) 0 (by omega), pow_zero, Nat.div_one]
    rfl
  · have hq1 : p / 8 + 1 < S.length := by omega
    have hq132 : (p / 8 + 1) % 2 ^ 32 = p / 8 + 1 := Nat.mod_eq_of_lt (by omega)
    have e : 8 * S.length - 8 * (p / 8) - 8 = (8 * S.length - 8 * (p / 8 + 1) - 8) + 8 := by
      omega
    rw [if_neg hb, hq132, byte_of_streamVal S hS (p / 8) hq,
      byte_of_streamVal S hS (p / 8 + 1) hq1, e, div_pow_add,
      bitField_eq S p 8 (p / 8 + 1) (8 - p % 8) (by omega),
      ← byte_arith _ _ (Nat.pos_of_ne_zero hb) hb8]
    rfl

/-- `Read16Bit` returns the 16 bits at the position, whatever the bit offset, and moves
16 bits on. -/
theorem Read16Bit_spec (S : List Nat) (hS : ∀ a ∈ S, a < 256) (p : Nat)
    (h1 : p + 16 ≤ 8 * S.length) (h2 : p + 16 ≤ 2 ^ 35) :
    ByteReader.Read16Bit ⟨S, p⟩ = some (bitField S p 16, ⟨S, p + 16⟩) := by
  have hq : p / 8 < S.length := by omega
  have hq1 : p / 8 + 1 < S.length := by omega
  have hq32 : p / 8 % 2 ^ 32 = p / 8 := Nat.mod_eq_of_lt (by omega)
  have hq132 : (p / 8 + 1) % 2 ^ 32 = p / 8 + 1 := Nat.mod_eq_of_lt (by omega)
  have hb8 : p % 8 < 8 := Nat.mod_lt _ (by decide)
  have hp16 : (p + 16) % 2 ^ 64 = p + 16 := Nat.mod_eq_of_lt (by omega)
  unfold ByteReader.Read16Bit
  dsimp only
  rw [Nat.shiftRight_eq_div_pow p 3, show (2 : Nat) ^ 3 = 8 from rfl, hq32, hq132, and_seven,
    hp16]
  by_cases hb : p % 8 = 0
  · have e : 8 * S.length - 8 * (p / 8) - 8 = (8 * S.length - 8 * (p / 8 + 1) - 8) + 8 := by
      omega
    rw [byte_of_streamVal S hS (p / 8) hq, byte_of_streamVal S hS (p / 8 + 1) hq1, e,
      div_pow_add, bitField_eq S p 16 (p / 8 + 1) 0 (by omega), pow_zero, Nat.div_one,
      ← word_arith_zero, hb]
    rfl
  · have hq2 : p / 8 + 2 < S.length := by omega
    have hq232 : (p / 8 + 2) % 2 ^ 32 = p / 8 + 2 := Nat.mod_eq_of_lt (by omega)
    have e0 : 8 * S.length - 8 * (p / 8) - 8 = (8 * S.length - 8 * (p / 8 + 2) - 8) + 16 := by
      omega
    have e1 : 8 * S.length - 8 * (p / 8 + 1) - 8 = (8 * S.length - 8 * (p / 8 + 2) - 8) + 8 := by
      omega
    rw [hq232, byte_of_streamVal S hS (p / 8) hq, byte_of_streamVal S hS (p / 8 + 1) hq1,
      byte_of_streamVal S hS (p / 8 + 2) hq2, e0, e1, div_pow_add, div_pow_add,
      bitField_eq S p 16 (p / 8 + 2) (8 - p % 8) (by omega),
      ← word_arith _ _ (Nat.pos_of_ne_zero hb) hb8]
    simp only [Option.bind_eq_bind, Option.some_bind, ne_eq, hb, not_false_eq_true, if_true]

/-- The reads that match a call return the bits at the position and move past them. -/
theorem WriteOp_read_spec (S : List Nat) (hS : ∀ a ∈ S, a < 256) (p : Nat) (op : WriteOp)
    (h1 : p + op.bits ≤ 8 * S.length) (h2 : p + op.bits ≤ 2 ^ 35) :
    op.read ⟨S, p⟩ = some (bitField S p op.bits, ⟨S, p + op.bits⟩) := by
  cases op with
  | less x len =>
    have h := readBits_spec S hS len p 0 h1 h2
    rw [Nat.zero_mul, Nat.zero_add] at h
    exact h
  | byte x => exact ReadByte_spec S hS p h1 h2
  | word x => exact Read16Bit_spec S hS p h1 h2

theorem opsVal_append (V : Nat) (A B : List WriteOp) :
    opsVal V (A ++ B) = opsVal (opsVal V A) B := by
  unfold opsVal
  rw [List.foldl_append]

theorem opsVal_cons (V : Nat) (op : WriteOp) (B : List WriteOp) :
    opsVal V (op :: B) = opsVal (V * 2 ^ op.bits + op.value) B := rfl

theorem opsBits_append (A B : List WriteOp) : opsBits (A ++ B) = opsBits A + opsBits B := by
  unfold opsBits
  rw [List.map_append, List.sum_append]

theorem opsBits_cons (op : WriteOp) (B : List WriteOp) :
    opsBits (op :: B) = op.bits + opsBits B := by
  unfold opsBits
  rw [List.map_cons, List.sum_cons]

theorem fits_value_lt (op : WriteOp) (h : op.fits) : op.value < 2 ^ op.bits := by
  cases op with
  | less x len => exact h.2
  | byte x => exact h
  | word x => exact h

/-- The number written by calls that fit: the number before, then the bits of the calls. -/
theorem opsVal_split : ∀ (ops : List WriteOp) (V : Nat), (∀ op ∈ ops, op.fits) →
    ∃ r, r < 2 ^ opsBits ops ∧ opsVal V ops = V * 2 ^ opsBits ops + r := by
  intro ops
  induction ops with
  | nil =>
    intro V _
    exact ⟨0, by simp [opsBits], by simp [opsVal, opsBits]⟩
  | cons op rest ih =>
    intro V hops
    obtain ⟨r, hr, hv⟩ := ih (V * 2 ^ op.bits + op.value)
      (fun o ho => hops o (List.mem_cons_of_mem _ ho))
    have hlt := fits_value_lt op (hops op (List.mem_cons_self _ _))
    refine ⟨op.value * 2 ^ opsBits rest + r, ?_, ?_⟩
    · rw [opsBits_cons, pow_add]
      calc op.value * 2 ^ opsBits rest + r
          < op.value * 2 ^ opsBits rest + 2 ^ opsBits rest := by omega
        _ = (op.value + 1) * 2 ^ opsBits rest := by ring
        _ ≤ 2 ^ op.bits * 2 ^ opsBits rest := Nat.mul_le_mul_right _ hlt
    · rw [opsVal_cons, hv, opsBits_cons, pow_add]
      ring

/-- The bits of a call in the flushed bytes: the call that follows the calls `A` has its
value at bit `opsBits A`. -/
theorem written_field (A C : List WriteOp) (op : WriteOp)
    (hfit : ∀ o ∈ A ++ op :: C, o.fits) :
    (∀ a ∈ (writeOps (A ++ op :: C) SequenceByteWriter.fresh).close, a < 256) ∧
    opsBits A + op.bits ≤ 8 * (writeOps (A ++ op :: C) SequenceByteWriter.fresh).close.length ∧
    bitField (writeOps (A ++ op :: C) SequenceByteWriter.fresh).close (opsBits A) op.bits
      = op.value := by
  have hw := WriterHolds_writeOps (A ++ op :: C) SequenceByteWriter.fresh 0 0
    WriterHolds_fresh hfit
  obtain ⟨hsmall, hle, _, hval⟩ := close_of_holds _ _ _ hw
  generalize (writeOps (A ++ op :: C) SequenceByteWriter.fresh).close = S at hsmall hle hval ⊢
  have hn : 0 + opsBits (A ++ op :: C) = opsBits A + op.bits + opsBits C := by
    rw [opsBits_append, opsBits_cons]
    omega
  rw [hn] at hle hval
  obtain ⟨r, hr, hC⟩ := opsVal_split C (opsVal 0 A * 2 ^ op.bits + op.value)
    (fun o ho => hfit o (List.mem_append_right _ (List.mem_cons_of_mem _ ho)))
  have hlt := fits_value_lt op (hfit op (List.mem_append_right _ (List.mem_cons_self _ _)))
  refine ⟨hsmall, by omega, ?_⟩
  unfold bitField
  have e : 8 * S.length - opsBits A - op.bits
      = (8 * S.length - (opsBits A + op.bits + opsBits C)) + opsBits C := by omega
  rw [e, div_pow_add, hval, opsVal_append, opsVal_cons, hC,
    Nat.mul_div_cancel _ (Nat.two_pow_pos _), Nat.add_comm _ r, Nat.add_mul_div_right _ _
      (Nat.two_pow_pos _), Nat.div_eq_of_lt hr, Nat.zero_add, Nat.add_comm,
    Nat.add_mul_mod_self_right, Nat.mod_eq_of_lt hlt]

/-- Reading back the calls `B` from the bit where they were written, in bytes flushed by
the calls `A ++ B ++ C`. -/
theorem readOps_spec : ∀ (B A C : List WriteOp) (S : List Nat),
    S = (writeOps (A ++ B ++ C) SequenceByteWriter.fresh).close →
    (∀ o ∈ A ++ B ++ C, o.fits) → opsBits (A ++ B) ≤ 2 ^ 35 →
    readOps B ⟨S, opsBits A⟩ = some (B.map WriteOp.value, ⟨S, opsBits (A ++ B)⟩) := by
  intro B
  induction B with
  | nil =>
    intro A C S _ _ _
    rw [List.append_nil]
    rfl
  | cons op B ih =>
    intro A C S hS hfit hsize
    have e1 : A ++ op :: B ++ C = A ++ op :: (B ++ C) := by
      rw [List.append_assoc, List.cons_append]
    have e2 : A ++ op :: B ++ C = (A ++ [op]) ++ B ++ C := by
      simp only [List.append_assoc, List.cons_append, List.nil_append]
    have e3 : A ++ op :: B = (A ++ [op]) ++ B := by
      simp only [List.append_assoc, List.cons_append, List.nil_append]
    have hb : opsBits (A ++ [op]) = opsBits A + op.bits := by
      rw [opsBits_append, opsBits_cons]
      simp [opsBits]
    have hsz : opsBits A + op.bits + opsBits B ≤ 2 ^ 35 := by
      rw [e3, opsBits_append, hb] at hsize
      exact hsize
    have hw := written_field A (B ++ C) op (by rw [← e1]; exact hfit)
    rw [← e1, ← hS] at hw
    obtain ⟨hsmall, hle, hval⟩ := hw
    have hrest := ih (A ++ [op]) C S (by rw [← e2]; exact hS) (by rw [← e2]; exact hfit)
      (by rw [← e3]; exact hsize)
    rw [hb] at hrest
    rw [readOps, WriteOp_read_spec S hsmall (opsBits A) op hle (by omega), hval]
    dsimp only
    rw [hrest, e3]
    rfl

theorem readOps_append : ∀ (A B : List WriteOp) (r r1 : ByteReader) (vs : List Nat),
    readOps A r = some (vs, r1) →
    readOps (A ++ B) r = (readOps B r1).map (fun x => (vs ++ x.1, x.2)) := by
  intro A
  induction A with
  | nil =>
    intro B r r1 vs h
    rw [readOps, Option.some.injEq, Prod.mk.injEq] at h
    rw [← h.1, ← h.2, List.nil_append]
    cases readOps B r with
    | none => rfl
    | some x => rfl
  | cons op A ih =>
    intro B r r1 vs h
    rw [List.cons_append, readOps]
    rw [readOps] at h
    cases hop : op.read r with
    | none => rw [hop] at h; exact absurd h (by simp)
    | some x =>
      obtain ⟨v, r0⟩ := x
      rw [hop] at h
      dsimp only at h ⊢
      cases hA : readOps A r0 with
      | none => rw [hA] at h; exact absurd h (by simp)
      | some y =>
        obtain ⟨ws, r2⟩ := y
        rw [hA] at h
        dsimp only at h
        rw [Option.some.injEq, Prod.mk.injEq] at h
        rw [ih B r0 r2 ws hA, ← h.1, ← h.2]
        cases readOps B r2 with
        | none => rfl
        | some z => rfl

theorem readOps_single (op : WriteOp) (r : ByteReader) :
    readOps [op] r = (op.read r).map (fun x => ([x.1], x.2)) := by
  rw [readOps]
  cases op.read r with
  | none => rfl
  | some x => rfl

theorem opsBits_replicate_byte (x : Nat) : ∀ N, opsBits (List.replicate N (WriteOp.byte x)) = 8 * N
  | 0 => rfl
  | N + 1 => by
    rw [List.replicate_succ, opsBits_cons, opsBits_replicate_byte x N]
    show 8 + 8 * N = 8 * (N + 1)
    omega

theorem opsVal_replicate_zero : ∀ N, opsVal 0 (List.replicate N (WriteOp.byte 0)) = 0
  | 0 => rfl
  | N + 1 => by
    rw [List.replicate_succ, opsVal_cons]
    exact opsVal_replicate_zero N

/-- Bytes written past 4 GiB are not read back: after `N = 2 ^ 32` zero bytes the byte 255
is read as the first byte of the stream. -/
theorem read_past_uint32 (N : Nat) (hN : 8 * N = 2 ^ 35) :
    (∀ o ∈ List.replicate N (WriteOp.byte 0) ++ [WriteOp.byte 255], o.fits) ∧
    readOps (List.replicate N (WriteOp.byte 0) ++ [WriteOp.byte 255])
      ⟨(writeOps (List.replicate N (WriteOp.byte 0) ++ [WriteOp.byte 255])
        SequenceByteWriter.fresh).close, 0⟩
      = some (List.replicate N 0 ++ [0],
          ⟨(writeOps (List.replicate N (WriteOp.byte 0) ++ [WriteOp.byte 255])
            SequenceByteWriter.fresh).close, 2 ^ 35 + 8⟩) ∧
    (List.replicate N (WriteOp.byte 0) ++ [WriteOp.byte 255]).map WriteOp.value
      = List.replicate N 0 ++ [255] ∧
    opsBits (List.replicate N (WriteOp.byte 0)) = 2 ^ 35 ∧
    (WriteOp.byte 255).read ((ByteReader.mk
        (writeOps (List.replicate N (WriteOp.byte 0) ++ [WriteOp.byte 255])
          SequenceByteWriter.fresh).close 0).SetPos (2 ^ 35))
      = some (0, ⟨(writeOps (List.replicate N (WriteOp.byte 0) ++ [WriteOp.byte 255])
          SequenceByteWriter.fresh).close, 2 ^ 35 + 8⟩) := by
  have hfit : ∀ o ∈ List.replicate N (WriteOp.byte 0) ++ [WriteOp.byte 255], o.fits := by
    intro o ho
    rw [List.mem_append] at ho
    rcases ho with ho | ho
    · rw [List.eq_of_mem_replicate ho]
      show (0 : Nat) < 256
      decide
    · rw [List.mem_singleton] at ho
      rw [ho]
      show (255 : Nat) < 256
      decide
  have hbits := opsBits_replicate_byte 0 N
  have hw := WriterHolds_writeOps (List.replicate N (WriteOp.byte 0) ++ [WriteOp.byte 255])
    SequenceByteWriter.fresh 0 0 WriterHolds_fresh hfit
  have hV : opsVal 0 (List.replicate N (WriteOp.byte 0) ++ [WriteOp.byte 255]) = 255 := by
    rw [opsVal_append, opsVal_replicate_zero]
    rfl
  have hn : 0 + opsBits (List.replicate N (WriteOp.byte 0) ++ [WriteOp.byte 255]) = 8 * N + 8 := by
    rw [opsBits_append, hbits]
    show 0 + (8 * N + (8 + 0)) = 8 * N + 8
    omega
  rw [hV, hn] at hw
  obtain ⟨hsmall, hle, hlt, hval⟩ := close_of_holds _ _ _ hw
  have hpre := readOps_spec (List.replicate N (WriteOp.byte 0)) [] [WriteOp.byte 255] _ rfl
    hfit (by rw [List.nil_append, hbits, hN])
  rw [List.nil_append, hbits, List.map_replicate, hN] at hpre
  have h0 : opsBits ([] : List WriteOp) = 0 := rfl
  rw [h0] at hpre
  generalize (writeOps (List.replicate N (WriteOp.byte 0) ++ [WriteOp.byte 255])
    SequenceByteWriter.fresh).close = S at hsmall hle hlt hval hpre ⊢
  have hlen : S.length = N + 1 := by omega
  have hsv : streamVal S = 255 := by
    rw [hval, hlen, show 8 * (N + 1) - (8 * N + 8) = 0 from by omega, pow_zero, Nat.mul_one]
  have hfirst : S[0]? = some 0 := by
    rw [byte_of_streamVal S hsmall 0 (by omega), hsv, hlen,
      show 8 * (N + 1) - 8 * 0 - 8 = 8 + (8 * N - 8) from by omega, div_pow_add,
      show (255 : Nat) / 2 ^ 8 = 0 from by decide, Nat.zero_div]
  have hread : ByteReader.ReadByte ⟨S, 2 ^ 35⟩ = some (0, ⟨S, 2 ^ 35 + 8⟩) := by
    unfold ByteReader.ReadByte
    dsimp only
    rw [show ((2 : Nat) ^ 35 >>> 3) % 2 ^ 32 = 0 from by decide,
      show ((2 : Nat) ^ 35 &&& 7) = 0 from by decide, if_pos rfl, hfirst,
      show ((2 : Nat) ^ 35 + 8) % 2 ^ 64 = 2 ^ 35 + 8 from by decide]
    rfl
  refine ⟨hfit, ?_, ?_, by rw [hbits, hN], ?_⟩
  · rw [readOps_append _ _ _ _ _ hpre, readOps_single,
      show (WriteOp.byte 255).read ⟨S, 2 ^ 35⟩ = ByteReader.ReadByte ⟨S, 2 ^ 35⟩ from rfl, hread,
      Option.map_some', Option.map_some']
    rfl
  · rw [List.map_append, List.map_replicate]
    rfl
  · show ByteReader.ReadByte ⟨S, 2 ^ 35 % 2 ^ 64⟩ = _
    rw [show (2 : Nat) ^ 35 % 2 ^ 64 = 2 ^ 35 from by decide]
    exact hread

/-- C21 (amended): values written by `WriteLess(x, len)` with `len ≤ 8` and `x < 2 ^ len`,
`WriteByte` and `Write16Bit` are read back in order by the matching `ReadBit` (`len` times),
`ReadByte` and `Read16Bit`, whatever bit offset each value starts at, as long as the reads
end at or before bit `2 ^ 35`; after `SetPos(p)` the position is `p`, the calls `B` written
at bit `p = opsBits A` are read back from there, and any read that stays in the stream and
below bit `2 ^ 35` returns the bits from `p` on. -/
theorem SequenceByteWriter_ByteReader_round_trip (A B C : List WriteOp) (q : Nat)
    (hfit : ∀ o ∈ A ++ B ++ C, o.fits) (hsize : opsBits (A ++ B) ≤ 2 ^ 35) :
    readOps (A ++ B) ⟨(writeOps (A ++ B ++ C) SequenceByteWriter.fresh).close, 0⟩
      = some ((A ++ B).map WriteOp.value,
          ⟨(writeOps (A ++ B ++ C) SequenceByteWriter.fresh).close, opsBits (A ++ B)⟩) ∧
    ((ByteReader.mk (writeOps (A ++ B ++ C) SequenceByteWriter.fresh).close q).SetPos
      (opsBits A)).Tellg = opsBits A ∧
    readOps B ((ByteReader.mk (writeOps (A ++ B ++ C) SequenceByteWriter.fresh).close q).SetPos
        (opsBits A))
      = some (B.map WriteOp.value,
          ⟨(writeOps (A ++ B ++ C) SequenceByteWriter.fresh).close, opsBits (A ++ B)⟩) ∧
    ∀ (p : Nat) (op : WriteOp),
      p + op.bits ≤ 8 * (writeOps (A ++ B ++ C) SequenceByteWriter.fresh).close.length →
      p + op.bits ≤ 2 ^ 35 →
      op.read ((ByteReader.mk (writeOps (A ++ B ++ C) SequenceByteWriter.fresh).close q).SetPos p)
        = some (bitField (writeOps (A ++ B ++ C) SequenceByteWriter.fresh).close p op.bits,
            ⟨(writeOps (A ++ B ++ C) SequenceByteWriter.fresh).close, p + op.bits⟩) := by
  have hA : opsBits A ≤ 2 ^ 35 := by
    rw [opsBits_append] at hsize
    omega
  have hpos : ∀ p, p ≤ 2 ^ 35 → ∀ S : List Nat, (ByteReader.mk S q).SetPos p = ⟨S, p⟩ := by
    intro p hp S
    unfold ByteReader.SetPos
    dsimp only
    rw [Nat.mod_eq_of_lt (by omega)]
  have hsmall := (close_of_holds _ _ _ (WriterHolds_writeOps (A ++ B ++ C)
    SequenceByteWriter.fresh 0 0 WriterHolds_fresh hfit)).1
  refine ⟨?_, ?_, ?_, ?_⟩
  · have h := readOps_spec (A ++ B) [] C _ rfl (by rw [List.nil_append]; exact hfit)
      (by rw [List.nil_append]; exact hsize)
    rw [List.nil_append] at h
    exact h
  · rw [hpos _ hA]
    rfl
  · rw [hpos _ hA]
    exact readOps_spec B A C _ rfl hfit hsize
  · intro p op h1 h2
    rw [hpos p (by omega)]
    exact WriteOp_read_spec _ hsmall p op h1 h2

theorem SequenceByteWriter_ByteReader_round_trip_witness :
    (∀ o ∈ [WriteOp.less 5 3, WriteOp.byte 200] ++ [WriteOp.word 40000, WriteOp.less 1 1]
        ++ [WriteOp.less 0 2, WriteOp.byte 7], o.fits) ∧
    opsBits ([WriteOp.less 5 3, WriteOp.byte 200] ++ [WriteOp.word 40000, WriteOp.less 1 1])
      ≤ 2 ^ 35 ∧
    readOps [WriteOp.word 40000, WriteOp.less 1 1]
        ((ByteReader.mk (writeOps ([WriteOp.less 5 3, WriteOp.byte 200]
          ++ [WriteOp.word 40000, WriteOp.less 1 1] ++ [WriteOp.less 0 2, WriteOp.byte 7])
          SequenceByteWriter.fresh).close 0).SetPos
          (opsBits [WriteOp.less 5 3, WriteOp.byte 200]))
      = some ([WriteOp.word 40000, WriteOp.less 1 1].map WriteOp.value,
          ⟨(writeOps ([WriteOp.less 5 3, WriteOp.byte 200]
            ++ [WriteOp.word 40000, WriteOp.less 1 1] ++ [WriteOp.less 0 2, WriteOp.byte 7])
            SequenceByteWriter.fresh).close,
           opsBits ([WriteOp.less 5 3, WriteOp.byte 200]
            ++ [WriteOp.word 40000, WriteOp.less 1 1])⟩) :=
  ⟨by simp [WriteOp.fits], by decide,
    (SequenceByteWriter_ByteReader_round_trip [WriteOp.less 5 3, WriteOp.byte 200]
      [WriteOp.word 40000, WriteOp.less 1 1] [WriteOp.less 0 2, WriteOp.byte 7] 0
      (by simp [WriteOp.fits]) (by decide)).2.2.1⟩

/-- C21 counterexample: after `2 ^ 32` calls `WriteByte(0)` the call `WriteByte(255)` writes
its byte at bit `2 ^ 35`; read in sequence, or after `SetPos(2 ^ 35)`, `ReadByte` takes the
byte index in a `uint32_t`, reads the first byte of the stream and returns 0. -/
theorem SequenceByteWriter_ByteReader_round_trip_counterexample :
    (∀ o ∈ List.replicate (2 ^ 32) (WriteOp.byte 0) ++ [WriteOp.byte 255], o.fits) ∧
    readOps (List.replicate (2 ^ 32) (WriteOp.byte 0) ++ [WriteOp.byte 255])
      ⟨(writeOps (List.replicate (2 ^ 32) (WriteOp.byte 0) ++ [WriteOp.byte 255])
        SequenceByteWriter.fresh).close, 0⟩
      = some (List.replicate (2 ^ 32) 0 ++ [0],
          ⟨(writeOps (List.replicate (2 ^ 32) (WriteOp.byte 0) ++ [WriteOp.byte 255])
            SequenceByteWriter.fresh).close, 2 ^ 35 + 8⟩) ∧
    (List.replicate (2 ^ 32) (WriteOp.byte 0) ++ [WriteOp.byte 255]).map WriteOp.value
      = List.replicate (2 ^ 32) 0 ++ [255] ∧
    opsBits (List.replicate (2 ^ 32) (WriteOp.byte 0)) = 2 ^ 35 ∧
    (WriteOp.byte 255).read ((ByteReader.mk
        (writeOps (List.replicate (2 ^ 32) (WriteOp.byte 0) ++ [WriteOp.byte 255])
          SequenceByteWriter.fresh).close 0).SetPos (2 ^ 35))
      = some (0, ⟨(writeOps (List.replicate (2 ^ 32) (WriteOp.byte 0) ++ [WriteOp.byte 255])
          SequenceByteWriter.fresh).close, 2 ^ 35 + 8⟩) :=
  read_past_uint32 (2 ^ 32) (by norm_num)


/-! ## Rounding of the decoded value (`Round`, `NumericalSquID::GetResultAttr`) -/

theorem roundHalfEven_down (x : ℚ) (f : Int) (h1 : (f : ℚ) ≤ x) (h2 : x < (f : ℚ) + 1 / 2) :
    roundHalfEven x = f := by
  have hf : ⌊x⌋ = f := by
    rw [Int.floor_eq_iff]
    constructor
    · exact h1
    · linarith
  unfold roundHalfEven
  rw [hf, if_pos (by linarith)]

theorem roundHalfEven_up (x : ℚ) (f : Int) (h1 : (f : ℚ) + 1 / 2 < x) (h2 : x < (f : ℚ) + 1) :
    roundHalfEven x = f + 1 := by
  have hf : ⌊x⌋ = f := by
    rw [Int.floor_eq_iff]
    constructor
    · linarith
    · exact h2
  unfold roundHalfEven
  rw [hf, if_neg (by linarith), if_pos (by linarith)]

theorem roundHalfEven_tie_odd (x : ℚ) (f : Int) (h1 : x = (f : ℚ) + 1 / 2) (h2 : f % 2 = 1) :
    roundHalfEven x = f + 1 := by
  have hf : ⌊x⌋ = f := by
    rw [Int.floor_eq_iff, h1]
    constructor <;> linarith
  unfold roundHalfEven
  rw [hf, h1, if_neg (by linarith), if_neg (by linarith), if_neg (by omega)]

theorem fl_pos_eval (x : ℚ) (e r : Int) (he1 : (2 : ℚ) ^ e ≤ x) (he2 : x < (2 : ℚ) ^ (e + 1))
    (hr : roundHalfEven (x * 2 ^ (52 - e)) = r) : fl x = (r : ℚ) * 2 ^ (e - 52) := by
  have hx : 0 < x := lt_of_lt_of_le (zpow_pos (by norm_num) e) he1
  unfold fl
  rw [if_neg hx.ne', if_neg (not_lt.2 hx.le), binExp_eq x e he1 he2, hr]

theorem Round_zero_formula (m : Int) (k : Nat) (hm : |m| + 2 ^ k < 2 ^ 53) :
    Round ((m : ℚ) / 2 ^ (k + 1)) 0
      = ((if 0 ≤ (m : ℚ) / 2 ^ (k + 1) then ⌊(m : ℚ) / 2 ^ (k + 1) + 1 / 2⌋
          else ⌈(m : ℚ) / 2 ^ (k + 1) - 1 / 2⌉ : Int) : ℚ) := by
  have hk : (0 : Int) < 2 ^ k := pow_pos (by norm_num) k
  have hmabs : |m| < 2 ^ 53 := by omega
  have hpow : (0 : ℚ) < 2 ^ (k + 1) := pow_pos (by norm_num) _
  have hxe : (m : ℚ) / 2 ^ (k + 1) = (m : ℚ) * 2 ^ (-((k : Int) + 1)) := by
    rw [zpow_neg, div_eq_mul_inv]
    norm_cast
  have hhalf : (1 : ℚ) / 2 = ((2 ^ k : Int) : ℚ) * 2 ^ (-((k : Int) + 1)) := by
    rw [zpow_neg]
    push_cast
    rw [show ((k : Int) + 1) = ((k + 1 : Nat) : Int) from by push_cast; rfl, zpow_natCast,
      pow_succ]
    field_simp
  have hflx : fl ((m : ℚ) / 2 ^ (k + 1)) = (m : ℚ) / 2 ^ (k + 1) := by
    rw [hxe]
    exact fl_dyadic m _ hmabs
  have hmx : |(m : ℚ) / 2 ^ (k + 1)| ≤ |(m : ℚ)| / 2 := by
    rw [abs_div, abs_of_pos hpow]
    apply div_le_div_of_nonneg_left (abs_nonneg _) (by norm_num)
    have : (1 : ℚ) ≤ 2 ^ k := one_le_pow₀ (by norm_num)
    rw [pow_succ]
    linarith
  have hmq : |(m : ℚ)| < 2 ^ 53 := by
    have : ((|m| : Int) : ℚ) < ((2 ^ 53 : Int) : ℚ) := by exact_mod_cast hmabs
    simpa using this
  unfold Round
  simp only [zpow_zero, fl_one, mul_one, div_one]
  rw [hflx]
  by_cases h : 0 ≤ (m : ℚ) / 2 ^ (k + 1)
  · rw [if_pos h, if_pos h]
    have hsum : fl ((m : ℚ) / 2 ^ (k + 1) + 1 / 2) = (m : ℚ) / 2 ^ (k + 1) + 1 / 2 := by
      have e : (m : ℚ) / 2 ^ (k + 1) + 1 / 2
          = ((m + 2 ^ k : Int) : ℚ) * 2 ^ (-((k : Int) + 1)) := by
        rw [hxe, hhalf]
        push_cast
        ring
      rw [e]
      apply fl_dyadic
      have := abs_add m (2 ^ k)
      rw [abs_of_pos hk] at this
      omega
    rw [hsum]
    have hnn : (0 : ℚ) ≤ (m : ℚ) / 2 ^ (k + 1) + 1 / 2 := by linarith
    unfold truncToInt
    rw [if_pos hnn]
    have hfl0 : (0 : Int) ≤ ⌊(m : ℚ) / 2 ^ (k + 1) + 1 / 2⌋ := Int.floor_nonneg.2 hnn
    have hfle := Int.floor_le ((m : ℚ) / 2 ^ (k + 1) + 1 / 2)
    have hx0 := abs_of_nonneg h
    have hbound : |⌊(m : ℚ) / 2 ^ (k + 1) + 1 / 2⌋| < 2 ^ 53 := by
      rw [abs_of_nonneg hfl0]
      have : ((⌊(m : ℚ) / 2 ^ (k + 1) + 1 / 2⌋ : Int) : ℚ) < ((2 ^ 53 : Int) : ℚ) := by
        push_cast
        linarith
      exact_mod_cast this
    rw [fl_intCast _ hbound, fl_intCast _ hbound]
  · rw [if_neg h, if_neg h]
    have hneg : (m : ℚ) / 2 ^ (k + 1) < 0 := lt_of_not_le h
    have hsum : fl ((m : ℚ) / 2 ^ (k + 1) + -(1 / 2)) = (m : ℚ) / 2 ^ (k + 1) + -(1 / 2) := by
      have e : (m : ℚ) / 2 ^ (k + 1) + -(1 / 2)
          = ((m - 2 ^ k : Int) : ℚ) * 2 ^ (-((k : Int) + 1)) := by
        rw [hxe, hhalf]
        push_cast
        ring
      rw [e]
      apply fl_dyadic
      have := abs_sub m (2 ^ k)
      rw [abs_of_pos hk] at this
      omega
    rw [hsum]
    have hnn : ¬ (0 : ℚ) ≤ (m : ℚ) / 2 ^ (k + 1) + -(1 / 2) := by linarith
    unfold truncToInt
    rw [if_neg hnn, ← sub_eq_add_neg]
    have hcl0 : ⌈(m : ℚ) / 2 ^ (k + 1) - 1 / 2⌉ ≤ 0 := by
      rw [Int.ceil_le]
      push_cast
      linarith
    have hcle := Int.le_ceil ((m : ℚ) / 2 ^ (k + 1) - 1 / 2)
    have hx0 := abs_of_neg hneg
    have hbound : |⌈(m : ℚ) / 2 ^ (k + 1) - 1 / 2⌉| < 2 ^ 53 := by
      rw [abs_of_nonpos hcl0]
      have : -((⌈(m : ℚ) / 2 ^ (k + 1) - 1 / 2⌉ : Int) : ℚ) < ((2 ^ 53 : Int) : ℚ) := by
        push_cast
        linarith
      exact_mod_cast this
    rw [fl_intCast _ hbound, fl_intCast _ hbound]

theorem round_half_away_props (x : ℚ) :
    |(((if 0 ≤ x then ⌊x + 1 / 2⌋ else ⌈x - 1 / 2⌉ : Int) : ℚ)) - x| ≤ 1 / 2 ∧
    (|(((if 0 ≤ x then ⌊x + 1 / 2⌋ else ⌈x - 1 / 2⌉ : Int) : ℚ)) - x| = 1 / 2 →
      |x| < |(((if 0 ≤ x then ⌊x + 1 / 2⌋ else ⌈x - 1 / 2⌉ : Int) : ℚ))|) := by
  by_cases h : 0 ≤ x
  · rw [if_pos h]
    have h1 := Int.floor_le (x + 1 / 2)
    have h2 := Int.lt_floor_add_one (x + 1 / 2)
    constructor
    · rw [abs_le]; constructor <;> linarith
    · intro ht
      have hn : (⌊x + 1 / 2⌋ : ℚ) - x = 1 / 2 := by
        rcases abs_eq (by norm_num : (0 : ℚ) ≤ 1 / 2) |>.1 ht with h3 | h3
        · exact h3
        · linarith
      rw [abs_of_nonneg h, abs_of_nonneg (by linarith)]
      linarith
  · rw [if_neg h]
    have h1 := Int.le_ceil (x - 1 / 2)
    have h2 := Int.ceil_lt_add_one (x - 1 / 2)
    have hx : x < 0 := lt_of_not_le h
    constructor
    · rw [abs_le]; constructor <;> linarith
    · intro ht
      have hn : (⌈x - 1 / 2⌉ : ℚ) - x = -(1 / 2) := by
        rcases abs_eq (by norm_num : (0 : ℚ) ≤ 1 / 2) |>.1 ht with h3 | h3
        · linarith
        · exact h3
      rw [abs_of_neg hx, abs_of_neg (by linarith)]
      linarith

theorem placesDown_small (bin : ℚ) (h : bin < 10) : placesDown 400 bin 0 = 0 := by
  rw [show (400 : Nat) = 399 + 1 from rfl, placesDown, if_neg]
  intro h1
  have : (10 : ℚ) ≤ bin := by
    have := mul_le_mul_of_nonneg_right h1 (by norm_num : (0 : ℚ) ≤ 10)
    simpa using this
  linarith

/-- C31 (amended): `Round(x, 0)` is `x` rounded to the nearest integer, ties away from
zero, for every `x = m / 2 ^ (k + 1)` with `|m| + 2 ^ k < 2 ^ 53`: the numbers for which
`x`, `x + 0.5` and `x - 0.5` are `double`s, so that no operation of `Round` rounds (the
`int64_t` conversion is in range). An integer target whose squid has `decimal_places_ = 0`,
as every squid built with a bin size below 10, is decoded by `GetResultAttr` as that
rounding of `mean_ + l_ * bin_size_` when this value is such an `x` (within the range of
`int`). -/
theorem Round_half_away_from_zero (m : Int) (k : Nat) (hm : |m| + 2 ^ k < 2 ^ 53) :
    ∃ n : Int, Round ((m : ℚ) / 2 ^ (k + 1)) 0 = n ∧
      n = (if 0 ≤ (m : ℚ) / 2 ^ (k + 1) then ⌊(m : ℚ) / 2 ^ (k + 1) + 1 / 2⌋
        else ⌈(m : ℚ) / 2 ^ (k + 1) - 1 / 2⌉) ∧
      |(n : ℚ) - (m : ℚ) / 2 ^ (k + 1)| ≤ 1 / 2 ∧
      (|(n : ℚ) - (m : ℚ) / 2 ^ (k + 1)| = 1 / 2 → |(m : ℚ) / 2 ^ (k + 1)| < |(n : ℚ)|) ∧
      |(n : ℚ)| < 2 ^ 63 ∧
      (∀ (bin : ℚ) (stats : NumericalStats), bin < 10 →
        ((NumericalSquID.create bin true).Init stats).target_int_ = true ∧
        ((NumericalSquID.create bin true).Init stats).decimal_places_ = 0) ∧
      ∀ (sq : NumericalSquID) (round : Bool), sq.target_int_ = true →
        sq.decimal_places_ = 0 → sq.HasNextBranch = false →
        sq.mean_ + sq.l_ * sq.bin_size_ = (m : ℚ) / 2 ^ (k + 1) →
        |(m : ℚ) / 2 ^ (k + 1)| + 1 / 2 < 2 ^ 31 →
        sq.GetResultAttr round = some (n : ℚ) ∧ |(n : ℚ)| < 2 ^ 31 := by
  have hk : (0 : Int) < 2 ^ k := pow_pos (by norm_num) k
  have hx62 : |(m : ℚ) / 2 ^ (k + 1)| < 2 ^ 62 := by
    have hpow : (0 : ℚ) < 2 ^ (k + 1) := pow_pos (by norm_num) _
    have hmq : |(m : ℚ)| < 2 ^ 53 := by
      have h1 : |m| < 2 ^ 53 := by omega
      have : ((|m| : Int) : ℚ) < ((2 ^ 53 : Int) : ℚ) := by exact_mod_cast h1
      simpa using this
    rw [abs_div, abs_of_pos hpow, div_lt_iff₀ hpow]
    have h2 : (2 : ℚ) ≤ 2 ^ (k + 1) := by
      have : (1 : ℚ) ≤ 2 ^ k := one_le_pow₀ (by norm_num)
      rw [pow_succ]
      linarith
    nlinarith
  obtain ⟨h1, h2⟩ := round_half_away_props ((m : ℚ) / 2 ^ (k + 1))
  have hf := Round_zero_formula m k hm
  generalize (m : ℚ) / 2 ^ (k + 1) = x at h1 h2 hf hx62
  generalize (if 0 ≤ x then ⌊x + 1 / 2⌋ else ⌈x - 1 / 2⌉ : Int) = n at h1 h2 hf
  have hbound : ∀ B : ℚ, |x| + 1 / 2 < B → |(n : ℚ)| < B := by
    intro B hB
    have h3 : |(n : ℚ)| ≤ |(n : ℚ) - x| + |x| := by
      have := abs_add ((n : ℚ) - x) x
      rwa [sub_add_cancel] at this
    linarith
  refine ⟨n, hf, rfl, h1, h2, hbound _ (by linarith), ?_, ?_⟩
  · intro bin stats hbin
    exact ⟨rfl, placesDown_small bin hbin⟩
  · intro sq round hti hdp hnext hval hsmall
    refine ⟨?_, hbound _ hsmall⟩
    unfold NumericalSquID.GetResultAttr
    rw [hnext, hti, hval, hdp, hf, truncToInt_intCast]
    rfl

theorem Round_half_away_from_zero_witness :
    |(5 : Int)| + 2 ^ 0 < 2 ^ 53 ∧ |(-5 : Int)| + 2 ^ 0 < 2 ^ 53 ∧
      Round (5 / 2) 0 = 3 ∧ Round (-5 / 2) 0 = -3 := by
  obtain ⟨n, h1, h2, _⟩ := Round_half_away_from_zero 5 0 (by decide)
  obtain ⟨j, h3, h4, _⟩ := Round_half_away_from_zero (-5) 0 (by decide)
  have e1 : ((5 : Int) : ℚ) / 2 ^ (0 + 1) = 5 / 2 := by norm_num
  have e2 : ((-5 : Int) : ℚ) / 2 ^ (0 + 1) = -5 / 2 := by norm_num
  rw [e1] at h1 h2
  rw [e2] at h3 h4
  have hn : n = 3 := by
    rw [h2, if_pos (by norm_num), Int.floor_eq_iff]
    norm_num
  have hj : j = -3 := by
    rw [h4, if_neg (by norm_num), Int.ceil_eq_iff]
    norm_num
  rw [h1, h3, hn, hj]
  exact ⟨by decide, by decide, by norm_num, by norm_num⟩

/-- The largest `double` below `1/2`, `0.49999999999999994 = 1/2 - 2^(-54)`: the sum with
`0.5` lies half-way between two `double`s and is rounded to 1, so `Round` returns 1, while
the nearest integer and the value of `trunc(x + 0.5)` over the rationals is 0. -/
theorem Round_below_half :
    |(1 / 2 - 1 / 2 ^ 54 : ℚ)| < 2 ^ 62 ∧ fl (1 / 2 - 1 / 2 ^ 54) = 1 / 2 - 1 / 2 ^ 54 ∧
    Round (1 / 2 - 1 / 2 ^ 54) 0 = 1 ∧
    (if (0 : ℚ) ≤ 1 / 2 - 1 / 2 ^ 54 then ⌊(1 / 2 - 1 / 2 ^ 54 : ℚ) + 1 / 2⌋
      else ⌈(1 / 2 - 1 / 2 ^ 54 : ℚ) - 1 / 2⌉) = 0 := by
  have hx : fl (1 / 2 - 1 / 2 ^ 54) = 1 / 2 - 1 / 2 ^ 54 := by
    have h := fl_dyadic (2 ^ 53 - 1) (-54) (by decide)
    have e : (((2 ^ 53 - 1 : Int)) : ℚ) * 2 ^ (-54 : Int) = 1 / 2 - 1 / 2 ^ 54 := by
      rw [zpow_neg]
      norm_num
    rwa [e] at h
  have hsum : fl (1 / 2 - 1 / 2 ^ 54 + 1 / 2) = 1 := by
    have hr : roundHalfEven ((1 / 2 - 1 / 2 ^ 54 + 1 / 2 : ℚ) * 2 ^ (52 - (-1 : Int)))
        = 9007199254740991 + 1 := by
      apply roundHalfEven_tie_odd
      · norm_num
      · decide
    rw [fl_pos_eval _ (-1) _ (by norm_num) (by norm_num) hr]
    norm_num
  refine ⟨?_, hx, ?_, ?_⟩
  · rw [abs_of_pos (by norm_num)]
    norm_num
  · unfold Round
    simp only [zpow_zero, fl_one, mul_one, div_one]
    rw [if_pos (by norm_num), hx, hsum]
    have ht : truncToInt (1 : ℚ) = 1 := by
      have := truncToInt_intCast 1
      simpa using this
    rw [ht]
    have h1 : fl ((1 : Int) : ℚ) = ((1 : Int) : ℚ) := fl_intCast 1 (by decide)
    rw [h1, h1]
    norm_num
  · rw [if_pos (by norm_num), Int.floor_eq_iff]
    norm_num

theorem fl_tenth : fl (10 ^ (-1 : Int)) = 3602879701896397 / 36028797018963968 := by
  have hr : roundHalfEven ((10 ^ (-1 : Int) : ℚ) * 2 ^ (52 - (-4 : Int)))
      = 7205759403792793 + 1 := by
    apply roundHalfEven_up <;> norm_num
  rw [fl_pos_eval _ (-4) _ (by norm_num) (by norm_num) hr]
  norm_num

theorem Round_sixteen : Round 16 (-1) = 20 := by
  have hprod : fl (16 * (3602879701896397 / 36028797018963968))
      = 3602879701896397 / 2251799813685248 := by
    have h := fl_dyadic 3602879701896397 (-51) (by decide)
    have e : ((3602879701896397 : Int) : ℚ) * 2 ^ (-51 : Int)
        = 16 * (3602879701896397 / 36028797018963968) := by
      rw [zpow_neg]
      norm_num
    rw [e] at h
    rw [h]
    norm_num
  have hsum : fl (3602879701896397 / 2251799813685248 + 1 / 2)
      = 4728779608739021 / 2251799813685248 := by
    have h := fl_dyadic 4728779608739021 (-51) (by decide)
    have e : ((4728779608739021 : Int) : ℚ) * 2 ^ (-51 : Int)
        = 3602879701896397 / 2251799813685248 + 1 / 2 := by
      rw [zpow_neg]
      norm_num
    rw [e] at h
    rw [h]
    norm_num
  have htrunc : truncToInt (4728779608739021 / 2251799813685248 : ℚ) = 2 := by
    unfold truncToInt
    rw [if_pos (by norm_num), Int.floor_eq_iff]
    norm_num
  have h2 : fl ((2 : Int) : ℚ) = ((2 : Int) : ℚ) := fl_intCast 2 (by decide)
  have hquot : fl (((2 : Int) : ℚ) / (3602879701896397 / 36028797018963968)) = 20 := by
    have hr : roundHalfEven ((((2 : Int) : ℚ) / (3602879701896397 / 36028797018963968))
        * 2 ^ (52 - (4 : Int))) = 5629499534213119 + 1 := by
      apply roundHalfEven_up <;> norm_num
    rw [fl_pos_eval _ 4 _ (by norm_num) (by norm_num) hr]
    norm_num
  unfold Round
  dsimp only
  rw [fl_tenth, if_pos (by norm_num), hprod, hsum, htrunc, h2, hquot]

theorem toBytes_sixteen : ConvertSinglePrecision.toBytes 16 = [65, 128, 0, 0] := by
  unfold ConvertSinglePrecision.toBytes
  rw [if_neg (by norm_num), if_neg (by norm_num), if_neg (by norm_num)]
  dsimp only
  rw [scaleUp_of_ge _ _ _ (by norm_num)]
  have hdown := scaleDown_pow 1 (le_refl _) (by norm_num) 4 1100 127 (by decide)
  rw [show (1 : ℚ) * 2 ^ 4 = 16 from by norm_num] at hdown
  rw [hdown]
  have h : ⌊(1 : ℚ) * 2 ^ 23 + 1 / 2⌋ = 2 ^ 23 := by
    rw [Int.floor_eq_iff]; norm_num
  simp only [h]
  decide

theorem QuantizationToFloat32Bit_sixteen : QuantizationToFloat32Bit 16 = 16 := by
  unfold QuantizationToFloat32Bit
  rw [toBytes_sixteen]
  unfold ConvertSinglePrecision.ofBytes
  simp only [List.getD_cons_zero, List.getD_cons_succ]
  rw [show ((65 &&& 127) * 2 + (128 >>> 7 &&& 1) : Nat) = 131 from by decide,
    show ((128 &&& 127) <<< 16 + 0 <<< 8 + 0 : Nat) = 0 from by decide,
    show (65 &&& 128 : Nat) = 0 from by decide]
  norm_num

theorem placesDown_sixteen : placesDown 400 16 0 = -1 := by
  rw [show (400 : Nat) = 398 + 1 + 1 from rfl, placesDown, if_pos (by norm_num), placesDown,
    if_neg (by norm_num)]
  norm_num

theorem int_model_sixteen_decodes_twenty :
    ∀ (d0 : Decoder) (rest : List Nat) (room : Nat), ∃ m bs sq1 sq2 d,
      ((TableNumericalIntCreator.CreateModel 8).FeedAttrs 0 1).bind TableNumerical.EndOfData
        = some m ∧
      m.GetSquID.target_int_ = true ∧ m.GetSquID.decimal_places_ = -1 ∧
      m.GetSquID.GetProbIntervals 16 (room + 2) = some (bs, sq1) ∧
      m.GetSquID.Decompress d0.InitProbInterval (DelayedCoding bs ++ rest)
        = some (sq2, d, rest) ∧
      sq2.HasNextBranch = false ∧ sq2.mean_ + sq2.l_ * sq2.bin_size_ = 16 ∧
      sq2.GetResultAttr true = some 20 ∧ sq2.GetResultAttr false = some 20 := by
  intro d0 rest room
  obtain ⟨t, slots, hok, hend⟩ := TableNumerical_single 16 (by norm_num) true
  have hcreate : TableNumericalIntCreator.CreateModel 8 = TableNumerical.create 16 true := by
    unfold TableNumericalIntCreator.CreateModel
    have : ⌊(2 : ℚ) * 8⌋ = 16 := by
      rw [Int.floor_eq_iff]; norm_num
    rw [this]
    norm_num
  rw [← hcreate] at hend
  generalize hm : TableNumerical.mk true 16 (NumericalStats.mk 0 1 0
    (List.replicate 512 128) t true 1 [0] (List.replicate kNumBranch 1) (-256) 255 0 0 0 0
    65536 16) (NumericalSquID.create 16 true) = m at hend
  have hmean : m.GetSquID.mean_ = 0 := by rw [← hm]; rfl
  have hdev : m.GetSquID.dev_ = 0 := by rw [← hm]; rfl
  have hmax : m.GetSquID.maximum_ = 255 := by rw [← hm]; rfl
  have hmin : m.GetSquID.minimum_ = -256 := by rw [← hm]; rfl
  have hbb : m.GetSquID.branch_bins_ = 1 := by rw [← hm]; rfl
  have hnl : m.GetSquID.num_layer_ = 0 := by rw [← hm]; rfl
  have hml : m.GetSquID.mask_last_layer_ = 0 := by rw [← hm]; rfl
  have hwl : m.GetSquID.weight_branch_last_layer_ = 65536 := by rw [← hm]; rfl
  have hcp : m.GetSquID.coding_params_ = t := by rw [← hm]; rfl
  have hti : m.GetSquID.target_int_ = true := by rw [← hm]; rfl
  have hbin : m.GetSquID.bin_size_ = 16 := by rw [← hm]; exact QuantizationToFloat32Bit_sixteen
  have hpl : m.GetSquID.decimal_places_ = -1 := by rw [← hm]; exact placesDown_sixteen
  have hidx : m.GetSquID.GetBinIndex 16 = 1 := by
    unfold NumericalSquID.GetBinIndex
    rw [hmean, hbin, Int.floor_eq_iff]
    norm_num
  obtain ⟨bs, sq1, d, hgp, hdec⟩ := NumericalSquID_histogram m.GetSquID
    (List.replicate 512 128) slots (by rw [hcp]; exact hok) 128 16
    (by rw [hidx]; exact replicate_getElem?_of_lt _ _ _ (by decide)) (by norm_num)
    hbb hnl hml hwl (by rw [hidx, hmax]; decide) (by rw [hmax])
    (by rw [hidx, hmin, hbb]; decide) (by rw [hmin]) d0 rest room
  rw [hidx] at hdec
  have hnext := HasNextBranch_of_dev_zero _
    (show (((m.GetSquID.Reset).SetLeft 1).SetRight 1).dev_ = 0 from hdev)
  have hval : (((m.GetSquID.Reset).SetLeft 1).SetRight 1).mean_
      + ((((m.GetSquID.Reset).SetLeft 1).SetRight 1).l_ : ℚ)
        * (((m.GetSquID.Reset).SetLeft 1).SetRight 1).bin_size_ = 16 := by
    show m.GetSquID.mean_ + ((1 : Int) : ℚ) * m.GetSquID.bin_size_ = 16
    rw [hmean, hbin]
    norm_num
  have hr : Round 16 (-1) = 20 := Round_sixteen
  have hres : (((m.GetSquID.Reset).SetLeft 1).SetRight 1).GetResultAttr true = some 20 := by
    unfold NumericalSquID.GetResultAttr
    rw [hnext, hval]
    simp only [NumericalSquID.SetLeft, NumericalSquID.SetRight, NumericalSquID.Reset,
      Bool.not_false, if_true, hti, hpl, hr]
    rw [show (20 : ℚ) = ((20 : Int) : ℚ) from by norm_num, truncToInt_intCast]
  have hres2 : (((m.GetSquID.Reset).SetLeft 1).SetRight 1).GetResultAttr false = some 20 := by
    unfold NumericalSquID.GetResultAttr
    rw [hnext, hval]
    simp only [NumericalSquID.SetLeft, NumericalSquID.SetRight, NumericalSquID.Reset,
      Bool.not_false, if_true, hti, hpl, hr]
    rw [show (20 : ℚ) = ((20 : Int) : ℚ) from by norm_num, truncToInt_intCast]
  exact ⟨m, bs, sq1, _, d, hend, hti, hpl, hgp, hdec, hnext, hval, hres, hres2⟩

/-- C31 counterexample: first, `x = 0.49999999999999994`, the largest `double` below `1/2`,
has magnitude below `2^62` and `Round(x, 0) = 1` (the sum `x + 0.5` is rounded to the
`double` 1), while the nearest integer, and `trunc(x + 0.5)` over the rationals, is 0.
Second, an integer model created with allowed error 8 (bin size 16, so
`decimal_places_ = -1`) and learned from the single value 0 codes the value 16 in bin 1;
`Decompress` ends with `mean_ + l_ * bin_size_ = 16` and `GetResultAttr` returns
`Round(16, -1) = 20`, the nearest multiple of 10, not 16. -/
theorem Round_half_away_from_zero_counterexample :
    (|(1 / 2 - 1 / 2 ^ 54 : ℚ)| < 2 ^ 62 ∧ fl (1 / 2 - 1 / 2 ^ 54) = 1 / 2 - 1 / 2 ^ 54 ∧
      Round (1 / 2 - 1 / 2 ^ 54) 0 = 1 ∧
      (if (0 : ℚ) ≤ 1 / 2 - 1 / 2 ^ 54 then ⌊(1 / 2 - 1 / 2 ^ 54 : ℚ) + 1 / 2⌋
        else ⌈(1 / 2 - 1 / 2 ^ 54 : ℚ) - 1 / 2⌉) = 0) ∧
    ∃ m bs sq1 sq2 d,
      ((TableNumericalIntCreator.CreateModel 8).FeedAttrs 0 1).bind TableNumerical.EndOfData
        = some m ∧
      m.GetSquID.target_int_ = true ∧ m.GetSquID.decimal_places_ = -1 ∧
      m.GetSquID.GetProbIntervals 16 10256 = some (bs, sq1) ∧
      m.GetSquID.Decompress (Decoder.InitProbInterval ⟨0, 1, 0, false, 0⟩) (DelayedCoding bs ++ [7])
        = some (sq2, d, [7]) ∧
      sq2.HasNextBranch = false ∧ sq2.mean_ + sq2.l_ * sq2.bin_size_ = 16 ∧
      sq2.GetResultAttr true = some 20 ∧ sq2.GetResultAttr false = some 20 :=
  ⟨Round_below_half, int_model_sixteen_decodes_twenty ⟨0, 1, 0, false, 0⟩ [7] 10254⟩


/-! ## `DynamicList`: a dense row-major array -/

theorem inRange_length : ∀ (cs xs : List Nat), inRange cs xs → xs.length = cs.length
  | [], [], _ => rfl
  | [], _ :: _, h => h.elim
  | _ :: _, [], h => h.elim
  | _ :: cs, _ :: xs, h => by
    rw [List.length_cons, List.length_cons, inRange_length cs xs h.2]

theorem inRange_pos : ∀ (cs xs : List Nat), inRange cs xs → ∀ c ∈ cs, 1 ≤ c
  | [], [], _ => by intro c hc; simp at hc
  | [], _ :: _, h => h.elim
  | _ :: _, [], h => h.elim
  | c0 :: cs, x :: xs, h => by
    intro c hc
    rcases List.mem_cons.1 hc with hc | hc
    · rw [hc]; have := h.1; omega
    · exact inRange_pos cs xs h.2 c hc

theorem prod_pos_of_pos : ∀ (cs : List Nat), (∀ c ∈ cs, 1 ≤ c) → 1 ≤ cs.prod
  | [], _ => by simp
  | c :: cs, h => by
    rw [List.prod_cons]
    have h1 := h c (List.mem_cons_self _ _)
    have h2 := prod_pos_of_pos cs (fun x hx => h x (List.mem_cons_of_mem _ hx))
    exact Nat.mul_pos h1 h2

theorem rowMajor_lt : ∀ (cs xs : List Nat), inRange cs xs → rowMajor cs xs < cs.prod
  | [], [], _ => by simp [rowMajor]
  | [], _ :: _, h => h.elim
  | _ :: _, [], h => h.elim
  | c :: cs, x :: xs, h => by
    have ih := rowMajor_lt cs xs h.2
    have hx := h.1
    rw [List.prod_cons]
    show x * cs.prod + rowMajor cs xs < c * cs.prod
    calc x * cs.prod + rowMajor cs xs < x * cs.prod + cs.prod := by omega
      _ = (x + 1) * cs.prod := by ring
      _ ≤ c * cs.prod := Nat.mul_le_mul_right _ hx

theorem rowMajor_inj : ∀ (cs xs ys : List Nat), inRange cs xs → inRange cs ys →
    rowMajor cs xs = rowMajor cs ys → xs = ys
  | [], [], [], _, _, _ => rfl
  | [], _ :: _, _, h, _, _ => h.elim
  | [], [], _ :: _, _, h, _ => h.elim
  | _ :: _, [], _, h, _, _ => h.elim
  | _ :: _, _ :: _, [], _, h, _ => h.elim
  | c :: cs, x :: xs, y :: ys, hx, hy, h => by
    have h1 := rowMajor_lt cs xs hx.2
    have h2 := rowMajor_lt cs ys hy.2
    have h3 : x * cs.prod + rowMajor cs xs = y * cs.prod + rowMajor cs ys := h
    have hxy : x = y := by
      rcases Nat.lt_trichotomy x y with hlt | heq | hgt
      · exfalso
        have : (x + 1) * cs.prod ≤ y * cs.prod := Nat.mul_le_mul_right _ hlt
        have e : (x + 1) * cs.prod = x * cs.prod + cs.prod := by ring
        omega
      · exact heq
      · exfalso
        have : (y + 1) * cs.prod ≤ x * cs.prod := Nat.mul_le_mul_right _ hgt
        have e : (y + 1) * cs.prod = y * cs.prod + cs.prod := by ring
        omega
    subst hxy
    have h4 : rowMajor cs xs = rowMajor cs ys := by omega
    rw [rowMajor_inj cs xs ys hx.2 hy.2 h4]

theorem toI32_of_small (n : Nat) (h : n < 2 ^ 31) : toI32 n = n := by
  unfold toI32
  rw [Nat.mod_eq_of_lt (by omega), if_pos h]

theorem sizeLoop_spec : ∀ (caps : List Nat) (size : Nat), 1 ≤ size → (∀ c ∈ caps, 1 ≤ c) →
    size * caps.prod < 2 ^ 31 →
    DynamicList.sizeLoop caps (size : Int) = some ((size * caps.prod : Nat) : Int)
  | [], size, _, _, _ => by
    rw [List.prod_nil, Nat.mul_one]
    rfl
  | c :: cs, size, hs, hc, hlt => by
    rw [List.prod_cons] at hlt ⊢
    have h1 := hc c (List.mem_cons_self _ _)
    have h2 := prod_pos_of_pos cs (fun x hx => hc x (List.mem_cons_of_mem _ hx))
    have hsc : size * c ≤ size * (c * cs.prod) :=
      Nat.mul_le_mul_left _ (Nat.le_mul_of_pos_right _ h2)
    have hcs : c ≤ size * c := Nat.le_mul_of_pos_left _ hs
    unfold DynamicList.sizeLoop
    dsimp only
    rw [toI32_of_small c (by omega)]
    have hcast : (size : Int) * (c : Int) = ((size * c : Nat) : Int) := by push_cast; rfl
    rw [hcast, if_pos (by constructor <;> omega),
      sizeLoop_spec cs (size * c) (Nat.mul_pos hs h1)
        (fun x hx => hc x (List.mem_cons_of_mem _ hx)) (by rw [Nat.mul_assoc]; exact hlt),
      Nat.mul_assoc]

theorem posLoop_spec (caps index : List Nat) : ∀ (k i pos : Nat), i + k = caps.length →
    inRange (caps.drop i) (index.drop i) →
    pos * (caps.drop i).prod + rowMajor (caps.drop i) (index.drop i) < 2 ^ 64 →
    DynamicList.posLoop caps index k i pos
      = some (pos * (caps.drop i).prod + rowMajor (caps.drop i) (index.drop i)) := by
  intro k
  induction k with
  | zero =>
    intro i pos hi _ _
    have hd : caps.drop i = [] := List.drop_eq_nil_of_le (by omega)
    rw [hd]
    simp [DynamicList.posLoop, rowMajor]
  | succ k ih =>
    intro i pos hi hin hlt
    have hil : i < caps.length := by omega
    have hd : caps.drop i = caps[i] :: caps.drop (i + 1) := List.drop_eq_getElem_cons hil
    rw [hd] at hin hlt ⊢
    cases hx : index.drop i with
    | nil => rw [hx] at hin; exact hin.elim
    | cons x xs =>
      rw [hx] at hin hlt
      have hxs : index.drop (i + 1) = xs := by
        have := congrArg List.tail hx
        rwa [List.tail_drop, List.tail_cons] at this
      have hxi : index[i]? = some x := by
        have := congrArg (fun l => l[0]?) hx
        simpa [List.getElem?_drop] using this
      have hci : caps[i]? = some caps[i] := List.getElem?_eq_getElem hil
      have hrm : rowMajor (caps[i] :: caps.drop (i + 1)) (x :: xs)
          = x * (caps.drop (i + 1)).prod + rowMajor (caps.drop (i + 1)) xs := rfl
      rw [hrm, List.prod_cons] at hlt
      rw [hrm, List.prod_cons]
      have hP := prod_pos_of_pos _ (inRange_pos _ _ hin.2)
      have hstep : pos * caps[i] + x < 2 ^ 64 := by
        have : pos * caps[i] + x ≤ (pos * caps[i] + x) * (caps.drop (i + 1)).prod :=
          Nat.le_mul_of_pos_right _ hP
        have e : (pos * caps[i] + x) * (caps.drop (i + 1)).prod
            = pos * (caps[i] * (caps.drop (i + 1)).prod) + x * (caps.drop (i + 1)).prod := by
          ring
        omega
      unfold DynamicList.posLoop
      rw [hci, hxi]
      dsimp only
      rw [Nat.mod_eq_of_lt hstep, ih (i + 1) _ (by omega) (by rw [hxs]; exact hin.2)
        (by rw [hxs]; calc _ = pos * (caps[i] * (caps.drop (i + 1)).prod)
              + (x * (caps.drop (i + 1)).prod + rowMajor (caps.drop (i + 1)) xs) := by ring
            _ < 2 ^ 64 := hlt), hxs]
      congr 1
      ring

theorem DynamicList_pos_spec {α : Type} (l : DynamicList α) (caps index : List Nat)
    (hcap : l.index_cap_ = caps) (hsize : l.index_cap_size_ = caps.length)
    (hlen : caps.length < 2 ^ 31) (hprod : caps.prod < 2 ^ 31) (hin : inRange caps index) :
    l.pos index = some (rowMajor caps index) := by
  have hlt := rowMajor_lt caps index hin
  have hn : toU64 ((caps.length : Nat) : Int) = caps.length := by
    unfold toU64
    omega
  unfold DynamicList.pos
  rw [hcap, hsize, hn]
  have h := posLoop_spec caps index caps.length 0 0 (by omega)
    (by rw [List.drop_zero, List.drop_zero]; exact hin)
    (by rw [List.drop_zero, List.drop_zero, Nat.zero_mul, Nat.zero_add]; omega)
  rw [List.drop_zero, List.drop_zero, Nat.zero_mul, Nat.zero_add] at h
  exact h

/-- C40 (amended): a `DynamicList` built for capacities whose product is below `2 ^ 31`
(the size is computed in an `int`) has exactly that many elements; for every index vector
in range `operator[]` selects the row-major position, which lies inside the storage, and
index vectors in range that select the same position are equal. -/
theorem DynamicList_row_major {α : Type} (init : α) (caps index : List Nat)
    (hlen : caps.length < 2 ^ 31) (hprod : caps.prod < 2 ^ 31) (hin : inRange caps index) :
    ∃ l, DynamicList.create init caps = some l ∧ l.dynamic_list_.length = caps.prod ∧
      l.pos index = some (rowMajor caps index) ∧ rowMajor caps index < caps.prod ∧
      l.get index = some init ∧
      ∀ index2, inRange caps index2 → l.pos index2 = l.pos index → index2 = index := by
  have hpos := inRange_pos caps index hin
  have hsz := sizeLoop_spec caps 1 (le_refl _) hpos (by rw [Nat.one_mul]; exact hprod)
  rw [Nat.one_mul] at hsz
  have hlt := rowMajor_lt caps index hin
  have hcreate : DynamicList.create init caps
      = some ⟨List.replicate caps.prod init, caps, (caps.length : Int)⟩ := by
    unfold DynamicList.create
    rw [show (1 : Int) = ((1 : Nat) : Int) from rfl, hsz]
    dsimp only
    rw [if_neg (by omega), Int.toNat_ofNat, toI32_of_small _ hlen]
  have hp : ∀ ix, inRange caps ix →
      (DynamicList.mk (List.replicate caps.prod init) caps (caps.length : Int)).pos ix
        = some (rowMajor caps ix) :=
    fun ix hix => DynamicList_pos_spec _ caps ix rfl rfl hlen hprod hix
  refine ⟨_, hcreate, List.length_replicate _ _, hp index hin, hlt, ?_, ?_⟩
  · unfold DynamicList.get
    rw [hp index hin]
    dsimp only
    rw [List.getElem?_replicate, if_pos hlt]
  · intro index2 hin2 h
    rw [hp index hin, hp index2 hin2, Option.some.injEq] at h
    exact rowMajor_inj caps index2 index hin2 hin h

theorem DynamicList_row_major_witness :
    ([4, 4, 4] : List Nat).length < 2 ^ 31 ∧ ([4, 4, 4] : List Nat).prod < 2 ^ 31 ∧
    inRange [4, 4, 4] [1, 0, 2] ∧
    ∃ l, DynamicList.create (0 : Nat) [4, 4, 4] = some l ∧
      l.dynamic_list_.length = ([4, 4, 4] : List Nat).prod ∧
      l.pos [1, 0, 2] = some (rowMajor [4, 4, 4] [1, 0, 2]) ∧
      rowMajor [4, 4, 4] [1, 0, 2] < ([4, 4, 4] : List Nat).prod ∧
      l.get [1, 0, 2] = some 0 ∧
      ∀ index2, inRange [4, 4, 4] index2 → l.pos index2 = l.pos [1, 0, 2] →
        index2 = [1, 0, 2] :=
  ⟨by decide, by decide, ⟨by decide, by decide, by decide, trivial⟩,
    DynamicList_row_major (0 : Nat) [4, 4, 4] [1, 0, 2] (by decide) (by decide)
      ⟨by decide, by decide, by decide, trivial⟩⟩

/-- C40 counterexample: for the capacities 65536 and 32768 the product `2 ^ 31` does not
fit the `int size` of the constructor, so no array of that size is allocated, although the
index vector `[0, 0]` is in range. -/
theorem DynamicList_row_major_counterexample :
    inRange [65536, 32768] [0, 0] ∧ ([65536, 32768] : List Nat).prod = 2 ^ 31 ∧
    DynamicList.sizeLoop [65536, 32768] 1 = none ∧
    DynamicList.create (0 : Nat) [65536, 32768] = none := by
  refine ⟨⟨by decide, by decide, trivial⟩, by decide, by decide, ?_⟩
  unfold DynamicList.create
  rw [show DynamicList.sizeLoop [65536, 32768] 1 = none from by decide]

/-! ## Safety of the table construction -/

theorem arrangeNewly_of_step (nb : Nat) (S L : List (Int × Nat))
    (slot : (Int × Nat) × (Int × Nat)) (S1 L1 : List (Int × Nat))
    (h : arrangeStep nb S L = some (slot, S1, L1)) :
    ∃ n, arrangeNewly nb S L = some n ∧ n ∈ S1 ++ L1 := by
  have hre : ∀ (newly : Int × Nat) (S' L' : List (Int × Nat)),
      newly ∈ (reinsert nb newly S' L').1 ++ (reinsert nb newly S' L').2 := by
    intro newly S' L'
    unfold reinsert
    split
    · exact List.mem_append_left _ (List.mem_cons_self _ _)
    · exact List.mem_append_right _ (List.mem_cons_self _ _)
  cases S with
  | nil =>
    cases L with
    | nil => simp [arrangeStep] at h
    | cons l L' =>
      simp only [arrangeStep, Option.some.injEq, Prod.mk.injEq] at h
      refine ⟨_, rfl, ?_⟩
      have := hre (l.1 - slotWidth nb, l.2) [] L'
      rw [h.2] at this
      exact this
  | cons s S' =>
    cases L with
    | nil => simp [arrangeStep] at h
    | cons l L' =>
      simp only [arrangeStep, Option.some.injEq, Prod.mk.injEq] at h
      refine ⟨_, rfl, ?_⟩
      have := hre (l.1 - (slotWidth nb - s.1), l.2) S' L'
      rw [h.2] at this
      exact this

theorem surplusLoop_spec (nb : Nat) : ∀ (r : Nat) (S L : List (Int × Nat)), ArrInv nb r S L →
    (surplusLoop nb r S L).length = r ∧ ∀ n ∈ surplusLoop nb r S L, 0 ≤ n.1 := by
  intro r
  induction r with
  | zero =>
    intro S L _
    exact ⟨rfl, by intro n hn; simp [surplusLoop] at hn⟩
  | succ r ih =>
    intro S L h
    obtain ⟨slot, S1, L1, hstep, hinv, _, _, _⟩ := arrangeStep_spec nb r S L h
    obtain ⟨n, hn, hmem⟩ := arrangeNewly_of_step nb S L slot S1 L1 hstep
    obtain ⟨hlen, hall⟩ := ih S1 L1 hinv
    have hB := slotWidth_pos nb
    have hn0 : 0 ≤ n.1 := by
      rcases List.mem_append.1 hmem with hm | hm
      · exact (hinv.small n hm).1
      · have := hinv.large n hm
        omega
    unfold surplusLoop
    rw [hn, hstep]
    dsimp only
    refine ⟨by rw [List.length_cons, hlen], ?_⟩
    intro x hx
    rcases List.mem_cons.1 hx with hx | hx
    · rw [hx]; exact hn0
    · exact hall x hx

/-- C39: for a weight vector summing to 65536 the slot-filling loop of
`InitDelayedCodingParams` never takes the back of an empty `S` or `L` (it returns its
`2 ^ b` slots and the function returns a table), every surplus it re-inserts is
non-negative, in every slot the left and right widths are non-negative and sum to
`2 ^ (16 - b)`, and after the last slot every remaining surplus is 0. -/
theorem InitDelayedCodingParams_construction_safe (weights : List Nat)
    (params : DelayedCodingParams) (hsum : weights.sum = 65536) :
    ∃ b S L slots S2 L2 t,
      b = numRepresentBits (validWeightsFrom 0 weights).length ∧ b ≤ 16 ∧
      S = ((validWeightsFrom 0 weights).filter (fun branch => isSmall b branch.1)).reverse ∧
      L = ((validWeightsFrom 0 weights).filter (fun branch => !isSmall b branch.1)).reverse ∧
      arrangeLoop b (2 ^ b) S L = some (slots, S2, L2) ∧
      InitDelayedCodingParams weights params = some t ∧
      t.num_represent_bits_ = b ∧
      t.segment_left_branches_ = slots.map Prod.fst ∧
      t.segment_right_branches_ = slots.map Prod.snd ∧
      slots.length = 2 ^ b ∧
      (∀ slot ∈ slots, 0 ≤ slot.1.1 ∧ 0 ≤ slot.2.1 ∧ slot.1.1 + slot.2.1 = 2 ^ (16 - b)) ∧
      (surplusLoop b (2 ^ b) S L).length = 2 ^ b ∧
      (∀ n ∈ surplusLoop b (2 ^ b) S L, 0 ≤ n.1) ∧
      (∀ x ∈ S2 ++ L2, x.1 = 0) := by
  obtain ⟨hnb, hinv⟩ := ArrInv_init weights hsum
  obtain ⟨slots, S2, L2, hloop, hlen, hall, _, _, hzero⟩ := arrangeLoop_spec _ _ _ _ hinv
  obtain ⟨hslen, hsall⟩ := surplusLoop_spec _ _ _ _ hinv
  have hne := ne_nil_of_sum weights hsum
  have hinit : InitDelayedCodingParams weights params = some
      { branches_ := (slots.foldl collectSlot ⟨weights.map (fun w => ⟨[], w⟩), 0⟩).branches
        segment_left_branches_ := slots.map Prod.fst
        segment_right_branches_ := slots.map Prod.snd
        numerator_helper_ :=
          (slots.foldl helperSlot ⟨List.replicate weights.length 0, 0, []⟩).numerator_helper
        num_represent_bits_ := numRepresentBits (validWeightsFrom 0 weights).length } := by
    unfold InitDelayedCodingParams
    rw [if_neg hne]
    dsimp only
    rw [hloop]
  exact ⟨_, _, _, slots, S2, L2, _, rfl, hnb, rfl, rfl, hloop, hinit, rfl, rfl, rfl, hlen, hall,
    hslen, hsall, hzero⟩

theorem InitDelayedCodingParams_construction_safe_witness :
    ([16384, 0, 49152] : List Nat).sum = 65536 ∧
    ∃ b S L slots S2 L2 t,
      b = numRepresentBits (validWeightsFrom 0 [16384, 0, 49152]).length ∧ b ≤ 16 ∧
      S = ((validWeightsFrom 0 [16384, 0, 49152]).filter
        (fun branch => isSmall b branch.1)).reverse ∧
      L = ((validWeightsFrom 0 [16384, 0, 49152]).filter
        (fun branch => !isSmall b branch.1)).reverse ∧
      arrangeLoop b (2 ^ b) S L = some (slots, S2, L2) ∧
      InitDelayedCodingParams [16384, 0, 49152] ⟨[], [], [], [], 0⟩ = some t ∧
      t.num_represent_bits_ = b ∧
      t.segment_left_branches_ = slots.map Prod.fst ∧
      t.segment_right_branches_ = slots.map Prod.snd ∧
      slots.length = 2 ^ b ∧
      (∀ slot ∈ slots, 0 ≤ slot.1.1 ∧ 0 ≤ slot.2.1 ∧ slot.1.1 + slot.2.1 = 2 ^ (16 - b)) ∧
      (surplusLoop b (2 ^ b) S L).length = 2 ^ b ∧
      (∀ n ∈ surplusLoop b (2 ^ b) S L, 0 ≤ n.1) ∧
      (∀ x ∈ S2 ++ L2, x.1 = 0) :=
  ⟨by decide, InitDelayedCodingParams_construction_safe [16384, 0, 49152] ⟨[], [], [], [], 0⟩
    (by decide)⟩


/-! ## Bounds on the accumulator of the decoder -/

theorem pickBranches_append (ps1 ps2 : List (List Nat × Nat)) (bs1 bs2 : List Branch)
    (h1 : pickBranches ps1 = some bs1) (h2 : pickBranches ps2 = some bs2) :
    pickBranches (ps1 ++ ps2) = some (bs1 ++ bs2) := by
  induction ps1 generalizing bs1 with
  | nil =>
    simp only [pickBranches, Option.some.injEq] at h1
    rw [← h1]
    exact h2
  | cons p ps ih =>
    simp only [pickBranches, Option.bind_eq_bind] at h1
    cases ht : buildTable p.1 with
    | none => rw [ht] at h1; simp at h1
    | some t =>
      rw [ht] at h1
      simp only [Option.some_bind] at h1
      cases hb : t.branches_[p.2]? with
      | none => rw [hb] at h1; simp at h1
      | some b =>
        rw [hb] at h1
        simp only [Option.some_bind] at h1
        cases hbs : pickBranches ps with
        | none => rw [hbs] at h1; simp at h1
        | some bs =>
          rw [hbs] at h1
          simp only [Option.some_bind, Option.some.injEq] at h1
          rw [← h1]
          have hi := ih bs hbs
          simp only [List.cons_append, pickBranches, Option.bind_eq_bind, ht, hb,
            Option.some_bind]
          rw [show ps.append ps2 = ps ++ ps2 from rfl, hi]
          rfl

/-- Decoding the first picks of a block: the invariant between decoder and encoder holds
again before the picks that follow. -/
theorem decodePicks_prefix_inv (picks : List (List Nat × Nat)) :
    (∀ p ∈ picks, p.1.sum = 65536 ∧ ∃ w, p.1[p.2]? = some w ∧ 0 < w) →
    ∀ (tables : List DelayedCodingParams) (branches rest_branches : List Branch),
    pickTables picks = some tables → pickBranches picks = some branches →
    (∀ b ∈ rest_branches, BranchOK b) →
    ∀ (den : Nat) (virt : Bool) (d : Decoder) (words rest : List Nat),
    DecInv den virt (encodeFrom (branches ++ rest_branches) den virt) d words rest →
    ∃ d1 words1 den1 virt1,
      decodePicks tables d words = some (picks.map Prod.snd, d1, words1) ∧
      DecInv den1 virt1 (encodeFrom rest_branches den1 virt1) d1 words1 rest := by
  induction picks with
  | nil =>
    intro _ tables branches rb ht hb _ den virt d words rest hinv
    simp only [pickTables, Option.some.injEq] at ht
    simp only [pickBranches, Option.some.injEq] at hb
    subst ht hb
    exact ⟨d, words, den, virt, rfl, hinv⟩
  | cons p ps ih =>
    intro hp tables branches rb ht hb hrb den virt d words rest hinv
    obtain ⟨hsum, w, hw, hpos⟩ := hp p (List.mem_cons_self _ _)
    obtain ⟨t, b, hbt, hbb, hbok, hbw, hlook⟩ := pick_ok p.1 p.2 w hsum hw hpos
    have hps : ∀ q ∈ ps, q.1.sum = 65536 ∧ ∃ w, q.1[q.2]? = some w ∧ 0 < w :=
      fun q hq => hp q (List.mem_cons_of_mem _ hq)
    obtain ⟨ts, bs, hts, hbs, hall⟩ := pickBranches_ok ps hps
    have ht' : tables = t :: ts := by
      simp [pickTables, hbt, hts] at ht; exact ht.symm
    have hb' : branches = b :: bs := by
      simp [pickBranches, hbt, hbb, hbs] at hb; exact hb.symm
    subst ht' hb'
    have hbsok : ∀ x ∈ b :: (bs ++ rb), BranchOK x := by
      intro x hx
      rcases List.mem_cons.1 hx with rfl | hx
      · exact hbok
      · rcases List.mem_append.1 hx with hx | hx
        · exact hall x hx
        · exact hrb x hx
    rw [List.cons_append] at hinv
    obtain ⟨d1, words1, hread, hdata, hinv'⟩ :=
      DecInv_step b (bs ++ rb) den virt d words rest hbsok hinv
    obtain ⟨d2, words2, den2, virt2, hd2, hinv2⟩ := ih hps ts bs rb hts hbs hrb _ _ _ _ _ hinv'
    rw [hbw] at hdata
    refine ⟨d2, words2, den2, virt2, ?_, hinv2⟩
    simp only [decodePicks, decodePick, hread, Option.bind_eq_bind, Option.some_bind,
      hlook _ hdata, hbw] at hd2 ⊢
    rw [hd2]
    simp

/-- C37: while a decoder started by `InitProbInterval` decodes the words `DelayedCoding`
produced for a block of picks (tables built from weights summing to 65536, so total
weights in 1..65536), after every `Update` - that is, after any number `ps1` of the picks -
the accumulator satisfies `num_ < den_` and `1 ≤ den_ < 2 ^ 24`, so that for the next
`Update(W, a)` with `a < W ≤ 65536` the products `num_ * W + a` and `den_ * W` stay below
`2 ^ 40` and are not reduced modulo `2 ^ 64`. -/
theorem Decoder_accumulator_bound (ps1 ps2 : List (List Nat × Nat))
    (hp : ∀ p ∈ ps1 ++ ps2, p.1.sum = 65536 ∧ ∃ w, p.1[p.2]? = some w ∧ 0 < w)
    (d0 : Decoder) (rest : List Nat) :
    ∃ tables branches d words, pickTables ps1 = some tables ∧
      pickBranches (ps1 ++ ps2) = some branches ∧
      decodePicks tables d0.InitProbInterval (DelayedCoding branches ++ rest)
        = some (ps1.map Prod.snd, d, words) ∧
      d.num_ < d.den_ ∧ 1 ≤ d.den_ ∧ d.den_ < 2 ^ 24 ∧
      ∀ W a, W ≤ 65536 → a < W →
        d.num_ * W + a < d.den_ * W ∧ d.den_ * W < 2 ^ 40 ∧
        (d.num_ * W + a) % 2 ^ 64 = d.num_ * W + a ∧ (d.den_ * W) % 2 ^ 64 = d.den_ * W := by
  have hp1 : ∀ p ∈ ps1, p.1.sum = 65536 ∧ ∃ w, p.1[p.2]? = some w ∧ 0 < w :=
    fun p h => hp p (List.mem_append_left _ h)
  have hp2 : ∀ p ∈ ps2, p.1.sum = 65536 ∧ ∃ w, p.1[p.2]? = some w ∧ 0 < w :=
    fun p h => hp p (List.mem_append_right _ h)
  obtain ⟨ts1, bs1, hts1, hbs1, hall1⟩ := pickBranches_ok ps1 hp1
  obtain ⟨ts2, bs2, _, hbs2, hall2⟩ := pickBranches_ok ps2 hp2
  have hall : ∀ b ∈ bs1 ++ bs2, BranchOK b := by
    intro b hb
    rcases List.mem_append.1 hb with h | h
    · exact hall1 b h
    · exact hall2 b h
  obtain ⟨d, words, den, virt, hdec, hinv⟩ := decodePicks_prefix_inv ps1 hp1 ts1 bs1 bs2 hts1
    hbs1 hall2 1 false _ _ rest (DecInv_init (bs1 ++ bs2) hall d0 rest)
  have h1 := hinv.den_eq
  have h2 := hinv.den_pos
  have h3 := hinv.den_lt
  have h4 := hinv.num_lt
  refine ⟨ts1, bs1 ++ bs2, d, words, hts1, pickBranches_append ps1 ps2 bs1 bs2 hbs1 hbs2, hdec,
    by omega, by omega, by omega, ?_⟩
  intro W a hW ha
  have hd : d.den_ * W < 2 ^ 40 := by
    calc d.den_ * W ≤ d.den_ * 65536 := Nat.mul_le_mul_left _ hW
      _ < 2 ^ 40 := by omega
  have hn : d.num_ * W + a < d.den_ * W := by
    calc d.num_ * W + a < d.num_ * W + W := by omega
      _ = (d.num_ + 1) * W := by ring
      _ ≤ d.den_ * W := Nat.mul_le_mul_right _ (by omega)
  exact ⟨hn, hd, Nat.mod_eq_of_lt (by omega), Nat.mod_eq_of_lt (by omega)⟩

theorem Decoder_accumulator_bound_witness :
    ∃ tables branches d words,
      pickTables [([30000, 0, 20000, 15536], 2), ([3, 0, 65533], 0)] = some tables ∧
      pickBranches ([([30000, 0, 20000, 15536], 2), ([3, 0, 65533], 0)] ++ [([65536], 0)])
        = some branches ∧
      decodePicks tables (Decoder.InitProbInterval ⟨0, 1, 0, false, 0⟩)
          (DelayedCoding branches ++ [7])
        = some ([([30000, 0, 20000, 15536], 2), ([3, 0, 65533], 0)].map Prod.snd, d, words) ∧
      d.num_ < d.den_ ∧ 1 ≤ d.den_ ∧ d.den_ < 2 ^ 24 ∧
      ∀ W a, W ≤ 65536 → a < W →
        d.num_ * W + a < d.den_ * W ∧ d.den_ * W < 2 ^ 40 ∧
        (d.num_ * W + a) % 2 ^ 64 = d.num_ * W + a ∧ (d.den_ * W) % 2 ^ 64 = d.den_ * W :=
  Decoder_accumulator_bound [([30000, 0, 20000, 15536], 2), ([3, 0, 65533], 0)]
    [([65536], 0)] (by decide) ⟨0, 1, 0, false, 0⟩ [7]

/-! ## Training and encoding of the histogram branches -/

theorem getD_replicate_of_lt (n k : Nat) (x d : ℚ) (h : k < n) :
    (List.replicate n x).getD k d = x := by
  rw [List.getD_eq_getElem?_getD, List.getElem?_replicate, if_pos h]
  rfl

/-- `InitHistogramStructure` with bin size 1 on `a` values `-512` followed by `b` values
`512`, where the 5% quantile falls among the first and the 95% quantile among the second:
the centre is 0 and a branch holds 4 bins. -/
theorem InitHistogramStructure_two_values (s : NumericalStats) (a b : Nat)
    (hv : s.values_ = List.replicate a (-512) ++ List.replicate b 512)
    (hc : s.v_count_ = a + b) (hbin : s.bin_size_ = 1)
    (h5 : (a + b) * 5 / 100 < a) (h95 : a ≤ (a + b) * 95 / 100)
    (h95b : (a + b) * 95 / 100 < a + b) :
    s.InitHistogramStructure
      = some { s with mid_est_ := 0, branch_bins_est_ := 4, minimum_ := -1024,
                      maximum_ := 1020, is_estimated_ := true } := by
  have hsorted : s.values_.mergeSort (fun x y => decide (x ≤ y)) = s.values_ := by
    apply List.mergeSort_of_sorted
    rw [hv, List.pairwise_append]
    refine ⟨?_, ?_, ?_⟩
    · rw [List.pairwise_replicate]; right; simp
    · rw [List.pairwise_replicate]; right; simp
    · intro x hx y hy
      rw [List.eq_of_mem_replicate hx, List.eq_of_mem_replicate hy]
      simp
  have hmax : s.values_.getD (s.v_count_ * 95 / 100) 0 = 512 := by
    rw [hv, hc, List.getD_append_right _ _ _ _ (by rw [List.length_replicate]; exact h95),
      List.length_replicate, getD_replicate_of_lt _ _ _ _ (by omega)]
  have hmin : s.values_.getD (s.v_count_ * 5 / 100) 0 = -512 := by
    rw [hv, hc, List.getD_append _ _ _ _ (by rw [List.length_replicate]; exact h5),
      getD_replicate_of_lt _ _ _ _ h5]
  have hmid : QuantizationToFloat32Bit ((truncToInt (((-512 : ℚ) + 512) / 2) : Int) : ℚ) = 0 := by
    rw [show ((-512 : ℚ) + 512) / 2 = ((0 : Int) : ℚ) from by norm_num, truncToInt_intCast]
    exact QuantizationToFloat32Bit_zero
  have hest : s.estBins = 3 := by
    unfold NumericalStats.estBins
    dsimp only
    rw [hsorted, hmax, hmin, hbin,
      show ((512 : ℚ) - -512) * (3 / 2) / 1 = ((1536 : Int) : ℚ) from by norm_num,
      fl_intCast _ (by decide), truncToInt_intCast]
    decide
  have hk : (((kNumBranch - 2) >>> 1 : Nat) : Int) = 255 := by decide
  have hp : p2ge (3 % 2 ^ 32) = some 2 := by decide
  have h4 : toI32 ((1 <<< 2) % 2 ^ 32) = 4 := by decide
  unfold NumericalStats.InitHistogramStructure
  dsimp only
  rw [hest, hsorted, hmax, hmin, hbin, hk]
  simp only [if_true, hmid]
  rw [if_neg (by decide), hp, Option.map_some', h4]
  norm_num

/-- The statistic of bin size 1 trained with `a` values `-512` and `b` values `512`,
5000 in all: the histogram structure is estimated at the last of them. -/
theorem pushAll_two_values (a b : Nat) (hab : a + b = 5000) (ha : 250 < a) (ha2 : a ≤ 4750) :
    NumericalStats.pushAll 1 (List.replicate a (-512) ++ List.replicate b 512)
      = some { NumericalStats.fresh.SetBinSize 1 with
               values_ := List.replicate a (-512) ++ List.replicate b 512, v_count_ := 5000,
               mid_est_ := 0, branch_bins_est_ := 4, minimum_ := -1024, maximum_ := 1020,
               is_estimated_ := true } := by
  obtain ⟨b1, hb1⟩ : ∃ b1, b = b1 + 1 := ⟨b - 1, by omega⟩
  have hsplit : List.replicate a (-512 : ℚ) ++ List.replicate b 512
      = (List.replicate a (-512) ++ List.replicate b1 512) ++ [512] := by
    rw [hb1, List.replicate_succ', List.append_assoc]
  have hlen : (List.replicate a (-512 : ℚ) ++ List.replicate b1 512).length = 4999 := by
    rw [List.length_append, List.length_replicate, List.length_replicate]
    omega
  have hbuf := pushValues_buffer (List.replicate a (-512) ++ List.replicate b1 512)
    (NumericalStats.fresh.SetBinSize 1) rfl (by
      rw [hlen]
      show 0 + 4999 < kNumEstSample
      decide)
  unfold NumericalStats.pushAll
  rw [hsplit, pushValues_append, hbuf, Option.some_bind, NumericalStats.pushValues,
    PushValue_last_buffered _ _ rfl (by
      show 0 + (List.replicate a (-512 : ℚ) ++ List.replicate b1 512).length + 1 = kNumEstSample
      rw [hlen]
      decide),
    InitHistogramStructure_two_values _ a b (by
      show ([] : List ℚ) ++ (List.replicate a (-512) ++ List.replicate b1 512) ++ [512] = _
      rw [List.nil_append, hsplit]) (by
      show 0 + (List.replicate a (-512 : ℚ) ++ List.replicate b1 512).length + 1 = a + b
      rw [hlen]
      omega) rfl (by omega) (by omega) (by omega)]
  unfold NumericalStats.fresh NumericalStats.SetBinSize NumericalStats.pushValues
  dsimp only
  have e1 : 0 + (List.replicate a (-512 : ℚ) ++ List.replicate b1 512).length + 1 = 5000 := by
    rw [hlen]
  rw [e1, List.nil_append]

/-- `PushValue` on an estimated statistic, for a value whose bin lies strictly between the
two tails: the cell `idx / branch_bins_est_ + 256` (truncated division) is incremented. -/
theorem PushValue_estimated (s : NumericalStats) (value : ℚ) (hs : s.is_estimated_ = true)
    (h1 : s.minimum_ + s.branch_bins_est_ < ⌊(value - s.mid_est_) / s.bin_size_⌋)
    (h2 : ⌊(value - s.mid_est_) / s.bin_size_⌋ < s.maximum_) :
    ∃ s1, s.PushValue value = some s1 ∧
    s1.v_freq_
      = s.v_freq_.set
          (toU16 (Int.tdiv ⌊(value - s.mid_est_) / s.bin_size_⌋ s.branch_bins_est_ + 255 + 1))
          ((s.v_freq_.getD
            (toU16 (Int.tdiv ⌊(value - s.mid_est_) / s.bin_size_⌋ s.branch_bins_est_ + 255 + 1))
            0 + 1) % 2 ^ 32) ∧
    s1.v_count_ = s.v_count_ + 1 ∧
    s1.is_estimated_ = true ∧
    s1.mid_est_ = s.mid_est_ ∧
    s1.branch_bins_est_ = s.branch_bins_est_ ∧
    s1.bin_size_ = s.bin_size_ ∧
    s1.coding_params_ = s.coding_params_ ∧
    s1.sum_abs_dev_ = s.sum_abs_dev_ + |value - s.mid_est_| := by
  have hk : (((kNumBranch - 2) >>> 1 : Nat) : Int) = 255 := by decide
  have heq : s.PushValue value
      = some { s with
          v_count_ := s.v_count_ + 1,
          v_freq_ := s.v_freq_.set
            (toU16 (Int.tdiv ⌊(value - s.mid_est_) / s.bin_size_⌋ s.branch_bins_est_ + 255 + 1))
            ((s.v_freq_.getD
              (toU16 (Int.tdiv ⌊(value - s.mid_est_) / s.bin_size_⌋ s.branch_bins_est_ + 255 + 1))
              0 + 1) % 2 ^ 32),
          sum_abs_dev_ := s.sum_abs_dev_ + |value - s.mid_est_| } := by
    unfold NumericalStats.PushValue
    rw [hs, if_neg (by decide)]
    dsimp only
    rw [if_neg (by omega), if_neg (by omega), hk]
  exact ⟨_, heq, rfl, rfl, hs, rfl, rfl, rfl, rfl, rfl⟩

/-- What `NumericalStats::End` leaves of an estimated statistic with a full histogram: the
table built from the branch weights and the quantities `Prepare` derives from
`branch_bins_est_`. -/
theorem finish_fields (s : NumericalStats) (hlen : s.v_freq_.length = kNumBranch)
    (hpos : ∀ x ∈ s.v_freq_, 1 ≤ x) (hlt : s.v_freq_.sum < 2 ^ 32)
    (hb : 1 ≤ s.branch_bins_est_) (hb2 : s.branch_bins_est_ < 2 ^ 63) :
    ∃ s1 t slots, s.finish = some s1 ∧
      TableOK (endWeights s.v_freq_ s.v_freq_.sum) t slots ∧
      (endWeights s.v_freq_ s.v_freq_.sum).length = kNumBranch ∧
      (∀ w ∈ endWeights s.v_freq_ s.v_freq_.sum, 1 ≤ w) ∧
      s1.coding_params_ = t ∧ s1.branch_bins_est_ = s.branch_bins_est_ ∧
      s1.mid_est_ = s.mid_est_ ∧ s1.bin_size_ = s.bin_size_ ∧
      s1.num_layer_ = (layerLoop 4 0 s.branch_bins_est_).1 ∧
      p2ge (layerLoop 4 0 s.branch_bins_est_).2.toNat = some s1.mask_last_layer_ ∧
      s1.weight_branch_last_layer_ = 65536 / (layerLoop 4 0 s.branch_bins_est_).2.toNat ∧
      s1.minimum_ = s.branch_bins_est_ * (-255 - 1) ∧
      s1.maximum_ = s.branch_bins_est_ * 255 ∧
      s1.mean_abs_dev_ = QuantizationToFloat32Bit
        (if s.sum_abs_dev_ < s.bin_size_ then 0 else s.sum_abs_dev_ / s.v_count_) ∧
      s1.step_ = toU64 ⌈s1.mean_abs_dev_ / s.bin_size_⌉ := by
  obtain ⟨e1, e2, e3⟩ := endWeights_props s.v_freq_ hlen hpos hlt
  obtain ⟨t, slots, ht, hok⟩ := buildTable_ok _ e2
  have hinit : InitDelayedCodingParams (endWeights s.v_freq_ s.v_freq_.sum) s.coding_params_
      = some t := by
    rw [Init_eq_buildTable _ _ (ne_nil_of_sum _ e2)]; exact ht
  have hk : 0 < kNumBranch := by decide
  have h0 : s.v_freq_.sum ≠ 0 := by
    have h1 := le_sum_of_mem s.v_freq_ _ (getD_mem s.v_freq_ 0 (by rw [hlen]; exact hk))
    have h2 := hpos _ (getD_mem s.v_freq_ 0 (by rw [hlen]; exact hk))
    omega
  have hk255 : (((kNumBranch - 2) >>> 1 : Nat) : Int) = 255 := by decide
  rw [NumericalStats_finish_eq s s.v_freq_.sum _ t (Nat.mod_eq_of_lt hlt) h0 rfl hinit]
  unfold NumericalStats.Prepare
  dsimp only
  have hl := layerLoop_pos 4 0 s.branch_bins_est_ hb
  have hl2 : ¬ (layerLoop 4 0 s.branch_bins_est_).2 ≤ 0 := by omega
  obtain ⟨mask, hmask⟩ := p2ge_layers s.branch_bins_est_ hb2
  rw [if_neg hl2, hk255, hmask]
  exact ⟨_, t, slots, rfl, hok, e1, e3, rfl, rfl, rfl, rfl, rfl, rfl, rfl, rfl, rfl, rfl, rfl⟩

theorem histogram_branch_mismatch (a b : Nat) (hab : a + b = 5000) (ha : 250 < a)
    (ha2 : a ≤ 4750) :
    ∃ s s2 s1 b0 bs sq1,
      NumericalStats.pushAll 1 (List.replicate a (-512) ++ List.replicate b 512) = some s ∧
      s.is_estimated_ = true ∧ s.mid_est_ = 0 ∧ s.bin_size_ = 1 ∧ s.branch_bins_est_ = 4 ∧
      s.minimum_ = -1024 ∧ s.maximum_ = 1020 ∧
      s.v_freq_ = List.replicate kNumBranch 1 ∧
      s.PushValue (-3) = some s2 ∧
      s2.v_freq_ = (List.replicate kNumBranch 1).set 256 2 ∧
      s2.End = some s1 ∧
      s1.mid_est_ = 0 ∧ s1.branch_bins_est_ = 4 ∧ s1.minimum_ = -1024 ∧ s1.maximum_ = 1020 ∧
      ((NumericalSquID.create 1 true).Init s1).GetBinIndex (-3) = -3 ∧
      ((NumericalSquID.create 1 true).Init s1).GetHistogramProbIntervals (-3)
        = some (b0 :: bs, sq1) ∧
      s1.coding_params_.branches_[255]? = some b0 ∧ sq1.l_ = -4 ∧ sq1.r_ = 0 := by
  have hs := pushAll_two_values a b hab ha ha2
  generalize hsdef : ({ NumericalStats.fresh.SetBinSize 1 with
    values_ := List.replicate a (-512) ++ List.replicate b 512, v_count_ := 5000,
    mid_est_ := 0, branch_bins_est_ := 4, minimum_ := -1024, maximum_ := 1020,
    is_estimated_ := true } : NumericalStats) = s at hs
  have hest : s.is_estimated_ = true := by rw [← hsdef]
  have hmid : s.mid_est_ = 0 := by rw [← hsdef]
  have hbin : s.bin_size_ = 1 := by rw [← hsdef]; rfl
  have hbins : s.branch_bins_est_ = 4 := by rw [← hsdef]
  have hmin : s.minimum_ = -1024 := by rw [← hsdef]
  have hmax : s.maximum_ = 1020 := by rw [← hsdef]
  have hfreq : s.v_freq_ = List.replicate kNumBranch 1 := by rw [← hsdef]; rfl
  have hcount : s.v_count_ = 5000 := by rw [← hsdef]
  have hinv0 : HistInv s 5000 := by
    refine ⟨?_, ?_, ?_, hcount, fun _ => by rw [hbins]; decide, fun _ => by decide⟩
    · rw [hfreq]; exact List.length_replicate _ _
    · intro x hx
      rw [hfreq] at hx
      rw [List.eq_of_mem_replicate hx]
    · rw [hfreq, List.sum_replicate, smul_eq_mul, Nat.mul_one]
      exact Nat.le_add_right _ _
  have hidx : ⌊((-3 : ℚ) - s.mid_est_) / s.bin_size_⌋ = -3 := by
    rw [hmid, hbin, Int.floor_eq_iff]
    norm_num
  obtain ⟨s2, hs2, p1, p2, p3, p4, p5, p6, _, _⟩ := PushValue_estimated s (-3) hest
    (by rw [hidx, hmin, hbins]; decide) (by rw [hidx, hmax]; decide)
  rw [hidx, hbins, show toU16 (Int.tdiv (-3) 4 + 255 + 1) = 256 from by decide, hfreq] at p1
  have hget : (List.replicate kNumBranch 1).getD 256 0 = 1 := by
    rw [List.getD_eq_getElem?_getD, List.getElem?_replicate, if_pos (by decide)]
    rfl
  rw [hget, show (1 + 1) % 2 ^ 32 = 2 from by decide] at p1
  obtain ⟨s2', hs2', hinv, _⟩ := HistInv_PushValue s 5000 (-3) hinv0 hest (by decide)
  rw [hs2] at hs2'
  cases hs2'
  have hsum : s2.v_freq_.sum < 2 ^ 32 :=
    lt_of_le_of_lt hinv.freq_sum (by decide)
  obtain ⟨s1, t, slots, hfin, hok, hwlen, hwpos, q1, q2, q3, q4, q5, q6, q7, q8, q9, _, _⟩ :=
    finish_fields s2 hinv.freq_len hinv.freq_pos hsum (by rw [p5, hbins]; decide)
      (by rw [p5, hbins]; decide)
  rw [p5, hbins] at q2 q5 q6 q7 q8 q9
  rw [show (layerLoop 4 0 4).1 = 0 from by decide] at q5
  rw [show p2ge (layerLoop 4 0 4).2.toNat = some 2 from by decide] at q6
  have q6 : s1.mask_last_layer_ = 2 := (Option.some.inj q6).symm
  rw [show 65536 / (layerLoop 4 0 4).2.toNat = 16384 from by decide] at q7
  rw [p4, hmid] at q3
  have hend : s2.End = some s1 := by
    unfold NumericalStats.End
    rw [if_neg (by rw [p2, hcount]; decide), p3, if_neg (by decide)]
    exact hfin
  obtain ⟨w, hw⟩ : ∃ w, (endWeights s2.v_freq_ s2.v_freq_.sum)[255]? = some w :=
    ⟨(endWeights s2.v_freq_ s2.v_freq_.sum).getD 255 0,
      getElem?_eq_some_getD _ 255 0 (by rw [hwlen]; decide)⟩
  have hbr : s1.coding_params_.branches_[255]?
      = some ⟨segsFor 255 (partsOf slots) 0 [], w⟩ := by
    rw [q1, hok.branches 255, hw]
    rfl
  generalize hsq : (NumericalSquID.create 1 true).Init s1 = sq
  have f1 : sq.mean_ = 0 := by rw [← hsq]; exact q3
  have f2 : sq.bin_size_ = 1 := by rw [← hsq]; exact QuantizationToFloat32Bit_one
  have f3 : sq.branch_bins_ = 4 := by rw [← hsq]; exact q2
  have f4 : sq.num_layer_ = 0 := by rw [← hsq]; exact q5
  have f5 : sq.mask_last_layer_ = 2 := by rw [← hsq]; exact q6
  have f6 : sq.weight_branch_last_layer_ = 16384 := by rw [← hsq]; exact q7
  have f7 : sq.coding_params_ = s1.coding_params_ := by rw [← hsq]; rfl
  have hk : (((kNumBranch - 2) >>> 1 : Nat) : Int) = 255 := by decide
  have hgp : sq.GetHistogramProbIntervals (-3)
      = some ([⟨segsFor 255 (partsOf slots) 0 [], w⟩, ⟨[⟨16384, 32768⟩], 16384⟩],
          (sq.SetLeft (-4)).SetRight 0) := by
    unfold NumericalSquID.GetHistogramProbIntervals
    rw [f3, if_neg (by decide), hk, f4, f5, f6, f7]
    have e1 : ((-3 : Int) - 0 * 4 < 0) := by decide
    simp only [show Int.tdiv (-3) 4 = 0 from by decide, e1, if_true]
    rw [if_neg (by decide), show ((0 : Int) - 1 + 255 + 1).toNat = 255 from by decide, hbr]
    simp only [Option.bind_eq_bind, Option.some_bind, histLayers]
    rw [show GetSimpleBranch 16384 (toU32 ((-3 - 0 * 4 + 4) % 2 ^ 2))
      = some ⟨[⟨16384, 32768⟩], 16384⟩ from by decide]
    rfl
  subst hsq
  refine ⟨s, s2, s1, _, _, _, hs, hest, hmid, hbin, hbins, hmin, hmax, hfreq, hs2, p1, hend,
    q3, q2, by rw [q8]; decide, by rw [q9]; decide, ?_, hgp, hbr, rfl, rfl⟩
  unfold NumericalSquID.GetBinIndex
  rw [f1, f2, Int.floor_eq_iff]
  norm_num

/-- C38 (evaluation of the code): a statistic of bin size 1 trained with 2500 values `-512`
and 2500 values `512` has centre 0 and 4 bins per branch. For the value `-3` (bin `-3`,
strictly between the tails) `PushValue` increments cell 256, the truncated quotient
`-3 / 4 = 0` plus 256, while after `End` the squid codes the value with branch 255 of the
table, the floor of `-3 / 4` plus 256 (the bins `-4 .. -1`). -/
theorem PushValue_histogram_branch_mismatch :
    ∃ s s2 s1 b0 bs sq1,
      NumericalStats.pushAll 1 (List.replicate 2500 (-512) ++ List.replicate 2500 512)
        = some s ∧
      s.is_estimated_ = true ∧ s.mid_est_ = 0 ∧ s.bin_size_ = 1 ∧ s.branch_bins_est_ = 4 ∧
      s.minimum_ = -1024 ∧ s.maximum_ = 1020 ∧
      s.v_freq_ = List.replicate kNumBranch 1 ∧
      s.PushValue (-3) = some s2 ∧
      s2.v_freq_ = (List.replicate kNumBranch 1).set 256 2 ∧
      s2.End = some s1 ∧
      s1.mid_est_ = 0 ∧ s1.branch_bins_est_ = 4 ∧ s1.minimum_ = -1024 ∧ s1.maximum_ = 1020 ∧
      ((NumericalSquID.create 1 true).Init s1).GetBinIndex (-3) = -3 ∧
      ((NumericalSquID.create 1 true).Init s1).GetHistogramProbIntervals (-3)
        = some (b0 :: bs, sq1) ∧
      s1.coding_params_.branches_[255]? = some b0 ∧ sq1.l_ = -4 ∧ sq1.r_ = 0 :=
  histogram_branch_mismatch 2500 2500 (by decide) (by decide) (by decide)

/-! ## The histogram path of the numerical squid -/

/-- The correction of the truncated quotient in `GetHistogramProbIntervals` gives the
floor of `idx / branch_bins_` and the remainder in `[0, branch_bins_)`. -/
theorem floor_correction (idx B : Int) (hB : 0 < B) :
    (if idx - Int.tdiv idx B * B < 0 then Int.tdiv idx B - 1 else Int.tdiv idx B) = idx / B ∧
    (if idx - Int.tdiv idx B * B < 0 then idx - Int.tdiv idx B * B + B
      else idx - Int.tdiv idx B * B) = idx % B := by
  have key : ∃ q r, Int.tdiv idx B = q ∧ idx - q * B = r ∧ -B < r ∧ r < B ∧
      (0 ≤ idx → 0 ≤ r) ∧ (idx < 0 → r ≤ 0) := by
    by_cases h : 0 ≤ idx
    · refine ⟨idx / B, idx % B, Int.tdiv_eq_ediv h (le_of_lt hB), ?_, ?_, ?_, ?_, ?_⟩
      · have := Int.emod_add_ediv idx B
        rw [Int.mul_comm] at this
        omega
      · have := Int.emod_nonneg idx (ne_of_gt hB); omega
      · exact Int.emod_lt_of_pos idx hB
      · intro _; exact Int.emod_nonneg idx (ne_of_gt hB)
      · intro h2; omega
    · have hn : 0 ≤ -idx := by omega
      have h1 : Int.tdiv idx B = -((-idx) / B) := by
        have := Int.neg_tdiv (-idx) B
        rw [neg_neg] at this
        rw [this, Int.tdiv_eq_ediv hn (le_of_lt hB)]
      have h2 := Int.emod_add_ediv (-idx) B
      have h3 := Int.emod_nonneg (-idx) (ne_of_gt hB)
      have h4 := Int.emod_lt_of_pos (-idx) hB
      refine ⟨-((-idx) / B), -((-idx) % B), h1, ?_, ?_, ?_, ?_, ?_⟩
      · rw [Int.neg_mul, Int.mul_comm]
        generalize B * (-idx / B) = P at h2
        omega
      · omega
      · omega
      · intro h5; omega
      · intro _; omega
  obtain ⟨q, r, hq, hr, hr1, hr2, _, _⟩ := key
  rw [hq, hr]
  have hsum : r + B * q = idx := by
    rw [Int.mul_comm]; omega
  by_cases hneg : r < 0
  · rw [if_pos hneg, if_pos hneg]
    have h := (Int.ediv_emod_unique (a := idx) (r := r + B) (q := q - 1) hB).2
      ⟨by
        rw [Int.mul_sub, Int.mul_one]
        generalize B * q = P at hsum
        omega, by omega, by omega⟩
    exact ⟨h.1.symm, h.2.symm⟩
  · rw [if_neg hneg, if_neg hneg]
    have h := (Int.ediv_emod_unique hB).2 ⟨hsum, by omega, hr2⟩
    exact ⟨h.1.symm, h.2.symm⟩

theorem Update_weight_one (d : Decoder) (h1 : d.den_ < 2 ^ 24) (h2 : d.num_ < 2 ^ 64) :
    d.Update 1 0 = d := by
  unfold Decoder.Update
  have e1 : (d.num_ * 1 + 0) % 2 ^ 64 = d.num_ := by
    rw [Nat.mul_one, Nat.add_zero, Nat.mod_eq_of_lt h2]
  have e2 : (d.den_ * 1) % 2 ^ 64 = d.den_ := by
    rw [Nat.mul_one, Nat.mod_eq_of_lt (by omega)]
  rw [e1, e2]
  dsimp only
  have e3 : ¬ (d.den_ >>> kDelayedCoding > 0) := by
    rw [Nat.shiftRight_eq_div_pow, show kDelayedCoding = 24 from rfl,
      Nat.div_eq_of_lt h1]
    decide
  rw [if_neg e3]

theorem Read16Bits_fields (d d1 : Decoder) (words words1 : List Nat) (w : Nat)
    (h : d.Read16Bits words = some (w, d1, words1)) :
    d1.den_ = d.den_ ∧ d1.num_ = d.num_ := by
  unfold Decoder.Read16Bits at h
  dsimp only at h
  split at h
  · cases words with
    | nil => simp at h
    | cons a ws =>
      simp only [Option.some.injEq, Prod.mk.injEq] at h
      rw [← h.2.1]
      exact ⟨rfl, rfl⟩
  · simp only [Option.some.injEq, Prod.mk.injEq] at h
    rw [← h.2.1]
    exact ⟨rfl, rfl⟩

theorem prepare_layers (k : Nat) (hk : k ≤ 30) :
    layerLoop 4 0 (2 ^ k) = (if k ≤ 16 then 0 else 1, 2 ^ (if k ≤ 16 then k else k - 16)) := by
  interval_cases k <;> decide

theorem p2ge_two_pow (m : Nat) (hm : m ≤ 16) : p2ge (2 ^ m) = some m := by
  interval_cases m <;> decide

theorem toU32_of_nonneg_lt (x : Int) (h0 : 0 ≤ x) (h1 : x < 2 ^ 32) : toU32 x = x.toNat := by
  unfold toU32
  rw [Int.emod_eq_of_lt h0 h1]

/-- The branches `GetHistogramProbIntervals` appends for a bin `idx`: the table branch of
`idx / 2 ^ k`, one pick of weight 1 when there is an upper layer, and the pick of the last
layer. -/
theorem GetHistogramProbIntervals_spec (sq : NumericalSquID) (k m n : Nat)
    (hB : sq.branch_bins_ = 2 ^ k) (hn : sq.num_layer_ = n) (hm : sq.mask_last_layer_ = m)
    (hW : sq.weight_branch_last_layer_ = 65536 / 2 ^ m) (hm16 : m ≤ 16)
    (hcase : (n = 0 ∧ k = m) ∨ (n = 1 ∧ k = m + 16)) (idx : Int)
    (hlo : -256 ≤ idx / 2 ^ k) (b : Branch)
    (hb : sq.coding_params_.branches_[(idx / 2 ^ k + 256).toNat]? = some b) :
    ∃ layers last,
      sq.GetHistogramProbIntervals idx = some (b :: layers ++ [last],
        (sq.SetLeft (idx / 2 ^ k * 2 ^ k)).SetRight ((idx / 2 ^ k + 1) * 2 ^ k)) ∧
      histLayers m (idx % 2 ^ k) n = some layers ∧
      GetSimpleBranch (65536 / 2 ^ m) (idx % 2 ^ k % 2 ^ m).toNat = some last := by
  have hBpos : (0 : Int) < 2 ^ k := by positivity
  have hmpos : (0 : Int) < 2 ^ m := by positivity
  obtain ⟨hq, hr⟩ := floor_correction idx (2 ^ k) hBpos
  have hl0 := Int.emod_nonneg idx (ne_of_gt hBpos)
  have hl1 := Int.emod_lt_of_pos idx hBpos
  have hk255 : (((kNumBranch - 2) >>> 1 : Nat) : Int) = 255 := by decide
  have hk30 : k ≤ 32 := by omega
  have hB32 : (2 : Int) ^ k ≤ 2 ^ 32 := pow_le_pow_right₀ (by norm_num) hk30
  have hlo0 := Int.emod_nonneg (idx % 2 ^ k) (ne_of_gt hmpos)
  have hlo1 := Int.emod_lt_of_pos (idx % 2 ^ k) hmpos
  have hm32 : (2 : Int) ^ m ≤ 2 ^ 32 := pow_le_pow_right₀ (by norm_num) (by omega)
  have hlast : ∃ last, GetSimpleBranch (65536 / 2 ^ m) (idx % 2 ^ k % 2 ^ m).toNat
      = some last := by
    have hlt : (idx % 2 ^ k % 2 ^ m).toNat < 2 ^ m := by
      have : ((2 ^ m : Nat) : Int) = 2 ^ m := by push_cast; rfl
      omega
    obtain ⟨l, hl, _⟩ := GetSimpleBranch_ok (2 ^ m) _ (Nat.one_le_two_pow)
      (Nat.pow_le_pow_right (by decide) hm16) hlt
    exact ⟨l, hl⟩
  have hlayers : ∃ layers, histLayers m (idx % 2 ^ k) n = some layers := by
    rcases hcase with ⟨h0, _⟩ | ⟨h1, hk⟩
    · rw [h0]
      exact ⟨[], rfl⟩
    · rw [h1]
      have hhi0 : 0 ≤ idx % 2 ^ k / 2 ^ m := Int.ediv_nonneg hl0 (le_of_lt hmpos)
      have hhi1 : idx % 2 ^ k / 2 ^ m < 2 ^ 16 := by
        apply Int.ediv_lt_of_lt_mul hmpos
        have : (2 : Int) ^ k = 2 ^ 16 * 2 ^ m := by rw [hk, pow_add, Int.mul_comm]
        rw [← this]
        exact hl1
      have hshift : (m + 0 * 16) % 2 ^ 32 = m := by
        rw [Nat.zero_mul, Nat.add_zero]
        exact Nat.mod_eq_of_lt (by omega)
      have hand : toU32 (idx % 2 ^ k / 2 ^ m) &&& 65535 = (idx % 2 ^ k / 2 ^ m).toNat := by
        rw [toU32_of_nonneg_lt _ hhi0 (by omega),
          Nat.and_pow_two_sub_one_eq_mod _ 16]
        apply Nat.mod_eq_of_lt
        omega
      have hs : ∃ l1, GetSimpleBranch 1 (idx % 2 ^ k / 2 ^ m).toNat = some l1 := by
        unfold GetSimpleBranch
        rw [if_neg (by decide), if_pos (by omega)]
        exact ⟨_, rfl⟩
      obtain ⟨l1, hl1'⟩ := hs
      refine ⟨[l1], ?_⟩
      unfold histLayers
      rw [hshift]
      simp only [hand, hl1', histLayers, Option.bind_eq_bind, Option.some_bind]
  obtain ⟨last, hlast⟩ := hlast
  obtain ⟨layers, hlayers⟩ := hlayers
  refine ⟨layers, last, ?_, hlayers, hlast⟩
  unfold NumericalSquID.GetHistogramProbIntervals
  rw [hB, if_neg (ne_of_gt hBpos), hk255, hn, hm, hW]
  dsimp only
  rw [hq, hr, if_neg (by omega), show idx / 2 ^ k + 255 + 1 = idx / 2 ^ k + 256 from by ring, hb,
    hlayers, toU32_of_nonneg_lt _ hlo0 (by omega), hlast]
  rfl

theorem readLayers_one (d d1 : Decoder) (words words1 : List Nat) (w : Nat)
    (h : d.Read16Bits words = some (w, d1, words1)) :
    readLayers 1 0 d words = some (w, d1, words1) := by
  unfold readLayers
  rw [h]
  simp only [Option.bind_eq_bind, Option.some_bind, readLayers]
  rw [show ((0 <<< 16) % 2 ^ 64 ||| w) = w from by simp]

theorem histLayers_one (m : Nat) (low : Int) (hm16 : m ≤ 16) (h0 : 0 ≤ low)
    (h1 : low < 2 ^ (m + 16)) :
    histLayers m low 1 = (GetSimpleBranch 1 (low / 2 ^ m).toNat).map (fun l => [l]) := by
  have hmpos : (0 : Int) < 2 ^ m := by positivity
  have hhi0 : 0 ≤ low / 2 ^ m := Int.ediv_nonneg h0 (le_of_lt hmpos)
  have hhi1 : low / 2 ^ m < 2 ^ 16 := by
    apply Int.ediv_lt_of_lt_mul hmpos
    have : (2 : Int) ^ (m + 16) = 2 ^ 16 * 2 ^ m := by rw [pow_add, Int.mul_comm]
    rw [← this]
    exact h1
  have hshift : (m + 0 * 16) % 2 ^ 32 = m := by
    rw [Nat.zero_mul, Nat.add_zero]
    exact Nat.mod_eq_of_lt (by omega)
  have hand : toU32 (low / 2 ^ m) &&& 65535 = (low / 2 ^ m).toNat := by
    rw [toU32_of_nonneg_lt _ hhi0 (by omega), Nat.and_pow_two_sub_one_eq_mod _ 16]
    apply Nat.mod_eq_of_lt
    omega
  unfold histLayers
  rw [hshift]
  simp only [hand, histLayers, Option.bind_eq_bind, Option.some_bind]
  cases GetSimpleBranch 1 (low / 2 ^ m).toNat with
  | none => rfl
  | some l => rfl

/-- The histogram path of a squid whose branches hold `2 ^ k` bins: the bin `idx` is coded
by the table branch of `idx / 2 ^ k`, one pick of weight 1 per upper layer and the pick of
the last layer, and `Decompress` applied to the words `DelayedCoding` makes of them ends
with `l_ = r_ = idx`. -/
theorem histogram_round_trip (sq : NumericalSquID) (weights : List Nat)
    (slots : List ((Int × Nat) × (Int × Nat)))
    (hok : TableOK weights sq.coding_params_ slots) (k m n : Nat)
    (hB : sq.branch_bins_ = 2 ^ k) (hn : sq.num_layer_ = n) (hm : sq.mask_last_layer_ = m)
    (hW : sq.weight_branch_last_layer_ = 65536 / 2 ^ m) (hm16 : m ≤ 16)
    (hcase : (n = 0 ∧ k = m) ∨ (n = 1 ∧ k = m + 16)) (idx : Int)
    (hq1 : -255 ≤ idx / 2 ^ k) (hq2 : idx / 2 ^ k ≤ 254) (w : Nat)
    (hw : weights[(idx / 2 ^ k + 256).toNat]? = some w) (hpos : 0 < w) (d0 : Decoder)
    (rest : List Nat) :
    ∃ b layers last sq1 d,
      sq.coding_params_.branches_[(idx / 2 ^ k + 256).toNat]? = some b ∧
      sq.GetHistogramProbIntervals idx = some (b :: layers ++ [last], sq1) ∧
      layers.length = n ∧ (∀ l ∈ layers, l.total_weights_ = 1) ∧
      last.total_weights_ = 65536 / 2 ^ m ∧
      sq.Decompress d0.InitProbInterval (DelayedCoding (b :: layers ++ [last]) ++ rest)
        = some (((sq.Reset).SetLeft idx).SetRight idx, d, rest) := by
  have hBpos : (0 : Int) < 2 ^ k := by positivity
  have hmpos : (0 : Int) < 2 ^ m := by positivity
  have hl0 := Int.emod_nonneg idx (ne_of_gt hBpos)
  have hl1 := Int.emod_lt_of_pos idx hBpos
  have hlo0 := Int.emod_nonneg (idx % 2 ^ k) (ne_of_gt hmpos)
  have hlo1 := Int.emod_lt_of_pos (idx % 2 ^ k) hmpos
  have hk255 : (((kNumBranch - 2) >>> 1 : Nat) : Int) = 255 := by decide
  obtain ⟨b, hb, hbok, hbw, hlook⟩ := hok.branchOK _ w hw hpos
  obtain ⟨layers, last, henc, hlayers, hlast⟩ := GetHistogramProbIntervals_spec sq k m n hB hn
    hm hW hm16 hcase idx (by omega) b hb
  have hlolt : (idx % 2 ^ k % 2 ^ m).toNat < 2 ^ m := by
    have : ((2 ^ m : Nat) : Int) = 2 ^ m := by push_cast; rfl
    omega
  obtain ⟨last', hlast', hlastok, hlastw, hWpos, hemb⟩ := GetSimpleBranch_ok (2 ^ m) _
    (Nat.one_le_two_pow) (Nat.pow_le_pow_right (by decide) hm16) hlolt
  rw [hlast, Option.some.injEq] at hlast'
  subst hlast'
  have hne : (idx / 2 ^ k + 256).toNat ≠ 0 ∧ (idx / 2 ^ k + 256).toNat ≠ kNumBranch - 1 := by
    have : kNumBranch - 1 = 511 := by decide
    omega
  have hcast : (((idx / 2 ^ k + 256).toNat : Nat) : Int) - (255 + 1) = idx / 2 ^ k := by omega
  have hsum : idx / 2 ^ k * 2 ^ k + idx % 2 ^ k = idx := by
    have := Int.ediv_add_emod idx (2 ^ k)
    rw [Int.mul_comm] at this
    exact this
  rcases hcase with ⟨h0, hkm⟩ | ⟨h1, hkm⟩
  · -- no upper layer
    subst h0
    have hlay : layers = [] := by
      simp only [histLayers, Option.some.injEq] at hlayers
      exact hlayers.symm
    subst hlay
    have hbs : ∀ x ∈ [b, last], BranchOK x := by
      intro x hx
      rcases List.mem_cons.1 hx with h | h
      · rw [h]; exact hbok
      · rw [List.mem_singleton.1 h]; exact hlastok
    have hbs2 : ∀ x ∈ [last], BranchOK x := fun x hx => hbs x (List.mem_cons_of_mem _ hx)
    obtain ⟨d1, words1, hread, hdata, hinv⟩ := DecInv_step b [last] 1 false _ _ rest hbs
      (DecInv_init [b, last] hbs d0 rest)
    obtain ⟨d2, words2, hread2, hdata2, hinv2⟩ := DecInv_step last [] _ _ _ _ rest hbs2 hinv
    have hwords := DecInv_nil_words _ _ _ _ _ hinv2
    rw [hbw] at hdata hread hinv hread2 hdata2 hinv2
    rw [hlastw] at hdata2 hread2 hinv2
    rw [hemb _ hdata2] at hread2
    generalize (encodeFrom [] (nextDen (nextDen 1 w) (65536 / 2 ^ m))
      (nextVirt (nextDen 1 w) (65536 / 2 ^ m))).1 % (65536 / 2 ^ m) = data2
      at hread2 hdata2 hinv2
    have hdiv : ((idx % 2 ^ k % 2 ^ m).toNat * (65536 / 2 ^ m) + data2) / (65536 / 2 ^ m)
        = (idx % 2 ^ k % 2 ^ m).toNat := by
      rw [Nat.add_comm, Nat.add_mul_div_right _ _ hWpos, Nat.div_eq_of_lt hdata2, Nat.zero_add]
    have hlow : idx % 2 ^ k % 2 ^ m = idx % 2 ^ k := by
      rw [← hkm]
      exact Int.emod_emod_of_dvd idx (dvd_refl _)
    refine ⟨b, [], last, _, d2.Update (65536 / 2 ^ m) data2, hb, henc, rfl, by simp, hlastw, ?_⟩
    unfold NumericalSquID.Decompress decodePick
    simp only [Option.bind_eq_bind]
    rw [show (sq.Reset).coding_params_ = sq.coding_params_ from rfl,
      show [b] ++ [last] = [b, last] from rfl, hread]
    simp only [Option.some_bind, hlook _ hdata]
    rw [if_pos hne, hk255]
    unfold NumericalSquID.HistogramDecompress
    simp only [NumericalSquID.SetLeft, NumericalSquID.SetRight, NumericalSquID.Reset, hn,
      hW, hB, hcast, ne_eq, not_true_eq_false, if_false, Option.bind_eq_bind,
      Option.some_bind, hread2]
    rw [if_neg (by omega), hwords, hdiv]
    have e1 : (((idx % 2 ^ k % 2 ^ m).toNat : Nat) : Int) = idx % 2 ^ k := by
      rw [Int.toNat_of_nonneg hlo0, hlow]
    have e2 : (idx % 2 ^ k % 2 ^ m).toNat * (65536 / 2 ^ m) + data2
        - (idx % 2 ^ k % 2 ^ m).toNat * (65536 / 2 ^ m) = data2 := by omega
    rw [e1, e2, hsum]
  · -- one upper layer of 16 bits
    subst h1
    have hhi0 : 0 ≤ idx % 2 ^ k / 2 ^ m := Int.ediv_nonneg hl0 (le_of_lt hmpos)
    have hhi1 : idx % 2 ^ k / 2 ^ m < 2 ^ 16 := by
      apply Int.ediv_lt_of_lt_mul hmpos
      have : (2 : Int) ^ k = 2 ^ 16 * 2 ^ m := by rw [hkm, pow_add, Int.mul_comm]
      rw [← this]
      exact hl1
    obtain ⟨l1, hg1, hl1ok, hl1w, _, hemb1⟩ := GetSimpleBranch_ok 65536
      (idx % 2 ^ k / 2 ^ m).toNat (by decide) (le_refl _) (by omega)
    rw [show 65536 / 65536 = 1 from rfl] at hg1 hl1w hemb1
    have hlay : layers = [l1] := by
      rw [histLayers_one m _ hm16 hl0 (by rw [← hkm]; exact hl1), hg1] at hlayers
      simp only [Option.map_some', Option.some.injEq] at hlayers
      exact hlayers.symm
    subst hlay
    have hbs : ∀ x ∈ [b, l1, last], BranchOK x := by
      intro x hx
      rcases List.mem_cons.1 hx with h | h
      · rw [h]; exact hbok
      · rcases List.mem_cons.1 h with h | h
        · rw [h]; exact hl1ok
        · rw [List.mem_singleton.1 h]; exact hlastok
    have hbs2 : ∀ x ∈ [l1, last], BranchOK x := fun x hx => hbs x (List.mem_cons_of_mem _ hx)
    have hbs3 : ∀ x ∈ [last], BranchOK x := fun x hx => hbs2 x (List.mem_cons_of_mem _ hx)
    obtain ⟨d1, words1, hread, hdata, hinv⟩ := DecInv_step b [l1, last] 1 false _ _ rest hbs
      (DecInv_init [b, l1, last] hbs d0 rest)
    obtain ⟨d2, words2, hread2, hdata2, hinv2⟩ := DecInv_step l1 [last] _ _ _ _ rest hbs2 hinv
    rw [hbw] at hdata hread hinv hread2 hdata2 hinv2
    rw [hl1w] at hdata2 hread2 hinv2
    rw [Nat.mod_one] at hread2 hinv2
    rw [hemb1 0 (by decide), Nat.mul_one, Nat.add_zero] at hread2
    have hd2 := Read16Bits_fields _ _ _ _ _ hread2
    have hupd : d2.Update 1 0 = d2 := by
      apply Update_weight_one
      · rw [hd2.1, hinv.den_eq]; exact hinv.den_lt
      · rw [hd2.2]
        have h3 := hinv.num_lt
        have h4 := hinv.den_lt
        omega
    rw [hupd] at hinv2
    obtain ⟨d3, words3, hread3, hdata3, hinv3⟩ := DecInv_step last [] _ _ _ _ rest hbs3 hinv2
    have hwords := DecInv_nil_words _ _ _ _ _ hinv3
    rw [hlastw] at hdata3 hread3 hinv3
    rw [hemb _ hdata3] at hread3
    generalize (encodeFrom [] (nextDen (nextDen (nextDen 1 w) 1) (65536 / 2 ^ m))
      (nextVirt (nextDen (nextDen 1 w) 1) (65536 / 2 ^ m))).1 % (65536 / 2 ^ m) = data3
      at hread3 hdata3 hinv3
    have hdiv : ((idx % 2 ^ k % 2 ^ m).toNat * (65536 / 2 ^ m) + data3) / (65536 / 2 ^ m)
        = (idx % 2 ^ k % 2 ^ m).toNat := by
      rw [Nat.add_comm, Nat.add_mul_div_right _ _ hWpos, Nat.div_eq_of_lt hdata3, Nat.zero_add]
    refine ⟨b, [l1], last, _, d3.Update (65536 / 2 ^ m) data3, hb, henc, rfl, ?_, hlastw, ?_⟩
    · intro l hl
      rw [List.mem_singleton.1 hl]
      exact hl1w
    unfold NumericalSquID.Decompress decodePick
    simp only [Option.bind_eq_bind]
    rw [show (sq.Reset).coding_params_ = sq.coding_params_ from rfl,
      show [b, l1] ++ [last] = [b, l1, last] from rfl, hread]
    simp only [Option.some_bind, hlook _ hdata]
    rw [if_pos hne, hk255]
    unfold NumericalSquID.HistogramDecompress
    simp only [NumericalSquID.SetLeft, NumericalSquID.SetRight, NumericalSquID.Reset, hn, hm,
      hW, hB, hcast, ne_eq, one_ne_zero, not_false_eq_true, if_true, Option.bind_eq_bind,
      Option.some_bind, readLayers_one _ _ _ _ _ hread2, hread3]
    rw [if_neg (by omega), hwords, hdiv]
    have e1 : (((idx % 2 ^ k % 2 ^ m).toNat : Nat) : Int) = idx % 2 ^ k % 2 ^ m :=
      Int.toNat_of_nonneg hlo0
    have e2 : (idx % 2 ^ k % 2 ^ m).toNat * (65536 / 2 ^ m) + data3
        - (idx % 2 ^ k % 2 ^ m).toNat * (65536 / 2 ^ m) = data3 := by omega
    have e3 : (((idx % 2 ^ k / 2 ^ m).toNat : Nat) : Int) = idx % 2 ^ k / 2 ^ m :=
      Int.toNat_of_nonneg hhi0
    have e4 : idx / 2 ^ k * 2 ^ k + idx % 2 ^ k / 2 ^ m * 2 ^ m + idx % 2 ^ k % 2 ^ m = idx := by
      have := Int.ediv_add_emod (idx % 2 ^ k) (2 ^ m)
      rw [Int.mul_comm] at this
      omega
    rw [e1, e2, e3, e4]

theorem Prepare_fields (stats0 stats : NumericalStats)
    (h : NumericalStats.Prepare stats0 = some stats) :
    stats.branch_bins_est_ = stats0.branch_bins_est_ ∧
    stats.coding_params_ = stats0.coding_params_ ∧
    stats.mean_abs_dev_ = stats0.mean_abs_dev_ ∧
    stats.mid_est_ = stats0.mid_est_ ∧
    stats.num_layer_ = (layerLoop 4 0 stats0.branch_bins_est_).1 ∧
    p2ge (layerLoop 4 0 stats0.branch_bins_est_).2.toNat = some stats.mask_last_layer_ ∧
    stats.weight_branch_last_layer_ = 65536 / (layerLoop 4 0 stats0.branch_bins_est_).2.toNat ∧
    stats.minimum_ = stats0.branch_bins_est_ * (-255 - 1) ∧
    stats.maximum_ = stats0.branch_bins_est_ * 255 ∧
    stats.step_ = toU64 ⌈stats0.mean_abs_dev_ / stats0.bin_size_⌉ := by
  have hk255 : (((kNumBranch - 2) >>> 1 : Nat) : Int) = 255 := by decide
  unfold NumericalStats.Prepare at h
  dsimp only at h
  split at h
  · exact absurd h (by simp)
  · cases hp : p2ge (layerLoop 4 0 stats0.branch_bins_est_).2.toNat with
    | none => rw [hp] at h; exact absurd h (by simp)
    | some mask =>
      rw [hp] at h
      dsimp only at h
      rw [Option.some.injEq, hk255] at h
      rw [← h]
      exact ⟨rfl, rfl, rfl, rfl, rfl, rfl, rfl, rfl, rfl, rfl⟩

/-- C34: for a finalized numerical statistic (its table built from 512 positive weights,
its helper quantities set by `Prepare`) whose branches hold `2 ^ k` bins, `k ≤ 30`, and a
bin `idx` strictly between the tails, `GetHistogramProbIntervals` picks the table branch
`idx / 2 ^ k + 256` (floor division; in 1..510), one pick of weight 1 (a 16-bit pick) per
upper layer and one pick of the last layer, and `Decompress` applied to the words
`DelayedCoding` makes of these picks goes through `HistogramDecompress` and ends with
`l_ = r_ = idx`. -/
theorem NumericalSquID_histogram_recovers_bin (stats0 stats : NumericalStats)
    (sq0 : NumericalSquID) (weights : List Nat) (slots : List ((Int × Nat) × (Int × Nat)))
    (k : Nat) (idx : Int) (d0 : Decoder) (rest : List Nat)
    (hprep : NumericalStats.Prepare stats0 = some stats)
    (hok : TableOK weights stats.coding_params_ slots)
    (hwlen : weights.length = kNumBranch) (hwpos : ∀ w ∈ weights, 1 ≤ w)
    (hk : k ≤ 30) (hbins : stats.branch_bins_est_ = 2 ^ k)
    (h1 : (sq0.Init stats).minimum_ + (sq0.Init stats).branch_bins_ < idx)
    (h2 : idx < (sq0.Init stats).maximum_) :
    1 ≤ idx / 2 ^ k + 256 ∧ idx / 2 ^ k + 256 ≤ 510 ∧
    ∃ b layers last sq1 sq2 d,
      stats.coding_params_.branches_[(idx / 2 ^ k + 256).toNat]? = some b ∧
      (sq0.Init stats).GetHistogramProbIntervals idx = some (b :: layers ++ [last], sq1) ∧
      layers.length = stats.num_layer_ ∧ (∀ l ∈ layers, l.total_weights_ = 1) ∧
      last.total_weights_ = stats.weight_branch_last_layer_ ∧
      (sq0.Init stats).Decompress d0.InitProbInterval
        (DelayedCoding (b :: layers ++ [last]) ++ rest) = some (sq2, d, rest) ∧
      sq2.l_ = idx ∧ sq2.r_ = idx ∧ sq2.l_inf_ = false ∧ sq2.r_inf_ = false := by
  obtain ⟨p1, _, _, _, p5, p6, p7, p8, p9, _⟩ := Prepare_fields stats0 stats hprep
  rw [← p1, hbins] at p5 p6 p7 p8 p9
  rw [prepare_layers k hk] at p5 p6 p7
  dsimp only at p5 p6 p7
  have hBpos : (0 : Int) < 2 ^ k := by positivity
  have hm16 : (if k ≤ 16 then k else k - 16) ≤ 16 := by split <;> omega
  have htn : ((2 : Int) ^ (if k ≤ 16 then k else k - 16)).toNat
      = 2 ^ (if k ≤ 16 then k else k - 16) := by
    have : (2 : Int) ^ (if k ≤ 16 then k else k - 16)
        = ((2 ^ (if k ≤ 16 then k else k - 16) : Nat) : Int) := by push_cast; rfl
    rw [this, Int.toNat_ofNat]
  rw [htn] at p6 p7
  rw [p2ge_two_pow _ hm16] at p6
  have p6 : stats.mask_last_layer_ = (if k ≤ 16 then k else k - 16) :=
    (Option.some.inj p6).symm
  have hmin : stats.minimum_ + stats.branch_bins_est_ < idx := h1
  have hmax : idx < stats.maximum_ := h2
  rw [p8, hbins] at hmin
  rw [p9] at hmax
  have hq1 : -255 ≤ idx / 2 ^ k := by
    rw [Int.le_ediv_iff_mul_le hBpos]
    have : (2 : Int) ^ k * (-255 - 1) + 2 ^ k = -255 * 2 ^ k := by ring
    omega
  have hq2 : idx / 2 ^ k ≤ 254 := by
    have : idx / 2 ^ k < 255 := by
      apply Int.ediv_lt_of_lt_mul hBpos
      rw [Int.mul_comm]
      exact hmax
    omega
  have hidxlt : (idx / 2 ^ k + 256).toNat < weights.length := by
    rw [hwlen]
    have : kNumBranch = 512 := rfl
    omega
  have hw := getElem?_eq_some_getD weights _ 0 hidxlt
  have hpos : 0 < weights.getD (idx / 2 ^ k + 256).toNat 0 :=
    hwpos _ (getD_mem weights _ hidxlt)
  have hcase : ((if k ≤ 16 then 0 else 1) = 0 ∧ k = (if k ≤ 16 then k else k - 16)) ∨
      ((if k ≤ 16 then 0 else 1) = 1 ∧ k = (if k ≤ 16 then k else k - 16) + 16) := by
    by_cases h : k ≤ 16
    · left; rw [if_pos h, if_pos h]; exact ⟨rfl, rfl⟩
    · right; rw [if_neg h, if_neg h]; exact ⟨rfl, by omega⟩
  obtain ⟨b, layers, last, sq1, d, c1, c2, c3, c4, c5, c6⟩ := histogram_round_trip
    (sq0.Init stats) weights slots hok k _ _ hbins p5 p6 p7 hm16 hcase idx hq1 hq2 _ hw hpos
    d0 rest
  refine ⟨by omega, by omega, b, layers, last, sq1, _, d, c1, c2, ?_, c4, ?_, c6, rfl, rfl,
    rfl, rfl⟩
  · rw [c3, p5]
  · rw [c5, p7]

theorem Prepare_some (s : NumericalStats) (hb : 1 ≤ s.branch_bins_est_)
    (hb2 : s.branch_bins_est_ < 2 ^ 63) : ∃ s1, s.Prepare = some s1 := by
  have hl := layerLoop_pos 4 0 s.branch_bins_est_ hb
  obtain ⟨mask, hmask⟩ := p2ge_layers s.branch_bins_est_ hb2
  unfold NumericalStats.Prepare
  dsimp only
  rw [if_neg (by omega), hmask]
  exact ⟨_, rfl⟩

theorem NumericalSquID_histogram_recovers_bin_witness :
    ∃ t slots stats, TableOK (List.replicate 512 128) t slots ∧
      NumericalStats.Prepare
        { NumericalStats.fresh with branch_bins_est_ := 2 ^ 17, coding_params_ := t,
                                    bin_size_ := 1 } = some stats ∧
      stats.branch_bins_est_ = 2 ^ 17 ∧ stats.num_layer_ = 1 ∧
      (1 ≤ (-200000 : Int) / 2 ^ 17 + 256 ∧ (-200000 : Int) / 2 ^ 17 + 256 ≤ 510 ∧
      ∃ b layers last sq1 sq2 d,
        stats.coding_params_.branches_[((-200000 : Int) / 2 ^ 17 + 256).toNat]? = some b ∧
        ((NumericalSquID.create 1 true).Init stats).GetHistogramProbIntervals (-200000)
          = some (b :: layers ++ [last], sq1) ∧
        layers.length = stats.num_layer_ ∧ (∀ l ∈ layers, l.total_weights_ = 1) ∧
        last.total_weights_ = stats.weight_branch_last_layer_ ∧
        ((NumericalSquID.create 1 true).Init stats).Decompress
          (Decoder.InitProbInterval ⟨0, 1, 0, false, 0⟩)
          (DelayedCoding (b :: layers ++ [last]) ++ [7]) = some (sq2, d, [7]) ∧
        sq2.l_ = -200000 ∧ sq2.r_ = -200000 ∧ sq2.l_inf_ = false ∧ sq2.r_inf_ = false) := by
  have hsum : (List.replicate 512 128).sum = 65536 := by
    rw [List.sum_replicate]; rfl
  obtain ⟨t, slots, _, hok⟩ := buildTable_ok _ hsum
  obtain ⟨stats, hprep⟩ := Prepare_some
    { NumericalStats.fresh with branch_bins_est_ := 2 ^ 17, coding_params_ := t, bin_size_ := 1 }
    (by show (1 : Int) ≤ 2 ^ 17; decide) (by show (2 : Int) ^ 17 < 2 ^ 63; decide)
  obtain ⟨p1, p2, _, _, p5, _, _, p8, p9, _⟩ := Prepare_fields _ stats hprep
  have hb : stats.branch_bins_est_ = 2 ^ 17 := p1
  have hn : stats.num_layer_ = 1 := by
    rw [p5]
    show (layerLoop 4 0 (2 ^ 17)).1 = 1
    decide
  have hmin : stats.minimum_ = 2 ^ 17 * (-255 - 1) := p8
  have hmax : stats.maximum_ = 2 ^ 17 * 255 := p9
  exact ⟨t, slots, stats, hok, hprep, hb, hn,
    NumericalSquID_histogram_recovers_bin _ stats (NumericalSquID.create 1 true)
      (List.replicate 512 128) slots 17 (-200000) ⟨0, 1, 0, false, 0⟩ [7] hprep
      (by rw [p2]; exact hok) (List.length_replicate _ _)
      (by intro w hw; rw [List.eq_of_mem_replicate hw]; decide) (by decide) hb
      (by
        show stats.minimum_ + stats.branch_bins_est_ < -200000
        rw [hmin, hb]
        decide)
      (by
        show (-200000 : Int) < stats.maximum_
        rw [hmax]
        decide)⟩
theorem simpleHalf (br : Nat) (hbr : br < 2) :
    ∃ b, GetSimpleBranch 32768 br = some b ∧ BranchOK b ∧ b.total_weights_ = 32768 ∧
      ∀ n, n < 32768 → GetEmbeddedBytes b.segments_ n = br * 32768 + n := by
  obtain ⟨b, h1, h2, h3, _, h5⟩ := GetSimpleBranch_ok 2 br (by decide) (by decide) hbr
  rw [show 65536 / 2 = 32768 from rfl] at h1 h3 h5
  exact ⟨b, h1, h2, h3, h5⟩

theorem HasNextBranch_of_inv (sq : NumericalSquID) (idx : Int) (h : SearchInv sq idx) :
    sq.HasNextBranch = true ↔ 1 ≤ sq.searchBound idx := by
  obtain ⟨hdev, hstep, hknown, hleft, hright⟩ := h
  unfold NumericalSquID.HasNextBranch NumericalSquID.searchBound
  rw [if_neg (not_lt.2 hdev)]
  cases hl : sq.l_inf_ <;> cases hr : sq.r_inf_
  · have h1 := hleft hl
    have h2 := hright hr
    simp only [Bool.not_false, Bool.and_true, Bool.not_eq_true', beq_eq_false_iff_ne, ne_eq,
      Bool.and_self, if_true]
    constructor
    · intro hne
      have : sq.r_ ≠ sq.l_ := hne
      omega
    · intro hb hne
      rw [hne] at hb
      simp at hb
  · simp
  · simp
  · rcases hknown with h | h
    · rw [hl] at h; exact absurd h (by decide)
    · rw [hr] at h; exact absurd h (by decide)

theorem search_step (sq : NumericalSquID) (idx : Int) (h : SearchInv sq idx)
    (hb : 1 ≤ sq.searchBound idx) :
    SearchInv (if idx > sq.nextMid then { sq with mid_ := sq.nextMid }.SetLeft (sq.nextMid + 1)
      else { sq with mid_ := sq.nextMid }.SetRight sq.nextMid) idx ∧
    (if idx > sq.nextMid then { sq with mid_ := sq.nextMid }.SetLeft (sq.nextMid + 1)
      else { sq with mid_ := sq.nextMid }.SetRight sq.nextMid).searchBound idx
      < sq.searchBound idx := by
  obtain ⟨hdev, hstep, hknown, hleft, hright⟩ := h
  have hst : (1 : Int) ≤ (sq.step_ : Int) := by exact_mod_cast hstep
  have hmid : sq.nextMid =
      if sq.l_inf_ = false ∧ sq.r_inf_ = false then sq.l_ + (sq.r_ - sq.l_ + 1) / 2 - 1
      else if sq.l_inf_ = true then sq.r_ - sq.step_ else sq.l_ + sq.step_ - 1 := by
    unfold NumericalSquID.nextMid
    cases hl : sq.l_inf_ <;> cases hr : sq.r_inf_
    · have h1 := hleft hl
      have h2 := hright hr
      simp only [Bool.not_false, Bool.and_self, if_true, Bool.false_eq_true, if_false,
        and_self]
      rw [Int.tdiv_eq_ediv (by omega) (by decide)]
    · simp
    · simp
    · simp
  unfold NumericalSquID.searchBound at hb ⊢
  generalize sq.nextMid = mid at hmid ⊢
  by_cases hgt : idx > mid
  · rw [if_pos hgt]
    simp only [NumericalSquID.SetLeft]
    cases hl : sq.l_inf_ <;> cases hr : sq.r_inf_
    · have h1 := hleft hl
      have h2 := hright hr
      rw [hl, hr] at hb hmid
      simp only [Bool.not_false, Bool.and_self, if_true, and_self] at hb hmid ⊢
      try simp at hmid
      refine ⟨⟨hdev, hstep, Or.inl rfl, fun _ => ?_, fun _ => ?_⟩, ?_⟩ <;> dsimp only <;> omega
    · have h1 := hleft hl
      rw [hl, hr] at hb hmid
      simp only [Bool.not_false, Bool.not_true, Bool.and_false, Bool.false_eq_true,
        if_false, and_false] at hb hmid ⊢
      try simp at hmid
      refine ⟨⟨hdev, hstep, Or.inl rfl, fun _ => ?_, fun hc => ?_⟩, ?_⟩
      · dsimp only; omega
      · simp at hc
      · dsimp only; omega
    · have h2 := hright hr
      rw [hl, hr] at hb hmid
      simp only [Bool.not_false, Bool.not_true, Bool.false_and, Bool.false_eq_true,
        if_false, if_true, false_and, Bool.and_self] at hb hmid ⊢
      try simp at hmid
      refine ⟨⟨hdev, hstep, Or.inl rfl, fun _ => ?_, fun _ => ?_⟩, ?_⟩
      · dsimp only; omega
      · exact h2
      · dsimp only; omega
    · rcases hknown with h | h
      · rw [hl] at h; exact absurd h (by decide)
      · rw [hr] at h; exact absurd h (by decide)
  · rw [if_neg hgt]
    simp only [NumericalSquID.SetRight]
    cases hl : sq.l_inf_ <;> cases hr : sq.r_inf_
    · have h1 := hleft hl
      have h2 := hright hr
      rw [hl, hr] at hb hmid
      simp only [Bool.not_false, Bool.and_self, if_true, and_self] at hb hmid ⊢
      try simp at hmid
      refine ⟨⟨hdev, hstep, Or.inr rfl, fun _ => ?_, fun _ => ?_⟩, ?_⟩
      · exact h1
      · dsimp only; omega
      · dsimp only; omega
    · have h1 := hleft hl
      rw [hl, hr] at hb hmid
      simp only [Bool.not_false, Bool.not_true, Bool.and_false, Bool.false_eq_true,
        if_false, and_false, Bool.and_self, if_true] at hb hmid ⊢
      try simp at hmid
      refine ⟨⟨hdev, hstep, Or.inr rfl, fun _ => ?_, fun _ => ?_⟩, ?_⟩
      · exact h1
      · dsimp only; omega
      · dsimp only; omega
    · have h2 := hright hr
      rw [hl, hr] at hb hmid
      simp only [Bool.not_false, Bool.not_true, Bool.false_and, Bool.false_eq_true,
        if_false, if_true, false_and] at hb hmid ⊢
      try simp at hmid
      refine ⟨⟨hdev, hstep, Or.inr rfl, fun hc => ?_, fun _ => ?_⟩, ?_⟩
      · simp at hc
      · dsimp only; omega
      · dsimp only; omega
    · rcases hknown with h | h
      · rw [hl] at h; exact absurd h (by decide)
      · rw [hr] at h; exact absurd h (by decide)

theorem expEncodeLoop_step (fuel : Nat) (sq : NumericalSquID) (idx : Int)
    (hnext : sq.HasNextBranch = true) :
    sq.expEncodeLoop (fuel + 1) idx =
      (GetSimpleBranch 32768 (if idx > sq.nextMid then 1 else 0)).bind fun b =>
        ((if idx > sq.nextMid then { sq with mid_ := sq.nextMid }.SetLeft (sq.nextMid + 1)
          else { sq with mid_ := sq.nextMid }.SetRight sq.nextMid).expEncodeLoop fuel idx).bind
          fun r => some (b :: r.1, r.2) := by
  rw [NumericalSquID.expEncodeLoop, if_pos hnext]
  by_cases hgt : idx > sq.nextMid
  · simp only [hgt, if_true]
    rfl
  · simp only [hgt, if_false]
    rfl

theorem expEncodeLoop_spec : ∀ (fuel : Nat) (sq : NumericalSquID) (idx : Int),
    SearchInv sq idx → sq.searchBound idx ≤ fuel →
    ∃ bs sq2, sq.expEncodeLoop fuel idx = some (bs, sq2) ∧ sq2.l_ = idx ∧ sq2.r_ = idx ∧
      sq2.l_inf_ = false ∧ sq2.r_inf_ = false ∧ sq2.HasNextBranch = false ∧
      bs.length ≤ sq.searchBound idx ∧
      ∀ b ∈ bs, BranchOK b ∧ b.total_weights_ = 32768 ∧
        (GetSimpleBranch 32768 0 = some b ∨ GetSimpleBranch 32768 1 = some b) := by
  intro fuel
  induction fuel with
  | zero =>
    intro sq idx hinv hfuel
    have hn : sq.HasNextBranch = false := by
      cases h : sq.HasNextBranch with
      | false => rfl
      | true =>
        have := (HasNextBranch_of_inv sq idx hinv).1 h
        omega
    have hn0 := hn
    unfold NumericalSquID.HasNextBranch at hn
    rw [if_neg (not_lt.2 hinv.dev)] at hn
    simp only [Bool.not_eq_false', Bool.and_eq_true, beq_iff_eq, Bool.not_eq_true'] at hn
    refine ⟨[], sq, by simp [NumericalSquID.expEncodeLoop, hn0], ?_, ?_, hn.1.2, hn.2, hn0,
      Nat.zero_le _, by simp⟩
    · have := hinv.left hn.1.2
      have := hinv.right hn.2
      omega
    · have := hinv.left hn.1.2
      have := hinv.right hn.2
      omega
  | succ n ih =>
    intro sq idx hinv hfuel
    cases hnx : sq.HasNextBranch with
    | false =>
      have hn := hnx
      unfold NumericalSquID.HasNextBranch at hn
      rw [if_neg (not_lt.2 hinv.dev)] at hn
      simp only [Bool.not_eq_false', Bool.and_eq_true, beq_iff_eq, Bool.not_eq_true'] at hn
      refine ⟨[], sq, by simp [NumericalSquID.expEncodeLoop, hnx], ?_, ?_, hn.1.2, hn.2, hnx,
        Nat.zero_le _, by simp⟩
      · have := hinv.left hn.1.2
        have := hinv.right hn.2
        omega
      · have := hinv.left hn.1.2
        have := hinv.right hn.2
        omega
    | true =>
      have hb := (HasNextBranch_of_inv sq idx hinv).1 hnx
      obtain ⟨hinv1, hlt⟩ := search_step sq idx hinv hb
      obtain ⟨bs, sq2, henc, e1, e2, e3, e4, e5, e6, e7⟩ := ih _ idx hinv1 (by omega)
      obtain ⟨b, hg, hbok, hbw, _⟩ := simpleHalf (if idx > sq.nextMid then 1 else 0)
        (by split_ifs <;> decide)
      refine ⟨b :: bs, sq2, ?_, e1, e2, e3, e4, e5, ?_, ?_⟩
      · rw [expEncodeLoop_step n sq idx hnx, hg, Option.some_bind, henc, Option.some_bind]
      · rw [List.length_cons]; omega
      · intro x hx
        rcases List.mem_cons.1 hx with h | h
        · rw [h]
          refine ⟨hbok, hbw, ?_⟩
          by_cases hgt : idx > sq.nextMid
          · rw [if_pos hgt] at hg; exact Or.inr hg
          · rw [if_neg hgt] at hg; exact Or.inl hg
        · exact e7 x h

theorem half_word (br n : Nat) (hn : n < 32768) :
    (br * 32768 + n) >>> 15 = br ∧ (br * 32768 + n) &&& 32767 = n := by
  constructor
  · rw [Nat.shiftRight_eq_div_pow]
    omega
  · rw [show (32767 : Nat) = 2 ^ 15 - 1 from rfl, Nat.and_pow_two_sub_one_eq_mod]
    omega

theorem ExpDecompress_replay : ∀ (fuel : Nat) (sq : NumericalSquID) (idx : Int)
    (bs : List Branch) (sq2 : NumericalSquID),
    sq.expEncodeLoop fuel idx = some (bs, sq2) → (∀ b ∈ bs, BranchOK b) →
    sq2.HasNextBranch = false →
    ∀ (den : Nat) (virt : Bool) (d : Decoder) (words rest : List Nat) (fuel2 : Nat),
      DecInv den virt (encodeFrom bs den virt) d words rest → bs.length ≤ fuel2 →
      ∃ d2, sq.ExpDecompress fuel2 d words = some (sq2, d2, rest) := by
  intro fuel
  induction fuel with
  | zero =>
    intro sq idx bs sq2 henc _ _ den virt d words rest fuel2 hinv _
    cases hnx : sq.HasNextBranch with
    | true => simp [NumericalSquID.expEncodeLoop, hnx] at henc
    | false =>
      simp only [NumericalSquID.expEncodeLoop, hnx, Bool.false_eq_true, if_false,
        Option.some.injEq, Prod.mk.injEq] at henc
      obtain ⟨e1, e2⟩ := henc
      subst e1 e2
      have := DecInv_nil_words _ _ _ _ _ hinv
      exact ⟨d, by rw [ExpDecompress_of_not_next _ _ _ _ hnx, this]⟩
  | succ n ih =>
    intro sq idx bs sq2 henc hbs hfin den virt d words rest fuel2 hinv hlen
    cases hnx : sq.HasNextBranch with
    | false =>
      simp only [NumericalSquID.expEncodeLoop, hnx, Bool.false_eq_true, if_false,
        Option.some.injEq, Prod.mk.injEq] at henc
      obtain ⟨e1, e2⟩ := henc
      subst e1 e2
      have := DecInv_nil_words _ _ _ _ _ hinv
      exact ⟨d, by rw [ExpDecompress_of_not_next _ _ _ _ hnx, this]⟩
    | true =>
      rw [expEncodeLoop_step n sq idx hnx] at henc
      have hbr : (if idx > sq.nextMid then 1 else 0 : Nat) < 2 := by split_ifs <;> decide
      obtain ⟨b, hg, hbok, hbw, hemb⟩ := simpleHalf _ hbr
      rw [hg, Option.some_bind] at henc
      cases hloop : (if idx > sq.nextMid then
          { sq with mid_ := sq.nextMid }.SetLeft (sq.nextMid + 1)
        else { sq with mid_ := sq.nextMid }.SetRight sq.nextMid).expEncodeLoop n idx with
      | none => rw [hloop] at henc; simp at henc
      | some r =>
        obtain ⟨bs1, sq3⟩ := r
        rw [hloop, Option.some_bind, Option.some.injEq, Prod.mk.injEq] at henc
        obtain ⟨e1, e2⟩ := henc
        subst e1 e2
        obtain ⟨d1, words1, hread, hdata, hinv1⟩ := DecInv_step b bs1 den virt d words rest
          hbs hinv
        rw [hbw] at hread hdata hinv1
        rw [hemb _ hdata] at hread
        obtain ⟨w1, w2⟩ := half_word (if idx > sq.nextMid then 1 else 0) _ hdata
        cases fuel2 with
        | zero => simp at hlen
        | succ f2 =>
          obtain ⟨d2, hdec⟩ := ih _ idx bs1 sq3 hloop
            (fun x hx => hbs x (List.mem_cons_of_mem _ hx)) hfin _ _ _ words1 rest f2 hinv1
            (by simpa using hlen)
          refine ⟨d2, ?_⟩
          rw [NumericalSquID.ExpDecompress, if_pos hnx]
          simp only [hread, Option.bind_eq_bind, Option.some_bind, w1, w2]
          rw [← hdec]
          by_cases hgt : idx > sq.nextMid
          · simp only [hgt, if_true]
            rfl
          · simp only [hgt, if_false]
            rfl

theorem encodeFrom_words_length (b : Branch) (rest : List Branch) (den : Nat) (virt : Bool) :
    (encodeFrom (b :: rest) den virt).2.length =
      (if virt then 0 else 1) + (encodeFrom rest (nextDen den b.total_weights_)
        (nextVirt den b.total_weights_)).2.length := by
  rw [encodeFrom_cons]
  unfold secondRunStep
  cases virt with
  | false => simp only [Bool.false_eq_true, if_false, List.length_cons]; omega
  | true => simp only [if_true]; omega

theorem halves_length : ∀ (bs : List Branch) (den : Nat) (virt : Bool) (k : Nat),
    (∀ b ∈ bs, b.total_weights_ = 32768) → den < 2 ^ 24 → den < 2 ^ (k + 1) →
    bs.length ≤ 16 * (encodeFrom bs den virt).2.length + (if virt then 16 else 0) + k := by
  intro bs
  induction bs with
  | nil => intro den virt k _ _ _; simp
  | cons b rest ih =>
    intro den virt k hbs h24 hk
    have hbw := hbs b (List.mem_cons_self _ _)
    have hrest : ∀ x ∈ rest, x.total_weights_ = 32768 :=
      fun x hx => hbs x (List.mem_cons_of_mem _ hx)
    rw [encodeFrom_words_length, hbw, List.length_cons]
    have hmod : den * 32768 % 2 ^ 64 = den * 32768 := Nat.mod_eq_of_lt (by omega)
    by_cases hov : 512 ≤ den
    · have hd : nextDen den 32768 = den / 2 := by
        unfold nextDen kDelayedCoding
        rw [hmod, Nat.shiftRight_eq_div_pow, Nat.shiftRight_eq_div_pow, if_pos (by omega)]
        omega
      have hv : nextVirt den 32768 = true := by
        unfold nextVirt kDelayedCoding
        rw [hmod, Nat.shiftRight_eq_div_pow]
        exact decide_eq_true (by omega)
      rw [hd, hv]
      cases k with
      | zero => omega
      | succ j =>
        have hj : den / 2 < 2 ^ (j + 1) := by
          rw [pow_succ] at hk
          omega
        have := ih (den / 2) true j hrest (by omega) hj
        simp only [if_true] at this
        cases virt with
        | false => simp only [Bool.false_eq_true, if_false]; omega
        | true => simp only [if_true]; omega
    · have hd : nextDen den 32768 = den * 32768 := by
        unfold nextDen kDelayedCoding
        rw [hmod, Nat.shiftRight_eq_div_pow, if_neg (by omega)]
      have hv : nextVirt den 32768 = false := by
        unfold nextVirt kDelayedCoding
        rw [hmod, Nat.shiftRight_eq_div_pow]
        exact decide_eq_false (by omega)
      rw [hd, hv]
      have hj : den * 32768 < 2 ^ (k + 15 + 1) := by
        rw [show k + 15 + 1 = (k + 1) + 15 from by omega, pow_add]
        have : (2 : Nat) ^ 15 = 32768 := by norm_num
        rw [this]
        exact Nat.mul_lt_mul_of_pos_right hk (by norm_num)
      have := ih (den * 32768) false (k + 15) hrest (by omega) hj
      simp only [Bool.false_eq_true, if_false] at this
      cases virt with
      | false => simp only [Bool.false_eq_true, if_false]; omega
      | true => simp only [if_true]; omega

theorem tail_round_trip (sq : NumericalSquID) (weights : List Nat)
    (slots : List ((Int × Nat) × (Int × Nat)))
    (hok : TableOK weights sq.coding_params_ slots) (hreset : sq.Reset = sq)
    (hwlen : weights.length = kNumBranch) (hwpos : ∀ w ∈ weights, 1 ≤ w)
    (hstep : 1 ≤ sq.step_) (hdev : (1 : ℚ) / 100000000 ≤ sq.dev_) (idx : Int)
    (htail : idx ≤ sq.minimum_ + sq.branch_bins_ ∨ sq.maximum_ ≤ idx) (d0 : Decoder)
    (rest : List Nat) (room : Nat)
    (hroom : (if idx ≤ sq.minimum_ + sq.branch_bins_
        then (sq.minimum_ + sq.branch_bins_ - idx).toNat else (idx - sq.maximum_).toNat)
        + sq.step_ + 2 ≤ room) :
    ∃ b bs sq1 d,
      sq.coding_params_.branches_[if idx ≤ sq.minimum_ + sq.branch_bins_ then 0
        else kNumBranch - 1]? = some b ∧
      sq.GetExpProbIntervals idx room = some (b :: bs, sq1) ∧
      (∀ x ∈ bs, GetSimpleBranch 32768 0 = some x ∨ GetSimpleBranch 32768 1 = some x) ∧
      bs.length ≤ (if idx ≤ sq.minimum_ + sq.branch_bins_
        then (sq.minimum_ + sq.branch_bins_ - idx).toNat else (idx - sq.maximum_).toNat)
        + sq.step_ + 1 ∧
      sq1.l_ = idx ∧ sq1.r_ = idx ∧ sq1.l_inf_ = false ∧ sq1.r_inf_ = false ∧
      sq.Decompress d0.InitProbInterval (DelayedCoding (b :: bs) ++ rest)
        = some (sq1, d, rest) := by
  have h511 : kNumBranch - 1 = 511 := by decide
  have hk : kNumBranch = 512 := by decide
  -- the state after the tail branch
  have hstart : SearchInv (if (if idx ≤ sq.minimum_ + sq.branch_bins_ then 0
        else kNumBranch - 1) = 0 then sq.SetRight (sq.minimum_ + sq.branch_bins_)
        else sq.SetLeft sq.maximum_) idx ∧
      (if (if idx ≤ sq.minimum_ + sq.branch_bins_ then 0 else kNumBranch - 1) = 0
        then sq.SetRight (sq.minimum_ + sq.branch_bins_)
        else sq.SetLeft sq.maximum_).searchBound idx =
      (if idx ≤ sq.minimum_ + sq.branch_bins_
        then (sq.minimum_ + sq.branch_bins_ - idx).toNat else (idx - sq.maximum_).toNat)
        + sq.step_ + 1 := by
    have hsqr : sq.l_inf_ = true ∧ sq.r_inf_ = true := by
      rw [← hreset]; exact ⟨rfl, rfl⟩
    by_cases hleft : idx ≤ sq.minimum_ + sq.branch_bins_
    · simp only [hleft, if_true]
      refine ⟨⟨hdev, hstep, Or.inr rfl, fun hc => ?_, fun _ => hleft⟩, ?_⟩
      · rw [show (sq.SetRight (sq.minimum_ + sq.branch_bins_)).l_inf_ = sq.l_inf_ from rfl,
          hsqr.1] at hc
        exact absurd hc (by decide)
      · unfold NumericalSquID.searchBound
        simp only [NumericalSquID.SetRight, hsqr.1, Bool.not_true, Bool.false_and,
          Bool.false_eq_true, if_false, if_true]
    · have hmax : sq.maximum_ ≤ idx := by
        rcases htail with h | h
        · exact absurd h hleft
        · exact h
      simp only [hleft, if_false, h511, show ¬ (511 = 0) from by decide]
      refine ⟨⟨hdev, hstep, Or.inl rfl, fun _ => hmax, fun hc => ?_⟩, ?_⟩
      · rw [show (sq.SetLeft sq.maximum_).r_inf_ = sq.r_inf_ from rfl, hsqr.2] at hc
        exact absurd hc (by decide)
      · unfold NumericalSquID.searchBound
        simp only [NumericalSquID.SetLeft, hsqr.2, Bool.not_true, Bool.and_false,
          Bool.false_eq_true, if_false, Bool.not_false]
  obtain ⟨hinv0, hbound⟩ := hstart
  obtain ⟨bs, sq1, henc, e1, e2, e3, e4, e5, e6, e7⟩ := expEncodeLoop_spec (room - 1)
    _ idx hinv0 (by rw [hbound]; omega)
  -- the tail branch of the table
  have hjl : (if idx ≤ sq.minimum_ + sq.branch_bins_ then 0 else kNumBranch - 1)
      < weights.length := by
    rw [hwlen, h511, hk]; split_ifs <;> decide
  obtain ⟨b, hb, hbok, hbw, hlook⟩ := hok.branchOK _ _ (List.getElem?_eq_getElem hjl)
    (hwpos _ (List.getElem_mem _))
  generalize weights[if idx ≤ sq.minimum_ + sq.branch_bins_ then 0 else kNumBranch - 1] = w
    at hb hbok hbw hlook
  have hgp : sq.GetExpProbIntervals idx room = some (b :: bs, sq1) := by
    unfold NumericalSquID.GetExpProbIntervals
    rw [if_neg (by omega)]
    simp only [Option.bind_eq_bind]
    rw [hb, Option.some_bind, henc, Option.some_bind]
  have hbs : ∀ x ∈ b :: bs, BranchOK x := by
    intro x hx
    rcases List.mem_cons.1 hx with h | h
    · rw [h]; exact hbok
    · exact (e7 x h).1
  obtain ⟨d1, words1, hread, hdata, hinv1⟩ := DecInv_step b bs 1 false _ _ rest hbs
    (DecInv_init (b :: bs) hbs d0 rest)
  rw [hbw] at hread hdata hinv1
  have hw16 : w ≤ 65536 := by rw [← hbw]; exact hbok.le
  have hw1 : 1 ≤ w := by rw [← hbw]; exact hbok.pos
  obtain ⟨_, hn1, hn2, hnv⟩ := nextDen_bounds 1 w (le_refl _) (by norm_num) hw1 hw16
  have hden17 : nextDen 1 w < 2 ^ (16 + 1) := by
    cases hv : nextVirt 1 w with
    | false => rw [hv] at hnv; simp only [Bool.false_eq_true, if_false] at hnv; omega
    | true => rw [hv] at hnv; simp only [if_true] at hnv; omega
  have hlen := halves_length bs (nextDen 1 w) (nextVirt 1 w) 16 (fun x hx => (e7 x hx).2.1)
    hn2 hden17
  have hfuel : bs.length ≤ 16 * words1.length + 48 := by
    rw [hinv1.words_eq, List.length_append]
    have : (if nextVirt 1 w = true then 16 else 0) ≤ 16 := by split_ifs <;> decide
    omega
  obtain ⟨d2, hdec⟩ := ExpDecompress_replay _ _ idx bs sq1 henc (fun x hx => (e7 x hx).1) e5
    _ _ _ words1 rest (16 * words1.length + 48) hinv1 hfuel
  refine ⟨b, bs, sq1, d2, hb, hgp, fun x hx => (e7 x hx).2.2, by rw [← hbound]; exact e6,
    e1, e2, e3, e4, ?_⟩
  unfold NumericalSquID.Decompress decodePick
  simp only [Option.bind_eq_bind]
  rw [hreset, hread]
  simp only [Option.some_bind, hlook _ hdata]
  rw [if_neg (by rw [h511]; split_ifs <;> simp)]
  exact hdec

theorem open_search_next (sq : NumericalSquID)
    (hdev : (1 : ℚ) / 100000000 ≤ sq.dev_) (hr : sq.r_inf_ = true) :
    sq.HasNextBranch = true := by
  unfold NumericalSquID.HasNextBranch
  rw [if_neg (not_lt.2 hdev), hr]
  simp

theorem open_search_mid (sq : NumericalSquID) (hl : sq.l_inf_ = false)
    (hr : sq.r_inf_ = true) : sq.nextMid = sq.l_ + sq.step_ - 1 := by
  unfold NumericalSquID.nextMid
  rw [hl, hr]
  rfl

/-- While the right bound of the search is unknown every pick moves `l_` by `step_` bins, so
a bin index at least `fuel * step_` bins behind `l_` takes more than `fuel` picks: the loop
writes behind an array with `fuel` entries left. -/
theorem expEncodeLoop_overflow : ∀ (fuel : Nat) (sq : NumericalSquID) (idx : Int),
    (1 : ℚ) / 100000000 ≤ sq.dev_ → sq.r_inf_ = true → sq.l_inf_ = false →
    sq.l_ + (fuel : Int) * (sq.step_ : Int) ≤ idx → sq.expEncodeLoop fuel idx = none := by
  intro fuel
  induction fuel with
  | zero =>
    intro sq idx hdev hr _ _
    rw [NumericalSquID.expEncodeLoop, if_pos (open_search_next sq hdev hr)]
  | succ n ih =>
    intro sq idx hdev hr hl hfar
    have hmid := open_search_mid sq hl hr
    have hnn : (0 : Int) ≤ (n : Int) * (sq.step_ : Int) :=
      Int.mul_nonneg (Int.ofNat_nonneg _) (Int.ofNat_nonneg _)
    have hexp : ((n + 1 : Nat) : Int) * (sq.step_ : Int)
        = (n : Int) * (sq.step_ : Int) + (sq.step_ : Int) := by
      push_cast; ring
    rw [hexp] at hfar
    have hgt : idx > sq.nextMid := by rw [hmid]; omega
    rw [expEncodeLoop_step n sq idx (open_search_next sq hdev hr), if_pos hgt, if_pos hgt]
    have hrec := ih ({ sq with mid_ := sq.nextMid }.SetLeft (sq.nextMid + 1)) idx hdev hr rfl
      (by
        show sq.nextMid + 1 + (n : Int) * (sq.step_ : Int) ≤ idx
        rw [hmid]; omega)
    rw [hrec]
    cases GetSimpleBranch 32768 1 <;> rfl

theorem GetExpProbIntervals_overflow (sq : NumericalSquID) (idx : Int) (room : Nat)
    (hreset : sq.Reset = sq) (hdev : (1 : ℚ) / 100000000 ≤ sq.dev_)
    (hfar : sq.maximum_ + ((room - 1 : Nat) : Int) * (sq.step_ : Int) ≤ idx)
    (hout : ¬ idx ≤ sq.minimum_ + sq.branch_bins_) :
    sq.GetExpProbIntervals idx room = none := by
  have hr : sq.r_inf_ = true := by rw [← hreset]; rfl
  unfold NumericalSquID.GetExpProbIntervals
  by_cases h0 : room = 0
  · rw [if_pos h0]
  · rw [if_neg h0, if_neg hout]
    have h511 : ¬ (kNumBranch - 1 = 0) := by decide
    simp only [Option.bind_eq_bind, if_neg h511]
    rw [expEncodeLoop_overflow (room - 1) (sq.SetLeft sq.maximum_) idx hdev hr rfl hfar]
    cases sq.coding_params_.branches_[kNumBranch - 1]? <;> rfl

/-- C33 (amended): for a numerical statistic with `step_ ≥ 1` and a mean absolute deviation
of at least `1e-8` (its table built from 512 positive weights), a bin index `idx` in a tail
(`idx ≤ minimum_ + branch_bins_` or `idx ≥ maximum_`) such that `idx ± step_` fits an
`int64_t`, and at least `(distance of idx from the tail boundary) + step_ + 2` entries left
in `prob_intervals`, `GetExpProbIntervals` returns: it picks the tail branch of the table
(0 on the left, 511 on the right) and then finitely many two-way picks of weight 32768, at
most the distance of `idx` from the tail boundary plus `step_ + 1`, and ends with
`l_ = r_ = idx`; `Decompress`, which replays those picks through `ExpDecompress`, returns on
the words `DelayedCoding` makes of them with the same state, `l_ = r_ = idx` and both bounds
known, and leaves the rest of the stream. -/
theorem NumericalSquID_tail_bisection (stats : NumericalStats) (sq0 : NumericalSquID)
    (weights : List Nat) (slots : List ((Int × Nat) × (Int × Nat))) (idx : Int)
    (d0 : Decoder) (rest : List Nat) (room : Nat)
    (hok : TableOK weights stats.coding_params_ slots)
    (hwlen : weights.length = kNumBranch) (hwpos : ∀ w ∈ weights, 1 ≤ w)
    (hstep : 1 ≤ stats.step_) (hdev : (1 : ℚ) / 100000000 ≤ stats.mean_abs_dev_)
    (hfit : -2 ^ 63 ≤ idx - stats.step_ ∧ idx + stats.step_ < 2 ^ 63)
    (htail : idx ≤ stats.minimum_ + stats.branch_bins_est_ ∨ stats.maximum_ ≤ idx)
    (hroom : (if idx ≤ stats.minimum_ + stats.branch_bins_est_
        then (stats.minimum_ + stats.branch_bins_est_ - idx).toNat
        else (idx - stats.maximum_).toNat) + stats.step_ + 2 ≤ room) :
    ∃ b bs sq1 d,
      stats.coding_params_.branches_[if idx ≤ stats.minimum_ + stats.branch_bins_est_ then 0
        else kNumBranch - 1]? = some b ∧
      (sq0.Init stats).GetExpProbIntervals idx room = some (b :: bs, sq1) ∧
      (∀ x ∈ bs, GetSimpleBranch 32768 0 = some x ∨ GetSimpleBranch 32768 1 = some x) ∧
      bs.length ≤ (if idx ≤ stats.minimum_ + stats.branch_bins_est_
        then (stats.minimum_ + stats.branch_bins_est_ - idx).toNat
        else (idx - stats.maximum_).toNat) + stats.step_ + 1 ∧
      sq1.l_ = idx ∧ sq1.r_ = idx ∧ sq1.l_inf_ = false ∧ sq1.r_inf_ = false ∧
      -2 ^ 63 ≤ sq1.l_ ∧ sq1.r_ < 2 ^ 63 ∧
      (sq0.Init stats).Decompress d0.InitProbInterval (DelayedCoding (b :: bs) ++ rest)
        = some (sq1, d, rest) := by
  obtain ⟨b, bs, sq1, d, h1, h2, h3, h4, h5, h6, h7, h8, h9⟩ :=
    tail_round_trip (sq0.Init stats) weights slots hok rfl hwlen hwpos hstep hdev idx htail
      d0 rest room hroom
  have hst : (0 : Int) ≤ (stats.step_ : Int) := Int.ofNat_nonneg _
  exact ⟨b, bs, sq1, d, h1, h2, h3, h4, h5, h6, h7, h8, by rw [h5]; omega, by rw [h6]; omega,
    h9⟩

theorem NumericalSquID_tail_bisection_witness :
    ∃ t slots, TableOK (List.replicate 512 128) t slots ∧
      ∃ b bs sq1 d,
        t.branches_[511]? = some b ∧
        ((NumericalSquID.create 1 true).Init
          { NumericalStats.fresh with
            coding_params_ := t, step_ := 3, mean_abs_dev_ := 1,
            branch_bins_est_ := 4, minimum_ := -1024, maximum_ := 1020 }).GetExpProbIntervals
          1031 16 = some (b :: bs, sq1) ∧
        bs.length ≤ 15 ∧ sq1.l_ = 1031 ∧ sq1.r_ = 1031 ∧
        ((NumericalSquID.create 1 true).Init
          { NumericalStats.fresh with
            coding_params_ := t, step_ := 3, mean_abs_dev_ := 1,
            branch_bins_est_ := 4, minimum_ := -1024, maximum_ := 1020 }).Decompress
          (Decoder.InitProbInterval ⟨0, 1, 0, false, 0⟩) (DelayedCoding (b :: bs) ++ [7])
          = some (sq1, d, [7]) := by
  have hsum : (List.replicate 512 128).sum = 65536 := by
    rw [List.sum_replicate]; rfl
  obtain ⟨t, slots, _, hok⟩ := buildTable_ok _ hsum
  obtain ⟨b, bs, sq1, d, h1, h2, _, h4, h5, h6, _, _, _, _, h9⟩ :=
    NumericalSquID_tail_bisection
      { NumericalStats.fresh with
        coding_params_ := t, step_ := 3, mean_abs_dev_ := 1,
        branch_bins_est_ := 4, minimum_ := -1024, maximum_ := 1020 }
      (NumericalSquID.create 1 true) (List.replicate 512 128) slots 1031 ⟨0, 1, 0, false, 0⟩ [7]
      16 hok (List.length_replicate _ _)
      (by intro w hw; rw [List.eq_of_mem_replicate hw]; decide)
      (show (1 : Nat) ≤ 3 from by decide)
      (show (1 : ℚ) / 100000000 ≤ 1 from by norm_num)
      (show (-2 ^ 63 : Int) ≤ 1031 - ((3 : Nat) : Int) ∧ (1031 : Int) + ((3 : Nat) : Int) < 2 ^ 63
        from by decide)
      (Or.inr (show (1020 : Int) ≤ 1031 from by decide))
      (show (if (1031 : Int) ≤ -1024 + 4 then ((-1024 : Int) + 4 - 1031).toNat
          else ((1031 : Int) - 1020).toNat) + 3 + 2 ≤ 16 from by decide)
  exact ⟨t, slots, hok, b, bs, sq1, d, h1, h2, h4, h5, h6, h9⟩

/-- C33 counterexample: a statistic with `step_ = 3`, mean absolute deviation 1, a table of
512 positive weights and `maximum_ = 1020`, and the bin index 40000 of the right tail
(`40000 ± 3` fits an `int64_t`). `prob_intervals` has `(block_size << 8) + 10000` entries,
10256 of them for block size 1; the search moves 3 bins per pick, so it takes more than
10255 picks and `GetExpProbIntervals` writes behind the end of `prob_intervals`: it does
not return a list of picks. With 38985 entries left it does. -/
theorem NumericalSquID_tail_bisection_counterexample :
    ∃ t slots, TableOK (List.replicate 512 128) t slots ∧
      (List.replicate 512 128).length = kNumBranch ∧ (∀ w ∈ List.replicate 512 128, 1 ≤ w) ∧
      (-2 ^ 63 : Int) ≤ 40000 - ((3 : Nat) : Int) ∧ (40000 : Int) + ((3 : Nat) : Int) < 2 ^ 63 ∧
      (1020 : Int) ≤ 40000 ∧
      ((NumericalSquID.create 1 true).Init
        { NumericalStats.fresh with
          coding_params_ := t, step_ := 3, mean_abs_dev_ := 1,
          branch_bins_est_ := 4, minimum_ := -1024, maximum_ := 1020 }).GetExpProbIntervals
        40000 ((1 <<< 8) + kIntervalSize) = none ∧
      ∃ b bs sq1,
        ((NumericalSquID.create 1 true).Init
          { NumericalStats.fresh with
            coding_params_ := t, step_ := 3, mean_abs_dev_ := 1,
            branch_bins_est_ := 4, minimum_ := -1024, maximum_ := 1020 }).GetExpProbIntervals
          40000 38985 = some (b :: bs, sq1) ∧ sq1.l_ = 40000 ∧ sq1.r_ = 40000 := by
  have hsum : (List.replicate 512 128).sum = 65536 := by
    rw [List.sum_replicate]; rfl
  obtain ⟨t, slots, _, hok⟩ := buildTable_ok _ hsum
  have hpos : ∀ w ∈ List.replicate 512 128, 1 ≤ w := by
    intro w hw; rw [List.eq_of_mem_replicate hw]; decide
  obtain ⟨b, bs, sq1, _, _, h2, _, _, h5, h6, _⟩ :=
    tail_round_trip ((NumericalSquID.create 1 true).Init
      { NumericalStats.fresh with
        coding_params_ := t, step_ := 3, mean_abs_dev_ := 1,
        branch_bins_est_ := 4, minimum_ := -1024, maximum_ := 1020 })
      (List.replicate 512 128) slots hok rfl (List.length_replicate _ _) hpos
      (show (1 : Nat) ≤ 3 from by decide)
      (show (1 : ℚ) / 100000000 ≤ 1 from by norm_num) 40000
      (Or.inr (show (1020 : Int) ≤ 40000 from by decide)) ⟨0, 1, 0, false, 0⟩ [] 38985
      (show (if (40000 : Int) ≤ -1024 + 4 then ((-1024 : Int) + 4 - 40000).toNat
          else ((40000 : Int) - 1020).toNat) + 3 + 2 ≤ 38985 from by decide)
  refine ⟨t, slots, hok, List.length_replicate _ _, hpos, by decide, by decide, by decide,
    ?_, b, bs, sq1, h2, h5, h6⟩
  exact GetExpProbIntervals_overflow _ 40000 _ rfl
    (show (1 : ℚ) / 100000000 ≤ 1 from by norm_num)
    (show (1020 : Int) + (((1 <<< 8) + kIntervalSize - 1 : Nat) : Int) * ((3 : Nat) : Int)
      ≤ 40000 from by decide)
    (show ¬ ((40000 : Int) ≤ -1024 + 4) from by decide)

theorem runEnd_spec (p : Nat → Bool) (str : List Nat) : ∀ (fuel k : Nat),
    k < str.length → p (str.getD k 0) = true →
    k ≤ runEnd p str fuel k ∧ runEnd p str fuel k < str.length ∧
      p (str.getD (runEnd p str fuel k) 0) = true := by
  intro fuel
  induction fuel with
  | zero => intro k hk hp; exact ⟨le_refl _, hk, hp⟩
  | succ n ih =>
    intro k hk hp
    rw [runEnd]
    by_cases h : k + 1 < str.length ∧ p (str.getD (k + 1) 0) = true
    · rw [if_pos h]
      obtain ⟨h1, h2, h3⟩ := ih (k + 1) h.1 h.2
      exact ⟨by omega, h2, h3⟩
    · rw [if_neg h]
      exact ⟨le_refl _, hk, hp⟩

/-- With enough fuel `runEnd` stops at the end of the run: the next character is not in
the class, and more fuel changes nothing. -/
theorem runEnd_fuel (p : Nat → Bool) (str : List Nat) : ∀ (fuel k : Nat),
    str.length ≤ k + 1 + fuel →
    ¬ (runEnd p str fuel k + 1 < str.length ∧ p (str.getD (runEnd p str fuel k + 1) 0) = true) ∧
    ∀ extra, runEnd p str (fuel + extra) k = runEnd p str fuel k := by
  intro fuel
  induction fuel with
  | zero =>
    intro k hk
    refine ⟨fun h => by simp only [runEnd] at h; omega, fun extra => ?_⟩
    cases extra with
    | zero => rfl
    | succ e =>
      rw [Nat.zero_add]
      simp only [runEnd]
      rw [if_neg (fun h => by omega)]
  | succ n ih =>
    intro k hk
    by_cases h : k + 1 < str.length ∧ p (str.getD (k + 1) 0) = true
    · obtain ⟨h1, h2⟩ := ih (k + 1) (by omega)
      refine ⟨by rw [runEnd, if_pos h]; exact h1, fun extra => ?_⟩
      rw [show n + 1 + extra = (n + extra) + 1 from by omega, runEnd, if_pos h, runEnd,
        if_pos h, h2]
    · refine ⟨by rw [runEnd, if_neg h]; exact h, fun extra => ?_⟩
      rw [show n + 1 + extra = (n + extra) + 1 from by omega, runEnd, if_neg h, runEnd,
        if_neg h]

theorem Delimiter2Id_spec (c : Nat) (h : isDelimiter c = true) :
    Delimiter2Id c ≠ StringSplitter.empty_ ∧ delimiters_rank2_.getD (Delimiter2Id c) 0 = c := by
  have hc : c = 47 ∨ c = 32 ∨ c = 35 ∨ c = 45 ∨ c = 95 ∨ c = 46 := by
    simpa [isDelimiter, delimiters_rank2_] using h
  rcases hc with h | h | h | h | h | h <;> subst h <;> decide

theorem isDelimiter_of_isRank1 (c : Nat) (h : isRank1 c = true) : isDelimiter c = true := by
  have hc : c = 47 ∨ c = 32 ∨ c = 35 := by
    simpa [isRank1, delimiters_rank1_] using h
  rcases hc with h | h | h <;> subst h <;> decide

theorem Cuts_append (str : List Nat) (e d : Nat) : ∀ (ws ds : List Nat) (start cur : Nat),
    Cuts str start ws ds cur → cur ≤ e → e < str.length →
    (d ≠ StringSplitter.empty_ → delimiters_rank2_.getD d 0 = str.getD e 0) →
    Cuts str start (ws ++ [e]) (ds ++ [d]) (e + if d ≠ StringSplitter.empty_ then 1 else 0) := by
  intro ws
  induction ws with
  | nil =>
    intro ds start cur h hcur he hd
    cases ds with
    | nil =>
      simp only [Cuts] at h
      subst h
      exact ⟨hcur, he, hd, rfl⟩
    | cons d1 ds1 => simp [Cuts] at h
  | cons w ws ih =>
    intro ds start cur h hcur he hd
    cases ds with
    | nil => simp [Cuts] at h
    | cons d1 ds1 =>
      obtain ⟨h1, h2, h3, h4⟩ := h
      exact ⟨h1, h2, h3, ih ds1 _ cur h4 hcur he hd⟩

theorem SplitInv_mono (str : List Nat) (st : SplitState) (cur k k1 : Nat)
    (h : SplitInv str st cur k) (h1 : k ≤ k1) (h2 : k1 ≤ str.length) :
    SplitInv str st cur k1 :=
  ⟨h.sorted, fun w hw => lt_of_lt_of_le (h.below w hw) h1, le_trans h.count h1, h.cuts,
    le_trans h.cur_le h1, h2⟩

theorem SplitInv_push (str : List Nat) (st : SplitState) (cur k e d start1 : Nat)
    (h : SplitInv str st cur k) (hk : k ≤ e) (he : e < str.length)
    (hd : d ≠ StringSplitter.empty_ → delimiters_rank2_.getD d 0 = str.getD e 0) :
    SplitInv str ⟨st.words_ ++ [e], st.delimiters_ ++ [d], start1⟩
      (e + if d ≠ StringSplitter.empty_ then 1 else 0) (e + 1) := by
  refine ⟨?_, ?_, ?_, ?_, ?_, he⟩
  · show (st.words_ ++ [e]).Pairwise (fun a b => a < b)
    rw [List.pairwise_append]
    refine ⟨h.sorted, List.pairwise_singleton _ _, fun a ha b hb => ?_⟩
    rw [List.mem_singleton.1 hb]
    exact lt_of_lt_of_le (h.below a ha) hk
  · intro w hw
    have hw1 : w ∈ st.words_ ++ [e] := hw
    rcases List.mem_append.1 hw1 with h1 | h1
    · have := h.below w h1
      omega
    · rw [List.mem_singleton.1 h1]; omega
  · show (st.words_ ++ [e]).length ≤ e + 1
    rw [List.length_append, List.length_singleton]
    have := h.count
    omega
  · exact Cuts_append str e d _ _ 0 cur h.cuts (le_trans h.cur_le hk) he hd
  · split_ifs <;> omega

theorem splitRank1_inv (str : List Nat) : ∀ (fuel k : Nat) (st : SplitState),
    SplitInv str st st.start st.start → st.start ≤ k → k ≤ str.length →
    SplitInv str (splitRank1 str fuel k st) (splitRank1 str fuel k st).start
      (splitRank1 str fuel k st).start := by
  intro fuel
  induction fuel with
  | zero => intro k st h _ _; exact h
  | succ n ih =>
    intro k st h hk hkn
    rw [splitRank1]
    by_cases hlt : k < str.length
    · rw [if_pos hlt]
      cases hp : isRank1 (str.getD k 0) with
      | false =>
        simp only [Bool.not_false, if_true]
        exact ih (k + 1) st h (by omega) hlt
      | true =>
        simp only [Bool.not_true, Bool.false_eq_true, if_false]
        obtain ⟨r1, r2, r3⟩ := runEnd_spec isRank1 str str.length k hlt hp
        obtain ⟨d1, d2⟩ := Delimiter2Id_spec _ (isDelimiter_of_isRank1 _ r3)
        have hpush := SplitInv_push str st st.start (runEnd isRank1 str str.length k)
          (runEnd isRank1 str str.length k)
          (Delimiter2Id (str.getD (runEnd isRank1 str str.length k) 0))
          (runEnd isRank1 str str.length k + 1)
          (SplitInv_mono str st _ _ _ h (le_trans hk r1) (le_of_lt r2)) (le_refl _) r2
          (fun _ => d2)
        rw [if_pos d1] at hpush
        exact ih _ _ hpush (le_refl _) r2
    · rw [if_neg hlt]
      exact h

theorem splitFine_inv (str : List Nat) : ∀ (fuel i : Nat) (st : SplitState) (cur : Nat),
    SplitInv str st cur i →
    ∃ cur1, SplitInv str (splitFine str fuel i st) cur1 str.length := by
  intro fuel
  induction fuel with
  | zero => intro i st cur h; exact ⟨cur, SplitInv_mono str st cur i _ h h.k_le (le_refl _)⟩
  | succ n ih =>
    intro i st cur h
    rw [splitFine]
    by_cases hlt : i < str.length
    · rw [if_pos hlt]
      by_cases hsplit : i > 0 ∧ ((isalpha (str.getD (i - 1) 0) && isdigit (str.getD i 0)) ||
          (islower (str.getD (i - 1) 0) && isupper (str.getD i 0))) = true
      · rw [if_pos hsplit]
        have hpush := SplitInv_push str st cur i i delimiters_rank2_.length st.start h
          (le_refl _) hlt (fun hc => absurd rfl hc)
        exact ih _ _ _ hpush
      · rw [if_neg hsplit]
        cases hp : isDelimiter (str.getD i 0) with
        | false =>
          simp only [Bool.false_eq_true, if_false]
          exact ih _ _ _ (SplitInv_mono str st cur i (i + 1) h (by omega) hlt)
        | true =>
          simp only [if_true]
          obtain ⟨r1, r2, r3⟩ := runEnd_spec isDelimiter str str.length i hlt hp
          obtain ⟨_, d2⟩ := Delimiter2Id_spec _ r3
          have hpush := SplitInv_push str st cur (runEnd isDelimiter str str.length i)
            (runEnd isDelimiter str str.length i)
            (Delimiter2Id (str.getD (runEnd isDelimiter str str.length i) 0)) st.start
            (SplitInv_mono str st _ _ _ h r1 (le_of_lt r2)) (le_refl _) r2 (fun _ => d2)
          exact ih _ _ _ hpush
    · rw [if_neg hlt]
      exact ⟨cur, SplitInv_mono str st cur i _ h h.k_le (le_refl _)⟩

theorem splitRank1_fuel (str : List Nat) : ∀ (fuel k : Nat) (st : SplitState),
    str.length ≤ k + fuel →
    ∀ extra, splitRank1 str (fuel + extra) k st = splitRank1 str fuel k st := by
  intro fuel
  induction fuel with
  | zero =>
    intro k st hk extra
    cases extra with
    | zero => rfl
    | succ e =>
      rw [Nat.zero_add]
      simp only [splitRank1]
      rw [if_neg (by omega)]
  | succ n ih =>
    intro k st hk extra
    rw [show n + 1 + extra = (n + extra) + 1 from by omega, splitRank1, splitRank1]
    by_cases hlt : k < str.length
    · rw [if_pos hlt, if_pos hlt]
      cases hp : isRank1 (str.getD k 0) with
      | false =>
        simp only [Bool.not_false, if_true]
        exact ih (k + 1) st (by omega) extra
      | true =>
        simp only [Bool.not_true, Bool.false_eq_true, if_false]
        obtain ⟨r1, _, _⟩ := runEnd_spec isRank1 str str.length k hlt hp
        exact ih _ _ (by omega) extra
    · rw [if_neg hlt, if_neg hlt]

theorem splitFine_fuel (str : List Nat) : ∀ (fuel i : Nat) (st : SplitState),
    str.length ≤ i + fuel →
    ∀ extra, splitFine str (fuel + extra) i st = splitFine str fuel i st := by
  intro fuel
  induction fuel with
  | zero =>
    intro i st hi extra
    cases extra with
    | zero => rfl
    | succ e =>
      rw [Nat.zero_add]
      simp only [splitFine]
      rw [if_neg (by omega)]
  | succ n ih =>
    intro i st hi extra
    rw [show n + 1 + extra = (n + extra) + 1 from by omega, splitFine, splitFine]
    by_cases hlt : i < str.length
    · rw [if_pos hlt, if_pos hlt]
      by_cases hsplit : i > 0 ∧ ((isalpha (str.getD (i - 1) 0) && isdigit (str.getD i 0)) ||
          (islower (str.getD (i - 1) 0) && isupper (str.getD i 0))) = true
      · rw [if_pos hsplit, if_pos hsplit]
        exact ih _ _ (by omega) extra
      · rw [if_neg hsplit, if_neg hsplit]
        cases hp : isDelimiter (str.getD i 0) with
        | false =>
          simp only [Bool.false_eq_true, if_false]
          exact ih _ _ (by omega) extra
        | true =>
          simp only [if_true]
          obtain ⟨r1, _, _⟩ := runEnd_spec isDelimiter str str.length i hlt hp
          exact ih _ _ (by omega) extra
    · rw [if_neg hlt, if_neg hlt]

theorem termLoop_cons (str : List Nat) (start e d : Nat) (rest ds : List Nat)
    (hne : rest ≠ []) :
    termLoop str start (e :: rest) (d :: ds) =
      (substr str start e, some d) ::
        termLoop str (e + if d ≠ StringSplitter.empty_ then 1 else 0) rest ds := by
  cases rest with
  | nil => exact absurd rfl hne
  | cons w ws => rw [termLoop]

theorem joinTerms_termLoop (str : List Nat) : ∀ (ws ds : List Nat) (start cur : Nat),
    Cuts str start ws ds cur → start ≤ str.length →
    joinTerms (termLoop str start (ws ++ [str.length]) ds) = str.drop start := by
  intro ws
  induction ws with
  | nil =>
    intro ds start cur _ hs
    rw [List.nil_append, termLoop, joinTerms, joinTerms, List.append_nil]
    unfold substr
    rw [if_neg (by omega), List.take_of_length_le (by rw [List.length_drop])]
  | cons e ws ih =>
    intro ds start cur h hs
    cases ds with
    | nil => simp [Cuts] at h
    | cons d ds1 =>
      obtain ⟨h1, h2, h3, h4⟩ := h
      rw [List.cons_append, termLoop_cons str start e d _ ds1 (by simp), joinTerms,
        ih ds1 _ cur h4 (by split_ifs <;> omega)]
      unfold substr
      rw [if_neg (by omega)]
      have hsplit : str.drop start = (str.drop start).take (e - start) ++ str.drop e := by
        conv_lhs => rw [← List.take_append_drop (e - start) (str.drop start)]
        rw [List.drop_drop, show start + (e - start) = e from by omega]
      by_cases hd : d ≠ StringSplitter.empty_
      · rw [if_pos hd, if_pos hd, h3 hd, List.append_assoc, hsplit]
        congr 1
        · rw [← hsplit]
        · rw [List.getD_eq_getElem _ _ h2]
          exact (List.drop_eq_getElem_cons h2).symm
      · rw [if_neg hd, if_neg hd, List.append_nil, Nat.add_zero]
        exact hsplit.symm

theorem or_one_ge (n : Nat) : n ≤ n ||| 1 := by
  have h1 : (n ||| 1) / 2 = n / 2 := by
    rw [Nat.or_div_two]; simp
  have h2 : (n ||| 1) % 2 = 1 := by
    rw [Nat.or_mod_two_eq_one]; right; rfl
  omega

theorem Cuts_length (str : List Nat) : ∀ (ws ds : List Nat) (start cur : Nat),
    Cuts str start ws ds cur → ds.length = ws.length := by
  intro ws
  induction ws with
  | nil =>
    intro ds start cur h
    cases ds with
    | nil => rfl
    | cons d ds1 => simp [Cuts] at h
  | cons w ws ih =>
    intro ds start cur h
    cases ds with
    | nil => simp [Cuts] at h
    | cons d ds1 =>
      rw [List.length_cons, List.length_cons, ih ds1 _ cur h.2.2.2]

theorem single_delimiter_entries (c : Nat) (hc : isDelimiter c = true) :
    (splitFine [c] 1 (splitRank1 [c] 1 0 ⟨[], [], 0⟩).start
      (splitRank1 [c] 1 0 ⟨[], [], 0⟩)).words_ = [0] := by
  have h : c = 47 ∨ c = 32 ∨ c = 35 ∨ c = 45 ∨ c = 95 ∨ c = 46 := by
    simpa [isDelimiter, delimiters_rank2_] using hc
  rcases h with h | h | h | h | h | h <;> subst h <;> decide

/-- C32 (what the code does): for every non-empty string `str`, the entries `ParseString`
records (the offsets written by its two loops, then `str.size()`) are strictly increasing
and end with `|str|`, there is one delimiter id per offset but the last, and the terms
`str.substr(start, end - start)` that `GetProbIntervals` cuts at these offsets, with
`start = end + 1` behind a real delimiter and `start = end` behind a split without
separator, joined with the character of each real delimiter, are `str` again. The loops
are run to their end (more fuel records the same entries). `ParseString` returns with
these entries when their number is below the size of the buffer, as it is whenever the
buffer has more than `|str| + 1` entries, and throws `BufferOverflowException` otherwise:
it throws on every string that is one delimiter character when the buffers have at most
2 entries (a new splitter, or one that has parsed one character only), so that
`GetProbIntervals` has no state to work on. -/
theorem StringSplitter_ParseString_offsets (s : StringSplitter) (str : List Nat)
    (hne : str ≠ []) :
    let st1 := splitRank1 str str.length 0 ⟨[], [], 0⟩
    let st2 := splitFine str str.length st1.start st1
    let words := st2.words_ ++ [str.length]
    let words_size :=
      if str.length ≥ s.words_size then (str.length ||| 1) <<< 1 else s.words_size
    words.Pairwise (fun a b => a < b) ∧ words.getLast? = some str.length ∧
    words.length ≤ str.length + 1 ∧ st2.delimiters_.length + 1 = words.length ∧
    joinTerms (termLoop str 0 words st2.delimiters_) = str ∧
    (∀ extra, splitRank1 str (str.length + extra) 0 ⟨[], [], 0⟩ = st1) ∧
    (∀ extra, splitFine str (str.length + extra) st1.start st1 = st2) ∧
    (s.ParseString str = if words.length ≥ words_size then none
      else some ⟨words_size, words.length, st1.words_.length, words, st2.delimiters_⟩) ∧
    (str.length + 1 < words_size →
      s.ParseString str = some ⟨words_size, words.length, st1.words_.length, words,
        st2.delimiters_⟩) ∧
    (2 ≤ str.length → s.words_size ≤ str.length →
      s.ParseString str = some ⟨(str.length ||| 1) <<< 1, words.length, st1.words_.length,
        words, st2.delimiters_⟩) ∧
    (∀ c, str = [c] → isDelimiter c = true → s.words_size ≤ 2 →
      words = [0, 1] ∧ s.ParseString str = none) := by
  intro st1 st2 words words_size
  have h0 : SplitInv str ⟨[], [], 0⟩ 0 0 :=
    ⟨List.Pairwise.nil, fun w hw => by simp at hw, Nat.zero_le _, rfl, le_refl _,
      Nat.zero_le _⟩
  have h1 : SplitInv str st1 st1.start st1.start :=
    splitRank1_inv str str.length 0 _ h0 (le_refl _) (Nat.zero_le _)
  obtain ⟨cur, h2⟩ := splitFine_inv str str.length st1.start st1 st1.start h1
  have hcount : words.length ≤ str.length + 1 := by
    show (st2.words_ ++ [str.length]).length ≤ str.length + 1
    rw [List.length_append, List.length_singleton]
    exact Nat.succ_le_succ h2.count
  have hparse : s.ParseString str = if words.length ≥ words_size then none
      else some ⟨words_size, words.length, st1.words_.length, words, st2.delimiters_⟩ := by
    unfold StringSplitter.ParseString
    rw [if_neg (by
      cases str with
      | nil => exact absurd rfl hne
      | cons a l => simp)]
  refine ⟨?_, List.getLast?_concat _, hcount, ?_, ?_, ?_, ?_, hparse, ?_, ?_, ?_⟩
  · show (st2.words_ ++ [str.length]).Pairwise (fun a b => a < b)
    rw [List.pairwise_append]
    refine ⟨h2.sorted, List.pairwise_singleton _ _, fun a ha b hb => ?_⟩
    rw [List.mem_singleton.1 hb]
    exact h2.below a ha
  · show st2.delimiters_.length + 1 = (st2.words_ ++ [str.length]).length
    rw [List.length_append, List.length_singleton, Cuts_length str _ _ 0 cur h2.cuts]
  · have := joinTerms_termLoop str _ _ 0 cur h2.cuts (Nat.zero_le _)
    rw [List.drop_zero] at this
    exact this
  · intro extra
    exact splitRank1_fuel str str.length 0 _ (by omega) extra
  · intro extra
    exact splitFine_fuel str str.length st1.start st1 (by omega) extra
  · intro hroom
    rw [hparse, if_neg (by omega)]
  · intro hlen hsz
    rw [hparse]
    have hws : words_size = (str.length ||| 1) <<< 1 := if_pos hsz
    have hge := or_one_ge str.length
    rw [hws, if_neg (by rw [Nat.shiftLeft_eq]; omega)]
  · intro c hstr hc hs
    have hw : words = [0, 1] := by
      show st2.words_ ++ [str.length] = [0, 1]
      have := single_delimiter_entries c hc
      subst hstr
      rw [show st2.words_ = [0] from this]
      rfl
    refine ⟨hw, ?_⟩
    rw [hparse, hw]
    have hsz : words_size ≤ 2 := by
      show (if str.length ≥ s.words_size then (str.length ||| 1) <<< 1 else s.words_size) ≤ 2
      subst hstr
      split_ifs
      · exact show ((1 : Nat) ||| 1) <<< 1 ≤ 2 from by decide
      · exact hs
    rw [if_pos (by show 2 ≥ words_size; exact hsz)]

theorem StringSplitter_ParseString_offsets_witness :
    ([46] : List Nat) ≠ [] ∧
    StringSplitter.fresh.ParseString [46] = none ∧
    StringSplitter.fresh.ParseString [120] = some ⟨2, 1, 0, [1], []⟩ ∧
    (⟨2, 1, 0, [1], []⟩ : StringSplitter).ParseString [47] = none ∧
    StringSplitter.fresh.ParseString [120, 47, 97, 98, 49, 45, 99, 68]
      = some ⟨18, 5, 1, [1, 4, 5, 7, 8], [0, 6, 3, 6]⟩ ∧
    termLoop [120, 47, 97, 98, 49, 45, 99, 68] 0 [1, 4, 5, 7, 8] [0, 6, 3, 6]
      = [([120], some 0), ([97, 98], some 6), ([49], some 3), ([99], some 6), ([68], none)] ∧
    joinTerms (termLoop [120, 47, 97, 98, 49, 45, 99, 68] 0 [1, 4, 5, 7, 8] [0, 6, 3, 6])
      = [120, 47, 97, 98, 49, 45, 99, 68] := by
  have h := StringSplitter_ParseString_offsets StringSplitter.fresh
    [120, 47, 97, 98, 49, 45, 99, 68] (by decide)
  have h46 := (StringSplitter_ParseString_offsets StringSplitter.fresh [46]
    (by decide)).2.2.2.2.2.2.2.2.2.2 46 rfl (by decide) (by decide)
  have h47 := (StringSplitter_ParseString_offsets ⟨2, 1, 0, [1], []⟩ [47]
    (by decide)).2.2.2.2.2.2.2.2.2.2 47 rfl (by decide) (by decide)
  exact ⟨by decide, h46.2, by decide, h47.2, h.2.2.2.2.2.2.2.2.2.1 (by decide) (by decide),
    by decide, h.2.2.2.2.1⟩

theorem orderLoop_spec (test : JSONModel → Bool) : ∀ (ms : List JSONModel) (i : Nat)
    (order : List Nat),
    order <+: orderLoop test ms i order ∧
    (order.Nodup → (orderLoop test ms i order).Nodup) ∧
    ∀ j, j ∈ orderLoop test ms i order ↔
      j ∈ order ∨ (i ≤ j ∧ ∃ m, ms[j - i]? = some m ∧ test m = true) := by
  intro ms
  induction ms with
  | nil =>
    intro i order
    refine ⟨List.prefix_refl _, fun h => h, fun j => ?_⟩
    simp [orderLoop]
  | cons m rest ih =>
    intro i order
    rw [orderLoop]
    by_cases ht : test m = true
    · rw [if_pos ht]
      by_cases hc : order.contains i = true
      · rw [if_pos hc]
        obtain ⟨h1, h2, h3⟩ := ih (i + 1) order
        have hmem : i ∈ order := by simpa using hc
        refine ⟨h1, h2, fun j => ?_⟩
        rw [h3 j]
        constructor
        · rintro (h | ⟨hj, m1, hm1, ht1⟩)
          · exact Or.inl h
          · refine Or.inr ⟨by omega, m1, ?_, ht1⟩
            rw [show j - i = (j - (i + 1)) + 1 from by omega, List.getElem?_cons_succ]
            exact hm1
        · rintro (h | ⟨hj, m1, hm1, ht1⟩)
          · exact Or.inl h
          · by_cases hji : j = i
            · subst hji; exact Or.inl hmem
            · refine Or.inr ⟨by omega, m1, ?_, ht1⟩
              rw [show j - i = (j - (i + 1)) + 1 from by omega, List.getElem?_cons_succ] at hm1
              exact hm1
      · rw [if_neg hc]
        obtain ⟨h1, h2, h3⟩ := ih (i + 1) (order ++ [i])
        have hmem : i ∉ order := by simpa using hc
        refine ⟨(List.prefix_append order [i]).trans h1, fun hn => h2 ?_, fun j => ?_⟩
        · rw [List.nodup_append]
          refine ⟨hn, List.nodup_singleton _, ?_⟩
          intro a ha hb
          rw [List.mem_singleton.1 hb] at ha
          exact hmem ha
        · rw [h3 j, List.mem_append, List.mem_singleton]
          constructor
          · rintro ((h | h) | ⟨hj, m1, hm1, ht1⟩)
            · exact Or.inl h
            · subst h
              exact Or.inr ⟨le_refl _, m, by rw [Nat.sub_self, List.getElem?_cons_zero], ht⟩
            · refine Or.inr ⟨by omega, m1, ?_, ht1⟩
              rw [show j - i = (j - (i + 1)) + 1 from by omega, List.getElem?_cons_succ]
              exact hm1
          · rintro (h | ⟨hj, m1, hm1, ht1⟩)
            · exact Or.inl (Or.inl h)
            · by_cases hji : j = i
              · exact Or.inl (Or.inr hji)
              · refine Or.inr ⟨by omega, m1, ?_, ht1⟩
                rw [show j - i = (j - (i + 1)) + 1 from by omega,
                  List.getElem?_cons_succ] at hm1
                exact hm1
    · rw [if_neg ht]
      obtain ⟨h1, h2, h3⟩ := ih (i + 1) order
      refine ⟨h1, h2, fun j => ?_⟩
      rw [h3 j]
      constructor
      · rintro (h | ⟨hj, m1, hm1, ht1⟩)
        · exact Or.inl h
        · refine Or.inr ⟨by omega, m1, ?_, ht1⟩
          rw [show j - i = (j - (i + 1)) + 1 from by omega, List.getElem?_cons_succ]
          exact hm1
      · rintro (h | ⟨hj, m1, hm1, ht1⟩)
        · exact Or.inl h
        · by_cases hji : j = i
          · subst hji
            rw [Nat.sub_self] at hm1
            have : m1 = m := by
              simp only [List.getElem?_cons_zero, Option.some.injEq] at hm1
              exact hm1.symm
            rw [this] at ht1
            exact absurd ht1 ht
          · refine Or.inr ⟨by omega, m1, ?_, ht1⟩
            rw [show j - i = (j - (i + 1)) + 1 from by omega, List.getElem?_cons_succ] at hm1
            exact hm1

theorem plain_member_fails_tests (m : JSONModel)
    (hplain : ∀ t ∈ m.types_, t = NodeType.kNullType ∨ t = NodeType.kFalseType ∨
      t = NodeType.kTrueType ∨ t = NodeType.kTimeSeriesType) :
    isLeafMember m = false ∧ isNonLeafMember m = false := by
  have hno : ∀ t, (t ≠ NodeType.kNullType ∧ t ≠ NodeType.kFalseType ∧ t ≠ NodeType.kTrueType ∧
      t ≠ NodeType.kTimeSeriesType) → m.types_.contains t = false := by
    intro t ht
    cases hc : m.types_.contains t with
    | false => rfl
    | true =>
      have hmem : t ∈ m.types_ := by simpa using hc
      rcases hplain t hmem with h | h | h | h
      · exact absurd h ht.1
      · exact absurd h ht.2.1
      · exact absurd h ht.2.2.1
      · exact absurd h ht.2.2.2
  unfold isLeafMember isNonLeafMember
  rw [hno NodeType.kNumberType (by decide), hno NodeType.kStringType (by decide),
    hno NodeType.kDoubleType (by decide), hno NodeType.kObjectType (by decide),
    hno NodeType.kArrayType (by decide)]
  exact ⟨rfl, rfl⟩

/-- C35 (what the code does): for a duplicate-free list `order` of valid member indices,
after `SetObjectOrdering(order)` the list `members_order_` starts with `order`, has no
duplicate, and holds besides `order` exactly the members that have a number, string,
double, object or array type. A member whose types are only null, false, true (or time
series) and that is not in `order` is not in `members_order_`: the loops of
`GetProbInterval` and of the decoder over `members_order_` never visit it. -/
theorem SetObjectOrdering_members (node : JSONModel) (order : List Nat)
    (hvalid : ∀ idx ∈ order, idx < node.object_members_.length) :
    order <+: (node.SetObjectOrdering order).members_order_ ∧
    (order.Nodup → (node.SetObjectOrdering order).members_order_.Nodup) ∧
    (node.SetObjectOrdering order).object_members_ = node.object_members_ ∧
    (∀ j, j ∈ (node.SetObjectOrdering order).members_order_ ↔
      j ∈ order ∨ ∃ m, node.object_members_[j]? = some m ∧
        (isLeafMember m = true ∨ isNonLeafMember m = true)) ∧
    (∀ j m, node.object_members_[j]? = some m → j ∉ order →
      (∀ t ∈ m.types_, t = NodeType.kNullType ∨ t = NodeType.kFalseType ∨
        t = NodeType.kTrueType ∨ t = NodeType.kTimeSeriesType) →
      j ∉ (node.SetObjectOrdering order).members_order_) := by
  obtain ⟨node_id, types, members, order0, array_member, e1, e2, e3⟩ := node
  have hany : order.any (fun idx => decide (idx ≥ members.length)) = false := by
    rw [List.any_eq_false]
    intro idx hidx
    have := hvalid idx hidx
    simp only [JSONModel.object_members_] at this
    simp only [decide_eq_true_eq]
    omega
  have hres : (JSONModel.mk node_id types members order0 array_member e1 e2 e3).SetObjectOrdering
      order = JSONModel.mk node_id types members
        (orderLoop isNonLeafMember members 0 (orderLoop isLeafMember members 0 order))
        array_member e1 e2 e3 := by
    rw [JSONModel.SetObjectOrdering, hany]
    rfl
  rw [hres]
  simp only [JSONModel.members_order_, JSONModel.object_members_]
  obtain ⟨a1, a2, a3⟩ := orderLoop_spec isLeafMember members 0 order
  obtain ⟨b1, b2, b3⟩ := orderLoop_spec isNonLeafMember members 0
    (orderLoop isLeafMember members 0 order)
  have hiff : ∀ j, j ∈ orderLoop isNonLeafMember members 0 (orderLoop isLeafMember members 0 order)
      ↔ j ∈ order ∨ ∃ m, members[j]? = some m ∧
        (isLeafMember m = true ∨ isNonLeafMember m = true) := by
    intro j
    rw [b3 j, a3 j]
    simp only [Nat.zero_le, true_and, Nat.sub_zero]
    constructor
    · rintro ((h | ⟨m, hm, ht⟩) | ⟨m, hm, ht⟩)
      · exact Or.inl h
      · exact Or.inr ⟨m, hm, Or.inl ht⟩
      · exact Or.inr ⟨m, hm, Or.inr ht⟩
    · rintro (h | ⟨m, hm, ht | ht⟩)
      · exact Or.inl (Or.inl h)
      · exact Or.inl (Or.inr ⟨m, hm, ht⟩)
      · exact Or.inr ⟨m, hm, ht⟩
  refine ⟨a1.trans b1, fun hn => b2 (a2 hn), trivial, hiff, ?_⟩
  intro j m hm hj hplain hin
  obtain ⟨p1, p2⟩ := plain_member_fails_tests m hplain
  rcases (hiff j).1 hin with h | ⟨m1, hm1, ht⟩
  · exact hj h
  · rw [hm, Option.some.injEq] at hm1
    subst hm1
    rw [p1, p2] at ht
    rcases ht with h | h <;> exact absurd h (by decide)

theorem SetObjectOrdering_members_witness :
    (∀ idx ∈ ([] : List Nat), idx < 2) ∧
    ((JSONModel.mk 65535 [NodeType.kObjectType]
        [JSONModel.mk 0 [NodeType.kTrueType] [] [] none ⟨[], 0, []⟩ ⟨[], 0, []⟩ ⟨[], 0, []⟩,
         JSONModel.mk 1 [NodeType.kNumberType] [] [] none ⟨[], 0, []⟩ ⟨[], 0, []⟩ ⟨[], 0, []⟩]
        [] none ⟨[], 0, []⟩ ⟨[], 0, []⟩ ⟨[], 0, []⟩).SetObjectOrdering []).members_order_ = [1] ∧
    0 ∉ ((JSONModel.mk 65535 [NodeType.kObjectType]
        [JSONModel.mk 0 [NodeType.kTrueType] [] [] none ⟨[], 0, []⟩ ⟨[], 0, []⟩ ⟨[], 0, []⟩,
         JSONModel.mk 1 [NodeType.kNumberType] [] [] none ⟨[], 0, []⟩ ⟨[], 0, []⟩ ⟨[], 0, []⟩]
        [] none ⟨[], 0, []⟩ ⟨[], 0, []⟩ ⟨[], 0, []⟩).SetObjectOrdering []).members_order_ := by
  refine ⟨fun idx h => absurd h (List.not_mem_nil idx), by decide, ?_⟩
  exact (SetObjectOrdering_members
    (JSONModel.mk 65535 [NodeType.kObjectType]
      [JSONModel.mk 0 [NodeType.kTrueType] [] [] none ⟨[], 0, []⟩ ⟨[], 0, []⟩ ⟨[], 0, []⟩,
       JSONModel.mk 1 [NodeType.kNumberType] [] [] none ⟨[], 0, []⟩ ⟨[], 0, []⟩ ⟨[], 0, []⟩]
      [] none ⟨[], 0, []⟩ ⟨[], 0, []⟩ ⟨[], 0, []⟩) []
    (fun idx h => absurd h (List.not_mem_nil idx))).2.2.2.2 0
    (JSONModel.mk 0 [NodeType.kTrueType] [] [] none ⟨[], 0, []⟩ ⟨[], 0, []⟩ ⟨[], 0, []⟩) rfl
    (List.not_mem_nil 0)
    (by
      intro t ht
      have : t = NodeType.kTrueType := by
        simpa [JSONModel.types_] using ht
      exact Or.inr (Or.inr (Or.inl this)))
theorem Read16BitFast_aligned (r : ByteReader) (h : r.position_ % 8 = 0) :
    r.Read16BitFast = r.Read16Bit := by
  have hbit : r.position_ &&& 7 = 0 := by rw [and_seven]; exact h
  unfold ByteReader.Read16BitFast ByteReader.Read16Bit
  rw [hbit]
  simp

theorem WriteLess_bits (w : SequenceByteWriter) (byte len : Nat) :
    (w.WriteLess byte len).bits_counter_ % 8 = (w.bits_counter_ + len) % 8 := by
  unfold SequenceByteWriter.WriteLess
  dsimp only
  split_ifs <;>
    first
    | rfl
    | (show ((w.bits_counter_ + len) &&& 7) % 8 = _
       rw [and_seven, Nat.mod_mod])

theorem WriteByte_bits (w : SequenceByteWriter) (byte : Nat) :
    (w.WriteByte byte).bits_counter_ % 8 = w.bits_counter_ % 8 := by
  unfold SequenceByteWriter.WriteByte
  rw [WriteLess_bits]
  omega

theorem Write16Bit_bits (w : SequenceByteWriter) (val : Nat) :
    (w.Write16Bit val).bits_counter_ % 8 = w.bits_counter_ % 8 := by
  unfold SequenceByteWriter.Write16Bit
  dsimp only
  rw [WriteByte_bits, WriteByte_bits]

theorem foldl_Write16Bit_bits (f : Nat → Nat) : ∀ (l : List Nat) (w : SequenceByteWriter),
    (l.foldl (fun w x => w.Write16Bit (f x)) w).bits_counter_ % 8 = w.bits_counter_ % 8 := by
  intro l
  induction l with
  | nil => intro w; rfl
  | cons a l ih => intro w; rw [List.foldl_cons, ih, Write16Bit_bits]

theorem writeWeights_bits (weights : List Nat) (w : SequenceByteWriter) :
    (writeWeights weights w).bits_counter_ % 8 = w.bits_counter_ % 8 := by
  unfold writeWeights
  induction weights generalizing w with
  | nil => rfl
  | cons a l ih =>
    rw [List.foldl_cons, ih]
    split_ifs <;> exact Write16Bit_bits _ _

theorem TableCategoricalModel_WriteModel_bits (m : TableCategoricalModel)
    (w : SequenceByteWriter) :
    (m.WriteModel w).bits_counter_ % 8 = w.bits_counter_ % 8 := by
  unfold TableCategoricalModel.WriteModel
  dsimp only
  have h1 : ∀ (l : List CategoricalStats) (w : SequenceByteWriter),
      (l.foldl (fun w stats => writeWeights stats.weight_ w) w).bits_counter_ % 8
        = w.bits_counter_ % 8 := by
    intro l
    induction l with
    | nil => intro w; rfl
    | cons a l ih => intro w; rw [List.foldl_cons, ih, writeWeights_bits]
  rw [h1, Write16Bit_bits, foldl_Write16Bit_bits (fun x => x), WriteByte_bits]

mutual
theorem WriteModel_bits_node : ∀ (node : JSONModel) (w : SequenceByteWriter),
    (node.WriteModel w).bits_counter_ % 8 = (w.bits_counter_ + 4 * node.numNodes) % 8
  | .mk node_id types members order array_member e1 e2 e3, w => by
    rw [JSONModel.WriteModel, JSONModel.numNodes]
    have hbase : (e2.WriteModel (e1.WriteModel
          (List.foldl (fun w idx => w.Write16Bit idx)
            ((w.Write16Bit node_id).Write16Bit order.length) order))).bits_counter_ % 8
        = w.bits_counter_ % 8 := by
      rw [TableCategoricalModel_WriteModel_bits, TableCategoricalModel_WriteModel_bits,
        foldl_Write16Bit_bits (fun x => x), Write16Bit_bits, Write16Bit_bits]
    generalize e2.WriteModel (e1.WriteModel
          (List.foldl (fun w idx => w.Write16Bit idx)
            ((w.Write16Bit node_id).Write16Bit order.length) order)) = w3 at hbase ⊢
    have h4 : (if array_member.isSome = true then e3.WriteModel (w3.WriteLess 1 1)
        else w3.WriteLess 0 1).bits_counter_ % 8 = (w.bits_counter_ + 1) % 8 := by
      split_ifs
      · rw [TableCategoricalModel_WriteModel_bits, WriteLess_bits, Nat.add_mod, hbase]
        omega
      · rw [WriteLess_bits, Nat.add_mod, hbase]
        omega
    generalize (if array_member.isSome = true then e3.WriteModel (w3.WriteLess 1 1)
        else w3.WriteLess 0 1) = w4 at h4 ⊢
    have h5 : (((w4.WriteLess 0 1).WriteLess 0 1).WriteLess 0 1).bits_counter_ % 8
        = (w.bits_counter_ + 4) % 8 := by
      have a1 := WriteLess_bits w4 0 1
      have a2 := WriteLess_bits (w4.WriteLess 0 1) 0 1
      have a3 := WriteLess_bits ((w4.WriteLess 0 1).WriteLess 0 1) 0 1
      omega
    generalize ((w4.WriteLess 0 1).WriteLess 0 1).WriteLess 0 1 = w5 at h5 ⊢
    have b1 := WriteModel_bits_members members (JSONModel.writeArray array_member w5)
    have b2 := WriteModel_bits_array array_member w5
    omega
theorem WriteModel_bits_array : ∀ (a : Option JSONModel) (w : SequenceByteWriter),
    (JSONModel.writeArray a w).bits_counter_ % 8
      = (w.bits_counter_ + 4 * JSONModel.numNodesArray a) % 8
  | none, w => by rw [JSONModel.writeArray, JSONModel.numNodesArray]; rfl
  | some member, w => by
    rw [JSONModel.writeArray, JSONModel.numNodesArray]
    exact WriteModel_bits_node member w
theorem WriteModel_bits_members : ∀ (ms : List JSONModel) (w : SequenceByteWriter),
    (JSONModel.writeMembers ms w).bits_counter_ % 8
      = (w.bits_counter_ + 4 * JSONModel.numNodesMembers ms) % 8
  | [], w => by rw [JSONModel.writeMembers, JSONModel.numNodesMembers]; rfl
  | member :: rest, w => by
    rw [JSONModel.writeMembers, JSONModel.numNodesMembers]
    have b1 := WriteModel_bits_members rest (JSONModel.WriteModel member w)
    have b2 := WriteModel_bits_node member w
    omega
end

set_option maxRecDepth 100000 in
theorem WriteModel_three_nodes_eval :
    (JSONModel.WriteModel
      (JSONModel.mk 65535 [NodeType.kObjectType]
        [JSONModel.mk 0 [NodeType.kTrueType] [] [] none ⟨[], 0, []⟩ ⟨[], 0, []⟩ ⟨[], 0, []⟩,
         JSONModel.mk 1 [NodeType.kNullType] [] [] none ⟨[], 0, []⟩ ⟨[], 0, []⟩ ⟨[], 0, []⟩]
        [0, 1] none ⟨[], 0, []⟩ ⟨[], 0, []⟩ ⟨[], 0, []⟩)
      (SequenceByteWriter.fresh.Write32Bit 1)).bits_counter_ = 8 * 39 + 4 ∧
    ((JSONModel.WriteModel
      (JSONModel.mk 65535 [NodeType.kObjectType]
        [JSONModel.mk 0 [NodeType.kTrueType] [] [] none ⟨[], 0, []⟩ ⟨[], 0, []⟩ ⟨[], 0, []⟩,
         JSONModel.mk 1 [NodeType.kNullType] [] [] none ⟨[], 0, []⟩ ⟨[], 0, []⟩ ⟨[], 0, []⟩]
        [0, 1] none ⟨[], 0, []⟩ ⟨[], 0, []⟩ ⟨[], 0, []⟩)
      (SequenceByteWriter.fresh.Write32Bit 1)).Write16Bit 43981).close
      = [0, 0, 0, 1, 255, 255, 0, 2, 0, 0, 0, 1, 0, 0, 0, 0, 0, 0, 0, 0, 0, 0, 0, 0, 0, 0, 0, 0,
         0, 0, 1, 0, 0, 0, 0, 0, 0, 0, 0, 10, 188, 208] ∧
    (ByteReader.Read16Bit
      ⟨[0, 0, 0, 1, 255, 255, 0, 2, 0, 0, 0, 1, 0, 0, 0, 0, 0, 0, 0, 0, 0, 0, 0, 0, 0, 0, 0, 0,
         0, 0, 1, 0, 0, 0, 0, 0, 0, 0, 0, 10, 188, 208], 8 * 39 + 4⟩).map Prod.fst
      = some 43981 ∧
    (ByteReader.Read16BitFast
      ⟨[0, 0, 0, 1, 255, 255, 0, 2, 0, 0, 0, 1, 0, 0, 0, 0, 0, 0, 0, 0, 0, 0, 0, 0, 0, 0, 0, 0,
         0, 0, 1, 0, 0, 0, 0, 0, 0, 0, 0, 10, 188, 208], 8 * 39 + 4⟩).map Prod.fst
      = some 2748 := by
  refine ⟨by decide, by decide, by decide, by decide⟩

/-- C36 (evaluation of the code): `JSONModel::WriteModel` writes four flag bits for every
node besides whole bytes, so after it the bit position in the byte has moved by 4 times
the number of nodes (for nodes without string, number or time-series model). For the tree
of an object with two members that are only true and only null (3 nodes), written behind
the 32 bits of the node count, the model ends at bit 316, in the middle of byte 39. The
first 16-bit word of the data region (here `0xABCD`) is written there by `Write16Bit`;
`Read16Bit` at position 316 returns it, but `Read16BitFast`, which `Decoder::Read16Bits`
uses, returns the bytes 39 and 40, `0x0ABC`. At every position that is a multiple of 8
the two reads agree. -/
theorem JSONModel_WriteModel_not_byte_aligned :
    (∀ (node : JSONModel) (w : SequenceByteWriter),
      (node.WriteModel w).bits_counter_ % 8 = (w.bits_counter_ + 4 * node.numNodes) % 8) ∧
    (∀ (stream : List Nat) (k : Nat),
      ByteReader.Read16BitFast ⟨stream, 8 * k⟩ = ByteReader.Read16Bit ⟨stream, 8 * k⟩) ∧
    (JSONModel.WriteModel
      (JSONModel.mk 65535 [NodeType.kObjectType]
        [JSONModel.mk 0 [NodeType.kTrueType] [] [] none ⟨[], 0, []⟩ ⟨[], 0, []⟩ ⟨[], 0, []⟩,
         JSONModel.mk 1 [NodeType.kNullType] [] [] none ⟨[], 0, []⟩ ⟨[], 0, []⟩ ⟨[], 0, []⟩]
        [0, 1] none ⟨[], 0, []⟩ ⟨[], 0, []⟩ ⟨[], 0, []⟩)
      (SequenceByteWriter.fresh.Write32Bit 1)).bits_counter_ = 8 * 39 + 4 ∧
    ((JSONModel.WriteModel
      (JSONModel.mk 65535 [NodeType.kObjectType]
        [JSONModel.mk 0 [NodeType.kTrueType] [] [] none ⟨[], 0, []⟩ ⟨[], 0, []⟩ ⟨[], 0, []⟩,
         JSONModel.mk 1 [NodeType.kNullType] [] [] none ⟨[], 0, []⟩ ⟨[], 0, []⟩ ⟨[], 0, []⟩]
        [0, 1] none ⟨[], 0, []⟩ ⟨[], 0, []⟩ ⟨[], 0, []⟩)
      (SequenceByteWriter.fresh.Write32Bit 1)).Write16Bit 43981).close
      = [0, 0, 0, 1, 255, 255, 0, 2, 0, 0, 0, 1, 0, 0, 0, 0, 0, 0, 0, 0, 0, 0, 0, 0, 0, 0, 0, 0,
         0, 0, 1, 0, 0, 0, 0, 0, 0, 0, 0, 10, 188, 208] ∧
    (ByteReader.Read16Bit
      ⟨[0, 0, 0, 1, 255, 255, 0, 2, 0, 0, 0, 1, 0, 0, 0, 0, 0, 0, 0, 0, 0, 0, 0, 0, 0, 0, 0, 0,
         0, 0, 1, 0, 0, 0, 0, 0, 0, 0, 0, 10, 188, 208], 8 * 39 + 4⟩).map Prod.fst
      = some 43981 ∧
    (ByteReader.Read16BitFast
      ⟨[0, 0, 0, 1, 255, 255, 0, 2, 0, 0, 0, 1, 0, 0, 0, 0, 0, 0, 0, 0, 0, 0, 0, 0, 0, 0, 0, 0,
         0, 0, 1, 0, 0, 0, 0, 0, 0, 0, 0, 10, 188, 208], 8 * 39 + 4⟩).map Prod.fst
      = some 2748 := by
  refine ⟨WriteModel_bits_node, fun stream k => ?_, WriteModel_three_nodes_eval⟩
  exact Read16BitFast_aligned _ (Nat.mul_mod_right 8 k)

end db_compress
